import Mathlib

/-!
# A shallow embedding of the JPEG decoder `jpeg2/reader.go`

Source: `src/ImageProcessorCore/Formats/Jpg/jpeg2/reader.go`.

Conventions of the embedding.

* Go's `uint8`, `uint16` and `uint32` values are natural numbers, reduced modulo
  `2^8`, `2^16`, `2^32` wherever the Go operation can overflow; `int32` values
  are integers, wrapped by `wrap32` wherever the Go operation can overflow; Go's
  `int` (64 bit) values never overflow in this program and are `Nat` or `Int`.
* A Go function returning `(x, error)` becomes a function into `Except Err _`.
  The decoder is created afresh by `Decode` / `DecodeConfig` and dropped when
  they return, so a failing step does not return the mutated state, except for
  the byte-level readers, whose caller `decodeHuffman` inspects the state after
  a failure.
* A Go run-time panic (explicit `panic`, index out of range) is the error
  `Err.panic`.
* The `io.Reader` is an in-memory byte source: `Read` delivers as many of the
  remaining bytes as fit into the destination, and `io.EOF` when none remain.
* The diagnostic `fmt.Printf` calls have no effect on the decoder and are left
  out.
-/

namespace Jpeg

/-! ## Errors -/

/-- The errors of the decoder: `FormatError`, `UnsupportedError`, the two `io`
errors the reader can produce, and Go run-time panics. `outOfFuel` is returned
by a bounded loop of the embedding whose bound was too small; it is not a Go
error. -/
inductive Err where
  | formatError (msg : String)
  | unsupportedError (msg : String)
  | eof
  | unexpectedEOF
  | panic (msg : String)
  | outOfFuel
  deriving DecidableEq, Repr

deriving instance DecidableEq for Except

/-- Source line 30. -/
def errUnsupportedSubsamplingRatio : Err := .unsupportedError "luma/chroma subsampling ratio"

/-- Source line 197. -/
def errMissingFF00 : Err := .formatError "missing 0xff00 sequence"

/-- Source line 1460. -/
def errShortHuffmanData : Err := .formatError "short Huffman data"

/-! ## Constants (source lines 40-76, 804, 1429-1435) -/

def dcTable : Nat := 0
def acTable : Nat := 1
def maxTc : Nat := 1
def maxTh : Nat := 3
def maxTq : Nat := 3
def maxComponents : Nat := 4

def sof0Marker : Nat := 0xc0
def sof1Marker : Nat := 0xc1
def sof2Marker : Nat := 0xc2
def dhtMarker : Nat := 0xc4
def rst0Marker : Nat := 0xd0
def rst7Marker : Nat := 0xd7
def soiMarker : Nat := 0xd8
def eoiMarker : Nat := 0xd9
def sosMarker : Nat := 0xda
def dqtMarker : Nat := 0xdb
def driMarker : Nat := 0xdd
def comMarker : Nat := 0xfe
def app0Marker : Nat := 0xe0
def app14Marker : Nat := 0xee
def app15Marker : Nat := 0xef

def adobeTransformUnknown : Nat := 0
def adobeTransformYCbCr : Nat := 1
def adobeTransformYCbCrK : Nat := 2

def blockSize : Nat := 64
def maxCodeLength : Nat := 16
def maxNCodes : Nat := 256
def lutSize : Nat := 8

/-- The table `unzig` (source lines 81-90): zig-zag position to natural
position. -/
def unzig : List Nat :=
  [ 0, 1, 8, 16, 9, 2, 3, 10,
    17, 24, 32, 25, 18, 11, 4, 5,
    12, 19, 26, 33, 40, 48, 41, 34,
    27, 20, 13, 6, 7, 14, 21, 28,
    35, 42, 49, 56, 57, 50, 43, 36,
    29, 22, 15, 23, 30, 37, 44, 51,
    58, 59, 52, 45, 38, 31, 39, 46,
    53, 60, 61, 54, 47, 55, 62, 63 ]

/-! ## Machine integers -/

/-- Reduction of an integer to the range of Go's `int32` (two's complement). -/
def wrap32 (x : Int) : Int := (x + 2147483648) % 4294967296 - 2147483648

/-- Go's `x << k` on `int32`. -/
def shl32 (x : Int) (k : Nat) : Int := wrap32 (x * 2 ^ k)

/-- Go's `x >> k` on `int32` (arithmetic shift). -/
def shr32 (x : Int) (k : Nat) : Int := x / 2 ^ k

/-- Conversion of an `int32` to `uint32`. -/
def toU32 (x : Int) : Nat := (x % 4294967296).toNat

/-- Conversion of a `uint32` to `int32`. -/
def ofU32 (x : Nat) : Int := wrap32 (x : Int)

/-! ## The data model (source lines 32-38, 98-142, 806, 1438-1456) -/

/-- Component specification. -/
structure component where
  h : Nat
  v : Nat
  c : Nat
  tq : Nat
  deriving DecidableEq, Repr

/-- The unprocessed bits taken from the byte stream. -/
structure bits where
  a : Nat
  m : Nat
  n : Int
  deriving DecidableEq, Repr

/-- The field `d.bytes` of the decoder together with the bytes that the
`io.Reader` `d.r` has not delivered yet. -/
structure bytes where
  buf : List Nat
  i : Nat
  j : Nat
  nUnreadable : Nat
  r : List Nat
  deriving DecidableEq, Repr

/-- A DCT block, `[blockSize]int32`. -/
abbrev block := List Int

/-- The zero block `block{}`. -/
def block.zero : block := List.replicate blockSize 0

/-- A Huffman decoder. -/
structure huffman where
  nCodes : Int
  lut : List Nat
  vals : List Nat
  minCodes : List Int
  maxCodes : List Int
  valsIndices : List Int
  deriving DecidableEq, Repr

/-- The zero value of `huffman`. -/
def huffman.zero : huffman :=
  { nCodes := 0, lut := List.replicate 256 0, vals := List.replicate 256 0,
    minCodes := List.replicate 16 0, maxCodes := List.replicate 16 0,
    valsIndices := List.replicate 16 0 }

/-- The part of the decoder that the entropy decoder reads from: `d.bytes` and
`d.bits`. -/
structure Stream where
  bytes : bytes
  bits : bits
  deriving DecidableEq, Repr

/-! ## The byte buffer (source lines 144-295) -/

/-- The size of `d.bytes.buf`. -/
def bufSize : Nat := 4096

/-- Method `fill`, source lines 146-164. -/
def fill (b : bytes) : bytes × Option Err :=
  if b.i ≠ b.j then (b, some (.panic "jpeg: fill called when unread bytes exist"))
  else
    let b1 : bytes :=
      if b.j > 2 then
        let buf1 := b.buf.set 0 (b.buf.getD (b.j - 2) 0)
        let buf2 := buf1.set 1 (buf1.getD (b.j - 1) 0)
        { b with buf := buf2, i := 2, j := 2 }
      else b
    let n := min (bufSize - b1.j) b1.r.length
    let b2 : bytes :=
      { b1 with
        buf := b1.buf.take b1.j ++ b1.r.take n ++ b1.buf.drop (b1.j + n)
        j := b1.j + n
        r := b1.r.drop n }
    if n > 0 then (b2, none) else (b2, some .eof)

/-- Method `readByte`, source lines 183-193. A `fill` that succeeds has
delivered at least one byte, so the loop `for d.bytes.i == d.bytes.j` runs its
body at most once. -/
def readByte (b : bytes) : bytes × Except Err Nat :=
  if b.i = b.j then
    match fill b with
    | (b1, some e) => (b1, .error e)
    | (b1, none) =>
      ({ b1 with i := b1.i + 1, nUnreadable := 0 }, .ok (b1.buf.getD b1.i 0))
  else
    ({ b with i := b.i + 1, nUnreadable := 0 }, .ok (b.buf.getD b.i 0))

/-- Method `readByteStuffedByte`, source lines 200-237. -/
def readByteStuffedByte (b : bytes) : bytes × Except Err Nat :=
  if b.i + 2 ≤ b.j then
    let x := b.buf.getD b.i 0
    let b1 : bytes := { b with i := b.i + 1, nUnreadable := 1 }
    if x ≠ 0xff then (b1, .ok x)
    else if b1.buf.getD b1.i 0 ≠ 0x00 then (b1, .error errMissingFF00)
    else ({ b1 with i := b1.i + 1, nUnreadable := 2 }, .ok 0xff)
  else
    match readByte { b with nUnreadable := 0 } with
    | (b1, .error e) => (b1, .error e)
    | (b1, .ok x) =>
      let b2 : bytes := { b1 with nUnreadable := 1 }
      if x ≠ 0xff then (b2, .ok x)
      else
        match readByte b2 with
        | (b3, .error e) => (b3, .error e)
        | (b3, .ok y) =>
          let b4 : bytes := { b3 with nUnreadable := 2 }
          if y ≠ 0x00 then (b4, .error errMissingFF00) else (b4, .ok 0xff)

/-- Method `unreadByteStuffedByte`, source lines 171-179. -/
def unreadByteStuffedByte (s : Stream) : Stream :=
  let by1 : bytes := { s.bytes with i := s.bytes.i - s.bytes.nUnreadable, nUnreadable := 0 }
  if s.bits.n ≥ 8 then
    { bytes := by1, bits := { a := s.bits.a >>> 8, n := s.bits.n - 8, m := s.bits.m >>> 8 } }
  else
    { bytes := by1, bits := s.bits }

/-- The prologue shared by `readFull` and `ignore`: "Unread the overshot bytes,
if any" (source lines 243-248 and 270-275). -/
def unreadOvershot (s : Stream) : Stream :=
  if s.bytes.nUnreadable ≠ 0 then
    let s1 := if s.bits.n ≥ 8 then unreadByteStuffedByte s else s
    { s1 with bytes := { s1.bytes with nUnreadable := 0 } }
  else s

/-- The copy loop of `readFull` (source lines 250-263), with `k` the number of
bytes still to be read and `acc` the bytes read so far. Every round but the
first follows a `fill` that delivered at least one byte, so `k` rounds after
the first suffice. -/
def readFullLoop : Nat → bytes → Nat → List Nat → Except Err (List Nat × bytes)
  | fuel, b, k, acc =>
    let n := min k (b.j - b.i)
    let acc1 := acc ++ (b.buf.drop b.i).take n
    let b1 : bytes := { b with i := b.i + n }
    if k - n = 0 then .ok (acc1, b1)
    else
      match fill b1 with
      | (_, some e) => .error (if e = .eof then .unexpectedEOF else e)
      | (b2, none) =>
        match fuel with
        | 0 => .error .outOfFuel
        | fuel + 1 => readFullLoop fuel b2 (k - n) acc1

/-- Method `readFull`, source lines 241-265, for a destination of `k` bytes;
the bytes read are returned. -/
def readFull (s : Stream) (k : Nat) : Except Err (List Nat × Stream) :=
  let s1 := unreadOvershot s
  match readFullLoop k s1.bytes k [] with
  | .error e => .error e
  | .ok (p, b) => .ok (p, { s1 with bytes := b })

/-- The skip loop of `ignore` (source lines 277-293). -/
def ignoreLoop : Nat → bytes → Nat → Except Err bytes
  | fuel, b, n =>
    let m := min (b.j - b.i) n
    let b1 : bytes := { b with i := b.i + m }
    if n - m = 0 then .ok b1
    else
      match fill b1 with
      | (_, some e) => .error (if e = .eof then .unexpectedEOF else e)
      | (b2, none) =>
        match fuel with
        | 0 => .error .outOfFuel
        | fuel + 1 => ignoreLoop fuel b2 (n - m)

/-- Method `ignore`, source lines 268-295. -/
def ignore (s : Stream) (n : Nat) : Except Err Stream :=
  let s1 := unreadOvershot s
  match ignoreLoop n s1.bytes n with
  | .error e => .error e
  | .ok b => .ok { s1 with bytes := b }

/-! ## The bit reader (source lines 1462-1504, 1642-1665) -/

/-- The loop of `ensureNBits` (source lines 1466-1484). Every round adds 8 to
`d.bits.n`. -/
def ensureNBitsLoop : Nat → Stream → Int → Stream × Option Err
  | fuel, s, n =>
    match readByteStuffedByte s.bytes with
    | (b1, .error e) =>
      ({ s with bytes := b1 }, some (if e = .eof then errShortHuffmanData else e))
    | (b1, .ok c) =>
      let s1 : Stream :=
        { bytes := b1
          bits :=
            { a := (s.bits.a <<< 8 ||| c) % 4294967296
              n := s.bits.n + 8
              m := if s.bits.m = 0 then 1 <<< 7 else (s.bits.m <<< 8) % 4294967296 } }
      if s1.bits.n ≥ n then (s1, none)
      else
        match fuel with
        | 0 => (s1, some .outOfFuel)
        | fuel + 1 => ensureNBitsLoop fuel s1 n

/-- Method `ensureNBits`, source lines 1465-1486. -/
def ensureNBits (s : Stream) (n : Int) : Stream × Option Err :=
  ensureNBitsLoop ((n - s.bits.n).toNat / 8) s n

/-- Method `receiveExtend`, source lines 1490-1504; `t` is a `uint8`. -/
def receiveExtend (s : Stream) (t : Nat) : Except Err (Int × Stream) :=
  let r : Stream × Option Err :=
    if s.bits.n < (t : Int) then ensureNBits s t else (s, none)
  match r with
  | (_, some e) => .error e
  | (s1, none) =>
    let n1 : Int := wrap32 (s1.bits.n - t)
    let m1 : Nat := s1.bits.m >>> t
    let sh : Int := shl32 1 t
    let x : Int := Int.land (ofU32 (s1.bits.a >>> (n1 % 256).toNat)) (wrap32 (sh - 1))
    let x1 : Int := if x < shr32 sh 1 then wrap32 (x + wrap32 (shl32 (-1) t + 1)) else x
    .ok (x1, { s1 with bits := { a := s1.bits.a, m := m1, n := n1 } })

/-- Method `decodeBit`, source lines 1642-1652. -/
def decodeBit (s : Stream) : Except Err (Bool × Stream) :=
  let r : Stream × Option Err :=
    if s.bits.n = 0 then ensureNBits s 1 else (s, none)
  match r with
  | (_, some e) => .error e
  | (s1, none) =>
    let ret : Bool := s1.bits.a &&& s1.bits.m ≠ 0
    .ok (ret, { s1 with bits := { a := s1.bits.a, m := s1.bits.m >>> 1, n := wrap32 (s1.bits.n - 1) } })

/-- Method `decodeBits`, source lines 1654-1665. -/
def decodeBits (s : Stream) (n : Int) : Except Err (Nat × Stream) :=
  let r : Stream × Option Err :=
    if s.bits.n < n then ensureNBits s n else (s, none)
  match r with
  | (_, some e) => .error e
  | (s1, none) =>
    let ret0 : Nat := s1.bits.a >>> toU32 (s1.bits.n - n)
    let ret : Nat := ret0 &&& ((1 <<< toU32 n) % 4294967296 + 4294967295) % 4294967296
    .ok (ret, { s1 with bits := { a := s1.bits.a, m := s1.bits.m >>> toU32 n, n := wrap32 (s1.bits.n - n) } })

/-! ## Huffman tables (source lines 1508-1640) -/

/-- The innermost loop of the look-up table derivation (source lines
1564-1566): `h.lut[base|k] = lutValue` for `k < cnt`. -/
def lutSpread (lut : List Nat) (base lutValue cnt : Nat) : List Nat :=
  (List.range cnt).foldl (fun l k => l.set (base ||| k) lutValue) lut

/-- The state of the look-up table derivation: the table, and the locals `x`
and `code`. -/
structure LutState where
  lut : List Nat
  x : Nat
  code : Nat
  deriving DecidableEq, Repr

/-- One round of the loop over `j` (source lines 1556-1569) at length index
`i`. -/
def lutCode (vals : List Nat) (i : Nat) (st : LutState) : LutState :=
  let base := (st.code <<< (7 - i)) % 256
  let lutValue := ((vals.getD st.x 0) <<< 8 ||| (2 + i)) % 65536
  { lut := lutSpread st.lut base lutValue (1 <<< (7 - i))
    x := (st.x + 1) % 4294967296
    code := (st.code + 1) % 4294967296 }

/-- One round of the loop over `i` (source lines 1554-1570). -/
def lutLength (nCodes : List Int) (vals : List Nat) (st : LutState) (i : Nat) : LutState :=
  let st1 : LutState := { st with code := (st.code <<< 1) % 4294967296 }
  (List.range (nCodes.getD i 0).toNat).foldl (fun s _ => lutCode vals i s) st1

/-- "Derive the look-up table", source lines 1549-1570. -/
def deriveLut (nCodes : List Int) (vals : List Nat) : List Nat :=
  ((List.range lutSize).foldl (lutLength nCodes vals)
    { lut := List.replicate 256 0, x := 0, code := 0 }).lut

/-- The state of the derivation of `minCodes`, `maxCodes` and `valsIndices`:
the three arrays and the locals `c` and `index`. -/
structure CodeState where
  minCodes : List Int
  maxCodes : List Int
  valsIndices : List Int
  c : Int
  index : Int
  deriving DecidableEq, Repr

/-- One round of the loop of source lines 1574-1587. -/
def codeLength (nCodes : List Int) (st : CodeState) (i : Nat) : CodeState :=
  let n := nCodes.getD i 0
  let st1 : CodeState :=
    if n = 0 then
      { st with
        minCodes := st.minCodes.set i (-1)
        maxCodes := st.maxCodes.set i (-1)
        valsIndices := st.valsIndices.set i (-1) }
    else
      { minCodes := st.minCodes.set i st.c
        maxCodes := st.maxCodes.set i (wrap32 (wrap32 (st.c + n) - 1))
        valsIndices := st.valsIndices.set i st.index
        c := wrap32 (st.c + n)
        index := wrap32 (st.index + n) }
  { st1 with c := shl32 st1.c 1 }

/-- "Derive minCodes, maxCodes, and valsIndices", source lines 1572-1587,
starting from the arrays already in `h`. -/
def deriveCodes (h : huffman) (nCodes : List Int) : CodeState :=
  (List.range maxCodeLength).foldl (codeLength nCodes)
    { minCodes := h.minCodes, maxCodes := h.maxCodes, valsIndices := h.valsIndices,
      c := 0, index := 0 }

/-- The table that one round of `processDHT` leaves in `d.huff[tc][th]`
(source lines 1526-1587), given the previous contents `h` of that slot, the
16 count bytes `tmp[1..16]` and the symbol bytes read into `h.vals[:nCodes]`. -/
def buildHuffman (h : huffman) (counts : List Nat) (syms : List Nat) : huffman :=
  let nCodes : List Int := (List.range maxCodeLength).map (fun i => (counts.getD i 0 : Int))
  let total : Int := (List.range maxCodeLength).foldl (fun t i => wrap32 (t + nCodes.getD i 0)) 0
  let vals := syms ++ h.vals.drop syms.length
  let cs := deriveCodes h nCodes
  { nCodes := total
    lut := deriveLut nCodes vals
    vals := vals
    minCodes := cs.minCodes
    maxCodes := cs.maxCodes
    valsIndices := cs.valsIndices }

/-- The loop at label `slowPath` of `decodeHuffman` (source lines 1623-1639),
from index `i` on, for `k` more rounds. -/
def slowPath (h : huffman) : Nat → Nat → Int → Stream → Except Err (Nat × Stream)
  | 0, _, _, _ => .error (.formatError "bad Huffman code")
  | k + 1, i, code, s =>
    let r : Stream × Option Err :=
      if s.bits.n = 0 then ensureNBits s 1 else (s, none)
    match r with
    | (_, some e) => .error e
    | (s1, none) =>
      let code1 : Int := if s1.bits.a &&& s1.bits.m ≠ 0 then Int.lor code 1 else code
      let s2 : Stream :=
        { s1 with bits := { a := s1.bits.a, m := s1.bits.m >>> 1, n := wrap32 (s1.bits.n - 1) } }
      if code1 ≤ h.maxCodes.getD i 0 then
        let idx : Int := wrap32 (wrap32 (h.valsIndices.getD i 0 + code1) - h.minCodes.getD i 0)
        if idx < 0 ∨ 256 ≤ idx then .error (.panic "index out of range")
        else .ok (h.vals.getD idx.toNat 0, s2)
      else slowPath h k (i + 1) (shl32 code1 1) s2

/-- The look-up of `decodeHuffman` in the table `h.lut` (source lines
1613-1621), which falls through to the loop at label `slowPath` when the entry
is zero. -/
def lutPath (h : huffman) (s1 : Stream) : Except Err (Nat × Stream) :=
  let v := h.lut.getD ((s1.bits.a >>> toU32 (s1.bits.n - lutSize)) &&& 0xff) 0
  if v ≠ 0 then
    let n := ((v &&& 0xff) + 65535) % 65536
    .ok ((v >>> 8) % 256,
      { s1 with bits := { a := s1.bits.a, m := s1.bits.m >>> n, n := wrap32 (s1.bits.n - n) } })
  else slowPath h maxCodeLength 0 0 s1

/-- Method `decodeHuffman`, source lines 1594-1640. -/
def decodeHuffman (s : Stream) (h : huffman) : Except Err (Nat × Stream) :=
  if h.nCodes = 0 then .error (.formatError "uninitialized Huffman table")
  else if s.bits.n < 8 then
    match ensureNBits s 8 with
    | (s1, some e) =>
      if e ≠ errMissingFF00 ∧ e ≠ errShortHuffmanData then .error e
      else
        let s2 := if s1.bytes.nUnreadable ≠ 0 then unreadByteStuffedByte s1 else s1
        slowPath h maxCodeLength 0 0 s2
    | (s1, none) => lutPath h s1
  else lutPath h s

end Jpeg
namespace Jpeg

/-! ## Images (Go's `image` package, as far as the decoder uses it) -/

/-- Go's `image.Gray` with `Rect = (0,0)-(W,H)`. -/
structure Gray where
  Pix : List Nat
  Stride : Nat
  W : Nat
  H : Nat
  deriving DecidableEq, Repr

/-- Go's `image.YCbCrSubsampleRatio`. -/
inductive SubsampleRatio where
  | r444 | r422 | r420 | r440 | r411 | r410
  deriving DecidableEq, Repr

/-- Go's `image.YCbCr` with `Rect = (0,0)-(W,H)`. -/
structure YCbCr where
  Y : List Nat
  Cb : List Nat
  Cr : List Nat
  YStride : Nat
  CStride : Nat
  SubsampleRatio : SubsampleRatio
  W : Nat
  H : Nat
  deriving DecidableEq, Repr

/-- Go's `image.RGBA` with `Rect = (0,0)-(W,H)`. -/
structure RGBA where
  Pix : List Nat
  Stride : Nat
  W : Nat
  H : Nat
  deriving DecidableEq, Repr

/-- The values of `image.Image` that `decode` can return. -/
inductive Image where
  | gray (m : Gray)
  | ycbcr (m : YCbCr)
  | rgba (m : RGBA)
  deriving DecidableEq, Repr

/-- Go's `image.NewGray(image.Rect(0, 0, w, h)).SubImage(image.Rect(0, 0, sw, sh))`:
the sub-image shares the pixel buffer; an empty intersection is the empty
image `&Gray{}`. -/
def newGraySub (w h sw sh : Nat) : Gray :=
  let rw := min sw w
  let rh := min sh h
  if rw = 0 ∨ rh = 0 then { Pix := [], Stride := 0, W := 0, H := 0 }
  else { Pix := List.replicate (w * h) 0, Stride := w, W := rw, H := rh }

/-- The chroma plane size that Go's `image.NewYCbCr` allocates for a `w` by `h`
image. -/
def chromaSize (ratio : SubsampleRatio) (w h : Nat) : Nat × Nat :=
  match ratio with
  | .r422 => ((w + 1) / 2, h)
  | .r420 => ((w + 1) / 2, (h + 1) / 2)
  | .r440 => (w, (h + 1) / 2)
  | .r411 => ((w + 3) / 4, h)
  | .r410 => ((w + 3) / 4, (h + 1) / 2)
  | .r444 => (w, h)

/-- Go's `image.NewYCbCr(image.Rect(0, 0, w, h), ratio).SubImage(image.Rect(0, 0, sw, sh))`. -/
def newYCbCrSub (w h : Nat) (ratio : SubsampleRatio) (sw sh : Nat) : YCbCr :=
  let rw := min sw w
  let rh := min sh h
  let c := chromaSize ratio w h
  if rw = 0 ∨ rh = 0 then
    { Y := [], Cb := [], Cr := [], YStride := 0, CStride := 0, SubsampleRatio := ratio,
      W := 0, H := 0 }
  else
    { Y := List.replicate (w * h) 0
      Cb := List.replicate (c.1 * c.2) 0
      Cr := List.replicate (c.1 * c.2) 0
      YStride := w, CStride := c.1, SubsampleRatio := ratio, W := rw, H := rh }

/-- Go's `(*image.YCbCr).COffset(0, y)` for an image with `Rect.Min = (0,0)`. -/
def cOffsetRow (m : YCbCr) (y : Nat) : Nat :=
  match m.SubsampleRatio with
  | .r422 => y * m.CStride
  | .r420 => (y / 2) * m.CStride
  | .r440 => (y / 2) * m.CStride
  | .r411 => y * m.CStride
  | .r410 => (y / 2) * m.CStride
  | .r444 => y * m.CStride

/-- Reading `p[i]` from a Go slice, with the run-time bounds check. -/
def sliceGet (p : List Nat) (i : Nat) : Except Err Nat :=
  if i < p.length then .ok (p.getD i 0) else .error (.panic "index out of range")

/-- Writing `p[i] = x` to a Go slice, with the run-time bounds check. -/
def sliceSet (p : List Nat) (i x : Nat) : Except Err (List Nat) :=
  if i < p.length then .ok (p.set i x) else .error (.panic "index out of range")

/-! ## The decoder state (source lines 107-142) -/

/-- The struct `decoder`. The field `r` is part of `bytes`; the scratch array
`tmp` is not a field: every read of `d.tmp[k]` in the source follows a
`readFull` or `readByte` that has just written `d.tmp[k]`, and the embedding
passes those bytes on directly. A `nil` image, slice or coefficient buffer is
`none`. -/
structure decoder where
  bytes : bytes
  bits : bits
  width : Nat
  height : Nat
  img1 : Option Gray
  img3 : Option YCbCr
  blackPix : Option (List Nat)
  blackStride : Nat
  ri : Nat
  nComp : Nat
  progressive : Bool
  jfif : Bool
  adobeTransformValid : Bool
  adobeTransform : Nat
  eobRun : Nat
  comp : List component
  progCoeffs : List (Option (List block))
  huff : List (List huffman)
  quant : List block
  deriving DecidableEq, Repr

/-- The zero value `var d decoder`, reading from the byte source `r`. -/
def decoder.init (r : List Nat) : decoder :=
  { bytes := { buf := List.replicate bufSize 0, i := 0, j := 0, nUnreadable := 0, r := r }
    bits := { a := 0, m := 0, n := 0 }
    width := 0, height := 0
    img1 := none, img3 := none, blackPix := none, blackStride := 0
    ri := 0, nComp := 0
    progressive := false, jfif := false, adobeTransformValid := false, adobeTransform := 0
    eobRun := 0
    comp := List.replicate maxComponents { h := 0, v := 0, c := 0, tq := 0 }
    progCoeffs := List.replicate maxComponents none
    huff := List.replicate (maxTc + 1) (List.replicate (maxTh + 1) huffman.zero)
    quant := List.replicate (maxTq + 1) block.zero }

/-- The fields `d.bytes` and `d.bits`. -/
def decoder.stream (d : decoder) : Stream := { bytes := d.bytes, bits := d.bits }

/-- The decoder with `d.bytes` and `d.bits` replaced. -/
def decoder.withStream (d : decoder) (s : Stream) : decoder :=
  { d with bytes := s.bytes, bits := s.bits }

/-- The zero value of `component`. -/
def component.zero : component := { h := 0, v := 0, c := 0, tq := 0 }

/-! ## Segment handlers (source lines 297-514) -/

/-- The body of the loop over `i` of `processSOF` (source lines 325-417):
component `i` is read from the payload `tmp` into `comp`. -/
def sofComponent (nComp : Nat) (tmp : List Nat) (comp : List component) (i : Nat) :
    Except Err (List component) :=
  let c := tmp.getD (6 + 3 * i) 0
  let comp1 := comp.set i { comp.getD i component.zero with c := c }
  if (List.range i).any (fun j => c = (comp1.getD j component.zero).c) then
    .error (.formatError "repeated component identifier")
  else
    let tq := tmp.getD (8 + 3 * i) 0
    let comp2 := comp1.set i { comp1.getD i component.zero with tq := tq }
    if tq > maxTq then .error (.formatError "bad Tq value")
    else
      let hv := tmp.getD (7 + 3 * i) 0
      let h := hv >>> 4
      let v := hv &&& 0x0f
      if h < 1 ∨ 4 < h ∨ v < 1 ∨ 4 < v then
        .error (.formatError "luma/chroma subsampling ratio")
      else if h = 3 ∨ v = 3 then .error errUnsupportedSubsamplingRatio
      else
        let c0 := comp2.getD 0 component.zero
        let c1 := comp2.getD 1 component.zero
        let store (h v : Nat) : Except Err (List component) :=
          .ok (comp2.set i { comp2.getD i component.zero with h := h, v := v })
        match nComp with
        | 1 => store 1 1
        | 3 =>
          match i with
          | 0 => if v = 4 then .error errUnsupportedSubsamplingRatio else store h v
          | 1 =>
            if c0.h % h ≠ 0 ∨ c0.v % v ≠ 0 then .error errUnsupportedSubsamplingRatio
            else store h v
          | 2 =>
            if c1.h ≠ h ∨ c1.v ≠ v then .error errUnsupportedSubsamplingRatio
            else store h v
          | _ => store h v
        | 4 =>
          match i with
          | 0 =>
            if hv ≠ 0x11 ∧ hv ≠ 0x22 then .error errUnsupportedSubsamplingRatio
            else store h v
          | 1 => if hv ≠ 0x11 then .error errUnsupportedSubsamplingRatio else store h v
          | 2 => if hv ≠ 0x11 then .error errUnsupportedSubsamplingRatio else store h v
          | 3 =>
            if c0.h ≠ h ∨ c0.v ≠ v then .error errUnsupportedSubsamplingRatio
            else store h v
          | _ => store h v
        | _ => store h v

/-- The loop over `i` of `processSOF`, for the components `i`, ..., `i + k - 1`. -/
def sofComponents (nComp : Nat) (tmp : List Nat) : Nat → Nat → List component →
    Except Err (List component)
  | 0, _, comp => .ok comp
  | k + 1, i, comp =>
    match sofComponent nComp tmp comp i with
    | .error e => .error e
    | .ok comp1 => sofComponents nComp tmp k (i + 1) comp1

/-- Method `processSOF`, source lines 298-419. -/
def processSOF (d : decoder) (n : Nat) : Except Err decoder :=
  if d.nComp ≠ 0 then .error (.formatError "multiple SOF markers")
  else
    let nc : Nat := if n = 6 + 3 * 1 then 1 else if n = 6 + 3 * 3 then 3
      else if n = 6 + 3 * 4 then 4 else 0
    if nc = 0 then .error (.unsupportedError "number of components")
    else
      let d1 : decoder := { d with nComp := nc }
      match readFull d1.stream n with
      | .error e => .error e
      | .ok (tmp, s) =>
        let d2 := d1.withStream s
        if tmp.getD 0 0 ≠ 8 then .error (.unsupportedError "precision")
        else
          let d3 : decoder :=
            { d2 with
              height := (tmp.getD 1 0) <<< 8 + tmp.getD 2 0
              width := (tmp.getD 3 0) <<< 8 + tmp.getD 4 0 }
          if tmp.getD 5 0 ≠ d3.nComp then .error (.formatError "SOF has wrong length")
          else
            match sofComponents d3.nComp tmp d3.nComp 0 d3.comp with
            | .error e => .error e
            | .ok comp => .ok { d3 with comp := comp }

/-- The assignment loop of `processDQT` for 8-bit precision (source lines
445-447). -/
def dqtStore8 (q : block) (tmp : List Nat) : block :=
  (List.range blockSize).foldl (fun q i => q.set i ((tmp.getD i 0 : Nat) : Int)) q

/-- The assignment loop of `processDQT` for 16-bit precision (source lines
456-458). -/
def dqtStore16 (q : block) (tmp : List Nat) : block :=
  (List.range blockSize).foldl
    (fun q i => q.set i (((tmp.getD (2 * i) 0) <<< 8 ||| tmp.getD (2 * i + 1) 0 : Nat) : Int)) q

/-- The final length check of `processDQT` (source lines 461-464), reached
when the loop ends or is left by `break loop`. -/
def dqtFinish (d : decoder) (n : Nat) : Except Err decoder :=
  if n ≠ 0 then .error (.formatError "DQT has wrong length") else .ok d

/-- The loop of `processDQT` (source lines 424-460) followed by the final
length check. Every round that continues takes at least 65 bytes off `n`. -/
def processDQTLoop : Nat → decoder → Nat → Except Err decoder
  | fuel, d, n =>
    if n > 0 then
      let n1 := n - 1
      match readByte d.bytes with
      | (_, .error e) => .error e
      | (b1, .ok x) =>
        let d1 : decoder := { d with bytes := b1 }
        let tq := x &&& 0x0f
        if tq > maxTq then .error (.formatError "bad Tq value")
        else
          match x >>> 4 with
          | 0 =>
            if n1 < blockSize then dqtFinish d1 n1
            else
              match readFull d1.stream blockSize with
              | .error e => .error e
              | .ok (tmp, s) =>
                let d2 := d1.withStream s
                let d3 : decoder :=
                  { d2 with quant := d2.quant.set tq (dqtStore8 (d2.quant.getD tq []) tmp) }
                match fuel with
                | 0 => .error .outOfFuel
                | fuel + 1 => processDQTLoop fuel d3 (n1 - blockSize)
          | 1 =>
            if n1 < 2 * blockSize then dqtFinish d1 n1
            else
              match readFull d1.stream (2 * blockSize) with
              | .error e => .error e
              | .ok (tmp, s) =>
                let d2 := d1.withStream s
                let d3 : decoder :=
                  { d2 with quant := d2.quant.set tq (dqtStore16 (d2.quant.getD tq []) tmp) }
                match fuel with
                | 0 => .error .outOfFuel
                | fuel + 1 => processDQTLoop fuel d3 (n1 - 2 * blockSize)
          | _ => .error (.formatError "bad Pq value")
    else dqtFinish d n

/-- Method `processDQT`, source lines 422-465. -/
def processDQT (d : decoder) (n : Nat) : Except Err decoder :=
  processDQTLoop (n / 65) d n

/-- Method `processDRI`, source lines 468-477. -/
def processDRI (d : decoder) (n : Nat) : Except Err decoder :=
  if n ≠ 2 then .error (.formatError "DRI has wrong length")
  else
    match readFull d.stream 2 with
    | .error e => .error e
    | .ok (tmp, s) =>
      .ok { d.withStream s with ri := (tmp.getD 0 0) <<< 8 + tmp.getD 1 0 }

/-- The decoder after `d.ignore(n)`. -/
def decoder.ignore (d : decoder) (n : Nat) : Except Err decoder :=
  match Jpeg.ignore d.stream n with
  | .error e => .error e
  | .ok s => .ok (d.withStream s)

/-- Method `processApp0Marker`, source lines 479-494. The bytes compared are
those of `'J'`, `'F'`, `'I'`, `'F'`, `'\x00'`. -/
def processApp0Marker (d : decoder) (n : Nat) : Except Err decoder :=
  if n < 5 then d.ignore n
  else
    match readFull d.stream 5 with
    | .error e => .error e
    | .ok (tmp, s) =>
      let n1 := n - 5
      let d1 : decoder :=
        { d.withStream s with
          jfif := tmp.getD 0 0 = 0x4a ∧ tmp.getD 1 0 = 0x46 ∧ tmp.getD 2 0 = 0x49 ∧
            tmp.getD 3 0 = 0x46 ∧ tmp.getD 4 0 = 0x00 }
      if n1 > 0 then d1.ignore n1 else .ok d1

/-- Method `processApp14Marker`, source lines 496-514. The bytes compared are
those of `'A'`, `'d'`, `'o'`, `'b'`, `'e'`. -/
def processApp14Marker (d : decoder) (n : Nat) : Except Err decoder :=
  if n < 12 then d.ignore n
  else
    match readFull d.stream 12 with
    | .error e => .error e
    | .ok (tmp, s) =>
      let n1 := n - 12
      let d0 := d.withStream s
      let d1 : decoder :=
        if tmp.getD 0 0 = 0x41 ∧ tmp.getD 1 0 = 0x64 ∧ tmp.getD 2 0 = 0x6f ∧
            tmp.getD 3 0 = 0x62 ∧ tmp.getD 4 0 = 0x65 then
          { d0 with adobeTransformValid := true, adobeTransform := tmp.getD 11 0 }
        else d0
      if n1 > 0 then d1.ignore n1 else .ok d1

/-- One table of `processDHT` (the loop body, source lines 1510-1587) for a
remaining length `n ≥ 1`; returns the decoder and the new remaining length. -/
def dhtTable (d : decoder) (n : Nat) : Except Err (decoder × Nat) :=
  if n < 17 then .error (.formatError "DHT has wrong length")
  else
    match readFull d.stream 17 with
    | .error e => .error e
    | .ok (tmp, s) =>
      let d1 := d.withStream s
      let tc := (tmp.getD 0 0) >>> 4
      if tc > maxTc then .error (.formatError "bad Tc value")
      else
        let th := (tmp.getD 0 0) &&& 0x0f
        if th > maxTh ∨ (¬ d1.progressive ∧ th > 1) then .error (.formatError "bad Th value")
        else
          let h := (d1.huff.getD tc []).getD th huffman.zero
          let counts := (tmp.drop 1).take 16
          let total : Nat := (List.range maxCodeLength).foldl (fun t i => t + counts.getD i 0) 0
          if total = 0 then .error (.formatError "Huffman table has zero length")
          else if total > maxNCodes then
            .error (.formatError "Huffman table has excessive length")
          else if n < total + 17 then .error (.formatError "DHT has wrong length")
          else
            match readFull d1.stream total with
            | .error e => .error e
            | .ok (syms, s2) =>
              let d2 := d1.withStream s2
              let h1 := buildHuffman h counts syms
              .ok ({ d2 with huff := d2.huff.set tc ((d2.huff.getD tc []).set th h1) },
                n - (total + 17))

/-- The loop of `processDHT` (source lines 1509-1588). Every round takes at
least 18 bytes off `n`. -/
def processDHTLoop : Nat → decoder → Nat → Except Err decoder
  | fuel, d, n =>
    if n > 0 then
      match dhtTable d n with
      | .error e => .error e
      | .ok (d1, n1) =>
        match fuel with
        | 0 => if n1 > 0 then .error .outOfFuel else .ok d1
        | fuel + 1 => processDHTLoop fuel d1 n1
    else .ok d

/-- Method `processDHT`, source lines 1508-1590. -/
def processDHT (d : decoder) (n : Nat) : Except Err decoder :=
  processDHTLoop (n / 18) d n

end Jpeg
namespace Jpeg

/-! ## Loops -/

/-- The loop `for i := i0; i < i0 + k; i++ { st, err = f(i, st); if err != nil { return err } }`. -/
def forRange {σ : Type} (f : Nat → σ → Except Err σ) : Nat → Nat → σ → Except Err σ
  | 0, _, st => .ok st
  | k + 1, i, st =>
    match f i st with
    | .error e => .error e
    | .ok st1 => forRange f k (i + 1) st1

/-! ## The inverse DCT (source lines 808-956) -/

def w1 : Int := 2841
def w2 : Int := 2676
def w3 : Int := 2408
def w5 : Int := 1609
def w6 : Int := 1108
def w7 : Int := 565
def w1pw7 : Int := w1 + w7
def w1mw7 : Int := w1 - w7
def w2pw6 : Int := w2 + w6
def w2mw6 : Int := w2 - w6
def w3pw5 : Int := w3 + w5
def w3mw5 : Int := w3 - w5
def r2 : Int := 181

/-- Go's `a + b` on `int32`. -/
def add32 (a b : Int) : Int := wrap32 (a + b)

/-- Go's `a - b` on `int32`. -/
def sub32 (a b : Int) : Int := wrap32 (a - b)

/-- Go's `a * b` on `int32`. -/
def mul32 (a b : Int) : Int := wrap32 (a * b)

/-- The general case of the horizontal pass for row `y` (source lines
855-900). -/
def idctRowGeneral (src : block) (y8 : Nat) : block :=
  -- Prescale.
  let x0 := add32 (shl32 (src.getD (y8 + 0) 0) 11) 128
  let x1 := shl32 (src.getD (y8 + 4) 0) 11
  let x2 := src.getD (y8 + 6) 0
  let x3 := src.getD (y8 + 2) 0
  let x4 := src.getD (y8 + 1) 0
  let x5 := src.getD (y8 + 7) 0
  let x6 := src.getD (y8 + 5) 0
  let x7 := src.getD (y8 + 3) 0
  -- Stage 1.
  let x8 := mul32 w7 (add32 x4 x5)
  let x4 := add32 x8 (mul32 w1mw7 x4)
  let x5 := sub32 x8 (mul32 w1pw7 x5)
  let x8 := mul32 w3 (add32 x6 x7)
  let x6 := sub32 x8 (mul32 w3mw5 x6)
  let x7 := sub32 x8 (mul32 w3pw5 x7)
  -- Stage 2.
  let x8 := add32 x0 x1
  let x0 := sub32 x0 x1
  let x1 := mul32 w6 (add32 x3 x2)
  let x2 := sub32 x1 (mul32 w2pw6 x2)
  let x3 := add32 x1 (mul32 w2mw6 x3)
  let x1 := add32 x4 x6
  let x4 := sub32 x4 x6
  let x6 := add32 x5 x7
  let x5 := sub32 x5 x7
  -- Stage 3.
  let x7 := add32 x8 x3
  let x8 := sub32 x8 x3
  let x3 := add32 x0 x2
  let x0 := sub32 x0 x2
  let x2 := shr32 (add32 (mul32 r2 (add32 x4 x5)) 128) 8
  let x4 := shr32 (add32 (mul32 r2 (sub32 x4 x5)) 128) 8
  -- Stage 4.
  let src := src.set (y8 + 0) (shr32 (add32 x7 x1) 8)
  let src := src.set (y8 + 1) (shr32 (add32 x3 x2) 8)
  let src := src.set (y8 + 2) (shr32 (add32 x0 x4) 8)
  let src := src.set (y8 + 3) (shr32 (add32 x8 x6) 8)
  let src := src.set (y8 + 4) (shr32 (sub32 x8 x6) 8)
  let src := src.set (y8 + 5) (shr32 (sub32 x0 x4) 8)
  let src := src.set (y8 + 6) (shr32 (sub32 x3 x2) 8)
  src.set (y8 + 7) (shr32 (sub32 x7 x1) 8)

/-- The body of the horizontal pass (source lines 838-901) for row `y`. -/
def idctRow (src : block) (y : Nat) : block :=
  let y8 := y * 8
  if src.getD (y8 + 1) 0 = 0 ∧ src.getD (y8 + 2) 0 = 0 ∧ src.getD (y8 + 3) 0 = 0 ∧
      src.getD (y8 + 4) 0 = 0 ∧ src.getD (y8 + 5) 0 = 0 ∧ src.getD (y8 + 6) 0 = 0 ∧
      src.getD (y8 + 7) 0 = 0 then
    let dc := shl32 (src.getD (y8 + 0) 0) 3
    let src := src.set (y8 + 0) dc
    let src := src.set (y8 + 1) dc
    let src := src.set (y8 + 2) dc
    let src := src.set (y8 + 3) dc
    let src := src.set (y8 + 4) dc
    let src := src.set (y8 + 5) dc
    let src := src.set (y8 + 6) dc
    src.set (y8 + 7) dc
  else idctRowGeneral src y8

/-- The body of the vertical pass (source lines 904-955) for column `x`. -/
def idctCol (src : block) (x : Nat) : block :=
  -- Prescale.
  let y0 := add32 (shl32 (src.getD (8 * 0 + x) 0) 8) 8192
  let y1 := shl32 (src.getD (8 * 4 + x) 0) 8
  let y2 := src.getD (8 * 6 + x) 0
  let y3 := src.getD (8 * 2 + x) 0
  let y4 := src.getD (8 * 1 + x) 0
  let y5 := src.getD (8 * 7 + x) 0
  let y6 := src.getD (8 * 5 + x) 0
  let y7 := src.getD (8 * 3 + x) 0
  -- Stage 1.
  let y8 := add32 (mul32 w7 (add32 y4 y5)) 4
  let y4 := shr32 (add32 y8 (mul32 w1mw7 y4)) 3
  let y5 := shr32 (sub32 y8 (mul32 w1pw7 y5)) 3
  let y8 := add32 (mul32 w3 (add32 y6 y7)) 4
  let y6 := shr32 (sub32 y8 (mul32 w3mw5 y6)) 3
  let y7 := shr32 (sub32 y8 (mul32 w3pw5 y7)) 3
  -- Stage 2.
  let y8 := add32 y0 y1
  let y0 := sub32 y0 y1
  let y1 := add32 (mul32 w6 (add32 y3 y2)) 4
  let y2 := shr32 (sub32 y1 (mul32 w2pw6 y2)) 3
  let y3 := shr32 (add32 y1 (mul32 w2mw6 y3)) 3
  let y1 := add32 y4 y6
  let y4 := sub32 y4 y6
  let y6 := add32 y5 y7
  let y5 := sub32 y5 y7
  -- Stage 3.
  let y7 := add32 y8 y3
  let y8 := sub32 y8 y3
  let y3 := add32 y0 y2
  let y0 := sub32 y0 y2
  let y2 := shr32 (add32 (mul32 r2 (add32 y4 y5)) 128) 8
  let y4 := shr32 (add32 (mul32 r2 (sub32 y4 y5)) 128) 8
  -- Stage 4.
  let src := src.set (8 * 0 + x) (shr32 (add32 y7 y1) 14)
  let src := src.set (8 * 1 + x) (shr32 (add32 y3 y2) 14)
  let src := src.set (8 * 2 + x) (shr32 (add32 y0 y4) 14)
  let src := src.set (8 * 3 + x) (shr32 (add32 y8 y6) 14)
  let src := src.set (8 * 4 + x) (shr32 (sub32 y8 y6) 14)
  let src := src.set (8 * 5 + x) (shr32 (sub32 y0 y4) 14)
  let src := src.set (8 * 6 + x) (shr32 (sub32 y3 y2) 14)
  src.set (8 * 7 + x) (shr32 (sub32 y7 y1) 14)

/-- The horizontal pass of `idct` (source lines 837-901). -/
def idctRows (src : block) : block := (List.range 8).foldl idctRow src

/-- Function `idct`, source lines 836-956. -/
def idct (src : block) : block := (List.range 8).foldl idctCol (idctRows src)

/-! ## Scans (source lines 958-1425) -/

/-- Method `makeImg`, source lines 959-995. A division by zero and the
`panic("unreachable")` of the `switch` are `Err.panic`. -/
def makeImg (d : decoder) (mxx myy : Nat) : Except Err decoder :=
  if d.nComp = 1 then
    .ok { d with img1 := some (newGraySub (8 * mxx) (8 * myy) d.width d.height) }
  else
    let h0 := (d.comp.getD 0 component.zero).h
    let v0 := (d.comp.getD 0 component.zero).v
    let h1 := (d.comp.getD 1 component.zero).h
    let v1 := (d.comp.getD 1 component.zero).v
    if h1 = 0 ∨ v1 = 0 then .error (.panic "integer divide by zero")
    else
      let hRatio := h0 / h1
      let vRatio := v0 / v1
      let code := hRatio <<< 4 ||| vRatio
      let ratio : Option SubsampleRatio :=
        if code = 0x11 then some .r444
        else if code = 0x12 then some .r440
        else if code = 0x21 then some .r422
        else if code = 0x22 then some .r420
        else if code = 0x41 then some .r411
        else if code = 0x42 then some .r410
        else none
      match ratio with
      | none => .error (.panic "unreachable")
      | some subsampleRatio =>
        let d1 : decoder :=
          { d with
            img3 := some (newYCbCrSub (8 * h0 * mxx) (8 * v0 * myy) subsampleRatio
              d.width d.height) }
        if d1.nComp = 4 then
          let h3 := (d1.comp.getD 3 component.zero).h
          let v3 := (d1.comp.getD 3 component.zero).v
          .ok { d1 with
                blackPix := some (List.replicate (8 * h3 * mxx * 8 * v3 * myy) 0)
                blackStride := 8 * h3 * mxx }
        else .ok d1

/-- An entry of the local array `scan` of `processSOS`. -/
structure scanComp where
  compIndex : Nat
  td : Nat
  ta : Nat
  deriving DecidableEq, Repr

/-- The zero value of an entry of `scan`. -/
def scanComp.zero : scanComp := { compIndex := 0, td := 0, ta := 0 }

/-- The body of the loop over the scan components of the header (source
lines 1018-1050); the state is the array `scan` and `totalHV`. -/
def sosComponent (d : decoder) (tmp : List Nat) (i : Nat) (st : List scanComp × Nat) :
    Except Err (List scanComp × Nat) :=
  let cs := tmp.getD (1 + 2 * i) 0
  let compIndex : Int :=
    (List.range d.nComp).foldl
      (fun ci j => if cs = (d.comp.getD j component.zero).c then (j : Int) else ci) (-1)
  if compIndex < 0 then .error (.formatError "unknown component selector")
  else
    let ci := compIndex.toNat % 256
    let scan1 := st.1.set i { st.1.getD i scanComp.zero with compIndex := ci }
    if (List.range i).any (fun j => ci = (scan1.getD j scanComp.zero).compIndex) then
      .error (.formatError "repeated component selector")
    else
      let totalHV := st.2 +
        (d.comp.getD compIndex.toNat component.zero).h *
        (d.comp.getD compIndex.toNat component.zero).v
      let td := (tmp.getD (2 + 2 * i) 0) >>> 4
      let scan2 := scan1.set i { scan1.getD i scanComp.zero with td := td }
      if td > maxTh then .error (.formatError "bad Td value")
      else
        let ta := (tmp.getD (2 + 2 * i) 0) &&& 0x0f
        let scan3 := scan2.set i { scan2.getD i scanComp.zero with ta := ta }
        if ta > maxTh then .error (.formatError "bad Ta value")
        else .ok (scan3, totalHV)

/-- The parameters of a scan, fixed once its header is parsed: the number of
scan components, the array `scan`, `zigStart`, `zigEnd`, `ah`, `al`, `mxx`
and `myy`. -/
structure ScanParams where
  nComp : Nat
  scan : List scanComp
  zigStart : Int
  zigEnd : Int
  ah : Nat
  al : Nat
  mxx : Nat
  myy : Nat
  deriving DecidableEq, Repr

/-- What the decoding of a block changes: the decoder fields `bytes`, `bits`,
`eobRun`, `progCoeffs`, `img1`, `img3`, `blackPix`, and the locals `dc` and
`blockCount` of `processSOS`. -/
structure ScanState where
  s : Stream
  eobRun : Nat
  progCoeffs : List (Option (List block))
  img1 : Option Gray
  img3 : Option YCbCr
  blackPix : Option (List Nat)
  dc : List Int
  blockCount : Nat
  deriving DecidableEq, Repr

/-- The state of the loops over the MCUs of `processSOS`: what the blocks
change, and the locals `mcu` and `expectedRST`. -/
structure McuState where
  st : ScanState
  mcu : Nat
  expectedRST : Nat
  deriving DecidableEq, Repr

/-- The loop of `refineNonZeroes` (source lines 1402-1423); returns the final
`zig`, the block and the stream. -/
def refineNonZeroesLoop (delta zigEnd : Int) :
    Nat → Stream → block → Int → Int → Except Err (Int × block × Stream)
  | fuel, s, b, zig, nz =>
    if zig ≤ zigEnd then
      match fuel with
      | 0 => .error .outOfFuel
      | fuel + 1 =>
        let u := unzig.getD zig.toNat 0
        if b.getD u 0 = 0 then
          if nz = 0 then .ok (zig, b, s)
          else refineNonZeroesLoop delta zigEnd fuel s b (wrap32 (zig + 1)) (wrap32 (nz - 1))
        else
          match decodeBit s with
          | .error e => .error e
          | .ok (bit, s1) =>
            if ¬ bit then refineNonZeroesLoop delta zigEnd fuel s1 b (wrap32 (zig + 1)) nz
            else
              let b1 :=
                if b.getD u 0 ≥ 0 then b.set u (add32 (b.getD u 0) delta)
                else b.set u (sub32 (b.getD u 0) delta)
              refineNonZeroesLoop delta zigEnd fuel s1 b1 (wrap32 (zig + 1)) nz
    else .ok (zig, b, s)

/-- Method `refineNonZeroes`, source lines 1401-1425. -/
def refineNonZeroes (s : Stream) (b : block) (zig zigEnd nz delta : Int) :
    Except Err (Int × block × Stream) :=
  refineNonZeroesLoop delta zigEnd (zigEnd + 1 - zig).toNat s b zig nz

/-- The end-of-band run read after a Huffman value `val0 << 4` with
`val0 != 0x0f` (source lines 1224-1231 and 1355-1362): `1 << val0`, or-ed with
`val0` further bits. -/
def readEobRun (s : Stream) (val0 : Nat) : Except Err (Nat × Stream) :=
  let run := (1 <<< val0) % 65536
  if val0 ≠ 0 then
    match decodeBits s val0 with
    | .error e => .error e
    | .ok (bits, s1) => .ok (run ||| bits % 65536, s1)
  else .ok (run, s)

/-- The loop at label `loop` of `refine` (source lines 1343-1388); returns
`zig`, the block, the stream and `d.eobRun`. -/
def refineLoop (h : huffman) (delta zigEnd : Int) :
    Nat → Stream → block → Int → Nat → Except Err (Int × block × Stream × Nat)
  | fuel, s, b, zig, eobRun =>
    if zig ≤ zigEnd then
      match fuel with
      | 0 => .error .outOfFuel
      | fuel + 1 =>
        match decodeHuffman s h with
        | .error e => .error e
        | .ok (value, s1) =>
          let val0 := value >>> 4
          let val1 := value &&& 0x0f
          let afterSwitch (z : Int) (s2 : Stream) : Except Err (Int × block × Stream × Nat) :=
            match refineNonZeroes s2 b zig zigEnd val0 delta with
            | .error e => .error e
            | .ok (zig1, b1, s3) =>
              if zig1 > zigEnd then .error (.formatError "too many coefficients")
              else
                let b2 := if z ≠ 0 then b1.set (unzig.getD zig1.toNat 0) z else b1
                refineLoop h delta zigEnd fuel s3 b2 (wrap32 (zig1 + 1)) eobRun
          match val1 with
          | 0 =>
            if val0 ≠ 0x0f then
              match readEobRun s1 val0 with
              | .error e => .error e
              | .ok (run, s2) => .ok (zig, b, s2, run)
            else afterSwitch 0 s1
          | 1 =>
            match decodeBit s1 with
            | .error e => .error e
            | .ok (bit, s2) => afterSwitch (if ¬ bit then wrap32 (-delta) else delta) s2
          | _ => .error (.formatError "unexpected Huffman code")
    else .ok (zig, b, s, eobRun)

/-- Method `refine`, source lines 1323-1397; returns the block, the stream and
`d.eobRun`. -/
def refine (s : Stream) (eobRun : Nat) (b : block) (h : huffman)
    (zigStart zigEnd delta : Int) : Except Err (block × Stream × Nat) :=
  if zigStart = 0 then
    if zigEnd ≠ 0 then .error (.panic "unreachable")
    else
      match decodeBit s with
      | .error e => .error e
      | .ok (bit, s1) =>
        .ok (if bit then b.set 0 (Int.lor (b.getD 0 0) delta) else b, s1, eobRun)
  else
    let r : Except Err (Int × block × Stream × Nat) :=
      if eobRun = 0 then refineLoop h delta zigEnd (zigEnd + 1 - zigStart).toNat s b zigStart eobRun
      else .ok (zigStart, b, s, eobRun)
    match r with
    | .error e => .error e
    | .ok (zig, b1, s1, eobRun1) =>
      if eobRun1 > 0 then
        match refineNonZeroes s1 b1 zig zigEnd (-1) delta with
        | .error e => .error e
        | .ok (_, b2, s2) => .ok (b2, s2, eobRun1 - 1)
      else .ok (b1, s1, eobRun1)

/-- The loop that decodes the AC coefficients of a block in a first pass
(source lines 1204-1237); returns the block, the stream and `d.eobRun`. -/
def decodeACLoop (huff : huffman) (zigEnd : Int) (al : Nat) :
    Nat → Stream → block → Int → Nat → Except Err (block × Stream × Nat)
  | fuel, s, b, zig, eobRun =>
    if zig ≤ zigEnd then
      match fuel with
      | 0 => .error .outOfFuel
      | fuel + 1 =>
        match decodeHuffman s huff with
        | .error e => .error e
        | .ok (value, s1) =>
          let val0 := value >>> 4
          let val1 := value &&& 0x0f
          if val1 ≠ 0 then
            let zig1 := wrap32 (zig + val0)
            if zig1 > zigEnd then .ok (b, s1, eobRun)
            else
              match receiveExtend s1 val1 with
              | .error e => .error e
              | .ok (ac, s2) =>
                decodeACLoop huff zigEnd al fuel s2 (b.set (unzig.getD zig1.toNat 0) (shl32 ac al))
                  (wrap32 (zig1 + 1)) eobRun
          else if val0 ≠ 0x0f then
            match readEobRun s1 val0 with
            | .error e => .error e
            | .ok (run, s2) => .ok (b, s2, run - 1)
          else decodeACLoop huff zigEnd al fuel s1 b (wrap32 (wrap32 (zig + 0x0f) + 1)) eobRun
    else .ok (b, s, eobRun)

/-- The first-pass branch of the block decoder (source lines 1179-1238) for
component `compIndex`; the state is the block, the stream, `d.eobRun` and
`dc`. -/
def decodeFirstPass (d : decoder) (p : ScanParams) (sc : scanComp) (s : Stream)
    (eobRun : Nat) (dc : List Int) (b : block) :
    Except Err (block × Stream × Nat × List Int) :=
  let dcStep : Except Err (Int × block × Stream × List Int) :=
    if p.zigStart = 0 then
      match decodeHuffman s ((d.huff.getD dcTable []).getD sc.td huffman.zero) with
      | .error e => .error e
      | .ok (value, s1) =>
        if value > 16 then .error (.unsupportedError "excessive DC component")
        else
          match receiveExtend s1 value with
          | .error e => .error e
          | .ok (dcDelta, s2) =>
            let dc1 := dc.set sc.compIndex (add32 (dc.getD sc.compIndex 0) dcDelta)
            .ok (wrap32 (p.zigStart + 1), b.set 0 (shl32 (dc1.getD sc.compIndex 0) p.al), s2, dc1)
    else .ok (p.zigStart, b, s, dc)
  match dcStep with
  | .error e => .error e
  | .ok (zig, b1, s1, dc1) =>
    if zig ≤ p.zigEnd ∧ eobRun > 0 then .ok (b1, s1, eobRun - 1, dc1)
    else
      match decodeACLoop ((d.huff.getD acTable []).getD sc.ta huffman.zero) p.zigEnd p.al
          (p.zigEnd + 1 - zig).toNat s1 b1 zig eobRun with
      | .error e => .error e
      | .ok (b2, s2, eobRun2) => .ok (b2, s2, eobRun2, dc1)

/-- The dequantization loop (source lines 1255-1257). -/
def dequantize (b qt : block) : block :=
  (List.range blockSize).foldl
    (fun b zig => b.set (unzig.getD zig 0) (mul32 (b.getD (unzig.getD zig 0) 0) (qt.getD zig 0))) b

/-- The level shift and clipping of one coefficient (source lines 1281-1289). -/
def levelShift (c : Int) : Nat :=
  if c < -128 then 0 else if c > 127 then 255 else (c + 128).toNat

/-- The store loop (source lines 1277-1291) into the slice `dst = pix[off:]`. -/
def storeBlock (pix : List Nat) (off stride : Nat) (b : block) : Except Err (List Nat) :=
  if off > pix.length then .error (.panic "slice bounds out of range")
  else
    forRange (fun y pix =>
      forRange (fun x pix =>
        sliceSet pix (off + (y * stride + x)) (levelShift (b.getD (y * 8 + x) 0))) 8 0 pix)
      8 0 pix

/-- "Dequantize, perform the inverse DCT and store the block to the image"
(source lines 1254-1291). -/
def reconstructBlock (d : decoder) (compIndex bx by_ : Nat) (b : block) (st : ScanState) :
    Except Err ScanState :=
  let qt := d.quant.getD (d.comp.getD compIndex component.zero).tq []
  let b1 := idct (dequantize b qt)
  if d.nComp = 1 then
    match st.img1 with
    | none => .error (.panic "nil pointer dereference")
    | some m =>
      match storeBlock m.Pix (8 * (by_ * m.Stride + bx)) m.Stride b1 with
      | .error e => .error e
      | .ok pix => .ok { st with img1 := some { m with Pix := pix } }
  else
    match compIndex with
    | 3 =>
      match st.blackPix with
      | none => .error (.panic "slice bounds out of range")
      | some bp =>
        match storeBlock bp (8 * (by_ * d.blackStride + bx)) d.blackStride b1 with
        | .error e => .error e
        | .ok pix => .ok { st with blackPix := some pix }
    | 0 | 1 | 2 =>
      match st.img3 with
      | none => .error (.panic "nil pointer dereference")
      | some m =>
        if compIndex = 0 then
          match storeBlock m.Y (8 * (by_ * m.YStride + bx)) m.YStride b1 with
          | .error e => .error e
          | .ok pix => .ok { st with img3 := some { m with Y := pix } }
        else if compIndex = 1 then
          match storeBlock m.Cb (8 * (by_ * m.CStride + bx)) m.CStride b1 with
          | .error e => .error e
          | .ok pix => .ok { st with img3 := some { m with Cb := pix } }
        else
          match storeBlock m.Cr (8 * (by_ * m.CStride + bx)) m.CStride b1 with
          | .error e => .error e
          | .ok pix => .ok { st with img3 := some { m with Cr := pix } }
    | _ => .error (.unsupportedError "too many components")

/-- "Load the previous partially decoded coefficients, if applicable" (source
lines 1167-1172), with `idx` the index `by*mxx*hi+bx`. -/
def loadBlock (d : decoder) (st0 : ScanState) (compIndex idx : Nat) : Except Err block :=
  if d.progressive then
    match st0.progCoeffs.getD compIndex none with
    | none => .error (.panic "index out of range")
    | some cs =>
      if idx < cs.length then .ok (cs.getD idx [])
      else .error (.panic "index out of range")
  else .ok block.zero

/-- The entropy decoding of one block (source lines 1174-1239): a refinement
pass when `ah` is not zero, a first pass otherwise. -/
def decodeBlock (d : decoder) (p : ScanParams) (sc : scanComp) (st0 : ScanState) (b : block) :
    Except Err (block × ScanState) :=
  if p.ah ≠ 0 then
    match refine st0.s st0.eobRun b ((d.huff.getD acTable []).getD sc.ta huffman.zero)
        p.zigStart p.zigEnd (shl32 1 p.al) with
    | .error e => .error e
    | .ok (b1, s1, eobRun1) => .ok (b1, { st0 with s := s1, eobRun := eobRun1 })
  else
    match decodeFirstPass d p sc st0.s st0.eobRun st0.dc b with
    | .error e => .error e
    | .ok (b1, s1, eobRun1, dc1) =>
      .ok (b1, { st0 with s := s1, eobRun := eobRun1, dc := dc1 })

/-- The end of the body of the loop over `j` (source lines 1241-1291): the
coefficients of a block that is not completely decoded are saved, with `idx`
the index `by*mxx*hi+bx`; a complete block is reconstructed. -/
def finishBlock (d : decoder) (p : ScanParams) (compIndex bx by_ idx : Nat) (b1 : block)
    (st1 : ScanState) : Except Err ScanState :=
  if d.progressive ∧ (p.zigEnd ≠ blockSize - 1 ∨ p.al ≠ 0) then
    -- We haven't completely decoded this 8x8 block. Save the coefficients.
    match st1.progCoeffs.getD compIndex none with
    | none => .error (.panic "index out of range")
    | some cs =>
      if idx < cs.length then
        .ok { st1 with
              progCoeffs := st1.progCoeffs.set compIndex (some (cs.set idx b1)) }
      else .error (.panic "index out of range")
  else reconstructBlock d compIndex bx by_ b1 st1

/-- The body of the loop over `j` (source lines 1126-1292): one block of scan
component `i` in the MCU `(mx, my)`. -/
def scanBlock (d : decoder) (p : ScanParams) (mx my i j : Nat) (st : ScanState) :
    Except Err ScanState :=
  let sc := p.scan.getD i scanComp.zero
  let compIndex := sc.compIndex
  let hi := (d.comp.getD compIndex component.zero).h
  let vi := (d.comp.getD compIndex component.zero).v
  if p.nComp ≠ 1 ∧ hi = 0 then .error (.panic "integer divide by zero")
  else if p.nComp = 1 ∧ p.mxx * hi = 0 then .error (.panic "integer divide by zero")
  else
    let bx := if p.nComp ≠ 1 then hi * mx + j % hi else st.blockCount % (p.mxx * hi)
    let by_ := if p.nComp ≠ 1 then vi * my + j / hi else st.blockCount / (p.mxx * hi)
    let st0 : ScanState := if p.nComp ≠ 1 then st else { st with blockCount := st.blockCount + 1 }
    if p.nComp = 1 ∧ (bx * 8 ≥ d.width ∨ by_ * 8 ≥ d.height) then .ok st0
    else
      match loadBlock d st0 compIndex (by_ * p.mxx * hi + bx) with
      | .error e => .error e
      | .ok b =>
        match decodeBlock d p sc st0 b with
        | .error e => .error e
        | .ok (b1, st1) => finishBlock d p compIndex bx by_ (by_ * p.mxx * hi + bx) b1 st1

/-- The loop over `i` and `j` (source lines 1121-1293): the blocks of one
MCU. -/
def scanMCU (d : decoder) (p : ScanParams) (mx my : Nat) (st : ScanState) :
    Except Err ScanState :=
  forRange (fun i st =>
    let c := d.comp.getD (p.scan.getD i scanComp.zero).compIndex component.zero
    forRange (scanBlock d p mx my i) (c.h * c.v) 0 st) p.nComp 0 st

/-- The end of the body of the loop over `mx` (source lines 1294-1314): the
MCU counter and the restart marker. -/
def scanRestart (d : decoder) (p : ScanParams) (ms : McuState) : Except Err McuState :=
  let ms1 : McuState := { ms with mcu := ms.mcu + 1 }
  if d.ri > 0 ∧ ms1.mcu % d.ri = 0 ∧ ms1.mcu < p.mxx * p.myy then
    match readFull ms1.st.s 2 with
    | .error e => .error e
    | .ok (tmp, s1) =>
      if tmp.getD 0 0 ≠ 0xff ∨ tmp.getD 1 0 ≠ ms1.expectedRST then
        .error (.formatError "bad RST marker")
      else
        let e1 := (ms1.expectedRST + 1) % 256
        let e2 := if e1 = rst7Marker + 1 then rst0Marker else e1
        .ok { st :=
                { ms1.st with
                  s := { s1 with bits := { a := 0, m := 0, n := 0 } }
                  dc := List.replicate maxComponents 0
                  eobRun := 0 }
              mcu := ms1.mcu
              expectedRST := e2 }
  else .ok ms1

/-- The body of the loop over `mx` (source lines 1120-1315). -/
def scanStep (d : decoder) (p : ScanParams) (my mx : Nat) (ms : McuState) :
    Except Err McuState :=
  match scanMCU d p mx my ms.st with
  | .error e => .error e
  | .ok st1 => scanRestart d p { ms with st := st1 }

/-- The loops over `my` and `mx` (source lines 1119-1316). -/
def scanLoop (d : decoder) (p : ScanParams) (ms : McuState) : Except Err McuState :=
  forRange (fun my ms => forRange (scanStep d p my) p.mxx 0 ms) p.myy 0 ms

/-- The header of a scan: the number of scan components, the array `scan`,
and `zigStart`, `zigEnd`, `ah`, `al`. -/
structure ScanHeader where
  nComp : Nat
  scan : List scanComp
  zigStart : Int
  zigEnd : Int
  ah : Nat
  al : Nat
  deriving DecidableEq, Repr

/-- The spectral selection and successive approximation parameters of a scan
and their checks (source lines 1073-1088), for the payload `tmp` of a scan
with `nComp` components. -/
def scanProgression (progressive : Bool) (tmp : List Nat) (nComp : Nat) :
    Except Err (Int × Int × Nat × Nat) :=
  if progressive then
    let zigStart : Int := (tmp.getD (1 + 2 * nComp) 0 : Nat)
    let zigEnd : Int := (tmp.getD (2 + 2 * nComp) 0 : Nat)
    let ah : Nat := (tmp.getD (3 + 2 * nComp) 0) >>> 4
    let al : Nat := (tmp.getD (3 + 2 * nComp) 0) &&& 0x0f
    if (zigStart = 0 ∧ zigEnd ≠ 0) ∨ zigStart > zigEnd ∨ (blockSize : Int) ≤ zigEnd then
      .error (.formatError "bad spectral selection bounds")
    else if zigStart ≠ 0 ∧ nComp ≠ 1 then
      .error (.formatError "progressive AC coefficients for more than one component")
    else if ah ≠ 0 ∧ ah ≠ al + 1 then
      .error (.formatError "bad successive approximation values")
    else .ok (zigStart, zigEnd, ah, al)
  else .ok (0, ((blockSize - 1 : Nat) : Int), 0, 0)

/-- The first part of `processSOS` (source lines 999-1088): the scan header is
read, parsed and checked. -/
def scanHeader (d : decoder) (n : Nat) : Except Err (decoder × ScanHeader) :=
  if d.nComp = 0 then .error (.formatError "missing SOF marker")
  else if n < 6 ∨ 4 + 2 * d.nComp < n ∨ n % 2 ≠ 0 then
    .error (.formatError "SOS has wrong length")
  else
    match readFull d.stream n with
    | .error e => .error e
    | .ok (tmp, s) =>
      let d1 := d.withStream s
      let nComp := tmp.getD 0 0
      if n ≠ 4 + 2 * nComp then
        .error (.formatError "SOS length inconsistent with number of components")
      else
        match forRange (sosComponent d1 tmp) nComp 0
            (List.replicate maxComponents scanComp.zero, 0) with
        | .error e => .error e
        | .ok (scan, totalHV) =>
          if d1.nComp > 1 ∧ totalHV > 10 then
            .error (.formatError "total sampling factors too large")
          else
            match scanProgression d1.progressive tmp nComp with
            | .error e => .error e
            | .ok (zigStart, zigEnd, ah, al) =>
              .ok (d1, { nComp := nComp, scan := scan, zigStart := zigStart,
                         zigEnd := zigEnd, ah := ah, al := al })

/-- The allocation of the coefficient buffers of a progressive frame (source
lines 1098-1105). -/
def allocProgCoeffs (d : decoder) (hd : ScanHeader) (mxx myy : Nat) :
    List (Option (List block)) :=
  if d.progressive then
    (List.range hd.nComp).foldl
      (fun pc i =>
        let compIndex := (hd.scan.getD i scanComp.zero).compIndex
        if pc.getD compIndex none = none then
          pc.set compIndex
            (some (List.replicate
              (mxx * myy * (d.comp.getD compIndex component.zero).h *
                (d.comp.getD compIndex component.zero).v) block.zero))
        else pc) d.progCoeffs
  else d.progCoeffs

/-- The second part of `processSOS` (source lines 1090-1117): the number of
MCUs, the allocation of the images and coefficient buffers, and the initial
values of the locals of the block loops. -/
def scanAlloc (d1 : decoder) (hd : ScanHeader) : Except Err (decoder × ScanParams × McuState) :=
  let h0 := (d1.comp.getD 0 component.zero).h
  let v0 := (d1.comp.getD 0 component.zero).v
  if 8 * h0 = 0 ∨ 8 * v0 = 0 then .error (.panic "integer divide by zero")
  else
    let mxx := (d1.width + 8 * h0 - 1) / (8 * h0)
    let myy := (d1.height + 8 * v0 - 1) / (8 * v0)
    let made : Except Err decoder :=
      if d1.img1 = none ∧ d1.img3 = none then makeImg d1 mxx myy else .ok d1
    match made with
    | .error e => .error e
    | .ok d2 =>
      let d3 : decoder :=
        { d2 with
          progCoeffs := allocProgCoeffs d2 hd mxx myy
          bits := { a := 0, m := 0, n := 0 } }
      let p : ScanParams :=
        { nComp := hd.nComp, scan := hd.scan, zigStart := hd.zigStart, zigEnd := hd.zigEnd,
          ah := hd.ah, al := hd.al, mxx := mxx, myy := myy }
      let st0 : ScanState :=
        { s := d3.stream, eobRun := d3.eobRun, progCoeffs := d3.progCoeffs,
          img1 := d3.img1, img3 := d3.img3, blackPix := d3.blackPix,
          dc := List.replicate maxComponents 0, blockCount := 0 }
      .ok (d3, p, { st := st0, mcu := 0, expectedRST := rst0Marker })

/-- The part of `processSOS` before the block loops (source lines 999-1117). -/
def scanSetup (d : decoder) (n : Nat) : Except Err (decoder × ScanParams × McuState) :=
  match scanHeader d n with
  | .error e => .error e
  | .ok (d1, hd) => scanAlloc d1 hd

/-- Method `processSOS`, source lines 998-1319: the set-up, the block loops,
and the decoder fields that the block loops have changed. -/
def processSOS (d : decoder) (n : Nat) : Except Err decoder :=
  match scanSetup d n with
  | .error e => .error e
  | .ok (d3, p, ms0) =>
    match scanLoop d3 p ms0 with
    | .error e => .error e
    | .ok ms =>
      .ok { d3 with
            bytes := ms.st.s.bytes, bits := ms.st.s.bits, eobRun := ms.st.eobRun
            progCoeffs := ms.st.progCoeffs, img1 := ms.st.img1, img3 := ms.st.img3
            blackPix := ms.st.blackPix }

end Jpeg
namespace Jpeg

/-! ## The segment loop (source lines 516-798) -/

/-- The number of bytes that `readByte` can still deliver. -/
def bytes.remaining (b : bytes) : Nat := b.j - b.i + b.r.length

/-- The loop `for d.tmp[0] != 0xff` of `decode` (source lines 534-560), with
`t0` and `t1` the values of `d.tmp[0]` and `d.tmp[1]`; returns `d.tmp[1]`. Every
round reads one byte. -/
def syncMarker : Nat → bytes → Nat → Nat → Except Err (Nat × bytes)
  | fuel, b, t0, t1 =>
    if t0 ≠ 0xff then
      match readByte b with
      | (_, .error e) => .error e
      | (b1, .ok x) =>
        match fuel with
        | 0 => .error .outOfFuel
        | fuel + 1 => syncMarker fuel b1 t1 x
    else .ok (t1, b)

/-- The loop `for marker == 0xff` of `decode` (source lines 566-573). Every
round reads one byte. -/
def skipFill : Nat → bytes → Nat → Except Err (Nat × bytes)
  | fuel, b, marker =>
    if marker = 0xff then
      match readByte b with
      | (_, .error e) => .error e
      | (b1, .ok x) =>
        match fuel with
        | 0 => .error .outOfFuel
        | fuel + 1 => skipFill fuel b1 x
    else .ok (marker, b)

/-- Method `isRGB`, source lines 730-740. The bytes compared are those of
`'R'`, `'G'`, `'B'`. -/
def isRGB (d : decoder) : Bool :=
  if d.jfif then false
  else if d.adobeTransformValid ∧ d.adobeTransform = adobeTransformUnknown then true
  else
    (d.comp.getD 0 component.zero).c = 0x52 ∧ (d.comp.getD 1 component.zero).c = 0x47 ∧
      (d.comp.getD 2 component.zero).c = 0x42

/-- Method `applyBlack`, source lines 665-728: the body is commented out, what
is left is `return nil, nil`. -/
def applyBlack (_d : decoder) : Except Err (Option Image) := .ok none

/-- Method `convertToRGB`, source lines 742-758, on the image `m = d.img3`. -/
def convertToRGB (d : decoder) (m : YCbCr) : Except Err (Option Image) :=
  let h1 := (d.comp.getD 1 component.zero).h
  if h1 = 0 then .error (.panic "integer divide by zero")
  else
    let cScale := (d.comp.getD 0 component.zero).h / h1
    let stride := 4 * m.W
    let pix0 : List Nat := List.replicate (4 * m.W * m.H) 0
    let rows := forRange (fun y pix =>
      let po := y * stride
      let yo := y * m.YStride
      let co := cOffsetRow m y
      forRange (fun i pix =>
        if cScale = 0 then .error (.panic "integer divide by zero")
        else
          match sliceGet m.Y (yo + i), sliceGet m.Cb (co + i / cScale),
              sliceGet m.Cr (co + i / cScale) with
          | .ok vy, .ok vcb, .ok vcr =>
            match sliceSet pix (po + 4 * i + 0) vy with
            | .error e => .error e
            | .ok pix1 =>
              match sliceSet pix1 (po + 4 * i + 1) vcb with
              | .error e => .error e
              | .ok pix2 =>
                match sliceSet pix2 (po + 4 * i + 2) vcr with
                | .error e => .error e
                | .ok pix3 => sliceSet pix3 (po + 4 * i + 3) 255
          | _, _, _ => .error (.panic "index out of range")) m.W 0 pix) m.H 0 pix0
    match rows with
    | .error e => .error e
    | .ok pix => .ok (some (.rgba { Pix := pix, Stride := stride, W := m.W, H := m.H }))

/-- How one round of the segment loop of `decode` ends: with `continue` or at
the end of the body (`next`), with `break` at the End Of Image marker (`eoi`),
or with one of the `return nil, nil` of the config-only mode (`ret`). -/
inductive Outcome where
  | next (d : decoder)
  | eoi (d : decoder)
  | ret (d : decoder)
  deriving DecidableEq, Repr

/-- The `switch marker` of `decode` (source lines 597-642) for a segment with
`n` payload bytes. -/
def decodeMarker (configOnly : Bool) (d : decoder) (marker n : Nat) : Except Err Outcome :=
  let wrap (r : Except Err decoder) : Except Err Outcome :=
    match r with
    | .error e => .error e
    | .ok d1 => .ok (.next d1)
  if marker = sof0Marker ∨ marker = sof1Marker ∨ marker = sof2Marker then
    let d1 : decoder := { d with progressive := marker = sof2Marker }
    match processSOF d1 n with
    | .error e => .error e
    | .ok d2 => if configOnly ∧ d2.jfif then .ok (.ret d2) else .ok (.next d2)
  else if marker = dhtMarker then
    if configOnly then wrap (d.ignore n) else wrap (processDHT d n)
  else if marker = dqtMarker then
    if configOnly then wrap (d.ignore n) else wrap (processDQT d n)
  else if marker = sosMarker then
    if configOnly then .ok (.ret d) else wrap (processSOS d n)
  else if marker = driMarker then
    if configOnly then wrap (d.ignore n) else wrap (processDRI d n)
  else if marker = app0Marker then wrap (processApp0Marker d n)
  else if marker = app14Marker then wrap (processApp14Marker d n)
  else if (app0Marker ≤ marker ∧ marker ≤ app15Marker) ∨ marker = comMarker then
    wrap (d.ignore n)
  else if marker < 0xc0 then .error (.formatError "unknown marker")
  else .error (.unsupportedError "unknown marker")

/-- How the first part of a round of the segment loop ends (source lines
530-595): with a `continue` (`skip`), at the End Of Image marker (`eoi`), or
with the marker and the payload length `n` of a segment (`seg`). -/
inductive Header where
  | skip (d : decoder)
  | eoi (d : decoder)
  | seg (d : decoder) (marker n : Nat)
  deriving DecidableEq, Repr

/-- The first part of the body of the segment loop of `decode` (source lines
530-595): the next marker is found and the segment length is read. -/
def segmentHeader (d : decoder) : Except Err Header :=
  match readFull d.stream 2 with
  | .error e => .error e
  | .ok (tmp, s) =>
    match syncMarker s.bytes.remaining s.bytes (tmp.getD 0 0) (tmp.getD 1 0) with
    | .error e => .error e
    | .ok (marker0, b1) =>
      let d1 : decoder := { d with bytes := b1, bits := s.bits }
      if marker0 = 0 then .ok (.skip d1)
      else
        match skipFill b1.remaining b1 marker0 with
        | .error e => .error e
        | .ok (marker, b2) =>
          let d2 : decoder := { d1 with bytes := b2 }
          if marker = eoiMarker then .ok (.eoi d2)
          else if rst0Marker ≤ marker ∧ marker ≤ rst7Marker then .ok (.skip d2)
          else
            match readFull d2.stream 2 with
            | .error e => .error e
            | .ok (len, s3) =>
              let d3 := d2.withStream s3
              let n : Int := ((len.getD 0 0) <<< 8 + len.getD 1 0 : Nat) - 2
              if n < 0 then .error (.formatError "short segment length")
              else .ok (.seg d3 marker n.toNat)

/-- The body of the segment loop of `decode` (source lines 529-643). -/
def decodeSegment (configOnly : Bool) (d : decoder) : Except Err Outcome :=
  match segmentHeader d with
  | .error e => .error e
  | .ok (.skip d1) => .ok (.next d1)
  | .ok (.eoi d1) => .ok (.eoi d1)
  | .ok (.seg d1 marker n) => decodeMarker configOnly d1 marker n

/-- The segment loop of `decode` (source lines 529-643); returns the decoder
and whether the loop was left by `break` (`true`) or by `return nil, nil`
(`false`). Every round reads at least two bytes. -/
def decodeLoop (configOnly : Bool) : Nat → decoder → Except Err (decoder × Bool)
  | fuel, d =>
    match decodeSegment configOnly d with
    | .error e => .error e
    | .ok (.eoi d1) => .ok (d1, true)
    | .ok (.ret d1) => .ok (d1, false)
    | .ok (.next d1) =>
      match fuel with
      | 0 => .error .outOfFuel
      | fuel + 1 => decodeLoop configOnly fuel d1

/-- The end of `decode` (source lines 644-655), after the segment loop was left
at the End Of Image marker. -/
def decodeResult (d : decoder) : Except Err (Option Image) :=
  match d.img1 with
  | some m => .ok (some (.gray m))
  | none =>
    match d.img3 with
    | some m =>
      if d.blackPix ≠ none then applyBlack d
      else if isRGB d then convertToRGB d m
      else .ok (some (.ycbcr m))
    | none => .error (.formatError "missing SOS marker")

/-- Method `decode`, source lines 517-656, on the decoder `d` whose byte source
is already set (`d.r = r`); returns the image, `none` for `nil`, and the
decoder. -/
def decode (d : decoder) (configOnly : Bool) : Except Err (Option Image × decoder) :=
  match readFull d.stream 2 with
  | .error e => .error e
  | .ok (tmp, s) =>
    let d1 := d.withStream s
    if tmp.getD 0 0 ≠ 0xff ∨ tmp.getD 1 0 ≠ soiMarker then
      .error (.formatError "missing SOI marker")
    else
      match decodeLoop configOnly d1.bytes.remaining d1 with
      | .error e => .error e
      | .ok (d2, false) => .ok (none, d2)
      | .ok (d2, true) =>
        match decodeResult d2 with
        | .error e => .error e
        | .ok img => .ok (img, d2)

/-- Function `Decode`, source lines 761-764: the image, or `none` for a `nil`
image returned with a `nil` error. -/
def Decode (r : List Nat) : Except Err (Option Image) :=
  match decode (decoder.init r) false with
  | .error e => .error e
  | .ok (img, _) => .ok img

/-- Go's `color.Model` values that `DecodeConfig` returns. -/
inductive ColorModel where
  | GrayModel | YCbCrModel | RGBAModel | CMYKModel
  deriving DecidableEq, Repr

/-- Go's `image.Config`. -/
structure Config where
  ColorModel : ColorModel
  Width : Nat
  Height : Nat
  deriving DecidableEq, Repr

/-- The end of `DecodeConfig` (source lines 773-797), on the decoder that
`decode` leaves. -/
def configOf (d : decoder) : Except Err Config :=
  match d.nComp with
  | 1 => .ok { ColorModel := .GrayModel, Width := d.width, Height := d.height }
  | 3 =>
    .ok { ColorModel := if isRGB d then .RGBAModel else .YCbCrModel
          Width := d.width, Height := d.height }
  | 4 => .ok { ColorModel := .CMYKModel, Width := d.width, Height := d.height }
  | _ => .error (.formatError "missing SOF marker")

/-- Function `DecodeConfig`, source lines 768-798. -/
def DecodeConfig (r : List Nat) : Except Err Config :=
  match decode (decoder.init r) true with
  | .error e => .error e
  | .ok (_, d) => configOf d

end Jpeg
namespace Jpeg

/-! ## Specification-side definitions and example inputs -/

/-- Specification side: the array `a` read through the index table `p`, i.e.
the array whose entry `k` is `a[p[k]]`. -/
def permuteBy (p : List Nat) (a : List Int) : List Int :=
  (List.range blockSize).map (fun k => a.getD (p.getD k 0) 0)

/-- Specification side: the inverse of `unzig`, natural position to zig-zag
position. -/
def zigOf : List Nat := (List.range blockSize).map (fun v => unzig.indexOf v)

/-- A complete stream with a four-component (CMYK / YCbCrK) baseline frame of
8 by 8 pixels: SOI, one DQT table, SOF0 with four components, a DC and an AC
Huffman table with one code each, SOS, one byte of entropy-coded data (four
blocks of a zero DC difference followed by an end of block), EOI. -/
def cmykStream : List Nat :=
  [0xff, 0xd8] ++
  ([0xff, 0xdb, 0x00, 0x43, 0x00] ++ List.replicate 64 1) ++
  [0xff, 0xc0, 0x00, 0x14, 8, 0, 8, 0, 8, 4, 1, 0x11, 0, 2, 0x11, 0, 3, 0x11, 0, 4, 0x11, 0] ++
  [0xff, 0xc4, 0x00, 0x14, 0x00, 1, 0, 0, 0, 0, 0, 0, 0, 0, 0, 0, 0, 0, 0, 0, 0, 0] ++
  [0xff, 0xc4, 0x00, 0x14, 0x10, 1, 0, 0, 0, 0, 0, 0, 0, 0, 0, 0, 0, 0, 0, 0, 0, 0] ++
  [0xff, 0xda, 0x00, 0x0e, 4, 1, 0x00, 2, 0x00, 3, 0x00, 4, 0x00, 0, 63, 0] ++
  [0x00] ++
  [0xff, 0xd9]

/-- The state of the MCU loops of `processSOS` after the first `k` rounds, in
the order of the loops (row by row): round `k` is the MCU `mx = k % mxx`,
`my = k / mxx`. -/
def scanPrefix (d : decoder) (p : ScanParams) : Nat → McuState → Except Err McuState
  | 0, ms => .ok ms
  | k + 1, ms =>
    match scanPrefix d p k ms with
    | .error e => .error e
    | .ok ms1 => scanStep d p (k / p.mxx) (k % p.mxx) ms1

/-- The decoder and payload length with which `decode` calls the handler of the
first SOS segment: the segment loop is run, as in `decode`, until a segment
header with the SOS marker has been read. -/
def atFirstSOS : Nat → decoder → Option (decoder × Nat)
  | fuel, d =>
    match segmentHeader d with
    | .ok (.seg d1 marker n) =>
      if marker = sosMarker then some (d1, n)
      else
        match decodeMarker false d1 marker n, fuel with
        | .ok (.next d2), fuel + 1 => atFirstSOS fuel d2
        | _, _ => none
    | .ok (.skip d1) =>
      match fuel with
      | fuel + 1 => atFirstSOS fuel d1
      | 0 => none
    | _ => none

/-- A complete stream with a one-component baseline frame of 16 by 8 pixels
(two MCUs) and a restart interval of 1, in which the restart marker after the
first MCU is `0xFFD1` instead of `0xFFD0`. -/
def rstStream : List Nat :=
  [0xff, 0xd8] ++
  ([0xff, 0xdb, 0x00, 0x43, 0x00] ++ List.replicate 64 1) ++
  [0xff, 0xc0, 0x00, 0x0b, 8, 0, 8, 0, 16, 1, 1, 0x11, 0] ++
  [0xff, 0xc4, 0x00, 0x14, 0x00, 1, 0, 0, 0, 0, 0, 0, 0, 0, 0, 0, 0, 0, 0, 0, 0, 0] ++
  [0xff, 0xc4, 0x00, 0x14, 0x10, 1, 0, 0, 0, 0, 0, 0, 0, 0, 0, 0, 0, 0, 0, 0, 0, 0] ++
  [0xff, 0xdd, 0x00, 0x04, 0x00, 0x01] ++
  [0xff, 0xda, 0x00, 0x08, 1, 1, 0x00, 0, 63, 0] ++
  [0x3f, 0xff, 0xd1, 0x3f] ++
  [0xff, 0xd9]

/-- The decoder with which `processSOS` is called on `rstStream`. -/
def rstDecoder : decoder :=
  match readFull (decoder.init rstStream).stream 2 with
  | .ok (_, s) =>
    match atFirstSOS 8 ((decoder.init rstStream).withStream s) with
    | some (d, _) => d
    | none => decoder.init []
  | .error _ => decoder.init []

/-- The result of `scanSetup` on `rstStream`. -/
def rstSetup : decoder × ScanParams × McuState :=
  match scanSetup rstDecoder 6 with
  | .ok x => x
  | .error _ =>
    (rstDecoder,
      { nComp := 0, scan := [], zigStart := 0, zigEnd := 0, ah := 0, al := 0, mxx := 0, myy := 0 },
      { st := { s := rstDecoder.stream, eobRun := 0, progCoeffs := [], img1 := none,
                img3 := none, blackPix := none, dc := [], blockCount := 0 },
        mcu := 0, expectedRST := 0 })

/-- The block state after the first MCU of `rstStream`. -/
def rstAfterMCU : ScanState :=
  match scanMCU rstSetup.1 rstSetup.2.1 0 0 rstSetup.2.2.st with
  | .ok st => st
  | .error _ => rstSetup.2.2.st

/-- The byte buffer is well formed: `buf` has its size and `i ≤ j ≤ len(buf)`. -/
def bytes.WF (b : bytes) : Prop :=
  b.buf.length = bufSize ∧ b.i ≤ b.j ∧ b.j ≤ bufSize

/-- The bytes that the reader would deliver after going back `k` bytes in the
buffer: the buffered bytes from position `i - k` on, followed by the bytes
that the `io.Reader` has not delivered yet, are the list `l`. -/
def bytes.ReadsAs (b : bytes) (k : Nat) (l : List Nat) : Prop :=
  k ≤ b.i ∧ (b.buf.take b.j).drop (b.i - k) ++ b.r = l

/-- The bytes that the reader has not consumed yet. -/
def bytes.pending (b : bytes) : List Nat := (b.buf.take b.j).drop b.i ++ b.r

/-- Specification side: the next byte of entropy-coded data at the head of the
byte list `l` and the bytes after it; a byte other than `0xFF` stands for
itself, `0xFF 0x00` stands for `0xFF`, and there is no next byte at the end of
the list or at a marker (`0xFF` followed by anything else). -/
def stuffedHead : List Nat → Option (Nat × List Nat)
  | [] => none
  | x :: rest =>
    if x ≠ 0xff then some (x, rest)
    else
      match rest with
      | y :: rest1 => if y = 0x00 then some (0xff, rest1) else none
      | [] => none

/-- Specification side: the `L` low bits of `c`, most significant bit first. -/
def codeBits (c : Nat) : Nat → List Bool
  | 0 => []
  | L + 1 => c.testBit L :: codeBits c L

/-- Specification side: the bits of the entropy-coded data at the head of the
byte list `l`, up to the end of the list or the next marker, with the stuffed
zero bytes removed. -/
def entropyBits : List Nat → List Bool
  | [] => []
  | [x] => if x ≠ 0xff then codeBits x 8 else []
  | x :: y :: rest =>
    if x ≠ 0xff then codeBits x 8 ++ entropyBits (y :: rest)
    else if y = 0x00 then codeBits 0xff 8 ++ entropyBits rest
    else []

/-- Specification side: the bits that the entropy decoder has not consumed:
the `n` unread bits of the accumulator, followed by the bits of the
entropy-coded data that the byte reader has not consumed. -/
def unreadBits (s : Stream) : List Bool :=
  codeBits s.bits.a s.bits.n.toNat ++ entropyBits s.bytes.pending

/-- The invariant of the bit accumulator: `0 ≤ n ≤ 32`, `a` is a `uint32`, and
`m == 1<<(n-1)` when `n > 0`, with `m == 0` when `n == 0` (source line 103). -/
def bits.OK (b : bits) : Prop :=
  0 ≤ b.n ∧ b.n ≤ 32 ∧ b.a < 2 ^ 32 ∧ b.m = if b.n = 0 then 0 else 2 ^ (b.n.toNat - 1)

/-- The entropy decoder's input is well formed: the byte buffer and the bit
accumulator satisfy their invariants and the bytes not yet consumed are
bytes. -/
def Stream.OK (s : Stream) : Prop :=
  s.bytes.WF ∧ s.bits.OK ∧ ∀ x ∈ s.bytes.pending, x < 256

/-- Specification side: the canonical code assignment for the code counts
`counts` (of the lengths `len`, `len + 1`, ...) starting at the code `code`: the
list of `(code, length)` in the order of the symbol list. Codes of one length
are consecutive, and the code is shifted left by one at each length
increment. -/
def canonicalFrom : List Nat → Nat → Nat → List (Nat × Nat)
  | [], _, _ => []
  | n :: rest, code, len =>
    (List.range n).map (fun j => (code + j, len)) ++ canonicalFrom rest (2 * (code + n)) (len + 1)

/-- Specification side: the canonical Huffman codes of a table with the
per-length code counts `counts` (lengths 1, 2, ...), starting at code 0. -/
def canonicalCodes (counts : List Nat) : List (Nat × Nat) := canonicalFrom counts 0 1

/-- Specification side: valid canonical data: 16 per-length counts
`n_1, ..., n_16` with `1 ≤ sum ≤ 256` and `sum of n_L * 2^(16-L) ≤ 2^16`. -/
def ValidCounts (counts : List Nat) : Prop :=
  counts.length = 16 ∧ 1 ≤ counts.sum ∧ counts.sum ≤ 256 ∧
    ((List.range 16).map (fun i => counts.getD i 0 * 2 ^ (15 - i))).sum ≤ 2 ^ 16

/-- The first code of length `i + 1` in the canonical assignment. -/
def firstCode (counts : List Nat) : Nat → Nat
  | 0 => 0
  | i + 1 => 2 * (firstCode counts i + counts.getD i 0)

/-- The number of codes of length at most `i`. -/
def cumCount (counts : List Nat) : Nat → Nat
  | 0 => 0
  | i + 1 => cumCount counts i + counts.getD i 0

/-! ### The tables of `processDHT` -/

/-- The entry that the look-up table holds for the `j`-th code of length
`t + 1`. -/
def lutEntry (counts vals : List Nat) (t j : Nat) : Nat :=
  ((vals.getD (cumCount counts t + j) 0) <<< 8 ||| (2 + t)) % 65536

/-- The codes that the look-up table derivation has handled when it is at the
`j`-th code of length `i + 1`. -/
def LutDone (counts : List Nat) (i j t j1 : Nat) : Prop :=
  (t < i ∧ j1 < counts.getD t 0) ∨ (t = i ∧ j1 < j)

/-- The state of the look-up table derivation at the `j`-th code of length
`i + 1`. -/
def LutInv (counts vals : List Nat) (st : LutState) (i j : Nat) : Prop :=
  st.lut.length = 256 ∧ st.x = cumCount counts i + j ∧ st.code = firstCode counts i + j ∧
    (∀ v, (firstCode counts i + j) * 2 ^ (7 - i) ≤ v → st.lut.getD v 0 = 0) ∧
    (∀ t j1, LutDone counts i j t j1 → ∀ v,
      (firstCode counts t + j1) * 2 ^ (7 - t) ≤ v →
      v < (firstCode counts t + j1 + 1) * 2 ^ (7 - t) →
      st.lut.getD v 0 = lutEntry counts vals t j1) ∧
    (∀ v, v < (firstCode counts i + j) * 2 ^ (7 - i) →
      ∃ t j1, LutDone counts i j t j1 ∧ (firstCode counts t + j1) * 2 ^ (7 - t) ≤ v ∧
        v < (firstCode counts t + j1 + 1) * 2 ^ (7 - t))

/-- The table `h` holds the canonical codes of the counts `counts`. -/
def huffman.Canonical (h : huffman) (counts : List Nat) : Prop :=
  h.nCodes ≠ 0 ∧
    (∀ t, t < 16 →
      h.maxCodes.getD t 0 =
          (if counts.getD t 0 = 0 then -1
            else ((firstCode counts t + counts.getD t 0 : Nat) : Int) - 1) ∧
        h.minCodes.getD t 0 =
          (if counts.getD t 0 = 0 then -1 else (firstCode counts t : Int)) ∧
        h.valsIndices.getD t 0 =
          (if counts.getD t 0 = 0 then -1 else (cumCount counts t : Int))) ∧
    ∃ st : LutState, h.lut = st.lut ∧ LutInv counts h.vals st 7 (counts.getD 7 0)

/-- Example: the counts of the usual table for luminance DC coefficients, with
codes of 2 to 9 bits. -/
def dcCounts : List Nat := [0, 1, 5, 1, 1, 1, 1, 1, 1, 0, 0, 0, 0, 0, 0, 0]

/-- Example: the symbols of that table. -/
def dcSyms : List Nat := [0, 1, 2, 3, 4, 5, 6, 7, 8, 9, 10, 11]

/-- Example: a DHT segment payload (table class 0, identifier 0) with the
counts `dcCounts` and the symbols `dcSyms`. -/
def dcSegment : List Nat := 0x00 :: (dcCounts ++ dcSyms)

/-- Example: entropy-coded data that starts with the 9-bit code `111111110` of
the last symbol of `dcSyms`; its first byte `0xff` is followed by a stuffed
zero byte. Nothing has been read yet. -/
def longCodeStream : Stream := (decoder.init [0xff, 0x00, 0x1f]).stream

/-- Example: a reader that holds the 8 unread bits `10011111`, which start with
the 3-bit code `100` of the symbol 3 of `dcSyms`, at the end of the data. -/
def lutStream : Stream :=
  { bytes := (decoder.init []).bytes, bits := { a := 0x9f, m := 0x80, n := 8 } }

/-- Example: a reader that holds the 8 unread bits `11111111`, which start with
no code of `dcCounts` of at most 8 bits. -/
def missStream : Stream :=
  { bytes := (decoder.init []).bytes, bits := { a := 0xff, m := 0x80, n := 8 } }

end Jpeg
namespace Jpeg

/-! ## Specification-side definitions and example inputs of the later claims -/

/-- The decoder `d1` comes from `d` by a step that consumes bytes and leaves
the frame header fields and the images alone. -/
def decoder.Skips (d d1 : decoder) : Prop :=
  d1.bytes.WF ∧ d1.bytes.nUnreadable = 0 ∧ d1.img1 = d.img1 ∧ d1.img3 = d.img3 ∧
    d1.nComp = d.nComp ∧ d1.width = d.width ∧ d1.height = d.height ∧
    ∃ k, k ≤ d.bytes.pending.length ∧ d1.bytes.pending = d.bytes.pending.drop k

/-- The segments that the loop of `decode` meets from the decoder `d` on: for
each one the decoder at the start of the payload, the marker and the payload
length `n`. -/
def decodeTrace (configOnly : Bool) : Nat → decoder → List (decoder × Nat × Nat)
  | fuel, d =>
    match segmentHeader d with
    | .error _ => []
    | .ok (.eoi _) => []
    | .ok (.skip d1) =>
      match fuel with
      | 0 => []
      | fuel + 1 => decodeTrace configOnly fuel d1
    | .ok (.seg d1 marker n) =>
      (d1, marker, n) ::
        match decodeMarker configOnly d1 marker n with
        | .ok (.next d2) =>
          match fuel with
          | 0 => []
          | fuel + 1 => decodeTrace configOnly fuel d2
        | _ => []

/-- The segments that `decode` meets in the stream `r` behind the Start Of
Image marker. -/
def segmentsOf (configOnly : Bool) (r : List Nat) : List (decoder × Nat × Nat) :=
  match readFull (decoder.init r).stream 2 with
  | .error _ => []
  | .ok (tmp, s) =>
    if tmp.getD 0 0 ≠ 0xff ∨ tmp.getD 1 0 ≠ soiMarker then []
    else
      decodeTrace configOnly ((decoder.init r).withStream s).bytes.remaining
        ((decoder.init r).withStream s)

/-- The marker is one of SOF0, SOF1 and SOF2. -/
def isSOF (marker : Nat) : Prop :=
  marker = sof0Marker ∨ marker = sof1Marker ∨ marker = sof2Marker

/-- The segment `e` that the loop meets in the stream `r` is a Start Of Frame
segment, it lies in `r` behind `0xff`, its marker and its two length bytes,
and `height`, `width` and `nComp` are the big-endian 16-bit fields and the
component count byte of its payload. -/
def SofAt (r : List Nat) (e : decoder × Nat × Nat) (height width nComp : Nat) : Prop :=
  isSOF e.2.1 ∧ e.2.2 ≤ e.1.bytes.pending.length ∧
    (∃ pre hi lo, r = pre ++ [0xff, e.2.1, hi, lo] ++ e.1.bytes.pending ∧
      e.2.2 + 2 = hi * 256 + lo) ∧
    height = e.1.bytes.pending.getD 1 0 * 256 + e.1.bytes.pending.getD 2 0 ∧
    width = e.1.bytes.pending.getD 3 0 * 256 + e.1.bytes.pending.getD 4 0 ∧
    nComp = e.1.bytes.pending.getD 5 0 ∧ e.2.2 = 6 + 3 * nComp

/-- Example: a stream in which a Start Of Scan segment (of length 2) follows
the Start Of Image marker. -/
def sosFirstStream : List Nat := [0xff, 0xd8, 0xff, 0xda, 0x00, 0x02]

/-- Example: the decoder at the Start Of Scan segment of `sosFirstStream`. -/
def sosFirstDecoder : decoder :=
  match segmentsOf true sosFirstStream with
  | (d0, _, _) :: _ => d0
  | [] => decoder.init []

/-- The decoder `d1` has the colour hints, the components and the gray image
of `d`. -/
def decoder.SameFrame (d d1 : decoder) : Prop :=
  d1.jfif = d.jfif ∧ d1.adobeTransformValid = d.adobeTransformValid ∧
    d1.adobeTransform = d.adobeTransform ∧ d1.nComp = d.nComp ∧ d1.comp = d.comp ∧
    d1.img1 = d.img1

/-- A gray image is held by a one-component decoder only. -/
def decoder.GrayOnly (d : decoder) : Prop := d.img1 ≠ none → d.nComp = 1

/-- The decoder with which a round of the segment loop goes on behind the
segment header. -/
def Header.dec : Header → decoder
  | .skip d => d
  | .eoi d => d
  | .seg d _ _ => d

/-- The first `k` bytes of the payload of a segment that starts at the decoder
`d`, as `readFull` delivers them. -/
def payloadHead (d : decoder) (k : Nat) : List Nat :=
  match readFull d.stream k with
  | .ok (tmp, _) => tmp
  | .error _ => []

/-- The segment is an APP0 segment with at least 5 payload bytes. -/
def isApp0 (e : decoder × Nat × Nat) : Bool := decide (e.2.1 = app0Marker ∧ 5 ≤ e.2.2)

/-- The payload of the segment starts with the JFIF signature `"JFIF\x00"`. -/
def carriesJFIF (e : decoder × Nat × Nat) : Bool :=
  decide ((payloadHead e.1 5).getD 0 0 = 0x4a ∧ (payloadHead e.1 5).getD 1 0 = 0x46 ∧
    (payloadHead e.1 5).getD 2 0 = 0x49 ∧ (payloadHead e.1 5).getD 3 0 = 0x46 ∧
    (payloadHead e.1 5).getD 4 0 = 0x00)

/-- The segment is an APP14 segment with at least 12 payload bytes that start
with the signature `"Adobe"`. -/
def isAdobe (e : decoder × Nat × Nat) : Bool :=
  decide (e.2.1 = app14Marker ∧ 12 ≤ e.2.2 ∧
    (payloadHead e.1 12).getD 0 0 = 0x41 ∧ (payloadHead e.1 12).getD 1 0 = 0x64 ∧
    (payloadHead e.1 12).getD 2 0 = 0x6f ∧ (payloadHead e.1 12).getD 3 0 = 0x62 ∧
    (payloadHead e.1 12).getD 4 0 = 0x65)

/-- The transform byte of an Adobe APP14 segment, byte 11 of its payload. -/
def adobeTransformOf (e : decoder × Nat × Nat) : Nat := (payloadHead e.1 12).getD 11 0

/-- The colour hints `d.jfif`, `d.adobeTransformValid` and `d.adobeTransform`
after the segment `e`, given those before it. -/
def hintStep (h : Bool × Bool × Nat) (e : decoder × Nat × Nat) : Bool × Bool × Nat :=
  (if isApp0 e then carriesJFIF e else h.1,
   if isAdobe e then true else h.2.1,
   if isAdobe e then adobeTransformOf e else h.2.2)

/-- The colour hints of a decoder. -/
def decoder.hints (d : decoder) : Bool × Bool × Nat :=
  (d.jfif, d.adobeTransformValid, d.adobeTransform)

/-- The image is an `*image.RGBA`. -/
def Image.isRGBA : Image → Bool
  | .rgba _ => true
  | _ => false

/-- The last APP0 segment with at least 5 payload bytes carries the JFIF
signature. -/
def lastJFIF (tr : List (decoder × Nat × Nat)) : Bool :=
  match (tr.filter isApp0).getLast? with
  | some e => carriesJFIF e
  | none => false

/-- The last Adobe APP14 segment has the transform byte 0 (unknown). -/
def lastAdobeUnknown (tr : List (decoder × Nat × Nat)) : Bool :=
  match (tr.filter isAdobe).getLast? with
  | some e => decide (adobeTransformOf e = adobeTransformUnknown)
  | none => false

/-- The three component identifiers are those of `'R'`, `'G'`, `'B'`. -/
def idsRGB (d : decoder) : Prop :=
  (d.comp.getD 0 component.zero).c = 0x52 ∧ (d.comp.getD 1 component.zero).c = 0x47 ∧
    (d.comp.getD 2 component.zero).c = 0x42

instance (d : decoder) : Decidable (idsRGB d) := by unfold idsRGB; infer_instance

/-- A three-component stream with the identifiers `'R'`, `'G'`, `'B'`, with a
JFIF APP0 segment that is followed by a JFXX APP0 segment. -/
def jfxxStream : List Nat :=
  [0xff, 0xd8] ++
  [0xff, 0xe0, 0x00, 0x07, 0x4a, 0x46, 0x49, 0x46, 0x00] ++
  [0xff, 0xe0, 0x00, 0x07, 0x4a, 0x46, 0x58, 0x58, 0x00] ++
  ([0xff, 0xdb, 0x00, 0x43, 0x00] ++ List.replicate 64 1) ++
  [0xff, 0xc0, 0x00, 0x11, 8, 0, 8, 0, 8, 3, 0x52, 0x11, 0, 0x47, 0x11, 0, 0x42, 0x11, 0] ++
  [0xff, 0xc4, 0x00, 0x14, 0x00, 1, 0, 0, 0, 0, 0, 0, 0, 0, 0, 0, 0, 0, 0, 0, 0, 0] ++
  [0xff, 0xc4, 0x00, 0x14, 0x10, 1, 0, 0, 0, 0, 0, 0, 0, 0, 0, 0, 0, 0, 0, 0, 0, 0] ++
  [0xff, 0xda, 0x00, 0x0c, 3, 0x52, 0x00, 0x47, 0x00, 0x42, 0x00, 0, 63, 0] ++
  [0x03] ++
  [0xff, 0xd9]

/-- A three-component stream with the identifiers 1, 2, 3, with an Adobe APP14
segment of transform 0 that is followed by one of transform 1. -/
def adobeStream : List Nat :=
  [0xff, 0xd8] ++
  [0xff, 0xee, 0x00, 0x0e, 0x41, 0x64, 0x6f, 0x62, 0x65, 0, 100, 0, 0, 0, 0, 0] ++
  [0xff, 0xee, 0x00, 0x0e, 0x41, 0x64, 0x6f, 0x62, 0x65, 0, 100, 0, 0, 0, 0, 1] ++
  ([0xff, 0xdb, 0x00, 0x43, 0x00] ++ List.replicate 64 1) ++
  [0xff, 0xc0, 0x00, 0x11, 8, 0, 8, 0, 8, 3, 1, 0x11, 0, 2, 0x11, 0, 3, 0x11, 0] ++
  [0xff, 0xc4, 0x00, 0x14, 0x00, 1, 0, 0, 0, 0, 0, 0, 0, 0, 0, 0, 0, 0, 0, 0, 0, 0] ++
  [0xff, 0xc4, 0x00, 0x14, 0x10, 1, 0, 0, 0, 0, 0, 0, 0, 0, 0, 0, 0, 0, 0, 0, 0, 0] ++
  [0xff, 0xda, 0x00, 0x0c, 3, 1, 0x00, 2, 0x00, 3, 0x00, 0, 63, 0] ++
  [0x03] ++
  [0xff, 0xd9]

/-- What `decode` returns on `jfxxStream`: the image and the decoder. -/
def jfxxDecoded : Image × decoder :=
  match decode (decoder.init jfxxStream) false with
  | .ok (some img, d) => (img, d)
  | _ => (.gray { Pix := [], Stride := 0, W := 0, H := 0 }, decoder.init [])

/-- The cells `(row, col)` of the anti-diagonal `row + col = s` of an 8x8
block, in the order in which the zig-zag traversal visits them: the traversal
starts at the top-left cell and moves right first, so that the diagonals with
odd `s` are walked with increasing row and those with even `s` with decreasing
row. -/
def zigzagDiagonal (s : Nat) : List (Nat × Nat) :=
  let cells := ((List.range 8).filter (fun r => decide (r ≤ s ∧ s - r < 8))).map
    (fun r => (r, s - r))
  if s % 2 = 1 then cells else cells.reverse

/-- The standard JPEG zig-zag traversal of an 8x8 block: the anti-diagonals of
increasing `row + col`, one after the other. -/
def zigzagCells : List (Nat × Nat) := (List.range 15).flatMap zigzagDiagonal

/-- A block whose only coefficient that may differ from zero is `b[0] = d`. -/
def dcBlock (d : Int) : block := d :: List.replicate 63 0

/-- The block after the horizontal pass and the first `x` columns of the
vertical pass of `idct`, on a block whose row 0 is the constant `a` after the
horizontal pass and whose columns become the constant `v`. -/
def dcPartial (a v : Int) (x : Nat) : block :=
  (List.range 64).map (fun i => if i % 8 < x then v else if i < 8 then a else 0)

/-- The byte `Ss` of the payload `tmp` of a scan header. -/
def sosSs (tmp : List Nat) : Nat := tmp.getD (1 + 2 * tmp.getD 0 0) 0

/-- The byte `Se` of the payload `tmp` of a scan header. -/
def sosSe (tmp : List Nat) : Nat := tmp.getD (2 + 2 * tmp.getD 0 0) 0

/-- The high nibble `Ah` of the last byte of the payload `tmp` of a scan header. -/
def sosAh (tmp : List Nat) : Nat := (tmp.getD (3 + 2 * tmp.getD 0 0) 0) >>> 4

/-- The low nibble `Al` of the last byte of the payload `tmp` of a scan header. -/
def sosAl (tmp : List Nat) : Nat := (tmp.getD (3 + 2 * tmp.getD 0 0) 0) &&& 0x0f

/-- The conditions on the spectral selection of a progressive scan with `nComp`
components: `Ss = 0` implies `Se = 0`, `Ss ≤ Se < 64`, and a non-zero `Ss`
requires exactly one scan component. -/
def SpectralOK (ss se nComp : Nat) : Prop :=
  (ss = 0 → se = 0) ∧ ss ≤ se ∧ se < 64 ∧ (ss ≠ 0 → nComp = 1)

instance (ss se nComp : Nat) : Decidable (SpectralOK ss se nComp) := by
  unfold SpectralOK
  infer_instance

/-- The decoder and the payload length with which `decode` calls the handler
of the first SOS segment of the stream `r`. -/
def firstSOSOf (r : List Nat) : Option (decoder × Nat) :=
  match readFull (decoder.init r).stream 2 with
  | .ok (_, s) => atFirstSOS r.length ((decoder.init r).withStream s)
  | .error _ => none

/-- A stream with a progressive three-component frame whose components all have
the sampling factors 4x2, and a scan over the three components with `Ss = 0`,
`Se = 0`, `Ah = 2` and `Al = 0`. -/
def hvStream : List Nat :=
  [0xff, 0xd8] ++
  [0xff, 0xc2, 0x00, 0x11, 8, 0, 8, 0, 8, 3, 1, 0x42, 0, 2, 0x42, 0, 3, 0x42, 0] ++
  [0xff, 0xda, 0x00, 0x0c, 3, 1, 0x00, 2, 0x00, 3, 0x00, 0, 0, 0x20] ++
  [0xff, 0xd9]

/-- A stream with a progressive one-component frame and a scan with `Ss = 0`,
`Se = 0`, `Ah = 2` and `Al = 0`. -/
def ahStream : List Nat :=
  [0xff, 0xd8] ++
  [0xff, 0xc2, 0x00, 0x0b, 8, 0, 8, 0, 8, 1, 1, 0x11, 0] ++
  [0xff, 0xda, 0x00, 0x08, 1, 1, 0x00, 0, 0, 0x20] ++
  [0xff, 0xd9]

/-- The decoder with which `processSOS` is called on `ahStream`. -/
def ahDecoder : decoder :=
  match firstSOSOf ahStream with
  | some (d, _) => d
  | none => decoder.init []

/-- The stream of `ahDecoder` behind the payload of the scan header. -/
def ahAfter : Stream :=
  match readFull ahDecoder.stream 6 with
  | .ok (_, s) => s
  | .error _ => ahDecoder.stream

/-- A stream with a progressive one-component frame and a scan with `Ss = 5`,
`Se = 2`, `Ah = 0` and `Al = 0`. -/
def seStream : List Nat :=
  [0xff, 0xd8] ++
  [0xff, 0xc2, 0x00, 0x0b, 8, 0, 8, 0, 8, 1, 1, 0x11, 0] ++
  [0xff, 0xda, 0x00, 0x08, 1, 1, 0x00, 5, 2, 0x00] ++
  [0xff, 0xd9]

/-- The decoder with which `processSOS` is called on `seStream`. -/
def seDecoder : decoder :=
  match firstSOSOf seStream with
  | some (d, _) => d
  | none => decoder.init []

/-- The stream of `seDecoder` behind the payload of the scan header. -/
def seAfter : Stream :=
  match readFull seDecoder.stream 6 with
  | .ok (_, s) => s
  | .error _ => seDecoder.stream

/-- A reader that has nothing buffered, on the input `0xff 0x00 0x1f`. -/
def slowBytes : bytes := (decoder.init [0xff, 0x00, 0x1f]).bytes

/-- A reader that has buffered the input `0xff 0x00 0x1f`. -/
def fastBytes : bytes := (fill (decoder.init [0xff, 0x00, 0x1f]).bytes).1

/-- The identifier `C_i` of component `i` in the payload `tmp` of a frame
header. -/
def sofId (tmp : List Nat) (i : Nat) : Nat := tmp.getD (6 + 3 * i) 0

/-- The nominal horizontal sampling factor `H_i` in the payload `tmp` of a frame
header. -/
def sofH (tmp : List Nat) (i : Nat) : Nat := (tmp.getD (7 + 3 * i) 0) >>> 4

/-- The nominal vertical sampling factor `V_i` in the payload `tmp` of a frame
header. -/
def sofV (tmp : List Nat) (i : Nat) : Nat := (tmp.getD (7 + 3 * i) 0) &&& 0x0f

/-- The quantization table selector `Tq_i` in the payload `tmp` of a frame
header. -/
def sofTq (tmp : List Nat) (i : Nat) : Nat := tmp.getD (8 + 3 * i) 0

/-- The payload `tmp` of a frame header with `nComp` components has a precision
other than 8, a repeated component identifier, a nominal sampling factor that is
0, 3 or greater than 4, or a quantization table selector above 3. -/
def SofDefect (tmp : List Nat) (nComp : Nat) : Prop :=
  tmp.getD 0 0 ≠ 8 ∨
  ∃ i, i < nComp ∧
    ((∃ j, j < i ∧ sofId tmp j = sofId tmp i) ∨
      ¬ (sofH tmp i = 1 ∨ sofH tmp i = 2 ∨ sofH tmp i = 4) ∨
      ¬ (sofV tmp i = 1 ∨ sofV tmp i = 2 ∨ sofV tmp i = 4) ∨ 3 < sofTq tmp i)

/-- What the loop of `processSOF` has stored for the components before `i`,
from the payload `tmp`. -/
def SofStored (tmp : List Nat) (comp : List component) (i : Nat) : Prop :=
  ∀ k, k < i →
    (comp.getD k component.zero).c = sofId tmp k ∧
    (comp.getD k component.zero).tq = sofTq tmp k ∧ sofTq tmp k ≤ 3 ∧
    ((comp.getD k component.zero).h = 1 ∨ (comp.getD k component.zero).h = 2 ∨
      (comp.getD k component.zero).h = 4) ∧
    ((comp.getD k component.zero).v = 1 ∨ (comp.getD k component.zero).v = 2 ∨
      (comp.getD k component.zero).v = 4) ∧
    (sofH tmp k = 1 ∨ sofH tmp k = 2 ∨ sofH tmp k = 4) ∧
    (sofV tmp k = 1 ∨ sofV tmp k = 2 ∨ sofV tmp k = 4) ∧
    ∀ j, j < k → sofId tmp j ≠ sofId tmp k

/-- A frame header payload for one component. -/
def grayFrame : List Nat := [8, 0, 8, 0, 16, 1, 1, 0x11, 0]

/-- The decoder that `processSOF` leaves on `grayFrame`. -/
def grayFrameDecoder : decoder :=
  match processSOF (decoder.init grayFrame) 9 with
  | .ok d => d
  | .error _ => decoder.init []

/-- A frame header payload for three components, the first two with the same
identifier. -/
def repeatedFrame : List Nat := [8, 0, 8, 0, 8, 3, 1, 0x11, 0, 1, 0x11, 0, 2, 0x11, 0]

/-- The marker byte `m` is none of 0x00, 0xFF, SOF0, SOF1, SOF2, DHT, DQT, DRI,
SOS, EOI, RST0..RST7, APP0..APP15 and COM. -/
def UnknownMarker (m : Nat) : Prop :=
  m ≠ 0x00 ∧ m ≠ 0xff ∧ m ≠ sof0Marker ∧ m ≠ sof1Marker ∧ m ≠ sof2Marker ∧ m ≠ dhtMarker ∧
    m ≠ dqtMarker ∧ m ≠ driMarker ∧ m ≠ sosMarker ∧ m ≠ eoiMarker ∧
    ¬ (rst0Marker ≤ m ∧ m ≤ rst7Marker) ∧ ¬ (app0Marker ≤ m ∧ m ≤ app15Marker) ∧
    m ≠ comMarker

instance (m : Nat) : Decidable (UnknownMarker m) := by
  unfold UnknownMarker
  infer_instance

/-- The error of `decode` for a marker that it does not know. -/
def unknownMarkerError (m : Nat) : Err :=
  if m < 0xc0 then .formatError "unknown marker" else .unsupportedError "unknown marker"

/-- A stream with a segment of the marker `0x01` behind the SOI marker. -/
def lowMarkerStream : List Nat := [0xff, 0xd8, 0xff, 0x01, 0x00, 0x02, 0xff, 0xd9]

/-- A stream with a comment segment and a segment of the marker `0xc3` behind
the SOI marker. -/
def highMarkerStream : List Nat :=
  [0xff, 0xd8, 0xff, 0xfe, 0x00, 0x03, 0x41, 0xff, 0xc3, 0x00, 0x02, 0xff, 0xd9]

/-- The second segment that `decode` meets in `highMarkerStream`. -/
def highMarkerSegment : decoder × Nat × Nat :=
  (segmentsOf false highMarkerStream).getD 1 (decoder.init [], 0, 0)

/-- The gray image that `scanSetup` allocates on `rstStream`. -/
def rstImage : Gray :=
  match rstSetup.2.2.st.img1 with
  | some m => m
  | none => { Pix := [], Stride := 0, W := 0, H := 0 }

/-- The code counts of the Huffman tables of `rstStream`: one code of length 1. -/
def oneCode : List Nat := [1, 0, 0, 0, 0, 0, 0, 0, 0, 0, 0, 0, 0, 0, 0, 0]

/-- Two byte readers deliver the same bytes, also after the bytes that can be
unread are unread: their buffers are well formed, at most two bytes can be
unread, and going back by `nUnreadable` gives the same bytes in both. The
numbers of bytes that can be unread may differ, but are zero together. -/
def bytes.Sim (b b1 : bytes) : Prop :=
  b.WF ∧ b1.WF ∧ b.nUnreadable ≤ 2 ∧ b1.nUnreadable ≤ 2 ∧
    (b.nUnreadable = 0 ↔ b1.nUnreadable = 0) ∧
    ∃ l, b.ReadsAs b.nUnreadable l ∧ b1.ReadsAs b1.nUnreadable l

/-- Two byte readers deliver the same bytes and can unread the same bytes:
they differ in how the bytes are buffered only. -/
def bytes.Same (b b1 : bytes) : Prop := b.Sim b1 ∧ b.nUnreadable = b1.nUnreadable

/-- The relation `bytes.Sim` between the inputs of the entropy decoder, with
equal bit accumulators. -/
def Stream.Sim (s s1 : Stream) : Prop := s.bits = s1.bits ∧ s.bytes.Sim s1.bytes

/-- The relation `bytes.Same` between the inputs of the entropy decoder, with
equal bit accumulators. -/
def Stream.Same (s s1 : Stream) : Prop := s.bits = s1.bits ∧ s.bytes.Same s1.bytes

/-- Two runs end alike: with the same error, or with results related by `Q`. -/
def Rel {α : Type} (Q : α → α → Prop) (r r1 : Except Err α) : Prop :=
  (∀ e, r = .error e → r1 = .error e) ∧ (∀ a, r = .ok a → ∃ a1, r1 = .ok a1 ∧ Q a a1)

/-- A value read from the stream together with the stream behind it. -/
def SameOut {α : Type} (x y : α × Stream) : Prop := x.1 = y.1 ∧ x.2.Same y.2

/-- Two block decoder states that differ in how the bytes are buffered only. -/
def ScanState.Same (st st1 : ScanState) : Prop :=
  st1 = { st with s := st1.s } ∧ st.s.Same st1.s

/-- Two states of the loops over the MCUs that differ in how the bytes are
buffered only. -/
def McuState.Same (ms ms1 : McuState) : Prop :=
  ms1 = { ms with st := ms1.st } ∧ ms.st.Same ms1.st

/-- Two decoders that differ in how the bytes are buffered only. -/
def decoder.Same (d d1 : decoder) : Prop :=
  d1 = { d with bytes := d1.bytes } ∧ d.bytes.Same d1.bytes

/-- Two results of the first part of a round that differ in how the bytes are
buffered only. -/
def Header.Same : Header → Header → Prop
  | .skip d, .skip d1 => d.Same d1
  | .eoi d, .eoi d1 => d.Same d1
  | .seg d m n, .seg d1 m1 n1 => d.Same d1 ∧ m = m1 ∧ n = n1
  | _, _ => False

/-- Two results of a round that differ in how the bytes are buffered only. -/
def Outcome.Same : Outcome → Outcome → Prop
  | .next d, .next d1 => d.Same d1
  | .eoi d, .eoi d1 => d.Same d1
  | .ret d, .ret d1 => d.Same d1
  | _, _ => False

/-- Two decoders at the start of a round of the segment loop that agree but for
how the bytes are buffered, once the bytes read ahead are given back. -/
def decoder.Start (d d1 : decoder) : Prop :=
  d = { d1 with bytes := d.bytes, bits := d.bits } ∧
    (unreadOvershot d.stream).Same (unreadOvershot d1.stream)

/-- The end of the first part of a round of the segment loop (source lines
574-595), behind the marker: End Of Image, a restart marker, or the length of
a segment. -/
def headerTail (d : decoder) (marker : Nat) : Except Err Header :=
  if marker = eoiMarker then .ok (.eoi d)
  else if rst0Marker ≤ marker ∧ marker ≤ rst7Marker then .ok (.skip d)
  else
    match readFull d.stream 2 with
    | .error e => .error e
    | .ok (len, s3) =>
      if ((((len.getD 0 0) <<< 8 + len.getD 1 0 : Nat) : Int) - 2) < 0 then
        .error (.formatError "short segment length")
      else .ok (.seg (d.withStream s3) marker
        ((((len.getD 0 0) <<< 8 + len.getD 1 0 : Nat) : Int) - 2).toNat)

/-- The segments of a one-component baseline frame of 8 by 8 pixels up to the
header of its scan: a quantization table of ones, the frame header, a DC and
an AC Huffman table with one code of length 1 for the symbol 0, and the scan
header. -/
def grayHeaders : List Nat :=
  ([0xff, 0xdb, 0x00, 0x43, 0x00] ++ List.replicate 64 1) ++
  [0xff, 0xc0, 0x00, 0x0b, 8, 0, 8, 0, 8, 1, 1, 0x11, 0] ++
  [0xff, 0xc4, 0x00, 0x14, 0x00, 1, 0, 0, 0, 0, 0, 0, 0, 0, 0, 0, 0, 0, 0, 0, 0, 0] ++
  [0xff, 0xc4, 0x00, 0x14, 0x10, 1, 0, 0, 0, 0, 0, 0, 0, 0, 0, 0, 0, 0, 0, 0, 0, 0] ++
  [0xff, 0xda, 0x00, 0x08, 1, 1, 0x00, 0, 63, 0]

/-- What follows the Start Of Image marker in a complete stream of an image of
8 by 8 pixels: `grayHeaders`, one byte of entropy-coded data, End Of Image. -/
def grayTail : List Nat := grayHeaders ++ [0x3f, 0xff, 0xd9]

/-- The image of `grayTail`: 8 by 8 pixels of the value 128. -/
def grayImage : Image := .gray { Pix := List.replicate 64 128, Stride := 8, W := 8, H := 8 }

/-- A stream, without its End Of Image marker, of a frame of 16 by 8 pixels
(two MCUs) with a restart interval of 1, whose entropy-coded data end behind
the first MCU. -/
def shortScan : List Nat :=
  [0xff, 0xd8] ++
  ([0xff, 0xdb, 0x00, 0x43, 0x00] ++ List.replicate 64 1) ++
  [0xff, 0xc0, 0x00, 0x0b, 8, 0, 8, 0, 16, 1, 1, 0x11, 0] ++
  [0xff, 0xc4, 0x00, 0x14, 0x00, 1, 0, 0, 0, 0, 0, 0, 0, 0, 0, 0, 0, 0, 0, 0, 0, 0] ++
  [0xff, 0xc4, 0x00, 0x14, 0x10, 1, 0, 0, 0, 0, 0, 0, 0, 0, 0, 0, 0, 0, 0, 0, 0, 0] ++
  [0xff, 0xdd, 0x00, 0x04, 0x00, 0x01] ++
  [0xff, 0xda, 0x00, 0x08, 1, 1, 0x00, 0, 63, 0] ++
  [0x3f]

end Jpeg
namespace Jpeg

/-! ## Definitions for the bit reader, the scans and the inverse transform: invariants, specification-side functions and example inputs -/

/-- The horizontal pass of `idct` when every row takes the general 8-point
butterfly (source lines 855-900), i.e. without the shortcut of source lines
841-853. -/
def idctRowsGeneral (src : block) : block :=
  (List.range 8).foldl (fun s y => idctRowGeneral s (y * 8)) src

/-- Function `idct` when every row of the horizontal pass takes the general
8-point butterfly. -/
def idctGeneral (src : block) : block := (List.range 8).foldl idctCol (idctRowsGeneral src)

/-- A row of a block takes the shortcut of the horizontal pass: its seven AC
entries are zero. -/
def rowShortcut (src : block) (y : Nat) : Prop :=
  src.getD (y * 8 + 1) 0 = 0 ∧ src.getD (y * 8 + 2) 0 = 0 ∧ src.getD (y * 8 + 3) 0 = 0 ∧
    src.getD (y * 8 + 4) 0 = 0 ∧ src.getD (y * 8 + 5) 0 = 0 ∧ src.getD (y * 8 + 6) 0 = 0 ∧
    src.getD (y * 8 + 7) 0 = 0

instance (src : block) (y : Nat) : Decidable (rowShortcut src y) := by
  unfold rowShortcut
  infer_instance

/-- A block whose first row has only a DC entry and whose second row has AC
entries. -/
def shortcutBlock : block := [5, 0, 0, 0, 0, 0, 0, 0, 1, 2, 3, 4, 5, 6, 7, 8] ++ List.replicate 48 0

/-- A stream whose entropy-coded data starts with the bits `010`. -/
def extendStream : Stream :=
  { bytes := { buf := [0x40, 0x12] ++ List.replicate 4094 0, i := 0, j := 2,
               nUnreadable := 0, r := [] },
    bits := { a := 0, m := 0, n := 0 } }

/-- The invariant of the bit accumulator (source line 103), with the bound on
the number of unread bits: `m == 1<<(n-1)` when `n > 0`, `m == 0` when
`n == 0`, and `0 <= n <= 23`. -/
def bits.Inv (b : bits) : Prop :=
  (0 < b.n → b.m = 1 <<< (b.n.toNat - 1)) ∧ (b.n = 0 → b.m = 0) ∧ 0 ≤ b.n ∧ b.n ≤ 23

instance (b : bits) : Decidable b.Inv := by
  unfold bits.Inv
  infer_instance

/-- A stream whose accumulator holds 16 unread bits. -/
def invStream16 : Stream :=
  { bytes := { buf := [0x12, 0x34] ++ List.replicate 4094 0, i := 0, j := 2,
               nUnreadable := 0, r := [] },
    bits := { a := 0, m := 1 <<< 15, n := 16 } }

/-- A stream whose accumulator holds 17 unread bits. -/
def invStream17 : Stream :=
  { bytes := { buf := [0x12, 0x34] ++ List.replicate 4094 0, i := 0, j := 2,
               nUnreadable := 0, r := [] },
    bits := { a := 0, m := 1 <<< 16, n := 17 } }

/-- The results of `k` successive calls of `readByte`. -/
def readBytes : Nat → bytes → List (Except Err Nat)
  | 0, _ => []
  | k + 1, b => (readByte b).2 :: readBytes k (readByte b).1

/-- A decoder with a restart interval of one MCU. -/
def restartDecoder : decoder := { decoder.init [] with ri := 1 }

/-- The parameters of a baseline scan of two MCUs. -/
def restartParams : ScanParams :=
  { nComp := 1, scan := [{ compIndex := 0, td := 0, ta := 0 }], zigStart := 0, zigEnd := 63,
    ah := 0, al := 0, mxx := 2, myy := 1 }

/-- The state of the MCU loop after the blocks of the first MCU, in front of
the marker `RST0`: three unread bits, a DC predictor of 7 and an EOB run of
5. -/
def restartState : McuState :=
  { st :=
      { s := { bytes := { buf := [0xff, 0xd0, 0x3f] ++ List.replicate 4093 0, i := 0, j := 3,
                          nUnreadable := 0, r := [] },
               bits := { a := 5, m := 4, n := 3 } },
        eobRun := 5, progCoeffs := [], img1 := none, img3 := none, blackPix := none,
        dc := [7, 0, 0, 0], blockCount := 1 },
    mcu := 0, expectedRST := 0xd0 }

/-- The state of the MCU loop behind the marker `RST0`. -/
def restartedState : McuState :=
  { st :=
      { s := { bytes := { buf := [0xff, 0xd0, 0x3f] ++ List.replicate 4093 0, i := 2, j := 3,
                          nUnreadable := 0, r := [] },
               bits := { a := 0, m := 0, n := 0 } },
        eobRun := 0, progCoeffs := [], img1 := none, img3 := none, blackPix := none,
        dc := [0, 0, 0, 0], blockCount := 1 },
    mcu := 1, expectedRST := 0xd1 }

/-- A progressive stream with a one-component frame of 8 by 8 pixels (one
block) and three scans: the DC coefficient; the band 1..5, whose entropy-coded
data is an end-of-band run of 2 blocks, one more than the scan has; and the
band 6..63, whose entropy-coded data sets the coefficient at zig-zag position 6
to 1 and ends the block. -/
def eobStream : List Nat :=
  [0xff, 0xd8] ++
  ([0xff, 0xdb, 0x00, 0x43, 0x00] ++ List.replicate 64 0x40) ++
  [0xff, 0xc2, 0x00, 0x0b, 8, 0, 8, 0, 8, 1, 1, 0x11, 0] ++
  [0xff, 0xc4, 0x00, 0x14, 0x00, 1, 0, 0, 0, 0, 0, 0, 0, 0, 0, 0, 0, 0, 0, 0, 0, 0] ++
  [0xff, 0xc4, 0x00, 0x16, 0x10, 0, 3, 0, 0, 0, 0, 0, 0, 0, 0, 0, 0, 0, 0, 0, 0, 0x00, 0x01,
    0x10] ++
  [0xff, 0xda, 0x00, 0x08, 1, 1, 0x00, 0, 0, 0x00, 0x7f] ++
  [0xff, 0xda, 0x00, 0x08, 1, 1, 0x00, 1, 5, 0x00, 0x9f] ++
  [0xff, 0xda, 0x00, 0x08, 1, 1, 0x00, 6, 63, 0x00, 0x67] ++
  [0xff, 0xd9]

/-- The decoder with which `decode` calls `processSOS` for the third scan of
`eobStream`. -/
def eobLastScan : decoder := ((segmentsOf false eobStream).getD 6 (decoder.init [], 0, 0)).1

/-- The image that the third scan of `eobStream` encodes. -/
def eobImage : Gray :=
  { Pix := [137, 126, 117, 122, 134, 139, 130, 119, 137, 126, 117, 122, 134, 139, 130, 119,
            137, 126, 117, 122, 134, 139, 130, 119, 137, 126, 117, 122, 134, 139, 130, 119,
            137, 126, 117, 122, 134, 139, 130, 119, 137, 126, 117, 122, 134, 139, 130, 119,
            137, 126, 117, 122, 134, 139, 130, 119, 137, 126, 117, 122, 134, 139, 130, 119],
    Stride := 8, W := 8, H := 8 }

/-- The luma-to-chroma sampling ratios of the components `comp` are exact and
one of the six that `makeImg` knows. -/
def RatioOK (comp : List component) : Prop :=
  (comp.getD 1 component.zero).h ≠ 0 ∧ (comp.getD 1 component.zero).v ≠ 0 ∧
    (comp.getD 0 component.zero).h % (comp.getD 1 component.zero).h = 0 ∧
    (comp.getD 0 component.zero).v % (comp.getD 1 component.zero).v = 0 ∧
    ((comp.getD 0 component.zero).h / (comp.getD 1 component.zero).h,
      (comp.getD 0 component.zero).v / (comp.getD 1 component.zero).v) ∈
        [(1, 1), (1, 2), (2, 1), (2, 2), (4, 1), (4, 2)]

instance (comp : List component) : Decidable (RatioOK comp) := by
  unfold RatioOK
  infer_instance

/-- The components of a decoder are an array of `maxComponents` entries and,
once a frame header of three or four components has been read, their
sampling ratios are as `makeImg` expects. -/
def decoder.FrameOK (d : decoder) : Prop :=
  d.comp.length = maxComponents ∧
    (d.nComp = 0 ∨ d.nComp = 1 ∨ ((d.nComp = 3 ∨ d.nComp = 4) ∧ RatioOK d.comp))

/-- The payload of a frame header with three components sampled 2x2, 1x1 and
1x1 (4:2:0). -/
def ratioFrame : List Nat := [8, 0, 16, 0, 16, 3, 1, 0x22, 0, 2, 0x11, 0, 3, 0x11, 0]

/-- The decoder that `processSOF` leaves on `ratioFrame`. -/
def ratioFrameDecoder : decoder :=
  match processSOF (decoder.init ratioFrame) 15 with
  | .ok d => d
  | .error _ => decoder.init []

/-- The state `st` of the block loops has the image planes of `st0`, and the
coefficient buffers of `st0` for every component that the scan does not
name. -/
def ScanState.Kept (p : ScanParams) (st0 st : ScanState) : Prop :=
  st.img1 = st0.img1 ∧ st.img3 = st0.img3 ∧ st.blackPix = st0.blackPix ∧
    ∀ c, (∀ i < p.nComp, (p.scan.getD i scanComp.zero).compIndex ≠ c) →
      st.progCoeffs.getD c none = st0.progCoeffs.getD c none

/-- The decoder with which `decode` calls `processSOS` for the first scan of
`eobStream`. -/
def eobFirstScan : decoder := ((segmentsOf false eobStream).getD 4 (decoder.init [], 0, 0)).1

/-- The decoder with which `decode` calls `processSOS` for the second scan of
`eobStream`. -/
def eobSecondScan : decoder := ((segmentsOf false eobStream).getD 5 (decoder.init [], 0, 0)).1

/-- The set-up of the second scan of `eobStream`. -/
def eobSecondSetup : decoder × ScanParams × McuState :=
  match scanSetup eobSecondScan 6 with
  | .ok x => x
  | .error _ =>
    (eobSecondScan,
      { nComp := 0, scan := [], zigStart := 0, zigEnd := 0, ah := 0, al := 0, mxx := 0, myy := 0 },
      { st := { s := eobSecondScan.stream, eobRun := 0, progCoeffs := [], img1 := none,
                img3 := none, blackPix := none, dc := [], blockCount := 0 },
        mcu := 0, expectedRST := 0 })

/-- The decoder that `processSOS` leaves after the second scan of `eobStream`. -/
def eobSecondDone : decoder :=
  match processSOS eobSecondScan 6 with
  | .ok d => d
  | .error _ => decoder.init []

/-- Specification side: the number of non-zero coefficients of the block `b`
at the `len` zig-zag positions from `z` on. -/
def nonZeroCount (b : block) : Nat → Nat → Nat
  | _, 0 => 0
  | z, len + 1 =>
    (if b.getD (unzig.getD z 0) 0 ≠ 0 then 1 else 0) + nonZeroCount b (z + 1) len

/-- Specification side: the number of zero coefficients of the block `b` at
the `len` zig-zag positions from `z` on. -/
def zeroCount (b : block) : Nat → Nat → Nat
  | _, 0 => 0
  | z, len + 1 =>
    (if b.getD (unzig.getD z 0) 0 = 0 then 1 else 0) + zeroCount b (z + 1) len

/-- Specification side: the coefficient `c` after its correction bit `bit`: a
non-zero coefficient moves by `delta` away from zero when the bit is set. -/
def corrected (delta c : Int) (bit : Bool) : Int :=
  if c ≠ 0 ∧ bit = true then (if c > 0 then c + delta else c - delta) else c

/-- The result of the loop of `refineNonZeroes`, as the final theorem states
it: the loop stops at the position `y`, has read the correction bits `cs`, and
has left the block `b1` and the stream `s1`. -/
def RefinedTo (delta : Int) (ze : Nat) (s : Stream) (b : block) (z : Nat) (nz : Int)
    (y : Nat) (b1 : block) (s1 : Stream) (cs : List Bool) : Prop :=
  z ≤ y ∧ y ≤ ze + 1 ∧ s1.OK ∧ unreadBits s = cs ++ unreadBits s1 ∧
    cs.length = nonZeroCount b z (y - z) ∧ b1.length = b.length ∧
    (∀ u, (∀ k, z ≤ k → k < y → unzig.getD k 0 ≠ u) → b1.getD u 0 = b.getD u 0) ∧
    (∀ k, z ≤ k → k < y →
      b1.getD (unzig.getD k 0) 0 =
        corrected delta (b.getD (unzig.getD k 0) 0) (cs.getD (nonZeroCount b z (k - z)) false)) ∧
    (0 ≤ nz → nz < 2147483648 →
      (y ≤ ze → b.getD (unzig.getD y 0) 0 = 0 ∧ (zeroCount b z (y - z) : Int) = nz) ∧
      (y = ze + 1 → (zeroCount b z (y - z) : Int) ≤ nz))

/-- Specification side: what AC refinement may do to a coefficient `c`: a
non-zero coefficient is corrected, a zero coefficient stays zero or becomes a
new coefficient `delta` or `-delta`. -/
def acRefined (delta c c1 : Int) : Prop :=
  (c ≠ 0 → ∃ bit, c1 = corrected delta c bit) ∧ (c = 0 → c1 = 0 ∨ c1 = delta ∨ c1 = -delta)

/-- Specification side: the block `bc` is the block `b` with the zig-zag
positions from `zs` up to `z` (excluded) refined. -/
def RefinedUpTo (delta : Int) (zs : Nat) (b bc : block) (z : Nat) : Prop :=
  bc.length = 64 ∧
    (∀ u, (∀ k, zs ≤ k → k < z → unzig.getD k 0 ≠ u) → bc.getD u 0 = b.getD u 0) ∧
    (∀ k, zs ≤ k → k < z →
      acRefined delta (b.getD (unzig.getD k 0) 0) (bc.getD (unzig.getD k 0) 0))

/-- The code counts of an AC table with three codes of length 2. -/
def acCounts : List Nat := [0, 3, 0, 0, 0, 0, 0, 0, 0, 0, 0, 0, 0, 0, 0, 0]

/-- The symbols of the AC table: end of band, a new coefficient without a
zero run, and an end-of-band run with one further bit. -/
def acSyms : List Nat := [0x00, 0x01, 0x10]

/-- A stream whose entropy-coded data starts with the code `01` of the symbol
`0x01` and a sign bit 1. -/
def refineStream : Stream :=
  { bytes := { buf := [0x60, 0x00] ++ List.replicate 4094 0, i := 0, j := 2,
               nUnreadable := 0, r := [] },
    bits := { a := 0, m := 0, n := 0 } }

/-- A stream whose entropy-coded data starts with the bits `101`. -/
def bitStream : Stream :=
  { bytes := { buf := [0xa0, 0x00] ++ List.replicate 4094 0, i := 0, j := 2,
               nUnreadable := 0, r := [] },
    bits := { a := 0, m := 0, n := 0 } }

/-- A block whose coefficient at zig-zag position 1 is the largest `int32`. -/
def overflowBlock : block := [0, 2147483647] ++ List.replicate 62 0

/-- A block with the coefficients 5, -3 and 7 at the zig-zag positions 1, 2
and 3. -/
def someBlock : block :=
  [0, 5, 0, 0, 0, 0, 0, 0, -3, 0, 0, 0, 0, 0, 0, 0, 7] ++ List.replicate 47 0

/-- What `refineNonZeroes` returns on `someBlock` for the range `[1, 5]`, one
zero coefficient to skip, and `delta = 2`. -/
def refinedOut : Int × block × Stream :=
  match refineNonZeroes bitStream someBlock 1 5 1 2 with
  | .ok x => x
  | .error _ => (0, [], bitStream)

end Jpeg
namespace Jpeg

/-! ## Definitions for the Huffman walk, the block positions and the config-only mode: instrumented functions, relations between two runs and example inputs -/

/-- A progressive stream with a one-component frame of 8 by 8 pixels and two
scans of the DC coefficient: a first pass with `Al = 1` and a refinement pass
with `Ah = 1`, `Al = 0`. -/
def refineScanStream : List Nat :=
  [0xff, 0xd8] ++
  [0xff, 0xc2, 0x00, 0x0b, 8, 0, 8, 0, 8, 1, 1, 0x11, 0] ++
  [0xff, 0xc4, 0x00, 0x14, 0x00, 1, 0, 0, 0, 0, 0, 0, 0, 0, 0, 0, 0, 0, 0, 0, 0, 0] ++
  [0xff, 0xda, 0x00, 0x08, 1, 1, 0x00, 0, 0, 0x01, 0x7f] ++
  [0xff, 0xda, 0x00, 0x08, 1, 1, 0x00, 0, 0, 0x10, 0x7f] ++
  [0xff, 0xd9]

/-- The decoder with which `decode` calls `processSOS` for the refinement scan
of `refineScanStream`. -/
def refineScan : decoder :=
  ((segmentsOf false refineScanStream).getD 3 (decoder.init [], 0, 0)).1

/-- The set-up of the refinement scan of `refineScanStream`. -/
def refineScanSetup : decoder × ScanParams × McuState :=
  match scanSetup refineScan 6 with
  | .ok x => x
  | .error _ =>
    (refineScan,
      { nComp := 0, scan := [], zigStart := 0, zigEnd := 0, ah := 0, al := 0, mxx := 0, myy := 0 },
      { st := { s := refineScan.stream, eobRun := 0, progCoeffs := [], img1 := none,
                img3 := none, blackPix := none, dc := [], blockCount := 0 },
        mcu := 0, expectedRST := 0 })

/-- The loop at label `slowPath` of `decodeHuffman` (source lines 1623-1639) up
to its `return`: the length index `i` and the code at which the walk returns,
and the stream behind the bits of the code. -/
def slowPathHit (h : huffman) : Nat → Nat → Int → Stream → Except Err (Nat × Int × Stream)
  | 0, _, _, _ => .error (.formatError "bad Huffman code")
  | k + 1, i, code, s =>
    let r : Stream × Option Err :=
      if s.bits.n = 0 then ensureNBits s 1 else (s, none)
    match r with
    | (_, some e) => .error e
    | (s1, none) =>
      let code1 : Int := if s1.bits.a &&& s1.bits.m ≠ 0 then Int.lor code 1 else code
      let s2 : Stream :=
        { s1 with bits := { a := s1.bits.a, m := s1.bits.m >>> 1, n := wrap32 (s1.bits.n - 1) } }
      if code1 ≤ h.maxCodes.getD i 0 then .ok (i, code1, s2)
      else slowPathHit h k (i + 1) (shl32 code1 1) s2

/-- The `return` of the loop at label `slowPath` (source line 1635) at the
length index `i` with the code `code`: the index into `h.vals` is computed in
`int32` and checked against the bounds of the array of 256 symbols. -/
def slowPathReturn (h : huffman) (i : Nat) (code : Int) (s : Stream) :
    Except Err (Nat × Stream) :=
  let idx : Int := wrap32 (wrap32 (h.valsIndices.getD i 0 + code) - h.minCodes.getD i 0)
  if idx < 0 ∨ 256 ≤ idx then .error (.panic "index out of range")
  else .ok (h.vals.getD idx.toNat 0, s)

/-- The counts of a table that is no prefix code: three codes of length 1. -/
def crowdedCounts : List Nat := [3, 0, 0, 0, 0, 0, 0, 0, 0, 0, 0, 0, 0, 0, 0, 0]

/-- The table that `processDHT` builds from `crowdedCounts` and the symbols
10, 20 and 30 in an empty slot. -/
def crowdedTable : huffman := buildHuffman huffman.zero crowdedCounts [10, 20, 30]

/-- The block position `(bx, by)` that the body of the loop over `j` computes
(source lines 1152-1163) from the MCU `(mx, my)`, the scan component `i`, the
block `j` of the MCU and the local `blockCount`. -/
def blockPos (d : decoder) (p : ScanParams) (mx my i j blockCount : Nat) : Nat × Nat :=
  let hi := (d.comp.getD (p.scan.getD i scanComp.zero).compIndex component.zero).h
  let vi := (d.comp.getD (p.scan.getD i scanComp.zero).compIndex component.zero).v
  (if p.nComp ≠ 1 then hi * mx + j % hi else blockCount % (p.mxx * hi),
   if p.nComp ≠ 1 then vi * my + j / hi else blockCount / (p.mxx * hi))

/-- The block position that the body of the loop over `j` computes lies in the
component: `bx < mxx*hi`, `by < myy*vi`, and the index `by*mxx*hi + bx` into
the coefficient buffer is less than `mxx*myy*hi*vi`. -/
def BlockInRange (d : decoder) (p : ScanParams) (mx my i j : Nat) (st : ScanState) : Prop :=
  (blockPos d p mx my i j st.blockCount).1 <
      p.mxx * (d.comp.getD (p.scan.getD i scanComp.zero).compIndex component.zero).h ∧
    (blockPos d p mx my i j st.blockCount).2 <
      p.myy * (d.comp.getD (p.scan.getD i scanComp.zero).compIndex component.zero).v ∧
    (blockPos d p mx my i j st.blockCount).2 * p.mxx *
        (d.comp.getD (p.scan.getD i scanComp.zero).compIndex component.zero).h +
      (blockPos d p mx my i j st.blockCount).1 <
        p.mxx * p.myy * (d.comp.getD (p.scan.getD i scanComp.zero).compIndex component.zero).h *
          (d.comp.getD (p.scan.getD i scanComp.zero).compIndex component.zero).v

instance (d : decoder) (p : ScanParams) (mx my i j : Nat) (st : ScanState) :
    Decidable (BlockInRange d p mx my i j st) := by
  unfold BlockInRange
  infer_instance

/-- The body of the loop over `j` with an assertion in front of it: the block
position lies in the component. -/
def scanBlockChecked (d : decoder) (p : ScanParams) (mx my i j : Nat) (st : ScanState) :
    Except Err ScanState :=
  if BlockInRange d p mx my i j st then scanBlock d p mx my i j st
  else .error (.panic "block position out of range")

/-- The loops over `my`, `mx`, `i` and `j` of `processSOS` (source lines
1119-1316) around a body `blk mx my i j` of the loop over `j`. -/
def scanLoopWith (blk : Nat → Nat → Nat → Nat → ScanState → Except Err ScanState)
    (d : decoder) (p : ScanParams) (ms : McuState) : Except Err McuState :=
  forRange (fun my ms =>
    forRange (fun mx ms =>
      match forRange (fun i st =>
          let c := d.comp.getD (p.scan.getD i scanComp.zero).compIndex component.zero
          forRange (blk mx my i) (c.h * c.v) 0 st) p.nComp 0 ms.st with
      | .error e => .error e
      | .ok st1 => scanRestart d p { ms with st := st1 }) p.mxx 0 ms) p.myy 0 ms

/-- The number `hi*vi` of blocks of scan component `i` in an MCU, the bound of
the loop over `j` (source line 1126). -/
def blocksPerMCU (d : decoder) (p : ScanParams) (i : Nat) : Nat :=
  (d.comp.getD (p.scan.getD i scanComp.zero).compIndex component.zero).h *
    (d.comp.getD (p.scan.getD i scanComp.zero).compIndex component.zero).v

/-- The marker of a segment that the config-only mode skips by its length
without parsing it: DHT, DQT or DRI. -/
def isTable (marker : Nat) : Prop :=
  marker = dhtMarker ∨ marker = dqtMarker ∨ marker = driMarker

instance (marker : Nat) : Decidable (isTable marker) := by
  unfold isTable
  infer_instance

/-- The result of the first part of a round with the bytes of its decoder
replaced. -/
def Header.withBytes : Header → bytes → Header
  | .skip d, b => .skip { d with bytes := b }
  | .eoi d, b => .eoi { d with bytes := b }
  | .seg d marker n, b => .seg { d with bytes := b } marker n

/-- Two decoders behind the `n` bytes of a payload, on readers that held the
bytes `p1` and `p2`: they agree but for the bytes, which are well formed with
nothing to unread. -/
def decoder.TwinAt (n : Nat) (p1 p2 : List Nat) (x y : decoder) : Prop :=
  y = { x with bytes := y.bytes } ∧ x.bytes.WF ∧ y.bytes.WF ∧ x.bytes.nUnreadable = 0 ∧
    y.bytes.nUnreadable = 0 ∧ x.bytes.pending = p1.drop n ∧ y.bytes.pending = p2.drop n ∧
    n ≤ p1.length

/-- Two results of the `switch marker` of the config-only mode on two readers:
the same kind of result, with decoders that agree but for the bytes, behind
the payload when the loop goes on. -/
def Outcome.TwinAt (n : Nat) (p1 p2 : List Nat) : Outcome → Outcome → Prop
  | .next a, .next b => decoder.TwinAt n p1 p2 a b
  | .ret a, .ret b => b = { a with bytes := b.bytes }
  | .eoi a, .eoi b => b = { a with bytes := b.bytes }
  | _, _ => False

/-- The number of bytes at the end of the stream that the config-only walk
never reads, given the segments `tr` that it meets: the bytes behind the
payload of the last segment, when the walk ends at that segment with a result
or an error (and none when it goes on behind it). -/
def unreadTail (tr : List (decoder × Nat × Nat)) : Nat :=
  match tr.getLast? with
  | none => 0
  | some e =>
    match decodeMarker true e.1 e.2.1 e.2.2 with
    | .ok (.next _) => 0
    | _ => e.1.bytes.pending.length - e.2.2

/-- The byte that has `rho` bytes from itself to the end of the stream lies in
the payload of a DHT, DQT or DRI segment of `tr`, or among the bytes that the
walk never reads. -/
def Masked (tr : List (decoder × Nat × Nat)) (rho : Nat) : Prop :=
  (∃ e ∈ tr, isTable e.2.1 ∧ rho ≤ e.1.bytes.pending.length ∧
    e.1.bytes.pending.length < rho + e.2.2) ∨ rho ≤ unreadTail tr

/-- The byte at offset `i` of a stream of `len` bytes lies in the payload of a
DHT, DQT or DRI segment of `tr` (the payload of a segment `e` starts where
`e.1.bytes.pending` starts, at offset `len - e.1.bytes.pending.length`, and
has `e.2.2` bytes), or among the bytes at the end of the stream that the
config-only walk never reads. -/
def Skipped (tr : List (decoder × Nat × Nat)) (len i : Nat) : Prop :=
  (∃ e ∈ tr, isTable e.2.1 ∧ len ≤ i + e.1.bytes.pending.length ∧
    i + e.1.bytes.pending.length < len + e.2.2) ∨ len ≤ i + unreadTail tr

instance (tr : List (decoder × Nat × Nat)) (len i : Nat) : Decidable (Skipped tr len i) := by
  unfold Skipped
  infer_instance

/-- Two byte lists differ in masked bytes only. -/
def Differ (tr : List (decoder × Nat × Nat)) (p1 p2 : List Nat) : Prop :=
  ∀ i, i < p1.length → p1.getD i 0 ≠ p2.getD i 0 → Masked tr (p1.length - i)

/-- The results of two runs of the segment loop: decoders that agree but for
the bytes, and the same way out of the loop. -/
def LoopTwin (x y : decoder × Bool) : Prop :=
  y.1 = { x.1 with bytes := y.1.bytes } ∧ x.2 = y.2

/-- Example: Start Of Image, a DQT segment with a payload of three bytes that
is no quantization table, a baseline frame header of an 8x8 gray image and a
Start Of Scan marker. -/
def tablesStreamA : List Nat :=
  [0xff, 0xd8, 0xff, 0xdb, 0x00, 0x05, 0x01, 0x02, 0x03,
   0xff, 0xc0, 0x00, 0x0b, 0x08, 0x00, 0x08, 0x00, 0x08, 0x01, 0x01, 0x11, 0x00,
   0xff, 0xda, 0x00, 0x02, 0x07]

/-- Example: the stream `tablesStreamA` with other bytes in the payload of the
DQT segment and behind the Start Of Scan segment. -/
def tablesStreamB : List Nat :=
  [0xff, 0xd8, 0xff, 0xdb, 0x00, 0x05, 0xff, 0xd9, 0x00,
   0xff, 0xc0, 0x00, 0x0b, 0x08, 0x00, 0x08, 0x00, 0x08, 0x01, 0x01, 0x11, 0x00,
   0xff, 0xda, 0x00, 0x02, 0x09]

end Jpeg

namespace Jpeg

/-! ## Lists and loops -/

theorem foldl_set_range {α : Type} (f : Nat → α) (n : Nat) (q : List α) (hn : n ≤ q.length) :
    (List.range n).foldl (fun q i => q.set i (f i)) q = (List.range n).map f ++ q.drop n := by
  induction n with
  | zero => simp
  | succ n ih =>
    rw [List.range_succ, List.foldl_append, ih (by omega)]
    simp only [List.foldl_cons, List.foldl_nil, List.map_append, List.map_cons, List.map_nil]
    have hlen : ((List.range n).map f).length = n := by simp
    rw [List.set_append_right _ _ (by omega), hlen, Nat.sub_self]
    conv_lhs => rw [List.drop_eq_getElem_cons (by omega : n < q.length)]
    simp only [List.set_cons_zero, List.append_assoc, List.singleton_append]

theorem foldl_set_range_getD {α : Type} (f : Nat → α) (n : Nat) (q : List α)
    (hn : n ≤ q.length) (k : Nat) (hk : k < n) (dflt : α) :
    ((List.range n).foldl (fun q i => q.set i (f i)) q).getD k dflt = f k := by
  rw [foldl_set_range f n q hn, List.getD_eq_getElem?_getD,
    List.getElem?_append_left (by simpa using hk)]
  simp [List.getElem?_map, List.getElem?_range hk]

theorem getD_set_ne {α : Type} (l : List α) (i j : Nat) (a dflt : α) (h : i ≠ j) :
    (l.set i a).getD j dflt = l.getD j dflt := by
  simp [List.getD_eq_getElem?_getD, List.getElem?_set, h]

theorem getD_set_eq {α : Type} (l : List α) (i : Nat) (a dflt : α) (h : i < l.length) :
    (l.set i a).getD i dflt = a := by
  simp [List.getD_eq_getElem?_getD, List.getElem?_set, h]

theorem shl8_or_eq (a b : Nat) (hb : b < 256) : a <<< 8 ||| b = a * 256 + b := by
  rw [Nat.shiftLeft_eq, show (2:Nat) ^ 8 = 256 from rfl, Nat.mul_comm a 256]
  exact (Nat.mul_add_lt_is_or (i := 8) hb a).symm

theorem getD_lt_of_forall_mem (l : List Nat) (h : ∀ v ∈ l, v < 256) (k : Nat) :
    l.getD k 0 < 256 := by
  rw [List.getD_eq_getElem?_getD]
  rcases hk : l[k]? with _ | v
  · simp
  · simpa using h v (List.getElem?_mem hk)

theorem forRange_succ_last {σ : Type} (f : Nat → σ → Except Err σ) (k i : Nat) (st : σ) :
    forRange f (k + 1) i st =
      match forRange f k i st with
      | .error e => .error e
      | .ok st1 => f (i + k) st1 := by
  induction k generalizing i st with
  | zero =>
    simp only [forRange, Nat.add_zero]
    cases h : f i st <;> rfl
  | succ k ih =>
    rw [forRange]
    cases h : f i st with
    | error e => simp [forRange, h]
    | ok st1 =>
      simp only []
      rw [ih (i + 1) st1]
      conv_rhs => rw [forRange]
      simp only [h]
      have : i + 1 + k = i + (k + 1) := by omega
      rw [this]

end Jpeg

namespace Jpeg

/-! ## Segment handlers, `unzig`, restart markers -/

theorem permuteBy_length (p : List Nat) (a : List Int) : (permuteBy p a).length = 64 := by
  simp [permuteBy, blockSize]

theorem permuteBy_getD (p : List Nat) (a : List Int) (k : Nat) (hk : k < 64) :
    (permuteBy p a).getD k 0 = a.getD (p.getD k 0) 0 := by
  simp [permuteBy, blockSize, List.getD_eq_getElem?_getD, List.getElem?_map, List.getElem?_range hk]

theorem permuteBy_permuteBy (p q : List Nat) (a : List Int) (ha : a.length = 64)
    (hq : ∀ k < 64, q.getD k 0 < 64) (hpq : ∀ k < 64, p.getD (q.getD k 0) 0 = k) :
    permuteBy q (permuteBy p a) = a := by
  apply List.ext_getElem
  · rw [permuteBy_length, ha]
  · intro k h1 h2
    rw [permuteBy_length] at h1
    have e1 := permuteBy_getD q (permuteBy p a) k h1
    rw [permuteBy_getD p a _ (hq k h1), hpq k h1] at e1
    rw [List.getD_eq_getElem _ _ (by rw [permuteBy_length]; exact h1),
      List.getD_eq_getElem _ _ h2] at e1
    exact e1

/-- C10: `unzig` is a bijection on `{0, ..., 63}` (every natural index occurs
exactly once in the table of 64 entries), and for every array of 64
coefficients, permuting it through `unzig` and then through the inverse table,
or through the inverse table and then through `unzig`, gives the array back. -/
theorem C10_unzig_bijection (a : List Int) (ha : a.length = 64) :
    unzig.length = 64 ∧ (∀ v < 64, unzig.count v = 1) ∧
      permuteBy zigOf (permuteBy unzig a) = a ∧ permuteBy unzig (permuteBy zigOf a) = a := by
  refine ⟨by decide, by decide, ?_, ?_⟩
  · exact permuteBy_permuteBy unzig zigOf a ha (by decide) (by decide)
  · exact permuteBy_permuteBy zigOf unzig a ha (by decide) (by decide)

theorem C10_unzig_bijection_witness :
    ((List.range 64).map Int.ofNat).length = 64 ∧
      permuteBy zigOf (permuteBy unzig ((List.range 64).map Int.ofNat)) =
        (List.range 64).map Int.ofNat :=
  ⟨by decide, (C10_unzig_bijection ((List.range 64).map Int.ofNat) (by decide)).2.2.1⟩

set_option maxRecDepth 1000000 in
/-- C1 (evaluation at the failing input): on a well-formed four-component
stream whose scan decodes without error, `Decode` returns a `nil` image
together with a `nil` error. -/
theorem C1_decode_cmyk_returns_nothing : Decode cmykStream = .ok none := by
  decide!

/-- C5 (amended): on a decoder that has accepted no SOF segment yet, an SOF
segment whose payload length is none of 9, 15, 18 fails with
`UnsupportedError "number of components"`; a segment of payload length 9, 15
or 18 with precision 8 whose component-count byte differs from the count
`(n - 6) / 3` that the length stands for fails with
`FormatError "SOF has wrong length"`. -/
theorem C5_sof_component_count (d : decoder) (n : Nat) (h0 : d.nComp = 0) :
    (n ≠ 9 → n ≠ 15 → n ≠ 18 →
      processSOF d n = .error (.unsupportedError "number of components")) ∧
    (∀ tmp s, n = 9 ∨ n = 15 ∨ n = 18 → readFull d.stream n = .ok (tmp, s) →
      tmp.getD 0 0 = 8 → tmp.getD 5 0 ≠ (n - 6) / 3 →
      processSOF d n = .error (.formatError "SOF has wrong length")) := by
  constructor
  · intro h9 h15 h18
    simp [processSOF, h0, h9, h15, h18]
  · intro tmp s hn hr hp hc
    rcases hn with rfl | rfl | rfl <;>
      simp [processSOF, h0, decoder.stream, decoder.withStream] at hr hc hp ⊢ <;>
      simp [decoder.stream, hr, hp, hc]

set_option maxRecDepth 1000000 in
theorem C5_sof_component_count_witness :
    (decoder.init [8, 0, 8, 0, 8, 2, 1, 0x11, 0, 2, 0x11, 0]).nComp = 0 ∧
      processSOF (decoder.init [8, 0, 8, 0, 8, 2, 1, 0x11, 0, 2, 0x11, 0]) 12 =
        .error (.unsupportedError "number of components") :=
  ⟨by decide, (C5_sof_component_count _ 12 (by decide)).1 (by decide) (by decide) (by decide)⟩

set_option maxRecDepth 1000000 in
/-- C5 (counterexample): an SOF segment of payload length 9 whose
component-count byte, the sixth payload byte, is 2 fails with
`FormatError "SOF has wrong length"`, not with an `UnsupportedError`; the same
holds for the complete stream that carries this segment. -/
theorem C5_counterexample :
    processSOF (decoder.init [8, 0, 8, 0, 8, 2, 1, 0x11, 0]) 9 =
        .error (.formatError "SOF has wrong length") ∧
      Decode [0xff, 0xd8, 0xff, 0xc0, 0x00, 0x0b, 8, 0, 8, 0, 8, 2, 1, 0x11, 0, 0xff, 0xd9] =
        .error (.formatError "SOF has wrong length") := by
  decide!

/-- C6 (amended): in any round of the loop of `processDQT`, once the
precision/selector byte `x` of a table has been read, with a selector
`x & 0x0f` of at most 3 and a precision `x >> 4` of 0 (8 bit) or 1 (16 bit), if
at least one but fewer payload bytes remain than the table needs (64, or 128),
`processDQT` fails with `FormatError "DQT has wrong length"`. -/
theorem C6_dqt_short_table (fuel : Nat) (d : decoder) (n x : Nat) (b1 : bytes)
    (hread : readByte d.bytes = (b1, .ok x)) (htq : x &&& 0x0f ≤ 3)
    (hlen : (x >>> 4 = 0 ∧ 1 < n ∧ n - 1 < 64) ∨ (x >>> 4 = 1 ∧ 1 < n ∧ n - 1 < 128)) :
    processDQTLoop fuel d n = .error (.formatError "DQT has wrong length") ∧
      processDQT d n = .error (.formatError "DQT has wrong length") := by
  have key : ∀ f, processDQTLoop f d n = .error (.formatError "DQT has wrong length") := by
    intro f
    have hn : n > 0 := by omega
    have htq' : ¬ (x &&& 15 > maxTq) := by simp [maxTq]; omega
    rcases hlen with ⟨hp, h1, h2⟩ | ⟨hp, h1, h2⟩
    · cases f <;>
        simp [processDQTLoop, hn, hread, htq', hp, blockSize, h2, dqtFinish] <;> omega
    · cases f <;>
        simp [processDQTLoop, hn, hread, htq', hp, blockSize, h2, dqtFinish] <;> omega
  exact ⟨key fuel, key _⟩

set_option maxRecDepth 1000000 in
theorem C6_dqt_short_table_witness :
    processDQT (decoder.init (0x00 :: List.replicate 17 1)) 18 =
      .error (.formatError "DQT has wrong length") :=
  (C6_dqt_short_table 0 (decoder.init (0x00 :: List.replicate 17 1)) 18 0
    (readByte (decoder.init (0x00 :: List.replicate 17 1)).bytes).1
    (by decide!) (by decide) (by decide)).2

set_option maxRecDepth 1000000 in
/-- C6 (counterexample): a DQT segment with a length field of 20 whose
precision/selector byte `0x04` announces an 8-bit table with selector 4 has
fewer payload bytes left than the 64 such a table needs, yet fails with
`FormatError "bad Tq value"`, not with `"DQT has wrong length"`; and a DQT
segment with a length field of 3, whose payload is the one byte `0x00`, is
accepted although no byte of the announced table follows. -/
theorem C6_counterexample :
    processDQT (decoder.init (0x04 :: List.replicate 17 1)) 18 =
        .error (.formatError "bad Tq value") ∧
      Decode ([0xff, 0xd8, 0xff, 0xdb, 0x00, 0x14, 0x04] ++ List.replicate 17 1 ++ [0xff, 0xd9]) =
        .error (.formatError "bad Tq value") ∧
      (processDQT (decoder.init [0x00]) 1).toOption.isSome = true := by
  decide!

/-- C7 (amended): after `processDQT` has run on a segment that carries one table
with selector `tq = x & 0x0f`, the stored table `d.quant[tq]` holds the 64
transmitted values in the order of the wire (zig-zag order): stored entry `k` is
the `k`-th byte for 8-bit precision and the big-endian pair of bytes `2k`,
`2k+1` for 16-bit precision; the tables with other selectors are unchanged. -/
theorem C7_dqt_wire_order (d : decoder) (x : Nat) (b1 : bytes) (tmp : List Nat) (s : Stream)
    (hq : d.quant.length = 4) (hq64 : (d.quant.getD (x &&& 0x0f) []).length = 64)
    (hread : readByte d.bytes = (b1, .ok x)) (htq : x &&& 0x0f ≤ 3)
    (hbytes : ∀ v ∈ tmp, v < 256) :
    (x >>> 4 = 0 → readFull ({ d with bytes := b1 } : decoder).stream 64 = .ok (tmp, s) →
      ∃ d1, processDQT d 65 = .ok d1 ∧
        (∀ k < 64, (d1.quant.getD (x &&& 0x0f) []).getD k 0 = (tmp.getD k 0 : Int)) ∧
        ∀ t, t ≠ x &&& 0x0f → d1.quant.getD t [] = d.quant.getD t []) ∧
    (x >>> 4 = 1 → readFull ({ d with bytes := b1 } : decoder).stream 128 = .ok (tmp, s) →
      ∃ d1, processDQT d 129 = .ok d1 ∧
        (∀ k < 64, (d1.quant.getD (x &&& 0x0f) []).getD k 0 =
          ((tmp.getD (2 * k) 0 * 256 + tmp.getD (2 * k + 1) 0 : Nat) : Int)) ∧
        ∀ t, t ≠ x &&& 0x0f → d1.quant.getD t [] = d.quant.getD t []) := by
  have htq' : ¬ (x &&& 15 > maxTq) := by simp [maxTq]; omega
  constructor
  · intro hp hr
    refine ⟨{ d with bytes := s.bytes, bits := s.bits, quant := (d.quant.set (x &&& 0x0f)
      (dqtStore8 (d.quant.getD (x &&& 0x0f) []) tmp)) }, ?_, ?_, ?_⟩
    · have e : processDQT d 65 = processDQTLoop 1 d 65 := rfl
      rw [e, processDQTLoop]
      simp only [hread, htq', hp, gt_iff_lt, Nat.lt_irrefl, ↓reduceIte, Nat.zero_lt_succ]
      have h64 : ¬ (65 - 1 < blockSize) := by decide
      simp only [h64, ↓reduceIte]
      have e2 : blockSize = 64 := rfl
      rw [e2, hr]
      simp only [decoder.withStream]
      rw [processDQTLoop]
      simp [dqtFinish]
    · intro k hk
      simp only []
      rw [getD_set_eq _ _ _ _ (by omega)]
      exact foldl_set_range_getD (fun i => ((tmp.getD i 0 : Nat) : Int)) 64 _
        (by omega) k hk 0
    · intro t ht
      exact getD_set_ne _ _ _ _ _ (Ne.symm ht)
  · intro hp hr
    refine ⟨{ d with bytes := s.bytes, bits := s.bits, quant := (d.quant.set (x &&& 0x0f)
      (dqtStore16 (d.quant.getD (x &&& 0x0f) []) tmp)) }, ?_, ?_, ?_⟩
    · have e : processDQT d 129 = processDQTLoop 1 d 129 := rfl
      rw [e, processDQTLoop]
      simp only [hread, htq', hp, gt_iff_lt, Nat.lt_irrefl, ↓reduceIte, Nat.zero_lt_succ]
      have h128 : ¬ (129 - 1 < 2 * blockSize) := by decide
      simp only [h128, ↓reduceIte]
      have e2 : (2 * blockSize) = 128 := rfl
      rw [e2, hr]
      simp only [decoder.withStream]
      rw [processDQTLoop]
      simp [dqtFinish]
    · intro k hk
      simp only []
      rw [getD_set_eq _ _ _ _ (by omega)]
      rw [← shl8_or_eq _ _ (getD_lt_of_forall_mem tmp hbytes (2 * k + 1))]
      exact foldl_set_range_getD
        (fun i => ((tmp.getD (2 * i) 0 <<< 8 ||| tmp.getD (2 * i + 1) 0 : Nat) : Int)) 64 _
        (by omega) k hk 0
    · intro t ht
      exact getD_set_ne _ _ _ _ _ (Ne.symm ht)

set_option maxRecDepth 1000000 in
theorem C7_dqt_wire_order_witness :
    ∃ d1, processDQT (decoder.init (0 :: List.range 64)) 65 = .ok d1 ∧
      (∀ k < 64, (d1.quant.getD ((0 : Nat) &&& 0x0f) []).getD k 0 =
        ((List.range 64).getD k 0 : Int)) ∧
      ∀ t, t ≠ (0 : Nat) &&& 0x0f →
        d1.quant.getD t [] = (decoder.init (0 :: List.range 64)).quant.getD t [] :=
  (C7_dqt_wire_order (decoder.init (0 :: List.range 64)) 0
    { buf := (0 :: List.range 64) ++ List.replicate 4031 0, i := 1, j := 65,
      nUnreadable := 0, r := [] }
    (List.range 64)
    { bytes := { buf := (0 :: List.range 64) ++ List.replicate 4031 0, i := 65, j := 65,
                 nUnreadable := 0, r := [] },
      bits := { a := 0, m := 0, n := 0 } }
    (by decide) (by decide) (by decide!) (by decide) (by decide)).1 (by decide) (by decide!)

set_option maxRecDepth 1000000 in
/-- C7 (counterexample): after `processDQT` has stored the 8-bit table with
selector 0 whose transmitted values are 0, 1, ..., 63, the stored entry
`unzig[2] = 8` is 8, the value transmitted at wire position 8, and not 2, the
value transmitted at wire position 2. -/
theorem C7_counterexample :
    (processDQT (decoder.init (0 :: List.range 64)) 65).map
        (fun d => (d.quant.getD 0 []).getD (unzig.getD 2 0) 0) = .ok 8 ∧
      (List.range 64).getD 2 0 = 2 := by
  decide!

theorem scanPrefix_error_mono (d : decoder) (p : ScanParams) (ms0 : McuState) (e : Err)
    (k : Nat) (h : scanPrefix d p k ms0 = .error e) (j : Nat) :
    scanPrefix d p (k + j) ms0 = .error e := by
  induction j with
  | zero => exact h
  | succ j ih =>
    show scanPrefix d p (k + j + 1) ms0 = _
    rw [scanPrefix, ih]

theorem scanPrefix_row (d : decoder) (p : ScanParams) (ms0 ms1 : McuState) (my : Nat)
    (h : scanPrefix d p (p.mxx * my) ms0 = .ok ms1) (c : Nat) (hc : c ≤ p.mxx) :
    scanPrefix d p (p.mxx * my + c) ms0 = forRange (scanStep d p my) c 0 ms1 := by
  induction c with
  | zero => simpa [forRange] using h
  | succ c ih =>
    have hlt : c < p.mxx := by omega
    show scanPrefix d p (p.mxx * my + c + 1) ms0 = _
    rw [scanPrefix, ih (by omega), forRange_succ_last]
    have h1 : (p.mxx * my + c) / p.mxx = my := by
      rw [Nat.mul_comm, Nat.add_comm, Nat.add_mul_div_right _ _ (by omega : 0 < p.mxx),
        Nat.div_eq_of_lt hlt]
      omega
    have h2 : (p.mxx * my + c) % p.mxx = c := by
      rw [Nat.mul_add_mod, Nat.mod_eq_of_lt hlt]
    rw [h1, h2, Nat.zero_add]
    cases forRange (scanStep d p my) c 0 ms1 <;> rfl

theorem scanLoop_eq_scanPrefix (d : decoder) (p : ScanParams) (ms0 : McuState) :
    scanLoop d p ms0 = scanPrefix d p (p.mxx * p.myy) ms0 := by
  unfold scanLoop
  generalize p.myy = myy
  induction myy with
  | zero => simp [forRange, scanPrefix]
  | succ my ih =>
    rw [forRange_succ_last, ih, Nat.zero_add]
    cases h : scanPrefix d p (p.mxx * my) ms0 with
    | error e =>
      simp only []
      have := scanPrefix_error_mono d p ms0 e _ h p.mxx
      rw [Nat.mul_succ, this]
    | ok ms1 =>
      simp only []
      rw [Nat.mul_succ, scanPrefix_row d p ms0 ms1 my h p.mxx (le_refl _)]

theorem scanRestart_counters (d : decoder) (p : ScanParams) (ms ms1 : McuState)
    (h : scanRestart d p ms = .ok ms1) :
    ms1.mcu = ms.mcu + 1 ∧
      ms1.expectedRST =
        if d.ri > 0 ∧ (ms.mcu + 1) % d.ri = 0 ∧ ms.mcu + 1 < p.mxx * p.myy then
          (if (ms.expectedRST + 1) % 256 = rst7Marker + 1 then rst0Marker
            else (ms.expectedRST + 1) % 256)
        else ms.expectedRST := by
  unfold scanRestart at h
  simp only [] at h
  split at h
  · rename_i hc
    rw [if_pos hc]
    split at h
    · exact absurd h (by simp)
    · split at h
      · exact absurd h (by simp)
      · injection h with h
        subst h
        exact ⟨rfl, rfl⟩
  · rename_i hc
    rw [if_neg hc]
    injection h with h
    subst h
    exact ⟨rfl, rfl⟩

theorem scanPrefix_counters (d : decoder) (p : ScanParams) (ms0 : McuState)
    (h0 : ms0.mcu = 0) (he : ms0.expectedRST = rst0Marker) (hri : d.ri > 0) (k : Nat)
    (hk : k < p.mxx * p.myy) (ms : McuState) (h : scanPrefix d p k ms0 = .ok ms) :
    ms.mcu = k ∧ ms.expectedRST = 0xd0 + (k / d.ri) % 8 := by
  induction k generalizing ms with
  | zero =>
    simp only [scanPrefix] at h
    injection h with h
    subst h
    simp [h0, he, rst0Marker]
  | succ k ih =>
    rw [scanPrefix] at h
    cases hp : scanPrefix d p k ms0 with
    | error e => rw [hp] at h; exact absurd h (by simp)
    | ok ms1 =>
      rw [hp] at h
      simp only [scanStep] at h
      cases hm : scanMCU d p (k % p.mxx) (k / p.mxx) ms1.st with
      | error e => rw [hm] at h; exact absurd h (by simp)
      | ok st1 =>
        rw [hm] at h
        simp only [] at h
        obtain ⟨i1, i2⟩ := ih (by omega) ms1 hp
        obtain ⟨c1, c2⟩ := scanRestart_counters d p _ ms h
        simp only [] at c1 c2
        refine ⟨by omega, ?_⟩
        rw [c2, i1, i2]
        by_cases hmod : (k + 1) % d.ri = 0
        · rw [if_pos ⟨hri, hmod, hk⟩]
          have hdiv : (k + 1) / d.ri = k / d.ri + 1 := by
            rw [Nat.succ_div]
            simp [Nat.dvd_iff_mod_eq_zero, hmod]
          rw [hdiv]
          have h8 := Nat.mod_lt (k / d.ri) (by omega : 0 < 8)
          simp only [rst7Marker, rst0Marker]
          split <;> omega
        · have hc : ¬ (d.ri > 0 ∧ (k + 1) % d.ri = 0 ∧ k + 1 < p.mxx * p.myy) := by
            intro hh; exact hmod hh.2.1
          rw [if_neg hc]
          have hdiv : (k + 1) / d.ri = k / d.ri := by
            rw [Nat.succ_div]
            simp [Nat.dvd_iff_mod_eq_zero, hmod]
          rw [hdiv]

theorem scanAlloc_init (d1 : decoder) (hd : ScanHeader) (d3 : decoder) (p : ScanParams)
    (ms0 : McuState) (h : scanAlloc d1 hd = .ok (d3, p, ms0)) :
    ms0.mcu = 0 ∧ ms0.expectedRST = rst0Marker := by
  unfold scanAlloc at h
  simp only [] at h
  split at h
  · cases h
  split at h
  · cases h
  · injection h with h
    simp only [Prod.mk.injEq] at h
    obtain ⟨-, -, rfl⟩ := h
    exact ⟨rfl, rfl⟩

theorem scanSetup_init (d : decoder) (n : Nat) (d3 : decoder) (p : ScanParams) (ms0 : McuState)
    (hsetup : scanSetup d n = .ok (d3, p, ms0)) :
    ms0.mcu = 0 ∧ ms0.expectedRST = rst0Marker := by
  unfold scanSetup at hsetup
  split at hsetup
  · cases hsetup
  · exact scanAlloc_init _ _ _ _ _ hsetup

/-- C9: in a scan with restart interval `ri > 0`, when the first `m` MCUs
(with their restart markers) and the MCU after them have been decoded, the
`m + 1` MCUs make `k = (m + 1) / ri` complete groups of `ri` MCUs, and they
are not all MCUs of the scan, then the next two bytes that `processSOS` reads
must be `0xFF` and `0xD0 + ((k - 1) mod 8)`: if they are anything else,
`processSOS` fails with `FormatError "bad RST marker"`; if they are these two
bytes the scan goes on, now expecting `0xD0 + (k mod 8)`. -/
theorem C9_restart_marker (d : decoder) (n : Nat) (d3 : decoder) (p : ScanParams)
    (ms0 ms : McuState) (st1 : ScanState) (m : Nat) (tmp : List Nat) (s1 : Stream)
    (hsetup : scanSetup d n = .ok (d3, p, ms0))
    (hri : d3.ri > 0) (hm : m + 1 < p.mxx * p.myy) (hgrp : (m + 1) % d3.ri = 0)
    (hpre : scanPrefix d3 p m ms0 = .ok ms)
    (hmcu : scanMCU d3 p (m % p.mxx) (m / p.mxx) ms.st = .ok st1)
    (hread : readFull st1.s 2 = .ok (tmp, s1)) :
    (tmp.getD 0 0 ≠ 0xff ∨ tmp.getD 1 0 ≠ 0xd0 + ((m + 1) / d3.ri - 1) % 8 →
      processSOS d n = .error (.formatError "bad RST marker")) ∧
    (tmp.getD 0 0 = 0xff ∧ tmp.getD 1 0 = 0xd0 + ((m + 1) / d3.ri - 1) % 8 →
      ∃ ms1, scanPrefix d3 p (m + 1) ms0 = .ok ms1 ∧ ms1.mcu = m + 1 ∧
        ms1.expectedRST = 0xd0 + ((m + 1) / d3.ri) % 8) := by
  have h0 := scanSetup_init d n d3 p ms0 hsetup
  obtain ⟨i1, i2⟩ := scanPrefix_counters d3 p ms0 h0.1 h0.2 hri m (by omega) ms hpre
  have hdiv : (m + 1) / d3.ri = m / d3.ri + 1 := by
    rw [Nat.succ_div]
    simp [Nat.dvd_iff_mod_eq_zero, hgrp]
  have hexp : ms.expectedRST = 0xd0 + ((m + 1) / d3.ri - 1) % 8 := by
    rw [i2, hdiv]; rfl
  have hstep : scanPrefix d3 p (m + 1) ms0 =
      scanRestart d3 p { ms with st := st1 } := by
    rw [scanPrefix, hpre]
    simp only [scanStep, hmcu]
  have hcond : d3.ri > 0 ∧ (ms.mcu + 1) % d3.ri = 0 ∧ ms.mcu + 1 < p.mxx * p.myy := by
    rw [i1]; exact ⟨hri, hgrp, hm⟩
  constructor
  · intro hbad
    have hfail : scanPrefix d3 p (m + 1) ms0 = .error (.formatError "bad RST marker") := by
      rw [hstep]
      unfold scanRestart
      simp only []
      rw [if_pos hcond, hread]
      simp only []
      rw [hexp, if_pos hbad]
    have hloop : scanLoop d3 p ms0 = .error (.formatError "bad RST marker") := by
      rw [scanLoop_eq_scanPrefix]
      have := scanPrefix_error_mono d3 p ms0 _ (m + 1) hfail (p.mxx * p.myy - (m + 1))
      rwa [Nat.add_sub_cancel' (by omega)] at this
    simp only [processSOS, hsetup, hloop]
  · intro hgood
    have hnb : ¬ (tmp.getD 0 0 ≠ 0xff ∨ tmp.getD 1 0 ≠ 0xd0 + ((m + 1) / d3.ri - 1) % 8) := by
      intro h; rcases h with h | h
      · exact h hgood.1
      · exact h hgood.2
    have hk : m + 1 < p.mxx * p.myy := hm
    cases hres : scanPrefix d3 p (m + 1) ms0 with
    | error e =>
      exfalso
      rw [hstep] at hres
      unfold scanRestart at hres
      simp only [] at hres
      rw [if_pos hcond, hread] at hres
      simp only [] at hres
      rw [hexp, if_neg hnb] at hres
      exact absurd hres (by simp)
    | ok ms1 =>
      obtain ⟨j1, j2⟩ := scanPrefix_counters d3 p ms0 h0.1 h0.2 hri (m + 1) hk ms1 hres
      exact ⟨ms1, rfl, j1, j2⟩

set_option maxRecDepth 1000000 in
theorem C9_restart_marker_witness :
    processSOS rstDecoder 6 = .error (.formatError "bad RST marker") ∧
      Decode rstStream = .error (.formatError "bad RST marker") :=
  ⟨(C9_restart_marker rstDecoder 6 rstSetup.1 rstSetup.2.1 rstSetup.2.2 rstSetup.2.2
      rstAfterMCU 0 [0xff, 0xd1]
      (match readFull rstAfterMCU.s 2 with
        | .ok (_, s) => s
        | .error _ => rstAfterMCU.s)
      (by decide!) (by decide!) (by decide!) (by decide!) (by decide!) (by decide!)
      (by decide!)).1 (by decide!),
    by decide!⟩

end Jpeg

namespace Jpeg

/-! ## The byte buffer -/

theorem ReadsAs_zero (b : bytes) (l : List Nat) : b.ReadsAs 0 l ↔ b.pending = l := by
  simp [bytes.ReadsAs, bytes.pending]

theorem ReadsAs_drop (b : bytes) (hwf : b.WF) (k k1 : Nat) (l : List Nat)
    (h : b.ReadsAs k l) (hk : k1 ≤ k) : b.ReadsAs k1 (l.drop (k - k1)) := by
  obtain ⟨h1, h2⟩ := h
  obtain ⟨w1, w2, w3⟩ := hwf
  refine ⟨by omega, ?_⟩
  rw [← h2, List.drop_append_of_le_length (by simp; omega), List.drop_drop]
  congr 2
  omega

theorem take_drop_getD (buf : List Nat) (i j : Nat) (hij : i < j) (hj : j ≤ buf.length) :
    (buf.take j).drop i = buf.getD i 0 :: (buf.take j).drop (i + 1) := by
  have hlen : i < (buf.take j).length := by simp; omega
  rw [List.drop_eq_getElem_cons hlen, List.getElem_take, List.getD_eq_getElem _ _ (by omega)]

theorem take_two_set (buf : List Nat) (x y : Nat) (h : 2 ≤ buf.length) :
    ((buf.set 0 x).set 1 y).take 2 = [x, y] := by
  rcases buf with _ | ⟨x0, _ | ⟨x1, tl⟩⟩
  · simp at h
  · simp at h
  · simp [List.set]

theorem getD_set_zero_of_pos (buf : List Nat) (x : Nat) (m : Nat) (hm : 0 < m) :
    (buf.set 0 x).getD m 0 = buf.getD m 0 := by
  rcases buf with _ | ⟨x0, tl⟩
  · simp
  · rcases m with _ | m
    · omega
    · simp [List.set]

theorem drop_take_last_two (buf : List Nat) (j : Nat) (hj : 2 < j) (hl : j ≤ buf.length) :
    (buf.take j).drop (j - 2) = [buf.getD (j - 2) 0, buf.getD (j - 1) 0] := by
  rw [take_drop_getD buf (j - 2) j (by omega) hl,
    show j - 2 + 1 = j - 1 by omega,
    take_drop_getD buf (j - 1) j (by omega) hl,
    show j - 1 + 1 = j by omega]
  simp

/-- The buffer after `fill`, described by how many buffered bytes `c` are
dropped from the front and how many bytes `n` are read. -/
theorem fill_eq (b : bytes) (hwf : b.WF) (hij : b.i = b.j) (c n : Nat)
    (hc : c = if b.j > 2 then b.j - 2 else 0)
    (hn : n = min (bufSize - (b.j - c)) b.r.length) :
    (fill b).1.buf.length = bufSize ∧ (fill b).1.i = b.j - c ∧ (fill b).1.j = b.j - c + n ∧
      (fill b).1.r = b.r.drop n ∧ (fill b).1.nUnreadable = b.nUnreadable ∧
      (fill b).1.buf.take (b.j - c + n) = (b.buf.take b.j).drop c ++ b.r.take n ∧
      (fill b).2 = if n > 0 then none else some .eof := by
  obtain ⟨w1, w2, w3⟩ := hwf
  have hb : bufSize = 4096 := rfl
  have hnr : n ≤ b.r.length := by rw [hn]; exact Nat.min_le_right _ _
  have hns : n ≤ bufSize - (b.j - c) := by rw [hn]; exact Nat.min_le_left _ _
  unfold fill
  simp only [hij, ne_eq, not_true_eq_false, ↓reduceIte]
  by_cases hj : b.j > 2
  · simp only [hj, ↓reduceIte] at hc ⊢
    have hjc : b.j - c = 2 := by omega
    rw [hjc] at hn hns ⊢
    rw [← hn]
    have hlen2 : ((b.buf.set 0 (b.buf.getD (b.j - 2) 0)).set 1
        ((b.buf.set 0 (b.buf.getD (b.j - 2) 0)).getD (b.j - 1) 0)).length = bufSize := by
      simp [w1]
    have ht := take_two_set b.buf (b.buf.getD (b.j - 2) 0)
      ((b.buf.set 0 (b.buf.getD (b.j - 2) 0)).getD (b.j - 1) 0) (by omega)
    rw [getD_set_zero_of_pos _ _ _ (by omega)] at ht hlen2 ⊢
    refine ⟨?_, ?_, ?_, ?_, ?_, ?_, ?_⟩
    · split <;> simp [hlen2] <;> omega
    · split <;> rfl
    · split <;> rfl
    · split <;> rfl
    · split <;> rfl
    · have : ∀ (p : bytes × Option Err), p.1 = p.1 := fun _ => rfl
      have key : List.take (2 + n) (List.take 2 ((b.buf.set 0 (b.buf.getD (b.j - 2) 0)).set 1
          (b.buf.getD (b.j - 1) 0)) ++ List.take n b.r ++
          List.drop (2 + n) ((b.buf.set 0 (b.buf.getD (b.j - 2) 0)).set 1
          (b.buf.getD (b.j - 1) 0))) =
          (b.buf.take b.j).drop c ++ b.r.take n := by
        rw [List.take_left' (by rw [ht]; simp [hnr]; omega), ht, hc,
          drop_take_last_two b.buf b.j hj (by omega)]
      split <;> exact key
    · split <;> simp_all
  · simp only [hj, ↓reduceIte] at hc ⊢
    subst hc
    simp only [Nat.sub_zero] at hn hns ⊢
    rw [← hn]
    refine ⟨?_, ?_, ?_, ?_, ?_, ?_, ?_⟩
    · split <;> simp [w1] <;> omega
    · split <;> simp [hij]
    · split <;> rfl
    · split <;> rfl
    · split <;> rfl
    · have key : List.take (b.j + n) (List.take b.j b.buf ++ List.take n b.r ++
          List.drop (b.j + n) b.buf) = (b.buf.take b.j).drop 0 ++ b.r.take n := by
        rw [List.take_left' (by simp [hnr]; omega)]
        simp
      split <;> exact key
    · split <;> simp_all

theorem fill_spec (b : bytes) (hwf : b.WF) (hij : b.i = b.j) :
    (fill b).1.WF ∧ (fill b).1.nUnreadable = b.nUnreadable ∧
      (∀ k l, k ≤ 2 → b.ReadsAs k l → (fill b).1.ReadsAs k l) ∧
      (b.r ≠ [] → (fill b).2 = none ∧ (fill b).1.i < (fill b).1.j) ∧
      (b.r = [] → (fill b).2 = some .eof) := by
  have hb : bufSize = 4096 := rfl
  obtain ⟨c, hc⟩ : ∃ c, c = if b.j > 2 then b.j - 2 else 0 := ⟨_, rfl⟩
  obtain ⟨n, hn⟩ : ∃ n, n = min (bufSize - (b.j - c)) b.r.length := ⟨_, rfl⟩
  obtain ⟨f1, f2, f3, f4, f5, f6, f7⟩ := fill_eq b hwf hij c n hc hn
  obtain ⟨w1, w2, w3⟩ := hwf
  have hnr : n ≤ b.r.length := by rw [hn]; exact Nat.min_le_right _ _
  have hns : n ≤ bufSize - (b.j - c) := by rw [hn]; exact Nat.min_le_left _ _
  have hcj : c ≤ b.j := by rw [hc]; split <;> omega
  have hc2 : b.j - c ≤ 2 := by rw [hc]; split <;> omega
  refine ⟨⟨f1, by omega, by omega⟩, f5, ?_, ?_, ?_⟩
  · intro k l hk ⟨hk1, hk2⟩
    have hkc : k ≤ b.j - c := by rw [hc]; split <;> omega
    refine ⟨by omega, ?_⟩
    rw [f2, f3, f4, f6, ← hk2, hij,
      List.drop_append_of_le_length (by simp; omega), List.drop_drop,
      List.append_assoc, List.take_append_drop]
    congr 2
    omega
  · intro hr
    have hpos : 0 < n := by
      rw [hn]
      have : 0 < b.r.length := List.length_pos.mpr hr
      omega
    rw [f7, f2, f3]
    exact ⟨by simp [hpos], by omega⟩
  · intro hr
    have : n = 0 := by rw [hn, hr]; simp
    rw [f7, this]; rfl

theorem drop_take_self (buf : List Nat) (j : Nat) : (buf.take j).drop j = [] := by
  rw [List.drop_eq_nil_iff]
  simp

theorem readByte_core (b : bytes) (hwf : b.WF) (hlt : b.i < b.j) (k : Nat) (pre rest : List Nat)
    (x : Nat) (hpre : pre.length = k) (h : b.ReadsAs k (pre ++ x :: rest)) :
    b.buf.getD b.i 0 = x ∧
      ({ b with i := b.i + 1, nUnreadable := 0 } : bytes).WF ∧
      ({ b with i := b.i + 1, nUnreadable := 0 } : bytes).ReadsAs (k + 1) (pre ++ x :: rest) ∧
      ({ b with i := b.i + 1, nUnreadable := 0 } : bytes).ReadsAs 0 rest := by
  obtain ⟨w1, w2, w3⟩ := hwf
  have hki := h.1
  have h0 := ReadsAs_drop b ⟨w1, w2, w3⟩ k 0 _ h (Nat.zero_le _)
  rw [Nat.sub_zero, ← hpre, List.drop_left] at h0
  have hx : b.buf.getD b.i 0 = x ∧ (b.buf.take b.j).drop (b.i + 1) ++ b.r = rest := by
    have := h0.2
    rw [Nat.sub_zero, take_drop_getD b.buf b.i b.j hlt (by omega)] at this
    simp only [List.cons_append, List.cons.injEq] at this
    exact this
  refine ⟨hx.1, ⟨w1, by simp; omega, w3⟩, ⟨by simp; omega, ?_⟩, ⟨by simp, ?_⟩⟩
  · simp only [Nat.add_sub_add_right]
    exact h.2
  · simpa using hx.2

theorem readByte_spec (b : bytes) (hwf : b.WF) (k : Nat) (pre rest : List Nat) (x : Nat)
    (hk : k ≤ 1) (hpre : pre.length = k) (h : b.ReadsAs k (pre ++ x :: rest)) :
    ∃ b1, readByte b = (b1, .ok x) ∧ b1.WF ∧ b1.ReadsAs (k + 1) (pre ++ x :: rest) ∧
      b1.ReadsAs 0 rest ∧ b1.nUnreadable = 0 := by
  unfold readByte
  by_cases hij : b.i = b.j
  · simp only [hij, ↓reduceIte]
    obtain ⟨f1, f2, f3, f4, f5⟩ := fill_spec b hwf hij
    have hr : b.r ≠ [] := by
      intro hr
      have h0 := ReadsAs_drop b hwf k 0 _ h (Nat.zero_le _)
      rw [Nat.sub_zero, ← hpre, List.drop_left] at h0
      have := h0.2
      rw [Nat.sub_zero, hij, drop_take_self, hr] at this
      simp at this
    obtain ⟨g1, g2⟩ := f4 hr
    obtain ⟨c1, c2, c3, c4⟩ := readByte_core (fill b).1 f1 g2 k pre rest x hpre
      (f3 k _ (by omega) h)
    rcases hf : fill b with ⟨b1, e⟩
    rw [hf] at g1 c1 c2 c3 c4
    simp only [] at g1 c1 c2 c3 c4
    subst g1
    simp only []
    exact ⟨_, by rw [c1], c2, c3, c4, rfl⟩
  · simp only [hij, ↓reduceIte]
    have hlt : b.i < b.j := by
      have := hwf.2.1
      omega
    obtain ⟨c1, c2, c3, c4⟩ := readByte_core b hwf hlt k pre rest x hpre h
    exact ⟨_, by rw [c1], c2, c3, c4, rfl⟩

theorem readByte_eof (b : bytes) (hwf : b.WF) (h : b.pending = []) :
    ∃ b1, readByte b = (b1, .error .eof) ∧ b1.WF ∧ b1.nUnreadable = b.nUnreadable ∧
      ∀ k l, k ≤ 2 → b.ReadsAs k l → b1.ReadsAs k l := by
  have hp : (b.buf.take b.j).drop b.i = [] ∧ b.r = [] := by
    simpa [bytes.pending] using h
  have hij : b.i = b.j := by
    have := hp.1
    rw [List.drop_eq_nil_iff] at this
    have w := hwf
    obtain ⟨w1, w2, w3⟩ := w
    simp at this
    omega
  obtain ⟨f1, f2, f3, f4, f5⟩ := fill_spec b hwf hij
  unfold readByte
  simp only [hij, ↓reduceIte]
  have g := f5 hp.2
  rcases hf : fill b with ⟨b1, e⟩
  rw [hf] at g f1 f2 f3
  simp only [] at g f1 f2 f3
  subst g
  exact ⟨_, rfl, f1, f2, f3⟩

theorem stuffedHead_ne (x : Nat) (rest : List Nat) (hx : x ≠ 0xff) :
    stuffedHead (x :: rest) = some (x, rest) := by
  simp [stuffedHead, hx]

theorem stuffedHead_ff_zero (rest : List Nat) :
    stuffedHead (0xff :: 0 :: rest) = some (0xff, rest) := by
  simp [stuffedHead]

theorem stuffedHead_ff_ne (y : Nat) (rest : List Nat) (hy : y ≠ 0) :
    stuffedHead (0xff :: y :: rest) = none := by
  simp [stuffedHead, hy]

theorem stuffedHead_ff_nil : stuffedHead [0xff] = none := by
  simp [stuffedHead]

theorem readByteStuffedByte_spec (b : bytes) (hwf : b.WF) (l : List Nat)
    (hl : b.pending = l) :
    ∃ b1 r, readByteStuffedByte b = (b1, r) ∧ b1.WF ∧ b1.nUnreadable ≤ 2 ∧
      b1.ReadsAs b1.nUnreadable l ∧
      (∀ c rest, stuffedHead l = some (c, rest) → r = .ok c ∧ b1.pending = rest) ∧
      (stuffedHead l = none → r = .error .eof ∨ r = .error errMissingFF00) := by
  have hra : b.ReadsAs 0 l := (ReadsAs_zero b l).mpr hl
  unfold readByteStuffedByte
  by_cases hfast : b.i + 2 ≤ b.j
  · simp only [hfast, ↓reduceIte]
    obtain ⟨w1, w2, w3⟩ := hwf
    have e1 := take_drop_getD b.buf b.i b.j (by omega) (by omega)
    have e2 := take_drop_getD b.buf (b.i + 1) b.j (by omega) (by omega)
    have hl2 : l = b.buf.getD b.i 0 :: b.buf.getD (b.i + 1) 0 ::
        ((b.buf.take b.j).drop (b.i + 1 + 1) ++ b.r) := by
      rw [← hl, bytes.pending, e1, e2]; rfl
    by_cases hx : b.buf.getD b.i 0 ≠ 0xff
    · rw [if_pos hx]
      refine ⟨_, _, rfl, ⟨w1, by simp; omega, w3⟩, by simp, ⟨by simp, ?_⟩, ?_, ?_⟩
      · simp only [Nat.add_sub_cancel]; exact hl
      · intro c rest hs
        rw [hl2, stuffedHead_ne _ _ hx] at hs
        injection hs with hs
        injection hs with h1 h2
        subst h1 h2
        refine ⟨rfl, ?_⟩
        simp only [bytes.pending, e2]; rfl
      · intro hs
        rw [hl2, stuffedHead_ne _ _ hx] at hs
        exact absurd hs (by simp)
    · rw [if_neg hx]
      have hx0 : b.buf.getD b.i 0 = 0xff := by simpa using hx
      rw [hx0] at hl2
      by_cases hy : b.buf.getD (b.i + 1) 0 ≠ 0x00
      · rw [if_pos hy]
        refine ⟨_, _, rfl, ⟨w1, by simp; omega, w3⟩, by simp, ⟨by simp, ?_⟩, ?_, ?_⟩
        · simp only [Nat.add_sub_cancel]; exact hl
        · intro c rest hs
          rw [hl2, stuffedHead_ff_ne _ _ hy] at hs
          exact absurd hs (by simp)
        · intro _; right; rfl
      · rw [if_neg hy]
        have hy0 : b.buf.getD (b.i + 1) 0 = 0 := by simpa using hy
        rw [hy0] at hl2
        refine ⟨_, _, rfl, ⟨w1, by simp; omega, w3⟩, by simp, ⟨by simp, ?_⟩, ?_, ?_⟩
        · simp only [Nat.add_sub_cancel]; exact hl
        · intro c rest hs
          rw [hl2, stuffedHead_ff_zero] at hs
          injection hs with hs
          injection hs with h1 h2
          subst h1 h2
          exact ⟨rfl, rfl⟩
        · intro hs
          rw [hl2, stuffedHead_ff_zero] at hs
          exact absurd hs (by simp)
  · simp only [hfast, ↓reduceIte]
    have hwf0 : ({ b with nUnreadable := 0 } : bytes).WF := hwf
    have hra0 : ({ b with nUnreadable := 0 } : bytes).ReadsAs 0 l := hra
    rcases l with _ | ⟨x, rest⟩
    · obtain ⟨b1, g1, g2, g3, g4⟩ := readByte_eof _ hwf0 ((ReadsAs_zero _ _).mp hra0)
      rw [g1]
      refine ⟨_, _, rfl, g2, by rw [g3]; simp, ?_, ?_, ?_⟩
      · rw [g3]; exact g4 0 _ (by omega) hra0
      · intro c rest hs; simp [stuffedHead] at hs
      · intro _; left; rfl
    · obtain ⟨b1, g1, g2, g3, g4, g5⟩ :=
        readByte_spec _ hwf0 0 [] rest x (by omega) rfl hra0
      rw [g1]
      simp only []
      have hwf2 : ({ b1 with nUnreadable := 1 } : bytes).WF := g2
      have hra2 : ({ b1 with nUnreadable := 1 } : bytes).ReadsAs 1 ([x] ++ rest) := g3
      by_cases hx : x ≠ 0xff
      · rw [if_pos hx]
        refine ⟨_, _, rfl, hwf2, by simp, g3, ?_, ?_⟩
        · intro c rest1 hs
          rw [stuffedHead_ne _ _ hx] at hs
          injection hs with hs
          injection hs with h1 h2
          subst h1 h2
          exact ⟨rfl, (ReadsAs_zero _ _).mp g4⟩
        · intro hs
          rw [stuffedHead_ne _ _ hx] at hs
          exact absurd hs (by simp)
      · rw [if_neg hx]
        have hx0 : x = 0xff := by simpa using hx
        subst hx0
        rcases rest with _ | ⟨y, rest1⟩
        · obtain ⟨b3, k1, k2, k3, k4⟩ := readByte_eof _ hwf2 ((ReadsAs_zero _ _).mp g4)
          rw [k1]
          refine ⟨_, _, rfl, k2, by rw [k3]; simp, ?_, ?_, ?_⟩
          · rw [k3]; exact k4 1 _ (by omega) hra2
          · intro c rest hs; simp [stuffedHead] at hs
          · intro _; left; rfl
        · obtain ⟨b3, k1, k2, k3, k4, k5⟩ :=
            readByte_spec _ hwf2 1 [0xff] rest1 y (by omega) rfl hra2
          rw [k1]
          simp only []
          by_cases hy : y ≠ 0x00
          · rw [if_pos hy]
            refine ⟨_, _, rfl, k2, by simp, k3, ?_, ?_⟩
            · intro c rest hs
              rw [stuffedHead_ff_ne _ _ hy] at hs
              exact absurd hs (by simp)
            · intro _; right; rfl
          · rw [if_neg hy]
            have hy0 : y = 0 := by simpa using hy
            subst hy0
            refine ⟨_, _, rfl, k2, by simp, k3, ?_, ?_⟩
            · intro c rest hs
              rw [stuffedHead_ff_zero] at hs
              injection hs with hs
              injection hs with h1 h2
              subst h1 h2
              exact ⟨rfl, (ReadsAs_zero _ _).mp k4⟩
            · intro hs
              rw [stuffedHead_ff_zero] at hs
              exact absurd hs (by simp)

end Jpeg

namespace Jpeg

/-! ## Bits -/

theorem codeBits_length (c L : Nat) : (codeBits c L).length = L := by
  induction L with
  | zero => rfl
  | succ L ih => simp [codeBits, ih]

theorem codeBits_congr (x y L : Nat) (h : ∀ t, t < L → x.testBit t = y.testBit t) :
    codeBits x L = codeBits y L := by
  induction L with
  | zero => rfl
  | succ L ih =>
    simp only [codeBits]
    rw [h L (by omega), ih (fun t ht => h t (by omega))]

theorem codeBits_add (x n k : Nat) :
    codeBits x (n + k) = codeBits (x >>> k) n ++ codeBits x k := by
  induction n with
  | zero => simp [codeBits]
  | succ n ih =>
    rw [show n + 1 + k = (n + k) + 1 by omega]
    simp only [codeBits, List.cons_append]
    rw [ih, Nat.testBit_shiftRight, Nat.add_comm k n]

theorem codeBits_take (x n k : Nat) : (codeBits x (n + k)).take n = codeBits (x >>> k) n := by
  rw [codeBits_add, List.take_left' (codeBits_length _ _)]

theorem codeBits_drop (x n k : Nat) : (codeBits x (n + k)).drop n = codeBits x k := by
  rw [codeBits_add, List.drop_left' (codeBits_length _ _)]

theorem codeBits_testBit (x y L : Nat) (h : codeBits x L = codeBits y L) (t : Nat)
    (ht : t < L) : x.testBit t = y.testBit t := by
  induction L with
  | zero => omega
  | succ L ih =>
    simp only [codeBits, List.cons.injEq] at h
    rcases Nat.lt_or_ge t L with h1 | h1
    · exact ih h.2 h1
    · have : t = L := by omega
      rw [this]; exact h.1

theorem codeBits_inj (x y L : Nat) (h : codeBits x L = codeBits y L) :
    x % 2 ^ L = y % 2 ^ L := by
  apply Nat.eq_of_testBit_eq
  intro t
  simp only [Nat.testBit_mod_two_pow]
  by_cases ht : t < L
  · simp [ht, codeBits_testBit x y L h t ht]
  · simp [ht]

theorem codeBits_mod (x L k : Nat) (hk : L ≤ k) : codeBits (x % 2 ^ k) L = codeBits x L := by
  apply codeBits_congr
  intro t ht
  simp only [Nat.testBit_mod_two_pow]
  simp [show t < k by omega]

theorem entropyBits_stuffedHead (l : List Nat) :
    entropyBits l =
      match stuffedHead l with
      | none => []
      | some (c, rest) => codeBits c 8 ++ entropyBits rest := by
  rcases l with _ | ⟨x, _ | ⟨y, rest⟩⟩
  · simp [entropyBits, stuffedHead]
  · by_cases hx : x ≠ 0xff
    · simp [entropyBits, stuffedHead, hx]
    · simp [entropyBits, stuffedHead, hx]
  · by_cases hx : x ≠ 0xff
    · simp [entropyBits, stuffedHead, hx]
    · by_cases hy : y = 0
      · simp [entropyBits, stuffedHead, hx, hy]
      · simp [entropyBits, stuffedHead, hx, hy]

theorem stuffedHead_mem (l : List Nat) (c : Nat) (rest : List Nat)
    (h : stuffedHead l = some (c, rest)) (hb : ∀ x ∈ l, x < 256) :
    c < 256 ∧ ∀ x ∈ rest, x < 256 := by
  rcases l with _ | ⟨x, _ | ⟨y, rest1⟩⟩
  · simp [stuffedHead] at h
  · by_cases hx : x ≠ 0xff
    · simp [stuffedHead, hx] at h
      obtain ⟨rfl, rfl⟩ := h
      exact ⟨hb _ (by simp), by simp⟩
    · simp [stuffedHead, hx] at h
  · by_cases hx : x ≠ 0xff
    · simp [stuffedHead, hx] at h
      obtain ⟨rfl, rfl⟩ := h
      exact ⟨hb _ (by simp), fun z hz => hb z (List.mem_cons_of_mem _ hz)⟩
    · by_cases hy : y = 0
      · simp [stuffedHead, hx, hy] at h
        obtain ⟨rfl, rfl⟩ := h
        exact ⟨by omega, fun z hz =>
          hb z (List.mem_cons_of_mem _ (List.mem_cons_of_mem _ hz))⟩
      · simp [stuffedHead, hx, hy] at h

theorem codeBits_push (a c n : Nat) (hn : n ≤ 24) (hc : c < 256) :
    codeBits ((a <<< 8 ||| c) % 4294967296) (n + 8) = codeBits a n ++ codeBits c 8 := by
  rw [codeBits_add]
  congr 1
  · apply codeBits_congr
    intro t ht
    rw [Nat.testBit_shiftRight, show (4294967296 : Nat) = 2 ^ 32 from rfl,
      Nat.testBit_mod_two_pow, Nat.testBit_or, Nat.testBit_shiftLeft]
    have h1 : c.testBit (8 + t) = false :=
      Nat.testBit_lt_two_pow (Nat.lt_of_lt_of_le hc
        (by rw [show (256 : Nat) = 2 ^ 8 from rfl]; exact Nat.pow_le_pow_right (by omega) (by omega)))
    simp [h1, show 8 + t < 32 by omega]
  · apply codeBits_congr
    intro t ht
    rw [show (4294967296 : Nat) = 2 ^ 32 from rfl,
      Nat.testBit_mod_two_pow, Nat.testBit_or, Nat.testBit_shiftLeft]
    simp [show t < 32 by omega, show ¬ (8 ≤ t) by omega]

theorem ensureNBits_ok (s : Stream) (n : Int) (c : Nat) (rest : List Nat) (hok : s.OK)
    (h24 : s.bits.n ≤ 24) (hn : n ≤ s.bits.n + 8)
    (hh : stuffedHead s.bytes.pending = some (c, rest)) :
    ∃ s1, ensureNBits s n = (s1, none) ∧ s1.OK ∧ s1.bits.n = s.bits.n + 8 ∧
      unreadBits s1 = unreadBits s ∧ s1.bytes.pending = rest := by
  obtain ⟨hwf, ⟨b1, b2, b3, b4⟩, hbytes⟩ := hok
  obtain ⟨bb, r, e1, e2, e3, e4, e5, e6⟩ := readByteStuffedByte_spec s.bytes hwf _ rfl
  obtain ⟨rfl, e7⟩ := e5 c rest hh
  obtain ⟨hc, hrest⟩ := stuffedHead_mem _ _ _ hh hbytes
  unfold ensureNBits
  unfold ensureNBitsLoop
  rw [e1]
  simp only []
  rw [if_pos (by omega)]
  refine ⟨_, rfl, ⟨e2, ⟨?_, ?_, ?_, ?_⟩, ?_⟩, rfl, ?_, e7⟩
  · simp only []; omega
  · simp only []; omega
  · simp only []; exact Nat.mod_lt _ (by norm_num)
  · simp only []
    by_cases hz : s.bits.n = 0
    · have hm : s.bits.m = 0 := by rw [b4, if_pos hz]
      rw [if_pos hm, hz]
      simp
    · have hm : s.bits.m = 2 ^ (s.bits.n.toNat - 1) := by rw [b4, if_neg hz]
      have hm0 : s.bits.m ≠ 0 := by rw [hm]; exact Nat.pos_iff_ne_zero.mp (Nat.two_pow_pos _)
      rw [if_neg hm0, if_neg (by omega), hm, Nat.shiftLeft_eq, ← Nat.pow_add]
      have : s.bits.n.toNat - 1 + 8 = (s.bits.n + 8).toNat - 1 := by omega
      rw [this]
      apply Nat.mod_eq_of_lt
      rw [show (4294967296 : Nat) = 2 ^ 32 from rfl]
      exact Nat.pow_lt_pow_right (by omega) (by omega)
  · simp only []; rw [e7]; exact hrest
  · simp only [unreadBits]
    rw [e7, entropyBits_stuffedHead s.bytes.pending, hh]
    simp only []
    have : (s.bits.n + 8).toNat = s.bits.n.toNat + 8 := by omega
    rw [this, codeBits_push _ _ _ (by omega) hc, List.append_assoc]

theorem ensureNBits_fail (s : Stream) (n : Int) (hok : s.OK)
    (hh : stuffedHead s.bytes.pending = none) :
    ∃ s1 e, ensureNBits s n = (s1, some e) ∧ (e = errShortHuffmanData ∨ e = errMissingFF00) ∧
      s1.bits = s.bits ∧ s1.bytes.WF ∧ s1.bytes.ReadsAs s1.bytes.nUnreadable s.bytes.pending := by
  obtain ⟨hwf, -, -⟩ := hok
  obtain ⟨bb, r, e1, e2, e3, e4, e5, e6⟩ := readByteStuffedByte_spec s.bytes hwf _ rfl
  unfold ensureNBits
  unfold ensureNBitsLoop
  rw [e1]
  rcases e6 hh with rfl | rfl
  · exact ⟨_, _, rfl, Or.inl (by simp), rfl, e2, e4⟩
  · refine ⟨_, _, rfl, Or.inr ?_, rfl, e2, e4⟩
    simp [errMissingFF00]

theorem unread_after_fail (s1 : Stream) (l : List Nat) (hwf : s1.bytes.WF)
    (hn : s1.bits.n < 8) (hr : s1.bytes.ReadsAs s1.bytes.nUnreadable l) :
    (if s1.bytes.nUnreadable ≠ 0 then unreadByteStuffedByte s1 else s1).bits = s1.bits ∧
      (if s1.bytes.nUnreadable ≠ 0 then unreadByteStuffedByte s1 else s1).bytes.WF ∧
      (if s1.bytes.nUnreadable ≠ 0 then unreadByteStuffedByte s1 else s1).bytes.pending = l := by
  obtain ⟨w1, w2, w3⟩ := hwf
  by_cases h0 : s1.bytes.nUnreadable ≠ 0
  · rw [if_pos h0]
    unfold unreadByteStuffedByte
    simp only []
    rw [if_neg (by omega)]
    refine ⟨rfl, ⟨w1, ?_, w3⟩, ?_⟩
    · simp only []; omega
    · exact hr.2
  · rw [if_neg h0]
    have h0' : s1.bytes.nUnreadable = 0 := by simpa using h0
    rw [h0'] at hr
    exact ⟨rfl, ⟨w1, w2, w3⟩, (ReadsAs_zero _ _).mp hr⟩

theorem wrap32_id (x : Int) (h1 : -2147483648 ≤ x) (h2 : x < 2147483648) : wrap32 x = x := by
  unfold wrap32
  omega

theorem takeBit_pos (s1 : Stream) (bit : Bool) (rest : List Bool) (hok : s1.OK)
    (hpos : 0 < s1.bits.n) (hb : unreadBits s1 = bit :: rest) :
    decide (s1.bits.a &&& s1.bits.m ≠ 0) = bit ∧
      ({ s1 with bits := { a := s1.bits.a, m := s1.bits.m >>> 1,
                           n := wrap32 (s1.bits.n - 1) } } : Stream).OK ∧
      unreadBits ({ s1 with bits := { a := s1.bits.a, m := s1.bits.m >>> 1,
                                      n := wrap32 (s1.bits.n - 1) } } : Stream) = rest := by
  obtain ⟨hwf, ⟨b1, b2, b3, b4⟩, hbytes⟩ := hok
  obtain ⟨k, hk⟩ : ∃ k, s1.bits.n.toNat = k + 1 := ⟨s1.bits.n.toNat - 1, by omega⟩
  have hm : s1.bits.m = 2 ^ k := by
    rw [b4, if_neg (by omega), hk]; rfl
  have hw : wrap32 (s1.bits.n - 1) = s1.bits.n - 1 := wrap32_id _ (by omega) (by omega)
  have hk2 : (s1.bits.n - 1).toNat = k := by omega
  simp only [unreadBits] at hb ⊢
  rw [hk] at hb
  simp only [codeBits, List.cons_append, List.cons.injEq] at hb
  refine ⟨?_, ⟨hwf, ⟨?_, ?_, b3, ?_⟩, hbytes⟩, ?_⟩
  · rw [hm, Nat.and_two_pow, ← hb.1]
    cases s1.bits.a.testBit k <;> simp
  · simp only [hw]; omega
  · simp only [hw]; omega
  · simp only [hw, hm, Nat.shiftRight_eq_div_pow, hk2]
    by_cases hk0 : k = 0
    · subst hk0
      rw [if_pos (by omega)]
      rfl
    · rw [if_neg (by omega)]
      obtain ⟨j, rfl⟩ : ∃ j, k = j + 1 := ⟨k - 1, by omega⟩
      rw [Nat.pow_succ]
      simp
  · simp only [hw, hk2]
    exact hb.2

theorem slowStep (s : Stream) (bit : Bool) (rest : List Bool) (hok : s.OK)
    (hb : unreadBits s = bit :: rest) :
    ∃ s1, (if s.bits.n = 0 then ensureNBits s 1 else (s, none)) = (s1, none) ∧
      decide (s1.bits.a &&& s1.bits.m ≠ 0) = bit ∧
      ({ s1 with bits := { a := s1.bits.a, m := s1.bits.m >>> 1,
                           n := wrap32 (s1.bits.n - 1) } } : Stream).OK ∧
      unreadBits ({ s1 with bits := { a := s1.bits.a, m := s1.bits.m >>> 1,
                                      n := wrap32 (s1.bits.n - 1) } } : Stream) = rest := by
  by_cases hz : s.bits.n = 0
  · rw [if_pos hz]
    have hne : stuffedHead s.bytes.pending ≠ none := by
      intro hnone
      simp only [unreadBits, hz] at hb
      rw [entropyBits_stuffedHead, hnone] at hb
      simp [codeBits] at hb
    obtain ⟨⟨c, rest1⟩, hh⟩ := Option.ne_none_iff_exists'.mp hne
    obtain ⟨s1, e1, e2, e3, e4, e5⟩ := ensureNBits_ok s 1 c rest1 hok (by omega) (by omega) hh
    rw [e1]
    exact ⟨s1, rfl, takeBit_pos s1 bit rest e2 (by omega) (by rw [e4]; exact hb)⟩
  · rw [if_neg hz]
    have := hok.2.1.1
    exact ⟨s, rfl, takeBit_pos s bit rest hok (by omega) hb⟩

end Jpeg

namespace Jpeg

/-! ## Canonical codes -/

theorem cumCount_eq_sum_take (counts : List Nat) (i : Nat) :
    cumCount counts i = (counts.take i).sum := by
  induction i with
  | zero => simp [cumCount]
  | succ i ih =>
    rw [cumCount, ih]
    by_cases h : i < counts.length
    · rw [List.take_succ, List.sum_append, List.getD_eq_getElem?_getD]
      simp [List.getElem?_eq_getElem h]
    · have h1 : counts.length ≤ i := by omega
      rw [List.take_of_length_le h1, List.take_of_length_le (by omega),
        List.getD_eq_getElem?_getD, List.getElem?_eq_none h1]
      simp

theorem cumCount_mono (counts : List Nat) (i j : Nat) (h : i ≤ j) :
    cumCount counts i ≤ cumCount counts j := by
  induction j with
  | zero =>
    have : i = 0 := by omega
    subst this; exact Nat.le_refl _
  | succ j ih =>
    rcases Nat.lt_or_ge i (j + 1) with h1 | h1
    · have := ih (by omega)
      rw [cumCount]; omega
    · have : i = j + 1 := by omega
      subst this; exact Nat.le_refl _

/-- The partial Kraft sums. -/
theorem kraft_partial (counts : List Nat) (i : Nat) (hi : i < 16) :
    2 ^ (15 - i) * (firstCode counts i + counts.getD i 0) =
      ((List.range (i + 1)).map (fun j => counts.getD j 0 * 2 ^ (15 - j))).sum := by
  induction i with
  | zero =>
    simp only [firstCode, Nat.zero_add, List.range_succ, List.range_zero, List.nil_append,
      List.map_cons, List.map_nil, List.sum_cons, List.sum_nil, Nat.add_zero]
    exact Nat.mul_comm _ _
  | succ i ih =>
    rw [List.range_succ, List.map_append, List.sum_append, ← ih (by omega), firstCode]
    simp only [List.map_cons, List.map_nil, List.sum_cons, List.sum_nil, Nat.add_zero]
    have : 2 ^ (15 - i) = 2 ^ (15 - (i + 1)) * 2 := by
      rw [← Nat.pow_succ]; congr 1; omega
    rw [this]
    ring

theorem sum_range_map_mono (f : Nat → Nat) (i j : Nat) (h : i ≤ j) :
    ((List.range i).map f).sum ≤ ((List.range j).map f).sum := by
  induction j with
  | zero =>
    have : i = 0 := by omega
    subst this; exact Nat.le_refl _
  | succ j ih =>
    rcases Nat.lt_or_ge i (j + 1) with h1 | h1
    · have := ih (by omega)
      rw [List.range_succ, List.map_append, List.sum_append]; omega
    · have : i = j + 1 := by omega
      subst this; exact Nat.le_refl _

theorem kraft_bound (counts : List Nat) (hv : ValidCounts counts) (i : Nat) (hi : i < 16) :
    firstCode counts i + counts.getD i 0 ≤ 2 ^ (i + 1) := by
  obtain ⟨-, -, -, hk⟩ := hv
  have h1 := kraft_partial counts i hi
  have h2 := sum_range_map_mono (fun j => counts.getD j 0 * 2 ^ (15 - j)) (i + 1) 16 (by omega)
  have h3 : 2 ^ (15 - i) * (firstCode counts i + counts.getD i 0) ≤ 2 ^ 16 := by
    rw [h1]; exact Nat.le_trans h2 hk
  have h4 : (2 : Nat) ^ 16 = 2 ^ (15 - i) * 2 ^ (i + 1) := by
    rw [← Nat.pow_add]; congr 1; omega
  rw [h4] at h3
  exact Nat.le_of_mul_le_mul_left h3 (Nat.two_pow_pos _)

theorem firstCode_shift (counts : List Nat) (i d : Nat) :
    2 ^ (d + 1) * (firstCode counts i + counts.getD i 0) ≤ firstCode counts (i + 1 + d) := by
  induction d with
  | zero => simp [firstCode]
  | succ d ih =>
    rw [show i + 1 + (d + 1) = (i + 1 + d) + 1 by omega, firstCode, Nat.pow_succ]
    have : 2 ^ (d + 1) * 2 * (firstCode counts i + counts.getD i 0) =
        2 * (2 ^ (d + 1) * (firstCode counts i + counts.getD i 0)) := by ring
    rw [this]
    have := Nat.mul_le_mul_left 2 ih
    omega

theorem canonical_split (counts : List Nat) (i : Nat) (hi : i ≤ counts.length) :
    ∃ pre, canonicalCodes counts =
        pre ++ canonicalFrom (counts.drop i) (firstCode counts i) (i + 1) ∧
      pre.length = cumCount counts i := by
  induction i with
  | zero => exact ⟨[], by simp [canonicalCodes, firstCode], by simp [cumCount]⟩
  | succ i ih =>
    obtain ⟨pre, h1, h2⟩ := ih (by omega)
    have hlt : i < counts.length := by omega
    rw [List.drop_eq_getElem_cons hlt, canonicalFrom] at h1
    refine ⟨pre ++ (List.range counts[i]).map (fun j => (firstCode counts i + j, i + 1)), ?_, ?_⟩
    · rw [h1, List.append_assoc, firstCode, List.getD_eq_getElem _ _ hlt]
    · rw [List.length_append, h2, cumCount, List.getD_eq_getElem _ _ hlt]
      simp

theorem canonical_getD (counts : List Nat) (i j : Nat) (hi : i < counts.length)
    (hj : j < counts.getD i 0) :
    (canonicalCodes counts).getD (cumCount counts i + j) (0, 0) =
      (firstCode counts i + j, i + 1) := by
  obtain ⟨pre, h1, h2⟩ := canonical_split counts i (by omega)
  rw [List.getD_eq_getElem _ _ hi] at hj
  rw [h1, List.drop_eq_getElem_cons hi, canonicalFrom, List.getD_eq_getElem?_getD,
    List.getElem?_append_right (by omega), h2, Nat.add_sub_cancel_left,
    List.getElem?_append_left (by simpa using hj)]
  simp [List.getElem?_map, List.getElem?_range hj]

theorem cumCount_decompose (counts : List Nat) (m k : Nat) (hk : k < cumCount counts m) :
    ∃ i j, i < m ∧ j < counts.getD i 0 ∧ k = cumCount counts i + j := by
  induction m with
  | zero => simp [cumCount] at hk
  | succ m ih =>
    rw [cumCount] at hk
    rcases Nat.lt_or_ge k (cumCount counts m) with h1 | h1
    · obtain ⟨i, j, a1, a2, a3⟩ := ih h1
      exact ⟨i, j, by omega, a2, a3⟩
    · exact ⟨m, k - cumCount counts m, by omega, by omega, by omega⟩

/-! ## The code tables of `processDHT` -/

/-- The array `nCodes` of `processDHT` for the count bytes `counts`. -/
theorem nCodes_getD (counts : List Nat) (i : Nat) (hi : i < 16) :
    ((List.range maxCodeLength).map (fun i => (counts.getD i 0 : Int))).getD i 0 =
      (counts.getD i 0 : Int) := by
  simp [maxCodeLength, List.getD_eq_getElem?_getD, List.getElem?_map, List.getElem?_range hi]

theorem cumCount_le_sum (counts : List Nat) (hl : counts.length = 16) (i : Nat) (hi : i ≤ 16) :
    cumCount counts i ≤ counts.sum := by
  have h1 := cumCount_mono counts i 16 hi
  rw [cumCount_eq_sum_take counts 16, List.take_of_length_le (by omega)] at h1
  exact h1

/-- What the derivation of `minCodes`, `maxCodes` and `valsIndices` has
computed after `i` rounds. -/
theorem codeFold_spec (counts : List Nat) (hv : ValidCounts counts) (st0 : CodeState)
    (h0 : st0.minCodes.length = 16 ∧ st0.maxCodes.length = 16 ∧ st0.valsIndices.length = 16)
    (hc0 : st0.c = 0 ∧ st0.index = 0) (i : Nat) (hi : i ≤ 16) :
    let st := (List.range i).foldl
      (codeLength ((List.range maxCodeLength).map (fun i => (counts.getD i 0 : Int)))) st0
    st.c = (firstCode counts i : Int) ∧ st.index = (cumCount counts i : Int) ∧
      st.minCodes.length = 16 ∧ st.maxCodes.length = 16 ∧ st.valsIndices.length = 16 ∧
      ∀ t, t < i →
        st.maxCodes.getD t 0 =
          (if counts.getD t 0 = 0 then -1
            else ((firstCode counts t + counts.getD t 0 : Nat) : Int) - 1) ∧
        st.minCodes.getD t 0 =
          (if counts.getD t 0 = 0 then -1 else (firstCode counts t : Int)) ∧
        st.valsIndices.getD t 0 =
          (if counts.getD t 0 = 0 then -1 else (cumCount counts t : Int)) := by
  induction i with
  | zero =>
    simp only [List.range_zero, List.foldl_nil, firstCode, cumCount]
    exact ⟨hc0.1, hc0.2, h0.1, h0.2.1, h0.2.2, fun t ht => absurd ht (by omega)⟩
  | succ i ih =>
    have hi16 : i < 16 := by omega
    obtain ⟨a1, a2, a3, a4, a5, a6⟩ := ih (by omega)
    simp only [List.range_succ, List.foldl_append, List.foldl_cons, List.foldl_nil]
    generalize (List.range i).foldl
      (codeLength ((List.range maxCodeLength).map (fun i => (counts.getD i 0 : Int)))) st0 = st
      at a1 a2 a3 a4 a5 a6 ⊢
    have hkb := kraft_bound counts hv i hi16
    have hpow : (2 : Nat) ^ (i + 1) ≤ 2 ^ 16 := Nat.pow_le_pow_right (by omega) (by omega)
    have hcum := cumCount_le_sum counts hv.1 (i + 1) (by omega)
    have hsum := hv.2.2.1
    rw [cumCount] at hcum
    have hp16 : (2 : Nat) ^ 16 = 65536 := by norm_num
    unfold codeLength
    simp only [nCodes_getD counts i hi16]
    by_cases hn : counts.getD i 0 = 0
    · have hn' : ((counts.getD i 0 : Nat) : Int) = 0 := by rw [hn]; rfl
      simp only [hn', ↓reduceIte]
      refine ⟨?_, ?_, by simp [a3], by simp [a4], by simp [a5], ?_⟩
      · rw [a1, firstCode, hn, shl32, wrap32_id _ (by omega) (by omega)]
        push_cast; ring
      · rw [a2, cumCount, hn]; simp
      · intro t ht
        rcases Nat.lt_or_ge t i with h1 | h1
        · rw [getD_set_ne _ _ _ _ _ (by omega), getD_set_ne _ _ _ _ _ (by omega),
            getD_set_ne _ _ _ _ _ (by omega)]
          exact a6 t h1
        · have : t = i := by omega
          subst this
          rw [getD_set_eq _ _ _ _ (by omega), getD_set_eq _ _ _ _ (by omega),
            getD_set_eq _ _ _ _ (by omega), if_pos hn, if_pos hn, if_pos hn]
          exact ⟨rfl, rfl, rfl⟩
    · have hn' : ¬ ((counts.getD i 0 : Nat) : Int) = 0 := by omega
      simp only [hn', ↓reduceIte]
      have hw1 : wrap32 (st.c + (counts.getD i 0 : Nat)) =
          ((firstCode counts i + counts.getD i 0 : Nat) : Int) := by
        rw [a1, wrap32_id _ (by omega) (by omega)]; push_cast; rfl
      refine ⟨?_, ?_, by simp [a3], by simp [a4], by simp [a5], ?_⟩
      · rw [hw1, firstCode, shl32, wrap32_id _ (by omega) (by omega)]
        push_cast; ring
      · rw [a2, cumCount, wrap32_id _ (by omega) (by omega)]; push_cast; rfl
      · intro t ht
        rcases Nat.lt_or_ge t i with h1 | h1
        · rw [getD_set_ne _ _ _ _ _ (by omega), getD_set_ne _ _ _ _ _ (by omega),
            getD_set_ne _ _ _ _ _ (by omega)]
          exact a6 t h1
        · have : t = i := by omega
          subst this
          rw [getD_set_eq _ _ _ _ (by omega), getD_set_eq _ _ _ _ (by omega),
            getD_set_eq _ _ _ _ (by omega), hw1, wrap32_id _ (by omega) (by omega),
            if_neg hn, if_neg hn, if_neg hn]
          exact ⟨rfl, a1, a2⟩

end Jpeg

namespace Jpeg

/-! ## The look-up table of `processDHT` -/

theorem lutSpread_fold (lut : List Nat) (c m val : Nat) (N : Nat) (hN : N ≤ 2 ^ m)
    (hlen : (c + 1) * 2 ^ m ≤ lut.length) :
    ((List.range N).foldl (fun l k => l.set (c * 2 ^ m ||| k) val) lut).length = lut.length ∧
    ∀ v, ((List.range N).foldl (fun l k => l.set (c * 2 ^ m ||| k) val) lut).getD v 0 =
      if c * 2 ^ m ≤ v ∧ v < c * 2 ^ m + N then val else lut.getD v 0 := by
  induction N with
  | zero =>
    refine ⟨by simp, fun v => ?_⟩
    rw [if_neg (by omega)]
    simp
  | succ N ih =>
    obtain ⟨h1, h2⟩ := ih (by omega)
    have hor : c * 2 ^ m ||| N = c * 2 ^ m + N := by
      rw [Nat.mul_comm c]
      exact (Nat.mul_add_lt_is_or (i := m) (by omega) c).symm
    simp only [List.range_succ, List.foldl_append, List.foldl_cons, List.foldl_nil, hor]
    refine ⟨by simp [h1], fun v => ?_⟩
    have hmul : (c + 1) * 2 ^ m = c * 2 ^ m + 2 ^ m := by ring
    by_cases hv : v = c * 2 ^ m + N
    · subst hv
      rw [getD_set_eq _ _ _ _ (by omega), if_pos (by omega)]
    · rw [getD_set_ne _ _ _ _ _ (fun h => hv h.symm), h2 v]
      by_cases hin : c * 2 ^ m ≤ v ∧ v < c * 2 ^ m + N
      · rw [if_pos hin, if_pos (by omega)]
      · rw [if_neg hin, if_neg (by omega)]

theorem lutSpread_getD (lut : List Nat) (c m val : Nat)
    (hlen : (c + 1) * 2 ^ m ≤ lut.length) :
    (lutSpread lut (c * 2 ^ m) val (2 ^ m)).length = lut.length ∧
    ∀ v, (lutSpread lut (c * 2 ^ m) val (2 ^ m)).getD v 0 =
      if c * 2 ^ m ≤ v ∧ v < (c + 1) * 2 ^ m then val else lut.getD v 0 := by
  have h := lutSpread_fold lut c m val (2 ^ m) (Nat.le_refl _) hlen
  have hmul : (c + 1) * 2 ^ m = c * 2 ^ m + 2 ^ m := by ring
  rw [hmul]
  exact h

theorem lutCode_inv (counts vals : List Nat) (hv : ValidCounts counts) (st : LutState)
    (i j : Nat) (hi : i ≤ 7) (hj : j < counts.getD i 0) (h : LutInv counts vals st i j) :
    LutInv counts vals (lutCode vals i st) i (j + 1) := by
  obtain ⟨h1, h2, h3, h4, h5, h6⟩ := h
  have hkb := kraft_bound counts hv i (by omega)
  have hpow : (2 : Nat) ^ (i + 1) * 2 ^ (7 - i) = 256 := by
    rw [← pow_add, show i + 1 + (7 - i) = 8 by omega]; norm_num
  have hle : (firstCode counts i + j + 1) * 2 ^ (7 - i) ≤ 256 := by
    rw [← hpow]; exact Nat.mul_le_mul_right _ (by omega)
  have hpos : 0 < 2 ^ (7 - i) := Nat.two_pow_pos _
  have hlt : (firstCode counts i + j) * 2 ^ (7 - i) < 256 := by
    have : (firstCode counts i + j + 1) * 2 ^ (7 - i) =
        (firstCode counts i + j) * 2 ^ (7 - i) + 2 ^ (7 - i) := by ring
    omega
  have hp8 : (2 : Nat) ^ (i + 1) ≤ 256 := by
    calc (2 : Nat) ^ (i + 1) ≤ 2 ^ 8 := Nat.pow_le_pow_right (by omega) (by omega)
      _ = 256 := by norm_num
  have hcum := cumCount_le_sum counts hv.1 (i + 1) (by omega)
  rw [cumCount] at hcum
  have hsum := hv.2.2.1
  have hbase : (st.code <<< (7 - i)) % 256 = (firstCode counts i + j) * 2 ^ (7 - i) := by
    rw [Nat.shiftLeft_eq, h3, Nat.mod_eq_of_lt hlt]
  have hcnt : (1 : Nat) <<< (7 - i) = 2 ^ (7 - i) := by rw [Nat.one_shiftLeft]
  have hsp := lutSpread_getD st.lut (firstCode counts i + j) (7 - i)
    (((vals.getD st.x 0) <<< 8 ||| (2 + i)) % 65536) (by omega)
  unfold lutCode
  simp only [hbase, hcnt]
  refine ⟨hsp.1.trans h1, ?_, ?_, ?_, ?_, ?_⟩
  · show (st.x + 1) % 4294967296 = _
    rw [h2, Nat.mod_eq_of_lt (by omega)]; ring
  · show (st.code + 1) % 4294967296 = _
    rw [h3, Nat.mod_eq_of_lt (by omega)]; ring
  · intro v hvge
    show (lutSpread _ _ _ _).getD v 0 = 0
    have e : firstCode counts i + (j + 1) = firstCode counts i + j + 1 := by ring
    rw [e] at hvge
    have hmul : (firstCode counts i + j + 1) * 2 ^ (7 - i) =
        (firstCode counts i + j) * 2 ^ (7 - i) + 2 ^ (7 - i) := by ring
    rw [hsp.2 v, if_neg (by omega)]
    exact h4 v (by omega)
  · intro t j1 hd v hv1 hv2
    show (lutSpread _ _ _ _).getD v 0 = _
    rw [hsp.2 v]
    rcases hd with hd | ⟨rfl, hd⟩
    · have hold := h5 t j1 (Or.inl hd) v hv1 hv2
      have hcov : v < (firstCode counts i + j) * 2 ^ (7 - i) := by
        by_contra hcon
        have := h4 v (by omega)
        have hfs := firstCode_shift counts t (i - t - 1)
        rw [show t + 1 + (i - t - 1) = i by omega, show i - t - 1 + 1 = i - t by omega] at hfs
        have hsplit : (2 : Nat) ^ (7 - t) = 2 ^ (i - t) * 2 ^ (7 - i) := by
          rw [← pow_add, show i - t + (7 - i) = 7 - t by omega]
        have h7 : (firstCode counts t + j1 + 1) * 2 ^ (7 - t) ≤
            (firstCode counts i + j) * 2 ^ (7 - i) := by
          rw [hsplit, ← Nat.mul_assoc]
          apply Nat.mul_le_mul_right
          calc (firstCode counts t + j1 + 1) * 2 ^ (i - t)
              ≤ (firstCode counts t + counts.getD t 0) * 2 ^ (i - t) :=
                Nat.mul_le_mul_right _ (by omega)
            _ = 2 ^ (i - t) * (firstCode counts t + counts.getD t 0) := Nat.mul_comm _ _
            _ ≤ firstCode counts i := hfs
            _ ≤ firstCode counts i + j := by omega
        omega
      rw [if_neg (by omega)]
      exact hold
    · rcases Nat.lt_or_ge j1 j with hlt1 | hge1
      · have hold := h5 t j1 (Or.inr ⟨rfl, hlt1⟩) v hv1 hv2
        have h7 : (firstCode counts t + j1 + 1) * 2 ^ (7 - t) ≤
            (firstCode counts t + j) * 2 ^ (7 - t) := Nat.mul_le_mul_right _ (by omega)
        rw [if_neg (by omega)]
        exact hold
      · have : j1 = j := by omega
        subst this
        rw [if_pos ⟨hv1, hv2⟩, lutEntry, h2]
  · intro v hvlt
    have e : firstCode counts i + (j + 1) = firstCode counts i + j + 1 := by ring
    rw [e] at hvlt
    rcases Nat.lt_or_ge v ((firstCode counts i + j) * 2 ^ (7 - i)) with hlt1 | hge1
    · obtain ⟨t, j1, hd, c1, c2⟩ := h6 v hlt1
      refine ⟨t, j1, ?_, c1, c2⟩
      rcases hd with hd | ⟨rfl, hd⟩
      · exact Or.inl hd
      · exact Or.inr ⟨rfl, by omega⟩
    · exact ⟨i, j, Or.inr ⟨rfl, by omega⟩, hge1, hvlt⟩

theorem lutFold_inv (counts vals : List Nat) (hv : ValidCounts counts) (st : LutState)
    (i : Nat) (hi : i ≤ 7) (h : LutInv counts vals st i 0) (j : Nat)
    (hj : j ≤ counts.getD i 0) :
    LutInv counts vals ((List.range j).foldl (fun s _ => lutCode vals i s) st) i j := by
  induction j with
  | zero => simpa using h
  | succ j ih =>
    simp only [List.range_succ, List.foldl_append, List.foldl_cons, List.foldl_nil]
    exact lutCode_inv counts vals hv _ i j hi (by omega) (ih (by omega))

theorem lutInv_next (counts vals : List Nat) (hv : ValidCounts counts) (st : LutState)
    (i : Nat) (hi : i + 1 ≤ 7) (h : LutInv counts vals st i (counts.getD i 0)) :
    LutInv counts vals { st with code := (st.code <<< 1) % 4294967296 } (i + 1) 0 := by
  obtain ⟨h1, h2, h3, h4, h5, h6⟩ := h
  have hkb := kraft_bound counts hv i (by omega)
  have hp8 : (2 : Nat) ^ (i + 1) ≤ 256 := by
    calc (2 : Nat) ^ (i + 1) ≤ 2 ^ 8 := Nat.pow_le_pow_right (by omega) (by omega)
      _ = 256 := by norm_num
  have hsplit : (2 : Nat) ^ (7 - i) = 2 * 2 ^ (7 - (i + 1)) := by
    rw [← pow_succ', show 7 - (i + 1) + 1 = 7 - i by omega]
  have hb : (firstCode counts (i + 1) + 0) * 2 ^ (7 - (i + 1)) =
      (firstCode counts i + counts.getD i 0) * 2 ^ (7 - i) := by
    rw [firstCode, hsplit]; ring
  have hdone : ∀ t j1, LutDone counts (i + 1) 0 t j1 → LutDone counts i (counts.getD i 0) t j1 := by
    intro t j1 hd
    rcases hd with ⟨hd1, hd2⟩ | ⟨_, hd⟩
    · rcases Nat.lt_or_ge t i with hlt | hge
      · exact Or.inl ⟨hlt, hd2⟩
      · have : t = i := by omega
        subst this
        exact Or.inr ⟨rfl, hd2⟩
    · omega
  have hdone2 : ∀ t j1, LutDone counts i (counts.getD i 0) t j1 → LutDone counts (i + 1) 0 t j1 := by
    intro t j1 hd
    rcases hd with ⟨hd1, hd2⟩ | ⟨rfl, hd⟩
    · exact Or.inl ⟨by omega, hd2⟩
    · exact Or.inl ⟨by omega, hd⟩
  refine ⟨h1, ?_, ?_, ?_, ?_, ?_⟩
  · show st.x = _
    rw [h2, cumCount]; ring
  · show (st.code <<< 1) % 4294967296 = _
    rw [Nat.shiftLeft_eq, h3, Nat.mod_eq_of_lt (by omega), firstCode]; ring
  · intro v hvge
    rw [hb] at hvge
    exact h4 v hvge
  · intro t j1 hd v hv1 hv2
    exact h5 t j1 (hdone t j1 hd) v hv1 hv2
  · intro v hvlt
    rw [hb] at hvlt
    obtain ⟨t, j1, hd, c1, c2⟩ := h6 v hvlt
    exact ⟨t, j1, hdone2 t j1 hd, c1, c2⟩

theorem lutInv_init (counts vals : List Nat) :
    LutInv counts vals
      { lut := List.replicate 256 0, x := 0, code := (0 <<< 1) % 4294967296 } 0 0 := by
  refine ⟨List.length_replicate _ _, rfl, rfl, ?_, ?_, ?_⟩
  · intro v _
    rw [List.getD_eq_getElem?_getD, List.getElem?_replicate]
    split <;> rfl
  · intro t j1 hd
    rcases hd with ⟨hd, _⟩ | ⟨_, hd⟩ <;> omega
  · intro v hvlt
    simp [firstCode] at hvlt

theorem lutLength_inv (counts vals : List Nat) (hv : ValidCounts counts) (i : Nat)
    (hi : i ≤ 7) :
    LutInv counts vals
      ((List.range (i + 1)).foldl
        (lutLength ((List.range maxCodeLength).map (fun i => (counts.getD i 0 : Int))) vals)
        { lut := List.replicate 256 0, x := 0, code := 0 }) i (counts.getD i 0) := by
  induction i with
  | zero =>
    simp only [List.range_succ, List.range_zero, List.nil_append, List.foldl_cons,
      List.foldl_nil, lutLength, nCodes_getD counts 0 (by omega), Int.toNat_ofNat]
    exact lutFold_inv counts vals hv _ 0 hi (lutInv_init counts vals) _ (Nat.le_refl _)
  | succ i ih =>
    rw [List.range_succ, List.foldl_append]
    simp only [List.foldl_cons, List.foldl_nil]
    have h := lutInv_next counts vals hv _ i hi (ih (by omega))
    rw [lutLength]
    simp only [nCodes_getD counts (i + 1) (by omega), Int.toNat_ofNat]
    exact lutFold_inv counts vals hv _ (i + 1) hi h _ (Nat.le_refl _)

/-- The look-up table that `processDHT` derives. -/
theorem deriveLut_spec (counts vals : List Nat) (hv : ValidCounts counts) :
    ∃ st, deriveLut ((List.range maxCodeLength).map (fun i => (counts.getD i 0 : Int))) vals =
        st.lut ∧ LutInv counts vals st 7 (counts.getD 7 0) :=
  ⟨_, rfl, lutLength_inv counts vals hv 7 (Nat.le_refl _)⟩

end Jpeg

namespace Jpeg

/-! ## The tables of `buildHuffman` -/

theorem total_fold (counts : List Nat) (hv : ValidCounts counts) (i : Nat) (hi : i ≤ 16) :
    (List.range i).foldl (fun t i =>
        wrap32 (t + ((List.range maxCodeLength).map
          (fun i => (counts.getD i 0 : Int))).getD i 0)) 0 = (cumCount counts i : Int) := by
  induction i with
  | zero => simp only [List.range_zero, List.foldl_nil, cumCount]; rfl
  | succ i ih =>
    have hcum := cumCount_le_sum counts hv.1 (i + 1) (by omega)
    have hsum := hv.2.2.1
    rw [cumCount] at hcum
    rw [List.range_succ, List.foldl_append, ih (by omega)]
    simp only [List.foldl_cons, List.foldl_nil]
    rw [nCodes_getD counts i (by omega)]
    have hw := wrap32_id ((cumCount counts i : Int) + (counts.getD i 0 : Int))
      (by omega) (by omega)
    rw [hw, cumCount, Nat.cast_add]

theorem buildHuffman_vals (h0 : huffman) (counts syms : List Nat) :
    (buildHuffman h0 counts syms).vals = syms ++ h0.vals.drop syms.length := rfl

theorem buildHuffman_canonical (h0 : huffman) (counts syms : List Nat)
    (hv : ValidCounts counts)
    (h16 : h0.minCodes.length = 16 ∧ h0.maxCodes.length = 16 ∧ h0.valsIndices.length = 16) :
    (buildHuffman h0 counts syms).Canonical counts := by
  refine ⟨?_, ?_, ?_⟩
  · have h := total_fold counts hv 16 (Nat.le_refl _)
    rw [cumCount_eq_sum_take counts 16, List.take_of_length_le (by rw [hv.1])] at h
    have e : (buildHuffman h0 counts syms).nCodes = (counts.sum : Int) := h
    have := hv.2.1
    rw [e]
    omega
  · intro t ht
    have h := codeFold_spec counts hv
      { minCodes := h0.minCodes, maxCodes := h0.maxCodes, valsIndices := h0.valsIndices,
        c := 0, index := 0 } h16 ⟨rfl, rfl⟩ 16 (Nat.le_refl _)
    exact h.2.2.2.2.2 t ht
  · exact deriveLut_spec counts _ hv

/-! ## The bit-by-bit walk of `decodeHuffman` -/

theorem lor_one (P : Nat) : Int.lor ((2 * P : Nat) : Int) 1 = ((2 * P + 1 : Nat) : Int) := by
  show Int.lor (Int.ofNat (2 * P)) (Int.ofNat 1) = Int.ofNat (2 * P + 1)
  have h : 2 * P ||| 1 = 2 * P + 1 := (Nat.mul_add_lt_is_or (i := 1) (by norm_num) P).symm
  show Int.ofNat (2 * P ||| 1) = _
  rw [h]

theorem div_pow_step (c d : Nat) :
    c / 2 ^ d = 2 * (c / 2 ^ (d + 1)) + (if c.testBit d then 1 else 0) := by
  rw [Nat.testBit_to_div_mod, pow_succ, ← Nat.div_div_eq_div_mul]
  have := Nat.div_add_mod (c / 2 ^ d) 2
  have h2 := Nat.mod_lt (c / 2 ^ d) (show 0 < 2 by omega)
  by_cases h : c / 2 ^ d % 2 = 1
  · simp only [h, decide_True, ↓reduceIte]; omega
  · simp only [h, decide_False]
    simp only [Bool.false_eq_true, ↓reduceIte]; omega

theorem take_succ_codeBits (l : List Bool) (c d : Nat)
    (h : l.take (d + 1) = codeBits c (d + 1)) :
    ∃ rest, l = c.testBit d :: rest ∧ rest.take d = codeBits c d := by
  cases l with
  | nil => simp [codeBits] at h
  | cons b rest =>
    rw [codeBits, List.take_succ_cons, List.cons.injEq] at h
    exact ⟨rest, by rw [h.1], h.2⟩

theorem code1_eq (p : Prop) [Decidable p] (c d : Nat) (hp : decide p = c.testBit d) :
    (if p then Int.lor ((2 * (c / 2 ^ (d + 1)) : Nat) : Int) 1
      else ((2 * (c / 2 ^ (d + 1)) : Nat) : Int)) = ((c / 2 ^ d : Nat) : Int) := by
  have hs := div_pow_step c d
  by_cases h : p
  · rw [if_pos h, lor_one]
    have ht : c.testBit d = true := by rw [← hp]; exact decide_eq_true h
    rw [ht, if_pos rfl] at hs
    rw [hs]
  · rw [if_neg h]
    have ht : c.testBit d = false := by rw [← hp]; exact decide_eq_false h
    rw [ht] at hs
    simp only [Bool.false_eq_true, ↓reduceIte, Nat.add_zero] at hs
    rw [← hs]

theorem idx_eq (a c f : Nat) (h1 : f ≤ c) (h2 : a + c < 65536 + 256) :
    wrap32 (wrap32 ((a : Int) + (c : Int)) - (f : Int)) = ((a + (c - f) : Nat) : Int) := by
  have e1 := wrap32_id ((a : Int) + (c : Int)) (by omega) (by omega)
  rw [e1]
  have e2 := wrap32_id ((a : Int) + (c : Int) - (f : Int)) (by omega) (by omega)
  rw [e2]
  omega

theorem shl1_eq (c : Nat) (h : c < 65536) : shl32 (c : Int) 1 = ((2 * c : Nat) : Int) := by
  have e := wrap32_id ((c : Int) * 2 ^ 1) (by omega) (by omega)
  rw [shl32, e]
  omega

theorem code_lt (counts : List Nat) (hv : ValidCounts counts) (i j : Nat) (hi : i < 16)
    (hj : j < counts.getD i 0) : firstCode counts i + j < 2 ^ (i + 1) := by
  have := kraft_bound counts hv i hi
  omega

/-- The bit-by-bit walk finds the `j`-th code of length `i + 1` when it is
`d` lengths before it, from the code bits that are left. -/
theorem slowPath_hit (h : huffman) (counts : List Nat) (hv : ValidCounts counts)
    (hc : h.Canonical counts) (i j : Nat) (hi : i < 16) (hj : j < counts.getD i 0) (d : Nat) :
    ∀ (t : Nat) (s : Stream) (k : Nat), t + d = i → s.OK → d + 1 ≤ k →
      (unreadBits s).take (d + 1) = codeBits (firstCode counts i + j) (d + 1) →
      ∃ s1, slowPath h k t (((2 * ((firstCode counts i + j) / 2 ^ (d + 1)) : Nat)) : Int) s =
          .ok (h.vals.getD (cumCount counts i + j) 0, s1) ∧ s1.OK ∧
        unreadBits s1 = (unreadBits s).drop (d + 1) ∧
        (((d + 1 : Nat) : Int) ≤ s.bits.n →
          s1 = { s with bits := { a := s.bits.a, m := s.bits.m >>> (d + 1),
                                  n := wrap32 (s.bits.n - ((d + 1 : Nat) : Int)) } }) := by
  have hclt := code_lt counts hv i j hi hj
  have hp16 : (2 : Nat) ^ (i + 1) ≤ 65536 := by
    calc (2 : Nat) ^ (i + 1) ≤ 2 ^ 16 := Nat.pow_le_pow_right (by omega) (by omega)
      _ = 65536 := by norm_num
  induction d with
  | zero =>
    intro t s k ht hok hk hbits
    obtain ⟨rest, hb, _⟩ := take_succ_codeBits _ _ _ hbits
    obtain ⟨s1, hens, hdec, hok2, hun2⟩ := slowStep s _ rest hok hb
    obtain ⟨k, rfl⟩ : ∃ k1, k = k1 + 1 := ⟨k - 1, by omega⟩
    have ht1 : t = i := by omega
    subst ht1
    obtain ⟨hmax, hmin, hidx⟩ := hc.2.1 t hi
    have hn : ¬ counts.getD t 0 = 0 := by omega
    rw [if_neg hn] at hmax hmin hidx
    have hcum := cumCount_le_sum counts hv.1 (t + 1) (by omega)
    rw [cumCount] at hcum
    have hsum := hv.2.2.1
    rw [slowPath]
    simp only [hens]
    rw [code1_eq _ _ 0 hdec]
    simp only [pow_zero, Nat.div_one]
    rw [if_pos (by rw [hmax]; omega), hidx, hmin,
      idx_eq _ _ _ (Nat.le_add_right _ _) (by omega),
      if_neg (by omega)]
    refine ⟨_, ?_, hok2, ?_, ?_⟩
    · rw [Int.toNat_ofNat, Nat.add_sub_cancel_left]
    · rw [hun2, hb]; rfl
    · intro hpos
      have hne : ¬ s.bits.n = 0 := by omega
      rw [if_neg hne] at hens
      rw [← (Prod.mk.inj hens).1]
      rfl
  | succ d ih =>
    intro t s k ht hok hk hbits
    obtain ⟨rest, hb, hrest⟩ := take_succ_codeBits _ _ _ hbits
    obtain ⟨s1, hens, hdec, hok2, hun2⟩ := slowStep s _ rest hok hb
    obtain ⟨k, rfl⟩ : ∃ k1, k = k1 + 1 := ⟨k - 1, by omega⟩
    obtain ⟨hmax, -, -⟩ := hc.2.1 t (by omega)
    have hfs := firstCode_shift counts t d
    rw [show t + 1 + d = i by omega] at hfs
    have hge : firstCode counts t + counts.getD t 0 ≤
        (firstCode counts i + j) / 2 ^ (d + 1) := by
      rw [Nat.le_div_iff_mul_le (Nat.two_pow_pos _), Nat.mul_comm]
      omega
    have hdl : (firstCode counts i + j) / 2 ^ (d + 1) < 65536 :=
      lt_of_le_of_lt (Nat.div_le_self _ _) (by omega)
    rw [slowPath]
    simp only [hens]
    rw [code1_eq _ _ (d + 1) hdec]
    rw [if_neg (by rw [hmax]; split <;> omega), shl1_eq _ hdl]
    obtain ⟨s2, h1, h2, h3, h4⟩ :=
      ih (t + 1) _ k (by omega) hok2 (by omega) (by rw [hun2]; exact hrest)
    refine ⟨s2, h1, h2, ?_, ?_⟩
    · rw [h3, hun2, hb]; rfl
    · intro hpos
      have hne : ¬ s.bits.n = 0 := by omega
      rw [if_neg hne] at hens
      have es : s1 = s := (Prod.mk.inj hens).1.symm
      subst es
      have hn32 := hok.2.1.2.1
      have hw := wrap32_id (s1.bits.n - 1) (by omega) (by omega)
      have h5 := h4 (by show ((d + 1 : Nat) : Int) ≤ wrap32 (s1.bits.n - 1); rw [hw]; omega)
      have e1 : s1.bits.m >>> 1 >>> (d + 1) = s1.bits.m >>> (d + 1 + 1) := by
        rw [← Nat.shiftRight_add, show 1 + (d + 1) = d + 1 + 1 by omega]
      have e2 : wrap32 (s1.bits.n - 1) - ((d + 1 : Nat) : Int) =
          s1.bits.n - ((d + 1 + 1 : Nat) : Int) := by
        rw [hw]; push_cast; ring
      rw [h5]
      simp only [e1, e2]

end Jpeg

namespace Jpeg

/-! ## The look-up of `decodeHuffman` -/

theorem and_ff (x : Nat) : x &&& 0xff = x % 256 :=
  Nat.and_pow_two_sub_one_eq_mod x 8

theorem toU32_sub (n : Int) (h0 : 8 ≤ n) (h1 : n ≤ 32) :
    toU32 (n - lutSize) = n.toNat - 8 := by
  rw [toU32, show ((lutSize : Nat) : Int) = 8 from rfl,
    Int.emod_eq_of_lt (by omega) (by omega)]
  omega

/-- The index of the look-up: the next 8 unread bits. -/
theorem top8 (s : Stream) (hok : s.OK) (h8 : 8 ≤ s.bits.n) :
    (unreadBits s).take 8 =
      codeBits ((s.bits.a >>> toU32 (s.bits.n - lutSize)) &&& 0xff) 8 := by
  have h32 := hok.2.1.2.1
  rw [and_ff, toU32_sub _ h8 h32, unreadBits]
  have hN : s.bits.n.toNat = 8 + (s.bits.n.toNat - 8) := by omega
  rw [List.take_append_of_le_length (by rw [codeBits_length]; omega)]
  conv_lhs => rw [hN]
  rw [codeBits_take, show (256 : Nat) = 2 ^ 8 from rfl, codeBits_mod _ 8 8 (Nat.le_refl _)]

theorem div_eq_iff_interval (x c m : Nat) :
    x / 2 ^ m = c ↔ c * 2 ^ m ≤ x ∧ x < (c + 1) * 2 ^ m := by
  have hpos : 0 < 2 ^ m := Nat.two_pow_pos m
  constructor
  · intro h
    subst h
    constructor
    · exact Nat.div_mul_le_self x (2 ^ m)
    · rw [Nat.mul_comm]; exact Nat.lt_mul_div_succ x hpos
  · intro ⟨h1, h2⟩
    apply Nat.le_antisymm
    · have := (Nat.div_lt_iff_lt_mul hpos).2 h2
      omega
    · exact (Nat.le_div_iff_mul_le hpos).2 h1

/-- A code of length `i + 1 ≤ 8` is a prefix of 8 bits if and only if the
8 bits lie in the range of look-up entries of the code. -/
theorem prefix_iff (x c i : Nat) (hi : i ≤ 7) (hx : x < 256) (hc : c < 2 ^ (i + 1)) :
    (codeBits x 8).take (i + 1) = codeBits c (i + 1) ↔
      c * 2 ^ (7 - i) ≤ x ∧ x < (c + 1) * 2 ^ (7 - i) := by
  rw [← div_eq_iff_interval]
  have e8 : 8 = i + 1 + (7 - i) := by omega
  conv_lhs => rw [e8, codeBits_take, Nat.shiftRight_eq_div_pow]
  have hlt : x / 2 ^ (7 - i) < 2 ^ (i + 1) := by
    rw [Nat.div_lt_iff_lt_mul (Nat.two_pow_pos _), ← pow_add, ← e8]
    exact hx
  constructor
  · intro h
    have := codeBits_inj _ _ _ h
    rwa [Nat.mod_eq_of_lt hlt, Nat.mod_eq_of_lt hc] at this
  · intro h
    rw [h]

theorem take_take_le (l : List Bool) (a b : Nat) (h : a ≤ b) :
    (l.take b).take a = l.take a := by
  rw [List.take_take, Nat.min_eq_left h]

theorem lutDone_last (counts : List Nat) (t j1 : Nat) :
    LutDone counts 7 (counts.getD 7 0) t j1 ↔ t ≤ 7 ∧ j1 < counts.getD t 0 := by
  unfold LutDone
  constructor
  · rintro (⟨h1, h2⟩ | ⟨rfl, h2⟩)
    · exact ⟨by omega, h2⟩
    · exact ⟨Nat.le_refl _, h2⟩
  · rintro ⟨h1, h2⟩
    rcases Nat.lt_or_ge t 7 with h | h
    · exact Or.inl ⟨h, h2⟩
    · have : t = 7 := by omega
      subst this
      exact Or.inr ⟨rfl, h2⟩

theorem lut_hit (h : huffman) (counts : List Nat) (hv : ValidCounts counts)
    (hc : h.Canonical counts) (s : Stream) (hok : s.OK) (h8 : 8 ≤ s.bits.n) (i j : Nat)
    (hi : i ≤ 7) (hj : j < counts.getD i 0)
    (hbits : (unreadBits s).take (i + 1) = codeBits (firstCode counts i + j) (i + 1)) :
    h.lut.getD ((s.bits.a >>> toU32 (s.bits.n - lutSize)) &&& 0xff) 0 =
      lutEntry counts h.vals i j := by
  obtain ⟨_, _, st, hst, hinv⟩ := hc
  have ht := top8 s hok h8
  have hx : (s.bits.a >>> toU32 (s.bits.n - lutSize)) &&& 0xff < 256 := by
    rw [and_ff]; exact Nat.mod_lt _ (by omega)
  rw [← take_take_le _ (i + 1) 8 (by omega), ht] at hbits
  have hiv := (prefix_iff _ _ i hi hx (code_lt counts hv i j (by omega) hj)).1 hbits
  rw [hst]
  exact hinv.2.2.2.2.1 i j ((lutDone_last counts i j).2 ⟨hi, hj⟩) _ hiv.1 hiv.2

theorem lut_cover (h : huffman) (counts : List Nat) (hv : ValidCounts counts)
    (hc : h.Canonical counts) (s : Stream) (hok : s.OK) (h8 : 8 ≤ s.bits.n)
    (hne : h.lut.getD ((s.bits.a >>> toU32 (s.bits.n - lutSize)) &&& 0xff) 0 ≠ 0) :
    ∃ i j, i ≤ 7 ∧ j < counts.getD i 0 ∧
      (unreadBits s).take (i + 1) = codeBits (firstCode counts i + j) (i + 1) := by
  obtain ⟨_, _, st, hst, hinv⟩ := hc
  have ht := top8 s hok h8
  have hx : (s.bits.a >>> toU32 (s.bits.n - lutSize)) &&& 0xff < 256 := by
    rw [and_ff]; exact Nat.mod_lt _ (by omega)
  rw [hst] at hne
  have hlt : (s.bits.a >>> toU32 (s.bits.n - lutSize)) &&& 0xff <
      (firstCode counts 7 + counts.getD 7 0) * 2 ^ (7 - 7) := by
    by_contra hcon
    exact hne (hinv.2.2.2.1 _ (by omega))
  obtain ⟨t, j1, hd, c1, c2⟩ := hinv.2.2.2.2.2 _ hlt
  obtain ⟨ht7, hj1⟩ := (lutDone_last counts t j1).1 hd
  refine ⟨t, j1, ht7, hj1, ?_⟩
  rw [← take_take_le _ (t + 1) 8 (by omega), ht]
  exact (prefix_iff _ _ t ht7 hx (code_lt counts hv t j1 (by omega) hj1)).2 ⟨c1, c2⟩

theorem lutEntry_val (counts vals : List Nat) (i j : Nat) (hi : i ≤ 7)
    (hval : vals.getD (cumCount counts i + j) 0 < 256) :
    lutEntry counts vals i j = vals.getD (cumCount counts i + j) 0 * 256 + (i + 2) := by
  rw [lutEntry, shl8_or_eq _ _ (by omega), Nat.mod_eq_of_lt (by omega)]
  omega

theorem lut_arith (V i : Nat) (hV : V < 256) (hi : i ≤ 7) :
    V * 256 + (i + 2) ≠ 0 ∧
      (((V * 256 + (i + 2)) &&& 0xff) + 65535) % 65536 = i + 1 ∧
      ((V * 256 + (i + 2)) >>> 8) % 256 = V := by
  rw [and_ff, Nat.shiftRight_eq_div_pow]
  refine ⟨by omega, by omega, ?_⟩
  norm_num
  omega

/-- The bit-by-bit walk from its start finds the `j`-th code of length
`i + 1`. -/
theorem slowPath_start (h : huffman) (counts : List Nat) (hv : ValidCounts counts)
    (hc : h.Canonical counts) (i j : Nat) (hi : i < 16) (hj : j < counts.getD i 0)
    (s : Stream) (hok : s.OK)
    (hbits : (unreadBits s).take (i + 1) = codeBits (firstCode counts i + j) (i + 1)) :
    ∃ s1, slowPath h maxCodeLength 0 0 s = .ok (h.vals.getD (cumCount counts i + j) 0, s1) ∧
      s1.OK ∧ unreadBits s1 = (unreadBits s).drop (i + 1) ∧
      (((i + 1 : Nat) : Int) ≤ s.bits.n →
        s1 = { s with bits := { a := s.bits.a, m := s.bits.m >>> (i + 1),
                                n := wrap32 (s.bits.n - ((i + 1 : Nat) : Int)) } }) := by
  have h0 := slowPath_hit h counts hv hc i j hi hj i 0 s maxCodeLength (by omega) hok
    (by rw [show maxCodeLength = 16 from rfl]; omega) hbits
  rw [Nat.div_eq_of_lt (code_lt counts hv i j hi hj)] at h0
  exact h0

/-- No canonical code is a prefix of a longer one. -/
theorem prefix_free (counts : List Nat) (hv : ValidCounts counts) (i j i1 j1 : Nat)
    (hi : i < 16) (hlt : i1 < i) (hj : j < counts.getD i 0) (hj1 : j1 < counts.getD i1 0)
    (l : List Bool) (h1 : l.take (i + 1) = codeBits (firstCode counts i + j) (i + 1))
    (h2 : l.take (i1 + 1) = codeBits (firstCode counts i1 + j1) (i1 + 1)) : False := by
  rw [← take_take_le _ (i1 + 1) (i + 1) (by omega), h1] at h2
  have e : i + 1 = i1 + 1 + (i - i1) := by omega
  conv_lhs at h2 => rw [e, codeBits_take, Nat.shiftRight_eq_div_pow]
  have h3 := codeBits_inj _ _ _ h2
  have hc := code_lt counts hv i j hi hj
  have hc1 := code_lt counts hv i1 j1 (by omega) hj1
  have hlt2 : (firstCode counts i + j) / 2 ^ (i - i1) < 2 ^ (i1 + 1) := by
    rw [Nat.div_lt_iff_lt_mul (Nat.two_pow_pos _), ← pow_add, ← e]
    exact hc
  rw [Nat.mod_eq_of_lt hlt2, Nat.mod_eq_of_lt hc1] at h3
  have hfs := firstCode_shift counts i1 (i - i1 - 1)
  rw [show i1 + 1 + (i - i1 - 1) = i by omega, show i - i1 - 1 + 1 = i - i1 by omega] at hfs
  have hge : firstCode counts i1 + counts.getD i1 0 ≤
      (firstCode counts i + j) / 2 ^ (i - i1) := by
    rw [Nat.le_div_iff_mul_le (Nat.two_pow_pos _), Nat.mul_comm]
    omega
  omega

theorem cum_lt_sum (counts : List Nat) (hv : ValidCounts counts) (i j : Nat) (hi : i < 16)
    (hj : j < counts.getD i 0) : cumCount counts i + j < counts.sum := by
  have hcum := cumCount_le_sum counts hv.1 (i + 1) (by omega)
  rw [cumCount] at hcum
  omega

/-- The look-up finds every code of at most 8 bits. -/
theorem lutPath_short (h : huffman) (counts : List Nat) (hv : ValidCounts counts)
    (hc : h.Canonical counts) (hvals : ∀ k, k < counts.sum → h.vals.getD k 0 < 256)
    (s : Stream) (hok : s.OK) (h8 : 8 ≤ s.bits.n) (i j : Nat)
    (hi : i ≤ 7) (hj : j < counts.getD i 0)
    (hbits : (unreadBits s).take (i + 1) = codeBits (firstCode counts i + j) (i + 1)) :
    lutPath h s = .ok (h.vals.getD (cumCount counts i + j) 0,
      { s with bits := { a := s.bits.a, m := s.bits.m >>> (i + 1),
                         n := wrap32 (s.bits.n - ((i + 1 : Nat) : Int)) } }) := by
  have hV := hvals _ (cum_lt_sum counts hv i j (by omega) hj)
  have hl := lut_hit h counts hv hc s hok h8 i j hi hj hbits
  rw [lutEntry_val counts h.vals i j hi hV] at hl
  obtain ⟨a1, a2, a3⟩ := lut_arith _ i hV hi
  unfold lutPath
  simp only [hl]
  rw [if_pos a1, a2, a3]

/-- The look-up misses on every code of more than 8 bits. -/
theorem lutPath_long (h : huffman) (counts : List Nat) (hv : ValidCounts counts)
    (hc : h.Canonical counts) (s : Stream) (hok : s.OK) (h8 : 8 ≤ s.bits.n) (i j : Nat)
    (hi8 : 8 ≤ i) (hi : i < 16) (hj : j < counts.getD i 0)
    (hbits : (unreadBits s).take (i + 1) = codeBits (firstCode counts i + j) (i + 1)) :
    lutPath h s = slowPath h maxCodeLength 0 0 s := by
  unfold lutPath
  by_cases hne : h.lut.getD ((s.bits.a >>> toU32 (s.bits.n - lutSize)) &&& 0xff) 0 ≠ 0
  · obtain ⟨i1, j1, hi1, hj1, hb1⟩ := lut_cover h counts hv hc s hok h8 hne
    exact (prefix_free counts hv i j i1 j1 hi (by omega) hj hj1 _ hbits hb1).elim
  · simp only [hne, ↓reduceIte]

end Jpeg

namespace Jpeg

/-! ## `decodeHuffman` on canonical codes -/

theorem lutPath_code (h : huffman) (counts : List Nat) (hv : ValidCounts counts)
    (hc : h.Canonical counts) (hvals : ∀ k, k < counts.sum → h.vals.getD k 0 < 256)
    (s : Stream) (hok : s.OK) (h8 : 8 ≤ s.bits.n) (i j : Nat)
    (hi : i < 16) (hj : j < counts.getD i 0)
    (hbits : (unreadBits s).take (i + 1) = codeBits (firstCode counts i + j) (i + 1)) :
    ∃ s1, lutPath h s = .ok (h.vals.getD (cumCount counts i + j) 0, s1) ∧ s1.OK ∧
      unreadBits s1 = (unreadBits s).drop (i + 1) := by
  obtain ⟨s1, e1, e2, e3, e4⟩ := slowPath_start h counts hv hc i j hi hj s hok hbits
  rcases Nat.lt_or_ge i 8 with h7 | h7
  · refine ⟨s1, ?_, e2, e3⟩
    rw [lutPath_short h counts hv hc hvals s hok h8 i j (by omega) hj hbits,
      e4 (by push_cast; omega)]
  · refine ⟨s1, ?_, e2, e3⟩
    rw [lutPath_long h counts hv hc s hok h8 i j h7 hi hj hbits, e1]

theorem unreadBits_congr (s1 s2 : Stream) (hb : s1.bits = s2.bits)
    (hp : s1.bytes.pending = s2.bytes.pending) : unreadBits s1 = unreadBits s2 := by
  rw [unreadBits, unreadBits, hb, hp]

/-- Method `decodeHuffman` decodes the `j`-th code of length `i + 1`. -/
theorem decodeHuffman_code (h : huffman) (counts : List Nat) (hv : ValidCounts counts)
    (hc : h.Canonical counts) (hvals : ∀ k, k < counts.sum → h.vals.getD k 0 < 256)
    (s : Stream) (hok : s.OK) (i j : Nat) (hi : i < 16) (hj : j < counts.getD i 0)
    (hbits : (unreadBits s).take (i + 1) = codeBits (firstCode counts i + j) (i + 1)) :
    ∃ s1, decodeHuffman s h = .ok (h.vals.getD (cumCount counts i + j) 0, s1) ∧ s1.OK ∧
      unreadBits s1 = (unreadBits s).drop (i + 1) := by
  unfold decodeHuffman
  rw [if_neg hc.1]
  by_cases hn8 : s.bits.n < 8
  · rw [if_pos hn8]
    have hn0 := hok.2.1.1
    rcases hh : stuffedHead s.bytes.pending with _ | ⟨c0, rest⟩
    · obtain ⟨s1, e, hens, he, hb, hwf, hr⟩ := ensureNBits_fail s 8 hok hh
      obtain ⟨u1, u2, u3⟩ := unread_after_fail s1 _ hwf (by rw [hb]; exact hn8) hr
      simp only [hens]
      rw [if_neg (by rcases he with rfl | rfl <;> simp)]
      generalize (if s1.bytes.nUnreadable ≠ 0 then unreadByteStuffedByte s1 else s1) = s2
        at u1 u2 u3 ⊢
      have hok2 : s2.OK := ⟨u2, by rw [u1, hb]; exact hok.2.1, by rw [u3]; exact hok.2.2⟩
      have hun : unreadBits s2 = unreadBits s := unreadBits_congr _ _ (by rw [u1, hb]) u3
      obtain ⟨s3, e1, e2, e3, _⟩ :=
        slowPath_start h counts hv hc i j hi hj s2 hok2 (by rw [hun]; exact hbits)
      exact ⟨s3, e1, e2, by rw [e3, hun]⟩
    · obtain ⟨s1, hens, hok1, hn1, hun, _⟩ :=
        ensureNBits_ok s 8 c0 rest hok (by omega) (by omega) hh
      simp only [hens]
      obtain ⟨s3, e1, e2, e3⟩ := lutPath_code h counts hv hc hvals s1 hok1 (by omega) i j hi hj
        (by rw [hun]; exact hbits)
      exact ⟨s3, e1, e2, by rw [e3, hun]⟩
  · rw [if_neg hn8]
    exact lutPath_code h counts hv hc hvals s hok (by omega) i j hi hj hbits

theorem buildHuffman_bytes (h0 : huffman) (counts syms : List Nat)
    (hlen : syms.length = counts.sum) (hsym : ∀ x ∈ syms, x < 256) (k : Nat)
    (hk : k < counts.sum) :
    (buildHuffman h0 counts syms).vals.getD k 0 = syms.getD k 0 ∧ syms.getD k 0 < 256 := by
  rw [buildHuffman_vals, List.getD_eq_getElem?_getD, List.getD_eq_getElem?_getD,
    List.getElem?_append_left (by omega)]
  refine ⟨rfl, ?_⟩
  rw [← List.getD_eq_getElem?_getD]
  exact getD_lt_of_forall_mem syms hsym k

theorem canonical_index (counts : List Nat) (hv : ValidCounts counts) (k : Nat)
    (hk : k < counts.sum) :
    ∃ i j, i < 16 ∧ j < counts.getD i 0 ∧ k = cumCount counts i + j ∧
      (canonicalCodes counts).getD k (0, 0) = (firstCode counts i + j, i + 1) := by
  have h16 : cumCount counts 16 = counts.sum := by
    rw [cumCount_eq_sum_take counts 16, List.take_of_length_le (by rw [hv.1])]
  obtain ⟨i, j, hi, hj, e⟩ := cumCount_decompose counts 16 k (by rw [h16]; exact hk)
  exact ⟨i, j, hi, hj, e, by rw [e]; exact canonical_getD counts i j (by rw [hv.1]; exact hi) hj⟩

end Jpeg

namespace Jpeg

/-! ## Claims on Huffman decoding -/

/-- C2: for a table that `processDHT` builds from valid canonical data (16
counts whose sum lies between 1 and 256 and that satisfy the Kraft bound, with
as many symbol bytes as the sum), `decodeHuffman` on a reader whose unread
entropy bits start with the canonical code of the `k`-th symbol returns that
symbol and consumes exactly the bits of the code, whatever follows the code:
more entropy data, a marker, or the end of the input. -/
theorem C2_decodeHuffman_canonical (h0 : huffman) (counts syms : List Nat) (s : Stream)
    (k : Nat)
    (h16 : h0.minCodes.length = 16 ∧ h0.maxCodes.length = 16 ∧ h0.valsIndices.length = 16)
    (hv : ValidCounts counts) (hlen : syms.length = counts.sum)
    (hsym : ∀ x ∈ syms, x < 256) (hk : k < syms.length) (hok : s.OK)
    (hbits : (unreadBits s).take ((canonicalCodes counts).getD k (0, 0)).2 =
      codeBits ((canonicalCodes counts).getD k (0, 0)).1
        ((canonicalCodes counts).getD k (0, 0)).2) :
    ∃ s1, decodeHuffman s (buildHuffman h0 counts syms) = .ok (syms.getD k 0, s1) ∧ s1.OK ∧
      unreadBits s1 = (unreadBits s).drop ((canonicalCodes counts).getD k (0, 0)).2 := by
  obtain ⟨i, j, hi, hj, e, hcode⟩ := canonical_index counts hv k (by omega)
  rw [hcode] at hbits ⊢
  have hc := buildHuffman_canonical h0 counts syms hv h16
  have hvals : ∀ k, k < counts.sum → (buildHuffman h0 counts syms).vals.getD k 0 < 256 := by
    intro k1 hk1
    have := buildHuffman_bytes h0 counts syms hlen hsym k1 hk1
    rw [this.1]; exact this.2
  obtain ⟨s1, e1, e2, e3⟩ :=
    decodeHuffman_code _ counts hv hc hvals s hok i j hi hj hbits
  refine ⟨s1, ?_, e2, e3⟩
  rw [e1, ← e, (buildHuffman_bytes h0 counts syms hlen hsym k (by omega)).1]

set_option maxRecDepth 1000000 in
/-- The table that `processDHT` builds from the segment `dcSegment` is
`buildHuffman huffman.zero dcCounts dcSyms`, and `decodeHuffman` reads the last
symbol, 11, from the 9-bit code at the start of `longCodeStream`. -/
theorem C2_decodeHuffman_canonical_witness :
    (processDHT (decoder.init dcSegment) 29).toOption.map
        (fun d => (d.huff.getD 0 []).getD 0 huffman.zero) =
      some (buildHuffman huffman.zero dcCounts dcSyms) ∧
    (canonicalCodes dcCounts).getD 11 (0, 0) = (0x1fe, 9) ∧
    ∃ s1, decodeHuffman longCodeStream (buildHuffman huffman.zero dcCounts dcSyms) =
        .ok (dcSyms.getD 11 0, s1) ∧ s1.OK ∧
      unreadBits s1 = (unreadBits longCodeStream).drop ((canonicalCodes dcCounts).getD 11 (0, 0)).2 :=
  ⟨by decide!, by decide!,
    C2_decodeHuffman_canonical huffman.zero dcCounts dcSyms longCodeStream 11
      ⟨by decide, by decide, by decide⟩ ⟨by decide, by decide, by decide, by decide⟩
      (by decide) (by decide) (by decide)
      ⟨⟨by decide!, by decide, by decide⟩, ⟨by decide, by decide, by decide, by decide⟩,
        by decide!⟩
      (by decide!)⟩

/-- C3: for a table that `processDHT` builds from valid canonical data and a
reader with at least 8 unread bits in `d.bits`, let `v` be the look-up table
entry for the next 8 bits. If `v` is not zero (a hit), the bit-by-bit walk at
label `slowPath` from the same state returns what the look-up returns, the
symbol `uint8(v >> 8)` and the state with `(v & 0xff) - 1` bits consumed, and
so does `decodeHuffman`; if `v` is zero (a miss), no canonical code of at most
8 bits is a prefix of the unread bits. -/
theorem C3_lut_agrees_with_slowPath (h0 : huffman) (counts syms : List Nat) (s : Stream)
    (v : Nat)
    (h16 : h0.minCodes.length = 16 ∧ h0.maxCodes.length = 16 ∧ h0.valsIndices.length = 16)
    (hv : ValidCounts counts) (hlen : syms.length = counts.sum)
    (hsym : ∀ x ∈ syms, x < 256) (hok : s.OK) (h8 : 8 ≤ s.bits.n)
    (hlut : (buildHuffman h0 counts syms).lut.getD
      ((s.bits.a >>> toU32 (s.bits.n - lutSize)) &&& 0xff) 0 = v) :
    (v ≠ 0 →
      slowPath (buildHuffman h0 counts syms) maxCodeLength 0 0 s =
        .ok ((v >>> 8) % 256,
          { s with bits := { a := s.bits.a, m := s.bits.m >>> (((v &&& 0xff) + 65535) % 65536),
                             n := wrap32 (s.bits.n -
                               ((((v &&& 0xff) + 65535) % 65536 : Nat) : Int)) } }) ∧
      lutPath (buildHuffman h0 counts syms) s =
        slowPath (buildHuffman h0 counts syms) maxCodeLength 0 0 s ∧
      decodeHuffman s (buildHuffman h0 counts syms) =
        slowPath (buildHuffman h0 counts syms) maxCodeLength 0 0 s) ∧
    (v = 0 → ∀ k c L, k < syms.length → (canonicalCodes counts).getD k (0, 0) = (c, L) →
      L ≤ 8 → (unreadBits s).take L ≠ codeBits c L) := by
  have hc := buildHuffman_canonical h0 counts syms hv h16
  have hvals : ∀ k, k < counts.sum → (buildHuffman h0 counts syms).vals.getD k 0 < 256 := by
    intro k1 hk1
    have := buildHuffman_bytes h0 counts syms hlen hsym k1 hk1
    rw [this.1]; exact this.2
  have hdec : decodeHuffman s (buildHuffman h0 counts syms) =
      lutPath (buildHuffman h0 counts syms) s := by
    unfold decodeHuffman
    rw [if_neg hc.1, if_neg (by omega)]
  constructor
  · intro hne
    rw [← hlut] at hne
    obtain ⟨i, j, hi, hj, hbits⟩ := lut_cover _ counts hv hc s hok h8 hne
    have hV := hvals _ (cum_lt_sum counts hv i j (by omega) hj)
    have hl := lut_hit _ counts hv hc s hok h8 i j hi hj hbits
    rw [hlut, lutEntry_val counts _ i j hi hV] at hl
    obtain ⟨a1, a2, a3⟩ := lut_arith _ i hV hi
    obtain ⟨s1, e1, -, -, e4⟩ :=
      slowPath_start _ counts hv hc i j (by omega) hj s hok hbits
    have hshort := lutPath_short _ counts hv hc hvals s hok h8 i j hi hj hbits
    rw [← e4 (by push_cast; omega)] at hshort
    rw [hdec, hshort, e1, hl, a2, a3, e4 (by push_cast; omega)]
    exact ⟨rfl, rfl, rfl⟩
  · intro h0v k c L hk hcode hL hbits
    obtain ⟨i, j, hi, hj, _, hcode2⟩ := canonical_index counts hv k (by omega)
    rw [hcode2, Prod.mk.injEq] at hcode
    obtain ⟨rfl, rfl⟩ := hcode
    have hV := hvals _ (cum_lt_sum counts hv i j (by omega) hj)
    have hl := lut_hit _ counts hv hc s hok h8 i j (by omega) hj hbits
    rw [hlut, lutEntry_val counts _ i j (by omega) hV] at hl
    omega

set_option maxRecDepth 1000000 in
/-- On `lutStream` the look-up hits with the entry `0x0304` and the walk
returns the symbol 3 after 3 bits as well; on `missStream` the look-up misses
and the 3-bit code of the symbol 3 is no prefix of the unread bits. -/
theorem C3_lut_agrees_with_slowPath_witness :
    (slowPath (buildHuffman huffman.zero dcCounts dcSyms) maxCodeLength 0 0 lutStream =
        .ok ((0x0304 >>> 8) % 256,
          { lutStream with
            bits := { a := lutStream.bits.a,
                      m := lutStream.bits.m >>> (((0x0304 &&& 0xff) + 65535) % 65536),
                      n := wrap32 (lutStream.bits.n -
                        ((((0x0304 &&& 0xff) + 65535) % 65536 : Nat) : Int)) } }) ∧
      lutPath (buildHuffman huffman.zero dcCounts dcSyms) lutStream =
        slowPath (buildHuffman huffman.zero dcCounts dcSyms) maxCodeLength 0 0 lutStream ∧
      decodeHuffman lutStream (buildHuffman huffman.zero dcCounts dcSyms) =
        slowPath (buildHuffman huffman.zero dcCounts dcSyms) maxCodeLength 0 0 lutStream) ∧
    (unreadBits missStream).take 3 ≠ codeBits 4 3 :=
  ⟨(C3_lut_agrees_with_slowPath huffman.zero dcCounts dcSyms lutStream 0x0304
      ⟨by decide, by decide, by decide⟩ ⟨by decide, by decide, by decide, by decide⟩
      (by decide) (by decide)
      ⟨⟨by decide!, by decide, by decide⟩, ⟨by decide, by decide, by decide, by decide⟩,
        by decide!⟩
      (by decide) (by decide!)).1 (by decide),
    (C3_lut_agrees_with_slowPath huffman.zero dcCounts dcSyms missStream 0
      ⟨by decide, by decide, by decide⟩ ⟨by decide, by decide, by decide, by decide⟩
      (by decide) (by decide)
      ⟨⟨by decide!, by decide, by decide⟩, ⟨by decide, by decide, by decide, by decide⟩,
        by decide!⟩
      (by decide) (by decide!)).2 rfl 3 4 3 (by decide) (by decide!) (by decide)⟩

end Jpeg

namespace Jpeg

/-! ## `readFull`, `ignore` and `readByte` on the bytes that are left -/

theorem buffered_length (b : bytes) (hwf : b.WF) :
    ((b.buf.take b.j).drop b.i).length = b.j - b.i := by
  obtain ⟨h1, h2, h3⟩ := hwf
  simp only [List.length_drop, List.length_take]
  omega

theorem pending_length (b : bytes) (hwf : b.WF) :
    b.pending.length = b.j - b.i + b.r.length := by
  rw [bytes.pending, List.length_append, buffered_length b hwf]

theorem pending_take (b : bytes) (hwf : b.WF) (n : Nat) (hn : n ≤ b.j - b.i) :
    (b.buf.drop b.i).take n = b.pending.take n := by
  rw [bytes.pending, List.take_append_of_le_length (by rw [buffered_length b hwf]; exact hn),
    List.drop_take, List.take_take, Nat.min_eq_left hn]

theorem pending_advance (b : bytes) (hwf : b.WF) (n : Nat) (hn : n ≤ b.j - b.i) :
    ({ b with i := b.i + n } : bytes).WF ∧
      ({ b with i := b.i + n } : bytes).pending = b.pending.drop n := by
  obtain ⟨h1, h2, h3⟩ := hwf
  refine ⟨⟨h1, by show b.i + n ≤ b.j; omega, h3⟩, ?_⟩
  show (b.buf.take b.j).drop (b.i + n) ++ b.r = ((b.buf.take b.j).drop b.i ++ b.r).drop n
  rw [List.drop_append_of_le_length (by rw [buffered_length b ⟨h1, h2, h3⟩]; exact hn),
    List.drop_drop]

theorem fill_pending (b : bytes) (hwf : b.WF) (hij : b.i = b.j) :
    (fill b).1.WF ∧ (fill b).1.nUnreadable = b.nUnreadable ∧
      (fill b).1.pending = b.pending ∧
      (b.pending ≠ [] → (fill b).2 = none ∧ (fill b).1.i < (fill b).1.j) ∧
      (b.pending = [] → (fill b).2 = some .eof) := by
  obtain ⟨f1, f2, f3, f4, f5⟩ := fill_spec b hwf hij
  have hp : b.pending = b.r := by
    have := buffered_length b hwf
    rw [hij, Nat.sub_self, List.length_eq_zero] at this
    rw [bytes.pending, hij, this, List.nil_append]
  refine ⟨f1, f2, ?_, ?_, ?_⟩
  · exact (ReadsAs_zero _ _).1 (f3 0 _ (by omega) ((ReadsAs_zero _ _).2 rfl))
  · intro h; exact f4 (by rw [← hp]; exact h)
  · intro h; exact f5 (by rw [← hp]; exact h)

/-- The copy loop of `readFull` delivers the next `k` bytes, or fails with
`io.ErrUnexpectedEOF` when fewer are left. -/
theorem readFullLoop_spec (fuel : Nat) :
    ∀ (b : bytes) (k : Nat) (acc : List Nat), b.WF →
      (k ≤ fuel ∨ (b.i < b.j ∧ k ≤ fuel + 1)) →
      (k ≤ b.pending.length →
        ∃ b1, readFullLoop fuel b k acc = .ok (acc ++ b.pending.take k, b1) ∧ b1.WF ∧
          b1.pending = b.pending.drop k ∧ b1.nUnreadable = b.nUnreadable) ∧
      (b.pending.length < k → readFullLoop fuel b k acc = .error .unexpectedEOF) := by
  induction fuel with
  | zero =>
    intro b k acc hwf hf
    have hlen := pending_length b hwf
    have hk : k - min k (b.j - b.i) = 0 := by omega
    obtain ⟨w1, w2⟩ := pending_advance b hwf (min k (b.j - b.i)) (Nat.min_le_right _ _)
    have hmin : min k (b.j - b.i) = k := by omega
    constructor
    · intro _
      refine ⟨{ b with i := b.i + k }, ?_, ?_, ?_, rfl⟩
      · rw [readFullLoop]
        simp only [↓reduceIte, hmin, Nat.sub_self, pending_take b hwf k (by omega)]
      · rw [hmin] at w1; exact w1
      · rw [hmin] at w2; exact w2
    · intro hlt
      omega
  | succ fuel ih =>
    intro b k acc hwf hf
    have hlen := pending_length b hwf
    obtain ⟨w1, w2⟩ := pending_advance b hwf (min k (b.j - b.i)) (Nat.min_le_right _ _)
    have ht := pending_take b hwf (min k (b.j - b.i)) (Nat.min_le_right _ _)
    by_cases hk : k - min k (b.j - b.i) = 0
    · have hmin : min k (b.j - b.i) = k := by omega
      constructor
      · intro _
        refine ⟨{ b with i := b.i + k }, ?_, ?_, ?_, rfl⟩
        · rw [readFullLoop]
          simp only [↓reduceIte, hmin, Nat.sub_self, pending_take b hwf k (by omega)]
        · rw [hmin] at w1; exact w1
        · rw [hmin] at w2; exact w2
      · intro hlt
        omega
    · have hmin : min k (b.j - b.i) = b.j - b.i := by omega
      rw [hmin] at w1 w2 ht
      have hij : ({ b with i := b.i + (b.j - b.i) } : bytes).i =
          ({ b with i := b.i + (b.j - b.i) } : bytes).j := by
        show b.i + (b.j - b.i) = b.j
        have := hwf.2.1
        omega
      obtain ⟨g1, g2, g3, g4, g5⟩ := fill_pending _ w1 hij
      have hplen : (b.pending.drop (b.j - b.i)).length = b.r.length := by
        rw [List.length_drop, hlen]; omega
      have hk2 : ¬ k - (b.j - b.i) = 0 := by rw [← hmin]; exact hk
      have hsum : b.j - b.i + (k - (b.j - b.i)) = k := by omega
      rw [readFullLoop]
      simp only [hk2, ↓reduceIte, hmin, ht]
      by_cases hr : b.pending.drop (b.j - b.i) = []
      · have hr0 : b.r.length = 0 := by rw [← hplen, hr]; rfl
        have g6 := g5 (by rw [w2]; exact hr)
        constructor
        · intro hle
          omega
        · intro _
          rcases hfill : fill { b with i := b.i + (b.j - b.i) } with ⟨b2, e⟩
          rw [hfill] at g6
          simp only at g6
          subst g6
          rfl
      · obtain ⟨g6, g7⟩ := g4 (by rw [w2]; exact hr)
        rcases hfill : fill { b with i := b.i + (b.j - b.i) } with ⟨b2, e⟩
        rw [hfill] at g1 g2 g3 g6 g7
        simp only at g1 g2 g3 g6 g7
        subst g6
        simp only []
        have hrec := ih b2 (k - (b.j - b.i)) (acc ++ b.pending.take (b.j - b.i)) g1
          (Or.inr ⟨g7, by omega⟩)
        rw [g3, w2] at hrec
        have hsplit : b.pending.take (b.j - b.i) ++
            (b.pending.drop (b.j - b.i)).take (k - (b.j - b.i)) = b.pending.take k := by
          rw [← List.take_add, hsum]
        have hdrop : (b.pending.drop (b.j - b.i)).drop (k - (b.j - b.i)) = b.pending.drop k := by
          rw [List.drop_drop, hsum]
        constructor
        · intro hle
          obtain ⟨b3, r1, r2, r3, r4⟩ := hrec.1 (by rw [List.length_drop]; omega)
          refine ⟨b3, ?_, r2, ?_, ?_⟩
          · rw [r1, List.append_assoc, hsplit]
          · rw [r3, hdrop]
          · rw [r4, g2]
        · intro hlt
          exact hrec.2 (by rw [List.length_drop]; omega)

end Jpeg

namespace Jpeg

/-- Method `readFull` when there are no overshot bytes to unread. -/
theorem readFull_spec (s : Stream) (k : Nat) (hwf : s.bytes.WF)
    (hnu : s.bytes.nUnreadable = 0) :
    (k ≤ s.bytes.pending.length →
      ∃ s1, readFull s k = .ok (s.bytes.pending.take k, s1) ∧ s1.bytes.WF ∧
        s1.bytes.nUnreadable = 0 ∧ s1.bytes.pending = s.bytes.pending.drop k ∧
        s1.bits = s.bits) ∧
    (s.bytes.pending.length < k → readFull s k = .error .unexpectedEOF) := by
  have hu : unreadOvershot s = s := by
    unfold unreadOvershot
    rw [if_neg (by rw [hnu]; exact fun h => h rfl)]
  obtain ⟨h1, h2⟩ := readFullLoop_spec k s.bytes k [] hwf (Or.inl (Nat.le_refl _))
  unfold readFull
  simp only [hu]
  constructor
  · intro hk
    obtain ⟨b1, e1, e2, e3, e4⟩ := h1 hk
    rw [e1]
    exact ⟨_, rfl, e2, by rw [← hnu]; exact e4, e3, rfl⟩
  · intro hk
    rw [h2 hk]

/-- The skip loop of `ignore` skips the next `n` bytes, or fails with
`io.ErrUnexpectedEOF` when fewer are left. -/
theorem ignoreLoop_spec (fuel : Nat) :
    ∀ (b : bytes) (n : Nat), b.WF →
      (n ≤ fuel ∨ (b.i < b.j ∧ n ≤ fuel + 1)) →
      (n ≤ b.pending.length →
        ∃ b1, ignoreLoop fuel b n = .ok b1 ∧ b1.WF ∧
          b1.pending = b.pending.drop n ∧ b1.nUnreadable = b.nUnreadable) ∧
      (b.pending.length < n → ignoreLoop fuel b n = .error .unexpectedEOF) := by
  induction fuel with
  | zero =>
    intro b n hwf hf
    have hlen := pending_length b hwf
    obtain ⟨w1, w2⟩ := pending_advance b hwf (min (b.j - b.i) n) (Nat.min_le_left _ _)
    have hmin : min (b.j - b.i) n = n := by omega
    constructor
    · intro _
      refine ⟨{ b with i := b.i + n }, ?_, ?_, ?_, rfl⟩
      · rw [ignoreLoop]
        simp only [↓reduceIte, hmin, Nat.sub_self]
      · rw [hmin] at w1; exact w1
      · rw [hmin] at w2; exact w2
    · intro hlt
      omega
  | succ fuel ih =>
    intro b n hwf hf
    have hlen := pending_length b hwf
    obtain ⟨w1, w2⟩ := pending_advance b hwf (min (b.j - b.i) n) (Nat.min_le_left _ _)
    by_cases hk : n - min (b.j - b.i) n = 0
    · have hmin : min (b.j - b.i) n = n := by omega
      constructor
      · intro _
        refine ⟨{ b with i := b.i + n }, ?_, ?_, ?_, rfl⟩
        · rw [ignoreLoop]
          simp only [↓reduceIte, hmin, Nat.sub_self]
        · rw [hmin] at w1; exact w1
        · rw [hmin] at w2; exact w2
      · intro hlt
        omega
    · have hmin : min (b.j - b.i) n = b.j - b.i := by omega
      rw [hmin] at w1 w2
      have hij : ({ b with i := b.i + (b.j - b.i) } : bytes).i =
          ({ b with i := b.i + (b.j - b.i) } : bytes).j := by
        show b.i + (b.j - b.i) = b.j
        have := hwf.2.1
        omega
      obtain ⟨g1, g2, g3, g4, g5⟩ := fill_pending _ w1 hij
      have hplen : (b.pending.drop (b.j - b.i)).length = b.r.length := by
        rw [List.length_drop, hlen]; omega
      have hk2 : ¬ n - (b.j - b.i) = 0 := by rw [← hmin]; exact hk
      have hsum : b.j - b.i + (n - (b.j - b.i)) = n := by omega
      rw [ignoreLoop]
      simp only [hk2, ↓reduceIte, hmin]
      by_cases hr : b.pending.drop (b.j - b.i) = []
      · have hr0 : b.r.length = 0 := by rw [← hplen, hr]; rfl
        have g6 := g5 (by rw [w2]; exact hr)
        constructor
        · intro hle
          omega
        · intro _
          rcases hfill : fill { b with i := b.i + (b.j - b.i) } with ⟨b2, e⟩
          rw [hfill] at g6
          simp only at g6
          subst g6
          rfl
      · obtain ⟨g6, g7⟩ := g4 (by rw [w2]; exact hr)
        rcases hfill : fill { b with i := b.i + (b.j - b.i) } with ⟨b2, e⟩
        rw [hfill] at g1 g2 g3 g6 g7
        simp only at g1 g2 g3 g6 g7
        subst g6
        simp only []
        have hrec := ih b2 (n - (b.j - b.i)) g1 (Or.inr ⟨g7, by omega⟩)
        rw [g3, w2] at hrec
        have hdrop : (b.pending.drop (b.j - b.i)).drop (n - (b.j - b.i)) = b.pending.drop n := by
          rw [List.drop_drop, hsum]
        constructor
        · intro hle
          obtain ⟨b3, r1, r2, r3, r4⟩ := hrec.1 (by rw [List.length_drop]; omega)
          refine ⟨b3, r1, r2, ?_, ?_⟩
          · rw [r3, hdrop]
          · rw [r4, g2]
        · intro hlt
          exact hrec.2 (by rw [List.length_drop]; omega)

/-- Method `ignore` when there are no overshot bytes to unread. -/
theorem ignore_spec (s : Stream) (n : Nat) (hwf : s.bytes.WF)
    (hnu : s.bytes.nUnreadable = 0) :
    (n ≤ s.bytes.pending.length →
      ∃ s1, ignore s n = .ok s1 ∧ s1.bytes.WF ∧
        s1.bytes.nUnreadable = 0 ∧ s1.bytes.pending = s.bytes.pending.drop n ∧
        s1.bits = s.bits) ∧
    (s.bytes.pending.length < n → ignore s n = .error .unexpectedEOF) := by
  have hu : unreadOvershot s = s := by
    unfold unreadOvershot
    rw [if_neg (by rw [hnu]; exact fun h => h rfl)]
  obtain ⟨h1, h2⟩ := ignoreLoop_spec n s.bytes n hwf (Or.inl (Nat.le_refl _))
  unfold ignore
  simp only [hu]
  constructor
  · intro hk
    obtain ⟨b1, e1, e2, e3, e4⟩ := h1 hk
    rw [e1]
    exact ⟨_, rfl, e2, by rw [← hnu]; exact e4, e3, rfl⟩
  · intro hk
    rw [h2 hk]

/-- Method `readByte` delivers the next byte, or fails with `io.EOF`. -/
theorem readByte_pending (b : bytes) (hwf : b.WF) :
    (∀ x rest, b.pending = x :: rest →
      ∃ b1, readByte b = (b1, .ok x) ∧ b1.WF ∧ b1.nUnreadable = 0 ∧ b1.pending = rest) ∧
    (b.pending = [] → ∃ b1, readByte b = (b1, .error .eof)) := by
  constructor
  · intro x rest h
    obtain ⟨b1, e1, e2, _, e4, e5⟩ :=
      readByte_spec b hwf 0 [] rest x (Nat.zero_le _) rfl ((ReadsAs_zero _ _).2 h)
    exact ⟨b1, e1, e2, e5, (ReadsAs_zero _ _).1 e4⟩
  · intro h
    obtain ⟨b1, e1, _⟩ := readByte_eof b hwf h
    exact ⟨b1, e1⟩

end Jpeg

namespace Jpeg

/-! ## The segment loop on the bytes that are left -/

theorem remaining_eq (b : bytes) (hwf : b.WF) : b.remaining = b.pending.length := by
  rw [pending_length b hwf, bytes.remaining]

/-- The loop `for d.tmp[0] != 0xff` ends behind a byte `0xff` and the byte
that it returns. -/
theorem syncMarker_spec (fuel : Nat) :
    ∀ (b : bytes) (t0 t1 : Nat), b.WF → b.nUnreadable = 0 → b.pending.length ≤ fuel →
      syncMarker fuel b t0 t1 ≠ .error .outOfFuel ∧
      ∀ m b1, syncMarker fuel b t0 t1 = .ok (m, b1) →
        b1.WF ∧ b1.nUnreadable = 0 ∧
          ∃ mid pre, b.pending = mid ++ b1.pending ∧ [t0, t1] ++ mid = pre ++ [0xff, m] := by
  induction fuel with
  | zero =>
    intro b t0 t1 hwf hnu hlen
    have hnil : b.pending = [] := List.length_eq_zero.1 (by omega)
    obtain ⟨b1, hb1⟩ := (readByte_pending b hwf).2 hnil
    rw [syncMarker]
    by_cases h : t0 ≠ 0xff
    · rw [if_pos h]
      simp only [hb1]
      exact ⟨by simp, by intro m b1 hh; simp at hh⟩
    · rw [if_neg h]
      have h2 : t0 = 0xff := by omega
      refine ⟨by simp, ?_⟩
      intro m b1 hh
      simp only [Except.ok.injEq, Prod.mk.injEq] at hh
      obtain ⟨rfl, rfl⟩ := hh
      exact ⟨hwf, hnu, [], [], by simp, by simp [h2]⟩
  | succ fuel ih =>
    intro b t0 t1 hwf hnu hlen
    rw [syncMarker]
    by_cases h : t0 ≠ 0xff
    · rw [if_pos h]
      rcases hp : b.pending with _ | ⟨x, rest⟩
      · obtain ⟨b1, hb1⟩ := (readByte_pending b hwf).2 hp
        simp only [hb1]
        exact ⟨by simp, by intro m b1 hh; simp at hh⟩
      · obtain ⟨b1, hb1, w1, w2, w3⟩ := (readByte_pending b hwf).1 x rest hp
        simp only [hb1]
        have hl : b1.pending.length ≤ fuel := by
          rw [w3]; rw [hp] at hlen; simp only [List.length_cons] at hlen; omega
        obtain ⟨i1, i2⟩ := ih b1 t1 x w1 w2 hl
        refine ⟨i1, ?_⟩
        intro m b2 hh
        obtain ⟨j1, j2, mid, pre, j3, j4⟩ := i2 m b2 hh
        refine ⟨j1, j2, x :: mid, t0 :: pre, ?_, ?_⟩
        · rw [List.cons_append, ← j3, w3]
        · have : [t0, t1] ++ x :: mid = t0 :: ([t1, x] ++ mid) := rfl
          rw [this, j4]; rfl
    · rw [if_neg h]
      have h2 : t0 = 0xff := by omega
      refine ⟨by simp, ?_⟩
      intro m b1 hh
      simp only [Except.ok.injEq, Prod.mk.injEq] at hh
      obtain ⟨rfl, rfl⟩ := hh
      exact ⟨hwf, hnu, [], [], by simp, by simp [h2]⟩

/-- The loop `for marker == 0xff` ends behind a byte `0xff` and the marker
that it returns. -/
theorem skipFill_spec (fuel : Nat) :
    ∀ (b : bytes) (marker : Nat), b.WF → b.nUnreadable = 0 → b.pending.length ≤ fuel →
      skipFill fuel b marker ≠ .error .outOfFuel ∧
      ∀ m b1, skipFill fuel b marker = .ok (m, b1) →
        b1.WF ∧ b1.nUnreadable = 0 ∧
          ∃ mid pre, b.pending = mid ++ b1.pending ∧
            [0xff, marker] ++ mid = pre ++ [0xff, m] := by
  induction fuel with
  | zero =>
    intro b marker hwf hnu hlen
    have hnil : b.pending = [] := List.length_eq_zero.1 (by omega)
    obtain ⟨b1, hb1⟩ := (readByte_pending b hwf).2 hnil
    rw [skipFill]
    by_cases h : marker = 0xff
    · rw [if_pos h]
      simp only [hb1]
      exact ⟨by simp, by intro m b1 hh; simp at hh⟩
    · rw [if_neg h]
      refine ⟨by simp, ?_⟩
      intro m b1 hh
      simp only [Except.ok.injEq, Prod.mk.injEq] at hh
      obtain ⟨rfl, rfl⟩ := hh
      exact ⟨hwf, hnu, [], [], by simp, by simp⟩
  | succ fuel ih =>
    intro b marker hwf hnu hlen
    rw [skipFill]
    by_cases h : marker = 0xff
    · rw [if_pos h]
      rcases hp : b.pending with _ | ⟨x, rest⟩
      · obtain ⟨b1, hb1⟩ := (readByte_pending b hwf).2 hp
        simp only [hb1]
        exact ⟨by simp, by intro m b1 hh; simp at hh⟩
      · obtain ⟨b1, hb1, w1, w2, w3⟩ := (readByte_pending b hwf).1 x rest hp
        simp only [hb1]
        have hl : b1.pending.length ≤ fuel := by
          rw [w3]; rw [hp] at hlen; simp only [List.length_cons] at hlen; omega
        obtain ⟨i1, i2⟩ := ih b1 x w1 w2 hl
        refine ⟨i1, ?_⟩
        intro m b2 hh
        obtain ⟨j1, j2, mid, pre, j3, j4⟩ := i2 m b2 hh
        refine ⟨j1, j2, x :: mid, 0xff :: pre, ?_, ?_⟩
        · rw [List.cons_append, ← j3, w3]
        · have : [0xff, marker] ++ x :: mid = 0xff :: ([0xff, x] ++ mid) := by rw [h]; rfl
          rw [this, j4]; rfl
    · rw [if_neg h]
      refine ⟨by simp, ?_⟩
      intro m b1 hh
      simp only [Except.ok.injEq, Prod.mk.injEq] at hh
      obtain ⟨rfl, rfl⟩ := hh
      exact ⟨hwf, hnu, [], [], by simp, by simp⟩

theorem take_two (x y : Nat) (l : List Nat) : (x :: y :: l).take 2 = [x, y] := rfl

/-- The first part of a round of the segment loop: it never runs out of fuel,
it consumes at least two bytes, and a segment that it finds starts with `0xff`,
the marker and the two bytes of the length. -/
theorem segmentHeader_spec (d : decoder) (hwf : d.bytes.WF) (hnu : d.bytes.nUnreadable = 0) :
    segmentHeader d ≠ .error .outOfFuel ∧
    (∀ d1, (segmentHeader d = .ok (.skip d1) ∨ segmentHeader d = .ok (.eoi d1)) →
      d1 = { d with bytes := d1.bytes } ∧ d1.bytes.WF ∧ d1.bytes.nUnreadable = 0 ∧
        ∃ mid, d.bytes.pending = mid ++ d1.bytes.pending ∧ 2 ≤ mid.length) ∧
    (∀ d1 marker n, segmentHeader d = .ok (.seg d1 marker n) →
      d1 = { d with bytes := d1.bytes } ∧ d1.bytes.WF ∧ d1.bytes.nUnreadable = 0 ∧
        ∃ pre hi lo, d.bytes.pending = pre ++ [0xff, marker, hi, lo] ++ d1.bytes.pending ∧
          n + 2 = hi <<< 8 + lo) := by
  obtain ⟨rf1, rf2⟩ := readFull_spec d.stream 2 hwf hnu
  unfold segmentHeader
  rcases Nat.lt_or_ge d.bytes.pending.length 2 with hshort | hlong
  · have e := rf2 hshort
    simp only [e]
    exact ⟨by simp, by intro d1 h; simp at h, by intro d1 m n h; simp at h⟩
  · obtain ⟨s, e1, w1, w2, w3, w4⟩ := rf1 hlong
    obtain ⟨t0, t1, p1, hp⟩ : ∃ t0 t1 p1, d.bytes.pending = t0 :: t1 :: p1 := by
      rcases hq : d.bytes.pending with _ | ⟨t0, _ | ⟨t1, p1⟩⟩
      · rw [hq] at hlong; simp at hlong
      · rw [hq] at hlong; simp at hlong
      · exact ⟨t0, t1, p1, rfl⟩
    have hp' : (decoder.stream d).bytes.pending = t0 :: t1 :: p1 := hp
    rw [hp', take_two] at e1
    rw [hp'] at w3
    simp only [List.drop_succ_cons, List.drop_zero] at w3
    have w4' : s.bits = d.bits := w4
    simp only [e1, List.getD_cons_zero, List.getD_cons_succ]
    obtain ⟨sy1, sy2⟩ := syncMarker_spec s.bytes.remaining s.bytes t0 t1 w1 w2
      (by rw [remaining_eq _ w1])
    rcases hsy : syncMarker s.bytes.remaining s.bytes t0 t1 with e | ⟨m0, b1⟩
    · rw [hsy] at sy1
      have he : e ≠ .outOfFuel := fun h => sy1 (by rw [h])
      simp only []
      refine ⟨by simpa using he, by intro d1 h; simp at h, by intro d1 m n h; simp at h⟩
    · obtain ⟨x1, x2, mid, pre, x3, x4⟩ := sy2 m0 b1 hsy
      simp only []
      by_cases hm0 : m0 = 0
      · rw [if_pos hm0]
        refine ⟨by simp, ?_, by intro d1 m n h; simp at h⟩
        intro d1 h
        simp only [Except.ok.injEq, Header.skip.injEq, or_false, reduceCtorEq] at h
        subst h
        refine ⟨by simp only [w4'], x1, x2, t0 :: t1 :: mid, ?_, by simp⟩
        show d.bytes.pending = _
        rw [hp, ← w3, x3]
        rfl
      · rw [if_neg hm0]
        obtain ⟨sk1, sk2⟩ := skipFill_spec b1.remaining b1 m0 x1 x2 (by rw [remaining_eq _ x1])
        rcases hsk : skipFill b1.remaining b1 m0 with e | ⟨m, b2⟩
        · rw [hsk] at sk1
          have he : e ≠ .outOfFuel := fun h => sk1 (by rw [h])
          simp only []
          refine ⟨by simpa using he, by intro d1 h; simp at h, by intro d1 m n h; simp at h⟩
        · obtain ⟨y1, y2, mid2, pre2, y3, y4⟩ := sk2 m b2 hsk
          simp only []
          have hpend : d.bytes.pending = t0 :: t1 :: (mid ++ (mid2 ++ b2.pending)) := by
            rw [hp, ← y3, ← x3, w3]
          by_cases heoi : m = eoiMarker
          · rw [if_pos heoi]
            refine ⟨by simp, ?_, by intro d1 m n h; simp at h⟩
            intro d1 h
            simp only [Except.ok.injEq, Header.eoi.injEq, false_or, reduceCtorEq] at h
            subst h
            refine ⟨by simp only [w4'], y1, y2, t0 :: t1 :: (mid ++ mid2), ?_, by simp⟩
            show d.bytes.pending = _
            rw [hpend]; simp
          · rw [if_neg heoi]
            by_cases hrst : rst0Marker ≤ m ∧ m ≤ rst7Marker
            · rw [if_pos hrst]
              refine ⟨by simp, ?_, by intro d1 m n h; simp at h⟩
              intro d1 h
              simp only [Except.ok.injEq, Header.skip.injEq, or_false, reduceCtorEq] at h
              subst h
              refine ⟨by simp only [w4'], y1, y2, t0 :: t1 :: (mid ++ mid2), ?_, by simp⟩
              show d.bytes.pending = _
              rw [hpend]; simp
            · rw [if_neg hrst]
              obtain ⟨rg1, rg2⟩ := readFull_spec
                (decoder.stream { d with bytes := b2, bits := s.bits }) 2 y1 y2
              rcases Nat.lt_or_ge b2.pending.length 2 with hs2 | hl2
              · have e := rg2 hs2
                simp only [e]
                exact ⟨by simp, by intro d1 h; simp at h, by intro d1 m n h; simp at h⟩
              · obtain ⟨s3, f1, z1, z2, z3, z4⟩ := rg1 hl2
                obtain ⟨hi, lo, p3, hp3⟩ : ∃ hi lo p3, b2.pending = hi :: lo :: p3 := by
                  rcases hq : b2.pending with _ | ⟨t0, _ | ⟨t1, p1⟩⟩
                  · rw [hq] at hl2; simp at hl2
                  · rw [hq] at hl2; simp at hl2
                  · exact ⟨t0, t1, p1, rfl⟩
                have hp3' : (decoder.stream { d with bytes := b2, bits := s.bits }).bytes.pending =
                    hi :: lo :: p3 := hp3
                rw [hp3', take_two] at f1
                rw [hp3'] at z3
                simp only [List.drop_succ_cons, List.drop_zero] at z3
                have z4' : s3.bits = s.bits := z4
                simp only [f1, List.getD_cons_zero, List.getD_cons_succ]
                by_cases hneg : (((hi <<< 8 + lo : Nat) : Int) - 2) < 0
                · rw [if_pos hneg]
                  exact ⟨by simp, by intro d1 h; simp at h, by intro d1 m n h; simp at h⟩
                · rw [if_neg hneg]
                  refine ⟨by simp, by intro d1 h; simp at h, ?_⟩
                  intro d1 m1 n h
                  simp only [Except.ok.injEq, Header.seg.injEq] at h
                  obtain ⟨rfl, rfl, rfl⟩ := h
                  refine ⟨by simp only [decoder.withStream, z4', w4'], z1, z2, ?_⟩
                  have hsplit : [0xff, m0] ++ mid2 = pre2 ++ [0xff, m] := y4
                  have hsplit0 : [t0, t1] ++ mid = pre ++ [0xff, m0] := x4
                  refine ⟨pre ++ pre2, hi, lo, ?_, by omega⟩
                  show d.bytes.pending = _ ++ s3.bytes.pending
                  rw [hpend, hp3, z3]
                  have : t0 :: t1 :: (mid ++ (mid2 ++ hi :: lo :: p3)) =
                      (([t0, t1] ++ mid) ++ mid2) ++ hi :: lo :: p3 := by simp
                  rw [this, hsplit0]
                  have h2 : pre ++ [0xff, m0] ++ mid2 = pre ++ ([0xff, m0] ++ mid2) := by simp
                  rw [h2, hsplit]
                  simp

end Jpeg

namespace Jpeg

/-! ## The segment handlers of the config-only mode -/

theorem skips_trans (d d1 d2 : decoder) (h1 : d.Skips d1) (h2 : d1.Skips d2) : d.Skips d2 := by
  obtain ⟨a1, a2, a3, a4, a5, a6, a7, k, a8, a9⟩ := h1
  obtain ⟨b1, b2, b3, b4, b5, b6, b7, k2, b8, b9⟩ := h2
  refine ⟨b1, b2, b3.trans a3, b4.trans a4, b5.trans a5, b6.trans a6, b7.trans a7,
    k + k2, ?_, ?_⟩
  · rw [a9, List.length_drop] at b8; omega
  · rw [b9, a9, List.drop_drop]

theorem decoder_ignore_spec (d : decoder) (n : Nat) (hwf : d.bytes.WF)
    (hnu : d.bytes.nUnreadable = 0) :
    d.ignore n ≠ .error .outOfFuel ∧ ∀ d1, d.ignore n = .ok d1 → d.Skips d1 := by
  obtain ⟨g1, g2⟩ := ignore_spec d.stream n hwf hnu
  unfold decoder.ignore
  rcases Nat.lt_or_ge d.bytes.pending.length n with hs | hl
  · rw [g2 hs]
    exact ⟨by simp, by intro d1 h; simp at h⟩
  · obtain ⟨s1, e1, e2, e3, e4, e5⟩ := g1 hl
    rw [e1]
    refine ⟨by simp, ?_⟩
    intro d1 h
    simp only [Except.ok.injEq] at h
    subst h
    exact ⟨e2, e3, rfl, rfl, rfl, rfl, rfl, n, hl, e4⟩

theorem readFull_step (d : decoder) (k : Nat) (hwf : d.bytes.WF)
    (hnu : d.bytes.nUnreadable = 0) :
    readFull d.stream k ≠ .error .outOfFuel ∧
      ∀ tmp s, readFull d.stream k = .ok (tmp, s) →
        tmp = d.bytes.pending.take k ∧ k ≤ d.bytes.pending.length ∧ s.bytes.WF ∧
          s.bytes.nUnreadable = 0 ∧ s.bytes.pending = d.bytes.pending.drop k := by
  obtain ⟨g1, g2⟩ := readFull_spec d.stream k hwf hnu
  rcases Nat.lt_or_ge d.bytes.pending.length k with hs | hl
  · rw [g2 hs]
    exact ⟨by simp, by intro tmp s h; simp at h⟩
  · obtain ⟨s1, e1, e2, e3, e4, e5⟩ := g1 hl
    rw [e1]
    refine ⟨by simp, ?_⟩
    intro tmp s h
    simp only [Except.ok.injEq, Prod.mk.injEq] at h
    obtain ⟨rfl, rfl⟩ := h
    exact ⟨rfl, hl, e2, e3, e4⟩

theorem processApp0Marker_spec (d : decoder) (n : Nat) (hwf : d.bytes.WF)
    (hnu : d.bytes.nUnreadable = 0) :
    processApp0Marker d n ≠ .error .outOfFuel ∧
      ∀ d1, processApp0Marker d n = .ok d1 → d.Skips d1 := by
  unfold processApp0Marker
  by_cases hn : n < 5
  · rw [if_pos hn]
    exact decoder_ignore_spec d n hwf hnu
  · rw [if_neg hn]
    obtain ⟨r1, r2⟩ := readFull_step d 5 hwf hnu
    rcases hrf : readFull d.stream 5 with e | ⟨tmp, s⟩
    · rw [hrf] at r1
      have he : e ≠ .outOfFuel := fun h => r1 (by rw [h])
      exact ⟨by simpa using he, by intro d1 h; simp at h⟩
    · obtain ⟨t1, t2, t3, t4, t5⟩ := r2 tmp s hrf
      simp only []
      have hsk : d.Skips { d.withStream s with
          jfif := tmp.getD 0 0 = 0x4a ∧ tmp.getD 1 0 = 0x46 ∧ tmp.getD 2 0 = 0x49 ∧
            tmp.getD 3 0 = 0x46 ∧ tmp.getD 4 0 = 0x00 } :=
        ⟨t3, t4, rfl, rfl, rfl, rfl, rfl, 5, t2, t5⟩
      by_cases hn1 : n - 5 > 0
      · rw [if_pos hn1]
        obtain ⟨i1, i2⟩ := decoder_ignore_spec { d.withStream s with
          jfif := tmp.getD 0 0 = 0x4a ∧ tmp.getD 1 0 = 0x46 ∧ tmp.getD 2 0 = 0x49 ∧
            tmp.getD 3 0 = 0x46 ∧ tmp.getD 4 0 = 0x00 } (n - 5) t3 t4
        exact ⟨i1, fun d1 h => skips_trans _ _ _ hsk (i2 d1 h)⟩
      · rw [if_neg hn1]
        refine ⟨by simp, ?_⟩
        intro d1 h
        simp only [Except.ok.injEq] at h
        subst h
        exact hsk

theorem processApp14Marker_spec (d : decoder) (n : Nat) (hwf : d.bytes.WF)
    (hnu : d.bytes.nUnreadable = 0) :
    processApp14Marker d n ≠ .error .outOfFuel ∧
      ∀ d1, processApp14Marker d n = .ok d1 → d.Skips d1 := by
  unfold processApp14Marker
  by_cases hn : n < 12
  · rw [if_pos hn]
    exact decoder_ignore_spec d n hwf hnu
  · rw [if_neg hn]
    obtain ⟨r1, r2⟩ := readFull_step d 12 hwf hnu
    rcases hrf : readFull d.stream 12 with e | ⟨tmp, s⟩
    · rw [hrf] at r1
      have he : e ≠ .outOfFuel := fun h => r1 (by rw [h])
      exact ⟨by simpa using he, by intro d1 h; simp at h⟩
    · obtain ⟨t1, t2, t3, t4, t5⟩ := r2 tmp s hrf
      simp only []
      generalize hd1 : (if tmp.getD 0 0 = 0x41 ∧ tmp.getD 1 0 = 0x64 ∧ tmp.getD 2 0 = 0x6f ∧
            tmp.getD 3 0 = 0x62 ∧ tmp.getD 4 0 = 0x65 then
          ({ d.withStream s with adobeTransformValid := true,
                                 adobeTransform := tmp.getD 11 0 } : decoder)
        else d.withStream s) = dd
      have hsk : d.Skips dd := by
        rw [← hd1]
        split
        · exact ⟨t3, t4, rfl, rfl, rfl, rfl, rfl, 12, t2, t5⟩
        · exact ⟨t3, t4, rfl, rfl, rfl, rfl, rfl, 12, t2, t5⟩
      by_cases hn1 : n - 12 > 0
      · rw [if_pos hn1]
        obtain ⟨i1, i2⟩ := decoder_ignore_spec dd (n - 12) hsk.1 hsk.2.1
        exact ⟨i1, fun d1 h => skips_trans _ _ _ hsk (i2 d1 h)⟩
      · rw [if_neg hn1]
        refine ⟨by simp, ?_⟩
        intro d1 h
        simp only [Except.ok.injEq] at h
        subst h
        exact hsk

theorem sofComponent_fuel (nComp : Nat) (tmp : List Nat) (comp : List component) (i : Nat) :
    sofComponent nComp tmp comp i ≠ .error .outOfFuel := by
  unfold sofComponent
  simp only []
  repeat' split
  all_goals simp [errUnsupportedSubsamplingRatio]

theorem sofComponents_fuel (nComp : Nat) (tmp : List Nat) (k : Nat) :
    ∀ (i : Nat) (comp : List component),
      sofComponents nComp tmp k i comp ≠ .error .outOfFuel := by
  induction k with
  | zero => intro i comp; simp [sofComponents]
  | succ k ih =>
    intro i comp
    rw [sofComponents]
    rcases h : sofComponent nComp tmp comp i with e | comp1
    · have := sofComponent_fuel nComp tmp comp i
      rw [h] at this
      have he : e ≠ .outOfFuel := fun h2 => this (by rw [h2])
      simpa using he
    · exact ih (i + 1) comp1

/-- Method `processSOF` on the bytes that are left: the frame header fields
that it stores are those of the payload, the next `n` bytes. -/
theorem processSOF_spec (d : decoder) (n : Nat) (hwf : d.bytes.WF)
    (hnu : d.bytes.nUnreadable = 0) :
    processSOF d n ≠ .error .outOfFuel ∧
      ∀ d2, processSOF d n = .ok d2 →
        d.nComp = 0 ∧ n ≤ d.bytes.pending.length ∧
          d2.height = ((d.bytes.pending.take n).getD 1 0) <<< 8 +
            (d.bytes.pending.take n).getD 2 0 ∧
          d2.width = ((d.bytes.pending.take n).getD 3 0) <<< 8 +
            (d.bytes.pending.take n).getD 4 0 ∧
          d2.nComp = (d.bytes.pending.take n).getD 5 0 ∧
          (d2.nComp = 1 ∨ d2.nComp = 3 ∨ d2.nComp = 4) ∧ n = 6 + 3 * d2.nComp ∧
          d2.bytes.WF ∧ d2.bytes.nUnreadable = 0 ∧ d2.img1 = d.img1 ∧ d2.img3 = d.img3 ∧
          d2.bytes.pending = d.bytes.pending.drop n ∧ d2.jfif = d.jfif := by
  unfold processSOF
  by_cases hnc : d.nComp ≠ 0
  · rw [if_pos hnc]
    exact ⟨by simp, by intro d2 h; simp at h⟩
  · rw [if_neg hnc]
    have hnc0 : d.nComp = 0 := by omega
    generalize hncv : (if n = 6 + 3 * 1 then 1 else if n = 6 + 3 * 3 then 3
      else if n = 6 + 3 * 4 then 4 else 0) = nc
    have hnn : nc = 0 ∨ ((nc = 1 ∨ nc = 3 ∨ nc = 4) ∧ n = 6 + 3 * nc) := by
      rw [← hncv]
      split
      · right; exact ⟨Or.inl rfl, by omega⟩
      · split
        · right; exact ⟨Or.inr (Or.inl rfl), by omega⟩
        · split
          · right; exact ⟨Or.inr (Or.inr rfl), by omega⟩
          · left; rfl
    simp only []
    by_cases hz : nc = 0
    · rw [if_pos hz]
      exact ⟨by simp, by intro d2 h; simp at h⟩
    · rw [if_neg hz]
      obtain ⟨r1, r2⟩ := readFull_step d n hwf hnu
      have hst : decoder.stream { d with nComp := nc } = d.stream := rfl
      rw [hst]
      rcases hrf : readFull d.stream n with e | ⟨tmp, s⟩
      · rw [hrf] at r1
        have he : e ≠ .outOfFuel := fun h => r1 (by rw [h])
        exact ⟨by simpa using he, by intro d1 h; simp at h⟩
      · obtain ⟨t1, t2, t3, t4, t5⟩ := r2 tmp s hrf
        simp only [decoder.withStream]
        by_cases hprec : tmp.getD 0 0 ≠ 8
        · rw [if_pos hprec]
          exact ⟨by simp, by intro d2 h; simp at h⟩
        · rw [if_neg hprec]
          by_cases h5 : tmp.getD 5 0 ≠ nc
          · rw [if_pos h5]
            exact ⟨by simp, by intro d2 h; simp at h⟩
          · rw [if_neg h5]
            have h5' : tmp.getD 5 0 = nc := by omega
            rcases hcs : sofComponents nc tmp nc 0 d.comp with e | comp
            · have hf := sofComponents_fuel nc tmp nc 0 d.comp
              rw [hcs] at hf
              have he : e ≠ .outOfFuel := fun h2 => hf (by rw [h2])
              exact ⟨by simpa using he, by intro d2 h; simp at h⟩
            · refine ⟨by simp, ?_⟩
              intro d2 h
              simp only [Except.ok.injEq] at h
              subst h
              rw [← t1]
              refine ⟨hnc0, t2, rfl, rfl, h5'.symm, ?_, ?_, t3, t4, rfl, rfl, t5, rfl⟩
              · rcases hnn with h | h
                · exact absurd h hz
                · exact h.1
              · rcases hnn with h | h
                · exact absurd h hz
                · exact h.2

end Jpeg

namespace Jpeg

/-! ## Rounds of the segment loop -/

theorem round_error (c : Bool) (fuel : Nat) (d : decoder) (e : Err)
    (h : segmentHeader d = .error e) :
    decodeLoop c fuel d = .error e ∧ decodeTrace c fuel d = [] := by
  constructor
  · cases fuel <;> simp only [decodeLoop, decodeSegment, h]
  · cases fuel <;> simp only [decodeTrace, h]

theorem round_eoi (c : Bool) (fuel : Nat) (d d1 : decoder)
    (h : segmentHeader d = .ok (.eoi d1)) :
    decodeLoop c fuel d = .ok (d1, true) ∧ decodeTrace c fuel d = [] := by
  constructor
  · cases fuel <;> simp only [decodeLoop, decodeSegment, h]
  · cases fuel <;> simp only [decodeTrace, h]

theorem round_skip (c : Bool) (fuel : Nat) (d d1 : decoder)
    (h : segmentHeader d = .ok (.skip d1)) :
    decodeLoop c (fuel + 1) d = decodeLoop c fuel d1 ∧
      decodeTrace c (fuel + 1) d = decodeTrace c fuel d1 := by
  constructor
  · conv_lhs => rw [decodeLoop]
    simp only [decodeSegment, h]
  · conv_lhs => rw [decodeTrace]
    simp only [h]

theorem round_seg_error (c : Bool) (fuel : Nat) (d d1 : decoder) (marker n : Nat) (e : Err)
    (h : segmentHeader d = .ok (.seg d1 marker n))
    (hm : decodeMarker c d1 marker n = .error e) :
    decodeLoop c fuel d = .error e ∧ decodeTrace c fuel d = [(d1, marker, n)] := by
  constructor
  · cases fuel <;> simp only [decodeLoop, decodeSegment, h, hm]
  · cases fuel <;> simp only [decodeTrace, h, hm]

theorem round_seg_ret (c : Bool) (fuel : Nat) (d d1 d2 : decoder) (marker n : Nat)
    (h : segmentHeader d = .ok (.seg d1 marker n))
    (hm : decodeMarker c d1 marker n = .ok (.ret d2)) :
    decodeLoop c fuel d = .ok (d2, false) ∧ decodeTrace c fuel d = [(d1, marker, n)] := by
  constructor
  · cases fuel <;> simp only [decodeLoop, decodeSegment, h, hm]
  · cases fuel <;> simp only [decodeTrace, h, hm]

theorem round_seg_next (c : Bool) (fuel : Nat) (d d1 d2 : decoder) (marker n : Nat)
    (h : segmentHeader d = .ok (.seg d1 marker n))
    (hm : decodeMarker c d1 marker n = .ok (.next d2)) :
    decodeLoop c (fuel + 1) d = decodeLoop c fuel d2 ∧
      decodeTrace c (fuel + 1) d = (d1, marker, n) :: decodeTrace c fuel d2 := by
  constructor
  · conv_lhs => rw [decodeLoop]
    simp only [decodeSegment, h, hm]
  · conv_lhs => rw [decodeTrace]
    simp only [h, hm]

theorem decodeMarker_ne_eoi (c : Bool) (d d2 : decoder) (marker n : Nat) :
    decodeMarker c d marker n ≠ .ok (.eoi d2) := by
  unfold decodeMarker
  simp only []
  repeat' split
  all_goals simp

/-! ## The segment loop of the config-only mode -/

theorem wrap_skips (d : decoder) (r : Except Err decoder)
    (hr : r ≠ .error .outOfFuel ∧ ∀ d1, r = .ok d1 → d.Skips d1) :
    (match r with
      | .error e => (.error e : Except Err Outcome)
      | .ok d1 => .ok (.next d1)) ≠ .error .outOfFuel ∧
    ∀ o, (match r with
      | .error e => (.error e : Except Err Outcome)
      | .ok d1 => .ok (.next d1)) = .ok o → ∃ d1, o = .next d1 ∧ d.Skips d1 := by
  rcases r with e | d1
  · have he : e ≠ .outOfFuel := fun h => hr.1 (by rw [h])
    exact ⟨by simpa using he, by intro o h; simp at h⟩
  · refine ⟨by simp, ?_⟩
    intro o h
    simp only [Except.ok.injEq] at h
    exact ⟨d1, h.symm, hr.2 d1 rfl⟩

/-- The `switch marker` of `decode` in the config-only mode. -/
theorem configMarker_spec (d : decoder) (marker n : Nat) (hwf : d.bytes.WF)
    (hnu : d.bytes.nUnreadable = 0) :
    decodeMarker true d marker n ≠ .error .outOfFuel ∧
    ∀ o, decodeMarker true d marker n = .ok o →
      (isSOF marker ∧ ∃ d2,
        processSOF { d with progressive := decide (marker = sof2Marker) } n = .ok d2 ∧
          (o = .ret d2 ∨ o = .next d2)) ∨
      (¬ isSOF marker ∧ marker = sosMarker ∧ o = .ret d) ∨
      (¬ isSOF marker ∧ marker ≠ sosMarker ∧ ∃ d1, o = .next d1 ∧ d.Skips d1) := by
  unfold decodeMarker
  simp only []
  by_cases hsof : marker = sof0Marker ∨ marker = sof1Marker ∨ marker = sof2Marker
  · rw [if_pos hsof]
    obtain ⟨p1, p2⟩ := processSOF_spec { d with progressive := decide (marker = sof2Marker) } n
      hwf hnu
    rcases hp : processSOF { d with progressive := decide (marker = sof2Marker) } n with e | d2
    · rw [hp] at p1
      have he : e ≠ .outOfFuel := fun h => p1 (by rw [h])
      exact ⟨by simpa using he, by intro o h; simp at h⟩
    · simp only []
      split
      · refine ⟨by simp, ?_⟩
        intro o h
        simp only [Except.ok.injEq] at h
        exact Or.inl ⟨hsof, d2, rfl, Or.inl h.symm⟩
      · refine ⟨by simp, ?_⟩
        intro o h
        simp only [Except.ok.injEq] at h
        exact Or.inl ⟨hsof, d2, rfl, Or.inr h.symm⟩
  · rw [if_neg hsof]
    have hig := wrap_skips d _ (decoder_ignore_spec d n hwf hnu)
    have hskip : ∀ (X : Except Err Outcome),
        (X ≠ .error .outOfFuel ∧ ∀ o, X = .ok o → ∃ d1, o = .next d1 ∧ d.Skips d1) →
        marker ≠ sosMarker →
        X ≠ .error .outOfFuel ∧ ∀ o, X = .ok o →
          (isSOF marker ∧ ∃ d2,
            processSOF { d with progressive := decide (marker = sof2Marker) } n = .ok d2 ∧
              (o = .ret d2 ∨ o = .next d2)) ∨
          (¬ isSOF marker ∧ marker = sosMarker ∧ o = .ret d) ∨
          (¬ isSOF marker ∧ marker ≠ sosMarker ∧ ∃ d1, o = .next d1 ∧ d.Skips d1) :=
      fun X hX hm => ⟨hX.1, fun o h => Or.inr (Or.inr ⟨hsof, hm, hX.2 o h⟩)⟩
    by_cases h1 : marker = dhtMarker
    · rw [if_pos h1]
      exact hskip _ hig (by rw [h1]; decide)
    · rw [if_neg h1]
      by_cases h2 : marker = dqtMarker
      · rw [if_pos h2]
        exact hskip _ hig (by rw [h2]; decide)
      · rw [if_neg h2]
        by_cases h3 : marker = sosMarker
        · rw [if_pos h3]
          refine ⟨by simp, ?_⟩
          intro o h
          simp only [↓reduceIte, Except.ok.injEq] at h
          exact Or.inr (Or.inl ⟨hsof, h3, h.symm⟩)
        · rw [if_neg h3]
          by_cases h4 : marker = driMarker
          · rw [if_pos h4]
            exact hskip _ hig h3
          · rw [if_neg h4]
            by_cases h5 : marker = app0Marker
            · rw [if_pos h5]
              exact hskip _ (wrap_skips d _ (processApp0Marker_spec d n hwf hnu)) h3
            · rw [if_neg h5]
              by_cases h6 : marker = app14Marker
              · rw [if_pos h6]
                exact hskip _ (wrap_skips d _ (processApp14Marker_spec d n hwf hnu)) h3
              · rw [if_neg h6]
                by_cases h7 : (app0Marker ≤ marker ∧ marker ≤ app15Marker) ∨ marker = comMarker
                · rw [if_pos h7]
                  exact hskip _ hig h3
                · rw [if_neg h7]
                  split
                  · exact ⟨by simp, by intro o h; simp at h⟩
                  · exact ⟨by simp, by intro o h; simp at h⟩

end Jpeg

namespace Jpeg

theorem same_fields (d d1 : decoder) (h : d1 = { d with bytes := d1.bytes }) :
    d1.nComp = d.nComp ∧ d1.width = d.width ∧ d1.height = d.height ∧ d1.img1 = d.img1 ∧
      d1.img3 = d.img3 := by
  refine ⟨?_, ?_, ?_, ?_, ?_⟩ <;> rw [h]

theorem getD_take_lt (l : List Nat) (n i : Nat) (h : i < n) :
    (l.take n).getD i 0 = l.getD i 0 := by
  rw [List.getD_eq_getElem?_getD, List.getD_eq_getElem?_getD, List.getElem?_take_of_lt h]

theorem decodeMarker_sos (d : decoder) (n : Nat) :
    decodeMarker true d sosMarker n = .ok (.ret d) := by
  unfold decodeMarker
  simp only []
  rw [if_neg (by decide), if_neg (by decide), if_neg (by decide)]
  simp only [↓reduceIte]

theorem sos_not_sof : ¬ isSOF sosMarker := by
  unfold isSOF
  decide

/-- What `processSOF` stores for a segment that the loop has met. -/
theorem sofAt_of_processSOF (r : List Nat) (d1 d2 : decoder) (marker n : Nat) (b : Bool)
    (hwf : d1.bytes.WF) (hnu : d1.bytes.nUnreadable = 0) (hsof : isSOF marker)
    (hpos : ∃ pre hi lo, r = pre ++ [0xff, marker, hi, lo] ++ d1.bytes.pending ∧
      n + 2 = hi <<< 8 + lo)
    (hp : processSOF { d1 with progressive := b } n = .ok d2) :
    d1.nComp = 0 ∧ d2.nComp ≠ 0 ∧ SofAt r (d1, marker, n) d2.height d2.width d2.nComp ∧
      d2.bytes.WF ∧ d2.bytes.nUnreadable = 0 ∧ d2.img1 = d1.img1 ∧ d2.img3 = d1.img3 ∧
      d2.bytes.pending = d1.bytes.pending.drop n ∧ n ≤ d1.bytes.pending.length := by
  obtain ⟨q1, q2, q3, q4, q5, q6, q7, q8, q9, q10, q11, q12, _⟩ :=
    (processSOF_spec { d1 with progressive := b } n hwf hnu).2 d2 hp
  have hn5 : 5 < n := by omega
  have e1 : ({ d1 with progressive := b } : decoder).bytes.pending = d1.bytes.pending := rfl
  rw [e1] at q2 q3 q4 q5 q12
  rw [getD_take_lt _ _ _ (by omega), getD_take_lt _ _ _ (by omega), Nat.shiftLeft_eq] at q3 q4
  rw [getD_take_lt _ _ _ hn5] at q5
  obtain ⟨pre, hi, lo, hr, hlen⟩ := hpos
  rw [Nat.shiftLeft_eq] at hlen
  refine ⟨q1, by omega, ⟨hsof, q2, ⟨pre, hi, lo, hr, hlen⟩, q3, q4, q5, q7⟩, q8, q9, q10,
    q11, q12, q2⟩

/-- The segment loop of the config-only mode, from a decoder that has read a
prefix of the stream `r` and holds no image. -/
theorem configLoop_spec (r : List Nat) (fuel : Nat) :
    ∀ (d : decoder) (pre : List Nat), d.bytes.WF → d.bytes.nUnreadable = 0 →
      d.img1 = none → d.img3 = none → r = pre ++ d.bytes.pending →
      d.bytes.pending.length ≤ fuel →
      decodeLoop true fuel d ≠ .error .outOfFuel ∧
      (∀ d1 b, decodeLoop true fuel d = .ok (d1, b) →
        d1.img1 = none ∧ d1.img3 = none ∧
        (d.nComp ≠ 0 → d1.nComp = d.nComp ∧ d1.width = d.width ∧ d1.height = d.height) ∧
        (d.nComp = 0 → d1.nComp ≠ 0 →
          ∃ e ∈ decodeTrace true fuel d, SofAt r e d1.height d1.width d1.nComp)) ∧
      (d.nComp = 0 → ∀ (k : Nat) (d0 : decoder) (n : Nat),
        (decodeTrace true fuel d)[k]? = some (d0, sosMarker, n) →
        (∀ j : Nat, j < k → ∀ e : decoder × Nat × Nat,
          (decodeTrace true fuel d)[j]? = some e → ¬ isSOF e.2.1) →
        decodeLoop true fuel d = .ok (d0, false) ∧ d0.nComp = 0) := by
  induction fuel using Nat.strong_induction_on with
  | _ fuel ih =>
    intro d pre hwf hnu hi1 hi3 hr hlen
    obtain ⟨sh1, sh2, sh3⟩ := segmentHeader_spec d hwf hnu
    rcases hh : segmentHeader d with e | hdr
    · obtain ⟨l1, l2⟩ := round_error true fuel d e hh
      rw [hh] at sh1
      have he : e ≠ .outOfFuel := fun h => sh1 (by rw [h])
      rw [l1, l2]
      exact ⟨by simpa using he, by intro d1 b h; simp at h, by intro _ k d0 n h; simp at h⟩
    · rcases hdr with d1 | d1 | ⟨d1, marker, n⟩
      · -- skip
        obtain ⟨f1, f2, f3, mid, f4, f5⟩ := sh2 d1 (Or.inl hh)
        obtain ⟨g1, g2, g3, g4, g5⟩ := same_fields d d1 f1
        have hl2 : d1.bytes.pending.length + 2 ≤ d.bytes.pending.length := by
          rw [f4, List.length_append]; omega
        obtain ⟨f, rfl⟩ : ∃ f, fuel = f + 1 := ⟨fuel - 1, by omega⟩
        obtain ⟨l1, l2⟩ := round_skip true f d d1 hh
        obtain ⟨i1, i2, i3⟩ := ih f (by omega) d1 (pre ++ mid) f2 f3 (by rw [g4, hi1])
          (by rw [g5, hi3]) (by rw [hr, f4, List.append_assoc]) (by omega)
        rw [l1, l2]
        refine ⟨i1, ?_, ?_⟩
        · intro d2 b h
          obtain ⟨j1, j2, j3, j4⟩ := i2 d2 b h
          refine ⟨j1, j2, ?_, ?_⟩
          · intro hn; rw [← g1, ← g2, ← g3]; exact j3 (by rw [g1]; exact hn)
          · intro hn; exact j4 (by rw [g1]; exact hn)
        · intro hn; exact i3 (by rw [g1]; exact hn)
      · -- eoi
        obtain ⟨f1, f2, f3, mid, f4, f5⟩ := sh2 d1 (Or.inr hh)
        obtain ⟨g1, g2, g3, g4, g5⟩ := same_fields d d1 f1
        obtain ⟨l1, l2⟩ := round_eoi true fuel d d1 hh
        rw [l1, l2]
        refine ⟨by simp, ?_, by intro _ k d0 n h; simp at h⟩
        intro d2 b h
        simp only [Except.ok.injEq, Prod.mk.injEq] at h
        obtain ⟨rfl, rfl⟩ := h
        exact ⟨by rw [g4, hi1], by rw [g5, hi3], fun _ => ⟨g1, g2, g3⟩,
          fun hn hn2 => absurd (g1.trans hn) hn2⟩
      · -- a segment
        obtain ⟨f1, f2, f3, pre1, hi, lo, f4, f5⟩ := sh3 d1 marker n hh
        obtain ⟨g1, g2, g3, g4, g5⟩ := same_fields d d1 f1
        have hl2 : d1.bytes.pending.length + 4 ≤ d.bytes.pending.length := by
          rw [f4]; simp only [List.length_append, List.length_cons, List.length_nil]; omega
        have hpos : ∃ pre hi lo, r = pre ++ [0xff, marker, hi, lo] ++ d1.bytes.pending ∧
            n + 2 = hi <<< 8 + lo :=
          ⟨pre ++ pre1, hi, lo, by rw [hr, f4]; simp, f5⟩
        obtain ⟨c1, c2⟩ := configMarker_spec d1 marker n f2 f3
        rcases hm : decodeMarker true d1 marker n with e | o
        · obtain ⟨l1, l2⟩ := round_seg_error true fuel d d1 marker n e hh hm
          rw [hm] at c1
          have he : e ≠ .outOfFuel := fun h => c1 (by rw [h])
          rw [l1, l2]
          refine ⟨by simpa using he, by intro d1 b h; simp at h, ?_⟩
          intro _ k d0 n0 h
          rcases k with _ | k
          · simp only [List.getElem?_cons_zero, Option.some.injEq, Prod.mk.injEq] at h
            rw [h.2.1, decodeMarker_sos] at hm
            simp at hm
          · simp at h
        · rcases c2 o hm with ⟨hsof, d2, hp, ho⟩ | ⟨hns, hsos, ho⟩ | ⟨hns, hnsos, d2, ho, hsk⟩
          · -- Start Of Frame
            obtain ⟨q1, q2, q3, q4, q5, q6, q7, q8, q9⟩ :=
              sofAt_of_processSOF r d1 d2 marker n _ f2 f3 hsof hpos hp
            have hd0 : d.nComp = 0 := by rw [← g1]; exact q1
            rcases ho with rfl | rfl
            · obtain ⟨l1, l2⟩ := round_seg_ret true fuel d d1 d2 marker n hh hm
              rw [l1, l2]
              refine ⟨by simp, ?_, ?_⟩
              · intro d3 b h
                simp only [Except.ok.injEq, Prod.mk.injEq] at h
                obtain ⟨rfl, rfl⟩ := h
                exact ⟨by rw [q6, g4, hi1], by rw [q7, g5, hi3], fun hn => absurd hd0 hn,
                  fun _ _ => ⟨_, List.mem_singleton.2 rfl, q3⟩⟩
              · intro _ k d0 n0 h
                rcases k with _ | k
                · simp only [List.getElem?_cons_zero, Option.some.injEq, Prod.mk.injEq] at h
                  rw [h.2.1] at hsof
                  exact absurd hsof sos_not_sof
                · simp at h
            · obtain ⟨f, rfl⟩ : ∃ f, fuel = f + 1 := ⟨fuel - 1, by omega⟩
              obtain ⟨l1, l2⟩ := round_seg_next true f d d1 d2 marker n hh hm
              obtain ⟨i1, i2, i3⟩ := ih f (by omega) d2 (pre ++ pre1 ++ [0xff, marker, hi, lo] ++
                  d1.bytes.pending.take n) q4 q5 (by rw [q6, g4, hi1]) (by rw [q7, g5, hi3])
                (by rw [hr, f4, q8]; simp) (by rw [q8, List.length_drop]; omega)
              rw [l1, l2]
              refine ⟨i1, ?_, ?_⟩
              · intro d3 b h
                obtain ⟨j1, j2, j3, j4⟩ := i2 d3 b h
                obtain ⟨k1, k2, k3⟩ := j3 q2
                refine ⟨j1, j2, fun hn => absurd hd0 hn, fun _ _ => ?_⟩
                refine ⟨_, List.mem_cons_self _ _, ?_⟩
                rw [k1, k2, k3]
                exact q3
              · intro _ k d0 n0 h hno
                rcases k with _ | k
                · simp only [List.getElem?_cons_zero, Option.some.injEq, Prod.mk.injEq] at h
                  rw [h.2.1] at hsof
                  exact absurd hsof sos_not_sof
                · exact absurd hsof (hno 0 (by omega) (d1, marker, n) (by simp))
          · -- Start Of Scan
            subst ho
            obtain ⟨l1, l2⟩ := round_seg_ret true fuel d d1 d1 marker n hh hm
            rw [l1, l2]
            refine ⟨by simp, ?_, ?_⟩
            · intro d3 b h
              simp only [Except.ok.injEq, Prod.mk.injEq] at h
              obtain ⟨rfl, rfl⟩ := h
              exact ⟨by rw [g4, hi1], by rw [g5, hi3], fun _ => ⟨g1, g2, g3⟩,
                fun hn hn2 => absurd (g1.trans hn) hn2⟩
            · intro hn k d0 n0 h _
              rcases k with _ | k
              · simp only [List.getElem?_cons_zero, Option.some.injEq, Prod.mk.injEq] at h
                rw [← h.1]
                exact ⟨rfl, g1.trans hn⟩
              · simp at h
          · -- any other segment
            subst ho
            obtain ⟨s1, s2, s3, s4, s5, s6, s7, kk, s8, s9⟩ := hsk
            obtain ⟨f, rfl⟩ : ∃ f, fuel = f + 1 := ⟨fuel - 1, by omega⟩
            obtain ⟨l1, l2⟩ := round_seg_next true f d d1 d2 marker n hh hm
            obtain ⟨i1, i2, i3⟩ := ih f (by omega) d2 (pre ++ pre1 ++ [0xff, marker, hi, lo] ++
                d1.bytes.pending.take kk) s1 s2 (by rw [s3, g4, hi1]) (by rw [s4, g5, hi3])
              (by rw [hr, f4, s9]; simp) (by rw [s9, List.length_drop]; omega)
            rw [l1, l2]
            refine ⟨i1, ?_, ?_⟩
            · intro d3 b h
              obtain ⟨j1, j2, j3, j4⟩ := i2 d3 b h
              refine ⟨j1, j2, ?_, ?_⟩
              · intro hn
                rw [← g1, ← g2, ← g3, ← s5, ← s6, ← s7]
                exact j3 (by rw [s5, g1]; exact hn)
              · intro hn hn2
                obtain ⟨e, he1, he2⟩ := j4 (by rw [s5, g1]; exact hn) hn2
                exact ⟨e, List.mem_cons_of_mem _ he1, he2⟩
            · intro hn k d0 n0 h hno
              rcases k with _ | k
              · simp only [List.getElem?_cons_zero, Option.some.injEq, Prod.mk.injEq] at h
                exact absurd h.2.1 hnsos
              · simp only [List.getElem?_cons_succ] at h
                exact i3 (by rw [s5, g1]; exact hn) k d0 n0 h
                  (fun j hj e he => hno (j + 1) (by omega) e (by simpa using he))

end Jpeg

namespace Jpeg

/-! ## `DecodeConfig` -/

theorem init_ok (r : List Nat) :
    (decoder.init r).bytes.WF ∧ (decoder.init r).bytes.nUnreadable = 0 ∧
      (decoder.init r).bytes.pending = r ∧ (decoder.init r).nComp = 0 ∧
      (decoder.init r).img1 = none ∧ (decoder.init r).img3 = none := by
  refine ⟨⟨List.length_replicate _ _, Nat.le_refl _, Nat.zero_le _⟩, rfl, ?_, rfl, rfl, rfl⟩
  show (List.take 0 _).drop 0 ++ r = r
  rfl

theorem decodeResult_none (d : decoder) (h1 : d.img1 = none) (h3 : d.img3 = none) :
    decodeResult d = .error (.formatError "missing SOS marker") := by
  unfold decodeResult
  rw [h1, h3]

theorem configOf_spec (d : decoder) :
    configOf d ≠ .error .outOfFuel ∧
    (d.nComp = 0 → configOf d = .error (.formatError "missing SOF marker")) ∧
    ∀ cfg, configOf d = .ok cfg →
      (d.nComp = 1 ∨ d.nComp = 3 ∨ d.nComp = 4) ∧ cfg.Width = d.width ∧
        cfg.Height = d.height ∧
        cfg.ColorModel =
          (if d.nComp = 1 then ColorModel.GrayModel
            else if d.nComp = 4 then ColorModel.CMYKModel
            else if isRGB d then ColorModel.RGBAModel else ColorModel.YCbCrModel) := by
  unfold configOf
  refine ⟨?_, ?_, ?_⟩
  · split <;> simp
  · intro h; rw [h]
  · intro cfg h
    by_cases h1 : d.nComp = 1
    · rw [h1] at h
      simp only [Except.ok.injEq] at h
      subst h
      exact ⟨Or.inl h1, rfl, rfl, by rw [if_pos h1]⟩
    · by_cases h3 : d.nComp = 3
      · rw [h3] at h
        simp only [Except.ok.injEq] at h
        subst h
        refine ⟨Or.inr (Or.inl h3), rfl, rfl, ?_⟩
        rw [if_neg h1, if_neg (show ¬ d.nComp = 4 by omega)]
      · by_cases h4 : d.nComp = 4
        · rw [h4] at h
          simp only [Except.ok.injEq] at h
          subst h
          refine ⟨Or.inr (Or.inr h4), rfl, rfl, ?_⟩
          rw [if_neg h1, if_pos h4]
        · split at h
          · next hn => exact absurd hn h1
          · next hn => exact absurd hn h3
          · next hn => exact absurd hn h4
          · simp at h

/-- What `decode` and `segmentsOf` are behind the Start Of Image marker. -/
theorem decode_cases (c : Bool) (r : List Nat) (tmp : List Nat) (s : Stream)
    (hrf : readFull (decoder.init r).stream 2 = .ok (tmp, s))
    (hsoi : ¬ (tmp.getD 0 0 ≠ 0xff ∨ tmp.getD 1 0 ≠ soiMarker)) :
    (∀ e, decodeLoop c ((decoder.init r).withStream s).bytes.remaining
        ((decoder.init r).withStream s) = .error e → decode (decoder.init r) c = .error e) ∧
    (∀ d2, decodeLoop c ((decoder.init r).withStream s).bytes.remaining
        ((decoder.init r).withStream s) = .ok (d2, false) →
      decode (decoder.init r) c = .ok (none, d2)) ∧
    (∀ d2 e, decodeLoop c ((decoder.init r).withStream s).bytes.remaining
        ((decoder.init r).withStream s) = .ok (d2, true) → decodeResult d2 = .error e →
      decode (decoder.init r) c = .error e) ∧
    (∀ d2 img, decodeLoop c ((decoder.init r).withStream s).bytes.remaining
        ((decoder.init r).withStream s) = .ok (d2, true) → decodeResult d2 = .ok img →
      decode (decoder.init r) c = .ok (img, d2)) ∧
    segmentsOf c r =
      decodeTrace c ((decoder.init r).withStream s).bytes.remaining
        ((decoder.init r).withStream s) := by
  refine ⟨?_, ?_, ?_, ?_, ?_⟩
  · intro e h
    unfold decode
    simp only [hrf]
    rw [if_neg hsoi, h]
  · intro d2 h
    unfold decode
    simp only [hrf]
    rw [if_neg hsoi, h]
  · intro d2 e h h2
    unfold decode
    simp only [hrf]
    rw [if_neg hsoi, h]
    simp only [h2]
  · intro d2 img h h2
    unfold decode
    simp only [hrf]
    rw [if_neg hsoi, h]
    simp only [h2]
  · unfold segmentsOf
    simp only [hrf]
    rw [if_neg hsoi]

theorem decode_bad_start (c : Bool) (r : List Nat) :
    (∀ e, readFull (decoder.init r).stream 2 = .error e →
      decode (decoder.init r) c = .error e ∧ segmentsOf c r = []) ∧
    (∀ tmp s, readFull (decoder.init r).stream 2 = .ok (tmp, s) →
      (tmp.getD 0 0 ≠ 0xff ∨ tmp.getD 1 0 ≠ soiMarker) →
      decode (decoder.init r) c = .error (.formatError "missing SOI marker") ∧
        segmentsOf c r = []) := by
  constructor
  · intro e h
    unfold decode segmentsOf
    simp only [h, and_self]
  · intro tmp s h hs
    unfold decode segmentsOf
    simp only [h]
    rw [if_pos hs, if_pos hs]
    exact ⟨rfl, rfl⟩

end Jpeg

namespace Jpeg

/-! ## Claims on `DecodeConfig` -/

/-- C4: whenever `DecodeConfig` succeeds on a stream `r`, the loop has met a
Start Of Frame segment `e` of `r` (the bytes `0xff`, the marker, the two length
bytes, the payload), the height and the width returned are the big-endian
16-bit fields in bytes 1-2 and 3-4 of its payload, the component count is byte
5 of the payload and is 1, 3 or 4, and the colour model is Gray for 1, CMYK
for 4, and for 3 RGBA when `isRGB` holds of the decoder and YCbCr otherwise.
When the loop meets a Start Of Scan segment before any Start Of Frame segment,
`DecodeConfig` fails with the FormatError "missing SOF marker". The loop of the
model never runs out of fuel. -/
theorem C4_decodeConfig (r : List Nat) :
    (∀ cfg, DecodeConfig r = .ok cfg →
      ∃ e d, e ∈ segmentsOf true r ∧ decode (decoder.init r) true = .ok (none, d) ∧
        SofAt r e cfg.Height cfg.Width d.nComp ∧
        (d.nComp = 1 ∨ d.nComp = 3 ∨ d.nComp = 4) ∧
        cfg.ColorModel =
          (if d.nComp = 1 then ColorModel.GrayModel
            else if d.nComp = 4 then ColorModel.CMYKModel
            else if isRGB d then ColorModel.RGBAModel else ColorModel.YCbCrModel)) ∧
    (∀ (k : Nat) (d0 : decoder) (n : Nat),
      (segmentsOf true r)[k]? = some (d0, sosMarker, n) →
      (∀ j : Nat, j < k → ∀ e : decoder × Nat × Nat,
        (segmentsOf true r)[j]? = some e → ¬ isSOF e.2.1) →
      DecodeConfig r = .error (.formatError "missing SOF marker")) ∧
    DecodeConfig r ≠ .error .outOfFuel := by
  obtain ⟨iw, inu, ipend, inc, ii1, ii3⟩ := init_ok r
  obtain ⟨b1, b2⟩ := decode_bad_start true r
  obtain ⟨rs1, rs2⟩ := readFull_step (decoder.init r) 2 iw inu
  have hdc : ∀ e, decode (decoder.init r) true = .error e → DecodeConfig r = .error e := by
    intro e h; unfold DecodeConfig; rw [h]
  have hdo : ∀ x d, decode (decoder.init r) true = .ok (x, d) → DecodeConfig r = configOf d := by
    intro x d h; unfold DecodeConfig; rw [h]
  rcases hrf : readFull (decoder.init r).stream 2 with e | ⟨tmp, s⟩
  · obtain ⟨c1, c2⟩ := b1 e hrf
    rw [hrf] at rs1
    have he : e ≠ .outOfFuel := fun h => rs1 (by rw [h])
    rw [hdc e c1, c2]
    exact ⟨by intro cfg h; simp at h, by intro k d0 n h; simp at h, by simpa using he⟩
  · by_cases hsoi : tmp.getD 0 0 ≠ 0xff ∨ tmp.getD 1 0 ≠ soiMarker
    · obtain ⟨c1, c2⟩ := b2 tmp s hrf hsoi
      rw [hdc _ c1, c2]
      exact ⟨by intro cfg h; simp at h, by intro k d0 n h; simp at h, by simp⟩
    · obtain ⟨t1, t2, t3, t4, t5⟩ := rs2 tmp s hrf
      obtain ⟨dc1, dc2, dc3, dc4, dc5⟩ := decode_cases true r tmp s hrf hsoi
      have hwf1 : ((decoder.init r).withStream s).bytes.WF := t3
      have hpend1 : ((decoder.init r).withStream s).bytes.pending = r.drop 2 := by
        show s.bytes.pending = _
        rw [t5, ipend]
      obtain ⟨l1, l2, l3⟩ := configLoop_spec r ((decoder.init r).withStream s).bytes.remaining
        ((decoder.init r).withStream s) (r.take 2) t3 t4 ii1 ii3
        (by rw [hpend1, List.take_append_drop]) (by rw [remaining_eq _ hwf1])
      rw [dc5]
      rcases hloop : decodeLoop true ((decoder.init r).withStream s).bytes.remaining
          ((decoder.init r).withStream s) with e | ⟨d2, b⟩
      · rw [hloop] at l1
        have he : e ≠ .outOfFuel := fun h => l1 (by rw [h])
        rw [hdc e (dc1 e hloop)]
        refine ⟨by intro cfg h; simp at h, ?_, by simpa using he⟩
        intro k d0 n h hno
        have := (l3 inc k d0 n h hno).1
        rw [hloop] at this
        simp at this
      · obtain ⟨m1, m2, m3, m4⟩ := l2 d2 b hloop
        rcases b with _ | _
        · -- the loop was left by `return nil, nil`
          obtain ⟨o1, o2, o3⟩ := configOf_spec d2
          rw [hdo none d2 (dc2 d2 hloop)]
          refine ⟨?_, ?_, o1⟩
          · intro cfg h
            obtain ⟨p1, p2, p3, p4⟩ := o3 cfg h
            obtain ⟨e, he1, he2⟩ := m4 inc (by omega)
            refine ⟨e, d2, he1, dc2 d2 hloop, ?_, p1, p4⟩
            rw [p2, p3]
            exact he2
          · intro k d0 n h hno
            obtain ⟨q1, q2⟩ := l3 inc k d0 n h hno
            rw [hloop] at q1
            simp only [Except.ok.injEq, Prod.mk.injEq, and_true] at q1
            exact o2 (by rw [q1]; exact q2)
        · -- the loop was left at the End Of Image marker
          have hres := decodeResult_none d2 m1 m2
          rw [hdc _ (dc3 d2 _ hloop hres)]
          refine ⟨by intro cfg h; simp at h, ?_, by simp⟩
          intro k d0 n h hno
          have := (l3 inc k d0 n h hno).1
          rw [hloop] at this
          simp at this

set_option maxRecDepth 1000000 in
/-- On `rstStream`, whose SOF0 segment declares 8 rows of 16 pixels and one
component, `DecodeConfig` returns the height 8, the width 16 and the Gray
model; on `sosFirstStream` it fails with "missing SOF marker". -/
theorem C4_decodeConfig_witness :
    (∃ e d, e ∈ segmentsOf true rstStream ∧
        decode (decoder.init rstStream) true = .ok (none, d) ∧
        SofAt rstStream e 8 16 d.nComp ∧
        (d.nComp = 1 ∨ d.nComp = 3 ∨ d.nComp = 4) ∧
        ColorModel.GrayModel =
          (if d.nComp = 1 then ColorModel.GrayModel
            else if d.nComp = 4 then ColorModel.CMYKModel
            else if isRGB d then ColorModel.RGBAModel else ColorModel.YCbCrModel)) ∧
      DecodeConfig sosFirstStream = .error (.formatError "missing SOF marker") :=
  ⟨(C4_decodeConfig rstStream).1 { ColorModel := .GrayModel, Width := 16, Height := 8 }
      (by decide!),
    (C4_decodeConfig sosFirstStream).2.1 0 sosFirstDecoder 0 (by decide!)
      (by intro j hj; omega)⟩

end Jpeg

namespace Jpeg

/-! ## What the segment handlers leave alone -/

theorem sameFrame_refl (d : decoder) : d.SameFrame d := ⟨rfl, rfl, rfl, rfl, rfl, rfl⟩

theorem sameFrame_trans (d d1 d2 : decoder) (h1 : d.SameFrame d1) (h2 : d1.SameFrame d2) :
    d.SameFrame d2 := by
  unfold decoder.SameFrame at h1 h2 ⊢
  obtain ⟨hj, hv, ht, hn, hc, hi⟩ := h2
  rw [hj, hv, ht, hn, hc, hi]
  exact h1

theorem withStream_frame (d : decoder) (s : Stream) : d.SameFrame (d.withStream s) :=
  ⟨rfl, rfl, rfl, rfl, rfl, rfl⟩

theorem decoder_ignore_frame (d d1 : decoder) (n : Nat) (h : d.ignore n = .ok d1) :
    d.SameFrame d1 := by
  unfold decoder.ignore at h
  split at h
  · simp at h
  · simp only [Except.ok.injEq] at h
    subst h
    exact withStream_frame d _

theorem processDRI_frame (d d1 : decoder) (n : Nat) (h : processDRI d n = .ok d1) :
    d.SameFrame d1 := by
  unfold processDRI at h
  split at h
  · simp at h
  · split at h
    · simp at h
    · simp only [Except.ok.injEq] at h
      subst h
      exact ⟨rfl, rfl, rfl, rfl, rfl, rfl⟩

theorem dqtFinish_frame (d d1 : decoder) (n : Nat) (h : dqtFinish d n = .ok d1) : d1 = d := by
  unfold dqtFinish at h
  split at h
  · simp at h
  · simp only [Except.ok.injEq] at h
    exact h.symm

theorem processDQTLoop_frame (fuel : Nat) :
    ∀ (d d1 : decoder) (n : Nat), processDQTLoop fuel d n = .ok d1 → d.SameFrame d1 := by
  induction fuel with
  | zero =>
    intro d d1 n h
    rw [processDQTLoop] at h
    simp only [] at h
    repeat' split at h
    all_goals first
      | (have e := dqtFinish_frame _ _ _ h; subst e; exact ⟨rfl, rfl, rfl, rfl, rfl, rfl⟩)
      | simp at h
  | succ fuel ih =>
    intro d d1 n h
    rw [processDQTLoop] at h
    simp only [] at h
    repeat' split at h
    all_goals first
      | (have e := dqtFinish_frame _ _ _ h; subst e; exact ⟨rfl, rfl, rfl, rfl, rfl, rfl⟩)
      | (have h2 := ih _ _ _ h; exact sameFrame_trans _ _ _ ⟨rfl, rfl, rfl, rfl, rfl, rfl⟩ h2)
      | simp at h

theorem processDQT_frame (d d1 : decoder) (n : Nat) (h : processDQT d n = .ok d1) :
    d.SameFrame d1 := processDQTLoop_frame _ d d1 n h

theorem dhtTable_frame (d d1 : decoder) (n n1 : Nat) (h : dhtTable d n = .ok (d1, n1)) :
    d.SameFrame d1 := by
  unfold dhtTable at h
  simp only [] at h
  repeat' split at h
  all_goals first
    | (simp only [Except.ok.injEq, Prod.mk.injEq] at h
       obtain ⟨h1, _⟩ := h
       subst h1
       exact ⟨rfl, rfl, rfl, rfl, rfl, rfl⟩)
    | simp at h

theorem processDHTLoop_frame (fuel : Nat) :
    ∀ (d d1 : decoder) (n : Nat), processDHTLoop fuel d n = .ok d1 → d.SameFrame d1 := by
  induction fuel with
  | zero =>
    intro d d1 n h
    rw [processDHTLoop] at h
    split at h
    · rcases ht : dhtTable d n with e | ⟨d2, n2⟩
      · rw [ht] at h; simp at h
      · rw [ht] at h
        simp only [] at h
        split at h
        · simp at h
        · simp only [Except.ok.injEq] at h
          subst h
          exact dhtTable_frame _ _ _ _ ht
    · simp only [Except.ok.injEq] at h
      subst h
      exact sameFrame_refl _
  | succ fuel ih =>
    intro d d1 n h
    rw [processDHTLoop] at h
    split at h
    · rcases ht : dhtTable d n with e | ⟨d2, n2⟩
      · rw [ht] at h; simp at h
      · rw [ht] at h
        simp only [] at h
        exact sameFrame_trans _ _ _ (dhtTable_frame _ _ _ _ ht) (ih _ _ _ h)
    · simp only [Except.ok.injEq] at h
      subst h
      exact sameFrame_refl _

theorem processDHT_frame (d d1 : decoder) (n : Nat) (h : processDHT d n = .ok d1) :
    d.SameFrame d1 := processDHTLoop_frame _ d d1 n h

/-- Method `processSOF` starts from a decoder without components and leaves
the colour hints and the gray image alone. -/
theorem processSOF_frame (d d1 : decoder) (n : Nat) (h : processSOF d n = .ok d1) :
    d.nComp = 0 ∧ d1.jfif = d.jfif ∧ d1.adobeTransformValid = d.adobeTransformValid ∧
      d1.adobeTransform = d.adobeTransform ∧ d1.img1 = d.img1 := by
  unfold processSOF at h
  simp only [] at h
  by_cases hn : d.nComp ≠ 0
  · rw [if_pos hn] at h; simp at h
  · rw [if_neg hn] at h
    refine ⟨by omega, ?_⟩
    repeat' split at h
    all_goals first
      | (simp only [Except.ok.injEq] at h
         subst h
         exact ⟨rfl, rfl, rfl, rfl⟩)
      | simp at h

end Jpeg

namespace Jpeg

/-! ## What a scan leaves alone -/

theorem forRange_inv {σ : Type} (P : σ → Prop) (f : Nat → σ → Except Err σ)
    (hf : ∀ i st st1, P st → f i st = .ok st1 → P st1) :
    ∀ (k i : Nat) (st st1 : σ), P st → forRange f k i st = .ok st1 → P st1 := by
  intro k
  induction k with
  | zero =>
    intro i st st1 hP h
    rw [forRange] at h
    simp only [Except.ok.injEq] at h
    subst h
    exact hP
  | succ k ih =>
    intro i st st1 hP h
    rw [forRange] at h
    rcases hfi : f i st with e | st2
    · rw [hfi] at h; simp at h
    · rw [hfi] at h
      exact ih (i + 1) st2 st1 (hf i st st2 hP hfi) h

theorem reconstructBlock_img1 (d : decoder) (ci bx by_ : Nat) (b : block) (st st1 : ScanState)
    (I0 : Option Gray) (hP : st.img1 = I0 ∨ d.nComp = 1)
    (h : reconstructBlock d ci bx by_ b st = .ok st1) : st1.img1 = I0 ∨ d.nComp = 1 := by
  unfold reconstructBlock at h
  simp only [] at h
  by_cases hn : d.nComp = 1
  · exact Or.inr hn
  · rw [if_neg hn] at h
    repeat' split at h
    all_goals first
      | (simp only [Except.ok.injEq] at h
         subst h
         exact hP)
      | simp at h

theorem decodeBlock_img1 (d : decoder) (p : ScanParams) (sc : scanComp) (st0 st1 : ScanState)
    (b b1 : block) (h : decodeBlock d p sc st0 b = .ok (b1, st1)) : st1.img1 = st0.img1 := by
  unfold decodeBlock at h
  repeat' split at h
  all_goals first
    | (simp only [Except.ok.injEq, Prod.mk.injEq] at h
       obtain ⟨_, h2⟩ := h
       subst h2
       rfl)
    | simp at h

theorem finishBlock_img1 (d : decoder) (p : ScanParams) (ci bx by_ idx : Nat) (b1 : block)
    (st st1 : ScanState) (I0 : Option Gray) (hP : st.img1 = I0 ∨ d.nComp = 1)
    (h : finishBlock d p ci bx by_ idx b1 st = .ok st1) : st1.img1 = I0 ∨ d.nComp = 1 := by
  unfold finishBlock at h
  repeat' split at h
  all_goals first
    | (simp only [Except.ok.injEq] at h
       subst h
       exact hP)
    | (exact reconstructBlock_img1 _ _ _ _ _ _ _ I0 hP h)
    | simp at h

theorem scanBlock_img1 (d : decoder) (p : ScanParams) (mx my i j : Nat) (st st1 : ScanState)
    (I0 : Option Gray) (hP : st.img1 = I0 ∨ d.nComp = 1)
    (h : scanBlock d p mx my i j st = .ok st1) : st1.img1 = I0 ∨ d.nComp = 1 := by
  unfold scanBlock at h
  simp only [] at h
  generalize hst0 : (if p.nComp ≠ 1 then st
    else ({ st with blockCount := st.blockCount + 1 } : ScanState)) = st0 at h
  have hP0 : st0.img1 = I0 ∨ d.nComp = 1 := by
    rw [← hst0]
    split
    · exact hP
    · exact hP
  repeat' split at h
  all_goals first
    | (simp only [Except.ok.injEq] at h
       subst h
       exact hP0)
    | (rename_i hdec
       exact finishBlock_img1 _ _ _ _ _ _ _ _ _ I0
         (by rw [decodeBlock_img1 _ _ _ _ _ _ _ hdec]; exact hP0) h)
    | simp at h

theorem scanMCU_img1 (d : decoder) (p : ScanParams) (mx my : Nat) (st st1 : ScanState)
    (I0 : Option Gray) (hP : st.img1 = I0 ∨ d.nComp = 1)
    (h : scanMCU d p mx my st = .ok st1) : st1.img1 = I0 ∨ d.nComp = 1 := by
  unfold scanMCU at h
  refine forRange_inv (fun st => st.img1 = I0 ∨ d.nComp = 1) _ ?_ _ _ _ _ hP h
  intro i st2 st3 hP2 h2
  simp only [] at h2
  exact forRange_inv (fun st => st.img1 = I0 ∨ d.nComp = 1) _
    (fun j st4 st5 hP4 h4 => scanBlock_img1 d p mx my i j st4 st5 I0 hP4 h4) _ _ _ _ hP2 h2

theorem scanRestart_img1 (d : decoder) (p : ScanParams) (ms ms1 : McuState)
    (h : scanRestart d p ms = .ok ms1) : ms1.st.img1 = ms.st.img1 := by
  unfold scanRestart at h
  simp only [] at h
  repeat' split at h
  all_goals first
    | (simp only [Except.ok.injEq] at h
       subst h
       rfl)
    | simp at h

theorem scanStep_img1 (d : decoder) (p : ScanParams) (my mx : Nat) (ms ms1 : McuState)
    (I0 : Option Gray) (hP : ms.st.img1 = I0 ∨ d.nComp = 1)
    (h : scanStep d p my mx ms = .ok ms1) : ms1.st.img1 = I0 ∨ d.nComp = 1 := by
  unfold scanStep at h
  rcases hm : scanMCU d p mx my ms.st with e | st1
  · rw [hm] at h; simp at h
  · rw [hm] at h
    simp only [] at h
    have h1 := scanMCU_img1 d p mx my ms.st st1 I0 hP hm
    rw [scanRestart_img1 d p _ ms1 h]
    exact h1

theorem scanLoop_img1 (d : decoder) (p : ScanParams) (ms ms1 : McuState)
    (I0 : Option Gray) (hP : ms.st.img1 = I0 ∨ d.nComp = 1)
    (h : scanLoop d p ms = .ok ms1) : ms1.st.img1 = I0 ∨ d.nComp = 1 := by
  unfold scanLoop at h
  refine forRange_inv (fun ms => ms.st.img1 = I0 ∨ d.nComp = 1) _ ?_ _ _ _ _ hP h
  intro my ms2 ms3 hP2 h2
  simp only [] at h2
  exact forRange_inv (fun ms => ms.st.img1 = I0 ∨ d.nComp = 1) _
    (fun mx ms4 ms5 hP4 h4 => scanStep_img1 d p my mx ms4 ms5 I0 hP4 h4) _ _ _ _ hP2 h2

theorem scanHeader_frame (d d1 : decoder) (n : Nat) (hd : ScanHeader)
    (h : scanHeader d n = .ok (d1, hd)) : d.SameFrame d1 := by
  unfold scanHeader at h
  simp only [] at h
  repeat' split at h
  all_goals first
    | (simp only [Except.ok.injEq, Prod.mk.injEq] at h
       obtain ⟨h1, _⟩ := h
       subst h1
       exact ⟨rfl, rfl, rfl, rfl, rfl, rfl⟩)
    | simp at h

theorem makeImg_frame (d d1 : decoder) (mxx myy : Nat) (h : makeImg d mxx myy = .ok d1) :
    d1.jfif = d.jfif ∧ d1.adobeTransformValid = d.adobeTransformValid ∧
      d1.adobeTransform = d.adobeTransform ∧ d1.nComp = d.nComp ∧ d1.comp = d.comp ∧
      (d1.img1 = d.img1 ∨ d.nComp = 1) := by
  unfold makeImg at h
  simp only [] at h
  by_cases hn : d.nComp = 1
  · rw [if_pos hn] at h
    simp only [Except.ok.injEq] at h
    subst h
    exact ⟨rfl, rfl, rfl, rfl, rfl, Or.inr hn⟩
  · rw [if_neg hn] at h
    repeat' split at h
    all_goals first
      | (simp only [Except.ok.injEq] at h
         subst h
         exact ⟨rfl, rfl, rfl, rfl, rfl, Or.inl rfl⟩)
      | simp at h

theorem scanAlloc_frame (d1 d3 : decoder) (hd : ScanHeader) (p : ScanParams) (ms0 : McuState)
    (h : scanAlloc d1 hd = .ok (d3, p, ms0)) :
    d3.jfif = d1.jfif ∧ d3.adobeTransformValid = d1.adobeTransformValid ∧
      d3.adobeTransform = d1.adobeTransform ∧ d3.nComp = d1.nComp ∧ d3.comp = d1.comp ∧
      (ms0.st.img1 = d1.img1 ∨ d1.nComp = 1) := by
  unfold scanAlloc at h
  simp only [] at h
  split at h
  · simp at h
  · split at h
    · simp at h
    · next d2 hmade =>
      simp only [Except.ok.injEq, Prod.mk.injEq] at h
      obtain ⟨h1, _, h3⟩ := h
      subst h1 h3
      split at hmade
      · obtain ⟨a1, a2, a3, a4, a5, a6⟩ := makeImg_frame _ _ _ _ hmade
        exact ⟨a1, a2, a3, a4, a5, a6⟩
      · simp only [Except.ok.injEq] at hmade
        subst hmade
        exact ⟨rfl, rfl, rfl, rfl, rfl, Or.inl rfl⟩

/-- Method `processSOS` leaves the colour hints and the components alone, and
a gray image that it leaves is that of before unless the frame has one
component. -/
theorem processSOS_frame (d d1 : decoder) (n : Nat) (h : processSOS d n = .ok d1) :
    d1.jfif = d.jfif ∧ d1.adobeTransformValid = d.adobeTransformValid ∧
      d1.adobeTransform = d.adobeTransform ∧ d1.nComp = d.nComp ∧ d1.comp = d.comp ∧
      (d1.img1 = d.img1 ∨ d.nComp = 1) := by
  unfold processSOS at h
  rcases hs : scanSetup d n with e | ⟨d3, p, ms0⟩
  · rw [hs] at h; simp at h
  · rw [hs] at h
    simp only [] at h
    unfold scanSetup at hs
    rcases hh : scanHeader d n with e | ⟨d0, hd⟩
    · rw [hh] at hs; simp at hs
    · rw [hh] at hs
      simp only [] at hs
      obtain ⟨f1, f2, f3, f4, f5, f6⟩ := scanHeader_frame _ _ _ _ hh
      obtain ⟨a1, a2, a3, a4, a5, a6⟩ := scanAlloc_frame _ _ _ _ _ hs
      rcases hl : scanLoop d3 p ms0 with e | ms
      · rw [hl] at h; simp at h
      · rw [hl] at h
        simp only [Except.ok.injEq] at h
        subst h
        have hi := scanLoop_img1 d3 p ms0 ms ms0.st.img1 (Or.inl rfl) hl
        refine ⟨a1.trans f1, a2.trans f2, a3.trans f3, a4.trans f4, a5.trans f5, ?_⟩
        show ms.st.img1 = d.img1 ∨ d.nComp = 1
        rcases hi with hi | hi
        · rcases a6 with a6 | a6
          · left; rw [hi, a6, f6]
          · right; rw [← f4]; exact a6
        · right; rw [← f4, ← a4]; exact hi

end Jpeg

namespace Jpeg

/-! ## The colour hints along the segment loop -/

theorem segmentHeader_frame (d : decoder) (hdr : Header) (h : segmentHeader d = .ok hdr) :
    d.SameFrame hdr.dec := by
  unfold segmentHeader at h
  simp only [] at h
  repeat' split at h
  all_goals first
    | (simp only [Except.ok.injEq] at h
       subst h
       exact ⟨rfl, rfl, rfl, rfl, rfl, rfl⟩)
    | simp at h

theorem hints_of_frame (d d1 : decoder) (h : d.SameFrame d1) (e : decoder × Nat × Nat)
    (h0 : isApp0 e = false) (h14 : isAdobe e = false) :
    d1.hints = hintStep d.hints e := by
  obtain ⟨a1, a2, a3, _⟩ := h
  simp only [decoder.hints, hintStep, h0, h14, a1, a2, a3, Bool.false_eq_true, ↓reduceIte]

theorem grayOnly_of_frame (d d1 : decoder) (h : d.SameFrame d1) (hg : d.GrayOnly) :
    d1.GrayOnly := by
  obtain ⟨_, _, _, a4, _, a6⟩ := h
  intro h1
  rw [a4]
  exact hg (by rw [← a6]; exact h1)

theorem processApp0Marker_hints (d d1 : decoder) (n : Nat)
    (h : processApp0Marker d n = .ok d1) :
    d1.hints = hintStep d.hints (d, app0Marker, n) ∧ d1.nComp = d.nComp ∧ d1.img1 = d.img1 := by
  have h14 : isAdobe (d, app0Marker, n) = false := by
    simp [isAdobe, app0Marker, app14Marker]
  unfold processApp0Marker at h
  by_cases hn : n < 5
  · rw [if_pos hn] at h
    have hf := decoder_ignore_frame d d1 n h
    have h0 : isApp0 (d, app0Marker, n) = false := by
      simp only [isApp0, decide_eq_false_iff_not, not_and]; intro _; omega
    exact ⟨hints_of_frame d d1 hf _ h0 h14, hf.2.2.2.1, hf.2.2.2.2.2⟩
  · rw [if_neg hn] at h
    have h0 : isApp0 (d, app0Marker, n) = true := by
      simp only [isApp0, decide_eq_true_eq]; exact ⟨trivial, by omega⟩
    rcases hrf : readFull d.stream 5 with e | ⟨tmp, s⟩
    · rw [hrf] at h; simp at h
    · rw [hrf] at h
      simp only [] at h
      have hph : payloadHead d 5 = tmp := by rw [payloadHead, hrf]
      have key : ∀ d2 : decoder, d2.adobeTransformValid = d.adobeTransformValid →
          d2.adobeTransform = d.adobeTransform →
          d2.jfif = decide (tmp.getD 0 0 = 0x4a ∧ tmp.getD 1 0 = 0x46 ∧ tmp.getD 2 0 = 0x49 ∧
            tmp.getD 3 0 = 0x46 ∧ tmp.getD 4 0 = 0x00) →
          d2.hints = hintStep d.hints (d, app0Marker, n) := by
        intro d2 e1 e2 e3
        simp only [decoder.hints, hintStep, h0, h14, e1, e2, e3, carriesJFIF, hph,
          Bool.false_eq_true, ↓reduceIte]
      split at h
      · have hf := decoder_ignore_frame _ d1 _ h
        obtain ⟨a1, a2, a3, a4, _, a6⟩ := hf
        exact ⟨key d1 a2 a3 a1, a4, a6⟩
      · simp only [Except.ok.injEq] at h
        subst h
        exact ⟨key _ rfl rfl rfl, rfl, rfl⟩

theorem processApp14Marker_hints (d d1 : decoder) (n : Nat)
    (h : processApp14Marker d n = .ok d1) :
    d1.hints = hintStep d.hints (d, app14Marker, n) ∧ d1.nComp = d.nComp ∧
      d1.img1 = d.img1 := by
  have h0 : isApp0 (d, app14Marker, n) = false := by
    simp [isApp0, app0Marker, app14Marker]
  unfold processApp14Marker at h
  by_cases hn : n < 12
  · rw [if_pos hn] at h
    have hf := decoder_ignore_frame d d1 n h
    have h14 : isAdobe (d, app14Marker, n) = false := by
      simp only [isAdobe, decide_eq_false_iff_not, not_and]; intro _ _; omega
    exact ⟨hints_of_frame d d1 hf _ h0 h14, hf.2.2.2.1, hf.2.2.2.2.2⟩
  · rw [if_neg hn] at h
    rcases hrf : readFull d.stream 12 with e | ⟨tmp, s⟩
    · rw [hrf] at h; simp at h
    · rw [hrf] at h
      simp only [] at h
      have hph : payloadHead d 12 = tmp := by rw [payloadHead, hrf]
      by_cases hsig : tmp.getD 0 0 = 0x41 ∧ tmp.getD 1 0 = 0x64 ∧ tmp.getD 2 0 = 0x6f ∧
          tmp.getD 3 0 = 0x62 ∧ tmp.getD 4 0 = 0x65
      · rw [if_pos hsig] at h
        have h14 : isAdobe (d, app14Marker, n) = true := by
          simp only [isAdobe, hph, decide_eq_true_eq]
          exact ⟨trivial, by omega, hsig⟩
        have key : ∀ d2 : decoder, d2.jfif = d.jfif → d2.adobeTransformValid = true →
            d2.adobeTransform = tmp.getD 11 0 →
            d2.hints = hintStep d.hints (d, app14Marker, n) := by
          intro d2 e1 e2 e3
          simp only [decoder.hints, hintStep, h0, h14, e1, e2, e3, adobeTransformOf, hph,
            Bool.false_eq_true, ↓reduceIte]
        split at h
        · obtain ⟨a1, a2, a3, a4, _, a6⟩ := decoder_ignore_frame _ d1 _ h
          exact ⟨key d1 a1 a2 a3, a4, a6⟩
        · simp only [Except.ok.injEq] at h
          subst h
          exact ⟨key _ rfl rfl rfl, rfl, rfl⟩
      · rw [if_neg hsig] at h
        have h14 : isAdobe (d, app14Marker, n) = false := by
          simp only [isAdobe, hph, decide_eq_false_iff_not]
          exact fun hh => hsig hh.2.2
        split at h
        · have hf := sameFrame_trans _ _ _ (withStream_frame d s) (decoder_ignore_frame _ d1 _ h)
          exact ⟨hints_of_frame d d1 hf _ h0 h14, hf.2.2.2.1, hf.2.2.2.2.2⟩
        · simp only [Except.ok.injEq] at h
          subst h
          exact ⟨hints_of_frame d _ (withStream_frame d s) _ h0 h14, rfl, rfl⟩

theorem hints_of_other (d d1 : decoder) (marker n : Nat) (h1 : d1.jfif = d.jfif)
    (h2 : d1.adobeTransformValid = d.adobeTransformValid)
    (h3 : d1.adobeTransform = d.adobeTransform) (hm0 : marker ≠ app0Marker)
    (hm14 : marker ≠ app14Marker) : d1.hints = hintStep d.hints (d, marker, n) := by
  have h0 : isApp0 (d, marker, n) = false := by
    simp only [isApp0, decide_eq_false_iff_not, not_and]
    intro h; exact absurd h hm0
  have h14 : isAdobe (d, marker, n) = false := by
    simp only [isAdobe, decide_eq_false_iff_not, not_and]
    intro h; exact absurd h hm14
  simp only [decoder.hints, hintStep, h0, h14, h1, h2, h3, Bool.false_eq_true, ↓reduceIte]

theorem wrap_next (r : Except Err decoder) (o : Outcome)
    (h : (match r with
      | .error e => (.error e : Except Err Outcome)
      | .ok d1 => .ok (.next d1)) = .ok o) : ∃ d1, r = .ok d1 ∧ o = .next d1 := by
  rcases r with e | d1
  · simp at h
  · simp only [Except.ok.injEq] at h
    exact ⟨d1, rfl, h.symm⟩

/-- The `switch marker` of `decode` when an image is decoded: the round goes
on, the colour hints change as `hintStep` says, and a gray image stays with a
one-component decoder. -/
theorem fullMarker_spec (d : decoder) (marker n : Nat) (o : Outcome)
    (h : decodeMarker false d marker n = .ok o) :
    ∃ d1, o = .next d1 ∧ d1.hints = hintStep d.hints (d, marker, n) ∧
      (d.GrayOnly → d1.GrayOnly) := by
  unfold decodeMarker at h
  simp only [] at h
  by_cases hsof : marker = sof0Marker ∨ marker = sof1Marker ∨ marker = sof2Marker
  · rw [if_pos hsof] at h
    have hm0 : marker ≠ app0Marker := by
      rcases hsof with h | h | h <;> rw [h] <;> decide
    have hm14 : marker ≠ app14Marker := by
      rcases hsof with h | h | h <;> rw [h] <;> decide
    rcases hp : processSOF { d with progressive := decide (marker = sof2Marker) } n with e | d2
    · rw [hp] at h; simp at h
    · rw [hp] at h
      simp only [Bool.false_eq_true, false_and, ↓reduceIte, Except.ok.injEq] at h
      obtain ⟨q1, q2, q3, q4, q5⟩ := processSOF_frame _ _ _ hp
      refine ⟨d2, h.symm, hints_of_other d d2 marker n q2 q3 q4 hm0 hm14, ?_⟩
      intro hg hne
      have : d.img1 = none := by
        by_contra hcon
        have := hg hcon
        have q1' : d.nComp = 0 := q1
        omega
      exact absurd (q5.trans this) hne
  · rw [if_neg hsof] at h
    have frameCase : ∀ (r : Except Err decoder), marker ≠ app0Marker → marker ≠ app14Marker →
        (∀ d1, r = .ok d1 → d.SameFrame d1) →
        (match r with
          | .error e => (.error e : Except Err Outcome)
          | .ok d1 => .ok (.next d1)) = .ok o →
        ∃ d1, o = .next d1 ∧ d1.hints = hintStep d.hints (d, marker, n) ∧
          (d.GrayOnly → d1.GrayOnly) := by
      intro r hm0 hm14 hfr hw
      obtain ⟨d1, e1, e2⟩ := wrap_next r o hw
      have hf := hfr d1 e1
      exact ⟨d1, e2, hints_of_other d d1 marker n hf.1 hf.2.1 hf.2.2.1 hm0 hm14,
        grayOnly_of_frame d d1 hf⟩
    by_cases h1 : marker = dhtMarker
    · rw [if_pos h1] at h
      simp only [Bool.false_eq_true, ↓reduceIte] at h
      exact frameCase _ (by rw [h1]; decide) (by rw [h1]; decide)
        (fun d1 hh => processDHT_frame d d1 n hh) h
    · rw [if_neg h1] at h
      by_cases h2 : marker = dqtMarker
      · rw [if_pos h2] at h
        simp only [Bool.false_eq_true, ↓reduceIte] at h
        exact frameCase _ (by rw [h2]; decide) (by rw [h2]; decide)
          (fun d1 hh => processDQT_frame d d1 n hh) h
      · rw [if_neg h2] at h
        by_cases h3 : marker = sosMarker
        · rw [if_pos h3] at h
          simp only [Bool.false_eq_true, ↓reduceIte] at h
          obtain ⟨d1, e1, e2⟩ := wrap_next _ o h
          obtain ⟨a1, a2, a3, a4, a5, a6⟩ := processSOS_frame d d1 n e1
          refine ⟨d1, e2, hints_of_other d d1 marker n a1 a2 a3 (by rw [h3]; decide)
            (by rw [h3]; decide), ?_⟩
          intro hg hne
          rw [a4]
          rcases a6 with a6 | a6
          · exact hg (by rw [← a6]; exact hne)
          · exact a6
        · rw [if_neg h3] at h
          by_cases h4 : marker = driMarker
          · rw [if_pos h4] at h
            simp only [Bool.false_eq_true, ↓reduceIte] at h
            exact frameCase _ (by rw [h4]; decide) (by rw [h4]; decide)
              (fun d1 hh => processDRI_frame d d1 n hh) h
          · rw [if_neg h4] at h
            by_cases h5 : marker = app0Marker
            · rw [if_pos h5] at h
              obtain ⟨d1, e1, e2⟩ := wrap_next _ o h
              obtain ⟨a1, a2, a3⟩ := processApp0Marker_hints d d1 n e1
              refine ⟨d1, e2, by rw [h5]; exact a1, ?_⟩
              intro hg hne
              rw [a2]
              exact hg (by rw [← a3]; exact hne)
            · rw [if_neg h5] at h
              by_cases h6 : marker = app14Marker
              · rw [if_pos h6] at h
                obtain ⟨d1, e1, e2⟩ := wrap_next _ o h
                obtain ⟨a1, a2, a3⟩ := processApp14Marker_hints d d1 n e1
                refine ⟨d1, e2, by rw [h6]; exact a1, ?_⟩
                intro hg hne
                rw [a2]
                exact hg (by rw [← a3]; exact hne)
              · rw [if_neg h6] at h
                by_cases h7 : (app0Marker ≤ marker ∧ marker ≤ app15Marker) ∨ marker = comMarker
                · rw [if_pos h7] at h
                  exact frameCase _ h5 h6 (fun d1 hh => decoder_ignore_frame d d1 n hh) h
                · rw [if_neg h7] at h
                  split at h <;> simp at h

end Jpeg

namespace Jpeg

/-! ## The colour hints at the end of the segment loop -/

theorem fullLoop_hints (fuel : Nat) :
    ∀ (d d2 : decoder) (b : Bool), decodeLoop false fuel d = .ok (d2, b) →
      d2.hints = (decodeTrace false fuel d).foldl hintStep d.hints ∧
        (d.GrayOnly → d2.GrayOnly) := by
  induction fuel with
  | zero =>
    intro d d2 b h
    rcases hh : segmentHeader d with e | hdr
    · rw [(round_error false 0 d e hh).1] at h; simp at h
    · have hf := segmentHeader_frame d hdr hh
      have hhint : hdr.dec.hints = d.hints := by
        simp only [decoder.hints, hf.1, hf.2.1, hf.2.2.1]
      rcases hdr with d1 | d1 | ⟨d1, marker, n⟩
      · rw [decodeLoop] at h
        simp [decodeSegment, hh] at h
      · obtain ⟨r1, r2⟩ := round_eoi false 0 d d1 hh
        rw [r1] at h
        simp only [Except.ok.injEq, Prod.mk.injEq] at h
        obtain ⟨rfl, _⟩ := h
        rw [r2]
        exact ⟨by rw [← hhint]; rfl, grayOnly_of_frame d _ hf⟩
      · rcases hm : decodeMarker false d1 marker n with e | o
        · rw [(round_seg_error false 0 d d1 marker n e hh hm).1] at h; simp at h
        · obtain ⟨d3, rfl, _, _⟩ := fullMarker_spec d1 marker n o hm
          rw [decodeLoop] at h
          simp [decodeSegment, hh, hm] at h
  | succ fuel ih =>
    intro d d2 b h
    rcases hh : segmentHeader d with e | hdr
    · rw [(round_error false _ d e hh).1] at h; simp at h
    · have hf := segmentHeader_frame d hdr hh
      have hhint : hdr.dec.hints = d.hints := by
        simp only [decoder.hints, hf.1, hf.2.1, hf.2.2.1]
      rcases hdr with d1 | d1 | ⟨d1, marker, n⟩
      · obtain ⟨r1, r2⟩ := round_skip false fuel d d1 hh
        rw [r1] at h
        obtain ⟨i1, i2⟩ := ih d1 d2 b h
        rw [r2, i1]
        exact ⟨by rw [← hhint]; rfl, fun hg => i2 (grayOnly_of_frame d _ hf hg)⟩
      · obtain ⟨r1, r2⟩ := round_eoi false (fuel + 1) d d1 hh
        rw [r1] at h
        simp only [Except.ok.injEq, Prod.mk.injEq] at h
        obtain ⟨rfl, _⟩ := h
        rw [r2]
        exact ⟨by rw [← hhint]; rfl, grayOnly_of_frame d _ hf⟩
      · rcases hm : decodeMarker false d1 marker n with e | o
        · rw [(round_seg_error false _ d d1 marker n e hh hm).1] at h; simp at h
        · obtain ⟨d3, rfl, m1, m2⟩ := fullMarker_spec d1 marker n o hm
          obtain ⟨r1, r2⟩ := round_seg_next false fuel d d1 d3 marker n hh hm
          rw [r1] at h
          obtain ⟨i1, i2⟩ := ih d3 d2 b h
          rw [r2, i1, List.foldl_cons, m1]
          exact ⟨by rw [← hhint]; rfl, fun hg => i2 (m2 (grayOnly_of_frame d _ hf hg))⟩

theorem filter_concat (p : decoder × Nat × Nat → Bool) (l : List (decoder × Nat × Nat))
    (e : decoder × Nat × Nat) :
    ((l ++ [e]).filter p).getLast? = if p e then some e else (l.filter p).getLast? := by
  rw [List.filter_append]
  by_cases h : p e = true
  · rw [if_pos h, List.filter_cons_of_pos h, List.filter_nil, List.getLast?_concat]
  · rw [if_neg h, List.filter_cons_of_neg h, List.filter_nil, List.append_nil]

/-- The colour hints after the segments `tr`, from the hints of a new decoder. -/
theorem hintFold (tr : List (decoder × Nat × Nat)) :
    (tr.foldl hintStep (false, false, 0)).1 = lastJFIF tr ∧
      ((tr.foldl hintStep (false, false, 0)).2.1 = true ∧
          (tr.foldl hintStep (false, false, 0)).2.2 = adobeTransformUnknown ↔
        lastAdobeUnknown tr = true) ∧
      ((tr.foldl hintStep (false, false, 0)).2.1 = false → tr.filter isAdobe = []) := by
  induction tr using List.reverseRecOn with
  | nil =>
    refine ⟨rfl, ?_, fun _ => rfl⟩
    simp [lastAdobeUnknown]
  | append_singleton l e ih =>
    obtain ⟨i1, i2, i3⟩ := ih
    rw [List.foldl_append, List.foldl_cons, List.foldl_nil]
    unfold lastJFIF lastAdobeUnknown at *
    rw [filter_concat, filter_concat]
    refine ⟨?_, ?_, ?_⟩
    · by_cases h : isApp0 e = true
      · simp only [hintStep, h, ↓reduceIte]
      · simp only [hintStep, h, Bool.false_eq_true, ↓reduceIte]
        exact i1
    · by_cases h : isAdobe e = true
      · simp only [hintStep, h, ↓reduceIte, true_and, decide_eq_true_eq]
      · simp only [hintStep, h, Bool.false_eq_true, ↓reduceIte]
        exact i2
    · by_cases h : isAdobe e = true
      · simp only [hintStep, h, ↓reduceIte]
        intro hc; simp at hc
      · simp only [hintStep, h, Bool.false_eq_true, ↓reduceIte]
        intro hc
        rw [List.filter_append, i3 hc, List.filter_cons_of_neg h]
        rfl

theorem convertToRGB_rgba (d : decoder) (m : YCbCr) (o : Option Image)
    (h : convertToRGB d m = .ok o) : ∃ x, o = some (.rgba x) := by
  unfold convertToRGB at h
  simp only [] at h
  repeat' split at h
  all_goals first
    | (simp only [Except.ok.injEq] at h
       exact ⟨_, h.symm⟩)
    | simp at h

theorem decodeResult_three (d : decoder) (img : Image) (h1 : d.img1 = none)
    (h : decodeResult d = .ok (some img)) :
    img.isRGBA = isRGB d ∧ (img.isRGBA = false → ∃ m, d.img3 = some m ∧ img = .ycbcr m) := by
  unfold decodeResult at h
  rw [h1] at h
  simp only [] at h
  rcases h3 : d.img3 with _ | m
  · rw [h3] at h; simp at h
  · rw [h3] at h
    simp only [] at h
    by_cases hb : d.blackPix ≠ none
    · rw [if_pos hb] at h
      simp [applyBlack] at h
    · rw [if_neg hb] at h
      by_cases hr : isRGB d = true
      · rw [if_pos hr] at h
        obtain ⟨x, hx⟩ := convertToRGB_rgba d m _ h
        simp only [Option.some.injEq] at hx
        subst hx
        exact ⟨by rw [hr]; rfl, by intro hc; simp [Image.isRGBA] at hc⟩
      · rw [if_neg hr] at h
        simp only [Except.ok.injEq, Option.some.injEq] at h
        subst h
        exact ⟨by simp only [Image.isRGBA]; simpa using hr, fun _ => ⟨m, rfl, rfl⟩⟩

theorem isRGB_iff (d : decoder) :
    isRGB d = true ↔ d.jfif = false ∧
      ((d.adobeTransformValid = true ∧ d.adobeTransform = adobeTransformUnknown) ∨ idsRGB d) := by
  unfold isRGB idsRGB
  by_cases hj : d.jfif = true
  · simp [hj]
  · by_cases ha : d.adobeTransformValid = true ∧ d.adobeTransform = adobeTransformUnknown
    · simp [hj, ha]
    · simp only [hj, Bool.false_eq_true, ↓reduceIte, ha, decide_eq_true_eq, false_or]
      simp at hj
      simp [hj]

/-- What `decode` returns when an image is decoded, with the colour hints read
off the segments of the stream. -/
theorem decode_image (r : List Nat) (img : Image) (d : decoder)
    (h : decode (decoder.init r) false = .ok (some img, d)) :
    decodeResult d = .ok (some img) ∧ d.GrayOnly ∧
      d.hints = (segmentsOf false r).foldl hintStep (false, false, 0) := by
  obtain ⟨_, _, _, _, q5, _⟩ := init_ok r
  rcases hrf : readFull (decoder.init r).stream 2 with e | ⟨tmp, s⟩
  · rw [((decode_bad_start false r).1 e hrf).1] at h; simp at h
  · by_cases hsoi : tmp.getD 0 0 ≠ 0xff ∨ tmp.getD 1 0 ≠ soiMarker
    · rw [((decode_bad_start false r).2 tmp s hrf hsoi).1] at h; simp at h
    · obtain ⟨c1, c2, c3, c4, c5⟩ := decode_cases false r tmp s hrf hsoi
      rcases hl : decodeLoop false ((decoder.init r).withStream s).bytes.remaining
          ((decoder.init r).withStream s) with e | ⟨d2, b⟩
      · rw [c1 e hl] at h; simp at h
      · cases b with
        | false => rw [c2 d2 hl] at h; simp at h
        | true =>
          rcases hres : decodeResult d2 with e | o
          · rw [c3 d2 e hl hres] at h; simp at h
          · rw [c4 d2 o hl hres] at h
            simp only [Except.ok.injEq, Prod.mk.injEq] at h
            obtain ⟨rfl, rfl⟩ := h
            obtain ⟨l1, l2⟩ := fullLoop_hints _ _ _ _ hl
            refine ⟨hres, l2 ?_, ?_⟩
            · intro hne; exact absurd q5 hne
            · rw [c5, l1]; rfl

end Jpeg

namespace Jpeg

/-! ## Claim on the colour interpretation of three-component frames -/

end Jpeg

namespace Jpeg

/-! ## Claims on the zig-zag table and on `idct` -/

/-- C11: the table `unzig` lists, for every zig-zag position `k` in 0..63, the
natural position `8 * row + col` of the `k`-th cell that the standard zig-zag
traversal of an 8x8 block visits (anti-diagonals of increasing `row + col`,
with alternating direction, from the top-left cell and moving right first);
the traversal visits every cell of the block once, and `unzig[3] = 16`, column
0 of row 2. -/
theorem C11_unzig_is_zigzag :
    unzig = zigzagCells.map (fun c => 8 * c.1 + c.2) ∧
    zigzagCells.length = 64 ∧ zigzagCells.Nodup ∧
    zigzagCells.all (fun c => decide (c.1 < 8 ∧ c.2 < 8)) = true ∧
    zigzagCells.take 4 = [(0, 0), (0, 1), (1, 0), (2, 0)] ∧
    unzig.getD 3 0 = 16 ∧ zigzagCells.getD 3 (0, 0) = (2, 0) := by
  decide

theorem wrap32_wrap32 (x : Int) : wrap32 (wrap32 x) = wrap32 x := by
  unfold wrap32
  omega

/-- The horizontal pass of `idct` on a row whose AC coefficients are zero. -/
theorem idctRow_dc (src : block) (y : Nat) (a : Int)
    (ha : shl32 (src.getD (y * 8 + 0) 0) 3 = a)
    (h1 : src.getD (y * 8 + 1) 0 = 0) (h2 : src.getD (y * 8 + 2) 0 = 0)
    (h3 : src.getD (y * 8 + 3) 0 = 0) (h4 : src.getD (y * 8 + 4) 0 = 0)
    (h5 : src.getD (y * 8 + 5) 0 = 0) (h6 : src.getD (y * 8 + 6) 0 = 0)
    (h7 : src.getD (y * 8 + 7) 0 = 0) :
    idctRow src y =
      ((((((((src.set (y * 8 + 0) a).set (y * 8 + 1) a).set (y * 8 + 2) a).set
        (y * 8 + 3) a).set (y * 8 + 4) a).set (y * 8 + 5) a).set (y * 8 + 6) a).set
        (y * 8 + 7) a) := by
  unfold idctRow
  simp only []
  rw [if_pos ⟨h1, h2, h3, h4, h5, h6, h7⟩, ha]

/-- The vertical pass of `idct` on a column whose entries below the first are
zero. -/
theorem idctCol_dc (src : block) (x : Nat) (a v : Int)
    (hv : shr32 (add32 (shl32 a 8) 8192) 14 = v)
    (h0 : src.getD (8 * 0 + x) 0 = a) (h1 : src.getD (8 * 1 + x) 0 = 0)
    (h2 : src.getD (8 * 2 + x) 0 = 0) (h3 : src.getD (8 * 3 + x) 0 = 0)
    (h4 : src.getD (8 * 4 + x) 0 = 0) (h5 : src.getD (8 * 5 + x) 0 = 0)
    (h6 : src.getD (8 * 6 + x) 0 = 0) (h7 : src.getD (8 * 7 + x) 0 = 0) :
    idctCol src x =
      ((((((((src.set (8 * 0 + x) v).set (8 * 1 + x) v).set (8 * 2 + x) v).set
        (8 * 3 + x) v).set (8 * 4 + x) v).set (8 * 5 + x) v).set (8 * 6 + x) v).set
        (8 * 7 + x) v) := by
  unfold idctCol
  simp only [h0, h1, h2, h3, h4, h5, h6, h7]
  have e0 : add32 (0 : Int) 0 = 0 := by decide
  have m (c : Int) : mul32 c 0 = 0 := by simp [mul32, wrap32]
  have e1 : add32 (0 : Int) 4 = 4 := by decide
  have e2 : sub32 (4 : Int) 0 = 4 := by decide
  have e3 : add32 (4 : Int) 0 = 4 := by decide
  have e4 : shr32 (4 : Int) 3 = 0 := by decide
  have e5 : sub32 (0 : Int) 0 = 0 := by decide
  have e6 : shl32 (0 : Int) 8 = 0 := by decide
  have e7 : add32 (0 : Int) 128 = 128 := by decide
  have e8 : shr32 (128 : Int) 8 = 0 := by decide
  have a0 (p q : Int) : add32 (add32 p q) 0 = add32 p q := by
    unfold add32; rw [Int.add_zero, wrap32_wrap32]
  have s0 (p q : Int) : sub32 (add32 p q) 0 = add32 p q := by
    unfold add32 sub32; rw [Int.sub_zero, wrap32_wrap32]
  simp only [e0, m, e1, e2, e3, e4, e5, e6, e7, e8, a0, s0, hv]

theorem idctRows_dc (d a : Int) (ha : shl32 d 3 = a) :
    idctRows (dcBlock d) = dcPartial a 0 0 := by
  have z : shl32 (0 : Int) 3 = 0 := by decide
  have r0 : idctRow (dcBlock d) 0 = dcPartial a 0 0 :=
    (idctRow_dc (dcBlock d) 0 a ha rfl rfl rfl rfl rfl rfl rfl).trans rfl
  have r1 : idctRow (dcPartial a 0 0) 1 = dcPartial a 0 0 :=
    (idctRow_dc (dcPartial a 0 0) 1 0 z rfl rfl rfl rfl rfl rfl rfl).trans rfl
  have r2 : idctRow (dcPartial a 0 0) 2 = dcPartial a 0 0 :=
    (idctRow_dc (dcPartial a 0 0) 2 0 z rfl rfl rfl rfl rfl rfl rfl).trans rfl
  have r3 : idctRow (dcPartial a 0 0) 3 = dcPartial a 0 0 :=
    (idctRow_dc (dcPartial a 0 0) 3 0 z rfl rfl rfl rfl rfl rfl rfl).trans rfl
  have r4 : idctRow (dcPartial a 0 0) 4 = dcPartial a 0 0 :=
    (idctRow_dc (dcPartial a 0 0) 4 0 z rfl rfl rfl rfl rfl rfl rfl).trans rfl
  have r5 : idctRow (dcPartial a 0 0) 5 = dcPartial a 0 0 :=
    (idctRow_dc (dcPartial a 0 0) 5 0 z rfl rfl rfl rfl rfl rfl rfl).trans rfl
  have r6 : idctRow (dcPartial a 0 0) 6 = dcPartial a 0 0 :=
    (idctRow_dc (dcPartial a 0 0) 6 0 z rfl rfl rfl rfl rfl rfl rfl).trans rfl
  have r7 : idctRow (dcPartial a 0 0) 7 = dcPartial a 0 0 :=
    (idctRow_dc (dcPartial a 0 0) 7 0 z rfl rfl rfl rfl rfl rfl rfl).trans rfl
  unfold idctRows
  rw [show List.range 8 = [0, 1, 2, 3, 4, 5, 6, 7] from rfl]
  simp only [List.foldl_cons, List.foldl_nil]
  rw [r0, r1, r2, r3, r4, r5, r6, r7]

theorem idctCols_dc (a v : Int) (hv : shr32 (add32 (shl32 a 8) 8192) 14 = v) :
    (List.range 8).foldl idctCol (dcPartial a 0 0) = List.replicate 64 v := by
  have c0 : idctCol (dcPartial a 0 0) 0 = dcPartial a v 1 :=
    (idctCol_dc (dcPartial a 0 0) 0 a v hv rfl rfl rfl rfl rfl rfl rfl rfl).trans rfl
  have c1 : idctCol (dcPartial a v 1) 1 = dcPartial a v 2 :=
    (idctCol_dc (dcPartial a v 1) 1 a v hv rfl rfl rfl rfl rfl rfl rfl rfl).trans rfl
  have c2 : idctCol (dcPartial a v 2) 2 = dcPartial a v 3 :=
    (idctCol_dc (dcPartial a v 2) 2 a v hv rfl rfl rfl rfl rfl rfl rfl rfl).trans rfl
  have c3 : idctCol (dcPartial a v 3) 3 = dcPartial a v 4 :=
    (idctCol_dc (dcPartial a v 3) 3 a v hv rfl rfl rfl rfl rfl rfl rfl rfl).trans rfl
  have c4 : idctCol (dcPartial a v 4) 4 = dcPartial a v 5 :=
    (idctCol_dc (dcPartial a v 4) 4 a v hv rfl rfl rfl rfl rfl rfl rfl rfl).trans rfl
  have c5 : idctCol (dcPartial a v 5) 5 = dcPartial a v 6 :=
    (idctCol_dc (dcPartial a v 5) 5 a v hv rfl rfl rfl rfl rfl rfl rfl rfl).trans rfl
  have c6 : idctCol (dcPartial a v 6) 6 = dcPartial a v 7 :=
    (idctCol_dc (dcPartial a v 6) 6 a v hv rfl rfl rfl rfl rfl rfl rfl rfl).trans rfl
  have c7 : idctCol (dcPartial a v 7) 7 = dcPartial a v 8 :=
    (idctCol_dc (dcPartial a v 7) 7 a v hv rfl rfl rfl rfl rfl rfl rfl rfl).trans rfl
  rw [show List.range 8 = [0, 1, 2, 3, 4, 5, 6, 7] from rfl]
  simp only [List.foldl_cons, List.foldl_nil]
  rw [c0, c1, c2, c3, c4, c5, c6, c7]
  rfl

theorem dcBlock_eq (b : block) (d : Int) (hlen : b.length = 64) (h0 : b.getD 0 0 = d)
    (hz : ∀ k, k < 63 → b.getD (k + 1) 0 = 0) : b = dcBlock d := by
  apply List.ext_getElem
  · rw [hlen]; rfl
  · intro n h1 h2
    have e1 : b[n] = b.getD n 0 := by
      rw [List.getD_eq_getElem?_getD, List.getElem?_eq_getElem h1]; rfl
    rw [e1]
    cases n with
    | zero => rw [h0]; rfl
    | succ n =>
      rw [hz n (by rw [hlen] at h1; omega)]
      have e2 : (dcBlock d)[n + 1] = (dcBlock d).getD (n + 1) 0 := by
        rw [List.getD_eq_getElem?_getD, List.getElem?_eq_getElem h2]; rfl
      rw [e2]
      show (0 : Int) = (List.replicate 63 (0 : Int)).getD n 0
      rw [List.getD_eq_getElem?_getD, List.getElem?_replicate]
      split <;> rfl

theorem dc_arith (d : Int) (h1 : -(2 ^ 19) ≤ d) (h2 : d ≤ 2 ^ 19) :
    shl32 d 3 = 8 * d ∧ shr32 (add32 (shl32 (8 * d) 8) 8192) 14 = (d + 4) / 8 := by
  have p3 : (2 : Int) ^ 3 = 8 := by norm_num
  have p8 : (2 : Int) ^ 8 = 256 := by norm_num
  have p14 : (2 : Int) ^ 14 = 16384 := by norm_num
  have p19 : (2 : Int) ^ 19 = 524288 := by norm_num
  rw [p19] at h1 h2
  have w1 := wrap32_id (d * 8) (by omega) (by omega)
  have w2 := wrap32_id (8 * d * 256) (by omega) (by omega)
  have w3 := wrap32_id (8 * d * 256 + 8192) (by omega) (by omega)
  refine ⟨?_, ?_⟩
  · rw [shl32, p3, w1]; omega
  · rw [shr32, add32, shl32, p8, w2, w3, p14]
    omega

/-- C12: for every block whose only non-zero coefficient is `b[0] = d`, with
`|d| <= 2^19`, the horizontal pass of `idct` leaves the constant `8 * d` in
row 0 and zeros elsewhere, and `idct` produces 64 identical outputs, each equal
to `floor((d + 4) / 8)`, so that the level-shifted pixel value is one constant
over the block. -/
theorem C12_idct_dc_only (b : block) (d : Int) (hlen : b.length = 64) (h0 : b.getD 0 0 = d)
    (hz : ∀ k, k < 63 → b.getD (k + 1) 0 = 0) (h1 : -(2 ^ 19) ≤ d) (h2 : d ≤ 2 ^ 19) :
    idctRows b = List.replicate 8 (8 * d) ++ List.replicate 56 0 ∧
    idct b = List.replicate 64 ((d + 4) / 8) ∧
    (8 * ((d + 4) / 8) ≤ d + 4 ∧ d + 4 < 8 * ((d + 4) / 8) + 8) ∧
    (idct b).map levelShift = List.replicate 64 (levelShift ((d + 4) / 8)) := by
  obtain ⟨a1, a2⟩ := dc_arith d h1 h2
  have hb := dcBlock_eq b d hlen h0 hz
  have hr := idctRows_dc d (8 * d) a1
  have hi : idct b = List.replicate 64 ((d + 4) / 8) := by
    unfold idct
    rw [hb, hr]
    exact idctCols_dc (8 * d) _ a2
  refine ⟨?_, hi, by omega, ?_⟩
  · rw [hb, hr]; rfl
  · rw [hi, List.map_replicate]

/-- For `d = 800`, row 0 after the horizontal pass is the constant 6400, every
output of `idct` is 100 and every level-shifted pixel value is 228. -/
theorem C12_idct_dc_only_witness :
    idctRows (dcBlock 800) = List.replicate 8 6400 ++ List.replicate 56 0 ∧
    idct (dcBlock 800) = List.replicate 64 100 ∧
    (idct (dcBlock 800)).map levelShift = List.replicate 64 228 := by
  have h := C12_idct_dc_only (dcBlock 800) 800 (by decide) (by decide) (by decide)
    (by decide) (by decide)
  have e1 : (8 * 800 : Int) = 6400 := by decide
  have e2 : ((800 + 4) / 8 : Int) = 100 := by decide
  have e3 : levelShift 100 = 228 := by decide
  rw [e1, e2, e3] at h
  exact ⟨h.1, h.2.1, h.2.2.2⟩

end Jpeg

namespace Jpeg

/-! ## The checks of the scan header -/

theorem processSOS_of_header_error (d : decoder) (n : Nat) (e : Err)
    (h : scanHeader d n = .error e) : processSOS d n = .error e := by
  unfold processSOS scanSetup
  rw [h]

/-- What `scanHeader` is once the length, selector and sampling factor checks
are passed. -/
theorem scanHeader_progression (d : decoder) (n : Nat) (tmp : List Nat) (s : Stream)
    (scan : List scanComp) (totalHV : Nat) (hn0 : d.nComp ≠ 0)
    (hlen : ¬ (n < 6 ∨ 4 + 2 * d.nComp < n ∨ n % 2 ≠ 0))
    (hrf : readFull d.stream n = .ok (tmp, s)) (hn : n = 4 + 2 * tmp.getD 0 0)
    (hsel : forRange (sosComponent (d.withStream s) tmp) (tmp.getD 0 0) 0
      (List.replicate maxComponents scanComp.zero, 0) = .ok (scan, totalHV)) :
    scanHeader d n =
      if d.nComp > 1 ∧ totalHV > 10 then
        .error (.formatError "total sampling factors too large")
      else
        match scanProgression d.progressive tmp (tmp.getD 0 0) with
        | .error e => .error e
        | .ok (zigStart, zigEnd, ah, al) =>
          .ok (d.withStream s, { nComp := tmp.getD 0 0, scan := scan, zigStart := zigStart,
                                 zigEnd := zigEnd, ah := ah, al := al }) := by
  unfold scanHeader
  rw [if_neg hn0, if_neg hlen]
  simp only [hrf]
  rw [if_neg (by intro hc; exact hc hn)]
  simp only [hsel]
  rfl

theorem spectral_iff (tmp : List Nat) :
    SpectralOK (sosSs tmp) (sosSe tmp) (tmp.getD 0 0) ↔
      ¬ ((((sosSs tmp : Nat) : Int) = 0 ∧ ((sosSe tmp : Nat) : Int) ≠ 0) ∨
          ((sosSs tmp : Nat) : Int) > ((sosSe tmp : Nat) : Int) ∨
          (blockSize : Int) ≤ ((sosSe tmp : Nat) : Int)) ∧
        ¬ (((sosSs tmp : Nat) : Int) ≠ 0 ∧ tmp.getD 0 0 ≠ 1) := by
  unfold SpectralOK blockSize
  constructor
  · rintro ⟨h1, h2, h3, h4⟩
    refine ⟨?_, ?_⟩
    · rintro (⟨a, b⟩ | a | a)
      · exact b (by have := h1 (by omega); omega)
      · omega
      · omega
    · rintro ⟨a, b⟩
      exact b (h4 (by omega))
  · rintro ⟨h1, h2⟩
    refine ⟨?_, ?_, ?_, ?_⟩
    · intro a
      by_contra hc
      exact h1 (Or.inl ⟨by omega, by omega⟩)
    · by_contra hc
      exact h1 (Or.inr (Or.inl (by omega)))
    · by_contra hc
      exact h1 (Or.inr (Or.inr (by omega)))
    · intro a
      by_contra hc
      exact h2 ⟨by omega, hc⟩

/-- The three checks of `scanProgression` for a progressive frame. -/
theorem scanProgression_cases (tmp : List Nat) :
    (((((sosSs tmp : Nat) : Int) = 0 ∧ ((sosSe tmp : Nat) : Int) ≠ 0) ∨
          ((sosSs tmp : Nat) : Int) > ((sosSe tmp : Nat) : Int) ∨
          (blockSize : Int) ≤ ((sosSe tmp : Nat) : Int)) →
      scanProgression true tmp (tmp.getD 0 0) =
        .error (.formatError "bad spectral selection bounds")) ∧
    (¬ ((((sosSs tmp : Nat) : Int) = 0 ∧ ((sosSe tmp : Nat) : Int) ≠ 0) ∨
          ((sosSs tmp : Nat) : Int) > ((sosSe tmp : Nat) : Int) ∨
          (blockSize : Int) ≤ ((sosSe tmp : Nat) : Int)) →
      (((sosSs tmp : Nat) : Int) ≠ 0 ∧ tmp.getD 0 0 ≠ 1) →
      scanProgression true tmp (tmp.getD 0 0) =
        .error (.formatError "progressive AC coefficients for more than one component")) ∧
    (SpectralOK (sosSs tmp) (sosSe tmp) (tmp.getD 0 0) →
      (sosAh tmp ≠ 0 ∧ sosAh tmp ≠ sosAl tmp + 1) →
      scanProgression true tmp (tmp.getD 0 0) =
        .error (.formatError "bad successive approximation values")) ∧
    (SpectralOK (sosSs tmp) (sosSe tmp) (tmp.getD 0 0) →
      (sosAh tmp = 0 ∨ sosAh tmp = sosAl tmp + 1) →
      scanProgression true tmp (tmp.getD 0 0) =
        .ok (((sosSs tmp : Nat) : Int), ((sosSe tmp : Nat) : Int), sosAh tmp, sosAl tmp)) := by
  refine ⟨?_, ?_, ?_, ?_⟩
  · intro h
    unfold scanProgression
    unfold sosSs sosSe at h
    simp only [↓reduceIte]
    rw [if_pos h]
  · intro h1 h2
    unfold scanProgression
    unfold sosSs sosSe at h1
    unfold sosSs at h2
    simp only [↓reduceIte]
    rw [if_neg h1, if_pos h2]
  · intro h1 h2
    obtain ⟨a, b⟩ := (spectral_iff tmp).1 h1
    unfold scanProgression
    unfold sosSs sosSe at a
    unfold sosSs at b
    unfold sosAh sosAl at h2
    simp only [↓reduceIte]
    rw [if_neg a, if_neg b, if_pos h2]
  · intro h1 h2
    obtain ⟨a, b⟩ := (spectral_iff tmp).1 h1
    have h3 : ¬ (sosAh tmp ≠ 0 ∧ sosAh tmp ≠ sosAl tmp + 1) := by omega
    unfold scanProgression
    unfold sosSs sosSe at a
    unfold sosSs at b
    unfold sosAh sosAl at h3
    simp only [↓reduceIte]
    rw [if_neg a, if_neg b, if_neg h3]
    rfl

/-! ## Claims on the checks of a progressive scan header -/

/-- C14 (amended): for every progressive frame and every scan header that
passes the length, component-selector, table-selector, total-sampling-factor
and spectral-selection checks: if `Ah` is neither 0 nor `Al + 1`, `processSOS`
fails with the FormatError "bad successive approximation values" in the part
that parses the header, before any entropy-coded data is read, and if `Ah` is 0
or `Al + 1` the header is accepted. -/
theorem C14_successive_approximation (d : decoder) (n : Nat) (tmp : List Nat) (s : Stream)
    (scan : List scanComp) (totalHV : Nat) (hp : d.progressive = true) (hn0 : d.nComp ≠ 0)
    (hlen : ¬ (n < 6 ∨ 4 + 2 * d.nComp < n ∨ n % 2 ≠ 0))
    (hrf : readFull d.stream n = .ok (tmp, s)) (hn : n = 4 + 2 * tmp.getD 0 0)
    (hsel : forRange (sosComponent (d.withStream s) tmp) (tmp.getD 0 0) 0
      (List.replicate maxComponents scanComp.zero, 0) = .ok (scan, totalHV))
    (hhv : ¬ (d.nComp > 1 ∧ totalHV > 10))
    (hspec : SpectralOK (sosSs tmp) (sosSe tmp) (tmp.getD 0 0)) :
    ((sosAh tmp ≠ 0 ∧ sosAh tmp ≠ sosAl tmp + 1) →
      scanHeader d n = .error (.formatError "bad successive approximation values") ∧
      processSOS d n = .error (.formatError "bad successive approximation values")) ∧
    ((sosAh tmp = 0 ∨ sosAh tmp = sosAl tmp + 1) →
      scanHeader d n =
        .ok (d.withStream s, { nComp := tmp.getD 0 0, scan := scan,
                               zigStart := ((sosSs tmp : Nat) : Int),
                               zigEnd := ((sosSe tmp : Nat) : Int),
                               ah := sosAh tmp, al := sosAl tmp })) := by
  have hh := scanHeader_progression d n tmp s scan totalHV hn0 hlen hrf hn hsel
  rw [if_neg hhv, hp] at hh
  obtain ⟨_, _, c3, c4⟩ := scanProgression_cases tmp
  constructor
  · intro ha
    rw [c3 hspec ha] at hh
    exact ⟨hh, processSOS_of_header_error d n _ hh⟩
  · intro ha
    rw [c4 hspec ha] at hh
    exact hh

set_option maxRecDepth 1000000 in
/-- The scan header of `ahStream`, with `Ah = 2` and `Al = 0`, is rejected. -/
theorem C14_successive_approximation_witness :
    sosAh [1, 1, 0x00, 0, 0, 0x20] = 2 ∧ sosAl [1, 1, 0x00, 0, 0, 0x20] = 0 ∧
    processSOS ahDecoder 6 = .error (.formatError "bad successive approximation values") ∧
    Decode ahStream = .error (.formatError "bad successive approximation values") :=
  ⟨by decide, by decide,
    ((C14_successive_approximation ahDecoder 6 [1, 1, 0x00, 0, 0, 0x20] ahAfter
      [{ compIndex := 0, td := 0, ta := 0 }, scanComp.zero, scanComp.zero, scanComp.zero] 1
      (by decide!) (by decide!) (by decide!) (by decide!) (by decide) (by decide!)
      (by decide!) (by decide)).1 (by decide)).2,
    by decide!⟩

set_option maxRecDepth 1000000 in
/-- C14 (counterexample): the scan header of `hvStream` belongs to a
progressive frame, has the length 10 for three components, selects the three
components of the frame with the tables 0, has `Ss = Se = 0`, `Ah = 2` and
`Al = 0`, and `processSOS` fails with the FormatError "total sampling factors
too large", the sum of the sampling factors being 24. -/
theorem C14_sampling_factors_checked_first :
    (firstSOSOf hvStream).map (fun p => (p.1.progressive, p.1.nComp, p.2)) =
      some (true, 3, 10) ∧
    (firstSOSOf hvStream).map (fun p =>
        (readFull p.1.stream p.2).toOption.map (fun q =>
          (q.1, (forRange (sosComponent (p.1.withStream q.2) q.1) 3 0
            (List.replicate maxComponents scanComp.zero, 0)).toOption.map (fun x => x.2)))) =
      some (some ([3, 1, 0x00, 2, 0x00, 3, 0x00, 0, 0, 0x20], some 24)) ∧
    (firstSOSOf hvStream).map (fun p => processSOS p.1 p.2) =
      some (.error (.formatError "total sampling factors too large")) ∧
    SpectralOK (sosSs [3, 1, 0x00, 2, 0x00, 3, 0x00, 0, 0, 0x20])
      (sosSe [3, 1, 0x00, 2, 0x00, 3, 0x00, 0, 0, 0x20]) 3 ∧
    sosAh [3, 1, 0x00, 2, 0x00, 3, 0x00, 0, 0, 0x20] = 2 ∧
    sosAl [3, 1, 0x00, 2, 0x00, 3, 0x00, 0, 0, 0x20] = 0 ∧
    Decode hvStream = .error (.formatError "total sampling factors too large") := by
  exact ⟨by decide!, by decide!, by decide!, by decide, by decide, by decide, by decide!⟩

/-- C15: for a progressive frame and a scan header with valid length and
selectors, the spectral-selection checks of `processSOS` are passed if and only
if `Ss = 0` implies `Se = 0`, `Ss ≤ Se`, `Se < 64`, and a non-zero `Ss` comes
with exactly one scan component; every header that violates one of these is
rejected with a FormatError, which is one of the two errors of the
spectral-selection checks unless the header fails the check of the total
sampling factors before. -/
theorem C15_spectral_selection (d : decoder) (n : Nat) (tmp : List Nat) (s : Stream)
    (scan : List scanComp) (totalHV : Nat) (hp : d.progressive = true) (hn0 : d.nComp ≠ 0)
    (hlen : ¬ (n < 6 ∨ 4 + 2 * d.nComp < n ∨ n % 2 ≠ 0))
    (hrf : readFull d.stream n = .ok (tmp, s)) (hn : n = 4 + 2 * tmp.getD 0 0)
    (hsel : forRange (sosComponent (d.withStream s) tmp) (tmp.getD 0 0) 0
      (List.replicate maxComponents scanComp.zero, 0) = .ok (scan, totalHV)) :
    (SpectralOK (sosSs tmp) (sosSe tmp) (tmp.getD 0 0) ↔
      scanProgression true tmp (tmp.getD 0 0) ≠
          .error (.formatError "bad spectral selection bounds") ∧
        scanProgression true tmp (tmp.getD 0 0) ≠
          .error (.formatError "progressive AC coefficients for more than one component")) ∧
    (SpectralOK (sosSs tmp) (sosSe tmp) (tmp.getD 0 0) →
      scanHeader d n ≠ .error (.formatError "bad spectral selection bounds") ∧
        scanHeader d n ≠
          .error (.formatError "progressive AC coefficients for more than one component")) ∧
    (¬ SpectralOK (sosSs tmp) (sosSe tmp) (tmp.getD 0 0) →
      (∃ msg, scanHeader d n = .error (.formatError msg) ∧
        processSOS d n = .error (.formatError msg)) ∧
      (¬ (d.nComp > 1 ∧ totalHV > 10) →
        processSOS d n = .error (.formatError "bad spectral selection bounds") ∨
          processSOS d n =
            .error (.formatError "progressive AC coefficients for more than one component"))) := by
  have hh := scanHeader_progression d n tmp s scan totalHV hn0 hlen hrf hn hsel
  rw [hp] at hh
  obtain ⟨c1, c2, c3, c4⟩ := scanProgression_cases tmp
  have hpass : SpectralOK (sosSs tmp) (sosSe tmp) (tmp.getD 0 0) →
      scanProgression true tmp (tmp.getD 0 0) ≠
          .error (.formatError "bad spectral selection bounds") ∧
        scanProgression true tmp (tmp.getD 0 0) ≠
          .error (.formatError "progressive AC coefficients for more than one component") := by
    intro hs
    by_cases ha : sosAh tmp ≠ 0 ∧ sosAh tmp ≠ sosAl tmp + 1
    · rw [c3 hs ha]
      exact ⟨by decide, by decide⟩
    · rw [c4 hs (by omega)]
      exact ⟨by simp, by simp⟩
  have hfail : ¬ SpectralOK (sosSs tmp) (sosSe tmp) (tmp.getD 0 0) →
      scanProgression true tmp (tmp.getD 0 0) =
          .error (.formatError "bad spectral selection bounds") ∨
        scanProgression true tmp (tmp.getD 0 0) =
          .error (.formatError "progressive AC coefficients for more than one component") := by
    intro hs
    rw [spectral_iff] at hs
    by_cases h1 : (((sosSs tmp : Nat) : Int) = 0 ∧ ((sosSe tmp : Nat) : Int) ≠ 0) ∨
          ((sosSs tmp : Nat) : Int) > ((sosSe tmp : Nat) : Int) ∨
          (blockSize : Int) ≤ ((sosSe tmp : Nat) : Int)
    · exact Or.inl (c1 h1)
    · by_cases h2 : ((sosSs tmp : Nat) : Int) ≠ 0 ∧ tmp.getD 0 0 ≠ 1
      · exact Or.inr (c2 h1 h2)
      · exact absurd ⟨h1, h2⟩ hs
  refine ⟨⟨hpass, ?_⟩, ?_, ?_⟩
  · intro hne
    by_contra hs
    rcases hfail hs with h | h
    · exact hne.1 h
    · exact hne.2 h
  · intro hs
    obtain ⟨p1, p2⟩ := hpass hs
    rw [hh]
    by_cases hhv : d.nComp > 1 ∧ totalHV > 10
    · rw [if_pos hhv]
      exact ⟨by decide, by decide⟩
    · rw [if_neg hhv]
      rcases hsp : scanProgression true tmp (tmp.getD 0 0) with e | ⟨a, b, c, e⟩
      · rw [hsp] at p1 p2
        exact ⟨by simpa using p1, by simpa using p2⟩
      · exact ⟨by simp, by simp⟩
  · intro hs
    by_cases hhv : d.nComp > 1 ∧ totalHV > 10
    · rw [if_pos hhv] at hh
      exact ⟨⟨_, hh, processSOS_of_header_error d n _ hh⟩, fun hc => absurd hhv hc⟩
    · rw [if_neg hhv] at hh
      rcases hfail hs with h | h
      · rw [h] at hh
        exact ⟨⟨_, hh, processSOS_of_header_error d n _ hh⟩,
          fun _ => Or.inl (processSOS_of_header_error d n _ hh)⟩
      · rw [h] at hh
        exact ⟨⟨_, hh, processSOS_of_header_error d n _ hh⟩,
          fun _ => Or.inr (processSOS_of_header_error d n _ hh)⟩

set_option maxRecDepth 1000000 in
/-- The scan header of `seStream`, with `Ss = 5` and `Se = 2`, is rejected with
the FormatError "bad spectral selection bounds". -/
theorem C15_spectral_selection_witness :
    ¬ SpectralOK (sosSs [1, 1, 0x00, 5, 2, 0x00]) (sosSe [1, 1, 0x00, 5, 2, 0x00]) 1 ∧
    (processSOS seDecoder 6 = .error (.formatError "bad spectral selection bounds") ∨
      processSOS seDecoder 6 =
        .error (.formatError "progressive AC coefficients for more than one component")) ∧
    Decode seStream = .error (.formatError "bad spectral selection bounds") := by
  have hs : ¬ SpectralOK (sosSs [1, 1, 0x00, 5, 2, 0x00]) (sosSe [1, 1, 0x00, 5, 2, 0x00])
      ([1, 1, 0x00, 5, 2, 0x00].getD 0 0) := by
    decide
  exact ⟨hs,
    ((C15_spectral_selection seDecoder 6 [1, 1, 0x00, 5, 2, 0x00] seAfter
      [{ compIndex := 0, td := 0, ta := 0 }, scanComp.zero, scanComp.zero, scanComp.zero] 1
      (by decide!) (by decide!) (by decide!) (by decide!) (by decide) (by decide!)).2.2 hs).2
      (by decide!),
    by decide!⟩

end Jpeg

namespace Jpeg

/-! ## `readByteStuffedByte` -/

theorem readByteStuffedByte_missing (b : bytes) (hwf : b.WF) (y : Nat) (rest : List Nat)
    (hl : b.pending = 0xff :: y :: rest) (hy : y ≠ 0x00) :
    (readByteStuffedByte b).2 = .error errMissingFF00 := by
  have hra : b.ReadsAs 0 (0xff :: y :: rest) := (ReadsAs_zero b _).mpr hl
  unfold readByteStuffedByte
  by_cases hfast : b.i + 2 ≤ b.j
  · simp only [hfast, ↓reduceIte]
    obtain ⟨w1, w2, w3⟩ := hwf
    have e1 := take_drop_getD b.buf b.i b.j (by omega) (by omega)
    have e2 := take_drop_getD b.buf (b.i + 1) b.j (by omega) (by omega)
    have hl2 : 0xff :: y :: rest = b.buf.getD b.i 0 :: b.buf.getD (b.i + 1) 0 ::
        ((b.buf.take b.j).drop (b.i + 1 + 1) ++ b.r) := by
      rw [← hl, bytes.pending, e1, e2]; rfl
    simp only [List.cons.injEq] at hl2
    obtain ⟨h1, h2, _⟩ := hl2
    rw [if_neg (by rw [← h1]; simp), if_pos (by rw [← h2]; exact hy)]
  · simp only [hfast, ↓reduceIte]
    have hwf0 : ({ b with nUnreadable := 0 } : bytes).WF := hwf
    have hra0 : ({ b with nUnreadable := 0 } : bytes).ReadsAs 0 (0xff :: y :: rest) := hra
    obtain ⟨b1, g1, g2, g3, g4, g5⟩ :=
      readByte_spec _ hwf0 0 [] (y :: rest) 0xff (by omega) rfl hra0
    rw [g1]
    simp only []
    have hwf2 : ({ b1 with nUnreadable := 1 } : bytes).WF := g2
    have hra2 : ({ b1 with nUnreadable := 1 } : bytes).ReadsAs 1 ([0xff] ++ y :: rest) := g3
    rw [if_neg (by simp)]
    obtain ⟨b3, k1, k2, k3, k4, k5⟩ :=
      readByte_spec _ hwf2 1 [0xff] rest y (by omega) rfl hra2
    rw [k1]
    simp only []
    rw [if_pos hy]

theorem readByteStuffedByte_value (b : bytes) (hwf : b.WF) (c : Nat) (rest : List Nat)
    (hs : stuffedHead b.pending = some (c, rest)) :
    (readByteStuffedByte b).2 = .ok c ∧ (readByteStuffedByte b).1.pending = rest := by
  obtain ⟨b1, r, e, _, _, _, h1, _⟩ := readByteStuffedByte_spec b hwf b.pending rfl
  rw [e]
  exact h1 c rest hs

/-- C20: for every reader state whose buffer is well formed,
`readByteStuffedByte` behaves as follows on the bytes that are left: if the
next byte `x` is not 0xFF it returns `x` and consumes one byte; if the next two
bytes are 0xFF, 0x00 it returns 0xFF and consumes both; if the next byte is
0xFF and the following byte is not 0x00 it fails with `errMissingFF00`. The
returned value and error are those of every reader state with the same bytes
left, whether the call takes the buffered fast path (at least two bytes
buffered) or the byte-at-a-time path. -/
theorem C20_readByteStuffedByte (b : bytes) (hwf : b.WF) :
    (∀ x rest, b.pending = x :: rest → x ≠ 0xff →
      (readByteStuffedByte b).2 = .ok x ∧ (readByteStuffedByte b).1.pending = rest) ∧
    (∀ rest, b.pending = 0xff :: 0x00 :: rest →
      (readByteStuffedByte b).2 = .ok 0xff ∧ (readByteStuffedByte b).1.pending = rest) ∧
    (∀ y rest, b.pending = 0xff :: y :: rest → y ≠ 0x00 →
      (readByteStuffedByte b).2 = .error errMissingFF00) ∧
    (∀ b2 : bytes, b2.WF → b2.pending = b.pending → b.i + 2 ≤ b.j → ¬ (b2.i + 2 ≤ b2.j) →
      (readByteStuffedByte b2).2 = (readByteStuffedByte b).2) := by
  have c1 : ∀ (b : bytes), b.WF → ∀ x rest, b.pending = x :: rest → x ≠ 0xff →
      (readByteStuffedByte b).2 = .ok x ∧ (readByteStuffedByte b).1.pending = rest := by
    intro b hwf x rest hl hx
    exact readByteStuffedByte_value b hwf x rest (by rw [hl, stuffedHead_ne _ _ hx])
  have c2 : ∀ (b : bytes), b.WF → ∀ rest, b.pending = 0xff :: 0x00 :: rest →
      (readByteStuffedByte b).2 = .ok 0xff ∧ (readByteStuffedByte b).1.pending = rest := by
    intro b hwf rest hl
    exact readByteStuffedByte_value b hwf 0xff rest (by rw [hl, stuffedHead_ff_zero])
  refine ⟨c1 b hwf, c2 b hwf, fun y rest hl hy => readByteStuffedByte_missing b hwf y rest hl hy,
    ?_⟩
  intro b2 hwf2 hp hfast _
  have hlen := pending_length b hwf
  rcases hb : b.pending with _ | ⟨x, _ | ⟨y, rest⟩⟩
  · rw [hb] at hlen; simp at hlen; omega
  · rw [hb] at hlen; simp at hlen; omega
  · by_cases hx : x ≠ 0xff
    · rw [(c1 b hwf x _ hb hx).1, (c1 b2 hwf2 x _ (hp.trans hb) hx).1]
    · have hx0 : x = 0xff := by simpa using hx
      subst hx0
      by_cases hy : y ≠ 0x00
      · rw [readByteStuffedByte_missing b hwf y rest hb hy,
          readByteStuffedByte_missing b2 hwf2 y rest (hp.trans hb) hy]
      · have hy0 : y = 0x00 := by simpa using hy
        subst hy0
        rw [(c2 b hwf rest hb).1, (c2 b2 hwf2 rest (hp.trans hb)).1]

set_option maxRecDepth 1000000 in
/-- On the input `0xff 0x00 0x1f`, the reader that has buffered the input takes
the fast path, the reader that has buffered nothing takes the byte-at-a-time
path, and both return 0xFF. -/
theorem C20_readByteStuffedByte_witness :
    fastBytes.i + 2 ≤ fastBytes.j ∧ ¬ (slowBytes.i + 2 ≤ slowBytes.j) ∧
    (readByteStuffedByte fastBytes).2 = .ok 0xff ∧
    (readByteStuffedByte fastBytes).1.pending = [0x1f] ∧
    (readByteStuffedByte slowBytes).2 = (readByteStuffedByte fastBytes).2 := by
  have h := C20_readByteStuffedByte fastBytes ⟨by decide!, by decide!, by decide!⟩
  have hf : fastBytes.i + 2 ≤ fastBytes.j := by decide!
  have hs : ¬ (slowBytes.i + 2 ≤ slowBytes.j) := by decide!
  exact ⟨hf, hs, (h.2.1 [0x1f] (by decide!)).1, (h.2.1 [0x1f] (by decide!)).2,
    h.2.2.2 slowBytes ⟨by decide!, by decide!, by decide!⟩ (by decide!) hf hs⟩

end Jpeg

namespace Jpeg

/-! ## The frame header -/

theorem sofComponent_shape (nComp : Nat) (tmp : List Nat) (comp comp1 : List component) (i : Nat)
    (h : sofComponent nComp tmp comp i = .ok comp1) :
    (∃ h1 v1,
      comp1 =
        ((comp.set i { comp.getD i component.zero with c := tmp.getD (6 + 3 * i) 0 }).set i
          { (comp.set i { comp.getD i component.zero with c := tmp.getD (6 + 3 * i) 0 }).getD i
              component.zero with tq := tmp.getD (8 + 3 * i) 0 }).set i
          { ((comp.set i { comp.getD i component.zero with c := tmp.getD (6 + 3 * i) 0 }).set i
              { (comp.set i { comp.getD i component.zero with
                    c := tmp.getD (6 + 3 * i) 0 }).getD i
                  component.zero with tq := tmp.getD (8 + 3 * i) 0 }).getD i component.zero with
            h := h1, v := v1 } ∧
      ((h1 = 1 ∧ v1 = 1) ∨
        (h1 = (tmp.getD (7 + 3 * i) 0) >>> 4 ∧ v1 = (tmp.getD (7 + 3 * i) 0) &&& 0x0f))) ∧
    ¬ ((List.range i).any (fun j => tmp.getD (6 + 3 * i) 0 =
        ((comp.set i { comp.getD i component.zero with
          c := tmp.getD (6 + 3 * i) 0 }).getD j component.zero).c)) ∧
    ¬ (tmp.getD (8 + 3 * i) 0 > maxTq) ∧
    ¬ ((tmp.getD (7 + 3 * i) 0) >>> 4 < 1 ∨ 4 < (tmp.getD (7 + 3 * i) 0) >>> 4 ∨
        (tmp.getD (7 + 3 * i) 0) &&& 0x0f < 1 ∨ 4 < (tmp.getD (7 + 3 * i) 0) &&& 0x0f) ∧
    ¬ ((tmp.getD (7 + 3 * i) 0) >>> 4 = 3 ∨ (tmp.getD (7 + 3 * i) 0) &&& 0x0f = 3) := by
  unfold sofComponent at h
  simp only [] at h
  split at h
  · simp at h
  · rename_i hany
    split at h
    · simp at h
    · rename_i htq
      split at h
      · simp at h
      · rename_i hr
        split at h
        · simp at h
        · rename_i h3
          refine ⟨?_, hany, htq, hr, h3⟩
          repeat' split at h
          all_goals first
            | (simp only [Except.ok.injEq] at h
               exact ⟨_, _, h.symm, Or.inl ⟨rfl, rfl⟩⟩)
            | (simp only [Except.ok.injEq] at h
               exact ⟨_, _, h.symm, Or.inr ⟨rfl, rfl⟩⟩)
            | simp at h

theorem sofComponent_ok (nComp : Nat) (tmp : List Nat) (comp comp1 : List component) (i : Nat)
    (hi : i < comp.length) (hst : SofStored tmp comp i)
    (h : sofComponent nComp tmp comp i = .ok comp1) :
    comp1.length = comp.length ∧ SofStored tmp comp1 (i + 1) := by
  obtain ⟨⟨h1, v1, rfl, hv⟩, hany, htq, hr, h3⟩ := sofComponent_shape nComp tmp comp comp1 i h
  refine ⟨by simp only [List.length_set], ?_⟩
  have hold : ∀ k, k ≠ i →
      ((((comp.set i { comp.getD i component.zero with c := tmp.getD (6 + 3 * i) 0 }).set i
          { (comp.set i { comp.getD i component.zero with c := tmp.getD (6 + 3 * i) 0 }).getD i
              component.zero with tq := tmp.getD (8 + 3 * i) 0 }).set i
          { ((comp.set i { comp.getD i component.zero with c := tmp.getD (6 + 3 * i) 0 }).set i
              { (comp.set i { comp.getD i component.zero with
                    c := tmp.getD (6 + 3 * i) 0 }).getD i
                  component.zero with tq := tmp.getD (8 + 3 * i) 0 }).getD i component.zero with
            h := h1, v := v1 }).getD k component.zero) = comp.getD k component.zero := by
    intro k hk
    rw [getD_set_ne _ _ _ _ _ (Ne.symm hk), getD_set_ne _ _ _ _ _ (Ne.symm hk),
      getD_set_ne _ _ _ _ _ (Ne.symm hk)]
  have hnew :
      ((((comp.set i { comp.getD i component.zero with c := tmp.getD (6 + 3 * i) 0 }).set i
          { (comp.set i { comp.getD i component.zero with c := tmp.getD (6 + 3 * i) 0 }).getD i
              component.zero with tq := tmp.getD (8 + 3 * i) 0 }).set i
          { ((comp.set i { comp.getD i component.zero with c := tmp.getD (6 + 3 * i) 0 }).set i
              { (comp.set i { comp.getD i component.zero with
                    c := tmp.getD (6 + 3 * i) 0 }).getD i
                  component.zero with tq := tmp.getD (8 + 3 * i) 0 }).getD i component.zero with
            h := h1, v := v1 }).getD i component.zero) =
        { h := h1, v := v1, c := tmp.getD (6 + 3 * i) 0, tq := tmp.getD (8 + 3 * i) 0 } := by
    rw [getD_set_eq _ _ _ _ (by simp only [List.length_set]; exact hi),
      getD_set_eq _ _ _ _ (by simp only [List.length_set]; exact hi),
      getD_set_eq _ _ _ _ hi]
  have hS : (sofH tmp i = 1 ∨ sofH tmp i = 2 ∨ sofH tmp i = 4) ∧
      (sofV tmp i = 1 ∨ sofV tmp i = 2 ∨ sofV tmp i = 4) := by
    unfold sofH sofV
    omega
  have hdist : ∀ j, j < i → sofId tmp j ≠ sofId tmp i := by
    intro j hj heq
    apply hany
    rw [List.any_eq_true]
    refine ⟨j, List.mem_range.mpr hj, ?_⟩
    rw [getD_set_ne _ _ _ _ _ (by omega), (hst j hj).1]
    simpa [sofId] using heq.symm
  intro k hk
  by_cases hki : k = i
  · subst hki
    rw [hnew]
    refine ⟨rfl, rfl, by unfold sofTq maxTq at *; omega, ?_, ?_, hS.1, hS.2, hdist⟩
    · rcases hv with ⟨a, _⟩ | ⟨a, _⟩
      · exact Or.inl a
      · show h1 = 1 ∨ h1 = 2 ∨ h1 = 4
        rw [a]; exact hS.1
    · rcases hv with ⟨_, a⟩ | ⟨_, a⟩
      · exact Or.inl a
      · show v1 = 1 ∨ v1 = 2 ∨ v1 = 4
        rw [a]; exact hS.2
  · rw [hold k hki]
    exact hst k (by omega)

theorem sofComponents_ok (nComp : Nat) (tmp : List Nat) (k : Nat) :
    ∀ (i : Nat) (comp comp1 : List component), i + k ≤ comp.length → SofStored tmp comp i →
      sofComponents nComp tmp k i comp = .ok comp1 →
      comp1.length = comp.length ∧ SofStored tmp comp1 (i + k) := by
  induction k with
  | zero =>
    intro i comp comp1 _ hst h
    simp only [sofComponents, Except.ok.injEq] at h
    subst h
    exact ⟨rfl, hst⟩
  | succ k ih =>
    intro i comp comp1 hlen hst h
    rw [sofComponents] at h
    rcases hc : sofComponent nComp tmp comp i with e | comp2
    · rw [hc] at h; simp at h
    · rw [hc] at h
      simp only [] at h
      obtain ⟨l1, s1⟩ := sofComponent_ok nComp tmp comp comp2 i (by omega) hst hc
      obtain ⟨l2, s2⟩ := ih (i + 1) comp2 comp1 (by rw [l1]; omega) s1 h
      exact ⟨l2.trans l1, by rw [show i + (k + 1) = i + 1 + k by omega]; exact s2⟩

/-- What `processSOF` has checked and stored when it succeeds. -/
theorem processSOF_stored (d d2 : decoder) (n : Nat) (hcomp : d.comp.length = maxComponents)
    (h : processSOF d n = .ok d2) :
    (d2.nComp = 1 ∨ d2.nComp = 3 ∨ d2.nComp = 4) ∧ n = 6 + 3 * d2.nComp ∧
      (payloadHead d n).getD 0 0 = 8 ∧ SofStored (payloadHead d n) d2.comp d2.nComp := by
  unfold processSOF at h
  by_cases hnc : d.nComp ≠ 0
  · rw [if_pos hnc] at h; simp at h
  · rw [if_neg hnc] at h
    generalize hncv : (if n = 6 + 3 * 1 then 1 else if n = 6 + 3 * 3 then 3
      else if n = 6 + 3 * 4 then 4 else 0) = nc at h
    have hnn : nc = 0 ∨ ((nc = 1 ∨ nc = 3 ∨ nc = 4) ∧ n = 6 + 3 * nc) := by
      rw [← hncv]
      split
      · right; exact ⟨Or.inl rfl, by omega⟩
      · split
        · right; exact ⟨Or.inr (Or.inl rfl), by omega⟩
        · split
          · right; exact ⟨Or.inr (Or.inr rfl), by omega⟩
          · left; rfl
    simp only [] at h
    by_cases hz : nc = 0
    · rw [if_pos hz] at h; simp at h
    · rw [if_neg hz] at h
      have hst : decoder.stream { d with nComp := nc } = d.stream := rfl
      rw [hst] at h
      rcases hrf : readFull d.stream n with e | ⟨tmp, s⟩
      · rw [hrf] at h; simp at h
      · rw [hrf] at h
        simp only [decoder.withStream] at h
        have hp : payloadHead d n = tmp := by
          unfold payloadHead
          rw [hrf]
        rw [hp]
        by_cases hprec : tmp.getD 0 0 ≠ 8
        · rw [if_pos hprec] at h; simp at h
        · rw [if_neg hprec] at h
          by_cases h5 : tmp.getD 5 0 ≠ nc
          · rw [if_pos h5] at h; simp at h
          · rw [if_neg h5] at h
            rcases hcs : sofComponents nc tmp nc 0 d.comp with e | comp
            · rw [hcs] at h; simp at h
            · rw [hcs] at h
              simp only [Except.ok.injEq] at h
              subst h
              have hn : (nc = 1 ∨ nc = 3 ∨ nc = 4) ∧ n = 6 + 3 * nc := by
                rcases hnn with h | h
                · exact absurd h hz
                · exact h
              have hlen : 0 + nc ≤ d.comp.length := by
                rw [hcomp]
                unfold maxComponents
                omega
              obtain ⟨_, hst⟩ := sofComponents_ok nc tmp nc 0 d.comp comp hlen
                (by intro k hk; omega) hcs
              rw [Nat.zero_add] at hst
              exact ⟨hn.1, hn.2, by omega, hst⟩

/-! ## Claim on the frame header -/

/-- C19: whenever `processSOF` succeeds, the component count is 1, 3 or 4, the
component identifiers are pairwise distinct, every stored horizontal and
vertical sampling factor is 1, 2 or 4, and every quantization table selector is
at most 3; a segment whose payload has a repeated identifier, a nominal sampling
factor of 0, 3 or greater than 4, a selector above 3, or a precision other than
8 makes `processSOF` fail. -/
theorem C19_processSOF_invariants (d : decoder) (n : Nat)
    (hcomp : d.comp.length = maxComponents) :
    (∀ d2, processSOF d n = .ok d2 →
      (d2.nComp = 1 ∨ d2.nComp = 3 ∨ d2.nComp = 4) ∧
      (∀ i j, j < i → i < d2.nComp →
        (d2.comp.getD j component.zero).c ≠ (d2.comp.getD i component.zero).c) ∧
      (∀ i, i < d2.nComp →
        ((d2.comp.getD i component.zero).h = 1 ∨ (d2.comp.getD i component.zero).h = 2 ∨
          (d2.comp.getD i component.zero).h = 4) ∧
        ((d2.comp.getD i component.zero).v = 1 ∨ (d2.comp.getD i component.zero).v = 2 ∨
          (d2.comp.getD i component.zero).v = 4) ∧
        (d2.comp.getD i component.zero).tq ≤ 3)) ∧
    (SofDefect (payloadHead d n) ((n - 6) / 3) → ∃ e, processSOF d n = .error e) := by
  constructor
  · intro d2 h
    obtain ⟨h1, _, _, hst⟩ := processSOF_stored d d2 n hcomp h
    refine ⟨h1, ?_, ?_⟩
    · intro i j hji hi
      obtain ⟨a, _, _, _, _, _, _, hd⟩ := hst i hi
      obtain ⟨b, _⟩ := hst j (by omega)
      rw [a, b]
      exact hd j hji
    · intro i hi
      obtain ⟨_, b, c, e, f, _⟩ := hst i hi
      exact ⟨e, f, by rw [b]; exact c⟩
  · intro hdef
    rcases hres : processSOF d n with e | d2
    · exact ⟨e, rfl⟩
    · exfalso
      obtain ⟨_, hn, h8, hst⟩ := processSOF_stored d d2 n hcomp hres
      have hnc : (n - 6) / 3 = d2.nComp := by omega
      rw [hnc] at hdef
      rcases hdef with h | ⟨i, hi, h⟩
      · exact h h8
      · obtain ⟨_, _, c, _, _, f, g, hd⟩ := hst i hi
        rcases h with ⟨j, hj, heq⟩ | h | h | h
        · exact hd j hj heq
        · exact h f
        · exact h g
        · omega

set_option maxRecDepth 1000000 in
/-- On the payload `grayFrame` the method `processSOF` succeeds with one
component whose sampling factors are 1 and 1, and on `repeatedFrame`, whose
first two components have the identifier 1, it fails. -/
theorem C19_processSOF_invariants_witness :
    processSOF (decoder.init grayFrame) 9 = .ok grayFrameDecoder ∧
    grayFrameDecoder.nComp = 1 ∧
    ((grayFrameDecoder.comp.getD 0 component.zero).h = 1 ∨
      (grayFrameDecoder.comp.getD 0 component.zero).h = 2 ∨
      (grayFrameDecoder.comp.getD 0 component.zero).h = 4) ∧
    ∃ e, processSOF (decoder.init repeatedFrame) 15 = .error e := by
  have h1 : processSOF (decoder.init grayFrame) 9 = .ok grayFrameDecoder := by decide!
  have h2 : grayFrameDecoder.nComp = 1 := by decide!
  refine ⟨h1, h2,
    (((C19_processSOF_invariants (decoder.init grayFrame) 9 (by decide)).1
      grayFrameDecoder h1).2.2 0 (by rw [h2]; decide)).1,
    (C19_processSOF_invariants (decoder.init repeatedFrame) 15 (by decide)).2 ?_⟩
  refine Or.inr ⟨1, by decide, Or.inl ⟨0, by decide, ?_⟩⟩
  decide!

end Jpeg

namespace Jpeg

/-! ## Unknown markers -/

theorem decodeMarker_unknown (c : Bool) (d : decoder) (m n : Nat) (hm : UnknownMarker m) :
    decodeMarker c d m n = .error (unknownMarkerError m) := by
  obtain ⟨_, _, h1, h2, h3, h4, h5, h6, h7, _, _, h8, h9⟩ := hm
  unfold decodeMarker unknownMarkerError
  simp only []
  rw [if_neg (by rintro (h | h | h) <;> contradiction), if_neg h4, if_neg h5, if_neg h7,
    if_neg h6, if_neg (by intro h; rw [h] at h8; exact h8 (by decide)),
    if_neg (by intro h; rw [h] at h8; exact h8 (by decide)),
    if_neg (by rintro (h | h) <;> contradiction)]
  split <;> rfl

/-- The first part of a round of the segment loop on the four bytes of a
segment header. -/
theorem segmentHeader_forward (d : decoder) (hwf : d.bytes.WF) (hnu : d.bytes.nUnreadable = 0)
    (m hi lo : Nat) (rest : List Nat) (hp : d.bytes.pending = 0xff :: m :: hi :: lo :: rest)
    (h0 : m ≠ 0x00) (hff : m ≠ 0xff) (heoi : m ≠ eoiMarker)
    (hrst : ¬ (rst0Marker ≤ m ∧ m ≤ rst7Marker)) (hlen : 2 ≤ hi <<< 8 + lo) :
    ∃ d1, segmentHeader d = .ok (.seg d1 m (hi <<< 8 + lo - 2)) ∧ d1.bytes.WF ∧
      d1.bytes.nUnreadable = 0 ∧ d1.bytes.pending = rest := by
  obtain ⟨rf1, _⟩ := readFull_spec d.stream 2 hwf hnu
  have hp' : (decoder.stream d).bytes.pending = 0xff :: m :: hi :: lo :: rest := hp
  obtain ⟨s, e1, w1, w2, w3, w4⟩ := rf1 (by rw [hp']; simp)
  rw [hp', take_two] at e1
  rw [hp'] at w3
  simp only [List.drop_succ_cons, List.drop_zero] at w3
  unfold segmentHeader
  simp only [e1, List.getD_cons_zero, List.getD_cons_succ]
  have hsync : ∀ fuel, syncMarker fuel s.bytes 0xff m = .ok (m, s.bytes) := by
    intro fuel
    cases fuel <;> simp [syncMarker]
  have hfill : ∀ fuel, skipFill fuel s.bytes m = .ok (m, s.bytes) := by
    intro fuel
    cases fuel <;> simp [skipFill, hff]
  simp only [hsync, hfill]
  rw [if_neg h0, if_neg heoi, if_neg hrst]
  obtain ⟨rf3, _⟩ := readFull_spec
    (decoder.stream { d with bytes := s.bytes, bits := s.bits }) 2 w1 w2
  have hp2 : (decoder.stream { d with bytes := s.bytes, bits := s.bits }).bytes.pending =
      hi :: lo :: rest := w3
  obtain ⟨s3, e3, v1, v2, v3, v4⟩ := rf3 (by rw [hp2]; simp)
  rw [hp2, take_two] at e3
  rw [hp2] at v3
  simp only [List.drop_succ_cons, List.drop_zero] at v3
  have e3' : readFull (decoder.stream
      { d with bytes := s.bytes, bits := s.bits }) 2 = .ok ([hi, lo], s3) := e3
  simp only [e3', List.getD_cons_zero, List.getD_cons_succ]
  rw [if_neg (by omega)]
  have hn : ((((hi <<< 8 + lo : Nat) : Int) - 2).toNat) = hi <<< 8 + lo - 2 := by omega
  rw [hn]
  exact ⟨_, rfl, v1, v2, v3⟩

/-- A segment with an unknown marker among the segments that the loop of
`decode` meets makes the loop fail. -/
theorem decodeLoop_unknown (c : Bool) (fuel : Nat) :
    ∀ (d : decoder) (e : decoder × Nat × Nat), e ∈ decodeTrace c fuel d →
      UnknownMarker e.2.1 → decodeLoop c fuel d = .error (unknownMarkerError e.2.1) := by
  induction fuel with
  | zero =>
    intro d e he hm
    rcases hh : segmentHeader d with er | hdr
    · rw [(round_error c 0 d er hh).2] at he; simp at he
    · rcases hdr with d1 | d1 | ⟨d1, marker, n⟩
      · rw [decodeTrace] at he
        simp [hh] at he
      · rw [(round_eoi c 0 d d1 hh).2] at he; simp at he
      · rcases hmk : decodeMarker c d1 marker n with er | o
        · obtain ⟨r1, r2⟩ := round_seg_error c 0 d d1 marker n er hh hmk
          rw [r2, List.mem_singleton] at he
          subst he
          have hu := decodeMarker_unknown c d1 marker n hm
          rw [hmk] at hu
          simp only [Except.error.injEq] at hu
          rw [r1, hu]
        · have hnot : ¬ UnknownMarker marker := by
            intro hu
            rw [decodeMarker_unknown c d1 marker n hu] at hmk
            simp at hmk
          rw [decodeTrace] at he
          simp only [hh, hmk] at he
          have : e = (d1, marker, n) := by
            rcases o with d2 | d2 | d2 <;> simpa using he
          subst this
          exact absurd hm hnot
  | succ fuel ih =>
    intro d e he hm
    rcases hh : segmentHeader d with er | hdr
    · rw [(round_error c _ d er hh).2] at he; simp at he
    · rcases hdr with d1 | d1 | ⟨d1, marker, n⟩
      · obtain ⟨r1, r2⟩ := round_skip c fuel d d1 hh
        rw [r2] at he
        rw [r1]
        exact ih d1 e he hm
      · rw [(round_eoi c _ d d1 hh).2] at he; simp at he
      · rcases hmk : decodeMarker c d1 marker n with er | o
        · obtain ⟨r1, r2⟩ := round_seg_error c (fuel + 1) d d1 marker n er hh hmk
          rw [r2, List.mem_singleton] at he
          subst he
          have hu := decodeMarker_unknown c d1 marker n hm
          rw [hmk] at hu
          simp only [Except.error.injEq] at hu
          rw [r1, hu]
        · have hnot : ¬ UnknownMarker marker := by
            intro hu
            rw [decodeMarker_unknown c d1 marker n hu] at hmk
            simp at hmk
          rcases o with d2 | d2 | d2
          · obtain ⟨r1, r2⟩ := round_seg_next c fuel d d1 d2 marker n hh hmk
            rw [r2, List.mem_cons] at he
            rcases he with he | he
            · subst he
              exact absurd hm hnot
            · rw [r1]
              exact ih d2 e he hm
          · exact absurd hmk (decodeMarker_ne_eoi c d1 d2 marker n)
          · obtain ⟨r1, r2⟩ := round_seg_ret c (fuel + 1) d d1 d2 marker n hh hmk
            rw [r2, List.mem_singleton] at he
            subst he
            exact absurd hm hnot

theorem unknownMarkerError_eq (m : Nat) :
    unknownMarkerError m =
      if m < 0xc0 then .formatError "unknown marker" else .unsupportedError "unknown marker" :=
  rfl

/-- What `decode` returns when the segment loop fails. -/
theorem decode_of_loop_error (c : Bool) (r : List Nat) (e : decoder × Nat × Nat)
    (he : e ∈ segmentsOf c r) (er : Err)
    (h : ∀ fuel d, e ∈ decodeTrace c fuel d → decodeLoop c fuel d = .error er) :
    decode (decoder.init r) c = .error er := by
  rcases hrf : readFull (decoder.init r).stream 2 with e1 | ⟨tmp, s⟩
  · rw [((decode_bad_start c r).1 e1 hrf).2] at he; simp at he
  · by_cases hsoi : tmp.getD 0 0 ≠ 0xff ∨ tmp.getD 1 0 ≠ soiMarker
    · rw [((decode_bad_start c r).2 tmp s hrf hsoi).2] at he; simp at he
    · obtain ⟨c1, _, _, _, c5⟩ := decode_cases c r tmp s hrf hsoi
      rw [c5] at he
      exact c1 er (h _ _ he)

/-! ## Claim on unknown markers -/

/-- C16: for every marker byte `m` that is none of 0x00, 0xFF, SOF0, SOF1,
SOF2, DHT, DQT, DRI, SOS, EOI, RST0..RST7, APP0..APP15 and COM: when the segment
loop of `decode` meets a segment with the marker `m` behind the SOI marker,
`decode` fails with the FormatError "unknown marker" if `m < 0xC0` and with the
UnsupportedError "unknown marker" if `m >= 0xC0`. The loop meets such a segment
when the bytes that are left start with 0xFF, `m` and a two-byte length of at
least 2, in particular right behind the SOI marker. -/
theorem C16_unknown_marker (c : Bool) (m : Nat) (hm : UnknownMarker m) :
    (∀ r d1 n, (d1, m, n) ∈ segmentsOf c r →
      decode (decoder.init r) c = .error
        (if m < 0xc0 then .formatError "unknown marker"
          else .unsupportedError "unknown marker")) ∧
    (∀ (d : decoder) (fuel hi lo : Nat) (rest : List Nat), d.bytes.WF →
      d.bytes.nUnreadable = 0 → d.bytes.pending = 0xff :: m :: hi :: lo :: rest →
      2 ≤ hi <<< 8 + lo →
      (∃ d1, segmentHeader d = .ok (.seg d1 m (hi <<< 8 + lo - 2))) ∧
      decodeLoop c fuel d = .error
        (if m < 0xc0 then .formatError "unknown marker"
          else .unsupportedError "unknown marker")) ∧
    (∀ (hi lo : Nat) (rest : List Nat), 2 ≤ hi <<< 8 + lo →
      decode (decoder.init (0xff :: soiMarker :: 0xff :: m :: hi :: lo :: rest)) c = .error
        (if m < 0xc0 then .formatError "unknown marker"
          else .unsupportedError "unknown marker")) := by
  have hB : ∀ (d : decoder) (fuel hi lo : Nat) (rest : List Nat), d.bytes.WF →
      d.bytes.nUnreadable = 0 → d.bytes.pending = 0xff :: m :: hi :: lo :: rest →
      2 ≤ hi <<< 8 + lo →
      (∃ d1, segmentHeader d = .ok (.seg d1 m (hi <<< 8 + lo - 2))) ∧
      decodeLoop c fuel d = .error (unknownMarkerError m) := by
    intro d fuel hi lo rest hwf hnu hp hlen
    obtain ⟨d1, h1, _⟩ := segmentHeader_forward d hwf hnu m hi lo rest hp hm.1 hm.2.1
      hm.2.2.2.2.2.2.2.2.2.1 hm.2.2.2.2.2.2.2.2.2.2.1 hlen
    exact ⟨⟨d1, h1⟩,
      (round_seg_error c fuel d d1 m _ _ h1 (decodeMarker_unknown c d1 m _ hm)).1⟩
  refine ⟨?_, ?_, ?_⟩
  · intro r d1 n he
    rw [← unknownMarkerError_eq]
    exact decode_of_loop_error c r (d1, m, n) he _
      (fun fuel d h => decodeLoop_unknown c fuel d (d1, m, n) h hm)
  · intro d fuel hi lo rest hwf hnu hp hlen
    rw [← unknownMarkerError_eq]
    exact hB d fuel hi lo rest hwf hnu hp hlen
  · intro hi lo rest hlen
    rw [← unknownMarkerError_eq]
    obtain ⟨q1, q2, q3, _⟩ := init_ok (0xff :: soiMarker :: 0xff :: m :: hi :: lo :: rest)
    obtain ⟨rf1, _⟩ := readFull_spec
      (decoder.init (0xff :: soiMarker :: 0xff :: m :: hi :: lo :: rest)).stream 2 q1 q2
    have q3' : (decoder.init (0xff :: soiMarker :: 0xff :: m :: hi :: lo :: rest)).stream.bytes.pending
        = 0xff :: soiMarker :: 0xff :: m :: hi :: lo :: rest := q3
    obtain ⟨s, e1, w1, w2, w3, _⟩ := rf1 (by rw [q3']; simp)
    rw [q3', take_two] at e1
    rw [q3'] at w3
    simp only [List.drop_succ_cons, List.drop_zero] at w3
    obtain ⟨c1, _⟩ := decode_cases c _ [0xff, soiMarker] s e1 (by simp)
    exact c1 _ (hB _ _ hi lo rest w1 w2 w3 hlen).2

set_option maxRecDepth 1000000 in
/-- On `lowMarkerStream`, with the marker 0x01 behind the SOI marker, `decode`
fails with a FormatError, and on `highMarkerStream`, with the marker 0xC3 behind
a comment segment, it fails with an UnsupportedError. -/
theorem C16_unknown_marker_witness :
    decode (decoder.init lowMarkerStream) false = .error (.formatError "unknown marker") ∧
    (highMarkerSegment.1, 0xc3, 0) ∈ segmentsOf false highMarkerStream ∧
    decode (decoder.init highMarkerStream) false =
      .error (.unsupportedError "unknown marker") :=
  ⟨(C16_unknown_marker false 0x01 (by decide)).2.2 0x00 0x02 [0xff, 0xd9] (by decide),
    by decide!,
    (C16_unknown_marker false 0xc3 (by decide)).1 highMarkerStream highMarkerSegment.1 0
      (by decide!)⟩

end Jpeg

namespace Jpeg

/-! ## A block of zero coefficients -/

theorem land_zero (x : Int) : Int.land x 0 = 0 := by
  cases x with
  | ofNat a => simp [Int.land]
  | negSucc a =>
    simp only [Int.land]
    show ((Nat.ldiff 0 a : Nat) : Int) = 0
    rw [Nat.ldiff, Nat.bitwise_zero_left]
    rfl

/-- Method `receiveExtend` for the category 0 reads no bits and returns 0. -/
theorem receiveExtend_zero (s : Stream) (hok : s.OK) : receiveExtend s 0 = .ok (0, s) := by
  obtain ⟨_, ⟨h0, h32, _, _⟩, _⟩ := hok
  unfold receiveExtend
  have hn : ¬ s.bits.n < ((0 : Nat) : Int) := by omega
  rw [if_neg hn]
  simp only []
  have e1 : wrap32 (s.bits.n - ((0 : Nat) : Int)) = s.bits.n := by
    rw [Nat.cast_zero, Int.sub_zero]
    exact wrap32_id _ (by omega) (by omega)
  have e2 : wrap32 (shl32 1 0 - 1) = 0 := by decide
  have e3 : shr32 (shl32 1 0) 1 = 0 := by decide
  rw [e1, e2, e3, land_zero, if_neg (by omega)]
  rfl

/-- Method `decodeHuffman` on the canonical code of the `k`-th symbol of a
table that `buildHuffman` has built. -/
theorem decodeHuffman_symbol (h0 : huffman) (counts syms : List Nat) (s : Stream) (k : Nat)
    (h16 : h0.minCodes.length = 16 ∧ h0.maxCodes.length = 16 ∧ h0.valsIndices.length = 16)
    (hv : ValidCounts counts) (hlen : syms.length = counts.sum)
    (hsym : ∀ x ∈ syms, x < 256) (hk : k < syms.length) (hok : s.OK)
    (hbits : (unreadBits s).take ((canonicalCodes counts).getD k (0, 0)).2 =
      codeBits ((canonicalCodes counts).getD k (0, 0)).1
        ((canonicalCodes counts).getD k (0, 0)).2) :
    ∃ s1, decodeHuffman s (buildHuffman h0 counts syms) = .ok (syms.getD k 0, s1) ∧ s1.OK ∧
      unreadBits s1 = (unreadBits s).drop ((canonicalCodes counts).getD k (0, 0)).2 := by
  obtain ⟨i, j, hi, hj, e, hcode⟩ := canonical_index counts hv k (by omega)
  rw [hcode] at hbits ⊢
  have hc := buildHuffman_canonical h0 counts syms hv h16
  have hvals : ∀ k, k < counts.sum → (buildHuffman h0 counts syms).vals.getD k 0 < 256 := by
    intro k1 hk1
    have := buildHuffman_bytes h0 counts syms hlen hsym k1 hk1
    rw [this.1]; exact this.2
  obtain ⟨s1, e1, e2, e3⟩ :=
    decodeHuffman_code _ counts hv hc hvals s hok i j hi hj hbits
  refine ⟨s1, ?_, e2, e3⟩
  rw [e1, ← e, (buildHuffman_bytes h0 counts syms hlen hsym k (by omega)).1]

theorem set_zero_self (u : Nat) : block.zero.set u 0 = block.zero := by
  apply List.ext_getElem?
  intro n
  rw [List.getElem?_set]
  split
  · rename_i h
    subst h
    split
    · rename_i h2
      unfold block.zero at h2 ⊢
      rw [List.length_replicate] at h2
      rw [List.getElem?_replicate, if_pos h2]
    · rename_i h2
      rw [List.getElem?_eq_none (by omega)]
  · rfl

/-- The dequantization loop leaves a block of zeros as it is, whatever the
quantization table. -/
theorem dequantize_zero (qt : block) : dequantize block.zero qt = block.zero := by
  unfold dequantize
  generalize List.range blockSize = l
  induction l with
  | nil => rfl
  | cons z l ih =>
    rw [List.foldl_cons]
    have e : block.zero.getD (unzig.getD z 0) 0 = 0 := by
      unfold block.zero
      rw [List.getD_eq_getElem?_getD, List.getElem?_replicate]
      split <;> rfl
    have e2 : mul32 0 (qt.getD z 0) = 0 := by
      unfold mul32
      rw [Int.zero_mul]
      rfl
    rw [e, e2, set_zero_self]
    exact ih

theorem idct_zero : idct block.zero = block.zero := by decide

/-- The first pass over a block whose entropy data is the DC category 0
followed by the AC end-of-block code. -/
theorem decodeFirstPass_zero (d : decoder) (p : ScanParams) (sc : scanComp) (s s1 s2 : Stream)
    (dc : List Int) (hzs : p.zigStart = 0) (hze : p.zigEnd = 63) (hal : p.al = 0)
    (hdc : dc.getD sc.compIndex 0 = 0)
    (h1 : decodeHuffman s ((d.huff.getD dcTable []).getD sc.td huffman.zero) = .ok (0, s1))
    (hok1 : s1.OK)
    (h2 : decodeHuffman s1 ((d.huff.getD acTable []).getD sc.ta huffman.zero) = .ok (0, s2)) :
    decodeFirstPass d p sc s 0 dc block.zero =
      .ok (block.zero, s2, 0, dc.set sc.compIndex 0) := by
  have e0 : add32 0 0 = 0 := by decide
  have e1 : ((dc.set sc.compIndex 0).getD sc.compIndex 0) = 0 := by
    by_cases hlt : sc.compIndex < dc.length
    · exact getD_set_eq _ _ _ _ hlt
    · rw [List.getD_eq_getElem?_getD, List.getElem?_eq_none (by simp; omega)]
      rfl
  have e2 : shl32 0 0 = 0 := by decide
  have e3 : wrap32 (0 + 1) = 1 := by decide
  have e4 : ((63 : Int) + 1 - 1).toNat = 62 + 1 := by decide
  unfold decodeFirstPass
  simp only [hzs, ↓reduceIte, h1, receiveExtend_zero s1 hok1, hdc, e0, e1, hal, e2,
    set_zero_self, e3, hze, e4]
  have e5 : ¬ ((1 : Int) ≤ 63 ∧ 0 > 0) := by omega
  split
  · rename_i heq
    rw [if_neg (by omega)] at heq
    simp at heq
  · rename_i zig b1 s3 dc1 heq
    rw [if_neg (by omega)] at heq
    simp only [Except.ok.injEq, Prod.mk.injEq] at heq
    obtain ⟨rfl, rfl, rfl, rfl⟩ := heq
    rw [if_neg e5, e4, decodeACLoop, if_pos (by omega)]
    simp only [h2, readEobRun]
    rfl

/-! ## The store loop on a constant block -/

theorem getD_set_const (pix : List Nat) (u v t : Nat) (hu : u < pix.length)
    (h : t = u ∨ pix.getD t 0 = v) : (pix.set u v).getD t 0 = v := by
  by_cases htu : t = u
  · subst htu
    exact getD_set_eq _ _ _ _ hu
  · rw [getD_set_ne _ _ _ _ _ (Ne.symm htu)]
    rcases h with h | h
    · exact absurd h htu
    · exact h

theorem storeRow (v : Nat) (g val : Nat → Nat) (k : Nat) :
    ∀ (i : Nat) (pix : List Nat),
      (∀ j, i ≤ j → j < i + k → g j < pix.length ∧ val j = v) →
      ∃ pix1, forRange (fun x pix => sliceSet pix (g x) (val x)) k i pix = .ok pix1 ∧
        pix1.length = pix.length ∧
        (∀ j, i ≤ j → j < i + k → pix1.getD (g j) 0 = v) ∧
        (∀ t, pix.getD t 0 = v → pix1.getD t 0 = v) := by
  induction k with
  | zero =>
    intro i pix _
    exact ⟨pix, rfl, rfl, fun j h1 h2 => by omega, fun t h => h⟩
  | succ k ih =>
    intro i pix h
    obtain ⟨hlt, hval⟩ := h i (Nat.le_refl _) (by omega)
    obtain ⟨pix1, e1, e2, e3, e4⟩ := ih (i + 1) (pix.set (g i) v)
      (fun j h1 h2 => by
        obtain ⟨a, b⟩ := h j (by omega) (by omega)
        exact ⟨by rw [List.length_set]; exact a, b⟩)
    refine ⟨pix1, ?_, ?_, ?_, ?_⟩
    · rw [forRange]
      simp only [sliceSet, hlt, ↓reduceIte, hval]
      exact e1
    · rw [e2, List.length_set]
    · intro j h1 h2
      by_cases hj : j = i
      · subst hj
        exact e4 _ (getD_set_const pix _ v _ hlt (Or.inl rfl))
      · exact e3 j (by omega) (by omega)
    · intro t ht
      exact e4 t (getD_set_const pix _ v _ hlt (Or.inr ht))

theorem storeRows (v : Nat) (g val : Nat → Nat → Nat) (w k : Nat) :
    ∀ (i : Nat) (pix : List Nat),
      (∀ y x, i ≤ y → y < i + k → x < w → g y x < pix.length ∧ val y x = v) →
      ∃ pix1,
        forRange (fun y pix =>
          forRange (fun x pix => sliceSet pix (g y x) (val y x)) w 0 pix) k i pix = .ok pix1 ∧
        pix1.length = pix.length ∧
        (∀ y x, i ≤ y → y < i + k → x < w → pix1.getD (g y x) 0 = v) ∧
        (∀ t, pix.getD t 0 = v → pix1.getD t 0 = v) := by
  induction k with
  | zero =>
    intro i pix _
    exact ⟨pix, rfl, rfl, fun y x h1 h2 => by omega, fun t h => h⟩
  | succ k ih =>
    intro i pix h
    obtain ⟨pix0, r1, r2, r3, r4⟩ := storeRow v (g i) (val i) w 0 pix
      (fun j _ h2 => h i j (Nat.le_refl _) (by omega) (by omega))
    obtain ⟨pix1, e1, e2, e3, e4⟩ := ih (i + 1) pix0
      (fun y x h1 h2 h3 => by
        obtain ⟨a, b⟩ := h y x (by omega) (by omega) h3
        exact ⟨by rw [r2]; exact a, b⟩)
    refine ⟨pix1, ?_, ?_, ?_, ?_⟩
    · rw [forRange]
      simp only [r1]
      exact e1
    · rw [e2, r2]
    · intro y x h1 h2 h3
      by_cases hy : y = i
      · subst hy
        exact e4 _ (r3 x (Nat.zero_le _) (by omega))
      · exact e3 y x (by omega) (by omega) h3
    · intro t ht
      exact e4 t (r4 t ht)

/-- The store loop writes 128 to the 64 pixels of a block of zeros. -/
theorem storeBlock_zero (pix : List Nat) (off stride : Nat)
    (h : off + 7 * stride + 8 ≤ pix.length) :
    ∃ pix1, storeBlock pix off stride block.zero = .ok pix1 ∧ pix1.length = pix.length ∧
      ∀ y x, y < 8 → x < 8 → pix1.getD (off + (y * stride + x)) 0 = 128 := by
  have hz : ∀ k, levelShift (block.zero.getD k 0) = 128 := by
    intro k
    have : block.zero.getD k 0 = 0 := by
      unfold block.zero
      rw [List.getD_eq_getElem?_getD, List.getElem?_replicate]
      split <;> rfl
    rw [this]
    rfl
  obtain ⟨pix1, e1, e2, e3, _⟩ := storeRows 128 (fun y x => off + (y * stride + x))
    (fun y x => levelShift (block.zero.getD (y * 8 + x) 0)) 8 8 0 pix
    (fun y x _ h2 h3 => by
      refine ⟨?_, hz _⟩
      have : y * stride ≤ 7 * stride := Nat.mul_le_mul_right _ (by omega)
      show off + (y * stride + x) < pix.length
      omega)
  refine ⟨pix1, ?_, e2, fun y x hy hx => e3 y x (Nat.zero_le _) (by omega) hx⟩
  unfold storeBlock
  rw [if_neg (by omega)]
  exact e1

theorem take_append_codes (l a b : List Bool) (n k : Nat) (ha : a.length = n)
    (h : l.take (n + k) = a ++ b) :
    l.take n = a ∧ (l.drop n).take k = b := by
  constructor
  · calc l.take n = (l.take (n + k)).take n := by
          rw [List.take_take, Nat.min_eq_left (Nat.le_add_right n k)]
      _ = (a ++ b).take n := by rw [h]
      _ = a := by
          rw [List.take_append_of_le_length (by omega), List.take_of_length_le (by omega)]
  · calc (l.drop n).take k = (l.take (n + k)).drop n := by
          rw [List.drop_take, Nat.add_sub_cancel_left]
      _ = (a ++ b).drop n := by rw [h]
      _ = b := by
          rw [List.drop_append_of_le_length (by omega), List.drop_of_length_le (by omega),
            List.nil_append]

/-! ## Claim on the block of a minimal scan -/

/-- C13: in a single-component baseline frame, for the first block of a scan
(block count 0, DC predictor 0, no pending end-of-band run) and for every
quantization table: if the unread entropy bits start with the code of the DC
category 0 in the DC table of the scan component, immediately followed by the
code of the end-of-block symbol 0x00 in its AC table, the decoded block has all
64 coefficients equal to 0, exactly the bits of the two codes are consumed, and
the 64 pixels that `scanBlock` writes for the block into the gray image all
have the value 128. -/
theorem C13_zero_block (d : decoder) (p : ScanParams) (st : ScanState) (sc : scanComp)
    (m : Gray) (hD hA : huffman) (cD sD cA sA : List Nat) (kD kA : Nat)
    (hsc : sc = p.scan.getD 0 scanComp.zero)
    (hprog : d.progressive = false) (hn : d.nComp = 1) (hpn : p.nComp = 1)
    (hzs : p.zigStart = 0) (hze : p.zigEnd = 63) (hah : p.ah = 0) (hal : p.al = 0)
    (hmxx : p.mxx * (d.comp.getD sc.compIndex component.zero).h ≠ 0)
    (hw : 0 < d.width) (hh : 0 < d.height)
    (hbc : st.blockCount = 0) (heob : st.eobRun = 0) (hdc : st.dc.getD sc.compIndex 0 = 0)
    (himg : st.img1 = some m) (hpix : 7 * m.Stride + 8 ≤ m.Pix.length)
    (hDt : (d.huff.getD dcTable []).getD sc.td huffman.zero = buildHuffman hD cD sD)
    (hD16 : hD.minCodes.length = 16 ∧ hD.maxCodes.length = 16 ∧ hD.valsIndices.length = 16)
    (hDv : ValidCounts cD) (hDl : sD.length = cD.sum) (hDs : ∀ x ∈ sD, x < 256)
    (hkD : kD < sD.length) (hD0 : sD.getD kD 0 = 0)
    (hAt : (d.huff.getD acTable []).getD sc.ta huffman.zero = buildHuffman hA cA sA)
    (hA16 : hA.minCodes.length = 16 ∧ hA.maxCodes.length = 16 ∧ hA.valsIndices.length = 16)
    (hAv : ValidCounts cA) (hAl : sA.length = cA.sum) (hAs : ∀ x ∈ sA, x < 256)
    (hkA : kA < sA.length) (hA0 : sA.getD kA 0 = 0x00)
    (hok : st.s.OK)
    (hbits : (unreadBits st.s).take
        (((canonicalCodes cD).getD kD (0, 0)).2 + ((canonicalCodes cA).getD kA (0, 0)).2) =
      codeBits ((canonicalCodes cD).getD kD (0, 0)).1 ((canonicalCodes cD).getD kD (0, 0)).2 ++
        codeBits ((canonicalCodes cA).getD kA (0, 0)).1
          ((canonicalCodes cA).getD kA (0, 0)).2) :
    ∃ st1 pix,
      decodeBlock d p sc { st with blockCount := st.blockCount + 1 } block.zero =
        .ok (block.zero, st1) ∧
      unreadBits st1.s = (unreadBits st.s).drop
        (((canonicalCodes cD).getD kD (0, 0)).2 + ((canonicalCodes cA).getD kA (0, 0)).2) ∧
      scanBlock d p 0 0 0 0 st = .ok { st1 with img1 := some { m with Pix := pix } } ∧
      pix.length = m.Pix.length ∧
      ∀ y x, y < 8 → x < 8 → pix.getD (y * m.Stride + x) 0 = 128 := by
  obtain ⟨b1, b2⟩ := take_append_codes _ _ _ _ _ (codeBits_length _ _) hbits
  obtain ⟨s1, d1, ok1, u1⟩ := decodeHuffman_symbol hD cD sD st.s kD hD16 hDv hDl hDs hkD hok b1
  obtain ⟨s2, d2, ok2, u2⟩ := decodeHuffman_symbol hA cA sA s1 kA hA16 hAv hAl hAs hkA ok1
    (by rw [u1]; exact b2)
  rw [hD0, ← hDt] at d1
  rw [hA0, ← hAt] at d2
  have hfp := decodeFirstPass_zero d p sc st.s s1 s2 st.dc hzs hze hal hdc d1 ok1 d2
  have hdb : decodeBlock d p sc { st with blockCount := st.blockCount + 1 } block.zero =
      .ok (block.zero,
        { st with blockCount := st.blockCount + 1, s := s2, eobRun := 0,
                  dc := st.dc.set sc.compIndex 0 }) := by
    unfold decodeBlock
    rw [if_neg (by rw [hah]; exact fun h => h rfl)]
    simp only [heob, hfp]
  obtain ⟨pix, p1, p2, p3⟩ := storeBlock_zero m.Pix (8 * (0 * m.Stride + 0)) m.Stride
    (by omega)
  refine ⟨_, pix, hdb, ?_, ?_, p2, ?_⟩
  · show unreadBits s2 = _
    rw [u2, u1, List.drop_drop, Nat.add_comm]
  · unfold scanBlock
    simp only [← hsc]
    rw [if_neg (by rw [hpn]; exact fun h => h.1 rfl), if_neg (fun h => hmxx h.2)]
    simp only [hpn, ne_eq, not_true_eq_false, ↓reduceIte, hbc, Nat.zero_mod, Nat.zero_div,
      Nat.zero_mul, Nat.add_zero]
    rw [if_neg (by omega)]
    have hload : ∀ idx, loadBlock d { st with blockCount := 0 + 1 } sc.compIndex idx =
        .ok block.zero := by
      intro idx
      unfold loadBlock
      rw [hprog]
      rfl
    rw [hbc] at hdb
    simp only [hload, hdb]
    unfold finishBlock
    rw [if_neg (by rw [hprog]; simp)]
    unfold reconstructBlock
    simp only [dequantize_zero, idct_zero, hn, ↓reduceIte, himg, p1]
  · intro y x hy hx
    have := p3 y x hy hx
    rw [show 8 * (0 * m.Stride + 0) + (y * m.Stride + x) = y * m.Stride + x by omega] at this
    exact this

set_option maxRecDepth 1000000 in
set_option maxHeartbeats 4000000 in
/-- The first block of the scan of `rstStream`, whose entropy data starts with
the bits 0 and 0, the codes of the DC category 0 and of the end-of-block symbol:
the 64 pixels of the block are 128. -/
theorem C13_zero_block_witness :
    (unreadBits rstSetup.2.2.st.s).take 2 = [false, false] ∧
    ∃ st1 pix,
      decodeBlock rstSetup.1 rstSetup.2.1 { compIndex := 0, td := 0, ta := 0 }
          { rstSetup.2.2.st with blockCount := rstSetup.2.2.st.blockCount + 1 } block.zero =
        .ok (block.zero, st1) ∧
      scanBlock rstSetup.1 rstSetup.2.1 0 0 0 0 rstSetup.2.2.st =
        .ok { st1 with img1 := some { rstImage with Pix := pix } } ∧
      ∀ y x, y < 8 → x < 8 → pix.getD (y * rstImage.Stride + x) 0 = 128 := by
  have hv : ValidCounts oneCode := ⟨by decide, by decide, by decide, by decide⟩
  obtain ⟨st1, pix, h1, _, h3, _, h5⟩ :=
    C13_zero_block rstSetup.1 rstSetup.2.1 rstSetup.2.2.st { compIndex := 0, td := 0, ta := 0 }
      rstImage huffman.zero huffman.zero oneCode [0] oneCode [0] 0 0
      (by decide!) (by decide!) (by decide!) (by decide!) (by decide!) (by decide!)
      (by decide!) (by decide!) (by decide!) (by decide!) (by decide!) (by decide!)
      (by decide!) (by decide!) (by decide!) (by decide!)
      (by decide!) ⟨by decide, by decide, by decide⟩ hv (by decide) (by decide) (by decide)
      (by decide)
      (by decide!) ⟨by decide, by decide, by decide⟩ hv (by decide) (by decide) (by decide)
      (by decide)
      ⟨⟨by decide!, by decide!, by decide!⟩, ⟨by decide!, by decide!, by decide!, by decide!⟩,
        by decide!⟩
      (by decide!)
  exact ⟨by decide!, st1, pix, h1, h3, h5⟩

end Jpeg

namespace Jpeg

/-! ## Readers that differ in how the bytes are buffered -/

theorem rel_error {α : Type} (Q : α → α → Prop) (e : Err) : Rel Q (.error e) (.error e) :=
  ⟨fun _ h => h, fun a h => by simp at h⟩

theorem rel_ok {α : Type} (Q : α → α → Prop) (a a1 : α) (h : Q a a1) : Rel Q (.ok a) (.ok a1) :=
  ⟨fun e h => by simp at h, fun x hx => by
    simp only [Except.ok.injEq] at hx
    subst hx
    exact ⟨a1, rfl, h⟩⟩

theorem readsAs_length (b : bytes) (hwf : b.WF) (k : Nat) (l : List Nat) (h : b.ReadsAs k l) :
    l.length = k + b.pending.length := by
  obtain ⟨h1, h2⟩ := h
  obtain ⟨w1, w2, w3⟩ := hwf
  rw [← h2, bytes.pending]
  simp only [List.length_append, List.length_drop, List.length_take]
  omega

theorem readsAs_pending (b : bytes) (hwf : b.WF) (k : Nat) (l : List Nat) (h : b.ReadsAs k l) :
    b.pending = l.drop k := by
  have := ReadsAs_drop b hwf k 0 l h (Nat.zero_le _)
  rw [Nat.sub_zero] at this
  exact (ReadsAs_zero _ _).1 this

theorem same_pending (b b1 : bytes) (h : b.Same b1) : b.pending = b1.pending := by
  obtain ⟨⟨w, w1, _, _, _, l, r, r1⟩, hn⟩ := h
  rw [readsAs_pending b w _ l r, readsAs_pending b1 w1 _ l r1, hn]

theorem same_of_pending (b b1 : bytes) (w : b.WF) (w1 : b1.WF) (h0 : b.nUnreadable = 0)
    (h1 : b1.nUnreadable = 0) (hp : b.pending = b1.pending) : b.Same b1 := by
  refine ⟨⟨w, w1, by omega, by omega, by rw [h0, h1], b.pending, ?_, ?_⟩, by rw [h0, h1]⟩
  · rw [h0]; exact (ReadsAs_zero _ _).2 rfl
  · rw [h1]; exact (ReadsAs_zero _ _).2 hp.symm

theorem same_of_readsAs (b b1 : bytes) (w : b.WF) (w1 : b1.WF) (l : List Nat)
    (h2 : b.nUnreadable ≤ 2) (r : b.ReadsAs b.nUnreadable l)
    (r1 : b1.ReadsAs b1.nUnreadable l) (hp : b.pending = b1.pending) : b.Same b1 := by
  have e := readsAs_length b w _ l r
  have e1 := readsAs_length b1 w1 _ l r1
  have hn : b.nUnreadable = b1.nUnreadable := by rw [hp] at e; omega
  exact ⟨⟨w, w1, h2, by omega, by rw [hn], l, r, r1⟩, hn⟩

theorem same_remaining (b b1 : bytes) (h : b.Same b1) : b.remaining = b1.remaining := by
  rw [remaining_eq b h.1.1, remaining_eq b1 h.1.2.1, same_pending b b1 h]

/-- Method `readByte` on readers with the same bytes left. -/
theorem readByte_rel (b b1 : bytes) (w : b.WF) (w1 : b1.WF) (hp : b.pending = b1.pending) :
    (readByte b).2 = (readByte b1).2 ∧
      (∀ x, (readByte b).2 = .ok x →
        (readByte b).1.Same (readByte b1).1 ∧ (readByte b).1.nUnreadable = 0 ∧
          (readByte b1).1.nUnreadable = 0 ∧ b.pending = x :: (readByte b).1.pending) := by
  rcases hl : b.pending with _ | ⟨x, rest⟩
  · obtain ⟨c, hc⟩ := (readByte_pending b w).2 hl
    obtain ⟨c1, hc1⟩ := (readByte_pending b1 w1).2 (hp ▸ hl)
    rw [hc, hc1]
    exact ⟨rfl, by intro x hx; simp at hx⟩
  · obtain ⟨c, hc, a1, a2, a3⟩ := (readByte_pending b w).1 x rest hl
    obtain ⟨c1, hc1, d1, d2, d3⟩ := (readByte_pending b1 w1).1 x rest (hp ▸ hl)
    rw [hc, hc1]
    refine ⟨rfl, ?_⟩
    intro y hy
    simp only [Except.ok.injEq] at hy
    subst hy
    exact ⟨same_of_pending c c1 a1 d1 a2 d2 (by rw [a3, d3]), a2, d2, by rw [a3]⟩

/-- The error of `readByteStuffedByte` when the bytes that are left do not
start with a byte of entropy-coded data. -/
theorem readByteStuffedByte_none (b : bytes) (hwf : b.WF) (hs : stuffedHead b.pending = none) :
    (readByteStuffedByte b).2 =
        .error (if b.pending.length < 2 then .eof else errMissingFF00) ∧
      ((readByteStuffedByte b).1.nUnreadable = 0 ↔ b.pending = []) := by
  have hlen := pending_length b hwf
  rcases hl : b.pending with _ | ⟨x, rest⟩
  · rw [hl] at hlen
    have hslow : ¬ b.i + 2 ≤ b.j := by simp at hlen; omega
    have hwf0 : ({ b with nUnreadable := 0 } : bytes).WF := hwf
    obtain ⟨b1, g1, g2, g3, g4⟩ := readByte_eof _ hwf0 hl
    unfold readByteStuffedByte
    rw [if_neg hslow, g1]
    exact ⟨rfl, by simp [g3]⟩
  · have hx : x = 0xff := by
      by_contra hne
      rw [hl, stuffedHead_ne _ _ hne] at hs
      simp at hs
    subst hx
    have hra : b.ReadsAs 0 (0xff :: rest) := (ReadsAs_zero b _).mpr hl
    rcases rest with _ | ⟨y, rest1⟩
    · rw [hl] at hlen
      have hslow : ¬ b.i + 2 ≤ b.j := by simp at hlen; omega
      have hwf0 : ({ b with nUnreadable := 0 } : bytes).WF := hwf
      obtain ⟨b1, g1, g2, g3, g4, g5⟩ :=
        readByte_spec _ hwf0 0 [] [] 0xff (by omega) rfl hra
      have hwf2 : ({ b1 with nUnreadable := 1 } : bytes).WF := g2
      obtain ⟨b3, k1, k2, k3, k4⟩ := readByte_eof _ hwf2 ((ReadsAs_zero _ _).mp g4)
      unfold readByteStuffedByte
      rw [if_neg hslow, g1]
      simp only [ne_eq, not_true_eq_false, ↓reduceIte, k1]
      refine ⟨rfl, ?_⟩
      rw [k3]
      simp
    · have hy : y ≠ 0x00 := by
        intro h0
        rw [hl, h0, stuffedHead_ff_zero] at hs
        simp at hs
      have hm := readByteStuffedByte_missing b hwf y rest1 hl hy
      have h2 : ¬ (rest1.length + 1 + 1 < 2) := by omega
      refine ⟨by rw [hm]; simp only [List.length_cons, if_neg h2], ?_⟩
      have hnu : (readByteStuffedByte b).1.nUnreadable ≠ 0 := by
        unfold readByteStuffedByte
        by_cases hfast : b.i + 2 ≤ b.j
        · rw [if_pos hfast]
          simp only []
          split
          · simp
          · split <;> simp
        · rw [if_neg hfast]
          have hwf0 : ({ b with nUnreadable := 0 } : bytes).WF := hwf
          obtain ⟨c1, g1, g2, g3, g4, g5⟩ :=
            readByte_spec _ hwf0 0 [] (y :: rest1) 0xff (by omega) rfl hra
          rw [g1]
          simp only [ne_eq, not_true_eq_false, ↓reduceIte]
          have hwf2 : ({ c1 with nUnreadable := 1 } : bytes).WF := g2
          have hra2 : ({ c1 with nUnreadable := 1 } : bytes).ReadsAs 1 ([0xff] ++ y :: rest1) :=
            g3
          obtain ⟨c3, k1, k2, k3, k4, k5⟩ :=
            readByte_spec _ hwf2 1 [0xff] rest1 y (by omega) rfl hra2
          rw [k1]
          simp only []
          split <;> simp
      constructor
      · intro h0; exact absurd h0 hnu
      · intro h0; simp at h0

/-- Method `readByteStuffedByte` on readers with the same bytes left: the same
value or error; after a value the readers can unread the same bytes. -/
theorem readByteStuffedByte_rel (b b1 : bytes) (w : b.WF) (w1 : b1.WF)
    (hp : b.pending = b1.pending) :
    (readByteStuffedByte b).2 = (readByteStuffedByte b1).2 ∧
      (readByteStuffedByte b).1.Sim (readByteStuffedByte b1).1 ∧
      (∀ c, (readByteStuffedByte b).2 = .ok c →
        (readByteStuffedByte b).1.Same (readByteStuffedByte b1).1) := by
  obtain ⟨c, r, e, a1, a2, a3, a4, a5⟩ := readByteStuffedByte_spec b w b.pending rfl
  obtain ⟨c1, r1, e1, d1, d2, d3, d4, d5⟩ := readByteStuffedByte_spec b1 w1 b.pending hp.symm
  rcases hs : stuffedHead b.pending with _ | ⟨x, rest⟩
  · obtain ⟨n1, n2⟩ := readByteStuffedByte_none b w hs
    obtain ⟨m1, m2⟩ := readByteStuffedByte_none b1 w1 (by rw [← hp]; exact hs)
    rw [e] at n1 n2
    rw [e1] at m1 m2
    simp only [] at n1 n2 m1 m2
    rw [e, e1]
    refine ⟨by rw [n1, m1, hp], ⟨a1, d1, a2, d2, by rw [n2, m2, hp], b.pending, a3, d3⟩, ?_⟩
    intro x hx
    simp only [] at hx
    rw [n1] at hx
    simp at hx
  · obtain ⟨rfl, p1⟩ := a4 x rest hs
    obtain ⟨rfl, p2⟩ := d4 x rest hs
    rw [e, e1]
    have hsame : c.Same c1 := same_of_readsAs c c1 a1 d1 b.pending a2 a3 d3 (by rw [p1, p2])
    exact ⟨rfl, hsame.1, fun _ _ => hsame⟩

/-- Method `unreadByteStuffedByte` on related inputs. -/
theorem unreadByteStuffedByte_rel (s s1 : Stream) (h : s.Sim s1) :
    (unreadByteStuffedByte s).Same (unreadByteStuffedByte s1) ∧
      (unreadByteStuffedByte s).bytes.nUnreadable = 0 ∧
      (unreadByteStuffedByte s1).bytes.nUnreadable = 0 := by
  obtain ⟨hb, w, w1, _, _, _, l, r, r1⟩ := h
  have key : ∀ (t : Stream), t.bytes.WF → t.bytes.ReadsAs t.bytes.nUnreadable l →
      (unreadByteStuffedByte t).bytes.WF ∧ (unreadByteStuffedByte t).bytes.nUnreadable = 0 ∧
        (unreadByteStuffedByte t).bytes.pending = l ∧
        (unreadByteStuffedByte t).bits =
          (if t.bits.n ≥ 8 then { a := t.bits.a >>> 8, n := t.bits.n - 8, m := t.bits.m >>> 8 }
            else t.bits) := by
    intro t wt rt
    obtain ⟨t1, t2, t3⟩ := wt
    obtain ⟨r1, r2⟩ := rt
    unfold unreadByteStuffedByte
    split
    · exact ⟨⟨t1, by show t.bytes.i - t.bytes.nUnreadable ≤ t.bytes.j; omega, t3⟩, rfl, r2, rfl⟩
    · exact ⟨⟨t1, by show t.bytes.i - t.bytes.nUnreadable ≤ t.bytes.j; omega, t3⟩, rfl, r2, rfl⟩
  obtain ⟨k1, k2, k3, k4⟩ := key s w r
  obtain ⟨m1, m2, m3, m4⟩ := key s1 w1 r1
  exact ⟨⟨by rw [k4, m4, hb], same_of_pending _ _ k1 m1 k2 m2 (by rw [k3, m3])⟩, k2, m2⟩

theorem unreadOvershot_char (t : Stream) (wt : t.bytes.WF) (l : List Nat)
    (hr : t.bytes.ReadsAs t.bytes.nUnreadable l) :
    (unreadOvershot t).bytes.WF ∧ (unreadOvershot t).bytes.nUnreadable = 0 ∧
      (unreadOvershot t).bytes.pending =
        (if t.bytes.nUnreadable ≠ 0 ∧ t.bits.n ≥ 8 then l else l.drop t.bytes.nUnreadable) ∧
      (unreadOvershot t).bits =
        (if t.bytes.nUnreadable ≠ 0 ∧ t.bits.n ≥ 8 then
          { a := t.bits.a >>> 8, n := t.bits.n - 8, m := t.bits.m >>> 8 } else t.bits) := by
  have hp := readsAs_pending t.bytes wt _ l hr
  obtain ⟨t1, t2, t3⟩ := wt
  obtain ⟨r1, r2⟩ := hr
  by_cases h0 : t.bytes.nUnreadable ≠ 0
  · by_cases h8 : t.bits.n ≥ 8
    · rw [if_pos ⟨h0, h8⟩, if_pos ⟨h0, h8⟩]
      unfold unreadOvershot
      rw [if_pos h0]
      simp only [h8, ↓reduceIte, unreadByteStuffedByte]
      exact ⟨⟨t1, by show t.bytes.i - t.bytes.nUnreadable ≤ t.bytes.j; omega, t3⟩, trivial, r2,
        trivial⟩
    · rw [if_neg (fun h => h8 h.2), if_neg (fun h => h8 h.2)]
      unfold unreadOvershot
      rw [if_pos h0]
      simp only [h8, ↓reduceIte]
      exact ⟨⟨t1, t2, t3⟩, trivial, hp, trivial⟩
  · rw [if_neg (fun h => h0 h.1), if_neg (fun h => h0 h.1)]
    unfold unreadOvershot
    rw [if_neg h0]
    have hz : t.bytes.nUnreadable = 0 := by omega
    refine ⟨⟨t1, t2, t3⟩, hz, ?_, rfl⟩
    rw [hp]

/-- The prologue of `readFull` and `ignore` on related inputs. -/
theorem unreadOvershot_rel (s s1 : Stream) (h : s.Same s1) :
    (unreadOvershot s).Same (unreadOvershot s1) ∧
      (unreadOvershot s).bytes.nUnreadable = 0 ∧ (unreadOvershot s1).bytes.nUnreadable = 0 := by
  obtain ⟨hb, ⟨w, w1, _, _, _, l, r, r1⟩, hn⟩ := h
  obtain ⟨k1, k2, k3, k4⟩ := unreadOvershot_char s w l r
  obtain ⟨m1, m2, m3, m4⟩ := unreadOvershot_char s1 w1 l r1
  refine ⟨⟨?_, same_of_pending _ _ k1 m1 k2 m2 ?_⟩, k2, m2⟩
  · rw [k4, m4, hb, hn]
  · rw [k3, m3, hb, hn]

theorem unreadOvershot_idem (s : Stream) (h : s.bytes.nUnreadable = 0) :
    unreadOvershot s = s := by
  unfold unreadOvershot
  rw [if_neg (by rw [h]; exact fun h => h rfl)]

theorem readFull_unread (s : Stream) (k : Nat) :
    readFull s k = readFull (unreadOvershot s) k := by
  have h0 : (unreadOvershot s).bytes.nUnreadable = 0 := by
    unfold unreadOvershot
    split
    · rfl
    · rename_i h; simpa using h
  conv_rhs => rw [readFull, unreadOvershot_idem _ h0]
  rfl

theorem ignore_unread (s : Stream) (n : Nat) :
    ignore s n = ignore (unreadOvershot s) n := by
  have h0 : (unreadOvershot s).bytes.nUnreadable = 0 := by
    unfold unreadOvershot
    split
    · rfl
    · rename_i h; simpa using h
  conv_rhs => rw [ignore, unreadOvershot_idem _ h0]
  rfl

/-- Method `readFull` on related inputs. -/
theorem readFull_rel (s s1 : Stream) (k : Nat) (h : s.Same s1) :
    Rel SameOut (readFull s k) (readFull s1 k) ∧
      ∀ p t, readFull s k = .ok (p, t) → t.bytes.nUnreadable = 0 := by
  obtain ⟨⟨hb, hs⟩, n0, n1⟩ := unreadOvershot_rel s s1 h
  have hp := same_pending _ _ hs
  obtain ⟨f1, f2⟩ := readFull_spec (unreadOvershot s) k hs.1.1 n0
  obtain ⟨g1, g2⟩ := readFull_spec (unreadOvershot s1) k hs.1.2.1 n1
  rw [readFull_unread s k, readFull_unread s1 k]
  rcases Nat.lt_or_ge (unreadOvershot s).bytes.pending.length k with hk | hk
  · rw [f2 hk, g2 (by rw [← hp]; exact hk)]
    exact ⟨rel_error _ _, by intro p t ht; simp at ht⟩
  · obtain ⟨t, e1, a1, a2, a3, a4⟩ := f1 hk
    obtain ⟨t1, e2, d1, d2, d3, d4⟩ := g1 (by rw [← hp]; exact hk)
    rw [e1, e2, ← hp]
    refine ⟨rel_ok _ _ _ ⟨rfl, by rw [a4, d4, hb],
      same_of_pending _ _ a1 d1 a2 d2 (by rw [a3, d3, hp])⟩, ?_⟩
    intro p t2 ht
    simp only [Except.ok.injEq, Prod.mk.injEq] at ht
    rw [← ht.2]
    exact a2

/-- Method `ignore` on related inputs. -/
theorem ignore_rel (s s1 : Stream) (n : Nat) (h : s.Same s1) :
    Rel Stream.Same (ignore s n) (ignore s1 n) ∧
      ∀ t, ignore s n = .ok t → t.bytes.nUnreadable = 0 := by
  obtain ⟨⟨hb, hs⟩, n0, n1⟩ := unreadOvershot_rel s s1 h
  have hp := same_pending _ _ hs
  obtain ⟨f1, f2⟩ := ignore_spec (unreadOvershot s) n hs.1.1 n0
  obtain ⟨g1, g2⟩ := ignore_spec (unreadOvershot s1) n hs.1.2.1 n1
  rw [ignore_unread s n, ignore_unread s1 n]
  rcases Nat.lt_or_ge (unreadOvershot s).bytes.pending.length n with hk | hk
  · rw [f2 hk, g2 (by rw [← hp]; exact hk)]
    exact ⟨rel_error _ _, by intro t ht; simp at ht⟩
  · obtain ⟨t, e1, a1, a2, a3, a4⟩ := f1 hk
    obtain ⟨t1, e2, d1, d2, d3, d4⟩ := g1 (by rw [← hp]; exact hk)
    rw [e1, e2]
    refine ⟨rel_ok _ _ _ ⟨by rw [a4, d4, hb],
      same_of_pending _ _ a1 d1 a2 d2 (by rw [a3, d3, hp])⟩, ?_⟩
    intro t2 ht
    simp only [Except.ok.injEq] at ht
    rw [← ht]
    exact a2

end Jpeg

namespace Jpeg

/-! ## The bit reader on related inputs -/

theorem rel_ite {α : Type} (Q : α → α → Prop) (c : Prop) [Decidable c]
    (x y x1 y1 : Except Err α) (hx : c → Rel Q x x1) (hy : ¬ c → Rel Q y y1) :
    Rel Q (if c then x else y) (if c then x1 else y1) := by
  by_cases hc : c
  · rw [if_pos hc, if_pos hc]; exact hx hc
  · rw [if_neg hc, if_neg hc]; exact hy hc

theorem same_sim (s s1 : Stream) (h : s.Same s1) : s.Sim s1 := ⟨h.1, h.2.1⟩

theorem same_bits (s s1 : Stream) (h : s.Same s1) (b : bits) :
    ({ s with bits := b } : Stream).Same { s1 with bits := b } := ⟨rfl, h.2⟩

theorem ensureNBitsLoop_rel (n : Int) (fuel : Nat) :
    ∀ (s s1 : Stream), s.Same s1 →
      (ensureNBitsLoop fuel s n).2 = (ensureNBitsLoop fuel s1 n).2 ∧
        (ensureNBitsLoop fuel s n).1.Sim (ensureNBitsLoop fuel s1 n).1 ∧
        ((ensureNBitsLoop fuel s n).2 = none →
          (ensureNBitsLoop fuel s n).1.Same (ensureNBitsLoop fuel s1 n).1) := by
  induction fuel with
  | zero =>
    intro s s1 h
    obtain ⟨hb, hs⟩ := h
    obtain ⟨q1, q2, q3⟩ := readByteStuffedByte_rel s.bytes s1.bytes hs.1.1 hs.1.2.1
      (same_pending _ _ hs)
    rw [ensureNBitsLoop, ensureNBitsLoop]
    rcases e : readByteStuffedByte s.bytes with ⟨c, r⟩
    rcases e1 : readByteStuffedByte s1.bytes with ⟨c1, r1⟩
    rw [e, e1] at q1 q2 q3
    simp only [] at q1 q2 q3
    subst q1
    rw [← hb]
    rcases r with er | x
    · exact ⟨rfl, ⟨rfl, q2⟩, by intro h; simp at h⟩
    · have hsame := q3 x rfl
      simp only []
      split
      · exact ⟨rfl, ⟨rfl, hsame.1⟩, fun _ => ⟨rfl, hsame⟩⟩
      · exact ⟨rfl, ⟨rfl, hsame.1⟩, fun _ => ⟨rfl, hsame⟩⟩
  | succ fuel ih =>
    intro s s1 h
    obtain ⟨hb, hs⟩ := h
    obtain ⟨q1, q2, q3⟩ := readByteStuffedByte_rel s.bytes s1.bytes hs.1.1 hs.1.2.1
      (same_pending _ _ hs)
    rw [ensureNBitsLoop, ensureNBitsLoop]
    rcases e : readByteStuffedByte s.bytes with ⟨c, r⟩
    rcases e1 : readByteStuffedByte s1.bytes with ⟨c1, r1⟩
    rw [e, e1] at q1 q2 q3
    simp only [] at q1 q2 q3
    subst q1
    rw [← hb]
    rcases r with er | x
    · exact ⟨rfl, ⟨rfl, q2⟩, by intro h; simp at h⟩
    · have hsame := q3 x rfl
      simp only []
      split
      · exact ⟨rfl, ⟨rfl, hsame.1⟩, fun _ => ⟨rfl, hsame⟩⟩
      · exact ih _ _ ⟨rfl, hsame⟩

theorem ensureNBits_rel (s s1 : Stream) (n : Int) (h : s.Same s1) :
    (ensureNBits s n).2 = (ensureNBits s1 n).2 ∧ (ensureNBits s n).1.Sim (ensureNBits s1 n).1 ∧
      ((ensureNBits s n).2 = none → (ensureNBits s n).1.Same (ensureNBits s1 n).1) := by
  unfold ensureNBits
  rw [← h.1]
  exact ensureNBitsLoop_rel n _ s s1 h

/-- The conditional call of `ensureNBits` that starts the methods of the bit
reader. -/
theorem ensureIf_rel (s s1 : Stream) (n : Int) (c : Prop) [Decidable c] (h : s.Same s1) :
    (if c then ensureNBits s n else (s, none)).2 =
        (if c then ensureNBits s1 n else (s1, none)).2 ∧
      ((if c then ensureNBits s n else (s, none)).2 = none →
        (if c then ensureNBits s n else (s, none)).1.Same
          (if c then ensureNBits s1 n else (s1, none)).1) := by
  by_cases hc : c
  · rw [if_pos hc, if_pos hc]
    obtain ⟨a, _, b⟩ := ensureNBits_rel s s1 n h
    exact ⟨a, b⟩
  · rw [if_neg hc, if_neg hc]
    exact ⟨rfl, fun _ => h⟩

theorem receiveExtend_rel (s s1 : Stream) (t : Nat) (h : s.Same s1) :
    Rel SameOut (receiveExtend s t) (receiveExtend s1 t) := by
  unfold receiveExtend
  rw [← h.1]
  obtain ⟨q1, q2⟩ := ensureIf_rel s s1 t (s.bits.n < (t : Int)) h
  rcases e : (if s.bits.n < (t : Int) then ensureNBits s t else (s, none)) with ⟨u, o⟩
  rcases e1 : (if s.bits.n < (t : Int) then ensureNBits s1 t else (s1, none)) with ⟨u1, o1⟩
  rw [e, e1] at q1 q2
  simp only [] at q1 q2 ⊢
  subst q1
  rcases o with _ | er
  · have hu := q2 rfl
    simp only []
    rw [← hu.1]
    exact rel_ok _ _ _ ⟨rfl, same_bits _ _ hu _⟩
  · exact rel_error _ _

theorem decodeBit_rel (s s1 : Stream) (h : s.Same s1) :
    Rel SameOut (decodeBit s) (decodeBit s1) := by
  unfold decodeBit
  rw [← h.1]
  obtain ⟨q1, q2⟩ := ensureIf_rel s s1 1 (s.bits.n = 0) h
  rcases e : (if s.bits.n = 0 then ensureNBits s 1 else (s, none)) with ⟨u, o⟩
  rcases e1 : (if s.bits.n = 0 then ensureNBits s1 1 else (s1, none)) with ⟨u1, o1⟩
  rw [e, e1] at q1 q2
  simp only [] at q1 q2 ⊢
  subst q1
  rcases o with _ | er
  · have hu := q2 rfl
    simp only []
    rw [← hu.1]
    exact rel_ok _ _ _ ⟨rfl, same_bits _ _ hu _⟩
  · exact rel_error _ _

theorem decodeBits_rel (s s1 : Stream) (n : Int) (h : s.Same s1) :
    Rel SameOut (decodeBits s n) (decodeBits s1 n) := by
  unfold decodeBits
  rw [← h.1]
  obtain ⟨q1, q2⟩ := ensureIf_rel s s1 n (s.bits.n < n) h
  rcases e : (if s.bits.n < n then ensureNBits s n else (s, none)) with ⟨u, o⟩
  rcases e1 : (if s.bits.n < n then ensureNBits s1 n else (s1, none)) with ⟨u1, o1⟩
  rw [e, e1] at q1 q2
  simp only [] at q1 q2 ⊢
  subst q1
  rcases o with _ | er
  · have hu := q2 rfl
    simp only []
    rw [← hu.1]
    exact rel_ok _ _ _ ⟨rfl, same_bits _ _ hu _⟩
  · exact rel_error _ _

/-! ## The Huffman decoder on related inputs -/

theorem slowPath_rel (h : huffman) (k : Nat) :
    ∀ (i : Nat) (code : Int) (s s1 : Stream), s.Same s1 →
      Rel SameOut (slowPath h k i code s) (slowPath h k i code s1) := by
  induction k with
  | zero =>
    intro i code s s1 _
    rw [slowPath, slowPath]
    exact rel_error _ _
  | succ k ih =>
    intro i code s s1 hs
    rw [slowPath, slowPath]
    rw [← hs.1]
    obtain ⟨q1, q2⟩ := ensureIf_rel s s1 1 (s.bits.n = 0) hs
    rcases e : (if s.bits.n = 0 then ensureNBits s 1 else (s, none)) with ⟨u, o⟩
    rcases e1 : (if s.bits.n = 0 then ensureNBits s1 1 else (s1, none)) with ⟨u1, o1⟩
    rw [e, e1] at q1 q2
    simp only [] at q1 q2 ⊢
    subst q1
    rcases o with _ | er
    · have hu := q2 rfl
      simp only []
      rw [← hu.1]
      generalize (if u.bits.a &&& u.bits.m ≠ 0 then Int.lor code 1 else code) = code1
      apply rel_ite
      · intro _
        apply rel_ite
        · intro _; exact rel_error _ _
        · intro _; exact rel_ok _ _ _ ⟨rfl, same_bits _ _ hu _⟩
      · intro _; exact ih _ _ _ _ (same_bits _ _ hu _)
    · exact rel_error _ _

theorem lutPath_rel (h : huffman) (s s1 : Stream) (hs : s.Same s1) :
    Rel SameOut (lutPath h s) (lutPath h s1) := by
  unfold lutPath
  rw [← hs.1]
  simp only []
  apply rel_ite
  · intro _; exact rel_ok _ _ _ ⟨rfl, same_bits _ _ hs _⟩
  · intro _; exact slowPath_rel h _ _ _ _ _ hs

theorem decodeHuffman_rel (s s1 : Stream) (h : huffman) (hs : s.Same s1) :
    Rel SameOut (decodeHuffman s h) (decodeHuffman s1 h) := by
  unfold decodeHuffman
  rw [← hs.1]
  apply rel_ite
  · intro _; exact rel_error _ _
  · intro _
    apply rel_ite
    · intro _
      obtain ⟨q1, q2, q3⟩ := ensureNBits_rel s s1 8 hs
      rcases e : ensureNBits s 8 with ⟨u, o⟩
      rcases e1 : ensureNBits s1 8 with ⟨u1, o1⟩
      rw [e, e1] at q1 q2 q3
      simp only [] at q1 q2 q3 ⊢
      subst q1
      rcases o with _ | er
      · exact lutPath_rel h _ _ (q3 rfl)
      · simp only []
        apply rel_ite
        · intro _; exact rel_error _ _
        · intro _
          have hiff := q2.2.2.2.2.2.1
          by_cases h0 : u.bytes.nUnreadable ≠ 0
          · rw [if_pos h0, if_pos (fun hc => h0 (hiff.2 hc))]
            exact slowPath_rel h _ _ _ _ _ (unreadByteStuffedByte_rel u u1 q2).1
          · rw [if_neg h0, if_neg (fun hc => hc (hiff.1 (by omega)))]
            have hz : u.bytes.nUnreadable = 0 := by omega
            exact slowPath_rel h _ _ _ _ _
              ⟨q2.1, q2.2, by rw [hz, hiff.1 hz]⟩
    · intro _; exact lutPath_rel h _ _ hs

end Jpeg

namespace Jpeg

/-! ## The block decoder on related inputs -/

theorem rel_cases {α : Type} (Q : α → α → Prop) (x x1 : Except Err α) (h : Rel Q x x1) :
    (∃ e, x = .error e ∧ x1 = .error e) ∨ (∃ a a1, x = .ok a ∧ x1 = .ok a1 ∧ Q a a1) := by
  rcases x with e | a
  · exact Or.inl ⟨e, rfl, h.1 e rfl⟩
  · obtain ⟨a1, h1, hq⟩ := h.2 a rfl
    exact Or.inr ⟨a, a1, rfl, h1, hq⟩

theorem readEobRun_rel (s s1 : Stream) (val0 : Nat) (hs : s.Same s1) :
    Rel SameOut (readEobRun s val0) (readEobRun s1 val0) := by
  unfold readEobRun
  simp only []
  apply rel_ite
  · intro _
    rcases rel_cases _ _ _ (decodeBits_rel s s1 val0 hs) with
      ⟨e, h1, h2⟩ | ⟨⟨a, t⟩, ⟨a1, t1⟩, h1, h2, hq, ht⟩
    · rw [h1, h2]; exact rel_error _ _
    · simp only [] at hq
      subst hq
      rw [h1, h2]
      exact rel_ok _ _ _ ⟨rfl, ht⟩
  · intro _
    exact rel_ok _ _ _ ⟨rfl, hs⟩

theorem refineNonZeroesLoop_rel (delta zigEnd : Int) (fuel : Nat) :
    ∀ (s s1 : Stream) (b : block) (zig nz : Int), s.Same s1 →
      Rel (fun x y => x.1 = y.1 ∧ x.2.1 = y.2.1 ∧ x.2.2.Same y.2.2)
        (refineNonZeroesLoop delta zigEnd fuel s b zig nz)
        (refineNonZeroesLoop delta zigEnd fuel s1 b zig nz) := by
  induction fuel with
  | zero =>
    intro s s1 b zig nz hs
    rw [refineNonZeroesLoop, refineNonZeroesLoop]
    apply rel_ite
    · intro _; exact rel_error _ _
    · intro _; exact rel_ok _ _ _ ⟨rfl, rfl, hs⟩
  | succ fuel ih =>
    intro s s1 b zig nz hs
    rw [refineNonZeroesLoop, refineNonZeroesLoop]
    apply rel_ite
    · intro _
      simp only []
      apply rel_ite
      · intro _
        apply rel_ite
        · intro _; exact rel_ok _ _ _ ⟨rfl, rfl, hs⟩
        · intro _; exact ih _ _ _ _ _ hs
      · intro _
        rcases rel_cases _ _ _ (decodeBit_rel s s1 hs) with
          ⟨e, h1, h2⟩ | ⟨⟨a, t⟩, ⟨a1, t1⟩, h1, h2, hq, ht⟩
        · rw [h1, h2]; exact rel_error _ _
        · simp only [] at hq
          subst hq
          rw [h1, h2]
          simp only []
          apply rel_ite
          · intro _; exact ih _ _ _ _ _ ht
          · intro _; exact ih _ _ _ _ _ ht
    · intro _; exact rel_ok _ _ _ ⟨rfl, rfl, hs⟩

theorem refineNonZeroes_rel (s s1 : Stream) (b : block) (zig zigEnd nz delta : Int)
    (hs : s.Same s1) :
    Rel (fun x y => x.1 = y.1 ∧ x.2.1 = y.2.1 ∧ x.2.2.Same y.2.2)
      (refineNonZeroes s b zig zigEnd nz delta) (refineNonZeroes s1 b zig zigEnd nz delta) := by
  unfold refineNonZeroes
  exact refineNonZeroesLoop_rel _ _ _ _ _ _ _ _ hs

theorem refineLoop_rel (h : huffman) (delta zigEnd : Int) (fuel : Nat) :
    ∀ (s s1 : Stream) (b : block) (zig : Int) (eobRun : Nat), s.Same s1 →
      Rel (fun x y => x.1 = y.1 ∧ x.2.1 = y.2.1 ∧ x.2.2.1.Same y.2.2.1 ∧ x.2.2.2 = y.2.2.2)
        (refineLoop h delta zigEnd fuel s b zig eobRun)
        (refineLoop h delta zigEnd fuel s1 b zig eobRun) := by
  induction fuel with
  | zero =>
    intro s s1 b zig eobRun hs
    rw [refineLoop, refineLoop]
    apply rel_ite
    · intro _; exact rel_error _ _
    · intro _; exact rel_ok _ _ _ ⟨rfl, rfl, hs, rfl⟩
  | succ fuel ih =>
    intro s s1 b zig eobRun hs
    rw [refineLoop, refineLoop]
    apply rel_ite
    · intro _
      simp only []
      rcases rel_cases _ _ _ (decodeHuffman_rel s s1 h hs) with
        ⟨e, h1, h2⟩ | ⟨⟨value, t⟩, ⟨a1, t1⟩, h1, h2, hq, ht⟩
      · rw [h1, h2]; exact rel_error _ _
      · simp only [] at hq
        subst hq
        rw [h1, h2]
        simp only []
        have hafter : ∀ (z : Int) (u u1 : Stream), u.Same u1 →
            Rel (fun x y => x.1 = y.1 ∧ x.2.1 = y.2.1 ∧ x.2.2.1.Same y.2.2.1 ∧
                x.2.2.2 = y.2.2.2)
              (match refineNonZeroes u b zig zigEnd (value >>> 4 : Nat) delta with
                | .error e => .error e
                | .ok (zig1, b1, s3) =>
                  if zig1 > zigEnd then .error (.formatError "too many coefficients")
                  else
                    refineLoop h delta zigEnd fuel s3
                      (if z ≠ 0 then b1.set (unzig.getD zig1.toNat 0) z else b1)
                      (wrap32 (zig1 + 1)) eobRun)
              (match refineNonZeroes u1 b zig zigEnd (value >>> 4 : Nat) delta with
                | .error e => .error e
                | .ok (zig1, b1, s3) =>
                  if zig1 > zigEnd then .error (.formatError "too many coefficients")
                  else
                    refineLoop h delta zigEnd fuel s3
                      (if z ≠ 0 then b1.set (unzig.getD zig1.toNat 0) z else b1)
                      (wrap32 (zig1 + 1)) eobRun) := by
          intro z u u1 hu
          rcases rel_cases _ _ _ (refineNonZeroes_rel u u1 b zig zigEnd _ delta hu) with
            ⟨e, h1, h2⟩ | ⟨⟨z1, c1, u2⟩, ⟨z2, c2, u3⟩, h1, h2, hq1, hq2, hq3⟩
          · rw [h1, h2]; exact rel_error _ _
          · simp only [] at hq1 hq2 hq3
            subst hq1 hq2
            rw [h1, h2]
            simp only []
            apply rel_ite
            · intro _; exact rel_error _ _
            · intro _; exact ih _ _ _ _ _ hq3
        generalize hv : value &&& 0x0f = v1
        rcases v1 with _ | _ | v1
        · simp only []
          apply rel_ite
          · intro _
            rcases rel_cases _ _ _ (readEobRun_rel t t1 (value >>> 4) ht) with
              ⟨e, h1, h2⟩ | ⟨⟨run, u⟩, ⟨run1, u1⟩, h1, h2, hq, hu⟩
            · rw [h1, h2]; exact rel_error _ _
            · simp only [] at hq
              subst hq
              rw [h1, h2]
              exact rel_ok _ _ _ ⟨rfl, rfl, hu, rfl⟩
          · intro _; exact hafter 0 t t1 ht
        · simp only []
          rcases rel_cases _ _ _ (decodeBit_rel t t1 ht) with
            ⟨e, h1, h2⟩ | ⟨⟨bit, u⟩, ⟨bit1, u1⟩, h1, h2, hq, hu⟩
          · rw [h1, h2]; exact rel_error _ _
          · simp only [] at hq
            subst hq
            rw [h1, h2]
            exact hafter _ u u1 hu
        · exact rel_error _ _
    · intro _; exact rel_ok _ _ _ ⟨rfl, rfl, hs, rfl⟩

theorem refine_rel (s s1 : Stream) (eobRun : Nat) (b : block) (h : huffman)
    (zigStart zigEnd delta : Int) (hs : s.Same s1) :
    Rel (fun x y => x.1 = y.1 ∧ x.2.1.Same y.2.1 ∧ x.2.2 = y.2.2)
      (refine s eobRun b h zigStart zigEnd delta)
      (refine s1 eobRun b h zigStart zigEnd delta) := by
  unfold refine
  apply rel_ite
  · intro _
    apply rel_ite
    · intro _; exact rel_error _ _
    · intro _
      rcases rel_cases _ _ _ (decodeBit_rel s s1 hs) with
        ⟨e, h1, h2⟩ | ⟨⟨bit, u⟩, ⟨bit1, u1⟩, h1, h2, hq, hu⟩
      · rw [h1, h2]; exact rel_error _ _
      · simp only [] at hq
        subst hq
        rw [h1, h2]
        exact rel_ok _ _ _ ⟨rfl, hu, rfl⟩
  · intro _
    simp only []
    have hr : Rel (fun x y => x.1 = y.1 ∧ x.2.1 = y.2.1 ∧ x.2.2.1.Same y.2.2.1 ∧
          x.2.2.2 = y.2.2.2)
        (if eobRun = 0 then
          refineLoop h delta zigEnd (zigEnd + 1 - zigStart).toNat s b zigStart eobRun
          else .ok (zigStart, b, s, eobRun))
        (if eobRun = 0 then
          refineLoop h delta zigEnd (zigEnd + 1 - zigStart).toNat s1 b zigStart eobRun
          else .ok (zigStart, b, s1, eobRun)) := by
      apply rel_ite
      · intro _; exact refineLoop_rel h delta zigEnd _ s s1 b zigStart eobRun hs
      · intro _; exact rel_ok _ _ _ ⟨rfl, rfl, hs, rfl⟩
    rcases rel_cases _ _ _ hr with
      ⟨e, h1, h2⟩ | ⟨⟨zig, c, u, run⟩, ⟨zig1, c1, u1, run1⟩, h1, h2, hq1, hq2, hu, hq3⟩
    · rw [h1, h2]; exact rel_error _ _
    · simp only [] at hq1 hq2 hu hq3
      subst hq1 hq2 hq3
      rw [h1, h2]
      simp only []
      apply rel_ite
      · intro _
        rcases rel_cases _ _ _ (refineNonZeroes_rel u u1 c zig zigEnd (-1) delta hu) with
          ⟨e, h1, h2⟩ | ⟨⟨z1, c1, u2⟩, ⟨z2, c2, u3⟩, h1, h2, hq1, hq2, hq3⟩
        · rw [h1, h2]; exact rel_error _ _
        · simp only [] at hq1 hq2 hq3
          subst hq1 hq2
          rw [h1, h2]
          exact rel_ok _ _ _ ⟨rfl, hq3, rfl⟩
      · intro _; exact rel_ok _ _ _ ⟨rfl, hu, rfl⟩

theorem decodeACLoop_rel (huff : huffman) (zigEnd : Int) (al : Nat) (fuel : Nat) :
    ∀ (s s1 : Stream) (b : block) (zig : Int) (eobRun : Nat), s.Same s1 →
      Rel (fun x y => x.1 = y.1 ∧ x.2.1.Same y.2.1 ∧ x.2.2 = y.2.2)
        (decodeACLoop huff zigEnd al fuel s b zig eobRun)
        (decodeACLoop huff zigEnd al fuel s1 b zig eobRun) := by
  induction fuel with
  | zero =>
    intro s s1 b zig eobRun hs
    rw [decodeACLoop, decodeACLoop]
    apply rel_ite
    · intro _; exact rel_error _ _
    · intro _; exact rel_ok _ _ _ ⟨rfl, hs, rfl⟩
  | succ fuel ih =>
    intro s s1 b zig eobRun hs
    rw [decodeACLoop, decodeACLoop]
    apply rel_ite
    · intro _
      simp only []
      rcases rel_cases _ _ _ (decodeHuffman_rel s s1 huff hs) with
        ⟨e, h1, h2⟩ | ⟨⟨value, t⟩, ⟨a1, t1⟩, h1, h2, hq, ht⟩
      · rw [h1, h2]; exact rel_error _ _
      · simp only [] at hq
        subst hq
        rw [h1, h2]
        simp only []
        apply rel_ite
        · intro _
          apply rel_ite
          · intro _; exact rel_ok _ _ _ ⟨rfl, ht, rfl⟩
          · intro _
            rcases rel_cases _ _ _ (receiveExtend_rel t t1 (value &&& 0x0f) ht) with
              ⟨e, h1, h2⟩ | ⟨⟨ac, u⟩, ⟨ac1, u1⟩, h1, h2, hq, hu⟩
            · rw [h1, h2]; exact rel_error _ _
            · simp only [] at hq
              subst hq
              rw [h1, h2]
              exact ih _ _ _ _ _ hu
        · intro _
          apply rel_ite
          · intro _
            rcases rel_cases _ _ _ (readEobRun_rel t t1 (value >>> 4) ht) with
              ⟨e, h1, h2⟩ | ⟨⟨run, u⟩, ⟨run1, u1⟩, h1, h2, hq, hu⟩
            · rw [h1, h2]; exact rel_error _ _
            · simp only [] at hq
              subst hq
              rw [h1, h2]
              exact rel_ok _ _ _ ⟨rfl, hu, rfl⟩
          · intro _; exact ih _ _ _ _ _ ht
    · intro _; exact rel_ok _ _ _ ⟨rfl, hs, rfl⟩

theorem decodeFirstPass_rel (d : decoder) (p : ScanParams) (sc : scanComp) (s s1 : Stream)
    (eobRun : Nat) (dc : List Int) (b : block) (hs : s.Same s1) :
    Rel (fun x y => x.1 = y.1 ∧ x.2.1.Same y.2.1 ∧ x.2.2 = y.2.2)
      (decodeFirstPass d p sc s eobRun dc b) (decodeFirstPass d p sc s1 eobRun dc b) := by
  have hac : ∀ (zig : Int) (c : block) (u u1 : Stream) (dc1 : List Int), u.Same u1 →
      Rel (fun x y => x.1 = y.1 ∧ x.2.1.Same y.2.1 ∧ x.2.2 = y.2.2)
        (if zig ≤ p.zigEnd ∧ eobRun > 0 then .ok (c, u, eobRun - 1, dc1)
          else
            match decodeACLoop ((d.huff.getD acTable []).getD sc.ta huffman.zero) p.zigEnd p.al
                (p.zigEnd + 1 - zig).toNat u c zig eobRun with
            | .error e => .error e
            | .ok (b2, s2, eobRun2) => .ok (b2, s2, eobRun2, dc1))
        (if zig ≤ p.zigEnd ∧ eobRun > 0 then .ok (c, u1, eobRun - 1, dc1)
          else
            match decodeACLoop ((d.huff.getD acTable []).getD sc.ta huffman.zero) p.zigEnd p.al
                (p.zigEnd + 1 - zig).toNat u1 c zig eobRun with
            | .error e => .error e
            | .ok (b2, s2, eobRun2) => .ok (b2, s2, eobRun2, dc1)) := by
    intro zig c u u1 dc1 hu
    apply rel_ite
    · intro _; exact rel_ok _ _ _ ⟨rfl, hu, rfl⟩
    · intro _
      rcases rel_cases _ _ _ (decodeACLoop_rel ((d.huff.getD acTable []).getD sc.ta huffman.zero)
          p.zigEnd p.al (p.zigEnd + 1 - zig).toNat u u1 c zig eobRun hu) with
        ⟨e, h1, h2⟩ | ⟨⟨c2, u2, run⟩, ⟨c3, u3, run1⟩, h1, h2, hq1, hu2, hq2⟩
      · rw [h1, h2]; exact rel_error _ _
      · simp only [] at hq1 hu2 hq2
        subst hq1 hq2
        rw [h1, h2]
        exact rel_ok _ _ _ ⟨rfl, hu2, rfl⟩
  unfold decodeFirstPass
  simp only []
  by_cases hz : p.zigStart = 0
  · rw [if_pos hz, if_pos hz]
    rcases rel_cases _ _ _ (decodeHuffman_rel s s1
        ((d.huff.getD dcTable []).getD sc.td huffman.zero) hs) with
      ⟨e, h1, h2⟩ | ⟨⟨value, t⟩, ⟨a1, t1⟩, h1, h2, hq, ht⟩
    · rw [h1, h2]; exact rel_error _ _
    · simp only [] at hq
      subst hq
      rw [h1, h2]
      simp only []
      by_cases hv : value > 16
      · rw [if_pos hv, if_pos hv]; exact rel_error _ _
      · rw [if_neg hv, if_neg hv]
        rcases rel_cases _ _ _ (receiveExtend_rel t t1 value ht) with
          ⟨e, h1, h2⟩ | ⟨⟨ac, u⟩, ⟨ac1, u1⟩, h1, h2, hq, hu⟩
        · rw [h1, h2]; exact rel_error _ _
        · simp only [] at hq
          subst hq
          rw [h1, h2]
          exact hac _ _ _ _ _ hu
  · rw [if_neg hz, if_neg hz]
    exact hac _ _ _ _ _ hs

theorem decodeBlock_rel (d : decoder) (p : ScanParams) (sc : scanComp) (st st1 : ScanState)
    (b : block) (hs : st.Same st1) :
    Rel (fun x y => x.1 = y.1 ∧ x.2.Same y.2)
      (decodeBlock d p sc st b) (decodeBlock d p sc st1 b) := by
  obtain ⟨e1, e2⟩ := hs
  unfold decodeBlock
  rw [e1]
  simp only []
  apply rel_ite
  · intro _
    rcases rel_cases _ _ _ (refine_rel st.s st1.s st.eobRun b
        ((d.huff.getD acTable []).getD sc.ta huffman.zero) p.zigStart p.zigEnd
        (shl32 1 p.al) e2) with
      ⟨e, h1, h2⟩ | ⟨⟨c2, u2, run⟩, ⟨c3, u3, run1⟩, h1, h2, hq1, hu2, hq2⟩
    · rw [h1, h2]; exact rel_error _ _
    · simp only [] at hq1 hu2 hq2
      subst hq1 hq2
      rw [h1, h2]
      exact rel_ok _ _ _ ⟨rfl, rfl, hu2⟩
  · intro _
    rcases rel_cases _ _ _ (decodeFirstPass_rel d p sc st.s st1.s st.eobRun st.dc b e2) with
      ⟨e, h1, h2⟩ | ⟨⟨c2, u2, run, dc⟩, ⟨c3, u3, run1, dc1⟩, h1, h2, hq1, hu2, hq2⟩
    · rw [h1, h2]; exact rel_error _ _
    · simp only [Prod.mk.injEq] at hq1 hu2 hq2
      obtain ⟨hq2, hq3⟩ := hq2
      subst hq1 hq2 hq3
      rw [h1, h2]
      exact rel_ok _ _ _ ⟨rfl, rfl, hu2⟩

end Jpeg

namespace Jpeg

/-! ## The block loops of a scan on readers with the same bytes left -/

theorem scanState_same (st st1 : ScanState) (h : st.Same st1) (f : ScanState → ScanState)
    (hf : ∀ (x : ScanState) (s : Stream), f { x with s := s } = { f x with s := s })
    (hs : ∀ x : ScanState, (f x).s = x.s) : (f st).Same (f st1) := by
  obtain ⟨e1, e2⟩ := h
  refine ⟨?_, ?_⟩
  · rw [hs st1]
    conv => lhs; rw [e1]
    exact hf st st1.s
  · rw [hs, hs]; exact e2

theorem reconstructBlock_rel (d : decoder) (ci bx by_ : Nat) (b : block) (st st1 : ScanState)
    (h : st.Same st1) :
    Rel ScanState.Same (reconstructBlock d ci bx by_ b st) (reconstructBlock d ci bx by_ b st1) := by
  obtain ⟨e1, e2⟩ := h
  rw [e1]
  unfold reconstructBlock
  simp only []
  apply rel_ite
  · intro _
    rcases st.img1 with _ | m
    · exact rel_error _ _
    · simp only []
      rcases storeBlock m.Pix (8 * (by_ * m.Stride + bx)) m.Stride
          (idct (dequantize b (d.quant.getD (d.comp.getD ci component.zero).tq []))) with e | pix
      · exact rel_error _ _
      · exact rel_ok _ _ _ ⟨rfl, e2⟩
  · intro _
    have h3 : Rel ScanState.Same
        (match st.img3 with
          | none => .error (.panic "nil pointer dereference")
          | some m =>
            if ci = 0 then
              match storeBlock m.Y (8 * (by_ * m.YStride + bx)) m.YStride
                  (idct (dequantize b (d.quant.getD (d.comp.getD ci component.zero).tq []))) with
              | .error e => .error e
              | .ok pix => .ok { st with img3 := some { m with Y := pix } }
            else if ci = 1 then
              match storeBlock m.Cb (8 * (by_ * m.CStride + bx)) m.CStride
                  (idct (dequantize b (d.quant.getD (d.comp.getD ci component.zero).tq []))) with
              | .error e => .error e
              | .ok pix => .ok { st with img3 := some { m with Cb := pix } }
            else
              match storeBlock m.Cr (8 * (by_ * m.CStride + bx)) m.CStride
                  (idct (dequantize b (d.quant.getD (d.comp.getD ci component.zero).tq []))) with
              | .error e => .error e
              | .ok pix => .ok { st with img3 := some { m with Cr := pix } })
        (match st.img3 with
          | none => .error (.panic "nil pointer dereference")
          | some m =>
            if ci = 0 then
              match storeBlock m.Y (8 * (by_ * m.YStride + bx)) m.YStride
                  (idct (dequantize b (d.quant.getD (d.comp.getD ci component.zero).tq []))) with
              | .error e => .error e
              | .ok pix => .ok { st with s := st1.s, img3 := some { m with Y := pix } }
            else if ci = 1 then
              match storeBlock m.Cb (8 * (by_ * m.CStride + bx)) m.CStride
                  (idct (dequantize b (d.quant.getD (d.comp.getD ci component.zero).tq []))) with
              | .error e => .error e
              | .ok pix => .ok { st with s := st1.s, img3 := some { m with Cb := pix } }
            else
              match storeBlock m.Cr (8 * (by_ * m.CStride + bx)) m.CStride
                  (idct (dequantize b (d.quant.getD (d.comp.getD ci component.zero).tq []))) with
              | .error e => .error e
              | .ok pix => .ok { st with s := st1.s, img3 := some { m with Cr := pix } }) := by
      rcases st.img3 with _ | m
      · exact rel_error _ _
      · simp only []
        apply rel_ite
        · intro _
          rcases storeBlock m.Y (8 * (by_ * m.YStride + bx)) m.YStride _ with e | pix
          · exact rel_error _ _
          · exact rel_ok _ _ _ ⟨rfl, e2⟩
        · intro _
          apply rel_ite
          · intro _
            rcases storeBlock m.Cb (8 * (by_ * m.CStride + bx)) m.CStride _ with e | pix
            · exact rel_error _ _
            · exact rel_ok _ _ _ ⟨rfl, e2⟩
          · intro _
            rcases storeBlock m.Cr (8 * (by_ * m.CStride + bx)) m.CStride _ with e | pix
            · exact rel_error _ _
            · exact rel_ok _ _ _ ⟨rfl, e2⟩
    split
    · rcases st.blackPix with _ | m
      · exact rel_error _ _
      · simp only []
        rcases storeBlock m (8 * (by_ * d.blackStride + bx)) d.blackStride
            (idct (dequantize b (d.quant.getD (d.comp.getD 3 component.zero).tq []))) with e | pix
        · exact rel_error _ _
        · exact rel_ok _ _ _ ⟨rfl, e2⟩
    · exact h3
    · exact h3
    · exact h3
    · exact rel_error _ _

theorem finishBlock_rel (d : decoder) (p : ScanParams) (ci bx by_ idx : Nat) (b : block)
    (st st1 : ScanState) (h : st.Same st1) :
    Rel ScanState.Same (finishBlock d p ci bx by_ idx b st)
      (finishBlock d p ci bx by_ idx b st1) := by
  unfold finishBlock
  apply rel_ite
  · intro _
    obtain ⟨e1, e2⟩ := h
    rw [e1]
    simp only []
    rcases st.progCoeffs.getD ci none with _ | cs
    · exact rel_error _ _
    · simp only []
      apply rel_ite
      · intro _; exact rel_ok _ _ _ ⟨rfl, e2⟩
      · intro _; exact rel_error _ _
  · intro _; exact reconstructBlock_rel d ci bx by_ b st st1 h

theorem loadBlock_same (d : decoder) (st st1 : ScanState) (ci idx : Nat) (h : st.Same st1) :
    loadBlock d st1 ci idx = loadBlock d st ci idx := by
  obtain ⟨e1, e2⟩ := h
  rw [e1]
  rfl

theorem scanBlock_rel (d : decoder) (p : ScanParams) (mx my i j : Nat) (st st1 : ScanState)
    (h : st.Same st1) :
    Rel ScanState.Same (scanBlock d p mx my i j st) (scanBlock d p mx my i j st1) := by
  have body : ∀ (u u1 : ScanState) (ci bx by_ idx : Nat), u.Same u1 →
      Rel ScanState.Same
        (match loadBlock d u ci idx with
          | .error e => .error e
          | .ok b =>
            match decodeBlock d p (p.scan.getD i scanComp.zero) u b with
            | .error e => .error e
            | .ok (b1, st1) => finishBlock d p ci bx by_ idx b1 st1)
        (match loadBlock d u1 ci idx with
          | .error e => .error e
          | .ok b =>
            match decodeBlock d p (p.scan.getD i scanComp.zero) u1 b with
            | .error e => .error e
            | .ok (b1, st1) => finishBlock d p ci bx by_ idx b1 st1) := by
    intro u u1 ci bx by_ idx h0
    rw [loadBlock_same d u u1 _ _ h0]
    rcases loadBlock d u _ _ with e | c
    · exact rel_error _ _
    · simp only []
      rcases rel_cases _ _ _ (decodeBlock_rel d p (p.scan.getD i scanComp.zero) u u1 c h0) with
        ⟨e, h1, h2⟩ | ⟨⟨c2, u2⟩, ⟨c3, u3⟩, h1, h2, hq1, hu2⟩
      · rw [h1, h2]; exact rel_error _ _
      · simp only [] at hq1 hu2
        subst hq1
        rw [h1, h2]
        exact finishBlock_rel _ _ _ _ _ _ _ _ _ hu2
  obtain ⟨e1, e2⟩ := h
  obtain ⟨t1, rfl⟩ : ∃ t1, st1 = { st with s := t1 } := ⟨_, e1⟩
  have e3 : st.s.Same t1 := e2
  have h0 : (if p.nComp ≠ 1 then st else { st with blockCount := st.blockCount + 1 }).Same
      (if p.nComp ≠ 1 then { st with s := t1 }
        else { st with s := t1, blockCount := st.blockCount + 1 }) := by
    split
    · exact ⟨rfl, e3⟩
    · exact ⟨rfl, e3⟩
  unfold scanBlock
  simp only []
  apply rel_ite
  · intro _; exact rel_error _ _
  · intro _
    apply rel_ite
    · intro _; exact rel_error _ _
    · intro _
      apply rel_ite
      · intro _
        exact rel_ok _ _ _ h0
      · intro _
        exact body _ _ _ _ _ _ h0

theorem forRange_rel {σ : Type} (Q : σ → σ → Prop) (f f1 : Nat → σ → Except Err σ)
    (hf : ∀ i a a1, Q a a1 → Rel Q (f i a) (f1 i a1)) :
    ∀ (k i : Nat) (a a1 : σ), Q a a1 → Rel Q (forRange f k i a) (forRange f1 k i a1) := by
  intro k
  induction k with
  | zero =>
    intro i a a1 h
    rw [forRange, forRange]
    exact rel_ok _ _ _ h
  | succ k ih =>
    intro i a a1 h
    rw [forRange, forRange]
    rcases rel_cases _ _ _ (hf i a a1 h) with ⟨e, h1, h2⟩ | ⟨b, b1, h1, h2, hq⟩
    · rw [h1, h2]; exact rel_error _ _
    · rw [h1, h2]
      exact ih _ _ _ hq

theorem scanMCU_rel (d : decoder) (p : ScanParams) (mx my : Nat) (st st1 : ScanState)
    (h : st.Same st1) :
    Rel ScanState.Same (scanMCU d p mx my st) (scanMCU d p mx my st1) := by
  unfold scanMCU
  apply forRange_rel
  · intro i a a1 ha
    simp only []
    apply forRange_rel
    · intro j b b1 hb
      exact scanBlock_rel d p mx my i j b b1 hb
    · exact ha
  · exact h

theorem scanRestart_rel (d : decoder) (p : ScanParams) (ms ms1 : McuState) (h : ms.Same ms1) :
    Rel McuState.Same (scanRestart d p ms) (scanRestart d p ms1) := by
  obtain ⟨e1, e2, e3⟩ := h
  obtain ⟨u1, rfl⟩ : ∃ u1, ms1 = { ms with st := u1 } := ⟨_, e1⟩
  obtain ⟨t1, rfl⟩ : ∃ t1, u1 = { ms.st with s := t1 } := ⟨_, e2⟩
  have e4 : ms.st.s.Same t1 := e3
  unfold scanRestart
  simp only []
  apply rel_ite
  · intro _
    rcases rel_cases _ _ _ (readFull_rel ms.st.s t1 2 e4).1 with
      ⟨e, h1, h2⟩ | ⟨⟨tmp, v⟩, ⟨tmp1, v1⟩, h1, h2, hq, hv⟩
    · rw [h1, h2]; exact rel_error _ _
    · simp only [] at hq hv
      subst hq
      rw [h1, h2]
      simp only []
      apply rel_ite
      · intro _; exact rel_error _ _
      · intro _
        exact rel_ok _ _ _ ⟨rfl, rfl, same_bits _ _ hv _⟩
  · intro _
    exact rel_ok _ _ _ ⟨rfl, rfl, e4⟩

theorem scanStep_rel (d : decoder) (p : ScanParams) (my mx : Nat) (ms ms1 : McuState)
    (h : ms.Same ms1) :
    Rel McuState.Same (scanStep d p my mx ms) (scanStep d p my mx ms1) := by
  unfold scanStep
  rcases rel_cases _ _ _ (scanMCU_rel d p mx my ms.st ms1.st h.2) with
    ⟨e, h1, h2⟩ | ⟨u, u1, h1, h2, hq⟩
  · rw [h1, h2]; exact rel_error _ _
  · rw [h1, h2]
    apply scanRestart_rel
    refine ⟨?_, hq⟩
    show ({ ms1 with st := u1 } : McuState) = { ms with st := u1 }
    rw [h.1]

theorem scanLoop_rel (d : decoder) (p : ScanParams) (ms ms1 : McuState) (h : ms.Same ms1) :
    Rel McuState.Same (scanLoop d p ms) (scanLoop d p ms1) := by
  unfold scanLoop
  apply forRange_rel
  · intro my a a1 ha
    apply forRange_rel
    · intro mx b b1 hb
      exact scanStep_rel d p my mx b b1 hb
    · exact ha
  · exact h

theorem scanLoop_bytes (d : decoder) (b : bytes) (p : ScanParams) (ms : McuState) :
    scanLoop { d with bytes := b } p ms = scanLoop d p ms := rfl

end Jpeg

namespace Jpeg

/-! ## The segment handlers on readers with the same bytes left -/

theorem decoder_same_stream (d d1 : decoder) (h : d.Same d1) : d.stream.Same d1.stream := by
  obtain ⟨e1, e2⟩ := h
  refine ⟨?_, e2⟩
  rw [e1]
  rfl

theorem withStream_same (d d1 : decoder) (s s1 : Stream) (h : d.Same d1) (hs : s.Same s1) :
    (d.withStream s).Same (d1.withStream s1) := by
  obtain ⟨e1, e2⟩ := h
  obtain ⟨b1, rfl⟩ : ∃ b1, d1 = { d with bytes := b1 } := ⟨_, e1⟩
  obtain ⟨hb, hbs⟩ := hs
  refine ⟨?_, hbs⟩
  unfold decoder.withStream
  rw [hb]

theorem processDRI_rel (d d1 : decoder) (n : Nat) (h : d.Same d1) :
    Rel decoder.Same (processDRI d n) (processDRI d1 n) := by
  unfold processDRI
  apply rel_ite
  · intro _; exact rel_error _ _
  · intro _
    rcases rel_cases _ _ _ (readFull_rel _ _ 2 (decoder_same_stream d d1 h)).1 with
      ⟨e, h1, h2⟩ | ⟨⟨tmp, s⟩, ⟨tmp1, s1⟩, h1, h2, hq, hs⟩
    · rw [h1, h2]; exact rel_error _ _
    · simp only [] at hq hs
      subst hq
      rw [h1, h2]
      obtain ⟨w1, w2⟩ := withStream_same d d1 s s1 h hs
      refine rel_ok _ _ _ ⟨?_, w2⟩
      simp only []
      conv => lhs; rw [w1]

theorem decoder_ignore_rel (d d1 : decoder) (n : Nat) (h : d.Same d1) :
    Rel decoder.Same (d.ignore n) (d1.ignore n) := by
  unfold decoder.ignore
  rcases rel_cases _ _ _ (ignore_rel _ _ n (decoder_same_stream d d1 h)).1 with
    ⟨e, h1, h2⟩ | ⟨s, s1, h1, h2, hs⟩
  · rw [h1, h2]; exact rel_error _ _
  · rw [h1, h2]
    exact rel_ok _ _ _ (withStream_same d d1 s s1 h hs)

/-- A change of fields other than `bytes` keeps two decoders related. -/
theorem same_update (d d1 : decoder) (f : decoder → decoder) (h : d.Same d1)
    (hf : ∀ (x : decoder) (b : bytes), f { x with bytes := b } = { f x with bytes := b })
    (hb : ∀ x : decoder, (f x).bytes = x.bytes) : (f d).Same (f d1) := by
  obtain ⟨e1, e2⟩ := h
  refine ⟨?_, ?_⟩
  · rw [hb d1]
    conv => lhs; rw [e1]
    exact hf d d1.bytes
  · rw [hb, hb]; exact e2

theorem processApp0Marker_rel (d d1 : decoder) (n : Nat) (h : d.Same d1) :
    Rel decoder.Same (processApp0Marker d n) (processApp0Marker d1 n) := by
  unfold processApp0Marker
  apply rel_ite
  · intro _; exact decoder_ignore_rel d d1 n h
  · intro _
    rcases rel_cases _ _ _ (readFull_rel _ _ 5 (decoder_same_stream d d1 h)).1 with
      ⟨e, h1, h2⟩ | ⟨⟨tmp, s⟩, ⟨tmp1, s1⟩, h1, h2, hq, hs⟩
    · rw [h1, h2]; exact rel_error _ _
    · simp only [] at hq hs
      subst hq
      rw [h1, h2]
      simp only []
      have hw := same_update _ _ (fun x => { x with
          jfif := tmp.getD 0 0 = 0x4a ∧ tmp.getD 1 0 = 0x46 ∧ tmp.getD 2 0 = 0x49 ∧
            tmp.getD 3 0 = 0x46 ∧ tmp.getD 4 0 = 0x00 })
        (withStream_same d d1 s s1 h hs) (fun _ _ => rfl) (fun _ => rfl)
      apply rel_ite
      · intro _; exact decoder_ignore_rel _ _ _ hw
      · intro _; exact rel_ok _ _ _ hw

theorem processApp14Marker_rel (d d1 : decoder) (n : Nat) (h : d.Same d1) :
    Rel decoder.Same (processApp14Marker d n) (processApp14Marker d1 n) := by
  unfold processApp14Marker
  apply rel_ite
  · intro _; exact decoder_ignore_rel d d1 n h
  · intro _
    rcases rel_cases _ _ _ (readFull_rel _ _ 12 (decoder_same_stream d d1 h)).1 with
      ⟨e, h1, h2⟩ | ⟨⟨tmp, s⟩, ⟨tmp1, s1⟩, h1, h2, hq, hs⟩
    · rw [h1, h2]; exact rel_error _ _
    · simp only [] at hq hs
      subst hq
      rw [h1, h2]
      simp only []
      have hw := same_update _ _ (fun x =>
          if tmp.getD 0 0 = 0x41 ∧ tmp.getD 1 0 = 0x64 ∧ tmp.getD 2 0 = 0x6f ∧
              tmp.getD 3 0 = 0x62 ∧ tmp.getD 4 0 = 0x65 then
            { x with adobeTransformValid := true, adobeTransform := tmp.getD 11 0 }
          else x)
        (withStream_same d d1 s s1 h hs)
        (fun _ _ => by split <;> rfl) (fun _ => by split <;> rfl)
      apply rel_ite
      · intro _; exact decoder_ignore_rel _ _ _ hw
      · intro _; exact rel_ok _ _ _ hw

theorem processSOF_rel (d d1 : decoder) (n : Nat) (h : d.Same d1) :
    Rel decoder.Same (processSOF d n) (processSOF d1 n) := by
  obtain ⟨e1, e2⟩ := h
  obtain ⟨b1, rfl⟩ : ∃ b1, d1 = { d with bytes := b1 } := ⟨_, e1⟩
  have e3 : d.bytes.Same b1 := e2
  unfold processSOF
  apply rel_ite
  · intro _; exact rel_error _ _
  · intro _
    simp only []
    generalize (if n = 6 + 3 * 1 then 1 else if n = 6 + 3 * 3 then 3
      else if n = 6 + 3 * 4 then 4 else 0) = nc
    apply rel_ite
    · intro _; exact rel_error _ _
    · intro _
      have hS : (decoder.stream { d with nComp := nc }).Same
          (decoder.stream { d with bytes := b1, nComp := nc }) := ⟨rfl, e3⟩
      rcases rel_cases _ _ _ (readFull_rel _ _ n hS).1 with
        ⟨e, h1, h2⟩ | ⟨⟨tmp, s⟩, ⟨tmp1, s1⟩, h1, h2, hq, hs⟩
      · rw [h1, h2]; exact rel_error _ _
      · simp only [] at hq hs
        subst hq
        obtain ⟨hb, hbs⟩ := hs
        rcases s1 with ⟨sb1, sbits1⟩
        simp only [] at hb hbs
        subst hb
        rw [h1, h2]
        simp only [decoder.withStream]
        apply rel_ite
        · intro _; exact rel_error _ _
        · intro _
          apply rel_ite
          · intro _; exact rel_error _ _
          · intro _
            rcases sofComponents _ _ _ _ _ with e | comp
            · exact rel_error _ _
            · exact rel_ok _ _ _ ⟨rfl, hbs⟩

theorem dqtFinish_rel (d d1 : decoder) (n : Nat) (h : d.Same d1) :
    Rel decoder.Same (dqtFinish d n) (dqtFinish d1 n) := by
  unfold dqtFinish
  apply rel_ite
  · intro _; exact rel_error _ _
  · intro _; exact rel_ok _ _ _ h

/-- Method `readByte` on decoders that differ in how the bytes are buffered. -/
theorem readByte_cases (b b1 : bytes) (h : b.Same b1) :
    (∃ c c1 e, readByte b = (c, .error e) ∧ readByte b1 = (c1, .error e)) ∨
    (∃ c c1 x, readByte b = (c, .ok x) ∧ readByte b1 = (c1, .ok x) ∧ c.Same c1) := by
  obtain ⟨q1, q2⟩ := readByte_rel b b1 h.1.1 h.1.2.1 (same_pending b b1 h)
  rcases hr : readByte b with ⟨c, e | x⟩
  · rcases hr1 : readByte b1 with ⟨c1, e1 | x1⟩
    · rw [hr, hr1] at q1
      simp only [Except.error.injEq] at q1
      subst q1
      exact Or.inl ⟨c, c1, e, rfl, rfl⟩
    · rw [hr, hr1] at q1
      simp at q1
  · rcases hr1 : readByte b1 with ⟨c1, e1 | x1⟩
    · rw [hr, hr1] at q1
      simp at q1
    · rw [hr, hr1] at q1
      simp only [Except.ok.injEq] at q1
      subst q1
      have := (q2 x (by rw [hr])).1
      rw [hr, hr1] at this
      exact Or.inr ⟨c, c1, x, rfl, rfl, this⟩

theorem processDQTLoop_rel (fuel : Nat) :
    ∀ (d d1 : decoder) (n : Nat), d.Same d1 →
      Rel decoder.Same (processDQTLoop fuel d n) (processDQTLoop fuel d1 n) := by
  induction fuel with
  | zero =>
    intro d d1 n h
    obtain ⟨e1, e2⟩ := h
    obtain ⟨b1, rfl⟩ : ∃ b1, d1 = { d with bytes := b1 } := ⟨_, e1⟩
    have e3 : d.bytes.Same b1 := e2
    rw [processDQTLoop, processDQTLoop]
    apply rel_ite
    · intro _
      simp only []
      rcases readByte_cases _ _ e3 with ⟨c, c1, e, h1, h2⟩ | ⟨c, c1, x, h1, h2, hc⟩
      · rw [h1, h2]; exact rel_error _ _
      · rw [h1, h2]
        simp only []
        apply rel_ite
        · intro _; exact rel_error _ _
        · intro _
          generalize x >>> 4 = pq
          rcases pq with _ | _ | pq
          · simp only []
            apply rel_ite
            · intro _; exact dqtFinish_rel _ _ _ ⟨rfl, hc⟩
            · intro _
              have hS : (decoder.stream { d with bytes := c }).Same
                  (decoder.stream { d with bytes := c1 }) := ⟨rfl, hc⟩
              rcases rel_cases _ _ _ (readFull_rel _ _ blockSize hS).1 with
                ⟨e, h1, h2⟩ | ⟨⟨tmp, s⟩, ⟨tmp1, s1⟩, h1, h2, hq, hs⟩
              · rw [h1, h2]; exact rel_error _ _
              · rw [h1, h2]; exact rel_error _ _
          · simp only []
            apply rel_ite
            · intro _; exact dqtFinish_rel _ _ _ ⟨rfl, hc⟩
            · intro _
              have hS : (decoder.stream { d with bytes := c }).Same
                  (decoder.stream { d with bytes := c1 }) := ⟨rfl, hc⟩
              rcases rel_cases _ _ _ (readFull_rel _ _ (2 * blockSize) hS).1 with
                ⟨e, h1, h2⟩ | ⟨⟨tmp, s⟩, ⟨tmp1, s1⟩, h1, h2, hq, hs⟩
              · rw [h1, h2]; exact rel_error _ _
              · rw [h1, h2]; exact rel_error _ _
          · exact rel_error _ _
    · intro _; exact dqtFinish_rel _ _ _ ⟨rfl, e3⟩
  | succ fuel ih =>
    intro d d1 n h
    obtain ⟨e1, e2⟩ := h
    obtain ⟨b1, rfl⟩ : ∃ b1, d1 = { d with bytes := b1 } := ⟨_, e1⟩
    have e3 : d.bytes.Same b1 := e2
    rw [processDQTLoop, processDQTLoop]
    apply rel_ite
    · intro _
      simp only []
      rcases readByte_cases _ _ e3 with ⟨c, c1, e, h1, h2⟩ | ⟨c, c1, x, h1, h2, hc⟩
      · rw [h1, h2]; exact rel_error _ _
      · rw [h1, h2]
        simp only []
        apply rel_ite
        · intro _; exact rel_error _ _
        · intro _
          generalize x >>> 4 = pq
          rcases pq with _ | _ | pq
          · simp only []
            apply rel_ite
            · intro _; exact dqtFinish_rel _ _ _ ⟨rfl, hc⟩
            · intro _
              have hS : (decoder.stream { d with bytes := c }).Same
                  (decoder.stream { d with bytes := c1 }) := ⟨rfl, hc⟩
              rcases rel_cases _ _ _ (readFull_rel _ _ blockSize hS).1 with
                ⟨e, h1, h2⟩ | ⟨⟨tmp, s⟩, ⟨tmp1, s1⟩, h1, h2, hq, hs⟩
              · rw [h1, h2]; exact rel_error _ _
              · simp only [] at hq hs
                subst hq
                obtain ⟨hb, hbs⟩ := hs
                rcases s1 with ⟨sb1, sbits1⟩
                simp only [] at hb hbs
                subst hb
                rw [h1, h2]
                exact ih _ _ _ ⟨rfl, hbs⟩
          · simp only []
            apply rel_ite
            · intro _; exact dqtFinish_rel _ _ _ ⟨rfl, hc⟩
            · intro _
              have hS : (decoder.stream { d with bytes := c }).Same
                  (decoder.stream { d with bytes := c1 }) := ⟨rfl, hc⟩
              rcases rel_cases _ _ _ (readFull_rel _ _ (2 * blockSize) hS).1 with
                ⟨e, h1, h2⟩ | ⟨⟨tmp, s⟩, ⟨tmp1, s1⟩, h1, h2, hq, hs⟩
              · rw [h1, h2]; exact rel_error _ _
              · simp only [] at hq hs
                subst hq
                obtain ⟨hb, hbs⟩ := hs
                rcases s1 with ⟨sb1, sbits1⟩
                simp only [] at hb hbs
                subst hb
                rw [h1, h2]
                exact ih _ _ _ ⟨rfl, hbs⟩
          · exact rel_error _ _
    · intro _; exact dqtFinish_rel _ _ _ ⟨rfl, e3⟩

theorem processDQT_rel (d d1 : decoder) (n : Nat) (h : d.Same d1) :
    Rel decoder.Same (processDQT d n) (processDQT d1 n) :=
  processDQTLoop_rel _ d d1 n h

theorem dhtTable_rel (d d1 : decoder) (n : Nat) (h : d.Same d1) :
    Rel (fun x y => x.1.Same y.1 ∧ x.2 = y.2) (dhtTable d n) (dhtTable d1 n) := by
  obtain ⟨e1, e2⟩ := h
  obtain ⟨b1, rfl⟩ : ∃ b1, d1 = { d with bytes := b1 } := ⟨_, e1⟩
  have e3 : d.bytes.Same b1 := e2
  unfold dhtTable
  apply rel_ite
  · intro _; exact rel_error _ _
  · intro _
    have hS : (decoder.stream d).Same (decoder.stream { d with bytes := b1 }) := ⟨rfl, e3⟩
    rcases rel_cases _ _ _ (readFull_rel _ _ 17 hS).1 with
      ⟨e, h1, h2⟩ | ⟨⟨tmp, s⟩, ⟨tmp1, s1⟩, h1, h2, hq, hs⟩
    · rw [h1, h2]; exact rel_error _ _
    · simp only [] at hq hs
      subst hq
      obtain ⟨hb, hbs⟩ := hs
      rcases s1 with ⟨sb1, sbits1⟩
      simp only [] at hb hbs
      subst hb
      rw [h1, h2]
      simp only [decoder.withStream]
      apply rel_ite
      · intro _; exact rel_error _ _
      · intro _
        apply rel_ite
        · intro _; exact rel_error _ _
        · intro _
          apply rel_ite
          · intro _; exact rel_error _ _
          · intro _
            apply rel_ite
            · intro _; exact rel_error _ _
            · intro _
              apply rel_ite
              · intro _; exact rel_error _ _
              · intro _
                have hS2 : (decoder.stream { d with bytes := s.bytes, bits := s.bits }).Same
                    (decoder.stream { d with bytes := sb1, bits := s.bits }) := ⟨rfl, hbs⟩
                rcases rel_cases _ _ _ (readFull_rel _ _
                    ((List.range maxCodeLength).foldl
                      (fun t i => t + ((tmp.drop 1).take 16).getD i 0) 0) hS2).1 with
                  ⟨e, h1, h2⟩ | ⟨⟨syms, t⟩, ⟨syms1, t1⟩, h1, h2, hq, ht⟩
                · rw [h1, h2]; exact rel_error _ _
                · simp only [] at hq ht
                  subst hq
                  obtain ⟨hb, hbt⟩ := ht
                  rcases t1 with ⟨tb1, tbits1⟩
                  simp only [] at hb hbt
                  subst hb
                  rw [h1, h2]
                  exact rel_ok _ _ _ ⟨⟨rfl, hbt⟩, rfl⟩

theorem processDHTLoop_rel (fuel : Nat) :
    ∀ (d d1 : decoder) (n : Nat), d.Same d1 →
      Rel decoder.Same (processDHTLoop fuel d n) (processDHTLoop fuel d1 n) := by
  induction fuel with
  | zero =>
    intro d d1 n h
    rw [processDHTLoop, processDHTLoop]
    apply rel_ite
    · intro _
      rcases rel_cases _ _ _ (dhtTable_rel d d1 n h) with
        ⟨e, h1, h2⟩ | ⟨⟨d2, n2⟩, ⟨d3, n3⟩, h1, h2, hq, hn⟩
      · rw [h1, h2]; exact rel_error _ _
      · simp only [] at hq hn
        subst hn
        rw [h1, h2]
        simp only []
        apply rel_ite
        · intro _; exact rel_error _ _
        · intro _; exact rel_ok _ _ _ hq
    · intro _; exact rel_ok _ _ _ h
  | succ fuel ih =>
    intro d d1 n h
    rw [processDHTLoop, processDHTLoop]
    apply rel_ite
    · intro _
      rcases rel_cases _ _ _ (dhtTable_rel d d1 n h) with
        ⟨e, h1, h2⟩ | ⟨⟨d2, n2⟩, ⟨d3, n3⟩, h1, h2, hq, hn⟩
      · rw [h1, h2]; exact rel_error _ _
      · simp only [] at hq hn
        subst hn
        rw [h1, h2]
        exact ih _ _ _ hq
    · intro _; exact rel_ok _ _ _ h

theorem processDHT_rel (d d1 : decoder) (n : Nat) (h : d.Same d1) :
    Rel decoder.Same (processDHT d n) (processDHT d1 n) :=
  processDHTLoop_rel _ d d1 n h

theorem sosComponent_bytes (d : decoder) (c : bytes) (tmp : List Nat) :
    sosComponent { d with bytes := c } tmp = sosComponent d tmp := rfl

theorem allocProgCoeffs_bytes (d : decoder) (c : bytes) (hd : ScanHeader) (mxx myy : Nat) :
    allocProgCoeffs { d with bytes := c } hd mxx myy = allocProgCoeffs d hd mxx myy := rfl

theorem scanHeader_rel (d d1 : decoder) (n : Nat) (h : d.Same d1) :
    Rel (fun x y => x.1.Same y.1 ∧ x.2 = y.2) (scanHeader d n) (scanHeader d1 n) := by
  have tail : ∀ (x : decoder) (c : bytes) (tmp : List Nat), x.bytes.Same c →
      @Rel (decoder × ScanHeader) (fun x y => x.1.Same y.1 ∧ x.2 = y.2)
        (if n ≠ 4 + 2 * tmp.getD 0 0 then
          .error (.formatError "SOS length inconsistent with number of components")
        else
          match forRange (sosComponent x tmp) (tmp.getD 0 0) 0
              (List.replicate maxComponents scanComp.zero, 0) with
          | .error e => .error e
          | .ok (scan, totalHV) =>
            if x.nComp > 1 ∧ totalHV > 10 then
              .error (.formatError "total sampling factors too large")
            else
              match scanProgression x.progressive tmp (tmp.getD 0 0) with
              | .error e => .error e
              | .ok (zigStart, zigEnd, ah, al) =>
                .ok (x, ScanHeader.mk (tmp.getD 0 0) scan zigStart zigEnd ah al))
        (if n ≠ 4 + 2 * tmp.getD 0 0 then
          .error (.formatError "SOS length inconsistent with number of components")
        else
          match forRange (sosComponent { x with bytes := c } tmp) (tmp.getD 0 0) 0
              (List.replicate maxComponents scanComp.zero, 0) with
          | .error e => .error e
          | .ok (scan, totalHV) =>
            if x.nComp > 1 ∧ totalHV > 10 then
              .error (.formatError "total sampling factors too large")
            else
              match scanProgression x.progressive tmp (tmp.getD 0 0) with
              | .error e => .error e
              | .ok (zigStart, zigEnd, ah, al) =>
                .ok ({ x with bytes := c },
                  ScanHeader.mk (tmp.getD 0 0) scan zigStart zigEnd ah al)) := by
    intro x c tmp hc
    apply rel_ite
    · intro _; exact rel_error _ _
    · intro _
      rw [sosComponent_bytes x c tmp]
      rcases forRange (sosComponent x tmp) (tmp.getD 0 0) 0
          (List.replicate maxComponents scanComp.zero, 0) with e | ⟨scan, totalHV⟩
      · exact rel_error _ _
      · simp only []
        apply rel_ite
        · intro _; exact rel_error _ _
        · intro _
          rcases scanProgression x.progressive tmp (tmp.getD 0 0) with e | ⟨zs, ze, ah, al⟩
          · exact rel_error _ _
          · exact rel_ok _ _ _ ⟨⟨rfl, hc⟩, rfl⟩
  obtain ⟨e1, e2⟩ := h
  obtain ⟨b1, rfl⟩ : ∃ b1, d1 = { d with bytes := b1 } := ⟨_, e1⟩
  have e3 : d.bytes.Same b1 := e2
  unfold scanHeader
  apply rel_ite
  · intro _; exact rel_error _ _
  · intro _
    apply rel_ite
    · intro _; exact rel_error _ _
    · intro _
      have hS : (decoder.stream d).Same (decoder.stream { d with bytes := b1 }) := ⟨rfl, e3⟩
      rcases rel_cases _ _ _ (readFull_rel _ _ n hS).1 with
        ⟨e, h1, h2⟩ | ⟨⟨tmp, s⟩, ⟨tmp1, s1⟩, h1, h2, hq, hs⟩
      · rw [h1, h2]; exact rel_error _ _
      · simp only [] at hq hs
        subst hq
        obtain ⟨hb, hbs⟩ := hs
        rcases s1 with ⟨sb1, sbits1⟩
        simp only [] at hb hbs
        subst hb
        rw [h1, h2]
        exact tail (d.withStream s) sb1 tmp hbs

theorem makeImg_rel (d d1 : decoder) (mxx myy : Nat) (h : d.Same d1) :
    Rel decoder.Same (makeImg d mxx myy) (makeImg d1 mxx myy) := by
  obtain ⟨e1, e2⟩ := h
  obtain ⟨b1, rfl⟩ : ∃ b1, d1 = { d with bytes := b1 } := ⟨_, e1⟩
  have e3 : d.bytes.Same b1 := e2
  unfold makeImg
  apply rel_ite
  · intro _; exact rel_ok _ _ _ ⟨rfl, e3⟩
  · intro _
    simp only []
    apply rel_ite
    · intro _; exact rel_error _ _
    · intro _
      generalize ((d.comp.getD 0 component.zero).h / (d.comp.getD 1 component.zero).h) <<< 4 |||
        (d.comp.getD 0 component.zero).v / (d.comp.getD 1 component.zero).v = code
      generalize (if code = 17 then some SubsampleRatio.r444
        else if code = 18 then some SubsampleRatio.r440
        else if code = 33 then some SubsampleRatio.r422
        else if code = 34 then some SubsampleRatio.r420
        else if code = 65 then some SubsampleRatio.r411
        else if code = 66 then some SubsampleRatio.r410
        else none) = ratio
      rcases ratio with _ | r
      · exact rel_error _ _
      · simp only []
        apply rel_ite
        · intro _; exact rel_ok _ _ _ ⟨rfl, e3⟩
        · intro _; exact rel_ok _ _ _ ⟨rfl, e3⟩

theorem scanAlloc_rel (d d1 : decoder) (hd : ScanHeader) (h : d.Same d1) :
    Rel (fun x y => x.1.Same y.1 ∧ x.2.1 = y.2.1 ∧ x.2.2.Same y.2.2)
      (scanAlloc d hd) (scanAlloc d1 hd) := by
  obtain ⟨e1, e2⟩ := h
  obtain ⟨b1, rfl⟩ : ∃ b1, d1 = { d with bytes := b1 } := ⟨_, e1⟩
  have e3 : d.bytes.Same b1 := e2
  unfold scanAlloc
  apply rel_ite
  · intro _; exact rel_error _ _
  · intro _
    simp only []
    generalize (d.width + 8 * (d.comp.getD 0 component.zero).h - 1) /
      (8 * (d.comp.getD 0 component.zero).h) = mxx
    generalize (d.height + 8 * (d.comp.getD 0 component.zero).v - 1) /
      (8 * (d.comp.getD 0 component.zero).v) = myy
    have hmade : Rel decoder.Same
        (if d.img1 = none ∧ d.img3 = none then makeImg d mxx myy else .ok d)
        (if d.img1 = none ∧ d.img3 = none then makeImg { d with bytes := b1 } mxx myy
          else .ok { d with bytes := b1 }) := by
      apply rel_ite
      · intro _; exact makeImg_rel _ _ _ _ ⟨rfl, e3⟩
      · intro _; exact rel_ok _ _ _ ⟨rfl, e3⟩
    rcases rel_cases _ _ _ hmade with ⟨e, h1, h2⟩ | ⟨d2, d3, h1, h2, hq1, hq2⟩
    · rw [h1, h2]; exact rel_error _ _
    · obtain ⟨c, rfl⟩ : ∃ c, d3 = { d2 with bytes := c } := ⟨_, hq1⟩
      have e4 : d2.bytes.Same c := hq2
      rw [h1, h2]
      simp only []
      rw [allocProgCoeffs_bytes d2 c]
      exact rel_ok _ _ _ ⟨⟨rfl, e4⟩, rfl, rfl, rfl, rfl, e4⟩

theorem scanSetup_rel (d d1 : decoder) (n : Nat) (h : d.Same d1) :
    Rel (fun x y => x.1.Same y.1 ∧ x.2.1 = y.2.1 ∧ x.2.2.Same y.2.2)
      (scanSetup d n) (scanSetup d1 n) := by
  unfold scanSetup
  rcases rel_cases _ _ _ (scanHeader_rel d d1 n h) with
    ⟨e, h1, h2⟩ | ⟨⟨d2, hd⟩, ⟨d3, hd1⟩, h1, h2, hq1, hq2⟩
  · rw [h1, h2]; exact rel_error _ _
  · simp only [] at hq1 hq2
    subst hq2
    rw [h1, h2]
    exact scanAlloc_rel d2 d3 hd hq1

theorem processSOS_rel (d d1 : decoder) (n : Nat) (h : d.Same d1) :
    Rel decoder.Same (processSOS d n) (processSOS d1 n) := by
  unfold processSOS
  rcases rel_cases _ _ _ (scanSetup_rel d d1 n h) with
    ⟨e, h1, h2⟩ | ⟨⟨d2, p, ms⟩, ⟨d3, p1, ms1⟩, h1, h2, hq1, hq2, hq3⟩
  · rw [h1, h2]; exact rel_error _ _
  · simp only [] at hq1 hq2 hq3
    subst hq2
    rw [h1, h2]
    simp only []
    obtain ⟨c, rfl⟩ : ∃ c, d3 = { d2 with bytes := c } := ⟨_, hq1.1⟩
    rw [scanLoop_bytes d2 c]
    rcases rel_cases _ _ _ (scanLoop_rel d2 p ms ms1 hq3) with
      ⟨e, h1, h2⟩ | ⟨m, m1, h1, h2, hm1, hm2, hm3⟩
    · rw [h1, h2]; exact rel_error _ _
    · rw [h1, h2]
      refine rel_ok _ _ _ ⟨?_, hm3.2⟩
      simp only []
      rw [hm2, ← hm3.1]

end Jpeg

namespace Jpeg

/-! ## The segment loop on readers with the same bytes left -/

theorem syncMarker_rel (fuel : Nat) :
    ∀ (b b1 : bytes) (t0 t1 : Nat), b.Same b1 →
      Rel (fun x y => x.1 = y.1 ∧ x.2.Same y.2)
        (syncMarker fuel b t0 t1) (syncMarker fuel b1 t0 t1) := by
  induction fuel with
  | zero =>
    intro b b1 t0 t1 h
    rw [syncMarker, syncMarker]
    apply rel_ite
    · intro _
      rcases readByte_cases _ _ h with ⟨c, c1, e, h1, h2⟩ | ⟨c, c1, x, h1, h2, hc⟩
      · rw [h1, h2]; exact rel_error _ _
      · rw [h1, h2]; exact rel_error _ _
    · intro _; exact rel_ok _ _ _ ⟨rfl, h⟩
  | succ fuel ih =>
    intro b b1 t0 t1 h
    rw [syncMarker, syncMarker]
    apply rel_ite
    · intro _
      rcases readByte_cases _ _ h with ⟨c, c1, e, h1, h2⟩ | ⟨c, c1, x, h1, h2, hc⟩
      · rw [h1, h2]; exact rel_error _ _
      · rw [h1, h2]; exact ih _ _ _ _ hc
    · intro _; exact rel_ok _ _ _ ⟨rfl, h⟩

theorem skipFill_rel (fuel : Nat) :
    ∀ (b b1 : bytes) (m : Nat), b.Same b1 →
      Rel (fun x y => x.1 = y.1 ∧ x.2.Same y.2) (skipFill fuel b m) (skipFill fuel b1 m) := by
  induction fuel with
  | zero =>
    intro b b1 m h
    rw [skipFill, skipFill]
    apply rel_ite
    · intro _
      rcases readByte_cases _ _ h with ⟨c, c1, e, h1, h2⟩ | ⟨c, c1, x, h1, h2, hc⟩
      · rw [h1, h2]; exact rel_error _ _
      · rw [h1, h2]; exact rel_error _ _
    · intro _; exact rel_ok _ _ _ ⟨rfl, h⟩
  | succ fuel ih =>
    intro b b1 m h
    rw [skipFill, skipFill]
    apply rel_ite
    · intro _
      rcases readByte_cases _ _ h with ⟨c, c1, e, h1, h2⟩ | ⟨c, c1, x, h1, h2, hc⟩
      · rw [h1, h2]; exact rel_error _ _
      · rw [h1, h2]; exact ih _ _ _ hc
    · intro _; exact rel_ok _ _ _ ⟨rfl, h⟩

theorem segmentHeader_tail (d : decoder) :
    segmentHeader d =
      match readFull d.stream 2 with
      | .error e => .error e
      | .ok (tmp, s) =>
        match syncMarker s.bytes.remaining s.bytes (tmp.getD 0 0) (tmp.getD 1 0) with
        | .error e => .error e
        | .ok (marker0, b1) =>
          if marker0 = 0 then .ok (.skip { d with bytes := b1, bits := s.bits })
          else
            match skipFill b1.remaining b1 marker0 with
            | .error e => .error e
            | .ok (marker, b2) => headerTail { d with bytes := b2, bits := s.bits } marker := rfl

theorem headerTail_rel (d d1 : decoder) (marker : Nat) (h : d.Same d1) :
    Rel Header.Same (headerTail d marker) (headerTail d1 marker) := by
  unfold headerTail
  apply rel_ite
  · intro _; exact rel_ok _ _ _ h
  · intro _
    apply rel_ite
    · intro _; exact rel_ok _ _ _ h
    · intro _
      rcases rel_cases _ _ _ (readFull_rel _ _ 2 (decoder_same_stream d d1 h)).1 with
        ⟨e, h1, h2⟩ | ⟨⟨tmp, s⟩, ⟨tmp1, s1⟩, h1, h2, hq, hs⟩
      · rw [h1, h2]; exact rel_error _ _
      · simp only [] at hq hs
        subst hq
        rw [h1, h2]
        simp only []
        apply rel_ite
        · intro _; exact rel_error _ _
        · intro _; exact rel_ok _ _ _ ⟨withStream_same d d1 s s1 h hs, rfl, rfl⟩

theorem unreadOvershot_nUnreadable (s : Stream) : (unreadOvershot s).bytes.nUnreadable = 0 := by
  unfold unreadOvershot
  split
  · rfl
  · rename_i h; simpa using h

/-- The first part of a round on decoders that agree at the start of the
round. -/
theorem segmentHeader_rel (d d1 : decoder) (h : d.Start d1) :
    Rel Header.Same (segmentHeader d) (segmentHeader d1) := by
  obtain ⟨e1, e2⟩ := h
  rw [segmentHeader_tail, segmentHeader_tail, readFull_unread d.stream, readFull_unread d1.stream]
  rcases rel_cases _ _ _ (readFull_rel _ _ 2 e2).1 with
    ⟨e, h1, h2⟩ | ⟨⟨tmp, s⟩, ⟨tmp1, s1⟩, h1, h2, hq, hs⟩
  · rw [h1, h2]; exact rel_error _ _
  · simp only [] at hq hs
    subst hq
    rw [h1, h2]
    simp only []
    rw [← same_remaining _ _ hs.2]
    rcases rel_cases _ _ _ (syncMarker_rel s.bytes.remaining s.bytes s1.bytes
        (tmp.getD 0 0) (tmp.getD 1 0) hs.2) with
      ⟨e, h1, h2⟩ | ⟨⟨m0, c⟩, ⟨m1, c1⟩, h1, h2, hq, hc⟩
    · rw [h1, h2]; exact rel_error _ _
    · simp only [] at hq hc
      subst hq
      rw [h1, h2]
      simp only []
      have hsame : ∀ (x x1 : bytes), x.Same x1 →
          decoder.Same { d with bytes := x, bits := s.bits }
            { d1 with bytes := x1, bits := s1.bits } := by
        intro x x1 hx
        refine ⟨?_, hx⟩
        rw [e1, ← hs.1]
      apply rel_ite
      · intro _; exact rel_ok _ _ _ (hsame _ _ hc)
      · intro _
        rw [← same_remaining _ _ hc]
        rcases rel_cases _ _ _ (skipFill_rel c.remaining c c1 m0 hc) with
          ⟨e, h1, h2⟩ | ⟨⟨m2, c2⟩, ⟨m3, c3⟩, h1, h2, hq, hc2⟩
        · rw [h1, h2]; exact rel_error _ _
        · simp only [] at hq hc2
          subst hq
          rw [h1, h2]
          exact headerTail_rel _ _ _ (hsame _ _ hc2)

theorem wrap_rel (r r1 : Except Err decoder) :
    Rel decoder.Same r r1 →
    Rel Outcome.Same
      (match r with
        | .error e => .error e
        | .ok d1 => .ok (.next d1))
      (match r1 with
        | .error e => .error e
        | .ok d1 => .ok (.next d1)) := by
  intro h
  rcases rel_cases _ _ _ h with ⟨e, h1, h2⟩ | ⟨a, a1, h1, h2, hq⟩
  · rw [h1, h2]; exact rel_error _ _
  · rw [h1, h2]; exact rel_ok _ _ _ hq

/-- The `switch marker` on decoders that differ in how the bytes are buffered
only. -/
theorem decodeMarker_rel (c : Bool) (d d1 : decoder) (marker n : Nat) (h : d.Same d1) :
    Rel Outcome.Same (decodeMarker c d marker n) (decodeMarker c d1 marker n) := by
  unfold decodeMarker
  simp only []
  apply rel_ite
  · intro _
    have hp := same_update d d1 (fun x => { x with progressive := marker = sof2Marker }) h
      (fun _ _ => rfl) (fun _ => rfl)
    rcases rel_cases _ _ _ (processSOF_rel _ _ n hp) with ⟨e, h1, h2⟩ | ⟨a, a1, h1, h2, hq⟩
    · rw [h1, h2]; exact rel_error _ _
    · rw [h1, h2]
      simp only []
      have hj : a1.jfif = a.jfif := by rw [hq.1]
      rw [hj]
      apply rel_ite
      · intro _; exact rel_ok _ _ _ hq
      · intro _; exact rel_ok _ _ _ hq
  · intro _
    apply rel_ite
    · intro _
      apply rel_ite
      · intro _; exact wrap_rel _ _ (decoder_ignore_rel d d1 n h)
      · intro _; exact wrap_rel _ _ (processDHT_rel d d1 n h)
    · intro _
      apply rel_ite
      · intro _
        apply rel_ite
        · intro _; exact wrap_rel _ _ (decoder_ignore_rel d d1 n h)
        · intro _; exact wrap_rel _ _ (processDQT_rel d d1 n h)
      · intro _
        apply rel_ite
        · intro _
          apply rel_ite
          · intro _; exact rel_ok _ _ _ h
          · intro _; exact wrap_rel _ _ (processSOS_rel d d1 n h)
        · intro _
          apply rel_ite
          · intro _
            apply rel_ite
            · intro _; exact wrap_rel _ _ (decoder_ignore_rel d d1 n h)
            · intro _; exact wrap_rel _ _ (processDRI_rel d d1 n h)
          · intro _
            apply rel_ite
            · intro _; exact wrap_rel _ _ (processApp0Marker_rel d d1 n h)
            · intro _
              apply rel_ite
              · intro _; exact wrap_rel _ _ (processApp14Marker_rel d d1 n h)
              · intro _
                apply rel_ite
                · intro _; exact wrap_rel _ _ (decoder_ignore_rel d d1 n h)
                · intro _
                  apply rel_ite
                  · intro _; exact rel_error _ _
                  · intro _; exact rel_error _ _

/-- Decoders that differ in how the bytes are buffered only agree at the
start of a round. -/
theorem same_start (d d1 : decoder) (h : d.Same d1) : d.Start d1 := by
  refine ⟨?_, (unreadOvershot_rel _ _ (decoder_same_stream d d1 h)).1⟩
  obtain ⟨e1, e2⟩ := h
  obtain ⟨b1, rfl⟩ : ∃ b1, d1 = { d with bytes := b1 } := ⟨_, e1⟩
  rfl

/-- The rest of a round behind a header. -/
theorem headerStep_rel (c : Bool) (x x1 : Except Err Header) :
    Rel Header.Same x x1 →
    Rel Outcome.Same
      (match x with
        | .error e => .error e
        | .ok (.skip d1) => .ok (.next d1)
        | .ok (.eoi d1) => .ok (.eoi d1)
        | .ok (.seg d1 marker n) => decodeMarker c d1 marker n)
      (match x1 with
        | .error e => .error e
        | .ok (.skip d1) => .ok (.next d1)
        | .ok (.eoi d1) => .ok (.eoi d1)
        | .ok (.seg d1 marker n) => decodeMarker c d1 marker n) := by
  intro h
  rcases rel_cases _ _ _ h with ⟨e, h1, h2⟩ | ⟨a, a1, h1, h2, hq⟩
  · rw [h1, h2]; exact rel_error _ _
  · rw [h1, h2]
    rcases a with a | a | ⟨a, m, n⟩ <;> rcases a1 with a1 | a1 | ⟨a1, m1, n1⟩ <;>
      simp only [Header.Same] at hq
    · exact rel_ok _ _ _ hq
    · exact rel_ok _ _ _ hq
    · obtain ⟨hq, rfl, rfl⟩ := hq
      exact decodeMarker_rel c a a1 m n hq

theorem decodeSegment_rel (c : Bool) (d d1 : decoder) (h : d.Start d1) :
    Rel Outcome.Same (decodeSegment c d) (decodeSegment c d1) :=
  headerStep_rel c _ _ (segmentHeader_rel d d1 h)

/-- The rest of the segment loop behind a round, with `k` and `k1` what
follows a round that ends with `continue`. -/
theorem loopStep_rel (k k1 : decoder → Except Err (decoder × Bool))
    (ih : ∀ d d1 : decoder, d.Same d1 → Rel (fun x y => x.1.Same y.1 ∧ x.2 = y.2) (k d) (k1 d1))
    (x x1 : Except Err Outcome) :
    Rel Outcome.Same x x1 →
    Rel (fun x y => x.1.Same y.1 ∧ x.2 = y.2)
      (match x with
        | .error e => .error e
        | .ok (.eoi d1) => .ok (d1, true)
        | .ok (.ret d1) => .ok (d1, false)
        | .ok (.next d1) => k d1)
      (match x1 with
        | .error e => .error e
        | .ok (.eoi d1) => .ok (d1, true)
        | .ok (.ret d1) => .ok (d1, false)
        | .ok (.next d1) => k1 d1) := by
  intro h
  rcases rel_cases _ _ _ h with ⟨e, h1, h2⟩ | ⟨a, a1, h1, h2, hq⟩
  · rw [h1, h2]; exact rel_error _ _
  · rw [h1, h2]
    rcases a with a | a | a <;> rcases a1 with a1 | a1 | a1 <;>
      simp only [Outcome.Same] at hq
    · exact ih a a1 hq
    · exact rel_ok _ _ _ ⟨hq, rfl⟩
    · exact rel_ok _ _ _ ⟨hq, rfl⟩

/-- The segment loop on decoders that agree at the start of a round: the same
error, or the same way of leaving the loop with decoders that differ in how
the bytes are buffered only. -/
theorem decodeLoop_rel (c : Bool) (fuel : Nat) :
    ∀ d d1 : decoder, d.Start d1 →
      Rel (fun x y => x.1.Same y.1 ∧ x.2 = y.2) (decodeLoop c fuel d) (decodeLoop c fuel d1) := by
  induction fuel with
  | zero =>
    intro d d1 h
    rw [decodeLoop, decodeLoop]
    exact loopStep_rel (fun _ => .error .outOfFuel) (fun _ => .error .outOfFuel)
      (fun _ _ _ => rel_error _ _) _ _ (decodeSegment_rel c d d1 h)
  | succ fuel ih =>
    intro d d1 h
    rw [decodeLoop, decodeLoop]
    exact loopStep_rel (fun a => decodeLoop c fuel a) (fun a => decodeLoop c fuel a)
      (fun a a1 ha => ih a a1 (same_start a a1 ha)) _ _ (decodeSegment_rel c d d1 h)

/-- More fuel does not change the result of a segment loop that does not run
out of fuel. -/
theorem decodeLoop_mono (c : Bool) (fuel : Nat) :
    ∀ (d : decoder) (k : Nat), decodeLoop c fuel d ≠ .error .outOfFuel →
      decodeLoop c (fuel + k) d = decodeLoop c fuel d := by
  induction fuel with
  | zero =>
    intro d k h
    rw [decodeLoop] at h ⊢
    conv_rhs => rw [decodeLoop]
    revert h
    rcases decodeSegment c d with e | a | a | a
    · intro _; rfl
    · intro h; exact absurd rfl h
    · intro _; rfl
    · intro _; rfl
  | succ fuel ih =>
    intro d k h
    rw [decodeLoop] at h
    rw [show fuel + 1 + k = (fuel + k) + 1 by omega, decodeLoop]
    conv_rhs => rw [decodeLoop]
    revert h
    rcases decodeSegment c d with e | a | a | a
    · intro _; rfl
    · intro h; exact ih a k h
    · intro _; rfl
    · intro _; rfl

theorem decodeResult_bytes (d : decoder) (b : bytes) :
    decodeResult { d with bytes := b } = decodeResult d := rfl

theorem decodeResult_same (d d1 : decoder) (h : d.Same d1) :
    decodeResult d1 = decodeResult d := by
  rw [h.1]
  exact decodeResult_bytes d d1.bytes

end Jpeg

namespace Jpeg

/-! ## Bytes inserted in front of a marker -/

/-- The loop `for d.tmp[0] != 0xff` skips bytes other than `0xff` up to the
next `0xff` and returns the byte behind it. -/
theorem syncMarker_forward (g : List Nat) :
    ∀ (fuel : Nat) (b : bytes) (t0 t1 x : Nat) (tail : List Nat), b.WF → b.nUnreadable = 0 →
      b.pending.length ≤ fuel → (∀ y ∈ g, y ≠ 0xff) →
      [t0, t1] ++ b.pending = g ++ 0xff :: x :: tail →
      ∃ b1, syncMarker fuel b t0 t1 = .ok (x, b1) ∧ b1.WF ∧ b1.nUnreadable = 0 ∧
        b1.pending = tail := by
  induction g with
  | nil =>
    intro fuel b t0 t1 x tail hwf hnu hlen hg hp
    simp only [List.nil_append, List.cons_append, List.cons.injEq] at hp
    obtain ⟨rfl, rfl, hp⟩ := hp
    refine ⟨b, ?_, hwf, hnu, hp⟩
    cases fuel <;> simp [syncMarker]
  | cons y g ih =>
    intro fuel b t0 t1 x tail hwf hnu hlen hg hp
    simp only [List.cons_append, List.cons.injEq, List.nil_append] at hp
    obtain ⟨rfl, hp⟩ := hp
    have hy : t0 ≠ 0xff := hg t0 (List.mem_cons_self _ _)
    rcases hpb : b.pending with _ | ⟨p0, ptail⟩
    · rw [hpb] at hp
      have := congrArg List.length hp
      simp at this
      omega
    · obtain ⟨b1, e1, w1, n1, p1⟩ := (readByte_pending b hwf).1 p0 ptail hpb
      rw [hpb] at hlen hp
      obtain ⟨fuel, rfl⟩ : ∃ f, fuel = f + 1 := ⟨fuel - 1, by simp at hlen; omega⟩
      rw [syncMarker, if_pos hy]
      simp only [e1]
      exact ih fuel b1 t1 p0 x tail w1 n1 (by rw [p1]; simp at hlen; omega)
        (fun z hz => hg z (List.mem_cons_of_mem _ hz)) (by rw [p1]; exact hp)

/-- The loop `for marker == 0xff` skips fill bytes up to the marker. -/
theorem skipFill_forward (j : Nat) :
    ∀ (fuel : Nat) (b : bytes) (x m : Nat) (rest : List Nat), b.WF → b.nUnreadable = 0 →
      b.pending.length ≤ fuel → m ≠ 0xff →
      x :: b.pending = List.replicate j 0xff ++ m :: rest →
      ∃ b1, skipFill fuel b x = .ok (m, b1) ∧ b1.WF ∧ b1.nUnreadable = 0 ∧
        b1.pending = rest := by
  induction j with
  | zero =>
    intro fuel b x m rest hwf hnu hlen hm hp
    simp only [List.replicate_zero, List.nil_append, List.cons.injEq] at hp
    obtain ⟨rfl, hp⟩ := hp
    refine ⟨b, ?_, hwf, hnu, hp⟩
    cases fuel <;> simp [skipFill, hm]
  | succ j ih =>
    intro fuel b x m rest hwf hnu hlen hm hp
    rw [List.replicate_succ, List.cons_append, List.cons.injEq] at hp
    obtain ⟨rfl, hp⟩ := hp
    rcases hpb : b.pending with _ | ⟨p0, ptail⟩
    · rw [hpb] at hp
      have := congrArg List.length hp
      simp at this
      omega
    · obtain ⟨b1, e1, w1, n1, p1⟩ := (readByte_pending b hwf).1 p0 ptail hpb
      rw [hpb] at hlen
      obtain ⟨fuel, rfl⟩ : ∃ f, fuel = f + 1 := ⟨fuel - 1, by simp at hlen; omega⟩
      rw [skipFill, if_pos rfl]
      simp only [e1]
      exact ih fuel b1 p0 m rest w1 n1 (by rw [p1]; simp at hlen; omega) hm
        (by rw [p1, ← hpb]; exact hp)

theorem replicate_append_cons (j a : Nat) (l : List Nat) :
    List.replicate j a ++ a :: l = a :: (List.replicate j a ++ l) := by
  induction j with
  | zero => rfl
  | succ j ih => rw [List.replicate_succ, List.cons_append, ih, List.cons_append]

theorem take_two_drop (l : List Nat) (h : 2 ≤ l.length) :
    [(l.take 2).getD 0 0, (l.take 2).getD 1 0] ++ l.drop 2 = l := by
  rcases l with _ | ⟨a, _ | ⟨b, l⟩⟩
  · simp at h
  · simp at h
  · rfl

/-- The first part of a round on bytes other than `0xff`, fill bytes and a
marker: it ends behind the marker. -/
theorem segmentHeader_sync (d : decoder) (g : List Nat) (j m : Nat) (rest : List Nat)
    (hw : (unreadOvershot d.stream).bytes.WF)
    (hp : (unreadOvershot d.stream).bytes.pending =
      g ++ List.replicate j 0xff ++ 0xff :: m :: rest)
    (hg : ∀ y ∈ g, y ≠ 0xff) (hm0 : m ≠ 0) (hmf : m ≠ 0xff) :
    ∃ b2, b2.WF ∧ b2.nUnreadable = 0 ∧ b2.pending = rest ∧
      segmentHeader d =
        headerTail { d with bytes := b2, bits := (unreadOvershot d.stream).bits } m := by
  have hnu := unreadOvershot_nUnreadable d.stream
  obtain ⟨rf, _⟩ := readFull_spec (unreadOvershot d.stream) 2 hw hnu
  have hlen : 2 ≤ (unreadOvershot d.stream).bytes.pending.length := by
    rw [hp]; simp; omega
  obtain ⟨s1, e1, w1, n1, p1, hb1⟩ := rf hlen
  obtain ⟨x, tail, hxt⟩ : ∃ x tail, List.replicate j 0xff ++ m :: rest = x :: tail := by
    cases j with
    | zero => exact ⟨m, rest, rfl⟩
    | succ j => exact ⟨0xff, List.replicate j 0xff ++ m :: rest, by
        rw [List.replicate_succ, List.cons_append]⟩
  have hx0 : x ≠ 0 := by
    cases j with
    | zero =>
      simp only [List.replicate_zero, List.nil_append, List.cons.injEq] at hxt
      rw [← hxt.1]; exact hm0
    | succ j =>
      rw [List.replicate_succ, List.cons_append, List.cons.injEq] at hxt
      rw [← hxt.1]; decide
  have hsync := syncMarker_forward g s1.bytes.remaining s1.bytes
    (((unreadOvershot d.stream).bytes.pending.take 2).getD 0 0)
    (((unreadOvershot d.stream).bytes.pending.take 2).getD 1 0) x tail w1 n1
    (by rw [remaining_eq _ w1]) hg
    (by rw [p1, take_two_drop _ hlen, hp, List.append_assoc]
        rw [replicate_append_cons, hxt])
  obtain ⟨b1, e2, w2, n2, p2⟩ := hsync
  obtain ⟨b2, e3, w3, n3, p3⟩ := skipFill_forward j b1.remaining b1 x m rest w2 n2
    (by rw [remaining_eq _ w2]) hmf (by rw [p2, hxt])
  refine ⟨b2, w3, n3, p3, ?_⟩
  rw [segmentHeader_tail, readFull_unread, e1]
  simp only [e2]
  rw [if_neg hx0]
  simp only [e3, hb1]

theorem rel_ne_fuel {α : Type} (Q : α → α → Prop) (x y : Except Err α) (h : Rel Q x y)
    (hx : x ≠ .error .outOfFuel) : y ≠ .error .outOfFuel := by
  rcases rel_cases _ _ _ h with ⟨e, h1, h2⟩ | ⟨a, a1, h1, h2, hq⟩
  · rw [h2]; rw [h1] at hx; exact hx
  · rw [h2]; simp

/-- The decoder behind the Start Of Image marker. -/
theorem behind_soi (r : List Nat) :
    ∃ s, readFull (decoder.init (0xff :: 0xd8 :: r)).stream 2 = .ok ([0xff, 0xd8], s) ∧
      s.bytes.WF ∧ s.bytes.nUnreadable = 0 ∧ s.bytes.pending = r ∧
      s.bits = { a := 0, m := 0, n := 0 } := by
  obtain ⟨w, n, p, -⟩ := init_ok (0xff :: 0xd8 :: r)
  obtain ⟨rf, _⟩ := readFull_spec (decoder.init (0xff :: 0xd8 :: r)).stream 2 w n
  have hp : (decoder.init (0xff :: 0xd8 :: r)).stream.bytes.pending = 0xff :: 0xd8 :: r := p
  obtain ⟨s, e1, w1, n1, p1, b1⟩ := rf (by rw [hp]; simp)
  rw [hp] at e1 p1
  exact ⟨s, e1, w1, n1, p1, b1⟩

/-- Function `Decode` on two streams whose segment loops agree. -/
theorem Decode_congr (r r1 : List Nat) (s s1 : Stream) (tmp : List Nat)
    (h0 : readFull (decoder.init r).stream 2 = .ok (tmp, s))
    (h1 : readFull (decoder.init r1).stream 2 = .ok (tmp, s1))
    (hrel : Rel (fun x y => x.1.Same y.1 ∧ x.2 = y.2)
      (decodeLoop false ((decoder.init r).withStream s).bytes.remaining
        ((decoder.init r).withStream s))
      (decodeLoop false ((decoder.init r1).withStream s1).bytes.remaining
        ((decoder.init r1).withStream s1))) :
    Decode r1 = Decode r := by
  unfold Decode decode
  simp only [h0, h1]
  by_cases hsoi : tmp.getD 0 0 ≠ 0xff ∨ tmp.getD 1 0 ≠ soiMarker
  · rw [if_pos hsoi, if_pos hsoi]
  · rw [if_neg hsoi, if_neg hsoi]
    rcases rel_cases _ _ _ hrel with ⟨e, e1, e2⟩ | ⟨⟨a, f⟩, ⟨a1, f1⟩, e1, e2, hq, hf⟩
    · rw [e1, e2]
    · simp only [] at hq hf
      subst hf
      rw [e1, e2]
      cases f
      · rfl
      · simp only []
        rw [decodeResult_same a a1 hq]
        rcases decodeResult a with e | img
        · rfl
        · rfl

theorem Decode_fuel (r : List Nat) (s : Stream) (tmp : List Nat)
    (h0 : readFull (decoder.init r).stream 2 = .ok (tmp, s))
    (hsoi : ¬ (tmp.getD 0 0 ≠ 0xff ∨ tmp.getD 1 0 ≠ soiMarker))
    (h : Decode r ≠ .error .outOfFuel) :
    decodeLoop false ((decoder.init r).withStream s).bytes.remaining
      ((decoder.init r).withStream s) ≠ .error .outOfFuel := by
  intro hl
  apply h
  unfold Decode decode
  simp only [h0]
  rw [if_neg hsoi, hl]

/-- A round of the segment loop on a restart marker. -/
theorem restart_round (c : Bool) (d d1 : decoder) (m : Nat)
    (hf : d = { d1 with bytes := d.bytes, bits := d.bits })
    (hb : (unreadOvershot d.stream).bits = (unreadOvershot d1.stream).bits)
    (hw : (unreadOvershot d.stream).bytes.WF) (hw1 : (unreadOvershot d1.stream).bytes.WF)
    (hp : (unreadOvershot d1.stream).bytes.pending =
      0xff :: m :: (unreadOvershot d.stream).bytes.pending)
    (hm : rst0Marker ≤ m ∧ m ≤ rst7Marker) :
    ∃ d2, decodeSegment c d1 = .ok (.next d2) ∧
      d2 = { d1 with bytes := d2.bytes, bits := (unreadOvershot d1.stream).bits } ∧
      d2.bytes.nUnreadable = 0 ∧
      d2.bytes.pending = (unreadOvershot d.stream).bytes.pending ∧ d.Start d2 := by
  have hm1 : m ≠ 0 := by unfold rst0Marker at hm; omega
  have hm2 : m ≠ 0xff := by unfold rst7Marker at hm; omega
  have hm3 : m ≠ eoiMarker := by unfold rst7Marker at hm; unfold eoiMarker; omega
  obtain ⟨b2, w2, n2, p2, hseg⟩ := segmentHeader_sync d1 [] 0 m
    (unreadOvershot d.stream).bytes.pending hw1 (by rw [hp]; rfl) (by simp) hm1 hm2
  refine ⟨{ d1 with bytes := b2, bits := (unreadOvershot d1.stream).bits }, ?_, rfl, n2, p2,
    hf, ?_⟩
  · unfold decodeSegment
    rw [hseg]
    unfold headerTail
    rw [if_neg hm3, if_pos hm]
  · rw [unreadOvershot_idem
      (decoder.stream { d1 with bytes := b2, bits := (unreadOvershot d1.stream).bits }) n2]
    exact ⟨hb, same_of_pending _ _ hw w2 (unreadOvershot_nUnreadable _) n2 p2.symm⟩

theorem rel_mono {α : Type} (Q Q1 : α → α → Prop) (x y : Except Err α)
    (hq : ∀ a a1, Q a a1 → Q1 a a1) (h : Rel Q x y) : Rel Q1 x y := by
  rcases rel_cases _ _ _ h with ⟨e, h1, h2⟩ | ⟨a, a1, h1, h2, hqa⟩
  · rw [h1, h2]; exact rel_error _ _
  · rw [h1, h2]; exact rel_ok _ _ _ (hq a a1 hqa)

theorem start_fields (d d1 : decoder) (hf : d = { d1 with bytes := d.bytes, bits := d.bits })
    (b : bytes) (bi : bits) :
    ({ d1 with bytes := b, bits := bi } : decoder) = { d with bytes := b, bits := bi } := by
  rw [hf]

/-- The segment loop behind a restart marker. -/
theorem restart_loop (c : Bool) (d d1 : decoder) (m fuel : Nat)
    (hf : d = { d1 with bytes := d.bytes, bits := d.bits })
    (hb : (unreadOvershot d.stream).bits = (unreadOvershot d1.stream).bits)
    (hw : (unreadOvershot d.stream).bytes.WF) (hw1 : (unreadOvershot d1.stream).bytes.WF)
    (hp : (unreadOvershot d1.stream).bytes.pending =
      0xff :: m :: (unreadOvershot d.stream).bytes.pending)
    (hm : rst0Marker ≤ m ∧ m ≤ rst7Marker) :
    Rel (fun x y => x.1.Same y.1 ∧ x.2 = y.2)
      (decodeLoop c fuel d) (decodeLoop c (fuel + 1) d1) := by
  obtain ⟨d2, e1, -, -, -, hst⟩ := restart_round c d d1 m hf hb hw hw1 hp hm
  have e : decodeLoop c (fuel + 1) d1 = decodeLoop c fuel d2 := by
    rw [decodeLoop, e1]
  rw [e]
  exact decodeLoop_rel c fuel d d2 hst

/-- The first part of a round behind inserted bytes other than `0xff` and
fill bytes. -/
theorem insert_header (d d1 : decoder) (g : List Nat) (j m : Nat) (rest : List Nat)
    (hf : d = { d1 with bytes := d.bytes, bits := d.bits })
    (hb : (unreadOvershot d.stream).bits = (unreadOvershot d1.stream).bits)
    (hw : (unreadOvershot d.stream).bytes.WF) (hw1 : (unreadOvershot d1.stream).bytes.WF)
    (hp0 : (unreadOvershot d.stream).bytes.pending = 0xff :: m :: rest)
    (hp : (unreadOvershot d1.stream).bytes.pending =
      g ++ List.replicate j 0xff ++ (unreadOvershot d.stream).bytes.pending)
    (hg : ∀ y ∈ g, y ≠ 0xff) (hm0 : m ≠ 0) (hmf : m ≠ 0xff) :
    Rel Header.Same (segmentHeader d) (segmentHeader d1) := by
  obtain ⟨b2, w2, n2, p2, hseg⟩ := segmentHeader_sync d [] 0 m rest hw (by rw [hp0]; rfl)
    (by simp) hm0 hmf
  obtain ⟨b3, w3, n3, p3, hseg1⟩ := segmentHeader_sync d1 g j m rest hw1 (by rw [hp, hp0])
    hg hm0 hmf
  rw [hseg, hseg1]
  apply headerTail_rel
  refine ⟨?_, same_of_pending _ _ w2 w3 n2 n3 (by rw [p2, p3])⟩
  rw [← hb]
  exact start_fields d d1 hf b3 _

/-- The segment loop behind inserted bytes other than `0xff` and fill bytes. -/
theorem insert_loop (c : Bool) (d d1 : decoder) (g : List Nat) (j m fuel : Nat)
    (rest : List Nat)
    (hf : d = { d1 with bytes := d.bytes, bits := d.bits })
    (hb : (unreadOvershot d.stream).bits = (unreadOvershot d1.stream).bits)
    (hw : (unreadOvershot d.stream).bytes.WF) (hw1 : (unreadOvershot d1.stream).bytes.WF)
    (hp0 : (unreadOvershot d.stream).bytes.pending = 0xff :: m :: rest)
    (hp : (unreadOvershot d1.stream).bytes.pending =
      g ++ List.replicate j 0xff ++ (unreadOvershot d.stream).bytes.pending)
    (hg : ∀ y ∈ g, y ≠ 0xff) (hm0 : m ≠ 0) (hmf : m ≠ 0xff) :
    Rel (fun x y => x.1.Same y.1 ∧ x.2 = y.2) (decodeLoop c fuel d) (decodeLoop c fuel d1) := by
  have hh := headerStep_rel c _ _ (insert_header d d1 g j m rest hf hb hw hw1 hp0 hp hg hm0 hmf)
  cases fuel with
  | zero =>
    rw [decodeLoop, decodeLoop]
    exact loopStep_rel (fun _ => .error .outOfFuel) (fun _ => .error .outOfFuel)
      (fun _ _ _ => rel_error _ _) _ _ hh
  | succ fuel =>
    rw [decodeLoop, decodeLoop]
    exact loopStep_rel (fun a => decodeLoop c fuel a) (fun a => decodeLoop c fuel a)
      (fun a a1 ha => decodeLoop_rel c fuel a a1 (same_start a a1 ha)) _ _ hh

/-- Function `Decode` on a stream with `ins` inserted behind the Start Of
Image marker, when the segment loop on the inserted bytes takes `k1` rounds
more and then agrees with the loop on the stream given. -/
theorem Decode_insert (r ins : List Nat) (k1 : Nat) (hk : k1 ≤ ins.length)
    (hloop : ∀ (s s1 : Stream) (fuel : Nat),
      readFull (decoder.init (0xff :: 0xd8 :: r)).stream 2 = .ok ([0xff, 0xd8], s) →
      readFull (decoder.init (0xff :: 0xd8 :: (ins ++ r))).stream 2 = .ok ([0xff, 0xd8], s1) →
      s.bytes.WF → s.bytes.nUnreadable = 0 → s.bytes.pending = r →
      s.bits = { a := 0, m := 0, n := 0 } →
      s1.bytes.WF → s1.bytes.nUnreadable = 0 → s1.bytes.pending = ins ++ r →
      s1.bits = { a := 0, m := 0, n := 0 } →
      Rel (fun x y => x.1.Same y.1 ∧ x.2 = y.2)
        (decodeLoop false fuel ((decoder.init (0xff :: 0xd8 :: r)).withStream s))
        (decodeLoop false (fuel + k1)
          ((decoder.init (0xff :: 0xd8 :: (ins ++ r))).withStream s1)))
    (hfuel : Decode (0xff :: 0xd8 :: r) ≠ .error .outOfFuel) :
    Decode (0xff :: 0xd8 :: (ins ++ r)) = Decode (0xff :: 0xd8 :: r) := by
  obtain ⟨s, e, w, n, p, b⟩ := behind_soi r
  obtain ⟨s1, e1, w1, n1, p1, b1⟩ := behind_soi (ins ++ r)
  have hl := hloop s s1 ((decoder.init (0xff :: 0xd8 :: r)).withStream s).bytes.remaining
    e e1 w n p b w1 n1 p1 b1
  have hne := rel_ne_fuel _ _ _ hl (Decode_fuel _ s _ e (by decide) hfuel)
  have hrem : ((decoder.init (0xff :: 0xd8 :: (ins ++ r))).withStream s1).bytes.remaining =
      ((decoder.init (0xff :: 0xd8 :: r)).withStream s).bytes.remaining + k1 +
        (ins.length - k1) := by
    show s1.bytes.remaining = s.bytes.remaining + k1 + (ins.length - k1)
    rw [remaining_eq _ w, remaining_eq _ w1, p, p1, List.length_append]
    omega
  apply Decode_congr _ _ s s1 _ e e1
  rw [hrem, decodeLoop_mono false _ _ (ins.length - k1) hne]
  exact hl

/-- The decoders behind the Start Of Image markers of two streams agree but
for the bytes that are left. -/
theorem soi_start (r r1 : List Nat) (s s1 : Stream)
    (w : s.bytes.WF) (n : s.bytes.nUnreadable = 0) (b : s.bits = { a := 0, m := 0, n := 0 })
    (w1 : s1.bytes.WF) (n1 : s1.bytes.nUnreadable = 0)
    (b1 : s1.bits = { a := 0, m := 0, n := 0 }) :
    (decoder.init r).withStream s =
        { (decoder.init r1).withStream s1 with
          bytes := ((decoder.init r).withStream s).bytes
          bits := ((decoder.init r).withStream s).bits } ∧
      (unreadOvershot ((decoder.init r).withStream s).stream).bits =
        (unreadOvershot ((decoder.init r1).withStream s1).stream).bits ∧
      (unreadOvershot ((decoder.init r).withStream s).stream).bytes.WF ∧
      (unreadOvershot ((decoder.init r1).withStream s1).stream).bytes.WF ∧
      (unreadOvershot ((decoder.init r).withStream s).stream).bytes.pending = s.bytes.pending ∧
      (unreadOvershot ((decoder.init r1).withStream s1).stream).bytes.pending =
        s1.bytes.pending := by
  have e : unreadOvershot ((decoder.init r).withStream s).stream = s :=
    unreadOvershot_idem _ n
  have e1 : unreadOvershot ((decoder.init r1).withStream s1).stream = s1 :=
    unreadOvershot_idem _ n1
  rw [e, e1]
  exact ⟨rfl, by rw [b, b1], w, w1, rfl, rfl⟩

set_option maxRecDepth 1000000 in
/-- Function `Decode` on the complete stream of `grayTail`. -/
theorem grayTail_decodes : Decode (0xff :: 0xd8 :: grayTail) = .ok (some grayImage) := by
  decide!

/-! ## Claims on bytes between segments -/

/-- C17 (as amended): a restart marker (`0xff` and a byte in `0xd0..0xd7`)
inserted where the segment loop of `decode` starts a round does not change
what the loop does. Let `d` and `d1` be decoders that agree in every field but
the byte buffer and the bit buffer, whose bit buffers agree once the bytes read
ahead are given back, and let the bytes that `d1` has left be the restart
marker followed by the bytes that `d` has left. Then the round on `d1` consumes
exactly the two bytes of the marker and changes no other decoder state; the
loop on `d1` with one round more than the loop on `d` ends with the same error
or leaves in the same way, with decoders that differ in how the bytes are
buffered only and give the same image; and `Decode` on a stream with the
marker right behind the Start Of Image marker returns what it returns on the
stream without it, when the segment loop on the latter does not run out of
fuel. -/
theorem C17_restart_marker (c : Bool) (d d1 : decoder) (m fuel : Nat)
    (hf : d = { d1 with bytes := d.bytes, bits := d.bits })
    (hb : (unreadOvershot d.stream).bits = (unreadOvershot d1.stream).bits)
    (hw : (unreadOvershot d.stream).bytes.WF) (hw1 : (unreadOvershot d1.stream).bytes.WF)
    (hp : (unreadOvershot d1.stream).bytes.pending =
      0xff :: m :: (unreadOvershot d.stream).bytes.pending)
    (hm : rst0Marker ≤ m ∧ m ≤ rst7Marker) :
    (∃ d2, decodeSegment c d1 = .ok (.next d2) ∧
      d2 = { d1 with bytes := d2.bytes, bits := (unreadOvershot d1.stream).bits } ∧
      d2.bytes.nUnreadable = 0 ∧
      d2.bytes.pending = (unreadOvershot d.stream).bytes.pending) ∧
    Rel (fun x y => x.1.Same y.1 ∧ x.2 = y.2 ∧ decodeResult y.1 = decodeResult x.1)
      (decodeLoop c fuel d) (decodeLoop c (fuel + 1) d1) ∧
    (∀ r, Decode (0xff :: 0xd8 :: r) ≠ .error .outOfFuel →
      Decode (0xff :: 0xd8 :: 0xff :: m :: r) = Decode (0xff :: 0xd8 :: r)) := by
  refine ⟨?_, ?_, ?_⟩
  · obtain ⟨d2, e1, e2, e3, e4, -⟩ := restart_round c d d1 m hf hb hw hw1 hp hm
    exact ⟨d2, e1, e2, e3, e4⟩
  · exact rel_mono _ _ _ _ (fun a a1 h => ⟨h.1, h.2, decodeResult_same _ _ h.1⟩)
      (restart_loop c d d1 m fuel hf hb hw hw1 hp hm)
  · intro r hr
    refine Decode_insert r [0xff, m] 1 (by simp) ?_ hr
    intro s s1 fuel1 _ _ w n p b w1 n1 p1 b1
    obtain ⟨q1, q2, q3, q4, q5, q6⟩ :=
      soi_start (0xff :: 0xd8 :: r) (0xff :: 0xd8 :: ([0xff, m] ++ r)) s s1 w n b w1 n1 b1
    exact restart_loop false _ _ m fuel1 q1 q2 q3 q4 (by rw [q5, q6, p, p1]; rfl) hm

set_option maxRecDepth 1000000 in
set_option maxHeartbeats 4000000 in
/-- On the decoders that read `grayTail` with and without the restart marker
`0xffd0` in front, the round consumes the marker, and `Decode` returns the
image `grayImage` for both streams. -/
theorem C17_restart_marker_witness :
    (∃ d2, decodeSegment false (decoder.init (0xff :: 0xd0 :: grayTail)) = .ok (.next d2) ∧
      d2.bytes.pending = grayTail) ∧
    Decode (0xff :: 0xd8 :: 0xff :: 0xd0 :: grayTail) = Decode (0xff :: 0xd8 :: grayTail) ∧
    Decode (0xff :: 0xd8 :: grayTail) = .ok (some grayImage) := by
  have h := C17_restart_marker false (decoder.init grayTail)
    (decoder.init (0xff :: 0xd0 :: grayTail)) 0xd0 8 rfl rfl
    ⟨by decide!, by decide, by decide⟩ ⟨by decide!, by decide, by decide⟩ rfl
    ⟨by decide, by decide⟩
  have hd := grayTail_decodes
  obtain ⟨⟨d2, e1, -, -, e2⟩, -, h3⟩ := h
  exact ⟨⟨d2, e1, e2⟩, h3 grayTail (by rw [hd]; simp), hd⟩

set_option maxRecDepth 1000000 in
/-- The claim C17 fails behind entropy-coded data that end early: on
`shortScan` followed by End Of Image, `Decode` reports a bad restart marker;
with the restart marker `0xffd0` inserted behind the entropy-coded data it
reports a missing `0xff00` sequence. -/
theorem C17_restart_marker_changes_error :
    Decode (shortScan ++ [0xff, 0xd9]) = .error (.formatError "bad RST marker") ∧
    Decode (shortScan ++ [0xff, 0xd0] ++ [0xff, 0xd9]) =
      .error (.formatError "missing 0xff00 sequence") ∧
    Decode (shortScan ++ [0xff, 0xd0] ++ [0xff, 0xd9]) ≠ Decode (shortScan ++ [0xff, 0xd9]) := by
  have h1 : Decode (shortScan ++ [0xff, 0xd9]) = .error (.formatError "bad RST marker") := by
    decide!
  have h2 : Decode (shortScan ++ [0xff, 0xd0] ++ [0xff, 0xd9]) =
      .error (.formatError "missing 0xff00 sequence") := by decide!
  refine ⟨h1, h2, ?_⟩
  rw [h1, h2]
  decide

/-- C18 (as amended): bytes other than `0xff` followed by fill bytes `0xff`,
any number of each, inserted in front of a marker where the segment loop of
`decode` starts a round do not change what the loop does. Let `d` and `d1` be
decoders that agree in every field but the byte buffer and the bit buffer,
whose bit buffers agree once the bytes read ahead are given back, let the bytes
that `d` has left start with `0xff` and a marker byte `m` other than `0x00` and
`0xff`, and let the bytes that `d1` has left be the inserted bytes followed by
the bytes that `d` has left. Then the first part of the round ends for both
with the same error or at the same marker, with the same segment length and
with decoders that differ in how the bytes are buffered only; the loops on `d`
and `d1` end with the same error or leave in the same way, with decoders that
differ in how the bytes are buffered only and give the same image; and
`Decode` on a stream with the bytes inserted right behind the Start Of Image
marker returns what it returns on the stream without them, when the segment
loop on the latter does not run out of fuel. -/
theorem C18_fill_bytes_and_garbage (c : Bool) (d d1 : decoder) (g : List Nat)
    (j m fuel : Nat) (rest : List Nat)
    (hf : d = { d1 with bytes := d.bytes, bits := d.bits })
    (hb : (unreadOvershot d.stream).bits = (unreadOvershot d1.stream).bits)
    (hw : (unreadOvershot d.stream).bytes.WF) (hw1 : (unreadOvershot d1.stream).bytes.WF)
    (hp0 : (unreadOvershot d.stream).bytes.pending = 0xff :: m :: rest)
    (hp : (unreadOvershot d1.stream).bytes.pending =
      g ++ List.replicate j 0xff ++ (unreadOvershot d.stream).bytes.pending)
    (hg : ∀ y ∈ g, y ≠ 0xff) (hm0 : m ≠ 0) (hmf : m ≠ 0xff) :
    Rel Header.Same (segmentHeader d) (segmentHeader d1) ∧
    Rel (fun x y => x.1.Same y.1 ∧ x.2 = y.2 ∧ decodeResult y.1 = decodeResult x.1)
      (decodeLoop c fuel d) (decodeLoop c fuel d1) ∧
    (∀ r, Decode (0xff :: 0xd8 :: 0xff :: m :: r) ≠ .error .outOfFuel →
      Decode (0xff :: 0xd8 :: (g ++ List.replicate j 0xff ++ 0xff :: m :: r)) =
        Decode (0xff :: 0xd8 :: 0xff :: m :: r)) := by
  refine ⟨insert_header d d1 g j m rest hf hb hw hw1 hp0 hp hg hm0 hmf, ?_, ?_⟩
  · exact rel_mono _ _ _ _ (fun a a1 h => ⟨h.1, h.2, decodeResult_same _ _ h.1⟩)
      (insert_loop c d d1 g j m fuel rest hf hb hw hw1 hp0 hp hg hm0 hmf)
  · intro r hr
    refine Decode_insert (0xff :: m :: r) (g ++ List.replicate j 0xff) 0 (Nat.zero_le _) ?_ hr
    intro s s1 fuel1 _ _ w n p b w1 n1 p1 b1
    obtain ⟨q1, q2, q3, q4, q5, q6⟩ :=
      soi_start (0xff :: 0xd8 :: 0xff :: m :: r)
        (0xff :: 0xd8 :: (g ++ List.replicate j 0xff ++ 0xff :: m :: r)) s s1 w n b w1 n1 b1
    exact insert_loop false _ _ g j m fuel1 r q1 q2 q3 q4 (by rw [q5, p])
      (by rw [q5, q6, p, p1]) hg hm0 hmf

set_option maxRecDepth 1000000 in
set_option maxHeartbeats 4000000 in
/-- On the decoders that read `grayTail` with and without the bytes 1, 2, 3,
`0xff`, `0xff` in front, the first part of the round ends at the marker `0xdb`
of the quantization tables, and `Decode` returns the image `grayImage` for
both streams. -/
theorem C18_fill_bytes_and_garbage_witness :
    Rel Header.Same (segmentHeader (decoder.init grayTail))
      (segmentHeader (decoder.init ([1, 2, 3] ++ List.replicate 2 0xff ++ grayTail))) ∧
    (match segmentHeader (decoder.init grayTail) with
      | .ok (.seg _ m n) => some (m, n)
      | _ => none) = some (0xdb, 65) ∧
    Decode (0xff :: 0xd8 :: ([1, 2, 3] ++ List.replicate 2 0xff ++ grayTail)) =
      Decode (0xff :: 0xd8 :: grayTail) ∧
    Decode (0xff :: 0xd8 :: grayTail) = .ok (some grayImage) := by
  have h := C18_fill_bytes_and_garbage false (decoder.init grayTail)
    (decoder.init ([1, 2, 3] ++ List.replicate 2 0xff ++ grayTail)) [1, 2, 3] 2 0xdb 8
    (grayTail.drop 2) rfl rfl
    ⟨by decide!, by decide, by decide⟩ ⟨by decide!, by decide, by decide⟩ (by decide!)
    (by decide!) (by decide) (by decide) (by decide)
  have hd := grayTail_decodes
  have hs : (match segmentHeader (decoder.init grayTail) with
      | .ok (.seg _ m n) => some (m, n)
      | _ => none) = some (0xdb, 65) := by decide!
  have e : 0xff :: 0xdb :: grayTail.drop 2 = grayTail := by decide
  have h3 := h.2.2 (grayTail.drop 2) (by rw [e, hd]; simp)
  rw [e] at h3
  exact ⟨h.1, hs, h3, hd⟩

set_option maxRecDepth 1000000 in
/-- The claim C18 fails in front of a marker that the scan decoder reaches:
`Decode` reports a missing `0xff00` sequence when End Of Image follows the scan
header of `grayHeaders`, and returns an image when the byte `0x3f` is inserted
between the two. -/
theorem C18_garbage_read_as_entropy_data :
    Decode (0xff :: 0xd8 :: (grayHeaders ++ [0xff, 0xd9])) =
      .error (.formatError "missing 0xff00 sequence") ∧
    Decode (0xff :: 0xd8 :: (grayHeaders ++ [0x3f] ++ [0xff, 0xd9])) = .ok (some grayImage) ∧
    Decode (0xff :: 0xd8 :: (grayHeaders ++ [0x3f] ++ [0xff, 0xd9])) ≠
      Decode (0xff :: 0xd8 :: (grayHeaders ++ [0xff, 0xd9])) := by
  have h1 : Decode (0xff :: 0xd8 :: (grayHeaders ++ [0xff, 0xd9])) =
      .error (.formatError "missing 0xff00 sequence") := by decide!
  have e : grayHeaders ++ [0x3f] ++ [0xff, 0xd9] = grayTail := by decide
  have h2 : Decode (0xff :: 0xd8 :: (grayHeaders ++ [0x3f] ++ [0xff, 0xd9])) =
      .ok (some grayImage) := by rw [e]; exact grayTail_decodes
  refine ⟨h1, h2, ?_⟩
  rw [h1, h2]
  simp

end Jpeg

namespace Jpeg

/-! ## Dequantization -/

theorem unzig_inj : ∀ i < 64, ∀ j < 64, unzig.getD i 0 = unzig.getD j 0 → i = j := by decide

set_option maxRecDepth 100000 in
theorem unzig_once :
    ∀ u < 64, ∃ k < 64, unzig.getD k 0 = u ∧ ∀ j < 64, unzig.getD j 0 = u → j = k := by
  decide

theorem unzig_lt : ∀ i < 64, unzig.getD i 0 < 64 := by decide

/-- A loop that updates the entries `f 0`, ..., `f (n - 1)` of a list, each
from its own value, for an `f` without repetitions: every entry is updated at
most once. -/
theorem foldl_update_once (f : Nat → Nat) (g : Nat → Int → Int) (b : List Int) (n : Nat)
    (hinj : ∀ i < n, ∀ j < n, f i = f j → i = j) (hlen : ∀ i < n, f i < b.length) :
    ((List.range n).foldl (fun c z => c.set (f z) (g z (c.getD (f z) 0))) b).length = b.length ∧
    (∀ k < n, ((List.range n).foldl (fun c z => c.set (f z) (g z (c.getD (f z) 0))) b).getD
      (f k) 0 = g k (b.getD (f k) 0)) ∧
    (∀ u, (∀ k < n, f k ≠ u) →
      ((List.range n).foldl (fun c z => c.set (f z) (g z (c.getD (f z) 0))) b).getD u 0 =
        b.getD u 0) := by
  induction n with
  | zero =>
    refine ⟨rfl, ?_, ?_⟩
    · intro k hk; omega
    · intro u _; rfl
  | succ n ih =>
    obtain ⟨i1, i2, i3⟩ := ih (fun i hi j hj => hinj i (by omega) j (by omega))
      (fun i hi => hlen i (by omega))
    rw [List.range_succ, List.foldl_append]
    simp only [List.foldl_cons, List.foldl_nil]
    refine ⟨by rw [List.length_set, i1], ?_, ?_⟩
    · intro k hk
      by_cases hkn : k = n
      · subst hkn
        rw [getD_set_eq _ _ _ _ (by rw [i1]; exact hlen k (by omega))]
        rw [i3 (f k) (fun j hj e => by have := hinj j (by omega) k (by omega) e; omega)]
      · rw [getD_set_ne _ _ _ _ _
          (fun e => hkn (hinj n (by omega) k (by omega) e).symm)]
        exact i2 k (by omega)
    · intro u hu
      rw [getD_set_ne _ _ _ _ _ (hu n (by omega))]
      exact i3 u (fun k hk => hu k (by omega))

theorem dequantize_spec (b qt : block) (hb : b.length = 64) :
    (dequantize b qt).length = 64 ∧
    ∀ k < 64, (dequantize b qt).getD (unzig.getD k 0) 0 =
      mul32 (b.getD (unzig.getD k 0) 0) (qt.getD k 0) := by
  obtain ⟨h1, h2, _⟩ := foldl_update_once (fun z => unzig.getD z 0)
    (fun z x => mul32 x (qt.getD z 0)) b 64 unzig_inj (by rw [hb]; exact unzig_lt)
  exact ⟨by rw [← hb]; exact h1, h2⟩

/-- Method `processDQT` on a segment with one table: the table is stored in
the order of the wire. -/
theorem processDQT_stores (d : decoder) (x : Nat) (b1 : bytes) (tmp : List Nat) (s : Stream)
    (hq : d.quant.length = 4) (hq64 : (d.quant.getD (x &&& 0x0f) []).length = 64)
    (hread : readByte d.bytes = (b1, .ok x)) (htq : x &&& 0x0f ≤ 3)
    (hbytes : ∀ v ∈ tmp, v < 256) :
    (x >>> 4 = 0 → readFull ({ d with bytes := b1 } : decoder).stream 64 = .ok (tmp, s) →
      ∃ d1, processDQT d 65 = .ok d1 ∧
        ∀ k < 64, (d1.quant.getD (x &&& 0x0f) []).getD k 0 = (tmp.getD k 0 : Int)) ∧
    (x >>> 4 = 1 → readFull ({ d with bytes := b1 } : decoder).stream 128 = .ok (tmp, s) →
      ∃ d1, processDQT d 129 = .ok d1 ∧
        ∀ k < 64, (d1.quant.getD (x &&& 0x0f) []).getD k 0 =
          ((tmp.getD (2 * k) 0 * 256 + tmp.getD (2 * k + 1) 0 : Nat) : Int)) := by
  have htq1 : ¬ (x &&& 15 > maxTq) := by simp [maxTq]; omega
  constructor
  · intro hp hr
    refine ⟨{ d with bytes := s.bytes, bits := s.bits, quant := (d.quant.set (x &&& 0x0f)
      (dqtStore8 (d.quant.getD (x &&& 0x0f) []) tmp)) }, ?_, ?_⟩
    · have e : processDQT d 65 = processDQTLoop 1 d 65 := rfl
      rw [e, processDQTLoop]
      simp only [hread, htq1, hp, gt_iff_lt, Nat.lt_irrefl, ↓reduceIte, Nat.zero_lt_succ]
      have h64 : ¬ (65 - 1 < blockSize) := by decide
      simp only [h64, ↓reduceIte]
      have e2 : blockSize = 64 := rfl
      rw [e2, hr]
      simp only [decoder.withStream]
      rw [processDQTLoop]
      simp [dqtFinish]
    · intro k hk
      simp only []
      rw [getD_set_eq _ _ _ _ (by omega)]
      exact foldl_set_range_getD (fun i => ((tmp.getD i 0 : Nat) : Int)) 64 _
        (by omega) k hk 0
  · intro hp hr
    refine ⟨{ d with bytes := s.bytes, bits := s.bits, quant := (d.quant.set (x &&& 0x0f)
      (dqtStore16 (d.quant.getD (x &&& 0x0f) []) tmp)) }, ?_, ?_⟩
    · have e : processDQT d 129 = processDQTLoop 1 d 129 := rfl
      rw [e, processDQTLoop]
      simp only [hread, htq1, hp, gt_iff_lt, Nat.lt_irrefl, ↓reduceIte, Nat.zero_lt_succ]
      have h128 : ¬ (129 - 1 < 2 * blockSize) := by decide
      simp only [h128, ↓reduceIte]
      have e2 : (2 * blockSize) = 128 := rfl
      rw [e2, hr]
      simp only [decoder.withStream]
      rw [processDQTLoop]
      simp [dqtFinish]
    · intro k hk
      simp only []
      rw [getD_set_eq _ _ _ _ (by omega)]
      rw [← shl8_or_eq _ _ (getD_lt_of_forall_mem tmp hbytes (2 * k + 1))]
      exact foldl_set_range_getD
        (fun i => ((tmp.getD (2 * i) 0 <<< 8 ||| tmp.getD (2 * i + 1) 0 : Nat) : Int)) 64 _
        (by omega) k hk 0

/-- C22: the dequantization step of `processSOS` multiplies each coefficient
exactly once. For a block `b` of 64 coefficients in natural order and the table
`qt = d.quant[d.comp[compIndex].tq]` selected by the component: every natural
index is `unzig[k]` for exactly one zig-zag position `k`, and after the step the
coefficient at `unzig[k]` is the `int32` product of its previous value and
`qt[k]`, which is their product whenever that fits an `int32`; the block that
`reconstructBlock` transforms and stores is this dequantized block; and `qt[k]`
is the `k`-th value transmitted in the DQT segment that `processDQT` stored,
for 8-bit and for 16-bit precision. -/
theorem C22_dequantize_each_once (d : decoder) (compIndex : Nat) (b : block)
    (hb : b.length = 64) :
    (∀ u < 64, ∃ k < 64, unzig.getD k 0 = u ∧ ∀ j < 64, unzig.getD j 0 = u → j = k) ∧
    (dequantize b (d.quant.getD (d.comp.getD compIndex component.zero).tq [])).length = 64 ∧
    (∀ k < 64,
      (dequantize b (d.quant.getD (d.comp.getD compIndex component.zero).tq [])).getD
          (unzig.getD k 0) 0 =
        mul32 (b.getD (unzig.getD k 0) 0)
          ((d.quant.getD (d.comp.getD compIndex component.zero).tq []).getD k 0) ∧
      (-2147483648 ≤ b.getD (unzig.getD k 0) 0 *
            (d.quant.getD (d.comp.getD compIndex component.zero).tq []).getD k 0 →
        b.getD (unzig.getD k 0) 0 *
            (d.quant.getD (d.comp.getD compIndex component.zero).tq []).getD k 0 < 2147483648 →
        (dequantize b (d.quant.getD (d.comp.getD compIndex component.zero).tq [])).getD
            (unzig.getD k 0) 0 =
          b.getD (unzig.getD k 0) 0 *
            (d.quant.getD (d.comp.getD compIndex component.zero).tq []).getD k 0)) ∧
    (∀ (bx by_ : Nat) (st : ScanState) (m : Gray), d.nComp = 1 → st.img1 = some m →
      reconstructBlock d compIndex bx by_ b st =
        match storeBlock m.Pix (8 * (by_ * m.Stride + bx)) m.Stride
            (idct (dequantize b (d.quant.getD (d.comp.getD compIndex component.zero).tq []))) with
        | .error e => .error e
        | .ok pix => .ok { st with img1 := some { m with Pix := pix } }) ∧
    (∀ (d0 : decoder) (x : Nat) (b1 : bytes) (tmp : List Nat) (s : Stream),
      d0.quant.length = 4 → (d0.quant.getD (x &&& 0x0f) []).length = 64 →
      readByte d0.bytes = (b1, .ok x) → x &&& 0x0f ≤ 3 → (∀ v ∈ tmp, v < 256) →
      (x >>> 4 = 0 → readFull ({ d0 with bytes := b1 } : decoder).stream 64 = .ok (tmp, s) →
        ∃ d1, processDQT d0 65 = .ok d1 ∧ ∀ k < 64,
          (dequantize b (d1.quant.getD (x &&& 0x0f) [])).getD (unzig.getD k 0) 0 =
            mul32 (b.getD (unzig.getD k 0) 0) (tmp.getD k 0 : Int)) ∧
      (x >>> 4 = 1 → readFull ({ d0 with bytes := b1 } : decoder).stream 128 = .ok (tmp, s) →
        ∃ d1, processDQT d0 129 = .ok d1 ∧ ∀ k < 64,
          (dequantize b (d1.quant.getD (x &&& 0x0f) [])).getD (unzig.getD k 0) 0 =
            mul32 (b.getD (unzig.getD k 0) 0)
              ((tmp.getD (2 * k) 0 * 256 + tmp.getD (2 * k + 1) 0 : Nat) : Int))) := by
  refine ⟨unzig_once, (dequantize_spec b _ hb).1, ?_, ?_, ?_⟩
  · intro k hk
    have h := (dequantize_spec b (d.quant.getD (d.comp.getD compIndex component.zero).tq [])
      hb).2 k hk
    refine ⟨h, fun h1 h2 => ?_⟩
    rw [h, mul32, wrap32_id _ h1 h2]
  · intro bx by_ st m hn hm
    unfold reconstructBlock
    simp only [hn, hm, ↓reduceIte]
  · intro d0 x b1 tmp s hq hq64 hread htq hbytes
    obtain ⟨h8, h16⟩ := processDQT_stores d0 x b1 tmp s hq hq64 hread htq hbytes
    constructor
    · intro hp hr
      obtain ⟨d1, e1, e2⟩ := h8 hp hr
      refine ⟨d1, e1, fun k hk => ?_⟩
      rw [(dequantize_spec b _ hb).2 k hk, e2 k hk]
    · intro hp hr
      obtain ⟨d1, e1, e2⟩ := h16 hp hr
      refine ⟨d1, e1, fun k hk => ?_⟩
      rw [(dequantize_spec b _ hb).2 k hk, e2 k hk]

theorem C22_dequantize_each_once_witness :
    ((List.range 64).map (fun k => (k : Int))).length = 64 ∧
    (dequantize ((List.range 64).map (fun k => (k : Int)))
        (({ decoder.init [] with
            quant := [(List.range 64).map (fun k => (k : Int) + 1)] } : decoder).quant.getD
          (({ decoder.init [] with
              quant := [(List.range 64).map (fun k => (k : Int) + 1)] } : decoder).comp.getD 0
            component.zero).tq [])).getD (unzig.getD 2 0) 0 =
      mul32 (((List.range 64).map (fun k => (k : Int))).getD (unzig.getD 2 0) 0)
        ((({ decoder.init [] with
            quant := [(List.range 64).map (fun k => (k : Int) + 1)] } : decoder).quant.getD
          (({ decoder.init [] with
              quant := [(List.range 64).map (fun k => (k : Int) + 1)] } : decoder).comp.getD 0
            component.zero).tq []).getD 2 0) :=
  ⟨by decide,
    ((C22_dequantize_each_once
      { decoder.init [] with quant := [(List.range 64).map (fun k => (k : Int) + 1)] } 0
      ((List.range 64).map (fun k => (k : Int))) (by decide)).2.2.1 2 (by decide)).1⟩

end Jpeg

namespace Jpeg

/-! ## The shortcut of the horizontal pass -/

theorem row_arith (d : Int) (h1 : -(2 ^ 19) < d) (h2 : d < 2 ^ 19) :
    shl32 d 3 = 8 * d ∧ shr32 (add32 (shl32 d 11) 128) 8 = 8 * d := by
  have p3 : (2 : Int) ^ 3 = 8 := by norm_num
  have p8 : (2 : Int) ^ 8 = 256 := by norm_num
  have p11 : (2 : Int) ^ 11 = 2048 := by norm_num
  have p19 : (2 : Int) ^ 19 = 524288 := by norm_num
  rw [p19] at h1 h2
  have w1 := wrap32_id (d * 8) (by omega) (by omega)
  have w2 := wrap32_id (d * 2048) (by omega) (by omega)
  have w3 := wrap32_id (d * 2048 + 128) (by omega) (by omega)
  refine ⟨?_, ?_⟩
  · rw [shl32, p3, w1]; omega
  · rw [shr32, add32, shl32, p11, w2, w3, p8]
    omega

/-- The general butterfly on a row whose AC entries are zero. -/
theorem idctRowGeneral_dc (src : block) (y8 : Nat) (v : Int)
    (hv : shr32 (add32 (shl32 (src.getD (y8 + 0) 0) 11) 128) 8 = v)
    (h1 : src.getD (y8 + 1) 0 = 0) (h2 : src.getD (y8 + 2) 0 = 0)
    (h3 : src.getD (y8 + 3) 0 = 0) (h4 : src.getD (y8 + 4) 0 = 0)
    (h5 : src.getD (y8 + 5) 0 = 0) (h6 : src.getD (y8 + 6) 0 = 0)
    (h7 : src.getD (y8 + 7) 0 = 0) :
    idctRowGeneral src y8 =
      ((((((((src.set (y8 + 0) v).set (y8 + 1) v).set (y8 + 2) v).set
        (y8 + 3) v).set (y8 + 4) v).set (y8 + 5) v).set (y8 + 6) v).set
        (y8 + 7) v) := by
  unfold idctRowGeneral
  simp only [h1, h2, h3, h4, h5, h6, h7]
  have e0 : add32 (0 : Int) 0 = 0 := by decide
  have m (c : Int) : mul32 c 0 = 0 := by simp [mul32, wrap32]
  have e5 : sub32 (0 : Int) 0 = 0 := by decide
  have e6 : shl32 (0 : Int) 11 = 0 := by decide
  have e7 : add32 (0 : Int) 128 = 128 := by decide
  have e8 : shr32 (128 : Int) 8 = 0 := by decide
  have a0 (p q : Int) : add32 (add32 p q) 0 = add32 p q := by
    unfold add32; rw [Int.add_zero, wrap32_wrap32]
  have s0 (p q : Int) : sub32 (add32 p q) 0 = add32 p q := by
    unfold add32 sub32; rw [Int.sub_zero, wrap32_wrap32]
  simp only [e0, m, e5, e6, e7, e8, a0, s0, hv]

/-- The general butterfly on row `y8` changes no entry of another row. -/
theorem idctRowGeneral_other (src : block) (y8 j : Nat) (hj : j < y8 ∨ y8 + 8 ≤ j) :
    (idctRowGeneral src y8).getD j 0 = src.getD j 0 := by
  unfold idctRowGeneral
  simp only []
  rw [getD_set_ne _ _ _ _ _ (by omega), getD_set_ne _ _ _ _ _ (by omega),
    getD_set_ne _ _ _ _ _ (by omega), getD_set_ne _ _ _ _ _ (by omega),
    getD_set_ne _ _ _ _ _ (by omega), getD_set_ne _ _ _ _ _ (by omega),
    getD_set_ne _ _ _ _ _ (by omega), getD_set_ne _ _ _ _ _ (by omega)]

/-- On a row that takes the shortcut, with `|DC| < 2^19`, the shortcut and the
general butterfly give the same row. -/
theorem idctRow_eq_general (src : block) (y : Nat)
    (h : rowShortcut src y →
      -(2 ^ 19) < src.getD (y * 8 + 0) 0 ∧ src.getD (y * 8 + 0) 0 < 2 ^ 19) :
    idctRow src y = idctRowGeneral src (y * 8) := by
  by_cases hs : rowShortcut src y
  · obtain ⟨h1, h2, h3, h4, h5, h6, h7⟩ := hs
    obtain ⟨a1, a2⟩ := row_arith _ (h ⟨h1, h2, h3, h4, h5, h6, h7⟩).1
      (h ⟨h1, h2, h3, h4, h5, h6, h7⟩).2
    rw [idctRow_dc src y _ a1 h1 h2 h3 h4 h5 h6 h7,
      idctRowGeneral_dc src (y * 8) _ a2 h1 h2 h3 h4 h5 h6 h7]
  · unfold idctRow
    simp only []
    unfold rowShortcut at hs
    rw [if_neg hs]

/-- The horizontal pass up to row `n`, with and without the shortcut. -/
theorem idctRows_upTo (src : block)
    (h : ∀ y < 8, rowShortcut src y →
      -(2 ^ 19) < src.getD (y * 8 + 0) 0 ∧ src.getD (y * 8 + 0) 0 < 2 ^ 19) (n : Nat)
    (hn : n ≤ 8) :
    (List.range n).foldl idctRow src =
        (List.range n).foldl (fun s y => idctRowGeneral s (y * 8)) src ∧
      ∀ j, n * 8 ≤ j →
        ((List.range n).foldl (fun s y => idctRowGeneral s (y * 8)) src).getD j 0 =
          src.getD j 0 := by
  induction n with
  | zero => exact ⟨rfl, fun _ _ => rfl⟩
  | succ n ih =>
    obtain ⟨e1, e2⟩ := ih (by omega)
    rw [List.range_succ, List.foldl_append, List.foldl_append, e1]
    simp only [List.foldl_cons, List.foldl_nil]
    constructor
    · apply idctRow_eq_general
      unfold rowShortcut
      rw [e2 _ (by omega), e2 _ (by omega), e2 _ (by omega), e2 _ (by omega), e2 _ (by omega),
        e2 _ (by omega), e2 _ (by omega), e2 _ (by omega)]
      exact h n (by omega)
    · intro j hj
      rw [idctRowGeneral_other _ _ _ (by omega)]
      exact e2 j (by omega)

/-- C23: a row of a block whose seven AC entries are zero and whose DC entry
satisfies `|DC| < 2^19` gets all eight entries set to `DC << 3 = 8 * DC` by the
horizontal pass of `idct`, the other entries of the block stay as they are, and
the general 8-point butterfly computes exactly the same block for this row; so
on a block whose shortcut rows all have `|DC| < 2^19` the function `idct` has
the same output as without the shortcut. -/
theorem C23_idct_row_shortcut (src : block) (y : Nat) (hlen : src.length = 64) (hy : y < 8)
    (hac : rowShortcut src y)
    (h1 : -(2 ^ 19) < src.getD (y * 8 + 0) 0) (h2 : src.getD (y * 8 + 0) 0 < 2 ^ 19) :
    (∀ i < 8, (idctRow src y).getD (y * 8 + i) 0 = shl32 (src.getD (y * 8 + 0) 0) 3) ∧
    shl32 (src.getD (y * 8 + 0) 0) 3 = 8 * src.getD (y * 8 + 0) 0 ∧
    (∀ j, j < y * 8 ∨ y * 8 + 8 ≤ j → (idctRow src y).getD j 0 = src.getD j 0) ∧
    idctRowGeneral src (y * 8) = idctRow src y ∧
    ((∀ z < 8, rowShortcut src z →
        -(2 ^ 19) < src.getD (z * 8 + 0) 0 ∧ src.getD (z * 8 + 0) 0 < 2 ^ 19) →
      idctRows src = idctRowsGeneral src ∧ idct src = idctGeneral src) := by
  have hg : idctRow src y = idctRowGeneral src (y * 8) :=
    idctRow_eq_general src y (fun _ => ⟨h1, h2⟩)
  obtain ⟨a1, a2, a3, a4, a5, a6, a7⟩ := hac
  have hr := idctRow_dc src y _ rfl a1 a2 a3 a4 a5 a6 a7
  refine ⟨?_, (row_arith _ h1 h2).1, ?_, hg.symm, ?_⟩
  · intro i hi
    rw [hr]
    have hc : i = 0 ∨ i = 1 ∨ i = 2 ∨ i = 3 ∨ i = 4 ∨ i = 5 ∨ i = 6 ∨ i = 7 := by omega
    rcases hc with rfl | rfl | rfl | rfl | rfl | rfl | rfl | rfl
    · rw [getD_set_ne _ _ _ _ _ (by omega), getD_set_ne _ _ _ _ _ (by omega),
        getD_set_ne _ _ _ _ _ (by omega), getD_set_ne _ _ _ _ _ (by omega),
        getD_set_ne _ _ _ _ _ (by omega), getD_set_ne _ _ _ _ _ (by omega),
        getD_set_ne _ _ _ _ _ (by omega), getD_set_eq _ _ _ _ (by omega)]
    · rw [getD_set_ne _ _ _ _ _ (by omega), getD_set_ne _ _ _ _ _ (by omega),
        getD_set_ne _ _ _ _ _ (by omega), getD_set_ne _ _ _ _ _ (by omega),
        getD_set_ne _ _ _ _ _ (by omega), getD_set_ne _ _ _ _ _ (by omega),
        getD_set_eq _ _ _ _ (by simp; omega)]
    · rw [getD_set_ne _ _ _ _ _ (by omega), getD_set_ne _ _ _ _ _ (by omega),
        getD_set_ne _ _ _ _ _ (by omega), getD_set_ne _ _ _ _ _ (by omega),
        getD_set_ne _ _ _ _ _ (by omega),
        getD_set_eq _ _ _ _ (by simp; omega)]
    · rw [getD_set_ne _ _ _ _ _ (by omega), getD_set_ne _ _ _ _ _ (by omega),
        getD_set_ne _ _ _ _ _ (by omega), getD_set_ne _ _ _ _ _ (by omega),
        getD_set_eq _ _ _ _ (by simp; omega)]
    · rw [getD_set_ne _ _ _ _ _ (by omega), getD_set_ne _ _ _ _ _ (by omega),
        getD_set_ne _ _ _ _ _ (by omega),
        getD_set_eq _ _ _ _ (by simp; omega)]
    · rw [getD_set_ne _ _ _ _ _ (by omega), getD_set_ne _ _ _ _ _ (by omega),
        getD_set_eq _ _ _ _ (by simp; omega)]
    · rw [getD_set_ne _ _ _ _ _ (by omega),
        getD_set_eq _ _ _ _ (by simp; omega)]
    · rw [getD_set_eq _ _ _ _ (by simp; omega)]
  · intro j hj
    rw [hg]
    exact idctRowGeneral_other src (y * 8) j hj
  · intro hall
    have e := (idctRows_upTo src hall 8 (by omega)).1
    have e1 : idctRows src = idctRowsGeneral src := e
    refine ⟨e1, ?_⟩
    unfold idct idctGeneral
    rw [e1]

set_option maxRecDepth 100000 in
theorem C23_idct_row_shortcut_witness :
    rowShortcut shortcutBlock 0 ∧
      idctRowGeneral shortcutBlock (0 * 8) = idctRow shortcutBlock 0 ∧
      (idctRow shortcutBlock 0).getD (0 * 8 + 7) 0 = shl32 (shortcutBlock.getD (0 * 8 + 0) 0) 3 ∧
      idct shortcutBlock = idctGeneral shortcutBlock :=
  ⟨by decide,
    (C23_idct_row_shortcut shortcutBlock 0 (by decide) (by decide) (by decide) (by decide)
      (by decide)).2.2.2.1,
    (C23_idct_row_shortcut shortcutBlock 0 (by decide) (by decide) (by decide) (by decide)
      (by decide)).1 7 (by decide),
    ((C23_idct_row_shortcut shortcutBlock 0 (by decide) (by decide) (by decide) (by decide)
      (by decide)).2.2.2.2 (by decide)).2⟩

end Jpeg

namespace Jpeg

/-! ## The bit reader on several bytes -/

/-- One round of the loop of `ensureNBits` on a stream whose next byte of
entropy-coded data is `c`. -/
theorem ensureNBitsLoop_step (fuel : Nat) (s : Stream) (n : Int) (c : Nat) (rest : List Nat)
    (hok : s.OK) (h24 : s.bits.n ≤ 24)
    (hh : stuffedHead s.bytes.pending = some (c, rest)) :
    ∃ s1, s1.OK ∧ s1.bits.n = s.bits.n + 8 ∧ unreadBits s1 = unreadBits s ∧
      s1.bytes.pending = rest ∧
      ensureNBitsLoop fuel s n =
        if s1.bits.n ≥ n then (s1, none)
        else
          match fuel with
          | 0 => (s1, some .outOfFuel)
          | fuel + 1 => ensureNBitsLoop fuel s1 n := by
  obtain ⟨hwf, ⟨b1, b2, b3, b4⟩, hbytes⟩ := hok
  obtain ⟨bb, r, e1, e2, e3, e4, e5, e6⟩ := readByteStuffedByte_spec s.bytes hwf _ rfl
  obtain ⟨rfl, e7⟩ := e5 c rest hh
  obtain ⟨hc, hrest⟩ := stuffedHead_mem _ _ _ hh hbytes
  refine ⟨{ bytes := bb
            bits :=
              { a := (s.bits.a <<< 8 ||| c) % 4294967296
                n := s.bits.n + 8
                m := if s.bits.m = 0 then 1 <<< 7 else (s.bits.m <<< 8) % 4294967296 } },
    ⟨e2, ⟨?_, ?_, ?_, ?_⟩, ?_⟩, rfl, ?_, e7, ?_⟩
  · simp only []; omega
  · simp only []; omega
  · simp only []; exact Nat.mod_lt _ (by norm_num)
  · simp only []
    by_cases hz : s.bits.n = 0
    · have hm : s.bits.m = 0 := by rw [b4, if_pos hz]
      rw [if_pos hm, hz]
      simp
    · have hm : s.bits.m = 2 ^ (s.bits.n.toNat - 1) := by rw [b4, if_neg hz]
      have hm0 : s.bits.m ≠ 0 := by rw [hm]; exact Nat.pos_iff_ne_zero.mp (Nat.two_pow_pos _)
      rw [if_neg hm0, if_neg (by omega), hm, Nat.shiftLeft_eq, ← Nat.pow_add]
      have : s.bits.n.toNat - 1 + 8 = (s.bits.n + 8).toNat - 1 := by omega
      rw [this]
      apply Nat.mod_eq_of_lt
      rw [show (4294967296 : Nat) = 2 ^ 32 from rfl]
      exact Nat.pow_lt_pow_right (by omega) (by omega)
  · simp only []; rw [e7]; exact hrest
  · simp only [unreadBits]
    rw [e7, entropyBits_stuffedHead s.bytes.pending, hh]
    simp only []
    have : (s.bits.n + 8).toNat = s.bits.n.toNat + 8 := by omega
    rw [this, codeBits_push _ _ _ (by omega) hc, List.append_assoc]
  · rw [ensureNBitsLoop, e1]

theorem unreadBits_head (s : Stream) (hok : s.OK) (n : Int) (h1 : s.bits.n < n)
    (hlen : n ≤ (unreadBits s).length) :
    ∃ c rest, stuffedHead s.bytes.pending = some (c, rest) := by
  have hne : stuffedHead s.bytes.pending ≠ none := by
    intro hnone
    simp only [unreadBits, List.length_append, codeBits_length] at hlen
    rw [entropyBits_stuffedHead, hnone] at hlen
    have := hok.2.1.1
    simp at hlen
    omega
  obtain ⟨⟨c, rest⟩, hh⟩ := Option.ne_none_iff_exists'.mp hne
  exact ⟨c, rest, hh⟩

/-- The loop of `ensureNBits` succeeds when the entropy-coded data has the
bits asked for. -/
theorem ensureNBitsLoop_ok (n : Int) (hn : n ≤ 25) : ∀ (fuel : Nat) (s : Stream), s.OK →
    s.bits.n < n → n ≤ s.bits.n + 8 * (fuel + 1) → n ≤ (unreadBits s).length →
    ∃ s1, ensureNBitsLoop fuel s n = (s1, none) ∧ s1.OK ∧ n ≤ s1.bits.n ∧ s1.bits.n < n + 8 ∧
      unreadBits s1 = unreadBits s := by
  intro fuel
  induction fuel with
  | zero =>
    intro s hok h1 h2 hlen
    obtain ⟨c, rest, hh⟩ := unreadBits_head s hok n h1 hlen
    obtain ⟨s1, o1, e1, e2, -, e4⟩ := ensureNBitsLoop_step 0 s n c rest hok (by omega) hh
    rw [e4, if_pos (by omega)]
    exact ⟨s1, rfl, o1, by omega, by omega, e2⟩
  | succ fuel ih =>
    intro s hok h1 h2 hlen
    obtain ⟨c, rest, hh⟩ := unreadBits_head s hok n h1 hlen
    obtain ⟨s1, o1, e1, e2, -, e4⟩ := ensureNBitsLoop_step (fuel + 1) s n c rest hok (by omega) hh
    rw [e4]
    by_cases hge : s1.bits.n ≥ n
    · rw [if_pos hge]
      exact ⟨s1, rfl, o1, by omega, by omega, e2⟩
    · rw [if_neg hge]
      obtain ⟨s2, f1, f2, f3, f4, f5⟩ := ih s1 o1 (by omega) (by push_cast at h2 ⊢; omega)
        (by rw [e2]; exact hlen)
      exact ⟨s2, f1, f2, f3, f4, by rw [f5, e2]⟩

/-- Method `ensureNBits` succeeds when the entropy-coded data has the bits
asked for. -/
theorem ensureNBits_many (s : Stream) (n : Int) (hok : s.OK) (hn : n ≤ 25)
    (h1 : s.bits.n < n) (hlen : n ≤ (unreadBits s).length) :
    ∃ s1, ensureNBits s n = (s1, none) ∧ s1.OK ∧ n ≤ s1.bits.n ∧ s1.bits.n < n + 8 ∧
      unreadBits s1 = unreadBits s := by
  unfold ensureNBits
  have := hok.2.1.1
  exact ensureNBitsLoop_ok n hn _ s hok h1 (by push_cast; omega) hlen

theorem land_natCast (a b : Nat) : Int.land (a : Int) (b : Int) = ((a &&& b : Nat) : Int) := rfl

theorem land_negSucc (m b : Nat) :
    Int.land (Int.negSucc m) (b : Int) = ((Nat.ldiff b m : Nat) : Int) := rfl

theorem land_mask (A t : Nat) (hA : A < 2 ^ 32) (ht : t ≤ 32) :
    Int.land (ofU32 A) (((2 ^ t - 1 : Nat)) : Int) = ((A % 2 ^ t : Nat) : Int) := by
  unfold ofU32 wrap32
  by_cases h : A < 2 ^ 31
  · have e : ((A : Int) + 2147483648) % 4294967296 - 2147483648 = ((A : Nat) : Int) := by omega
    rw [e, land_natCast, Nat.and_pow_two_sub_one_eq_mod]
  · obtain ⟨m, hm⟩ : ∃ m : Nat, m = 2 ^ 32 - (A + 1) := ⟨_, rfl⟩
    have e : ((A : Int) + 2147483648) % 4294967296 - 2147483648 = Int.negSucc m := by
      rw [Int.negSucc_eq]
      omega
    rw [e, land_negSucc]
    refine congrArg Nat.cast ?_
    apply Nat.eq_of_testBit_eq
    intro i
    rw [Nat.testBit_ldiff, hm, Nat.testBit_two_pow_sub_succ hA, Nat.testBit_two_pow_sub_one,
      Nat.testBit_mod_two_pow]
    by_cases hi : i < 32
    · simp [hi]
    · have : A.testBit i = false := Nat.testBit_lt_two_pow (Nat.lt_of_lt_of_le hA
        (Nat.pow_le_pow_right (by omega) (by omega)))
      simp [hi, this]
      omega

theorem ensure_or_skip (s : Stream) (n : Int) (hok : s.OK) (hn : n ≤ 25)
    (hlen : n ≤ (unreadBits s).length) :
    ∃ s1, (if s.bits.n < n then ensureNBits s n else (s, none)) = (s1, none) ∧ s1.OK ∧
      n ≤ s1.bits.n ∧ (s.bits.n < n → s1.bits.n < n + 8) ∧ (¬ s.bits.n < n → s1 = s) ∧
      unreadBits s1 = unreadBits s := by
  by_cases h : s.bits.n < n
  · rw [if_pos h]
    obtain ⟨s1, e1, e2, e3, e4, e5⟩ := ensureNBits_many s n hok hn h hlen
    exact ⟨s1, e1, e2, e3, fun _ => e4, fun h1 => absurd h h1, e5⟩
  · rw [if_neg h]
    exact ⟨s, rfl, hok, by omega, fun h1 => absurd h1 h, fun _ => rfl, rfl⟩

/-- Taking `t` bits off the accumulator. -/
theorem takeBits (s1 : Stream) (t v : Nat) (rest : List Bool) (hok : s1.OK)
    (hge : (t : Int) ≤ s1.bits.n) (hv : v < 2 ^ t)
    (hb : unreadBits s1 = codeBits v t ++ rest) :
    (s1.bits.a >>> (s1.bits.n - t).toNat) % 2 ^ t = v ∧
      ({ s1 with bits := { a := s1.bits.a, m := s1.bits.m >>> t,
                           n := s1.bits.n - t } } : Stream).OK ∧
      unreadBits ({ s1 with bits := { a := s1.bits.a, m := s1.bits.m >>> t,
                                      n := s1.bits.n - t } } : Stream) = rest := by
  obtain ⟨hwf, ⟨b1, b2, b3, b4⟩, hbytes⟩ := hok
  obtain ⟨k, hk⟩ : ∃ k : Nat, s1.bits.n.toNat = t + k := ⟨(s1.bits.n - t).toNat, by omega⟩
  have hk2 : (s1.bits.n - t).toNat = k := by omega
  simp only [unreadBits] at hb ⊢
  rw [hk, codeBits_add, List.append_assoc] at hb
  obtain ⟨hb1, hb2⟩ := List.append_inj hb (by rw [codeBits_length, codeBits_length])
  refine ⟨?_, ⟨hwf, ⟨?_, ?_, b3, ?_⟩, hbytes⟩, ?_⟩
  · rw [hk2, codeBits_inj _ _ _ hb1]
    exact Nat.mod_eq_of_lt hv
  · simp only []; omega
  · simp only []; omega
  · simp only [hk2]
    by_cases hk0 : k = 0
    · subst hk0
      rw [if_pos (by omega), b4]
      by_cases hz : s1.bits.n = 0
      · rw [if_pos hz]; simp
      · rw [if_neg hz, Nat.shiftRight_eq_div_pow]
        have : s1.bits.n.toNat - 1 < t := by omega
        exact Nat.div_eq_of_lt (Nat.pow_lt_pow_right (by omega) this)
    · rw [if_neg (by omega), b4, if_neg (by omega), Nat.shiftRight_eq_div_pow]
      have e : s1.bits.n.toNat - 1 = (k - 1) + t := by omega
      rw [e, Nat.pow_add, Nat.mul_div_cancel _ (Nat.two_pow_pos t)]
  · simp only [hk2]
    exact hb2

/-- Method `receiveExtend` on a stream that holds the `t` bits of `v`. -/
theorem receiveExtend_spec (s : Stream) (t v : Nat) (rest : List Bool) (hok : s.OK)
    (ht1 : 1 ≤ t) (ht : t ≤ 16) (hv : v < 2 ^ t)
    (hbits : unreadBits s = codeBits v t ++ rest) :
    ∃ s1, receiveExtend s t =
        .ok ((if 2 ^ (t - 1) ≤ v then (v : Int) else (v : Int) - 2 ^ t + 1), s1) ∧
      s1.OK ∧ unreadBits s1 = rest := by
  have hlen : ((t : Nat) : Int) ≤ (unreadBits s).length := by
    rw [hbits, List.length_append, codeBits_length]
    push_cast
    omega
  obtain ⟨s1, e1, o1, ge1, -, -, u1⟩ := ensure_or_skip s t hok (by omega) hlen
  obtain ⟨a1, a2, a3⟩ := takeBits s1 t v rest o1 ge1 hv (by rw [u1]; exact hbits)
  obtain ⟨q, hq⟩ : ∃ q : Nat, q = 2 ^ (t - 1) := ⟨_, rfl⟩
  have hq2 : 2 ^ t = 2 * q := by
    rw [hq, ← Nat.pow_succ']
    congr 1
    omega
  have hq1 : 1 ≤ q := by rw [hq]; exact Nat.two_pow_pos _
  have hq16 : q ≤ 32768 := by
    rw [hq, show (32768 : Nat) = 2 ^ 15 from rfl]
    exact Nat.pow_le_pow_right (by omega) (by omega)
  have hpi : (2 : Int) ^ t = 2 * (q : Int) := by
    have : ((2 ^ t : Nat) : Int) = ((2 * q : Nat) : Int) := by rw [hq2]
    push_cast at this
    exact this
  have := o1.2.1.1
  have := o1.2.1.2.1
  have hn1 : wrap32 (s1.bits.n - (t : Int)) = s1.bits.n - t := wrap32_id _ (by omega) (by omega)
  have hsh : shl32 1 t = 2 * (q : Int) := by
    rw [shl32, Int.one_mul, hpi]
    exact wrap32_id _ (by omega) (by omega)
  have hmask : wrap32 (2 * (q : Int) - 1) = ((2 ^ t - 1 : Nat) : Int) := by
    rewrite [hq2, wrap32_id _ (by omega) (by omega)]
    omega
  have hneg : wrap32 (shl32 (-1) t + 1) = - (2 * (q : Int)) + 1 := by
    rw [shl32, hpi, wrap32_id (-1 * (2 * (q : Int))) (by omega) (by omega),
      wrap32_id _ (by omega) (by omega)]
    omega
  have hshr : shr32 (2 * (q : Int)) 1 = q := by
    rw [shr32]
    omega
  have hx : Int.land (ofU32 (s1.bits.a >>> ((s1.bits.n - (t : Int)) % 256).toNat))
      (wrap32 (2 * (q : Int) - 1)) = (v : Int) := by
    have e : ((s1.bits.n - (t : Int)) % 256).toNat = (s1.bits.n - t).toNat := by omega
    rw [e, hmask, land_mask _ _ _ (by omega), a1]
    rw [Nat.shiftRight_eq_div_pow]
    exact Nat.lt_of_le_of_lt (Nat.div_le_self _ _) o1.2.1.2.2.1
  refine ⟨{ s1 with bits := { a := s1.bits.a, m := s1.bits.m >>> t, n := s1.bits.n - t } },
    ?_, a2, a3⟩
  unfold receiveExtend
  simp only [e1, hn1, hsh, hx, hneg, hshr]
  rw [hq2] at hv
  clear hx
  by_cases hc : q ≤ v
  · have h1 : ¬ ((v : Int) < q) := by omega
    have h2 : 2 ^ (t - 1) ≤ v := hq ▸ hc
    rewrite [if_neg h1, if_pos h2]
    rfl
  · have h1 : (v : Int) < q := by omega
    have h2 : ¬ 2 ^ (t - 1) ≤ v := hq ▸ hc
    have h3 : wrap32 ((v : Int) + (-(2 * (q : Int)) + 1)) = (v : Int) - 2 ^ t + 1 := by
      rewrite [hpi, wrap32_id _ (by omega) (by omega)]
      omega
    rewrite [if_pos h1, if_neg h2, h3]
    rfl

/-- C21: for a category `t` in 1..16 and a stream whose unread bits start with
the `t` bits of the raw value `v` (most significant bit first), `receiveExtend`
returns `v` when `v >= 2^(t-1)` and `v - 2^t + 1` otherwise, and consumes
exactly these `t` bits; the result lies in `[-(2^t)+1, -(2^(t-1))]` or in
`[2^(t-1), 2^t - 1]`; a call that reads another raw value returns another
result; and for `t = 0` it returns 0 and leaves the stream as it is. -/
theorem C21_receiveExtend (s : Stream) (t v : Nat) (rest : List Bool) (hok : s.OK)
    (ht1 : 1 ≤ t) (ht : t ≤ 16) (hv : v < 2 ^ t)
    (hbits : unreadBits s = codeBits v t ++ rest) :
    (∃ s1, receiveExtend s t =
        .ok ((if 2 ^ (t - 1) ≤ v then (v : Int) else (v : Int) - 2 ^ t + 1), s1) ∧
      s1.OK ∧ unreadBits s1 = rest) ∧
    ((-(2 ^ t) + 1 ≤ (if 2 ^ (t - 1) ≤ v then (v : Int) else (v : Int) - 2 ^ t + 1) ∧
        (if 2 ^ (t - 1) ≤ v then (v : Int) else (v : Int) - 2 ^ t + 1) ≤ -(2 ^ (t - 1))) ∨
      (2 ^ (t - 1) ≤ (if 2 ^ (t - 1) ≤ v then (v : Int) else (v : Int) - 2 ^ t + 1) ∧
        (if 2 ^ (t - 1) ≤ v then (v : Int) else (v : Int) - 2 ^ t + 1) ≤ 2 ^ t - 1)) ∧
    (∀ (s0 : Stream) (v0 : Nat) (rest0 : List Bool), s0.OK → v0 < 2 ^ t →
      unreadBits s0 = codeBits v0 t ++ rest0 → v0 ≠ v →
      ∃ x s1, receiveExtend s0 t = .ok (x, s1) ∧
        x ≠ (if 2 ^ (t - 1) ≤ v then (v : Int) else (v : Int) - 2 ^ t + 1)) ∧
    receiveExtend s 0 = .ok (0, s) := by
  obtain ⟨q, hq⟩ : ∃ q : Nat, q = 2 ^ (t - 1) := ⟨_, rfl⟩
  have hq2 : 2 ^ t = 2 * q := by
    rw [hq, ← Nat.pow_succ']
    congr 1
    omega
  have hq1 : 1 ≤ q := by rw [hq]; exact Nat.two_pow_pos _
  have hpi : (2 : Int) ^ t = 2 * (q : Int) := by
    have : ((2 ^ t : Nat) : Int) = ((2 * q : Nat) : Int) := by rw [hq2]
    push_cast at this
    exact this
  have hpq : (2 : Int) ^ (t - 1) = (q : Int) := by
    have : ((2 ^ (t - 1) : Nat) : Int) = ((q : Nat) : Int) := by rw [hq]
    push_cast at this
    exact this
  refine ⟨receiveExtend_spec s t v rest hok ht1 ht hv hbits, ?_, ?_, receiveExtend_zero s hok⟩
  · rw [hpi, hpq, ← hq]
    rw [hq2] at hv
    by_cases hc : q ≤ v
    · rw [if_pos hc]
      right
      omega
    · rw [if_neg hc]
      left
      omega
  · intro s0 v0 rest0 hok0 hv0 hb0 hne
    obtain ⟨s1, e1, -, -⟩ := receiveExtend_spec s0 t v0 rest0 hok0 ht1 ht hv0 hb0
    refine ⟨_, s1, e1, ?_⟩
    rw [hpi, ← hq]
    rw [hq2] at hv hv0
    by_cases hc : q ≤ v <;> by_cases hc0 : q ≤ v0
    · rw [if_pos hc, if_pos hc0]; omega
    · rw [if_pos hc, if_neg hc0]; omega
    · rw [if_neg hc, if_pos hc0]; omega
    · rw [if_neg hc, if_neg hc0]; omega

set_option maxRecDepth 1000000 in
theorem C21_receiveExtend_witness :
    ∃ s1, receiveExtend extendStream 3 =
        .ok ((if 2 ^ (3 - 1) ≤ 2 then ((2 : Nat) : Int) else ((2 : Nat) : Int) - 2 ^ 3 + 1), s1) ∧
      s1.OK ∧ unreadBits s1 = (unreadBits extendStream).drop 3 :=
  (C21_receiveExtend extendStream 3 2 ((unreadBits extendStream).drop 3)
    ⟨⟨by decide!, by decide, by decide⟩, ⟨by decide, by decide, by decide, by decide⟩,
      by decide!⟩
    (by decide) (by decide) (by decide) (by decide!)).1

end Jpeg

namespace Jpeg

/-! ## The invariant of the bit accumulator -/

/-- The invariant in the form the proofs use, with the bound `k` on `n`. -/
theorem inv_iff (b : bits) (k : Int) :
    ((0 < b.n → b.m = 1 <<< (b.n.toNat - 1)) ∧ (b.n = 0 → b.m = 0) ∧ 0 ≤ b.n ∧ b.n ≤ k) ↔
      (0 ≤ b.n ∧ b.n ≤ k ∧ b.m = if b.n = 0 then 0 else 2 ^ (b.n.toNat - 1)) := by
  constructor
  · rintro ⟨h1, h2, h3, h4⟩
    refine ⟨h3, h4, ?_⟩
    by_cases hz : b.n = 0
    · rw [if_pos hz]; exact h2 hz
    · rw [if_neg hz, h1 (by omega), Nat.shiftLeft_eq, Nat.one_mul]
  · rintro ⟨h3, h4, h5⟩
    refine ⟨fun h => ?_, fun h => ?_, h3, h4⟩
    · rw [h5, if_neg (by omega), Nat.shiftLeft_eq, Nat.one_mul]
    · rw [h5, if_pos h]

/-- Shifting the mask right by `k` when `k` bits are taken. -/
theorem mask_shift (n k : Nat) (hk : k ≤ n) :
    (if (n : Int) = 0 then 0 else 2 ^ (n - 1)) >>> k =
      if ((n : Int) - k) = 0 then 0 else 2 ^ (n - k - 1) := by
  by_cases hn : n = 0
  · subst hn
    have : k = 0 := by omega
    subst this
    simp
  · rw [if_neg (by omega), Nat.shiftRight_eq_div_pow]
    by_cases he : k = n
    · subst he
      rw [if_pos (by omega)]
      exact Nat.div_eq_of_lt (Nat.pow_lt_pow_right (by omega) (by omega))
    · rw [if_neg (by omega)]
      have e : n - 1 = (n - k - 1) + k := by omega
      rw [e, Nat.pow_add, Nat.mul_div_cancel _ (Nat.two_pow_pos k)]

/-- One byte more in the accumulator. -/
theorem mask_push (n : Int) (m : Nat) (h0 : 0 ≤ n) (h24 : n ≤ 24)
    (hm : m = if n = 0 then 0 else 2 ^ (n.toNat - 1)) :
    (if m = 0 then 1 <<< 7 else (m <<< 8) % 4294967296) =
      if n + 8 = 0 then 0 else 2 ^ ((n + 8).toNat - 1) := by
  by_cases hz : n = 0
  · have hm0 : m = 0 := by rw [hm, if_pos hz]
    rw [if_pos hm0, hz]
    simp
  · have hm1 : m = 2 ^ (n.toNat - 1) := by rw [hm, if_neg hz]
    have hm0 : m ≠ 0 := by rw [hm1]; exact Nat.pos_iff_ne_zero.mp (Nat.two_pow_pos _)
    rw [if_neg hm0, if_neg (by omega), hm1, Nat.shiftLeft_eq, ← Nat.pow_add]
    have : n.toNat - 1 + 8 = (n + 8).toNat - 1 := by omega
    rw [this]
    apply Nat.mod_eq_of_lt
    rw [show (4294967296 : Nat) = 2 ^ 32 from rfl]
    exact Nat.pow_lt_pow_right (by omega) (by omega)

/-- The loop of `ensureNBits` keeps the mask in step with the bit count, also
when it fails. -/
theorem ensureNBitsLoop_inv (n : Int) (hn : n ≤ 25) : ∀ (fuel : Nat) (s s1 : Stream)
    (r : Option Err), 0 ≤ s.bits.n → s.bits.n < n →
    s.bits.m = (if s.bits.n = 0 then 0 else 2 ^ (s.bits.n.toNat - 1)) →
    ensureNBitsLoop fuel s n = (s1, r) →
    0 ≤ s1.bits.n ∧ s1.bits.n < n + 8 ∧
      s1.bits.m = (if s1.bits.n = 0 then 0 else 2 ^ (s1.bits.n.toNat - 1)) ∧
      (r = none → n ≤ s1.bits.n) ∧ (r ≠ none → s1.bits.n < n ∨ r = some .outOfFuel) := by
  intro fuel
  induction fuel with
  | zero =>
    intro s s1 r h0 h1 hm he
    rw [ensureNBitsLoop] at he
    rcases hrd : readByteStuffedByte s.bytes with ⟨b1, e | c⟩
    · rw [hrd] at he
      simp only [Prod.mk.injEq] at he
      obtain ⟨rfl, rfl⟩ := he
      exact ⟨h0, by simp only []; omega, hm, by simp, fun _ => Or.inl h1⟩
    · rw [hrd] at he
      simp only [] at he
      by_cases hge : s.bits.n + 8 ≥ n
      · rw [if_pos hge] at he
        simp only [Prod.mk.injEq] at he
        obtain ⟨rfl, rfl⟩ := he
        exact ⟨by simp only []; omega, by simp only []; omega,
          mask_push _ _ h0 (by omega) hm, fun _ => hge, by simp⟩
      · rw [if_neg hge] at he
        simp only [Prod.mk.injEq] at he
        obtain ⟨rfl, rfl⟩ := he
        exact ⟨by simp only []; omega, by simp only []; omega,
          mask_push _ _ h0 (by omega) hm, by simp, fun _ => Or.inr rfl⟩
  | succ fuel ih =>
    intro s s1 r h0 h1 hm he
    rw [ensureNBitsLoop] at he
    rcases hrd : readByteStuffedByte s.bytes with ⟨b1, e | c⟩
    · rw [hrd] at he
      simp only [Prod.mk.injEq] at he
      obtain ⟨rfl, rfl⟩ := he
      exact ⟨h0, by simp only []; omega, hm, by simp, fun _ => Or.inl h1⟩
    · rw [hrd] at he
      simp only [] at he
      by_cases hge : s.bits.n + 8 ≥ n
      · rw [if_pos hge] at he
        simp only [Prod.mk.injEq] at he
        obtain ⟨rfl, rfl⟩ := he
        exact ⟨by simp only []; omega, by simp only []; omega,
          mask_push _ _ h0 (by omega) hm, fun _ => hge, by simp⟩
      · rw [if_neg hge] at he
        exact ih _ s1 r (by simp only []; omega) (by simp only []; omega)
          (mask_push _ _ h0 (by omega) hm) he

/-- The guarded call `if d.bits.n < n { d.ensureNBits(n) }` that returns
without error. -/
theorem ensure_guard_inv (s s1 : Stream) (n : Int) (hn : n ≤ 25) (h0 : 0 ≤ s.bits.n)
    (h23 : s.bits.n ≤ 23)
    (hm : s.bits.m = if s.bits.n = 0 then 0 else 2 ^ (s.bits.n.toNat - 1))
    (he : (if s.bits.n < n then ensureNBits s n else (s, none)) = (s1, none)) :
    0 ≤ s1.bits.n ∧ n ≤ s1.bits.n ∧ s1.bits.n ≤ max 23 (n + 7) ∧
      s1.bits.m = if s1.bits.n = 0 then 0 else 2 ^ (s1.bits.n.toNat - 1) := by
  by_cases h : s.bits.n < n
  · rw [if_pos h] at he
    obtain ⟨a1, a2, a3, a4, -⟩ := ensureNBitsLoop_inv n hn _ s s1 none h0 h hm he
    exact ⟨a1, a4 rfl, by omega, a3⟩
  · rw [if_neg h] at he
    simp only [Prod.mk.injEq, and_true] at he
    subst he
    exact ⟨h0, by omega, by omega, hm⟩

/-- Taking `k` bits that the accumulator holds. -/
theorem take_inv (b : bits) (k : Nat) (h0 : 0 ≤ b.n) (hk : (k : Int) ≤ b.n) (h32 : b.n ≤ 32)
    (hm : b.m = if b.n = 0 then 0 else 2 ^ (b.n.toNat - 1)) :
    wrap32 (b.n - (k : Int)) = b.n - k ∧
      b.m >>> k = if b.n - (k : Int) = 0 then 0 else 2 ^ ((b.n - (k : Int)).toNat - 1) := by
  refine ⟨wrap32_id _ (by omega) (by omega), ?_⟩
  obtain ⟨n, hn⟩ : ∃ n : Nat, b.n = (n : Int) := ⟨b.n.toNat, by omega⟩
  have e1 : ((n : Int) - (k : Int)).toNat = n - k := by omega
  rw [hm, hn, e1, Int.toNat_ofNat]
  exact mask_shift n k (by omega)

theorem ensureNBits_inv (s s1 : Stream) (n : Int) (hi : s.bits.Inv) (h1 : s.bits.n < n)
    (hn : n ≤ 16) (he : ensureNBits s n = (s1, none)) : s1.bits.Inv ∧ n ≤ s1.bits.n := by
  obtain ⟨i1, i2, i3⟩ := (inv_iff s.bits 23).mp hi
  obtain ⟨a1, a2, a3, a4, -⟩ := ensureNBitsLoop_inv n (by omega) _ s s1 none i1 h1 i3 he
  exact ⟨(inv_iff s1.bits 23).mpr ⟨a1, by omega, a3⟩, a4 rfl⟩

theorem decodeBit_inv (s s1 : Stream) (b : Bool) (hi : s.bits.Inv)
    (he : decodeBit s = .ok (b, s1)) : s1.bits.Inv := by
  obtain ⟨i1, i2, i3⟩ := (inv_iff s.bits 23).mp hi
  unfold decodeBit at he
  have hg : (if s.bits.n = 0 then ensureNBits s 1 else (s, none)) =
      (if s.bits.n < 1 then ensureNBits s 1 else (s, none)) := by
    by_cases hz : s.bits.n = 0
    · rw [if_pos hz, if_pos (by omega)]
    · rw [if_neg hz, if_neg (by omega)]
  rw [hg] at he
  rcases hr : (if s.bits.n < 1 then ensureNBits s 1 else (s, none)) with ⟨s2, _ | e⟩
  · rw [hr] at he
    simp only [Except.ok.injEq, Prod.mk.injEq] at he
    obtain ⟨-, rfl⟩ := he
    obtain ⟨a1, a2, a3, a4⟩ := ensure_guard_inv s s2 1 (by omega) i1 i2 i3 hr
    obtain ⟨t1, t2⟩ := take_inv s2.bits 1 a1 (by omega) (by omega) a4
    simp only [Nat.cast_one] at t1 t2
    apply (inv_iff _ 23).mpr
    simp only [t1, t2]
    exact ⟨by omega, by omega, trivial⟩
  · rw [hr] at he
    simp at he

theorem decodeBits_inv (s s1 : Stream) (n : Int) (r : Nat) (hi : s.bits.Inv) (h0 : 0 ≤ n)
    (hn : n ≤ 25) (he : decodeBits s n = .ok (r, s1)) : s1.bits.Inv := by
  obtain ⟨i1, i2, i3⟩ := (inv_iff s.bits 23).mp hi
  unfold decodeBits at he
  rcases hr : (if s.bits.n < n then ensureNBits s n else (s, none)) with ⟨s2, _ | e⟩
  · rw [hr] at he
    simp only [Except.ok.injEq, Prod.mk.injEq] at he
    obtain ⟨-, rfl⟩ := he
    obtain ⟨a1, a2, a3, a4⟩ := ensure_guard_inv s s2 n hn i1 i2 i3 hr
    obtain ⟨k, rfl⟩ : ∃ k : Nat, n = (k : Int) := ⟨n.toNat, by omega⟩
    obtain ⟨t1, t2⟩ := take_inv s2.bits k a1 a2 (by omega) a4
    have e : toU32 (k : Int) = k := by
      unfold toU32
      omega
    apply (inv_iff _ 23).mpr
    simp only [t1, t2, e]
    exact ⟨by omega, by omega, trivial⟩
  · rw [hr] at he
    simp at he

theorem receiveExtend_inv (s s1 : Stream) (t : Nat) (x : Int) (hi : s.bits.Inv) (ht : t ≤ 16)
    (he : receiveExtend s t = .ok (x, s1)) : s1.bits.Inv := by
  obtain ⟨i1, i2, i3⟩ := (inv_iff s.bits 23).mp hi
  unfold receiveExtend at he
  rcases hr : (if s.bits.n < (t : Int) then ensureNBits s t else (s, none)) with ⟨s2, _ | e⟩
  · rw [hr] at he
    simp only [Except.ok.injEq, Prod.mk.injEq] at he
    obtain ⟨-, rfl⟩ := he
    obtain ⟨a1, a2, a3, a4⟩ := ensure_guard_inv s s2 t (by omega) i1 i2 i3 hr
    obtain ⟨t1, t2⟩ := take_inv s2.bits t a1 a2 (by omega) a4
    apply (inv_iff _ 23).mpr
    simp only [t1, t2]
    exact ⟨by omega, by omega, trivial⟩
  · rw [hr] at he
    simp at he

theorem unread_inv (s : Stream) (hi : s.bits.Inv) : (unreadByteStuffedByte s).bits.Inv := by
  obtain ⟨i1, i2, i3⟩ := (inv_iff s.bits 23).mp hi
  unfold unreadByteStuffedByte
  simp only []
  by_cases h8 : s.bits.n ≥ 8
  · rw [if_pos h8]
    obtain ⟨-, t2⟩ := take_inv s.bits 8 i1 (by omega) (by omega) i3
    simp only [Nat.cast_ofNat] at t2
    apply (inv_iff _ 23).mpr
    simp only [t2]
    exact ⟨by omega, by omega, trivial⟩
  · rw [if_neg h8]
    exact hi

/-- The loop at label `slowPath` keeps the invariant. -/
theorem slowPath_inv (h : huffman) : ∀ (k i : Nat) (code : Int) (s s1 : Stream) (v : Nat),
    s.bits.Inv → slowPath h k i code s = .ok (v, s1) → s1.bits.Inv := by
  intro k
  induction k with
  | zero =>
    intro i code s s1 v _ he
    simp [slowPath] at he
  | succ k ih =>
    intro i code s s1 v hi he
    obtain ⟨i1, i2, i3⟩ := (inv_iff s.bits 23).mp hi
    rw [slowPath] at he
    have hg : (if s.bits.n = 0 then ensureNBits s 1 else (s, none)) =
        (if s.bits.n < 1 then ensureNBits s 1 else (s, none)) := by
      by_cases hz : s.bits.n = 0
      · rw [if_pos hz, if_pos (by omega)]
      · rw [if_neg hz, if_neg (by omega)]
    rw [hg] at he
    rcases hr : (if s.bits.n < 1 then ensureNBits s 1 else (s, none)) with ⟨s2, _ | e⟩
    · rw [hr] at he
      simp only [] at he
      obtain ⟨a1, a2, a3, a4⟩ := ensure_guard_inv s s2 1 (by omega) i1 i2 i3 hr
      obtain ⟨t1, t2⟩ := take_inv s2.bits 1 a1 (by omega) (by omega) a4
      simp only [Nat.cast_one] at t1 t2
      have hi2 : bits.Inv ⟨s2.bits.a, s2.bits.m >>> 1, wrap32 (s2.bits.n - 1)⟩ := by
        apply (inv_iff _ 23).mpr
        simp only [t1, t2]
        exact ⟨by omega, by omega, trivial⟩
      generalize (if s2.bits.a &&& s2.bits.m ≠ 0 then Int.lor code 1 else code) = code1 at he
      by_cases hc : code1 ≤ h.maxCodes.getD i 0
      · rw [if_pos hc] at he
        split at he
        · simp at he
        · simp only [Except.ok.injEq, Prod.mk.injEq] at he
          obtain ⟨-, rfl⟩ := he
          exact hi2
      · rw [if_neg hc] at he
        exact ih _ _ _ _ _ hi2 he
    · rw [hr] at he
      simp at he

/-- The low byte of a non-zero entry of a look-up table is a code length plus
one, between 2 and 9. -/
theorem lutSpread_shape (lut : List Nat) (base lutValue cnt : Nat)
    (hv : 2 ≤ lutValue &&& 0xff ∧ lutValue &&& 0xff ≤ 9)
    (hl : ∀ i, lut.getD i 0 = 0 ∨ (2 ≤ lut.getD i 0 &&& 0xff ∧ lut.getD i 0 &&& 0xff ≤ 9)) :
    ∀ i, (lutSpread lut base lutValue cnt).getD i 0 = 0 ∨
      (2 ≤ (lutSpread lut base lutValue cnt).getD i 0 &&& 0xff ∧
        (lutSpread lut base lutValue cnt).getD i 0 &&& 0xff ≤ 9) := by
  unfold lutSpread
  induction cnt with
  | zero => exact hl
  | succ cnt ih =>
    rw [List.range_succ, List.foldl_append]
    simp only [List.foldl_cons, List.foldl_nil]
    intro i
    rw [List.getD_eq_getElem?_getD, List.getElem?_set]
    split
    · split
      · exact Or.inr hv
      · have e := ih i
        rw [List.getD_eq_getElem?_getD, List.getElem?_eq_none (by omega)] at e
        exact e
    · rw [← List.getD_eq_getElem?_getD]
      exact ih i

theorem lutValue_low (V i : Nat) (hi : i ≤ 7) :
    2 ≤ ((V <<< 8 ||| (2 + i)) % 65536) &&& 0xff ∧
      ((V <<< 8 ||| (2 + i)) % 65536) &&& 0xff ≤ 9 := by
  rw [and_ff, shl8_or_eq _ _ (by omega)]
  omega

theorem foldl_keeps {α β : Type} (P : α → Prop) (f : α → β → α) (l : List β)
    (hf : ∀ a b, b ∈ l → P a → P (f a b)) : ∀ a, P a → P (l.foldl f a) := by
  induction l with
  | nil => exact fun a h => h
  | cons b l ih =>
    intro a h
    rw [List.foldl_cons]
    exact ih (fun a1 b1 hb hp => hf a1 b1 (List.mem_cons_of_mem _ hb) hp) _
      (hf a b (List.mem_cons_self _ _) h)

theorem deriveLut_shape (nCodes : List Int) (vals : List Nat) :
    ∀ i, (deriveLut nCodes vals).getD i 0 = 0 ∨
      (2 ≤ (deriveLut nCodes vals).getD i 0 &&& 0xff ∧
        (deriveLut nCodes vals).getD i 0 &&& 0xff ≤ 9) := by
  unfold deriveLut
  apply foldl_keeps (fun st : LutState => ∀ i, st.lut.getD i 0 = 0 ∨
      (2 ≤ st.lut.getD i 0 &&& 0xff ∧ st.lut.getD i 0 &&& 0xff ≤ 9))
  · intro st i hi hp
    have hi7 : i ≤ 7 := by
      have := List.mem_range.mp hi
      have : lutSize = 8 := rfl
      omega
    unfold lutLength
    simp only []
    apply foldl_keeps (fun st : LutState => ∀ i, st.lut.getD i 0 = 0 ∨
      (2 ≤ st.lut.getD i 0 &&& 0xff ∧ st.lut.getD i 0 &&& 0xff ≤ 9))
    · intro st1 _ _ hp1
      unfold lutCode
      simp only []
      exact lutSpread_shape _ _ _ _ (lutValue_low _ _ hi7) hp1
    · exact hp
  · intro i
    left
    simp only []
    rw [List.getD_eq_getElem?_getD, List.getElem?_replicate]
    split <;> rfl

/-- The look-up of `decodeHuffman` keeps the invariant. -/
theorem lutPath_inv (h : huffman) (s s1 : Stream) (v : Nat)
    (hl : ∀ i, h.lut.getD i 0 = 0 ∨ (2 ≤ h.lut.getD i 0 &&& 0xff ∧ h.lut.getD i 0 &&& 0xff ≤ 9))
    (hi : s.bits.Inv) (h8 : 8 ≤ s.bits.n) (he : lutPath h s = .ok (v, s1)) : s1.bits.Inv := by
  obtain ⟨i1, i2, i3⟩ := (inv_iff s.bits 23).mp hi
  unfold lutPath at he
  simp only [] at he
  split at he
  · rename_i hne
    rcases hl ((s.bits.a >>> toU32 (s.bits.n - lutSize)) &&& 0xff) with h0 | ⟨h2, h9⟩
    · exact absurd h0 hne
    · simp only [Except.ok.injEq, Prod.mk.injEq] at he
      obtain ⟨-, rfl⟩ := he
      obtain ⟨k, hk⟩ : ∃ k : Nat, k = h.lut.getD ((s.bits.a >>> toU32 (s.bits.n - lutSize))
          &&& 0xff) 0 &&& 0xff := ⟨_, rfl⟩
      rw [← hk] at h2 h9 ⊢
      have e : (k + 65535) % 65536 = k - 1 := by omega
      obtain ⟨t1, t2⟩ := take_inv s.bits (k - 1) i1 (by omega) (by omega) i3
      apply (inv_iff _ 23).mpr
      simp only [e, t1, t2]
      exact ⟨by omega, by omega, trivial⟩
  · exact slowPath_inv h _ _ _ _ _ _ hi he

theorem decodeHuffman_inv (h : huffman) (s s1 : Stream) (v : Nat)
    (hl : ∀ i, h.lut.getD i 0 = 0 ∨ (2 ≤ h.lut.getD i 0 &&& 0xff ∧ h.lut.getD i 0 &&& 0xff ≤ 9))
    (hi : s.bits.Inv) (he : decodeHuffman s h = .ok (v, s1)) : s1.bits.Inv := by
  obtain ⟨i1, i2, i3⟩ := (inv_iff s.bits 23).mp hi
  unfold decodeHuffman at he
  split at he
  · simp at he
  · split at he
    · rename_i hlt
      rcases hr : ensureNBits s 8 with ⟨s2, _ | e⟩
      · rw [hr] at he
        simp only [] at he
        obtain ⟨a1, a2⟩ := ensureNBits_inv s s2 8 hi hlt (by omega) hr
        exact lutPath_inv h s2 s1 v hl a1 a2 he
      · rw [hr] at he
        simp only [] at he
        obtain ⟨a1, a2, a3, -, -⟩ := ensureNBitsLoop_inv 8 (by omega) _ s s2 (some e) i1 hlt i3 hr
        have hi2 : s2.bits.Inv := (inv_iff _ 23).mpr ⟨a1, by omega, a3⟩
        split at he
        · simp at he
        · refine slowPath_inv h _ _ _ _ _ _ ?_ he
          split
          · exact unread_inv s2 hi2
          · exact hi2
    · exact lutPath_inv h s s1 v hl hi (by omega) he

/-- C24 (amended): the invariant of the bit accumulator (`m == 1 << (n-1)` when
`n > 0`, `m == 0` when `n == 0`, and `0 <= n <= 23`) holds in the empty state
`bits{}` and still holds after each of these operations has returned without
error from a state in which it held: `ensureNBits(n)` called with
`d.bits.n < n <= 16`, which then has made at least `n` bits available;
`decodeBit`; `decodeBits(n)` for `0 <= n <= 25`; `receiveExtend(t)` for
`t <= 16`; `decodeHuffman` on a table built by `processDHT` (look-up and
`slowPath`); and `unreadByteStuffedByte`, which never fails. In particular `n`
is not negative afterwards. -/
theorem C24_bits_invariant :
    bits.Inv { a := 0, m := 0, n := 0 } ∧
    (∀ (s s1 : Stream) (n : Int), s.bits.Inv → s.bits.n < n → n ≤ 16 →
      ensureNBits s n = (s1, none) → s1.bits.Inv ∧ n ≤ s1.bits.n) ∧
    (∀ (s s1 : Stream) (b : Bool), s.bits.Inv → decodeBit s = .ok (b, s1) → s1.bits.Inv) ∧
    (∀ (s s1 : Stream) (n : Int) (r : Nat), s.bits.Inv → 0 ≤ n → n ≤ 25 →
      decodeBits s n = .ok (r, s1) → s1.bits.Inv) ∧
    (∀ (s s1 : Stream) (t : Nat) (x : Int), s.bits.Inv → t ≤ 16 →
      receiveExtend s t = .ok (x, s1) → s1.bits.Inv) ∧
    (∀ (s s1 : Stream) (h0 : huffman) (counts syms : List Nat) (v : Nat), s.bits.Inv →
      decodeHuffman s (buildHuffman h0 counts syms) = .ok (v, s1) → s1.bits.Inv) ∧
    (∀ s : Stream, s.bits.Inv → (unreadByteStuffedByte s).bits.Inv) ∧
    (∀ b : bits, b.Inv → 0 ≤ b.n) :=
  ⟨by decide,
    fun s s1 n hi h1 hn he => ensureNBits_inv s s1 n hi h1 hn he,
    fun s s1 b hi he => decodeBit_inv s s1 b hi he,
    fun s s1 n r hi h0 hn he => decodeBits_inv s s1 n r hi h0 hn he,
    fun s s1 t x hi ht he => receiveExtend_inv s s1 t x hi ht he,
    fun s s1 h0 counts syms v hi he =>
      decodeHuffman_inv (buildHuffman h0 counts syms) s s1 v (deriveLut_shape _ _) hi he,
    fun s hi => unread_inv s hi,
    fun _ hi => hi.2.2.1⟩

set_option maxRecDepth 1000000 in
theorem C24_bits_invariant_witness :
    bits.Inv { a := 64, m := 16, n := 5 } ∧ bits.Inv { a := 18, m := 0, n := 0 } :=
  ⟨C24_bits_invariant.2.2.2.1 extendStream
      { bytes := { buf := [0x40, 0x12] ++ List.replicate 4094 0, i := 1, j := 2,
                   nUnreadable := 1, r := [] },
        bits := { a := 64, m := 16, n := 5 } }
      3 2 (by decide) (by decide) (by decide) (by decide!),
    C24_bits_invariant.2.2.2.2.2.2.1
      { bytes := { buf := [0x12, 0x34] ++ List.replicate 4094 0, i := 1, j := 2,
                   nUnreadable := 1, r := [] },
        bits := { a := 0x1234, m := 1 <<< 7, n := 8 } } (by decide)⟩

set_option maxRecDepth 1000000 in
/-- C24 (counterexample): from a state that satisfies the invariant with 16
unread bits, `ensureNBits(17)`, called as its contract asks with
`d.bits.n < 17`, returns without error and leaves `n = 24`, above the bound 23;
and from a state that satisfies the invariant with 17 unread bits,
`decodeBits(26)` returns without error and leaves `n = 7` with `m = 0` instead
of `m = 1 << 6`. -/
theorem C24_counterexample :
    invStream16.bits.Inv ∧ invStream16.bits.n < 17 ∧
      (ensureNBits invStream16 17).2 = none ∧
      (ensureNBits invStream16 17).1.bits = { a := 0x12, m := 1 <<< 23, n := 24 } ∧
      ¬ (ensureNBits invStream16 17).1.bits.Inv ∧
    invStream17.bits.Inv ∧
      (decodeBits invStream17 26).toOption.map (fun p => (p.1, p.2.bits)) =
        some (36, { a := 0x1234, m := 0, n := 7 }) ∧
      ¬ bits.Inv { a := 0x1234, m := 0, n := 7 } := by
  decide!

end Jpeg

namespace Jpeg

/-! ## Giving bytes back -/

/-- The results of successive `readByte` calls are determined by the bytes
that are left. -/
theorem readBytes_pending : ∀ (k : Nat) (b c : bytes), b.WF → c.WF → b.pending = c.pending →
    readBytes k b = readBytes k c := by
  intro k
  induction k with
  | zero => intro _ _ _ _ _; rfl
  | succ k ih =>
    intro b c hb hc hp
    simp only [readBytes]
    rcases hl : b.pending with _ | ⟨x, rest⟩
    · obtain ⟨b1, e1, w1, -, r1⟩ := readByte_eof b hb hl
      obtain ⟨c1, e2, w2, -, r2⟩ := readByte_eof c hc (hp ▸ hl)
      rw [e1, e2]
      simp only []
      rw [ih b1 c1 w1 w2]
      have p1 := (ReadsAs_zero _ _).mp (r1 0 [] (by omega) ((ReadsAs_zero _ _).mpr hl))
      have p2 := (ReadsAs_zero _ _).mp (r2 0 [] (by omega) ((ReadsAs_zero _ _).mpr (hp ▸ hl)))
      rw [p1, p2]
    · obtain ⟨b1, e1, w1, -, r1, -⟩ := readByte_spec b hb 0 [] rest x (by omega) rfl
        ((ReadsAs_zero _ _).mpr hl)
      obtain ⟨c1, e2, w2, -, r2, -⟩ := readByte_spec c hc 0 [] rest x (by omega) rfl
        ((ReadsAs_zero _ _).mpr (hp ▸ hl))
      rw [e1, e2]
      simp only []
      rw [ih b1 c1 w1 w2]
      rw [(ReadsAs_zero _ _).mp r1, (ReadsAs_zero _ _).mp r2]

/-- C25: for every reader state with a well-formed buffer, calling
`unreadByteStuffedByte` immediately after a `readByteStuffedByte` call (that
consumed one byte, consumed a stuffed `0xFF 0x00` pair, or failed with
`errMissingFF00`; whatever the bit accumulator then holds) restores the
byte position: the bytes that are left are those left before the
`readByteStuffedByte` call, so every sequence of `readByte` calls returns what
it would have returned before it, on the buffered fast path as well as on the
byte-at-a-time path that refills the buffer; the position does not become
negative, at most 2 bytes are given back, and nothing is left to give back. -/
theorem C25_unread_restores_position (b : bytes) (bt : bits) (hwf : b.WF) :
    (unreadByteStuffedByte { bytes := (readByteStuffedByte b).1, bits := bt }).bytes.pending =
        b.pending ∧
    (∀ k, readBytes k
        (unreadByteStuffedByte { bytes := (readByteStuffedByte b).1, bits := bt }).bytes =
      readBytes k b) ∧
    (readByteStuffedByte b).1.nUnreadable ≤ (readByteStuffedByte b).1.i ∧
    (readByteStuffedByte b).1.nUnreadable ≤ 2 ∧
    (unreadByteStuffedByte { bytes := (readByteStuffedByte b).1, bits := bt }).bytes.i =
      (readByteStuffedByte b).1.i - (readByteStuffedByte b).1.nUnreadable ∧
    (unreadByteStuffedByte { bytes := (readByteStuffedByte b).1, bits := bt }).bytes.nUnreadable =
      0 ∧
    (unreadByteStuffedByte { bytes := (readByteStuffedByte b).1, bits := bt }).bytes.WF ∧
    (∀ x rest, b.pending = x :: rest → x ≠ 0xff →
      (readByteStuffedByte b).2 = .ok x ∧ (readByteStuffedByte b).1.pending = rest) ∧
    (∀ rest, b.pending = 0xff :: 0x00 :: rest →
      (readByteStuffedByte b).2 = .ok 0xff ∧ (readByteStuffedByte b).1.pending = rest) ∧
    (∀ y rest, b.pending = 0xff :: y :: rest → y ≠ 0x00 →
      (readByteStuffedByte b).2 = .error errMissingFF00) := by
  obtain ⟨b1, r, e1, w1, n2, ra, hv, -⟩ := readByteStuffedByte_spec b hwf b.pending rfl
  rw [e1]
  simp only []
  have hu : (unreadByteStuffedByte { bytes := b1, bits := bt }).bytes =
      { b1 with i := b1.i - b1.nUnreadable, nUnreadable := 0 } := by
    unfold unreadByteStuffedByte
    simp only []
    split <;> rfl
  rw [hu]
  have hp : ({ b1 with i := b1.i - b1.nUnreadable, nUnreadable := 0 } : bytes).pending =
      b.pending := ra.2
  have hw : ({ b1 with i := b1.i - b1.nUnreadable, nUnreadable := 0 } : bytes).WF := by
    obtain ⟨w1, w2, w3⟩ := w1
    exact ⟨w1, by simp only []; omega, w3⟩
  refine ⟨hp, fun k => readBytes_pending k _ _ hw hwf hp, ra.1, n2, rfl, rfl, hw, ?_, ?_, ?_⟩
  · intro x rest hl hx
    exact hv x rest (by rw [hl, stuffedHead_ne _ _ hx])
  · intro rest hl
    exact hv 0xff rest (by rw [hl, stuffedHead_ff_zero])
  · intro y rest hl hy
    have := readByteStuffedByte_missing b hwf y rest hl hy
    rw [e1] at this
    exact this

set_option maxRecDepth 1000000 in
/-- On the input `0xff 0x00 0x1f` with nothing buffered, the read refills the
buffer and consumes the stuffed pair; giving it back restores the three
bytes. -/
theorem C25_unread_restores_position_witness :
    (unreadByteStuffedByte
      ⟨(readByteStuffedByte slowBytes).1, { a := 0, m := 0, n := 0 }⟩).bytes.pending =
        slowBytes.pending ∧
    (readByteStuffedByte slowBytes).1.nUnreadable ≤ 2 ∧
    ((readByteStuffedByte slowBytes).2 = .ok 0xff ∧
      (readByteStuffedByte slowBytes).1.pending = [0x1f]) :=
  ⟨(C25_unread_restores_position slowBytes { a := 0, m := 0, n := 0 }
      ⟨by decide!, by decide!, by decide!⟩).1,
    (C25_unread_restores_position slowBytes { a := 0, m := 0, n := 0 }
      ⟨by decide!, by decide!, by decide!⟩).2.2.2.1,
    (C25_unread_restores_position slowBytes { a := 0, m := 0, n := 0 }
      ⟨by decide!, by decide!, by decide!⟩).2.2.2.2.2.2.2.2.1 [0x1f] (by decide!)⟩

end Jpeg

namespace Jpeg

/-! ## Restart intervals -/

theorem slowPath_byte (h : huffman) (hv : ∀ x ∈ h.vals, x < 256) :
    ∀ (k i : Nat) (code : Int) (s s1 : Stream) (v : Nat),
      slowPath h k i code s = .ok (v, s1) → v < 256 := by
  intro k
  induction k with
  | zero =>
    intro i code s s1 v he
    simp [slowPath] at he
  | succ k ih =>
    intro i code s s1 v he
    rw [slowPath] at he
    rcases hr : (if s.bits.n = 0 then ensureNBits s 1 else (s, none)) with ⟨s2, _ | e⟩
    · rw [hr] at he
      simp only [] at he
      generalize (if s2.bits.a &&& s2.bits.m ≠ 0 then Int.lor code 1 else code) = code1 at he
      by_cases hc : code1 ≤ h.maxCodes.getD i 0
      · rw [if_pos hc] at he
        split at he
        · simp at he
        · simp only [Except.ok.injEq, Prod.mk.injEq] at he
          obtain ⟨rfl, -⟩ := he
          exact getD_lt_of_forall_mem _ hv _
      · rw [if_neg hc] at he
        exact ih _ _ _ _ _ he
    · rw [hr] at he
      simp at he

/-- A symbol that `decodeHuffman` returns is a byte. -/
theorem decodeHuffman_byte (h : huffman) (hv : ∀ x ∈ h.vals, x < 256) (s s1 : Stream)
    (v : Nat) (he : decodeHuffman s h = .ok (v, s1)) : v < 256 := by
  have hl : ∀ s : Stream, lutPath h s = .ok (v, s1) → v < 256 := by
    intro s he
    unfold lutPath at he
    simp only [] at he
    split at he
    · simp only [Except.ok.injEq, Prod.mk.injEq] at he
      obtain ⟨rfl, -⟩ := he
      exact Nat.mod_lt _ (by omega)
    · exact slowPath_byte h hv _ _ _ _ _ _ he
  unfold decodeHuffman at he
  split at he
  · simp at he
  · split at he
    · rcases hr : ensureNBits s 8 with ⟨s2, _ | e⟩
      · rw [hr] at he
        exact hl _ he
      · rw [hr] at he
        simp only [] at he
        split at he
        · simp at he
        · exact slowPath_byte h hv _ _ _ _ _ _ he
    · exact hl _ he

set_option maxRecDepth 100000 in
theorem unzig_pos : ∀ k < 64, 1 ≤ k → unzig.getD k 0 ≠ 0 := by decide

/-- The AC loop of a first pass leaves the DC coefficient as it is. -/
theorem decodeACLoop_dc (huff : huffman) (hv : ∀ x ∈ huff.vals, x < 256) (zigEnd : Int)
    (al : Nat) (hz : zigEnd ≤ 63) :
    ∀ (fuel : Nat) (s : Stream) (b : block) (zig : Int) (eobRun : Nat) (b1 : block)
      (s1 : Stream) (e1 : Nat), 1 ≤ zig →
      decodeACLoop huff zigEnd al fuel s b zig eobRun = .ok (b1, s1, e1) →
      b1.getD 0 0 = b.getD 0 0 := by
  intro fuel
  induction fuel with
  | zero =>
    intro s b zig eobRun b1 s1 e1 _ he
    rw [decodeACLoop] at he
    split at he
    · simp at he
    · simp only [Except.ok.injEq, Prod.mk.injEq] at he
      rw [he.1]
  | succ fuel ih =>
    intro s b zig eobRun b1 s1 e1 h1 he
    rw [decodeACLoop] at he
    by_cases hle : zig ≤ zigEnd
    · rw [if_pos hle] at he
      simp only [] at he
      rcases hd : decodeHuffman s huff with e | ⟨value, s2⟩
      · rw [hd] at he
        simp at he
      · rw [hd] at he
        simp only [] at he
        have hb := decodeHuffman_byte huff hv s s2 value hd
        have h15 : value >>> 4 ≤ 15 := by
          rw [Nat.shiftRight_eq_div_pow]
          omega
        have w1 : wrap32 (zig + ((value >>> 4 : Nat) : Int)) = zig + ((value >>> 4 : Nat) : Int) :=
          wrap32_id _ (by omega) (by omega)
        by_cases hv1 : value &&& 0x0f ≠ 0
        · rw [if_pos hv1, w1] at he
          by_cases hgt : zig + ((value >>> 4 : Nat) : Int) > zigEnd
          · rw [if_pos hgt] at he
            simp only [Except.ok.injEq, Prod.mk.injEq] at he
            rw [he.1]
          · rw [if_neg hgt] at he
            rcases hx : receiveExtend s2 (value &&& 0x0f) with e | ⟨ac, s3⟩
            · rw [hx] at he
              simp at he
            · rw [hx] at he
              simp only [] at he
              have w2 : wrap32 (zig + ((value >>> 4 : Nat) : Int) + 1) =
                  zig + ((value >>> 4 : Nat) : Int) + 1 := wrap32_id _ (by omega) (by omega)
              rw [ih _ _ _ _ _ _ _ (by rw [w2]; omega) he]
              apply getD_set_ne
              apply unzig_pos
              · omega
              · omega
        · rw [if_neg hv1] at he
          by_cases hf : value >>> 4 ≠ 0x0f
          · rw [if_pos hf] at he
            rcases hx : readEobRun s2 (value >>> 4) with e | ⟨run, s3⟩
            · rw [hx] at he
              simp at he
            · rw [hx] at he
              simp only [Except.ok.injEq, Prod.mk.injEq] at he
              rw [he.1]
          · rw [if_neg hf] at he
            have w3 : wrap32 (wrap32 (zig + 0x0f) + 1) = zig + 16 := by
              rw [wrap32_id (zig + 0x0f) (by omega) (by omega), wrap32_id _ (by omega) (by omega)]
              omega
            exact ih _ _ _ _ _ _ _ (by rw [w3]; omega) he
    · rw [if_neg hle] at he
      simp only [Except.ok.injEq, Prod.mk.injEq] at he
      rw [he.1]

theorem shl32_wrap32 (x : Int) (k : Nat) : shl32 (wrap32 x) k = shl32 x k := by
  unfold shl32 wrap32
  have h : (2 : Int) ^ k = ((2 ^ k : Nat) : Int) := by push_cast; rfl
  rw [h]
  generalize (2 ^ k : Nat) = q
  have e : ((x + 2147483648) % 4294967296 - 2147483648) * (q : Int) =
      x * q - 4294967296 * (((x + 2147483648) / 4294967296) * q) := by
    have := Int.emod_add_ediv (x + 2147483648) 4294967296
    have e1 : (x + 2147483648) % 4294967296 =
        x + 2147483648 - 4294967296 * ((x + 2147483648) / 4294967296) := by omega
    rw [e1]
    ring
  rw [e]
  have e2 : x * (q : Int) - 4294967296 * ((x + 2147483648) / 4294967296 * q) + 2147483648 =
      (x * q + 2147483648) + 4294967296 * (-((x + 2147483648) / 4294967296 * q)) := by ring
  rw [e2, Int.add_mul_emod_self_left]

/-- The first pass on a block after a restart: the DC coefficient is the
decoded difference shifted left by `Al`. -/
theorem firstPass_after_reset (d : decoder) (p : ScanParams) (sc : scanComp) (s : Stream)
    (eobRun : Nat) (b b1 : block) (s2 : Stream) (e2 : Nat) (dc1 : List Int)
    (hv : ∀ x ∈ ((d.huff.getD acTable []).getD sc.ta huffman.zero).vals, x < 256)
    (hz : p.zigStart = 0) (hze : p.zigEnd ≤ 63) (hb : 0 < b.length)
    (hc : sc.compIndex < maxComponents)
    (he : decodeFirstPass d p sc s eobRun (List.replicate maxComponents 0) b =
      .ok (b1, s2, e2, dc1)) :
    ∃ value s1 dcDelta s3,
      decodeHuffman s ((d.huff.getD dcTable []).getD sc.td huffman.zero) = .ok (value, s1) ∧
      receiveExtend s1 value = .ok (dcDelta, s3) ∧
      b1.getD 0 0 = shl32 dcDelta p.al := by
  unfold decodeFirstPass at he
  simp only [hz, ↓reduceIte] at he
  rcases hd : decodeHuffman s ((d.huff.getD dcTable []).getD sc.td huffman.zero) with
    e | ⟨value, s1⟩
  · rw [hd] at he
    simp at he
  · rw [hd] at he
    simp only [] at he
    by_cases h16 : value > 16
    · rw [if_pos h16] at he
      simp at he
    · rw [if_neg h16] at he
      rcases hx : receiveExtend s1 value with e | ⟨dcDelta, s3⟩
      · rw [hx] at he
        simp at he
      · rw [hx] at he
        simp only [] at he
        refine ⟨value, s1, dcDelta, s3, rfl, hx, ?_⟩
        have hdc : ((List.replicate maxComponents (0 : Int)).set sc.compIndex
            (add32 ((List.replicate maxComponents (0 : Int)).getD sc.compIndex 0) dcDelta)).getD
              sc.compIndex 0 = wrap32 dcDelta := by
          rw [getD_set_eq _ _ _ _ (by simpa using hc)]
          have : (List.replicate maxComponents (0 : Int)).getD sc.compIndex 0 = 0 := by
            rw [List.getD_eq_getElem?_getD, List.getElem?_replicate]
            split <;> rfl
          rw [this, add32, Int.zero_add]
        rw [hdc, shl32_wrap32] at he
        have w : wrap32 ((0 : Int) + 1) = 1 := by decide
        rw [w] at he
        split at he
        · simp only [Except.ok.injEq, Prod.mk.injEq] at he
          rw [← he.1]
          exact getD_set_eq _ _ _ _ hb
        · rcases ha : decodeACLoop ((d.huff.getD acTable []).getD sc.ta huffman.zero) p.zigEnd
            p.al (p.zigEnd + 1 - 1).toNat s3 (b.set 0 (shl32 dcDelta p.al)) 1 eobRun with
            e | ⟨b2, s4, e4⟩
          · rw [ha] at he
            simp at he
          · rw [ha] at he
            simp only [Except.ok.injEq, Prod.mk.injEq] at he
            rw [← he.1, decodeACLoop_dc _ hv _ _ hze _ _ _ _ _ _ _ _ (by omega) ha]
            exact getD_set_eq _ _ _ _ hb

/-- C26: after a restart marker is accepted inside a scan (the restart
interval is reached before the last MCU and `scanRestart`, the end of the loop
body of `processSOS`, returns without error), the decoder state is reset: the
bit accumulator is empty (`a = 0`, `m = 0`, `n = 0`), the DC predictor of every
component is 0 and the EOB-run counter is 0; consequently the first pass on
the next block with a DC coefficient runs from a state that holds nothing of
the blocks before the restart but the byte position, and the block's DC
coefficient equals the decoded difference shifted left by `Al`. -/
theorem C26_restart_resets_state (d : decoder) (p : ScanParams) (ms ms1 : McuState)
    (hri : d.ri > 0 ∧ (ms.mcu + 1) % d.ri = 0 ∧ ms.mcu + 1 < p.mxx * p.myy)
    (he : scanRestart d p ms = .ok ms1) :
    ms1.st.s.bits = { a := 0, m := 0, n := 0 } ∧
    ms1.st.dc = List.replicate maxComponents 0 ∧
    (∀ i, ms1.st.dc.getD i 0 = 0) ∧
    ms1.st.eobRun = 0 ∧
    (∀ (sc : scanComp) (b : block),
      decodeFirstPass d p sc ms1.st.s ms1.st.eobRun ms1.st.dc b =
        decodeFirstPass d p sc { bytes := ms1.st.s.bytes, bits := { a := 0, m := 0, n := 0 } } 0
          (List.replicate maxComponents 0) b) ∧
    (∀ (sc : scanComp) (b b1 : block) (s2 : Stream) (e2 : Nat) (dc1 : List Int),
      (∀ x ∈ ((d.huff.getD acTable []).getD sc.ta huffman.zero).vals, x < 256) →
      p.zigStart = 0 → p.zigEnd ≤ 63 → 0 < b.length → sc.compIndex < maxComponents →
      decodeFirstPass d p sc ms1.st.s ms1.st.eobRun ms1.st.dc b = .ok (b1, s2, e2, dc1) →
      ∃ value s1 dcDelta s3,
        decodeHuffman ms1.st.s ((d.huff.getD dcTable []).getD sc.td huffman.zero) =
          .ok (value, s1) ∧
        receiveExtend s1 value = .ok (dcDelta, s3) ∧
        b1.getD 0 0 = shl32 dcDelta p.al) := by
  unfold scanRestart at he
  simp only [] at he
  rw [if_pos hri] at he
  rcases hr : readFull ms.st.s 2 with e | ⟨tmp, s1⟩
  · rw [hr] at he
    simp at he
  · rw [hr] at he
    simp only [] at he
    split at he
    · simp at he
    · simp only [Except.ok.injEq] at he
      subst he
      refine ⟨rfl, rfl, ?_, rfl, fun _ _ => rfl, ?_⟩
      · intro i
        simp only []
        rw [List.getD_eq_getElem?_getD, List.getElem?_replicate]
        split <;> rfl
      · intro sc b b1 s2 e2 dc1 hv hz hze hb hc hfp
        exact firstPass_after_reset d p sc _ _ b b1 s2 e2 dc1 hv hz hze hb hc hfp

set_option maxRecDepth 1000000 in
theorem C26_restart_resets_state_witness :
    scanRestart restartDecoder restartParams restartState = .ok restartedState ∧
    restartedState.st.s.bits = { a := 0, m := 0, n := 0 } ∧
    restartedState.st.dc = List.replicate maxComponents 0 ∧
    restartedState.st.eobRun = 0 :=
  ⟨by decide!,
    (C26_restart_resets_state restartDecoder restartParams restartState restartedState
      (by decide) (by decide!)).1,
    (C26_restart_resets_state restartDecoder restartParams restartState restartedState
      (by decide) (by decide!)).2.1,
    (C26_restart_resets_state restartDecoder restartParams restartState restartedState
      (by decide) (by decide!)).2.2.2.1⟩

end Jpeg

namespace Jpeg

/-! ## The EOB run across scans -/

set_option maxRecDepth 1000000 in
/-- C27: the EOB-run counter is carried over from one scan to the next. In
`eobStream` the second scan ends with an EOB-run counter of 1; `processSOS`
for the third scan starts with this value, skips the block without reading its
entropy-coded data and stores a block of pixels 128, whereas started with a
counter of 0 from the same state it decodes the coefficient and stores the
image that the scan encodes; `Decode` returns the image of pixels 128. -/
theorem C27_eob_run_carried_over :
    eobLastScan.eobRun = 1 ∧
    (processSOS eobLastScan 6).toOption.map (fun d => (d.img1, d.bytes.pending)) =
      some (some { Pix := List.replicate 64 128, Stride := 8, W := 8, H := 8 },
        [0x67, 0xff, 0xd9]) ∧
    (processSOS { eobLastScan with eobRun := 0 } 6).toOption.map
        (fun d => (d.img1, d.bytes.pending)) = some (some eobImage, [0xff, 0xd9]) ∧
    Decode eobStream =
      .ok (some (.gray { Pix := List.replicate 64 128, Stride := 8, W := 8, H := 8 })) := by
  decide!

end Jpeg

namespace Jpeg

/-! ## The subsampling ratios -/

/-- The entry that `sofComponent` stores at index `i`, and the entries that
it leaves alone. -/
theorem sofComponent_entry (nComp : Nat) (tmp : List Nat) (comp comp1 : List component)
    (i : Nat) (hi : i < comp.length) (h : sofComponent nComp tmp comp i = .ok comp1) :
    comp1.length = comp.length ∧
      (∀ k, k ≠ i → comp1.getD k component.zero = comp.getD k component.zero) ∧
      (((comp1.getD i component.zero).h = 1 ∧ (comp1.getD i component.zero).v = 1) ∨
        ((comp1.getD i component.zero).h = (tmp.getD (7 + 3 * i) 0) >>> 4 ∧
          (comp1.getD i component.zero).v = (tmp.getD (7 + 3 * i) 0) &&& 0x0f)) := by
  obtain ⟨⟨h1, v1, rfl, hv⟩, -, -, -, -⟩ := sofComponent_shape nComp tmp comp comp1 i h
  refine ⟨by simp only [List.length_set], ?_, ?_⟩
  · intro k hk
    rw [getD_set_ne _ _ _ _ _ (Ne.symm hk), getD_set_ne _ _ _ _ _ (Ne.symm hk),
      getD_set_ne _ _ _ _ _ (Ne.symm hk)]
  · rw [getD_set_eq _ _ _ _ (by simp only [List.length_set]; exact hi)]
    exact hv

/-- The checks of `sofComponent` on the luma component of a three-component
frame. -/
theorem sofComponent_3_0 (tmp : List Nat) (comp comp1 : List component)
    (hl : 0 < comp.length) (h : sofComponent 3 tmp comp 0 = .ok comp1) :
    ((comp1.getD 0 component.zero).h = 1 ∨ (comp1.getD 0 component.zero).h = 2 ∨
        (comp1.getD 0 component.zero).h = 4) ∧
      ((comp1.getD 0 component.zero).v = 1 ∨ (comp1.getD 0 component.zero).v = 2) := by
  unfold sofComponent at h
  simp only [] at h
  repeat' split at h
  all_goals first
    | (simp at h; done)
    | (simp only [Except.ok.injEq] at h
       subst h
       rw [getD_set_eq _ _ _ _ (by simp only [List.length_set]; exact hl)]
       simp only []
       omega)

/-- The checks of `sofComponent` on the first chroma component of a
three-component frame. -/
theorem sofComponent_3_1 (tmp : List Nat) (comp comp1 : List component)
    (hl : 1 < comp.length) (h : sofComponent 3 tmp comp 1 = .ok comp1) :
    1 ≤ (comp1.getD 1 component.zero).h ∧ 1 ≤ (comp1.getD 1 component.zero).v ∧
      (comp.getD 0 component.zero).h % (comp1.getD 1 component.zero).h = 0 ∧
      (comp.getD 0 component.zero).v % (comp1.getD 1 component.zero).v = 0 := by
  unfold sofComponent at h
  simp only [] at h
  repeat' split at h
  all_goals first
    | (simp at h; done)
    | (simp only [Except.ok.injEq] at h
       subst h
       rename_i hc
       rw [getD_set_ne _ _ _ _ _ (by omega), getD_set_ne _ _ _ _ _ (by omega)] at hc
       rw [getD_set_eq _ _ _ _ (by simp only [List.length_set]; exact hl)]
       simp only []
       omega)

/-- The checks of `sofComponent` on the first component of a four-component
frame. -/
theorem sofComponent_4_0 (tmp : List Nat) (comp comp1 : List component)
    (hl : 0 < comp.length) (h : sofComponent 4 tmp comp 0 = .ok comp1) :
    ((comp1.getD 0 component.zero).h = 1 ∧ (comp1.getD 0 component.zero).v = 1) ∨
      ((comp1.getD 0 component.zero).h = 2 ∧ (comp1.getD 0 component.zero).v = 2) := by
  unfold sofComponent at h
  simp only [] at h
  repeat' split at h
  all_goals first
    | (simp at h; done)
    | (simp only [Except.ok.injEq] at h
       subst h
       rename_i hc
       rw [getD_set_eq _ _ _ _ (by simp only [List.length_set]; exact hl)]
       simp only []
       have e : tmp.getD (7 + 3 * 0) 0 = 0x11 ∨ tmp.getD (7 + 3 * 0) 0 = 0x22 := by omega
       rcases e with e | e <;> rw [e] <;> decide)

/-- The checks of `sofComponent` on the second component of a four-component
frame. -/
theorem sofComponent_4_1 (tmp : List Nat) (comp comp1 : List component)
    (hl : 1 < comp.length) (h : sofComponent 4 tmp comp 1 = .ok comp1) :
    (comp1.getD 1 component.zero).h = 1 ∧ (comp1.getD 1 component.zero).v = 1 := by
  unfold sofComponent at h
  simp only [] at h
  repeat' split at h
  all_goals first
    | (simp at h; done)
    | (simp only [Except.ok.injEq] at h
       subst h
       rename_i hc
       rw [getD_set_eq _ _ _ _ (by simp only [List.length_set]; exact hl)]
       simp only []
       have e : tmp.getD (7 + 3 * 1) 0 = 0x11 := by omega
       rw [e]
       decide)

theorem ratio_arith (h0 v0 h1 v1 : Nat) (a : h0 = 1 ∨ h0 = 2 ∨ h0 = 4) (b : v0 = 1 ∨ v0 = 2)
    (c1 : 1 ≤ h1) (c2 : 1 ≤ v1) (m1 : h0 % h1 = 0) (m2 : v0 % v1 = 0) :
    (h0 / h1, v0 / v1) ∈ [(1, 1), (1, 2), (2, 1), (2, 2), (4, 1), (4, 2)] := by
  have hh : h1 ≤ h0 := Nat.le_of_dvd (by omega) (Nat.dvd_of_mod_eq_zero m1)
  have hv : v1 ≤ v0 := Nat.le_of_dvd (by omega) (Nat.dvd_of_mod_eq_zero m2)
  have e1 : h1 = 1 ∨ h1 = 2 ∨ h1 = 3 ∨ h1 = 4 := by omega
  have e2 : v1 = 1 ∨ v1 = 2 := by omega
  rcases a with rfl | rfl | rfl <;> rcases b with rfl | rfl <;>
    rcases e1 with rfl | rfl | rfl | rfl <;> rcases e2 with rfl | rfl <;>
    first
      | decide
      | omega

/-- The loop over the components of a frame header of three components. -/
theorem sofComponents_3 (tmp : List Nat) (comp compF : List component)
    (hl : comp.length = maxComponents) (h : sofComponents 3 tmp 3 0 comp = .ok compF) :
    compF.length = maxComponents ∧ RatioOK compF := by
  have hm : maxComponents = 4 := rfl
  simp only [sofComponents] at h
  rcases ha : sofComponent 3 tmp comp 0 with e | c1
  · rw [ha] at h; simp at h
  · rw [ha] at h
    simp only [] at h
    obtain ⟨l1, -, -⟩ := sofComponent_entry 3 tmp comp c1 0 (by omega) ha
    have y := sofComponent_3_0 tmp comp c1 (by omega) ha
    rcases hb : sofComponent 3 tmp c1 (0 + 1) with e | c2
    · rw [hb] at h; simp at h
    · rw [hb] at h
      simp only [] at h
      obtain ⟨l2, o2, -⟩ := sofComponent_entry 3 tmp c1 c2 1 (by omega) hb
      have cb := sofComponent_3_1 tmp c1 c2 (by omega) hb
      rcases hc : sofComponent 3 tmp c2 (0 + 1 + 1) with e | c3
      · rw [hc] at h; simp at h
      · rw [hc] at h
        simp only [Except.ok.injEq] at h
        subst h
        obtain ⟨l3, o3, -⟩ := sofComponent_entry 3 tmp c2 c3 2 (by omega) hc
        refine ⟨by omega, ?_⟩
        unfold RatioOK
        rw [o3 0 (by omega), o3 1 (by omega), o2 0 (by omega)]
        exact ⟨by omega, by omega, cb.2.2.1, cb.2.2.2,
          ratio_arith _ _ _ _ y.1 y.2 cb.1 cb.2.1 cb.2.2.1 cb.2.2.2⟩

/-- The loop over the components of a frame header of four components. -/
theorem sofComponents_4 (tmp : List Nat) (comp compF : List component)
    (hl : comp.length = maxComponents) (h : sofComponents 4 tmp 4 0 comp = .ok compF) :
    compF.length = maxComponents ∧ RatioOK compF := by
  have hm : maxComponents = 4 := rfl
  simp only [sofComponents] at h
  rcases ha : sofComponent 4 tmp comp 0 with e | c1
  · rw [ha] at h; simp at h
  · rw [ha] at h
    simp only [] at h
    obtain ⟨l1, -, -⟩ := sofComponent_entry 4 tmp comp c1 0 (by omega) ha
    have y := sofComponent_4_0 tmp comp c1 (by omega) ha
    rcases hb : sofComponent 4 tmp c1 (0 + 1) with e | c2
    · rw [hb] at h; simp at h
    · rw [hb] at h
      simp only [] at h
      obtain ⟨l2, o2, -⟩ := sofComponent_entry 4 tmp c1 c2 1 (by omega) hb
      have cb := sofComponent_4_1 tmp c1 c2 (by omega) hb
      rcases hc : sofComponent 4 tmp c2 (0 + 1 + 1) with e | c3
      · rw [hc] at h; simp at h
      · rw [hc] at h
        simp only [] at h
        obtain ⟨l3, o3, -⟩ := sofComponent_entry 4 tmp c2 c3 2 (by omega) hc
        rcases hd : sofComponent 4 tmp c3 (0 + 1 + 1 + 1) with e | c4
        · rw [hd] at h; simp at h
        · rw [hd] at h
          simp only [Except.ok.injEq] at h
          subst h
          obtain ⟨l4, o4, -⟩ := sofComponent_entry 4 tmp c3 c4 3 (by omega) hd
          refine ⟨by omega, ?_⟩
          unfold RatioOK
          rw [o4 0 (by omega), o4 1 (by omega), o3 0 (by omega), o3 1 (by omega),
            o2 0 (by omega), cb.1, cb.2]
          rcases y with ⟨y1, y2⟩ | ⟨y1, y2⟩ <;> rw [y1, y2] <;> decide

/-- Method `processSOF` establishes the invariant of the frame. -/
theorem processSOF_frameOK (d d1 : decoder) (n : Nat) (hl : d.comp.length = maxComponents)
    (h : processSOF d n = .ok d1) :
    d1.comp.length = maxComponents ∧
      (d1.nComp = 1 ∨ ((d1.nComp = 3 ∨ d1.nComp = 4) ∧ RatioOK d1.comp)) := by
  unfold processSOF at h
  by_cases hnc : d.nComp ≠ 0
  · rw [if_pos hnc] at h; simp at h
  · rw [if_neg hnc] at h
    generalize hncv : (if n = 6 + 3 * 1 then 1 else if n = 6 + 3 * 3 then 3
      else if n = 6 + 3 * 4 then 4 else 0) = nc at h
    have hnn : nc = 0 ∨ nc = 1 ∨ nc = 3 ∨ nc = 4 := by
      rw [← hncv]
      split
      · right; left; rfl
      · split
        · right; right; left; rfl
        · split
          · right; right; right; rfl
          · left; rfl
    simp only [] at h
    by_cases hz : nc = 0
    · rw [if_pos hz] at h; simp at h
    · rw [if_neg hz] at h
      have hst : decoder.stream { d with nComp := nc } = d.stream := rfl
      rw [hst] at h
      rcases hrf : readFull d.stream n with e | ⟨tmp, s⟩
      · rw [hrf] at h; simp at h
      · rw [hrf] at h
        simp only [decoder.withStream] at h
        by_cases hprec : tmp.getD 0 0 ≠ 8
        · rw [if_pos hprec] at h; simp at h
        · rw [if_neg hprec] at h
          by_cases h5 : tmp.getD 5 0 ≠ nc
          · rw [if_pos h5] at h; simp at h
          · rw [if_neg h5] at h
            rcases hcs : sofComponents nc tmp nc 0 d.comp with e | comp
            · rw [hcs] at h; simp at h
            · rw [hcs] at h
              simp only [Except.ok.injEq] at h
              subst h
              simp only []
              rcases hnn with h0 | h1 | h3 | h4
              · exact absurd h0 hz
              · subst h1
                obtain ⟨l, -⟩ := sofComponents_ok 1 tmp 1 0 d.comp comp
                  (by rw [hl]; decide) (fun k hk => absurd hk (by omega)) hcs
                exact ⟨l.trans hl, Or.inl rfl⟩
              · subst h3
                obtain ⟨l, r⟩ := sofComponents_3 tmp d.comp comp hl hcs
                exact ⟨l, Or.inr ⟨Or.inl rfl, r⟩⟩
              · subst h4
                obtain ⟨l, r⟩ := sofComponents_4 tmp d.comp comp hl hcs
                exact ⟨l, Or.inr ⟨Or.inr rfl, r⟩⟩

theorem processApp0Marker_comp (d d1 : decoder) (n : Nat)
    (h : processApp0Marker d n = .ok d1) : d1.nComp = d.nComp ∧ d1.comp = d.comp := by
  unfold processApp0Marker at h
  split at h
  · have f := decoder_ignore_frame d d1 n h
    exact ⟨f.2.2.2.1, f.2.2.2.2.1⟩
  · split at h
    · simp at h
    · simp only [] at h
      split at h
      · have f := decoder_ignore_frame _ d1 _ h
        exact ⟨f.2.2.2.1, f.2.2.2.2.1⟩
      · simp only [Except.ok.injEq] at h
        subst h
        exact ⟨rfl, rfl⟩

theorem processApp14Marker_comp (d d1 : decoder) (n : Nat)
    (h : processApp14Marker d n = .ok d1) : d1.nComp = d.nComp ∧ d1.comp = d.comp := by
  unfold processApp14Marker at h
  split at h
  · have f := decoder_ignore_frame d d1 n h
    exact ⟨f.2.2.2.1, f.2.2.2.2.1⟩
  · split at h
    · simp at h
    · simp only [] at h
      split at h
      · have f := decoder_ignore_frame _ d1 _ h
        refine ⟨f.2.2.2.1.trans ?_, f.2.2.2.2.1.trans ?_⟩ <;> split <;> rfl
      · simp only [Except.ok.injEq] at h
        subst h
        constructor <;> split <;> rfl

/-- The handlers of the segment loop keep the invariant of the frame. -/
theorem decodeMarker_frameOK (d : decoder) (marker n : Nat) (out : Outcome)
    (hok : d.FrameOK) (h : decodeMarker false d marker n = .ok out) :
    ∀ d2, out = .next d2 → d2.FrameOK := by
  have keep : ∀ d1 : decoder, d1.nComp = d.nComp → d1.comp = d.comp → d1.FrameOK := by
    intro d1 e1 e2
    unfold decoder.FrameOK
    rw [e1, e2]
    exact hok
  have wrap : ∀ (r : Except Err decoder),
      (∀ d1, r = .ok d1 → d1.nComp = d.nComp ∧ d1.comp = d.comp) →
      (match r with
        | .error e => (.error e : Except Err Outcome)
        | .ok d1 => .ok (.next d1)) = .ok out →
      ∀ d2, out = .next d2 → d2.FrameOK := by
    intro r hr hm d2 hd
    rcases r with e | d1
    · simp at hm
    · simp only [Except.ok.injEq] at hm
      subst hm
      simp only [Outcome.next.injEq] at hd
      subst hd
      exact keep _ (hr _ rfl).1 (hr _ rfl).2
  unfold decodeMarker at h
  simp only [Bool.false_eq_true, ↓reduceIte, false_and] at h
  split at h
  · rcases hs : processSOF { d with progressive := marker = sof2Marker } n with e | d1
    · rw [hs] at h; simp at h
    · rw [hs] at h
      simp only [Except.ok.injEq] at h
      subst h
      intro d2 hd
      simp only [Outcome.next.injEq] at hd
      subst hd
      obtain ⟨l, r⟩ := processSOF_frameOK { d with progressive := marker = sof2Marker } _ _ hok.1 hs
      exact ⟨l, Or.inr r⟩
  · split at h
    · exact wrap _ (fun d1 e => ⟨(processDHT_frame _ _ _ e).2.2.2.1,
        (processDHT_frame _ _ _ e).2.2.2.2.1⟩) h
    · split at h
      · exact wrap _ (fun d1 e => ⟨(processDQT_frame _ _ _ e).2.2.2.1,
          (processDQT_frame _ _ _ e).2.2.2.2.1⟩) h
      · split at h
        · exact wrap _ (fun d1 e => ⟨(processSOS_frame _ _ _ e).2.2.2.1,
            (processSOS_frame _ _ _ e).2.2.2.2.1⟩) h
        · split at h
          · exact wrap _ (fun d1 e => ⟨(processDRI_frame _ _ _ e).2.2.2.1,
              (processDRI_frame _ _ _ e).2.2.2.2.1⟩) h
          · split at h
            · exact wrap _ (fun d1 e => processApp0Marker_comp _ _ _ e) h
            · split at h
              · exact wrap _ (fun d1 e => processApp14Marker_comp _ _ _ e) h
              · split at h
                · exact wrap _ (fun d1 e => ⟨(decoder_ignore_frame _ _ _ e).2.2.2.1,
                    (decoder_ignore_frame _ _ _ e).2.2.2.2.1⟩) h
                · split at h <;> simp at h

theorem frameOK_of_frame (d d1 : decoder) (h : d.SameFrame d1) (hok : d.FrameOK) :
    d1.FrameOK := by
  obtain ⟨-, -, -, a4, a5, -⟩ := h
  unfold decoder.FrameOK
  rw [a4, a5]
  exact hok

/-- Every decoder with which the segment loop calls a handler satisfies the
invariant of the frame. -/
theorem decodeTrace_frameOK : ∀ (fuel : Nat) (d : decoder), d.FrameOK →
    ∀ e ∈ decodeTrace false fuel d, e.1.FrameOK := by
  intro fuel
  induction fuel with
  | zero =>
    intro d hok e he
    rw [decodeTrace] at he
    rcases hh : segmentHeader d with er | hdr
    · rw [hh] at he; simp at he
    · rw [hh] at he
      have hf := segmentHeader_frame d hdr hh
      cases hdr with
      | skip d1 => simp at he
      | eoi d1 => simp at he
      | seg d1 marker n =>
        simp only [List.mem_cons] at he
        rcases he with rfl | he
        · exact frameOK_of_frame d d1 hf hok
        · split at he <;> simp at he
  | succ fuel ih =>
    intro d hok e he
    rw [decodeTrace] at he
    rcases hh : segmentHeader d with er | hdr
    · rw [hh] at he; simp at he
    · rw [hh] at he
      have hf := segmentHeader_frame d hdr hh
      cases hdr with
      | skip d1 =>
        simp only [] at he
        exact ih d1 (frameOK_of_frame d d1 hf hok) e he
      | eoi d1 => simp at he
      | seg d1 marker n =>
        simp only [List.mem_cons] at he
        have hok1 : d1.FrameOK := frameOK_of_frame d d1 hf hok
        rcases he with rfl | he
        · exact hok1
        · rcases hm : decodeMarker false d1 marker n with er | out
          · rw [hm] at he; simp at he
          · rw [hm] at he
            cases out with
            | next d2 =>
              simp only [] at he
              exact ih d2 (decodeMarker_frameOK d1 marker n _ hok1 hm d2 rfl) e he
            | eoi d2 => simp at he
            | ret d2 => simp at he

/-- The `switch` of `makeImg` does not reach its default case on components
whose ratios are as expected. -/
theorem makeImg_reachable (d : decoder) (mxx myy : Nat) (h : d.nComp = 1 ∨ RatioOK d.comp) :
    makeImg d mxx myy ≠ .error (.panic "unreachable") := by
  unfold makeImg
  by_cases h1 : d.nComp = 1
  · rw [if_pos h1]
    simp
  · rw [if_neg h1]
    rcases h with h | ⟨r1, r2, -, -, hm⟩
    · exact absurd h h1
    · simp only []
      rw [if_neg (by omega)]
      simp only [List.mem_cons, Prod.mk.injEq, List.mem_nil_iff, List.mem_singleton,
        or_false] at hm
      rcases hm with ⟨a, b⟩ | ⟨a, b⟩ | ⟨a, b⟩ | ⟨a, b⟩ | ⟨a, b⟩ | ⟨a, b⟩ <;>
        · rw [a, b]
          simp only [Nat.reduceShiftLeft, Nat.reduceOr, ↓reduceIte, Nat.reduceEqDiff]
          split <;> simp

/-- C30: after `processSOF` has succeeded on a frame of three or four
components, the luma-to-chroma sampling ratios `h0 / h1` and `v0 / v1` are
exact divisions (the divisors are not zero and leave no remainder) and the
pair is one of (1,1), (1,2), (2,1), (2,2), (4,1), (4,2), so `makeImg` does not
reach the `panic("unreachable")` of its `switch`; and for every input stream,
at every segment that the loop of `decode` meets, the decoder for which
`processSOS` has read a scan header, and on which it calls `makeImg`, does
not reach it either. -/
theorem C30_sampling_ratios (d d1 : decoder) (n : Nat) (hl : d.comp.length = maxComponents)
    (h : processSOF d n = .ok d1) (hn : d1.nComp = 3 ∨ d1.nComp = 4) :
    ((d1.comp.getD 1 component.zero).h ≠ 0 ∧ (d1.comp.getD 1 component.zero).v ≠ 0 ∧
      (d1.comp.getD 0 component.zero).h % (d1.comp.getD 1 component.zero).h = 0 ∧
      (d1.comp.getD 0 component.zero).v % (d1.comp.getD 1 component.zero).v = 0 ∧
      ((d1.comp.getD 0 component.zero).h / (d1.comp.getD 1 component.zero).h,
        (d1.comp.getD 0 component.zero).v / (d1.comp.getD 1 component.zero).v) ∈
          [(1, 1), (1, 2), (2, 1), (2, 2), (4, 1), (4, 2)]) ∧
    (∀ mxx myy, makeImg d1 mxx myy ≠ .error (.panic "unreachable")) ∧
    (∀ (r : List Nat) (e : decoder × Nat × Nat), e ∈ segmentsOf false r →
      ∀ (d2 : decoder) (hd : ScanHeader), scanHeader e.1 e.2.2 = .ok (d2, hd) →
        ∀ mxx myy, makeImg d2 mxx myy ≠ .error (.panic "unreachable")) := by
  obtain ⟨-, hr⟩ := processSOF_frameOK d d1 n hl h
  have hr1 : RatioOK d1.comp := by
    rcases hr with h1 | ⟨-, r⟩
    · omega
    · exact r
  refine ⟨hr1, fun mxx myy => makeImg_reachable d1 mxx myy (Or.inr hr1), ?_⟩
  intro r e he d2 hd hs mxx myy
  have hok : e.1.FrameOK := by
    unfold segmentsOf at he
    split at he
    · simp at he
    · split at he
      · simp at he
      · refine decodeTrace_frameOK _ _ ?_ e he
        exact ⟨List.length_replicate _ _, Or.inl rfl⟩
  have hf := scanHeader_frame e.1 d2 e.2.2 hd hs
  have hok2 := frameOK_of_frame e.1 d2 hf hok
  have hn0 : d2.nComp ≠ 0 := by
    rw [hf.2.2.2.1]
    intro h0
    unfold scanHeader at hs
    rw [if_pos h0] at hs
    simp at hs
  apply makeImg_reachable
  rcases hok2.2 with h0 | h1 | ⟨-, r⟩
  · exact absurd h0 hn0
  · exact Or.inl h1
  · exact Or.inr r

set_option maxRecDepth 1000000 in
theorem C30_sampling_ratios_witness :
    processSOF (decoder.init ratioFrame) 15 = .ok ratioFrameDecoder ∧
    ((ratioFrameDecoder.comp.getD 0 component.zero).h /
        (ratioFrameDecoder.comp.getD 1 component.zero).h,
      (ratioFrameDecoder.comp.getD 0 component.zero).v /
        (ratioFrameDecoder.comp.getD 1 component.zero).v) ∈
      [(1, 1), (1, 2), (2, 1), (2, 2), (4, 1), (4, 2)] ∧
    makeImg ratioFrameDecoder 1 1 ≠ .error (.panic "unreachable") :=
  ⟨by decide!,
    (C30_sampling_ratios (decoder.init ratioFrame) ratioFrameDecoder 15 (by decide)
      (by decide!) (by decide!)).1.2.2.2.2,
    (C30_sampling_ratios (decoder.init ratioFrame) ratioFrameDecoder 15 (by decide)
      (by decide!) (by decide!)).2.1 1 1⟩

end Jpeg

namespace Jpeg

/-! ## Scans that save coefficients -/

theorem forRange_inv_idx {σ : Type} (P : σ → Prop) (f : Nat → σ → Except Err σ) :
    ∀ (k i0 : Nat), (∀ i st st1, i0 ≤ i → i < i0 + k → P st → f i st = .ok st1 → P st1) →
      ∀ (st st1 : σ), P st → forRange f k i0 st = .ok st1 → P st1 := by
  intro k
  induction k with
  | zero =>
    intro i0 _ st st1 hP h
    rw [forRange] at h
    simp only [Except.ok.injEq] at h
    subst h
    exact hP
  | succ k ih =>
    intro i0 hf st st1 hP h
    rw [forRange] at h
    rcases hfi : f i0 st with e | st2
    · rw [hfi] at h; simp at h
    · rw [hfi] at h
      exact ih (i0 + 1) (fun i a b h1 h2 => hf i a b (by omega) (by omega)) st2 st1
        (hf i0 st st2 (Nat.le_refl _) (by omega) hP hfi) h

theorem decodeBlock_kept (d : decoder) (p : ScanParams) (sc : scanComp) (st0 st1 : ScanState)
    (b b1 : block) (h : decodeBlock d p sc st0 b = .ok (b1, st1)) :
    st1.img1 = st0.img1 ∧ st1.img3 = st0.img3 ∧ st1.blackPix = st0.blackPix ∧
      st1.progCoeffs = st0.progCoeffs := by
  unfold decodeBlock at h
  repeat' split at h
  all_goals first
    | (simp only [Except.ok.injEq, Prod.mk.injEq] at h
       obtain ⟨_, h2⟩ := h
       subst h2
       exact ⟨rfl, rfl, rfl, rfl⟩)
    | simp at h

/-- The end of the loop body in a scan that does not complete the blocks: the
coefficients are saved, no plane is written. -/
theorem finishBlock_kept (d : decoder) (p : ScanParams) (ci bx by_ idx : Nat) (b1 : block)
    (st st1 : ScanState) (hp : d.progressive ∧ (p.zigEnd ≠ blockSize - 1 ∨ p.al ≠ 0))
    (h : finishBlock d p ci bx by_ idx b1 st = .ok st1) :
    st1.img1 = st.img1 ∧ st1.img3 = st.img3 ∧ st1.blackPix = st.blackPix ∧
      ∀ c, c ≠ ci → st1.progCoeffs.getD c none = st.progCoeffs.getD c none := by
  unfold finishBlock at h
  rw [if_pos hp] at h
  repeat' split at h
  all_goals first
    | (simp only [Except.ok.injEq] at h
       subst h
       exact ⟨rfl, rfl, rfl, fun c hc => getD_set_ne _ _ _ _ _ (Ne.symm hc)⟩)
    | simp at h

theorem scanBlock_kept (d : decoder) (p : ScanParams) (mx my i j : Nat) (S st st1 : ScanState)
    (hp : d.progressive ∧ (p.zigEnd ≠ blockSize - 1 ∨ p.al ≠ 0)) (hi : i < p.nComp)
    (hP : ScanState.Kept p S st) (h : scanBlock d p mx my i j st = .ok st1) :
    ScanState.Kept p S st1 := by
  unfold scanBlock at h
  simp only [] at h
  generalize hst0 : (if p.nComp ≠ 1 then st
    else ({ st with blockCount := st.blockCount + 1 } : ScanState)) = st0 at h
  have hP0 : ScanState.Kept p S st0 := by
    rw [← hst0]
    split
    · exact hP
    · exact hP
  repeat' split at h
  all_goals first
    | (simp only [Except.ok.injEq] at h
       subst h
       exact hP0)
    | (rename_i hdec
       obtain ⟨a1, a2, a3, a4⟩ := decodeBlock_kept _ _ _ _ _ _ _ hdec
       obtain ⟨f1, f2, f3, f4⟩ := finishBlock_kept _ _ _ _ _ _ _ _ _ hp h
       obtain ⟨k1, k2, k3, k4⟩ := hP0
       exact ⟨by rw [f1, a1, k1], by rw [f2, a2, k2], by rw [f3, a3, k3],
         fun c hc => by rw [f4 c (Ne.symm (hc i hi)), a4, k4 c hc]⟩)
    | simp at h

theorem scanMCU_kept (d : decoder) (p : ScanParams) (mx my : Nat) (S st st1 : ScanState)
    (hp : d.progressive ∧ (p.zigEnd ≠ blockSize - 1 ∨ p.al ≠ 0))
    (hP : ScanState.Kept p S st) (h : scanMCU d p mx my st = .ok st1) :
    ScanState.Kept p S st1 := by
  unfold scanMCU at h
  refine forRange_inv_idx (ScanState.Kept p S) _ _ _ ?_ _ _ hP h
  intro i st2 st3 _ hi hP2 h2
  simp only [] at h2
  exact forRange_inv (ScanState.Kept p S) _
    (fun j st4 st5 hP4 h4 => scanBlock_kept d p mx my i j S st4 st5 hp (by omega) hP4 h4)
    _ _ _ _ hP2 h2

theorem scanRestart_kept (d : decoder) (p : ScanParams) (ms ms1 : McuState)
    (h : scanRestart d p ms = .ok ms1) :
    ms1.st.img1 = ms.st.img1 ∧ ms1.st.img3 = ms.st.img3 ∧ ms1.st.blackPix = ms.st.blackPix ∧
      ms1.st.progCoeffs = ms.st.progCoeffs := by
  unfold scanRestart at h
  simp only [] at h
  repeat' split at h
  all_goals first
    | (simp only [Except.ok.injEq] at h
       subst h
       exact ⟨rfl, rfl, rfl, rfl⟩)
    | simp at h

theorem scanStep_kept (d : decoder) (p : ScanParams) (my mx : Nat) (S : ScanState)
    (ms ms1 : McuState) (hp : d.progressive ∧ (p.zigEnd ≠ blockSize - 1 ∨ p.al ≠ 0))
    (hP : ScanState.Kept p S ms.st) (h : scanStep d p my mx ms = .ok ms1) :
    ScanState.Kept p S ms1.st := by
  unfold scanStep at h
  rcases hm : scanMCU d p mx my ms.st with e | st1
  · rw [hm] at h; simp at h
  · rw [hm] at h
    simp only [] at h
    obtain ⟨k1, k2, k3, k4⟩ := scanMCU_kept d p mx my S ms.st st1 hp hP hm
    obtain ⟨r1, r2, r3, r4⟩ := scanRestart_kept d p _ ms1 h
    exact ⟨by rw [r1]; exact k1, by rw [r2]; exact k2, by rw [r3]; exact k3,
      fun c hc => by rw [r4]; exact k4 c hc⟩

theorem scanLoop_kept (d : decoder) (p : ScanParams) (ms ms1 : McuState)
    (hp : d.progressive ∧ (p.zigEnd ≠ blockSize - 1 ∨ p.al ≠ 0))
    (h : scanLoop d p ms = .ok ms1) : ScanState.Kept p ms.st ms1.st := by
  unfold scanLoop at h
  refine forRange_inv (fun m : McuState => ScanState.Kept p ms.st m.st) _ ?_ _ _ _ _
    ⟨rfl, rfl, rfl, fun _ _ => rfl⟩ h
  intro my ms2 ms3 hP2 h2
  simp only [] at h2
  exact forRange_inv (fun m : McuState => ScanState.Kept p ms.st m.st) _
    (fun mx ms4 ms5 hP4 h4 => scanStep_kept d p my mx ms.st ms4 ms5 hp hP4 h4) _ _ _ _ hP2 h2

theorem scanHeader_fields (d dh : decoder) (n : Nat) (hd : ScanHeader)
    (h : scanHeader d n = .ok (dh, hd)) :
    dh.img1 = d.img1 ∧ dh.img3 = d.img3 ∧ dh.blackPix = d.blackPix ∧
      dh.progCoeffs = d.progCoeffs ∧ dh.progressive = d.progressive := by
  unfold scanHeader at h
  simp only [] at h
  repeat' split at h
  all_goals first
    | (simp only [Except.ok.injEq, Prod.mk.injEq] at h
       obtain ⟨h1, _⟩ := h
       subst h1
       exact ⟨rfl, rfl, rfl, rfl, rfl⟩)
    | simp at h

theorem makeImg_fields (d d2 : decoder) (mxx myy : Nat) (h : makeImg d mxx myy = .ok d2) :
    d2.progCoeffs = d.progCoeffs ∧ d2.progressive = d.progressive := by
  unfold makeImg at h
  simp only [] at h
  repeat' split at h
  all_goals first
    | (simp only [Except.ok.injEq] at h
       subst h
       exact ⟨rfl, rfl⟩)
    | simp at h

/-- The allocation of the coefficient buffers leaves the buffers of the
components that the scan does not name alone. -/
theorem allocProgCoeffs_other (d : decoder) (hd : ScanHeader) (mxx myy c : Nat)
    (hc : ∀ i < hd.nComp, (hd.scan.getD i scanComp.zero).compIndex ≠ c) :
    (allocProgCoeffs d hd mxx myy).getD c none = d.progCoeffs.getD c none := by
  unfold allocProgCoeffs
  split
  · have key : ∀ k, k ≤ hd.nComp →
        ((List.range k).foldl
          (fun pc i =>
            let compIndex := (hd.scan.getD i scanComp.zero).compIndex
            if pc.getD compIndex none = none then
              pc.set compIndex
                (some (List.replicate
                  (mxx * myy * (d.comp.getD compIndex component.zero).h *
                    (d.comp.getD compIndex component.zero).v) block.zero))
            else pc) d.progCoeffs).getD c none = d.progCoeffs.getD c none := by
      intro k
      induction k with
      | zero => intro _; rfl
      | succ k ih =>
        intro hk
        rw [List.range_succ, List.foldl_append]
        simp only [List.foldl_cons, List.foldl_nil]
        split
        · rw [getD_set_ne _ _ _ _ _ (hc k (by omega))]
          exact ih (by omega)
        · exact ih (by omega)
    exact key hd.nComp (Nat.le_refl _)
  · rfl

/-- What the set-up of a scan does to the image planes and the coefficient
buffers. -/
theorem scanSetup_planes (d d3 : decoder) (n : Nat) (p : ScanParams) (ms0 : McuState)
    (h : scanSetup d n = .ok (d3, p, ms0)) :
    d3.progressive = d.progressive ∧
    (ms0.st.img1 = d3.img1 ∧ ms0.st.img3 = d3.img3 ∧ ms0.st.blackPix = d3.blackPix ∧
      ms0.st.progCoeffs = d3.progCoeffs) ∧
    ((d.img1 ≠ none ∨ d.img3 ≠ none) →
      d3.img1 = d.img1 ∧ d3.img3 = d.img3 ∧ d3.blackPix = d.blackPix) ∧
    ((d.img1 = none ∧ d.img3 = none) →
      ∃ dh hd d2, scanHeader d n = .ok (dh, hd) ∧ makeImg dh p.mxx p.myy = .ok d2 ∧
        d3.img1 = d2.img1 ∧ d3.img3 = d2.img3 ∧ d3.blackPix = d2.blackPix) ∧
    (∀ c, (∀ i < p.nComp, (p.scan.getD i scanComp.zero).compIndex ≠ c) →
      d3.progCoeffs.getD c none = d.progCoeffs.getD c none) := by
  unfold scanSetup at h
  rcases hh : scanHeader d n with e | ⟨dh, hd⟩
  · rw [hh] at h; simp at h
  · rw [hh] at h
    simp only [] at h
    obtain ⟨a1, a2, a3, a4, a5⟩ := scanHeader_fields d dh n hd hh
    unfold scanAlloc at h
    simp only [] at h
    split at h
    · simp at h
    · split at h
      · simp at h
      · next d2 hmade =>
        simp only [Except.ok.injEq, Prod.mk.injEq] at h
        obtain ⟨h1, h2, h3⟩ := h
        subst h1 h2 h3
        by_cases hnone : dh.img1 = none ∧ dh.img3 = none
        · rw [if_pos hnone] at hmade
          obtain ⟨m1, m2⟩ := makeImg_fields _ _ _ _ hmade
          refine ⟨by rw [m2, a5], ⟨rfl, rfl, rfl, rfl⟩, ?_, ?_, ?_⟩
          · intro hsome
            rw [a1, a2] at hnone
            rcases hsome with hs | hs
            · exact absurd hnone.1 hs
            · exact absurd hnone.2 hs
          · intro _
            exact ⟨dh, hd, d2, rfl, hmade, rfl, rfl, rfl⟩
          · intro c hc
            rw [allocProgCoeffs_other d2 hd _ _ c hc, m1, a4]
        · rw [if_neg hnone] at hmade
          simp only [Except.ok.injEq] at hmade
          subst hmade
          refine ⟨a5, ⟨rfl, rfl, rfl, rfl⟩, ?_, ?_, ?_⟩
          · intro _
            exact ⟨a1, a2, a3⟩
          · intro hn
            rw [a1, a2] at hnone
            exact absurd hn hnone
          · intro c hc
            rw [allocProgCoeffs_other _ hd _ _ c hc, a4]

/-- C28 (amended): in a progressive frame, a scan whose header has `Se != 63`
or `Al != 0` writes no pixel. `processSOS` leaves every image plane (gray, Y,
Cb, Cr, black) as the set-up of the scan left it: unchanged when a plane was
allocated before the scan, and as `makeImg` has allocated them when the scan
is the first one of the frame. Of the persistent coefficient buffers it
changes only those of the components named in the scan. At the end of the
loop body no plane is written in such a scan, and the block is dequantized,
inverse-transformed and written (`reconstructBlock`) exactly when the frame is
not progressive or the scan has `Se = 63` and `Al = 0`. -/
theorem C28_nonfinal_scan_writes_no_pixel (d d1 d3 : decoder) (n : Nat) (p : ScanParams)
    (ms0 : McuState) (hprog : d.progressive = true)
    (hset : scanSetup d n = .ok (d3, p, ms0)) (hnf : p.zigEnd ≠ 63 ∨ p.al ≠ 0)
    (h : processSOS d n = .ok d1) :
    (d1.img1 = d3.img1 ∧ d1.img3 = d3.img3 ∧ d1.blackPix = d3.blackPix) ∧
    ((d.img1 ≠ none ∨ d.img3 ≠ none) →
      d1.img1 = d.img1 ∧ d1.img3 = d.img3 ∧ d1.blackPix = d.blackPix) ∧
    ((d.img1 = none ∧ d.img3 = none) →
      ∃ dh hd d2, scanHeader d n = .ok (dh, hd) ∧ makeImg dh p.mxx p.myy = .ok d2 ∧
        d1.img1 = d2.img1 ∧ d1.img3 = d2.img3 ∧ d1.blackPix = d2.blackPix) ∧
    (∀ c, (∀ i < p.nComp, (p.scan.getD i scanComp.zero).compIndex ≠ c) →
      d1.progCoeffs.getD c none = d.progCoeffs.getD c none) ∧
    (∀ (ci bx by_ idx : Nat) (b : block) (st st1 : ScanState),
      finishBlock d3 p ci bx by_ idx b st = .ok st1 →
      st1.img1 = st.img1 ∧ st1.img3 = st.img3 ∧ st1.blackPix = st.blackPix) ∧
    (∀ (d0 : decoder) (p0 : ScanParams) (ci bx by_ idx : Nat) (b : block) (st : ScanState),
      (d0.progressive = false ∨ (p0.zigEnd = 63 ∧ p0.al = 0)) →
      finishBlock d0 p0 ci bx by_ idx b st = reconstructBlock d0 ci bx by_ b st) := by
  have e63 : ((blockSize : Nat) : Int) - 1 = 63 := by decide
  obtain ⟨s1, ⟨s2, s3, s4, s5⟩, s6, s7, s8⟩ := scanSetup_planes d d3 n p ms0 hset
  have hp : d3.progressive ∧ (p.zigEnd ≠ blockSize - 1 ∨ p.al ≠ 0) := by
    rw [s1, hprog, e63]
    exact ⟨rfl, hnf⟩
  unfold processSOS at h
  rw [hset] at h
  simp only [] at h
  rcases hl : scanLoop d3 p ms0 with e | ms
  · rw [hl] at h; simp at h
  · rw [hl] at h
    simp only [Except.ok.injEq] at h
    subst h
    simp only []
    obtain ⟨k1, k2, k3, k4⟩ := scanLoop_kept d3 p ms0 ms hp hl
    have f1 : ms.st.img1 = d3.img1 := k1.trans s2
    have f2 : ms.st.img3 = d3.img3 := k2.trans s3
    have f3 : ms.st.blackPix = d3.blackPix := k3.trans s4
    refine ⟨⟨f1, f2, f3⟩, ?_, ?_, ?_, ?_, ?_⟩
    · intro hs
      obtain ⟨a, b, c⟩ := s6 hs
      exact ⟨f1.trans a, f2.trans b, f3.trans c⟩
    · intro hn
      obtain ⟨dh, hd, d2, a, b, c1, c2, c3⟩ := s7 hn
      exact ⟨dh, hd, d2, a, b, f1.trans c1, f2.trans c2, f3.trans c3⟩
    · intro c hc
      rw [k4 c hc, s5]
      exact s8 c hc
    · intro ci bx by_ idx b st st1 hf
      obtain ⟨a, b, c, -⟩ := finishBlock_kept d3 p ci bx by_ idx _ st st1 hp hf
      exact ⟨a, b, c⟩
    · intro d0 p0 ci bx by_ idx b st hfin
      unfold finishBlock
      rw [if_neg]
      rw [e63]
      rintro ⟨q1, q2⟩
      rcases hfin with q | ⟨q3, q4⟩
      · rw [q] at q1
        exact absurd q1 (by decide)
      · rcases q2 with q2 | q2
        · exact q2 q3
        · exact q2 q4

set_option maxRecDepth 1000000 in
set_option maxHeartbeats 4000000 in
theorem C28_nonfinal_scan_writes_no_pixel_witness :
    eobSecondScan.img1 ≠ none ∧ processSOS eobSecondScan 6 = .ok eobSecondDone ∧
    (eobSecondDone.img1 = eobSecondScan.img1 ∧ eobSecondDone.img3 = eobSecondScan.img3 ∧
      eobSecondDone.blackPix = eobSecondScan.blackPix) :=
  ⟨by decide!, by decide!,
    (C28_nonfinal_scan_writes_no_pixel eobSecondScan eobSecondDone eobSecondSetup.1 6
      eobSecondSetup.2.1 eobSecondSetup.2.2 (by decide!) (by decide!) (by decide!)
      (by decide!)).2.1 (Or.inl (by decide!))⟩

set_option maxRecDepth 1000000 in
/-- C28 (counterexample): the first scan of the progressive stream `eobStream`
has `Se = 0`. Before it the decoder holds no gray plane; `processSOS` returns
without error and the decoder then holds a gray plane of 64 zero bytes. -/
theorem C28_first_scan_allocates_planes :
    eobFirstScan.progressive = true ∧
    (scanSetup eobFirstScan 6).toOption.map (fun x => (x.2.1.zigEnd, x.2.1.al)) = some (0, 0) ∧
    eobFirstScan.img1 = none ∧
    (processSOS eobFirstScan 6).toOption.map (fun d => d.img1) =
      some (some { Pix := List.replicate 64 0, Stride := 8, W := 8, H := 8 }) := by
  decide!

end Jpeg

namespace Jpeg

/-! ## Refinement of non-zero coefficients -/

/-- A bit that `decodeBit` returns is the next unread bit. -/
theorem decodeBit_read (s s1 : Stream) (c : Bool) (hok : s.OK)
    (h : decodeBit s = .ok (c, s1)) : s1.OK ∧ unreadBits s = c :: unreadBits s1 := by
  unfold decodeBit at h
  have key : ∀ s2 : Stream, s2.OK → 0 < s2.bits.n → unreadBits s2 = unreadBits s →
      (.ok (decide (s2.bits.a &&& s2.bits.m ≠ 0),
        ({ s2 with bits := { a := s2.bits.a, m := s2.bits.m >>> 1,
                             n := wrap32 (s2.bits.n - 1) } } : Stream)) :
        Except Err (Bool × Stream)) = .ok (c, s1) →
      s1.OK ∧ unreadBits s = c :: unreadBits s1 := by
    intro s2 ok2 hpos hu he
    simp only [Except.ok.injEq, Prod.mk.injEq] at he
    obtain ⟨e1, e2⟩ := he
    have hne : unreadBits s2 ≠ [] := by
      intro hnil
      have := congrArg List.length hnil
      simp only [unreadBits, List.length_append, codeBits_length, List.length_nil] at this
      omega
    obtain ⟨x, rest, hx⟩ := List.exists_cons_of_ne_nil hne
    obtain ⟨t1, t2, t3⟩ := takeBit_pos s2 x rest ok2 hpos hx
    rw [e2] at t2 t3
    rw [← hu, hx, ← e1, t1, t3]
    exact ⟨t2, rfl⟩
  by_cases hz : s.bits.n = 0
  · rw [if_pos hz] at h
    rcases hh : stuffedHead s.bytes.pending with _ | ⟨x, rest⟩
    · obtain ⟨s2, e, e1, -⟩ := ensureNBits_fail s 1 hok hh
      rw [e1] at h
      simp at h
    · obtain ⟨s2, e1, e2, e3, e4, -⟩ := ensureNBits_ok s 1 x rest hok (by omega) (by omega) hh
      rw [e1] at h
      exact key s2 e2 (by omega) e4 h
  · rw [if_neg hz] at h
    have := hok.2.1.1
    exact key s hok (by omega) rfl h

theorem nonZeroCount_congr (b b1 : block) : ∀ (len z : Nat),
    (∀ k, z ≤ k → k < z + len → b1.getD (unzig.getD k 0) 0 = b.getD (unzig.getD k 0) 0) →
    nonZeroCount b1 z len = nonZeroCount b z len := by
  intro len
  induction len with
  | zero => intro _ _; rfl
  | succ len ih =>
    intro z h
    simp only [nonZeroCount]
    rw [h z (Nat.le_refl _) (by omega), ih (z + 1) (fun k h1 h2 => h k (by omega) (by omega))]

theorem zeroCount_congr (b b1 : block) : ∀ (len z : Nat),
    (∀ k, z ≤ k → k < z + len → b1.getD (unzig.getD k 0) 0 = b.getD (unzig.getD k 0) 0) →
    zeroCount b1 z len = zeroCount b z len := by
  intro len
  induction len with
  | zero => intro _ _; rfl
  | succ len ih =>
    intro z h
    simp only [zeroCount]
    rw [h z (Nat.le_refl _) (by omega), ih (z + 1) (fun k h1 h2 => h k (by omega) (by omega))]

theorem unzig_ne (z k : Nat) (hz : z < 64) (hk : k < 64) (h : z ≠ k) :
    unzig.getD k 0 ≠ unzig.getD z 0 :=
  fun e => h (unzig_inj z hz k hk e.symm)

/-- The loop of `refineNonZeroes` skips a zero coefficient. -/
theorem refined_skip (delta : Int) (ze : Nat) (s : Stream) (b : block) (z : Nat) (nz nz1 : Int)
    (y : Nat) (b1 : block) (s1 : Stream) (cs : List Bool) (hze : ze ≤ 63) (hz : z ≤ ze)
    (h0 : b.getD (unzig.getD z 0) 0 = 0) (hnz : nz ≠ 0)
    (hnz1 : 0 ≤ nz → nz < 2147483648 → nz1 = nz - 1)
    (h : RefinedTo delta ze s b (z + 1) nz1 y b1 s1 cs) :
    RefinedTo delta ze s b z nz y b1 s1 cs := by
  obtain ⟨r1, r2, r3, r4, r5, r6, r7, r8, r9⟩ := h
  have hlen : y - z = (y - (z + 1)) + 1 := by omega
  have hcnt : ∀ k, z + 1 ≤ k → nonZeroCount b z (k - z) = nonZeroCount b (z + 1) (k - (z + 1)) := by
    intro k hk
    rw [show k - z = (k - (z + 1)) + 1 by omega]
    simp only [nonZeroCount, h0, ne_eq, not_true_eq_false, ↓reduceIte, Nat.zero_add]
  have hzc : zeroCount b z (y - z) = 1 + zeroCount b (z + 1) (y - (z + 1)) := by
    rw [hlen]
    simp only [zeroCount, h0, ↓reduceIte]
  have hsame : b1.getD (unzig.getD z 0) 0 = b.getD (unzig.getD z 0) 0 :=
    r7 _ (fun k h1 h2 => unzig_ne z k (by omega) (by omega) (by omega))
  refine ⟨by omega, r2, r3, r4, by rw [hcnt y r1]; exact r5, r6, ?_, ?_, ?_⟩
  · intro u hu
    exact r7 u (fun k h1 h2 => hu k (by omega) h2)
  · intro k h1 h2
    by_cases hk : k = z
    · subst hk
      rw [hsame, h0]
      simp [corrected]
    · rw [hcnt k (by omega)]
      exact r8 k (by omega) h2
  · intro p1 p2
    obtain ⟨q1, q2⟩ := r9 (by rw [hnz1 p1 p2]; omega) (by rw [hnz1 p1 p2]; omega)
    rw [hzc, hnz1 p1 p2] at *
    constructor
    · intro hy
      obtain ⟨a, c⟩ := q1 hy
      exact ⟨a, by push_cast; omega⟩
    · intro hy
      have := q2 hy
      push_cast
      omega

/-- The loop of `refineNonZeroes` reads the correction bit of a non-zero
coefficient. -/
theorem refined_bit (delta : Int) (ze : Nat) (s s0 : Stream) (b b0 : block) (z : Nat) (nz : Int)
    (y : Nat) (b1 : block) (s1 : Stream) (cs : List Bool) (c : Bool) (hze : ze ≤ 63)
    (hz : z ≤ ze) (h0 : b.getD (unzig.getD z 0) 0 ≠ 0)
    (hs : unreadBits s = c :: unreadBits s0) (hl : b0.length = b.length)
    (ho : ∀ u, u ≠ unzig.getD z 0 → b0.getD u 0 = b.getD u 0)
    (hu : b0.getD (unzig.getD z 0) 0 = corrected delta (b.getD (unzig.getD z 0) 0) c)
    (h : RefinedTo delta ze s0 b0 (z + 1) nz y b1 s1 cs) :
    RefinedTo delta ze s b z nz y b1 s1 (c :: cs) := by
  obtain ⟨r1, r2, r3, r4, r5, r6, r7, r8, r9⟩ := h
  have hlen : y - z = (y - (z + 1)) + 1 := by omega
  have hat : ∀ k, z + 1 ≤ k → k ≤ 63 →
      b0.getD (unzig.getD k 0) 0 = b.getD (unzig.getD k 0) 0 :=
    fun k h1 h2 => ho _ (unzig_ne z k (by omega) (by omega) (by omega))
  have hcnt : ∀ k, z + 1 ≤ k → k ≤ ze + 1 →
      nonZeroCount b z (k - z) = 1 + nonZeroCount b0 (z + 1) (k - (z + 1)) := by
    intro k hk hk2
    rw [show k - z = (k - (z + 1)) + 1 by omega]
    simp only [nonZeroCount, h0, ne_eq, not_false_eq_true, ↓reduceIte]
    rw [nonZeroCount_congr b b0 _ _ (fun j j1 j2 => hat j j1 (by omega))]
  have hzc : zeroCount b z (y - z) = zeroCount b0 (z + 1) (y - (z + 1)) := by
    rw [hlen]
    simp only [zeroCount, h0, ↓reduceIte, Nat.zero_add]
    rw [zeroCount_congr b b0 _ _ (fun j j1 j2 => hat j j1 (by omega))]
  have hsame : b1.getD (unzig.getD z 0) 0 = b0.getD (unzig.getD z 0) 0 :=
    r7 _ (fun k h1 h2 => unzig_ne z k (by omega) (by omega) (by omega))
  refine ⟨by omega, r2, r3, ?_, ?_, r6.trans hl, ?_, ?_, ?_⟩
  · rw [hs, r4]
    rfl
  · rw [hcnt y r1 r2, List.length_cons, r5]
    omega
  · intro u hu1
    rw [r7 u (fun k h1 h2 => hu1 k (by omega) h2)]
    exact ho u (fun e => hu1 z (Nat.le_refl _) (by omega) e.symm)
  · intro k h1 h2
    by_cases hk : k = z
    · subst hk
      rw [hsame, hu, Nat.sub_self]
      rfl
    · rw [hcnt k (by omega) (by omega), r8 k (by omega) h2, hat k (by omega) (by omega),
        Nat.add_comm 1, List.getD_cons_succ]
  · intro p1 p2
    obtain ⟨q1, q2⟩ := r9 p1 p2
    rw [hzc]
    constructor
    · intro hy
      obtain ⟨a, c⟩ := q1 hy
      exact ⟨by rw [← hat y r1 (by omega)]; exact a, c⟩
    · exact q2

theorem refined_stop (delta : Int) (ze : Nat) (s : Stream) (b : block) (z : Nat) (nz : Int)
    (hok : s.OK) (hz : z ≤ ze + 1)
    (h : z ≤ ze → b.getD (unzig.getD z 0) 0 = 0 ∧ nz = 0) :
    RefinedTo delta ze s b z nz z b s [] := by
  refine ⟨Nat.le_refl _, hz, hok, rfl, ?_, rfl, fun _ _ => rfl, ?_, ?_⟩
  · rw [Nat.sub_self]; rfl
  · intro k h1 h2
    omega
  · intro p1 _
    rw [Nat.sub_self]
    constructor
    · intro hy
      obtain ⟨a, c⟩ := h hy
      exact ⟨a, by rw [c]; rfl⟩
    · intro _
      exact p1

/-- The loop of `refineNonZeroes` on a stream whose state is well formed and a
block that the corrections do not overflow. -/
theorem refineNonZeroesLoop_spec (delta : Int) (ze : Nat) (hze : ze ≤ 63) (hd0 : 0 < delta) :
    ∀ (fuel : Nat) (s : Stream) (b : block) (z : Nat) (nz z1 : Int) (b1 : block) (s1 : Stream),
      s.OK → b.length = 64 → z ≤ ze + 1 → ze + 1 - z ≤ fuel →
      (∀ k, z ≤ k → k ≤ ze →
        -2147483648 ≤ b.getD (unzig.getD k 0) 0 - delta ∧
          b.getD (unzig.getD k 0) 0 + delta < 2147483648) →
      refineNonZeroesLoop delta ze fuel s b z nz = .ok (z1, b1, s1) →
      ∃ (y : Nat) (cs : List Bool), z1 = (y : Int) ∧ RefinedTo delta ze s b z nz y b1 s1 cs := by
  intro fuel
  induction fuel with
  | zero =>
    intro s b z nz z1 b1 s1 hok hlen hz hfuel hb h
    rw [refineNonZeroesLoop] at h
    rw [if_neg (by omega)] at h
    simp only [Except.ok.injEq, Prod.mk.injEq] at h
    obtain ⟨rfl, rfl, rfl⟩ := h
    exact ⟨z, [], rfl, refined_stop delta ze _ _ z nz hok hz (fun hh => absurd hh (by omega))⟩
  | succ fuel ih =>
    intro s b z nz z1 b1 s1 hok hlen hz hfuel hb h
    rw [refineNonZeroesLoop] at h
    by_cases hle : (z : Int) ≤ (ze : Int)
    · rw [if_pos hle] at h
      simp only [Int.toNat_ofNat] at h
      have hzle : z ≤ ze := by omega
      have hw : wrap32 ((z : Int) + 1) = ((z + 1 : Nat) : Int) := by
        rw [wrap32_id _ (by omega) (by omega)]
        push_cast
        rfl
      rw [hw] at h
      by_cases h0 : b.getD (unzig.getD z 0) 0 = 0
      · rw [if_pos h0] at h
        by_cases hnz : nz = 0
        · rw [if_pos hnz] at h
          simp only [Except.ok.injEq, Prod.mk.injEq] at h
          obtain ⟨rfl, rfl, rfl⟩ := h
          exact ⟨z, [], rfl, refined_stop delta ze _ _ z nz hok hz (fun _ => ⟨h0, hnz⟩)⟩
        · rw [if_neg hnz] at h
          obtain ⟨y, cs, e, r⟩ := ih s b (z + 1) _ z1 b1 s1 hok hlen (by omega) (by omega)
            (fun k h1 h2 => hb k (by omega) h2) h
          exact ⟨y, cs, e, refined_skip delta ze s b z nz _ y b1 s1 cs hze hzle h0 hnz
            (fun p1 p2 => wrap32_id _ (by omega) (by omega)) r⟩
      · rw [if_neg h0] at h
        rcases hd : decodeBit s with e | ⟨c, s0⟩
        · rw [hd] at h
          simp at h
        · rw [hd] at h
          simp only [] at h
          obtain ⟨ok0, hs⟩ := decodeBit_read s s0 c hok hd
          have hu64 : unzig.getD z 0 < 64 := unzig_lt z (by omega)
          by_cases hc : c = true
          · rw [if_neg (by simp [hc])] at h
            obtain ⟨bd1, bd2⟩ := hb z (Nat.le_refl _) hzle
            obtain ⟨b0, hb0⟩ : ∃ b0 : block, b0 =
                b.set (unzig.getD z 0) (corrected delta (b.getD (unzig.getD z 0) 0) c) :=
              ⟨_, rfl⟩
            have hb0e : (if b.getD (unzig.getD z 0) 0 ≥ 0 then
                  b.set (unzig.getD z 0) (add32 (b.getD (unzig.getD z 0) 0) delta)
                else b.set (unzig.getD z 0) (sub32 (b.getD (unzig.getD z 0) 0) delta)) = b0 := by
              have hcor : corrected delta (b.getD (unzig.getD z 0) 0) c =
                  if b.getD (unzig.getD z 0) 0 > 0 then b.getD (unzig.getD z 0) 0 + delta
                  else b.getD (unzig.getD z 0) 0 - delta := by
                unfold corrected
                rw [if_pos ⟨h0, hc⟩]
              rw [hb0, hcor]
              by_cases hp : b.getD (unzig.getD z 0) 0 ≥ 0
              · have hp1 : b.getD (unzig.getD z 0) 0 > 0 := by omega
                rw [if_pos hp, if_pos hp1, add32, wrap32_id _ (by omega) (by omega)]
              · have hp1 : ¬ b.getD (unzig.getD z 0) 0 > 0 := by omega
                rw [if_neg hp, if_neg hp1, sub32, wrap32_id _ (by omega) (by omega)]
            rw [hb0e] at h
            have hl0 : b0.length = b.length := by rw [hb0, List.length_set]
            have ho : ∀ u, u ≠ unzig.getD z 0 → b0.getD u 0 = b.getD u 0 := by
              intro u hu
              rw [hb0]
              exact getD_set_ne _ _ _ _ _ (Ne.symm hu)
            have hu : b0.getD (unzig.getD z 0) 0 =
                corrected delta (b.getD (unzig.getD z 0) 0) c := by
              rw [hb0]
              exact getD_set_eq _ _ _ _ (by omega)
            obtain ⟨y, cs, e, r⟩ := ih s0 b0 (z + 1) nz z1 b1 s1 ok0 (by omega) (by omega)
              (by omega)
              (fun k h1 h2 => by
                rw [ho _ (unzig_ne z k (by omega) (by omega) (by omega))]
                exact hb k (by omega) h2) h
            exact ⟨y, c :: cs, e, refined_bit delta ze s s0 b b0 z nz y b1 s1 cs c hze hzle h0
              hs hl0 ho hu r⟩
          · rw [if_pos (by simp [hc])] at h
            obtain ⟨y, cs, e, r⟩ := ih s0 b (z + 1) nz z1 b1 s1 ok0 hlen (by omega) (by omega)
              (fun k h1 h2 => hb k (by omega) h2) h
            have hu : b.getD (unzig.getD z 0) 0 =
                corrected delta (b.getD (unzig.getD z 0) 0) c := by
              simp [corrected, hc]
            exact ⟨y, c :: cs, e, refined_bit delta ze s s0 b b z nz y b1 s1 cs c hze hzle h0
              hs rfl (fun _ _ => rfl) hu r⟩
    · rw [if_neg hle] at h
      simp only [Except.ok.injEq, Prod.mk.injEq] at h
      obtain ⟨rfl, rfl, rfl⟩ := h
      exact ⟨z, [], rfl, refined_stop delta ze _ _ z nz hok hz (fun hh => absurd hh (by omega))⟩

/-- What the loop of `refineNonZeroes` does to the coefficients and where it
stops, whatever the stream holds. -/
theorem refineNonZeroesLoop_coeffs (delta : Int) (ze : Nat) (hze : ze ≤ 63) (hd0 : 0 < delta) :
    ∀ (fuel : Nat) (s : Stream) (b : block) (z : Nat) (nz z1 : Int) (b1 : block) (s1 : Stream),
      b.length = 64 → z ≤ ze + 1 →
      (∀ k, z ≤ k → k ≤ ze →
        -2147483648 ≤ b.getD (unzig.getD k 0) 0 - delta ∧
          b.getD (unzig.getD k 0) 0 + delta < 2147483648) →
      refineNonZeroesLoop delta ze fuel s b z nz = .ok (z1, b1, s1) →
      ∃ y : Nat, z1 = (y : Int) ∧ z ≤ y ∧ y ≤ ze + 1 ∧ b1.length = 64 ∧
        (∀ u, (∀ k, z ≤ k → k < y → unzig.getD k 0 ≠ u) → b1.getD u 0 = b.getD u 0) ∧
        (∀ k, z ≤ k → k < y → ∃ bit,
          b1.getD (unzig.getD k 0) 0 = corrected delta (b.getD (unzig.getD k 0) 0) bit) ∧
        (0 ≤ nz → nz < 2147483648 →
          (y ≤ ze → b.getD (unzig.getD y 0) 0 = 0 ∧ (zeroCount b z (y - z) : Int) = nz) ∧
          (y = ze + 1 → (zeroCount b z (y - z) : Int) ≤ nz)) := by
  intro fuel
  induction fuel with
  | zero =>
    intro s b z nz z1 b1 s1 hlen hz hb h
    rw [refineNonZeroesLoop] at h
    split at h
    · simp at h
    · rename_i hle
      simp only [Except.ok.injEq, Prod.mk.injEq] at h
      obtain ⟨rfl, rfl, rfl⟩ := h
      refine ⟨z, rfl, Nat.le_refl _, hz, hlen, fun _ _ => rfl, fun k h1 h2 => by omega,
        fun p1 _ => ⟨fun hy => absurd (Int.ofNat_le.mpr hy) hle, fun _ => ?_⟩⟩
      rw [Nat.sub_self]
      exact p1
  | succ fuel ih =>
    intro s b z nz z1 b1 s1 hlen hz hb h
    rw [refineNonZeroesLoop] at h
    by_cases hle : (z : Int) ≤ (ze : Int)
    · rw [if_pos hle] at h
      simp only [Int.toNat_ofNat] at h
      have hzle : z ≤ ze := by omega
      have hw : wrap32 ((z : Int) + 1) = ((z + 1 : Nat) : Int) := by
        rw [wrap32_id _ (by omega) (by omega)]
        push_cast
        rfl
      rw [hw] at h
      have lift : ∀ (b0 : block) (bit : Bool) (nz0 : Int) (s0 : Stream) (dz : Nat),
          b0.length = 64 →
          (∀ u, u ≠ unzig.getD z 0 → b0.getD u 0 = b.getD u 0) →
          b0.getD (unzig.getD z 0) 0 = corrected delta (b.getD (unzig.getD z 0) 0) bit →
          (if b.getD (unzig.getD z 0) 0 = 0 then 1 else 0) = dz →
          (0 ≤ nz → nz < 2147483648 → nz0 = nz - dz ∧ 0 ≤ nz0) →
          refineNonZeroesLoop delta ze fuel s0 b0 ((z + 1 : Nat) : Int) nz0 = .ok (z1, b1, s1) →
          ∃ y : Nat, z1 = (y : Int) ∧ z ≤ y ∧ y ≤ ze + 1 ∧ b1.length = 64 ∧
            (∀ u, (∀ k, z ≤ k → k < y → unzig.getD k 0 ≠ u) → b1.getD u 0 = b.getD u 0) ∧
            (∀ k, z ≤ k → k < y → ∃ bit,
              b1.getD (unzig.getD k 0) 0 = corrected delta (b.getD (unzig.getD k 0) 0) bit) ∧
            (0 ≤ nz → nz < 2147483648 →
              (y ≤ ze → b.getD (unzig.getD y 0) 0 = 0 ∧ (zeroCount b z (y - z) : Int) = nz) ∧
              (y = ze + 1 → (zeroCount b z (y - z) : Int) ≤ nz)) := by
        intro b0 bit nz0 s0 dz hl0 ho hu hdz hn h
        have hat : ∀ k, z + 1 ≤ k → k ≤ 63 →
            b0.getD (unzig.getD k 0) 0 = b.getD (unzig.getD k 0) 0 :=
          fun k h1 h2 => ho _ (unzig_ne z k (by omega) (by omega) (by omega))
        obtain ⟨y, e, r1, r2, r3, r4, r5, r6⟩ := ih s0 b0 (z + 1) nz0 z1 b1 s1 hl0 (by omega)
          (fun k h1 h2 => by rw [hat k h1 (by omega)]; exact hb k (by omega) h2) h
        have hzc : zeroCount b z (y - z) = dz + zeroCount b0 (z + 1) (y - (z + 1)) := by
          rw [show y - z = (y - (z + 1)) + 1 by omega]
          simp only [zeroCount]
          rw [hdz, zeroCount_congr b b0 _ _ (fun j j1 j2 => hat j j1 (by omega))]
        refine ⟨y, e, by omega, r2, r3, ?_, ?_, ?_⟩
        · intro u hu1
          rw [r4 u (fun k h1 h2 => hu1 k (by omega) h2)]
          exact ho u (fun e => hu1 z (Nat.le_refl _) (by omega) e.symm)
        · intro k h1 h2
          by_cases hk : k = z
          · subst hk
            refine ⟨bit, ?_⟩
            rw [r4 _ (fun j j1 j2 => unzig_ne k j (by omega) (by omega) (by omega)), hu]
          · obtain ⟨bt, hbt⟩ := r5 k (by omega) h2
            exact ⟨bt, by rw [hbt, hat k (by omega) (by omega)]⟩
        · intro p1 p2
          obtain ⟨n1, n2⟩ := hn p1 p2
          obtain ⟨q1, q2⟩ := r6 n2 (by omega)
          rw [hzc]
          constructor
          · intro hy
            obtain ⟨a, c⟩ := q1 hy
            rw [hat y r1 (by omega)] at a
            exact ⟨a, by push_cast; omega⟩
          · intro hy
            have := q2 hy
            push_cast
            omega
      by_cases h0 : b.getD (unzig.getD z 0) 0 = 0
      · rw [if_pos h0] at h
        by_cases hnz : nz = 0
        · rw [if_pos hnz] at h
          simp only [Except.ok.injEq, Prod.mk.injEq] at h
          obtain ⟨rfl, rfl, rfl⟩ := h
          refine ⟨z, rfl, Nat.le_refl _, hz, hlen, fun _ _ => rfl, fun k h1 h2 => by omega,
            fun p1 _ => ?_⟩
          rw [Nat.sub_self]
          exact ⟨fun _ => ⟨h0, by rw [hnz]; rfl⟩, fun _ => p1⟩
        · rw [if_neg hnz] at h
          exact lift b false _ s 1 hlen (fun _ _ => rfl) (by simp [corrected])
            (by rw [if_pos h0])
            (fun p1 p2 => by rw [wrap32_id _ (by omega) (by omega)]; omega) h
      · rw [if_neg h0] at h
        rcases hd : decodeBit s with e | ⟨c, s0⟩
        · rw [hd] at h
          simp at h
        · rw [hd] at h
          simp only [] at h
          have hu64 : unzig.getD z 0 < 64 := unzig_lt z (by omega)
          by_cases hc : c = true
          · rw [if_neg (by simp [hc])] at h
            obtain ⟨bd1, bd2⟩ := hb z (Nat.le_refl _) hzle
            have hcor : corrected delta (b.getD (unzig.getD z 0) 0) c =
                if b.getD (unzig.getD z 0) 0 > 0 then b.getD (unzig.getD z 0) 0 + delta
                else b.getD (unzig.getD z 0) 0 - delta := by
              unfold corrected
              rw [if_pos ⟨h0, hc⟩]
            have hb0e : (if b.getD (unzig.getD z 0) 0 ≥ 0 then
                  b.set (unzig.getD z 0) (add32 (b.getD (unzig.getD z 0) 0) delta)
                else b.set (unzig.getD z 0) (sub32 (b.getD (unzig.getD z 0) 0) delta)) =
                b.set (unzig.getD z 0) (corrected delta (b.getD (unzig.getD z 0) 0) c) := by
              rw [hcor]
              by_cases hp : b.getD (unzig.getD z 0) 0 ≥ 0
              · have hp1 : b.getD (unzig.getD z 0) 0 > 0 := by omega
                rw [if_pos hp, if_pos hp1, add32, wrap32_id _ (by omega) (by omega)]
              · have hp1 : ¬ b.getD (unzig.getD z 0) 0 > 0 := by omega
                rw [if_neg hp, if_neg hp1, sub32, wrap32_id _ (by omega) (by omega)]
            rw [hb0e] at h
            exact lift _ c nz s0 0 (by rw [List.length_set]; exact hlen)
              (fun u hu => getD_set_ne _ _ _ _ _ (Ne.symm hu))
              (getD_set_eq _ _ _ _ (by omega)) (by rw [if_neg h0])
              (fun p1 p2 => ⟨by push_cast; omega, p1⟩) h
          · rw [if_pos (by simp [hc])] at h
            exact lift b false nz s0 0 hlen (fun _ _ => rfl) (by simp [corrected])
              (by rw [if_neg h0]) (fun p1 p2 => ⟨by push_cast; omega, p1⟩) h
    · rw [if_neg hle] at h
      simp only [Except.ok.injEq, Prod.mk.injEq] at h
      obtain ⟨rfl, rfl, rfl⟩ := h
      refine ⟨z, rfl, Nat.le_refl _, hz, hlen, fun _ _ => rfl, fun k h1 h2 => by omega,
        fun p1 _ => ⟨fun hy => absurd (Int.ofNat_le.mpr hy) hle, fun _ => ?_⟩⟩
      rw [Nat.sub_self]
      exact p1

theorem acRefined_self (delta c : Int) : acRefined delta c c :=
  ⟨fun _ => ⟨false, by simp [corrected]⟩, fun h => Or.inl h⟩

theorem refinedUpTo_mono (delta : Int) (zs : Nat) (b bc : block) (z y : Nat) (hzy : z ≤ y)
    (hy : y ≤ 64) (h : RefinedUpTo delta zs b bc z) : RefinedUpTo delta zs b bc y := by
  obtain ⟨r1, r2, r3⟩ := h
  refine ⟨r1, fun u hu => r2 u (fun k h1 h2 => hu k h1 (by omega)), ?_⟩
  intro k h1 h2
  by_cases hk : k < z
  · exact r3 k h1 hk
  · rw [r2 _ (fun j j1 j2 => unzig_ne k j (by omega) (by omega) (by omega))]
    exact acRefined_self _ _

/-- A call of `refineNonZeroes` inside AC refinement. -/
theorem refineNonZeroes_upTo (delta : Int) (zs ze : Nat) (hze : ze ≤ 63) (hd0 : 0 < delta)
    (b bc b1 : block) (z : Nat) (nz z1 : Int) (s s1 : Stream) (hzs : zs ≤ z) (hz : z ≤ ze + 1)
    (hb : ∀ k, zs ≤ k → k ≤ ze →
      -2147483648 ≤ b.getD (unzig.getD k 0) 0 - delta ∧
        b.getD (unzig.getD k 0) 0 + delta < 2147483648)
    (hm : RefinedUpTo delta zs b bc z)
    (h : refineNonZeroes s bc z ze nz delta = .ok (z1, b1, s1)) :
    ∃ y : Nat, z1 = (y : Int) ∧ z ≤ y ∧ y ≤ ze + 1 ∧ RefinedUpTo delta zs b b1 y ∧
      (0 ≤ nz → nz < 2147483648 → y ≤ ze →
        b.getD (unzig.getD y 0) 0 = 0 ∧ b1.getD (unzig.getD y 0) 0 = 0) := by
  obtain ⟨m1, m2, m3⟩ := hm
  have hat : ∀ k, z ≤ k → k ≤ 63 → bc.getD (unzig.getD k 0) 0 = b.getD (unzig.getD k 0) 0 :=
    fun k h1 h2 => m2 _ (fun j j1 j2 => unzig_ne k j (by omega) (by omega) (by omega))
  unfold refineNonZeroes at h
  obtain ⟨y, e, r1, r2, r3, r4, r5, r6⟩ := refineNonZeroesLoop_coeffs delta ze hze hd0 _ s bc z nz
    z1 b1 s1 m1 hz
    (fun k h1 h2 => by rw [hat k h1 (by omega)]; exact hb k (by omega) h2) h
  refine ⟨y, e, r1, r2, ⟨r3, ?_, ?_⟩, ?_⟩
  · intro u hu
    rw [r4 u (fun k h1 h2 => hu k (by omega) h2)]
    exact m2 u (fun k h1 h2 => hu k h1 (by omega))
  · intro k h1 h2
    by_cases hk : k < z
    · rw [r4 _ (fun j j1 j2 => unzig_ne k j (by omega) (by omega) (by omega))]
      exact m3 k h1 hk
    · obtain ⟨bit, hbit⟩ := r5 k (by omega) h2
      rw [hbit, hat k (by omega) (by omega)]
      refine ⟨fun _ => ⟨bit, rfl⟩, fun h0 => Or.inl ?_⟩
      rw [h0]
      simp [corrected]
  · intro p1 p2 hy
    have h0 := ((r6 p1 p2).1 hy).1
    rw [hat y r1 (by omega)] at h0
    refine ⟨h0, ?_⟩
    rw [r4 _ (fun j j1 j2 => unzig_ne y j (by omega) (by omega) (by omega)), hat y r1 (by omega)]
    exact h0

/-- The insertion of a new coefficient behind a call of `refineNonZeroes`. -/
theorem insert_upTo (delta : Int) (zs : Nat) (b b1 : block) (y : Nat) (zv : Int) (hy : y ≤ 63)
    (hzs : zs ≤ y) (hzv : zv = 0 ∨ zv = delta ∨ zv = -delta)
    (h0 : b.getD (unzig.getD y 0) 0 = 0 ∧ b1.getD (unzig.getD y 0) 0 = 0)
    (hm : RefinedUpTo delta zs b b1 y) :
    RefinedUpTo delta zs b (if zv ≠ 0 then b1.set (unzig.getD y 0) zv else b1) (y + 1) := by
  obtain ⟨m1, m2, m3⟩ := hm
  have hu64 : unzig.getD y 0 < 64 := unzig_lt y (by omega)
  by_cases hz : zv ≠ 0
  · rw [if_pos hz]
    refine ⟨by rw [List.length_set]; exact m1, ?_, ?_⟩
    · intro u hu
      rw [getD_set_ne _ _ _ _ _ (hu y hzs (by omega))]
      exact m2 u (fun k h1 h2 => hu k h1 (by omega))
    · intro k h1 h2
      by_cases hk : k = y
      · subst hk
        rw [getD_set_eq _ _ _ _ (by omega), h0.1]
        exact ⟨fun hne => absurd rfl hne, fun _ => hzv⟩
      · rw [getD_set_ne _ _ _ _ _ (unzig_ne k y (by omega) (by omega) hk)]
        exact m3 k h1 (by omega)
  · rw [if_neg hz]
    exact refinedUpTo_mono delta zs b b1 y (y + 1) (by omega) (by omega) ⟨m1, m2, m3⟩

/-- The loop at label `loop` of `refine`. -/
theorem refineLoop_upTo (h : huffman) (hv : ∀ x ∈ h.vals, x < 256) (delta : Int)
    (zs ze : Nat) (hze : ze ≤ 63) (hd0 : 0 < delta) (hd1 : delta < 2147483648) (b : block)
    (hb : ∀ k, zs ≤ k → k ≤ ze →
      -2147483648 ≤ b.getD (unzig.getD k 0) 0 - delta ∧
        b.getD (unzig.getD k 0) 0 + delta < 2147483648) :
    ∀ (fuel : Nat) (s : Stream) (bc : block) (z : Nat) (eobRun : Nat) (z1 : Int) (b1 : block)
      (s1 : Stream) (e1 : Nat), zs ≤ z → z ≤ ze + 1 → RefinedUpTo delta zs b bc z →
      refineLoop h delta ze fuel s bc z eobRun = .ok (z1, b1, s1, e1) →
      ∃ y : Nat, z1 = (y : Int) ∧ z ≤ y ∧ y ≤ ze + 1 ∧ RefinedUpTo delta zs b b1 y := by
  intro fuel
  induction fuel with
  | zero =>
    intro s bc z eobRun z1 b1 s1 e1 hzs hz hm he
    rw [refineLoop] at he
    split at he
    · simp at he
    · simp only [Except.ok.injEq, Prod.mk.injEq] at he
      obtain ⟨rfl, rfl, -, -⟩ := he
      exact ⟨z, rfl, Nat.le_refl _, hz, hm⟩
  | succ fuel ih =>
    intro s bc z eobRun z1 b1 s1 e1 hzs hz hm he
    rw [refineLoop] at he
    by_cases hle : (z : Int) ≤ (ze : Int)
    · rw [if_pos hle] at he
      simp only [] at he
      rcases hd : decodeHuffman s h with e | ⟨value, s2⟩
      · rw [hd] at he
        simp at he
      · rw [hd] at he
        simp only [] at he
        have hbyte := decodeHuffman_byte h hv s s2 value hd
        have h15 : value >>> 4 ≤ 15 := by
          rw [Nat.shiftRight_eq_div_pow]
          omega
        have after : ∀ (zv : Int) (s3 : Stream), (zv = 0 ∨ zv = delta ∨ zv = -delta) →
            (match refineNonZeroes s3 bc z ze ((value >>> 4 : Nat) : Int) delta with
              | .error e => (.error e : Except Err (Int × block × Stream × Nat))
              | .ok (zig1, b2, s4) =>
                if zig1 > (ze : Int) then .error (.formatError "too many coefficients")
                else
                  refineLoop h delta ze fuel s4
                    (if zv ≠ 0 then b2.set (unzig.getD zig1.toNat 0) zv else b2)
                    (wrap32 (zig1 + 1)) eobRun) = .ok (z1, b1, s1, e1) →
            ∃ y : Nat, z1 = (y : Int) ∧ z ≤ y ∧ y ≤ ze + 1 ∧ RefinedUpTo delta zs b b1 y := by
          intro zv s3 hzv ha
          rcases hr : refineNonZeroes s3 bc z ze ((value >>> 4 : Nat) : Int) delta with
            e | ⟨zig1, b2, s4⟩
          · rw [hr] at ha
            simp at ha
          · rw [hr] at ha
            simp only [] at ha
            obtain ⟨y, e, r1, r2, r3, r4⟩ := refineNonZeroes_upTo delta zs ze hze hd0 b bc b2 z _
              zig1 s3 s4 hzs hz hb hm hr
            subst e
            by_cases hgt : (y : Int) > (ze : Int)
            · rw [if_pos hgt] at ha
              simp at ha
            · rw [if_neg hgt] at ha
              have hyle : y ≤ ze := by omega
              have hw : wrap32 ((y : Int) + 1) = ((y + 1 : Nat) : Int) := by
                rw [wrap32_id _ (by omega) (by omega)]
                push_cast
                rfl
              rw [hw, Int.toNat_ofNat] at ha
              obtain ⟨y2, e2, q1, q2, q3⟩ := ih s4 _ (y + 1) eobRun z1 b1 s1 e1 (by omega)
                (by omega)
                (insert_upTo delta zs b b2 y zv (by omega) (by omega) hzv
                  (r4 (by omega) (by omega) hyle) r3) ha
              exact ⟨y2, e2, by omega, q2, q3⟩
        split at he
        · split at he
          · split at he
            · simp at he
            · simp only [Except.ok.injEq, Prod.mk.injEq] at he
              obtain ⟨rfl, rfl, -, -⟩ := he
              exact ⟨z, rfl, Nat.le_refl _, hz, hm⟩
          · exact after 0 s2 (Or.inl rfl) he
        · rcases hbit : decodeBit s2 with e | ⟨bit, s3⟩
          · rw [hbit] at he
            simp at he
          · rw [hbit] at he
            simp only [] at he
            refine after _ s3 ?_ he
            by_cases hbt : bit = true
            · rw [if_neg (by simp [hbt])]
              exact Or.inr (Or.inl rfl)
            · rw [if_pos (by simp [hbt]), wrap32_id _ (by omega) (by omega)]
              exact Or.inr (Or.inr rfl)
        · simp at he
    · rw [if_neg hle] at he
      simp only [Except.ok.injEq, Prod.mk.injEq] at he
      obtain ⟨rfl, rfl, -, -⟩ := he
      exact ⟨z, rfl, Nat.le_refl _, hz, hm⟩

/-- The AC branch of `refine`. -/
theorem refine_upTo (h : huffman) (hv : ∀ x ∈ h.vals, x < 256) (delta : Int) (zs ze : Nat)
    (hzs : 1 ≤ zs) (hz : zs ≤ ze) (hze : ze ≤ 63) (hd0 : 0 < delta) (b bF : block)
    (s sF : Stream) (eobRun eF : Nat) (hlen : b.length = 64)
    (hb : ∀ k, zs ≤ k → k ≤ ze →
      -2147483648 ≤ b.getD (unzig.getD k 0) 0 - delta ∧
        b.getD (unzig.getD k 0) 0 + delta < 2147483648)
    (he : refine s eobRun b h zs ze delta = .ok (bF, sF, eF)) :
    RefinedUpTo delta zs b bF (ze + 1) := by
  have hd1 : delta < 2147483648 := by
    have := hb zs (Nat.le_refl _) hz
    omega
  have hstart : RefinedUpTo delta zs b b zs :=
    ⟨hlen, fun _ _ => rfl, fun k h1 h2 => by omega⟩
  unfold refine at he
  rw [if_neg (by omega)] at he
  simp only [] at he
  have tail : ∀ (y : Nat) (b1 : block) (s1 : Stream) (e1 : Nat), zs ≤ y → y ≤ ze + 1 →
      RefinedUpTo delta zs b b1 y →
      (if e1 > 0 then
          match refineNonZeroes s1 b1 y ze (-1) delta with
          | .error e => (.error e : Except Err (block × Stream × Nat))
          | .ok (_, b2, s2) => .ok (b2, s2, e1 - 1)
        else .ok (b1, s1, e1)) = .ok (bF, sF, eF) →
      RefinedUpTo delta zs b bF (ze + 1) := by
    intro y b1 s1 e1 hy1 hy2 hm ht
    by_cases hpos : e1 > 0
    · rw [if_pos hpos] at ht
      rcases hr : refineNonZeroes s1 b1 y ze (-1) delta with e | ⟨z2, b2, s2⟩
      · rw [hr] at ht
        simp at ht
      · rw [hr] at ht
        simp only [Except.ok.injEq, Prod.mk.injEq] at ht
        obtain ⟨rfl, -, -⟩ := ht
        obtain ⟨y2, -, r1, r2, r3, -⟩ := refineNonZeroes_upTo delta zs ze hze hd0 b b1 b2 y _
          z2 s1 s2 hy1 hy2 hb hm hr
        exact refinedUpTo_mono delta zs b b2 y2 (ze + 1) r2 (by omega) r3
    · rw [if_neg hpos] at ht
      simp only [Except.ok.injEq, Prod.mk.injEq] at ht
      obtain ⟨rfl, -, -⟩ := ht
      exact refinedUpTo_mono delta zs b b1 y (ze + 1) hy2 (by omega) hm
  by_cases h0 : eobRun = 0
  · rw [if_pos h0] at he
    rcases hl : refineLoop h delta ze ((ze : Int) + 1 - (zs : Int)).toNat s b zs eobRun with
      e | ⟨z1, b1, s1, e1⟩
    · rw [hl] at he
      simp at he
    · rw [hl] at he
      simp only [] at he
      obtain ⟨y, e, r1, r2, r3⟩ := refineLoop_upTo h hv delta zs ze hze hd0 hd1 b hb _ s b zs
        eobRun z1 b1 s1 e1 (Nat.le_refl _) (by omega) hstart hl
      subst e
      exact tail y b1 s1 e1 r1 r2 r3 he
  · rw [if_neg h0] at he
    simp only [] at he
    exact tail zs b s eobRun (Nat.le_refl _) (by omega) hstart he

theorem corrected_cases (delta c : Int) (bit : Bool) (hd : 0 < delta) :
    (c = 0 → corrected delta c bit = 0) ∧
      (0 < c → 0 < corrected delta c bit) ∧ (c < 0 → corrected delta c bit < 0) ∧
      (corrected delta c bit = c ∨ (0 < c ∧ corrected delta c bit = c + delta) ∨
        (c < 0 ∧ corrected delta c bit = c - delta)) := by
  unfold corrected
  by_cases h : c ≠ 0 ∧ bit = true
  · rw [if_pos h]
    by_cases hp : c > 0
    · rw [if_pos hp]
      exact ⟨fun e => absurd e h.1, fun _ => by omega, fun _ => by omega,
        Or.inr (Or.inl ⟨hp, rfl⟩)⟩
    · rw [if_neg hp]
      exact ⟨fun e => absurd e h.1, fun _ => by omega, fun _ => by omega,
        Or.inr (Or.inr ⟨by omega, rfl⟩)⟩
  · rw [if_neg h]
    exact ⟨fun e => e, fun e => e, fun e => e, Or.inl rfl⟩

/-- C29 (amended): for a block of 64 coefficients, a zig-zag range `[z, ze]`
within 0..63, a skip count `nz`, a positive `delta` and coefficients of the
range that `delta` does not take out of the `int32` range, `refineNonZeroes`
returns the position `y` at which it stops, with `z <= y <= ze + 1`, and keeps
every zero coefficient zero, never changes the sign of a non-zero
coefficient, changes each coefficient either not at all or by exactly `delta`
away from zero, and leaves the coefficients outside the visited positions
`z .. y - 1` unchanged; when `nz >= 0` it stops at the `(nz+1)`-th zero
coefficient of the range, or just past `ze` when the range has at most `nz`
zero coefficients. On a well-formed reader state it reads one correction bit
per non-zero coefficient visited, and the `j`-th of them decides the `j`-th
non-zero coefficient. AC refinement (`refine` on a band `[z, ze]` with
`1 <= z`) treats the non-zero coefficients in the same way and leaves the
coefficients outside the band unchanged, but a zero coefficient of the band
either stays zero or becomes a new coefficient `delta` or `-delta`. -/
theorem C29_refineNonZeroes (s s1 : Stream) (b b1 : block) (z ze : Nat) (nz delta z1 : Int)
    (hlen : b.length = 64) (hz : z ≤ ze + 1) (hze : ze ≤ 63) (hd : 0 < delta)
    (hb : ∀ k, z ≤ k → k ≤ ze →
      -2147483648 ≤ b.getD (unzig.getD k 0) 0 - delta ∧
        b.getD (unzig.getD k 0) 0 + delta < 2147483648)
    (h : refineNonZeroes s b z ze nz delta = .ok (z1, b1, s1)) :
    ∃ y : Nat, z1 = (y : Int) ∧ z ≤ y ∧ y ≤ ze + 1 ∧
      (∀ u, b.getD u 0 = 0 → b1.getD u 0 = 0) ∧
      (∀ u, (0 < b.getD u 0 → 0 < b1.getD u 0) ∧ (b.getD u 0 < 0 → b1.getD u 0 < 0)) ∧
      (∀ u, b1.getD u 0 = b.getD u 0 ∨ (0 < b.getD u 0 ∧ b1.getD u 0 = b.getD u 0 + delta) ∨
        (b.getD u 0 < 0 ∧ b1.getD u 0 = b.getD u 0 - delta)) ∧
      (∀ u, (∀ k, z ≤ k → k < y → unzig.getD k 0 ≠ u) → b1.getD u 0 = b.getD u 0) ∧
      (0 ≤ nz → nz < 2147483648 →
        (y ≤ ze → b.getD (unzig.getD y 0) 0 = 0 ∧ (zeroCount b z (y - z) : Int) = nz) ∧
        (y = ze + 1 → (zeroCount b z (y - z) : Int) ≤ nz)) ∧
      (s.OK → ∃ cs : List Bool, s1.OK ∧ unreadBits s = cs ++ unreadBits s1 ∧
        cs.length = nonZeroCount b z (y - z) ∧
        ∀ k, z ≤ k → k < y →
          b1.getD (unzig.getD k 0) 0 =
            corrected delta (b.getD (unzig.getD k 0) 0)
              (cs.getD (nonZeroCount b z (k - z)) false)) ∧
      (∀ (hf : huffman) (eobRun eF : Nat) (bF : block) (sF : Stream),
        (∀ x ∈ hf.vals, x < 256) → 1 ≤ z → z ≤ ze →
        refine s eobRun b hf z ze delta = .ok (bF, sF, eF) →
        (∀ u, b.getD u 0 ≠ 0 →
          ((0 < b.getD u 0 → 0 < bF.getD u 0) ∧ (b.getD u 0 < 0 → bF.getD u 0 < 0)) ∧
          (bF.getD u 0 = b.getD u 0 ∨ (0 < b.getD u 0 ∧ bF.getD u 0 = b.getD u 0 + delta) ∨
            (b.getD u 0 < 0 ∧ bF.getD u 0 = b.getD u 0 - delta))) ∧
        (∀ u, b.getD u 0 = 0 → bF.getD u 0 = 0 ∨ bF.getD u 0 = delta ∨ bF.getD u 0 = -delta) ∧
        (∀ u, (∀ k, z ≤ k → k ≤ ze → unzig.getD k 0 ≠ u) → bF.getD u 0 = b.getD u 0)) := by
  have h1 := h
  unfold refineNonZeroes at h1
  obtain ⟨y, e, r1, r2, r3, r4, r5, r6⟩ := refineNonZeroesLoop_coeffs delta ze hze hd _ s b z nz
    z1 b1 s1 hlen hz hb h1
  have every : ∀ u, ∃ bit, b1.getD u 0 = corrected delta (b.getD u 0) bit := by
    intro u
    by_cases hex : ∃ k, z ≤ k ∧ k < y ∧ unzig.getD k 0 = u
    · obtain ⟨k, k1, k2, rfl⟩ := hex
      exact r5 k k1 k2
    · refine ⟨false, ?_⟩
      rw [r4 u (fun k k1 k2 e => hex ⟨k, k1, k2, e⟩)]
      simp [corrected]
  refine ⟨y, e, r1, r2, ?_, ?_, ?_, r4, r6, ?_, ?_⟩
  · intro u h0
    obtain ⟨bit, hbit⟩ := every u
    rw [hbit]
    exact (corrected_cases delta _ bit hd).1 h0
  · intro u
    obtain ⟨bit, hbit⟩ := every u
    rw [hbit]
    exact ⟨(corrected_cases delta _ bit hd).2.1, (corrected_cases delta _ bit hd).2.2.1⟩
  · intro u
    obtain ⟨bit, hbit⟩ := every u
    rw [hbit]
    exact (corrected_cases delta _ bit hd).2.2.2
  · intro hok
    obtain ⟨y2, cs, e2, q1, q2, q3, q4, q5, q6, q7, q8, q9⟩ := refineNonZeroesLoop_spec delta ze
      hze hd _ s b z nz z1 b1 s1 hok hlen hz (by omega) hb h1
    have hy : y2 = y := by
      rw [e] at e2
      exact (Int.ofNat_inj.mp e2).symm
    subst hy
    exact ⟨cs, q3, q4, q5, q8⟩
  · intro hf eobRun eF bF sF hv hz1 hz2 hr
    obtain ⟨m1, m2, m3⟩ := refine_upTo hf hv delta z ze hz1 hz2 hze hd b bF s sF eobRun eF hlen
      hb hr
    have rel : ∀ u, acRefined delta (b.getD u 0) (bF.getD u 0) := by
      intro u
      by_cases hex : ∃ k, z ≤ k ∧ k < ze + 1 ∧ unzig.getD k 0 = u
      · obtain ⟨k, k1, k2, rfl⟩ := hex
        exact m3 k k1 k2
      · rw [m2 u (fun k k1 k2 e => hex ⟨k, k1, k2, e⟩)]
        exact acRefined_self _ _
    refine ⟨?_, fun u h0 => (rel u).2 h0, fun u hu => m2 u (fun k k1 k2 => hu k k1 (by omega))⟩
    intro u hne
    obtain ⟨bit, hbit⟩ := (rel u).1 hne
    rw [hbit]
    exact ⟨⟨(corrected_cases delta _ bit hd).2.1, (corrected_cases delta _ bit hd).2.2.1⟩,
      (corrected_cases delta _ bit hd).2.2.2⟩

set_option maxRecDepth 1000000 in
theorem C29_refineNonZeroes_witness :
    refineNonZeroes bitStream someBlock 1 5 1 2 = .ok refinedOut ∧ refinedOut.1 = 5 ∧
    ∃ y : Nat, refinedOut.1 = (y : Int) ∧ 1 ≤ y ∧ y ≤ 5 + 1 ∧
      (∀ u, someBlock.getD u 0 = 0 → refinedOut.2.1.getD u 0 = 0) ∧
      (∀ u, (0 < someBlock.getD u 0 → 0 < refinedOut.2.1.getD u 0) ∧
        (someBlock.getD u 0 < 0 → refinedOut.2.1.getD u 0 < 0)) :=
  ⟨by decide!, by decide!,
    (C29_refineNonZeroes bitStream refinedOut.2.2 someBlock refinedOut.2.1 1 5 1 2
      refinedOut.1 (by decide) (by decide) (by decide) (by decide)
      (by
        intro k h1 h2
        have hk : k = 1 ∨ k = 2 ∨ k = 3 ∨ k = 4 ∨ k = 5 := by omega
        rcases hk with rfl | rfl | rfl | rfl | rfl <;> decide)
      (by decide!)).elim
      fun y hy => ⟨y, hy.1, hy.2.1, hy.2.2.1, hy.2.2.2.1, hy.2.2.2.2.1⟩⟩

set_option maxRecDepth 1000000 in
/-- C29 (counterexample): with `delta = 1` and a correction bit 1,
`refineNonZeroes` turns the coefficient 2147483647 at zig-zag position 1 into
-2147483648, which changes its sign; and AC refinement (`refine`) of the band
`[1, 1]` of the zero block, on entropy-coded data that announces a new
coefficient with sign bit 1, sets the zero coefficient at zig-zag position 1
to 1. -/
theorem C29_counterexample :
    overflowBlock.getD (unzig.getD 1 0) 0 = 2147483647 ∧
    (refineNonZeroes bitStream overflowBlock 1 1 0 1).toOption.map
        (fun r => r.2.1.getD (unzig.getD 1 0) 0) = some (-2147483648) ∧
    block.zero.getD (unzig.getD 1 0) 0 = 0 ∧
    (refine refineStream 0 block.zero (buildHuffman huffman.zero acCounts acSyms) 1 1
        1).toOption.map (fun r => r.1.getD (unzig.getD 1 0) 0) = some 1 := by
  decide!

end Jpeg

namespace Jpeg

/-! ## The panic of `refine` -/

/-- The error is not the panic of an unreachable branch. -/
theorem fill_reached (b b1 : bytes) (e : Err) (h : fill b = (b1, some e)) :
    e ≠ .panic "unreachable" := by
  unfold fill at h
  simp only [] at h
  repeat' split at h
  all_goals first
    | (simp at h; done)
    | (simp only [Prod.mk.injEq, Option.some.injEq] at h; rw [← h.2]; decide)

theorem readByte_reached (b b1 : bytes) (e : Err) (h : readByte b = (b1, .error e)) :
    e ≠ .panic "unreachable" := by
  unfold readByte at h
  split at h
  · rcases hf : fill b with ⟨b2, _ | e2⟩
    · rw [hf] at h; simp at h
    · rw [hf] at h
      simp only [Prod.mk.injEq, Except.error.injEq] at h
      rw [← h.2]
      exact fill_reached b b2 e2 hf
  · simp at h

theorem readByteStuffedByte_reached (b b1 : bytes) (e : Err)
    (h : readByteStuffedByte b = (b1, .error e)) : e ≠ .panic "unreachable" := by
  unfold readByteStuffedByte at h
  split at h
  · simp only [] at h
    repeat' split at h
    all_goals first
      | (simp at h; done)
      | (simp only [Prod.mk.injEq, Except.error.injEq] at h; rw [← h.2]; decide)
  · rcases h1 : readByte { b with nUnreadable := 0 } with ⟨b2, e2 | x⟩
    · rw [h1] at h
      simp only [Prod.mk.injEq, Except.error.injEq] at h
      rw [← h.2]
      exact readByte_reached _ _ _ h1
    · rw [h1] at h
      simp only [] at h
      split at h
      · simp at h
      · rcases h2 : readByte { b2 with nUnreadable := 1 } with ⟨b3, e3 | y⟩
        · rw [h2] at h
          simp only [Prod.mk.injEq, Except.error.injEq] at h
          rw [← h.2]
          exact readByte_reached _ _ _ h2
        · rw [h2] at h
          simp only [] at h
          split at h
          · simp only [Prod.mk.injEq, Except.error.injEq] at h
            rw [← h.2]
            decide
          · simp at h

theorem ensureNBitsLoop_reached (n : Int) : ∀ (fuel : Nat) (s s1 : Stream) (e : Err),
    ensureNBitsLoop fuel s n = (s1, some e) → e ≠ .panic "unreachable" := by
  intro fuel
  induction fuel with
  | zero =>
    intro s s1 e h
    rw [ensureNBitsLoop] at h
    rcases hr : readByteStuffedByte s.bytes with ⟨b1, e1 | c⟩
    · rw [hr] at h
      simp only [Prod.mk.injEq, Option.some.injEq] at h
      rw [← h.2]
      have := readByteStuffedByte_reached _ _ _ hr
      split
      · decide
      · exact this
    · rw [hr] at h
      simp only [] at h
      split at h
      · simp at h
      · simp only [Prod.mk.injEq, Option.some.injEq] at h
        rw [← h.2]
        decide
  | succ fuel ih =>
    intro s s1 e h
    rw [ensureNBitsLoop] at h
    rcases hr : readByteStuffedByte s.bytes with ⟨b1, e1 | c⟩
    · rw [hr] at h
      simp only [Prod.mk.injEq, Option.some.injEq] at h
      rw [← h.2]
      have := readByteStuffedByte_reached _ _ _ hr
      split
      · decide
      · exact this
    · rw [hr] at h
      simp only [] at h
      split at h
      · simp at h
      · exact ih _ _ _ h

theorem ensureNBits_reached (s s1 : Stream) (n : Int) (e : Err)
    (h : ensureNBits s n = (s1, some e)) : e ≠ .panic "unreachable" :=
  ensureNBitsLoop_reached n _ s s1 e h

/-- A guarded call of `ensureNBits`, as `receiveExtend`, `decodeBit` and
`decodeBits` make it. -/
theorem ensure_guard_reached (c : Prop) [Decidable c] (s s1 : Stream) (n : Int) (e : Err)
    (h : (if c then ensureNBits s n else (s, none)) = (s1, some e)) :
    e ≠ .panic "unreachable" := by
  split at h
  · exact ensureNBits_reached s s1 n e h
  · simp at h

theorem receiveExtend_reached (s : Stream) (t : Nat) (e : Err)
    (h : receiveExtend s t = .error e) : e ≠ .panic "unreachable" := by
  unfold receiveExtend at h
  simp only [] at h
  rcases hr : (if s.bits.n < (t : Int) then ensureNBits s t else (s, none)) with ⟨s1, _ | e1⟩
  · rw [hr] at h; simp at h
  · rw [hr] at h
    simp only [Except.error.injEq] at h
    rw [← h]
    exact ensure_guard_reached _ s s1 _ e1 hr

theorem decodeBit_reached (s : Stream) (e : Err)
    (h : decodeBit s = .error e) : e ≠ .panic "unreachable" := by
  unfold decodeBit at h
  simp only [] at h
  rcases hr : (if s.bits.n = 0 then ensureNBits s 1 else (s, none)) with ⟨s1, _ | e1⟩
  · rw [hr] at h; simp at h
  · rw [hr] at h
    simp only [Except.error.injEq] at h
    rw [← h]
    exact ensure_guard_reached _ s s1 _ e1 hr

theorem decodeBits_reached (s : Stream) (n : Int) (e : Err)
    (h : decodeBits s n = .error e) : e ≠ .panic "unreachable" := by
  unfold decodeBits at h
  simp only [] at h
  rcases hr : (if s.bits.n < n then ensureNBits s n else (s, none)) with ⟨s1, _ | e1⟩
  · rw [hr] at h; simp at h
  · rw [hr] at h
    simp only [Except.error.injEq] at h
    rw [← h]
    exact ensure_guard_reached _ s s1 _ e1 hr

theorem slowPath_reached (h : huffman) : ∀ (k i : Nat) (code : Int) (s : Stream) (e : Err),
    slowPath h k i code s = .error e → e ≠ .panic "unreachable" := by
  intro k
  induction k with
  | zero =>
    intro i code s e he
    rw [slowPath] at he
    simp only [Except.error.injEq] at he
    rw [← he]
    decide
  | succ k ih =>
    intro i code s e he
    rw [slowPath] at he
    simp only [] at he
    rcases hr : (if s.bits.n = 0 then ensureNBits s 1 else (s, none)) with ⟨s1, _ | e1⟩
    · rw [hr] at he
      simp only [] at he
      generalize (if s1.bits.a &&& s1.bits.m ≠ 0 then Int.lor code 1 else code) = code1 at he
      by_cases hc : code1 ≤ h.maxCodes.getD i 0
      · rw [if_pos hc] at he
        split at he
        · simp only [Except.error.injEq] at he
          rw [← he]
          decide
        · simp at he
      · rw [if_neg hc] at he
        exact ih _ _ _ _ he
    · rw [hr] at he
      simp only [Except.error.injEq] at he
      rw [← he]
      exact ensure_guard_reached _ s s1 _ e1 hr

theorem decodeHuffman_reached (s : Stream) (h : huffman) (e : Err)
    (he : decodeHuffman s h = .error e) : e ≠ .panic "unreachable" := by
  have lp : ∀ s1 : Stream, lutPath h s1 = .error e → e ≠ .panic "unreachable" := by
    intro s1 h1
    unfold lutPath at h1
    simp only [] at h1
    split at h1
    · simp at h1
    · exact slowPath_reached h _ _ _ _ e h1
  unfold decodeHuffman at he
  split at he
  · simp only [Except.error.injEq] at he
    rw [← he]
    decide
  · split at he
    · rcases hr : ensureNBits s 8 with ⟨s1, _ | e1⟩
      · rw [hr] at he
        exact lp s1 he
      · rw [hr] at he
        simp only [] at he
        split at he
        · simp only [Except.error.injEq] at he
          rw [← he]
          exact ensureNBits_reached s s1 8 e1 hr
        · exact slowPath_reached h _ _ _ _ e he
    · exact lp s he

theorem refineNonZeroesLoop_reached (delta zigEnd : Int) :
    ∀ (fuel : Nat) (s : Stream) (b : block) (zig nz : Int) (e : Err),
      refineNonZeroesLoop delta zigEnd fuel s b zig nz = .error e →
      e ≠ .panic "unreachable" := by
  intro fuel
  induction fuel with
  | zero =>
    intro s b zig nz e he
    rw [refineNonZeroesLoop] at he
    split at he
    · simp only [Except.error.injEq] at he
      rw [← he]
      decide
    · simp at he
  | succ fuel ih =>
    intro s b zig nz e he
    rw [refineNonZeroesLoop] at he
    split at he
    · simp only [] at he
      split at he
      · split at he
        · simp at he
        · exact ih _ _ _ _ _ he
      · rcases hb : decodeBit s with e1 | ⟨bit, s1⟩
        · rw [hb] at he
          simp only [Except.error.injEq] at he
          rw [← he]
          exact decodeBit_reached s e1 hb
        · rw [hb] at he
          simp only [] at he
          split at he
          · exact ih _ _ _ _ _ he
          · exact ih _ _ _ _ _ he
    · simp at he

theorem refineNonZeroes_reached (s : Stream) (b : block) (zig zigEnd nz delta : Int) (e : Err)
    (he : refineNonZeroes s b zig zigEnd nz delta = .error e) : e ≠ .panic "unreachable" :=
  refineNonZeroesLoop_reached delta zigEnd _ s b zig nz e he

theorem readEobRun_reached (s : Stream) (val0 : Nat) (e : Err)
    (he : readEobRun s val0 = .error e) : e ≠ .panic "unreachable" := by
  unfold readEobRun at he
  simp only [] at he
  split at he
  · rcases hb : decodeBits s val0 with e1 | ⟨x, s1⟩
    · rw [hb] at he
      simp only [Except.error.injEq] at he
      rw [← he]
      exact decodeBits_reached s _ e1 hb
    · rw [hb] at he; simp at he
  · simp at he

theorem refineLoop_reached (h : huffman) (delta zigEnd : Int) :
    ∀ (fuel : Nat) (s : Stream) (b : block) (zig : Int) (eobRun : Nat) (e : Err),
      refineLoop h delta zigEnd fuel s b zig eobRun = .error e →
      e ≠ .panic "unreachable" := by
  intro fuel
  induction fuel with
  | zero =>
    intro s b zig eobRun e he
    rw [refineLoop] at he
    split at he
    · simp only [Except.error.injEq] at he
      rw [← he]
      decide
    · simp at he
  | succ fuel ih =>
    intro s b zig eobRun e he
    rw [refineLoop] at he
    split at he
    · simp only [] at he
      rcases hh : decodeHuffman s h with e1 | ⟨value, s1⟩
      · rw [hh] at he
        simp only [Except.error.injEq] at he
        rw [← he]
        exact decodeHuffman_reached s h e1 hh
      · rw [hh] at he
        simp only [] at he
        have after : ∀ (z : Int) (s2 : Stream),
            (match refineNonZeroes s2 b zig zigEnd ((value >>> 4 : Nat) : Int) delta with
              | .error e => (.error e : Except Err (Int × block × Stream × Nat))
              | .ok (zig1, b1, s3) =>
                if zig1 > zigEnd then .error (.formatError "too many coefficients")
                else
                  refineLoop h delta zigEnd fuel s3
                    (if z ≠ 0 then b1.set (unzig.getD zig1.toNat 0) z else b1)
                    (wrap32 (zig1 + 1)) eobRun) = .error e →
            e ≠ .panic "unreachable" := by
          intro z s2 ha
          rcases hn : refineNonZeroes s2 b zig zigEnd ((value >>> 4 : Nat) : Int) delta with
            e1 | ⟨zig1, b1, s3⟩
          · rw [hn] at ha
            simp only [Except.error.injEq] at ha
            rw [← ha]
            exact refineNonZeroes_reached _ _ _ _ _ _ e1 hn
          · rw [hn] at ha
            simp only [] at ha
            by_cases hz : zig1 > zigEnd
            · rw [if_pos hz] at ha
              simp only [Except.error.injEq] at ha
              rw [← ha]
              decide
            · rw [if_neg hz] at ha
              exact ih _ _ _ _ _ ha
        split at he
        · by_cases h15 : value >>> 4 ≠ 0x0f
          · rw [if_pos h15] at he
            rcases hrun : readEobRun s1 (value >>> 4) with e1 | ⟨run, s2⟩
            · rw [hrun] at he
              simp only [Except.error.injEq] at he
              rw [← he]
              exact readEobRun_reached _ _ e1 hrun
            · rw [hrun] at he; simp at he
          · rw [if_neg h15] at he
            exact after 0 s1 he
        · rcases hb : decodeBit s1 with e1 | ⟨bit, s2⟩
          · rw [hb] at he
            simp only [Except.error.injEq] at he
            rw [← he]
            exact decodeBit_reached s1 e1 hb
          · rw [hb] at he
            exact after _ s2 he
        · simp only [Except.error.injEq] at he
          rw [← he]
          decide
    · simp at he

/-- Method `refine` reaches its `panic("unreachable")` only when it is called
with `zigStart == 0` and `zigEnd != 0`. -/
theorem refine_reached (s : Stream) (eobRun : Nat) (b : block) (h : huffman)
    (zigStart zigEnd delta : Int) (hz : zigStart = 0 → zigEnd = 0) :
    refine s eobRun b h zigStart zigEnd delta ≠ .error (.panic "unreachable") := by
  intro he
  unfold refine at he
  by_cases h0 : zigStart = 0
  · rw [if_pos h0, if_neg (by simp [hz h0])] at he
    rcases hb : decodeBit s with e1 | ⟨bit, s1⟩
    · rw [hb] at he
      simp only [Except.error.injEq] at he
      exact decodeBit_reached s e1 hb he
    · rw [hb] at he; simp at he
  · rw [if_neg h0] at he
    simp only [] at he
    by_cases hr0 : eobRun = 0
    · rw [if_pos hr0] at he
      rcases hl : refineLoop h delta zigEnd (zigEnd + 1 - zigStart).toNat s b zigStart eobRun
        with e1 | ⟨zig, b1, s1, eobRun1⟩
      · rw [hl] at he
        simp only [Except.error.injEq] at he
        exact refineLoop_reached h delta zigEnd _ _ _ _ _ e1 hl he
      · rw [hl] at he
        simp only [] at he
        split at he
        · rcases hn : refineNonZeroes s1 b1 zig zigEnd (-1) delta with e1 | ⟨z2, b2, s2⟩
          · rw [hn] at he
            simp only [Except.error.injEq] at he
            exact refineNonZeroes_reached _ _ _ _ _ _ e1 hn he
          · rw [hn] at he; simp at he
        · simp at he
    · rw [if_neg hr0] at he
      simp only [] at he
      split at he
      · rcases hn : refineNonZeroes s b zigStart zigEnd (-1) delta with e1 | ⟨z2, b2, s2⟩
        · rw [hn] at he
          simp only [Except.error.injEq] at he
          exact refineNonZeroes_reached _ _ _ _ _ _ e1 hn he
        · rw [hn] at he; simp at he
      · simp at he

theorem decodeACLoop_reached (huff : huffman) (zigEnd : Int) (al : Nat) :
    ∀ (fuel : Nat) (s : Stream) (b : block) (zig : Int) (eobRun : Nat) (e : Err),
      decodeACLoop huff zigEnd al fuel s b zig eobRun = .error e →
      e ≠ .panic "unreachable" := by
  intro fuel
  induction fuel with
  | zero =>
    intro s b zig eobRun e he
    rw [decodeACLoop] at he
    split at he
    · simp only [Except.error.injEq] at he
      rw [← he]
      decide
    · simp at he
  | succ fuel ih =>
    intro s b zig eobRun e he
    rw [decodeACLoop] at he
    split at he
    · simp only [] at he
      rcases hh : decodeHuffman s huff with e1 | ⟨value, s1⟩
      · rw [hh] at he
        simp only [Except.error.injEq] at he
        rw [← he]
        exact decodeHuffman_reached s huff e1 hh
      · rw [hh] at he
        simp only [] at he
        by_cases h1 : value &&& 0x0f ≠ 0
        · rw [if_pos h1] at he
          by_cases hz : wrap32 (zig + ((value >>> 4 : Nat) : Int)) > zigEnd
          · rw [if_pos hz] at he; simp at he
          · rw [if_neg hz] at he
            rcases hx : receiveExtend s1 (value &&& 0x0f) with e1 | ⟨ac, s2⟩
            · rw [hx] at he
              simp only [Except.error.injEq] at he
              rw [← he]
              exact receiveExtend_reached _ _ e1 hx
            · rw [hx] at he
              exact ih _ _ _ _ _ he
        · rw [if_neg h1] at he
          by_cases h15 : value >>> 4 ≠ 0x0f
          · rw [if_pos h15] at he
            rcases hrun : readEobRun s1 (value >>> 4) with e1 | ⟨run, s2⟩
            · rw [hrun] at he
              simp only [Except.error.injEq] at he
              rw [← he]
              exact readEobRun_reached _ _ e1 hrun
            · rw [hrun] at he; simp at he
          · rw [if_neg h15] at he
            exact ih _ _ _ _ _ he
    · simp at he

theorem decodeFirstPass_reached (d : decoder) (p : ScanParams) (sc : scanComp) (s : Stream)
    (eobRun : Nat) (dc : List Int) (b : block) (e : Err)
    (he : decodeFirstPass d p sc s eobRun dc b = .error e) : e ≠ .panic "unreachable" := by
  unfold decodeFirstPass at he
  simp only [] at he
  have tail : ∀ (zig : Int) (b1 : block) (s1 : Stream) (dc1 : List Int),
      (if zig ≤ p.zigEnd ∧ eobRun > 0 then
          (.ok (b1, s1, eobRun - 1, dc1) : Except Err (block × Stream × Nat × List Int))
        else
          match decodeACLoop ((d.huff.getD acTable []).getD sc.ta huffman.zero) p.zigEnd p.al
              (p.zigEnd + 1 - zig).toNat s1 b1 zig eobRun with
          | .error e => .error e
          | .ok (b2, s2, eobRun2) => .ok (b2, s2, eobRun2, dc1)) = .error e →
      e ≠ .panic "unreachable" := by
    intro zig b1 s1 dc1 ht
    split at ht
    · simp at ht
    · rcases ha : decodeACLoop ((d.huff.getD acTable []).getD sc.ta huffman.zero) p.zigEnd p.al
          (p.zigEnd + 1 - zig).toNat s1 b1 zig eobRun with e1 | ⟨b2, s2, eobRun2⟩
      · rw [ha] at ht
        simp only [Except.error.injEq] at ht
        rw [← ht]
        exact decodeACLoop_reached _ _ _ _ _ _ _ _ e1 ha
      · rw [ha] at ht; simp at ht
  by_cases h0 : p.zigStart = 0
  · rw [if_pos h0] at he
    rcases hh : decodeHuffman s ((d.huff.getD dcTable []).getD sc.td huffman.zero) with
      e1 | ⟨value, s1⟩
    · rw [hh] at he
      simp only [Except.error.injEq] at he
      rw [← he]
      exact decodeHuffman_reached _ _ e1 hh
    · rw [hh] at he
      simp only [] at he
      by_cases hv : value > 16
      · rw [if_pos hv] at he
        simp only [Except.error.injEq] at he
        rw [← he]
        decide
      · rw [if_neg hv] at he
        rcases hx : receiveExtend s1 value with e1 | ⟨dcDelta, s2⟩
        · rw [hx] at he
          simp only [Except.error.injEq] at he
          rw [← he]
          exact receiveExtend_reached _ _ e1 hx
        · rw [hx] at he
          exact tail _ _ _ _ he
  · rw [if_neg h0] at he
    exact tail _ _ _ _ he

/-- The entropy decoding of a block does not reach the `panic("unreachable")`
of `refine` when a refinement pass that starts at the DC coefficient ends
there. -/
theorem decodeBlock_reached (d : decoder) (p : ScanParams) (sc : scanComp) (st0 : ScanState)
    (b : block) (hp : p.ah ≠ 0 → p.zigStart = 0 → p.zigEnd = 0) :
    decodeBlock d p sc st0 b ≠ .error (.panic "unreachable") := by
  intro he
  unfold decodeBlock at he
  by_cases ha : p.ah ≠ 0
  · rw [if_pos ha] at he
    rcases hr : refine st0.s st0.eobRun b ((d.huff.getD acTable []).getD sc.ta huffman.zero)
        p.zigStart p.zigEnd (shl32 1 p.al) with e1 | ⟨b1, s1, eobRun1⟩
    · rw [hr] at he
      simp only [Except.error.injEq] at he
      rw [he] at hr
      exact refine_reached _ _ _ _ _ _ _ (hp ha) hr
    · rw [hr] at he; simp at he
  · rw [if_neg ha] at he
    rcases hf : decodeFirstPass d p sc st0.s st0.eobRun st0.dc b with e1 | ⟨b1, s1, r1, dc1⟩
    · rw [hf] at he
      simp only [Except.error.injEq] at he
      exact decodeFirstPass_reached _ _ _ _ _ _ _ e1 hf he
    · rw [hf] at he; simp at he

/-- A loop fails with an error of its body. -/
theorem forRange_error {σ : Type} (f : Nat → σ → Except Err σ) :
    ∀ (k i : Nat) (st : σ) (e : Err), forRange f k i st = .error e →
      ∃ j st1, i ≤ j ∧ j < i + k ∧ f j st1 = .error e := by
  intro k
  induction k with
  | zero =>
    intro i st e h
    rw [forRange] at h
    simp at h
  | succ k ih =>
    intro i st e h
    rw [forRange] at h
    rcases hf : f i st with e1 | st1
    · rw [hf] at h
      simp only [Except.error.injEq] at h
      subst h
      exact ⟨i, st, Nat.le_refl _, by omega, hf⟩
    · rw [hf] at h
      obtain ⟨j, st2, a1, a2, a3⟩ := ih (i + 1) st1 e h
      exact ⟨j, st2, by omega, by omega, a3⟩

theorem storeBlock_reached (pix : List Nat) (off stride : Nat) (b : block) (e : Err)
    (he : storeBlock pix off stride b = .error e) : e ≠ .panic "unreachable" := by
  unfold storeBlock at he
  split at he
  · simp only [Except.error.injEq] at he
    rw [← he]
    decide
  · obtain ⟨y, p1, -, -, h1⟩ := forRange_error _ _ _ _ _ he
    obtain ⟨x, p2, -, -, h2⟩ := forRange_error _ _ _ _ _ h1
    unfold sliceSet at h2
    split at h2
    · simp at h2
    · simp only [Except.error.injEq] at h2
      rw [← h2]
      decide

theorem reconstructBlock_reached (d : decoder) (ci bx by_ : Nat) (b : block) (st : ScanState)
    (e : Err) (he : reconstructBlock d ci bx by_ b st = .error e) :
    e ≠ .panic "unreachable" := by
  unfold reconstructBlock at he
  simp only [] at he
  repeat' split at he
  all_goals first
    | (simp at he; done)
    | (simp only [Except.error.injEq] at he
       rw [← he]
       first
         | decide
         | exact storeBlock_reached _ _ _ _ _ (by assumption))

theorem loadBlock_reached (d : decoder) (st0 : ScanState) (ci idx : Nat) (e : Err)
    (he : loadBlock d st0 ci idx = .error e) : e ≠ .panic "unreachable" := by
  unfold loadBlock at he
  repeat' split at he
  all_goals first
    | (simp at he; done)
    | (simp only [Except.error.injEq] at he; rw [← he]; decide)

theorem finishBlock_reached (d : decoder) (p : ScanParams) (ci bx by_ idx : Nat) (b1 : block)
    (st1 : ScanState) (e : Err) (he : finishBlock d p ci bx by_ idx b1 st1 = .error e) :
    e ≠ .panic "unreachable" := by
  unfold finishBlock at he
  split at he
  · repeat' split at he
    all_goals first
      | (simp at he; done)
      | (simp only [Except.error.injEq] at he; rw [← he]; decide)
  · exact reconstructBlock_reached _ _ _ _ _ _ e he

/-- The body of the loop over the blocks does not reach the
`panic("unreachable")` of `refine`. -/
theorem scanBlock_reached (d : decoder) (p : ScanParams) (mx my i j : Nat) (st : ScanState)
    (hp : p.ah ≠ 0 → p.zigStart = 0 → p.zigEnd = 0) (e : Err)
    (he : scanBlock d p mx my i j st = .error e) : e ≠ .panic "unreachable" := by
  unfold scanBlock at he
  simp only [] at he
  generalize (if p.nComp ≠ 1 then st
    else ({ st with blockCount := st.blockCount + 1 } : ScanState)) = st0 at he
  repeat' split at he
  all_goals first
    | (simp at he; done)
    | (simp only [Except.error.injEq] at he
       rw [← he]
       first
         | decide
         | exact loadBlock_reached _ _ _ _ _ (by assumption)
         | (intro hq
            subst hq
            exact decodeBlock_reached _ _ _ _ _ hp (by assumption)))
    | exact finishBlock_reached _ _ _ _ _ _ _ _ _ he

theorem readFullLoop_reached : ∀ (fuel : Nat) (b : bytes) (k : Nat) (acc : List Nat) (e : Err),
    readFullLoop fuel b k acc = .error e → e ≠ .panic "unreachable" := by
  intro fuel
  induction fuel with
  | zero =>
    intro b k acc e he
    rw [readFullLoop] at he
    simp only [] at he
    split at he
    · simp at he
    · rcases hf : fill { b with i := b.i + min k (b.j - b.i) } with ⟨b2, _ | e2⟩
      · rw [hf] at he
        simp only [Except.error.injEq] at he
        rw [← he]
        decide
      · rw [hf] at he
        simp only [Except.error.injEq] at he
        rw [← he]
        split
        · decide
        · exact fill_reached _ _ _ hf
  | succ fuel ih =>
    intro b k acc e he
    rw [readFullLoop] at he
    simp only [] at he
    split at he
    · simp at he
    · rcases hf : fill { b with i := b.i + min k (b.j - b.i) } with ⟨b2, _ | e2⟩
      · rw [hf] at he
        exact ih _ _ _ _ he
      · rw [hf] at he
        simp only [Except.error.injEq] at he
        rw [← he]
        split
        · decide
        · exact fill_reached _ _ _ hf

theorem readFull_reached (s : Stream) (k : Nat) (e : Err) (he : readFull s k = .error e) :
    e ≠ .panic "unreachable" := by
  unfold readFull at he
  simp only [] at he
  rcases hl : readFullLoop k (unreadOvershot s).bytes k [] with e1 | ⟨p, b⟩
  · rw [hl] at he
    simp only [Except.error.injEq] at he
    rw [← he]
    exact readFullLoop_reached _ _ _ _ e1 hl
  · rw [hl] at he; simp at he

theorem scanRestart_reached (d : decoder) (p : ScanParams) (ms : McuState) (e : Err)
    (he : scanRestart d p ms = .error e) : e ≠ .panic "unreachable" := by
  unfold scanRestart at he
  simp only [] at he
  split at he
  · rcases hr : readFull ms.st.s 2 with e1 | ⟨tmp, s1⟩
    · rw [hr] at he
      simp only [Except.error.injEq] at he
      rw [← he]
      exact readFull_reached _ _ e1 hr
    · rw [hr] at he
      simp only [] at he
      split at he
      · simp only [Except.error.injEq] at he
        rw [← he]
        decide
      · simp at he
  · simp at he

/-- The block loops of a scan do not reach the `panic("unreachable")` of
`refine`. -/
theorem scanLoop_reached (d : decoder) (p : ScanParams) (ms : McuState)
    (hp : p.ah ≠ 0 → p.zigStart = 0 → p.zigEnd = 0) :
    scanLoop d p ms ≠ .error (.panic "unreachable") := by
  intro he
  unfold scanLoop at he
  obtain ⟨my, ms1, -, -, h1⟩ := forRange_error _ _ _ _ _ he
  obtain ⟨mx, ms2, -, -, h2⟩ := forRange_error _ _ _ _ _ h1
  unfold scanStep at h2
  rcases hm : scanMCU d p mx my ms2.st with e1 | st1
  · rw [hm] at h2
    simp only [Except.error.injEq] at h2
    subst h2
    unfold scanMCU at hm
    obtain ⟨i, st2, -, -, h3⟩ := forRange_error _ _ _ _ _ hm
    obtain ⟨j, st3, -, -, h4⟩ := forRange_error _ _ _ _ _ h3
    exact scanBlock_reached d p mx my i j st3 hp _ h4 rfl
  · rw [hm] at h2
    exact scanRestart_reached _ _ _ _ h2 rfl

theorem scanProgression_ok (pr : Bool) (tmp : List Nat) (nc : Nat) (zs ze : Int) (ah al : Nat)
    (h : scanProgression pr tmp nc = .ok (zs, ze, ah, al)) :
    (pr = false → zs = 0 ∧ ze = 63 ∧ ah = 0 ∧ al = 0) ∧
    (pr = true → (zs = 0 → ze = 0) ∧ zs ≤ ze ∧ ze < 64 ∧ (zs ≠ 0 → nc = 1) ∧
      (ah = 0 ∨ ah = al + 1)) := by
  unfold scanProgression at h
  cases pr with
  | false =>
    simp only [Bool.false_eq_true, ↓reduceIte, Except.ok.injEq, Prod.mk.injEq] at h
    obtain ⟨h1, h2, h3, h4⟩ := h
    refine ⟨fun _ => ⟨h1.symm, ?_, h3.symm, h4.symm⟩, fun hh => absurd hh (by simp)⟩
    rw [← h2]
    decide
  | true =>
    refine ⟨fun hh => absurd hh (by simp), fun _ => ?_⟩
    simp only [↓reduceIte] at h
    split at h
    · simp at h
    · split at h
      · simp at h
      · split at h
        · simp at h
        · rename_i g1 g2 g3
          simp only [Except.ok.injEq, Prod.mk.injEq] at h
          obtain ⟨h1, h2, h3, h4⟩ := h
          subst h1 h2 h3 h4
          have e64 : ((blockSize : Nat) : Int) = 64 := by decide
          rw [e64] at g1
          refine ⟨?_, ?_, ?_, ?_, ?_⟩
          · intro hz
            by_contra hne
            exact g1 (Or.inl ⟨hz, hne⟩)
          · by_contra hne
            exact g1 (Or.inr (Or.inl (by omega)))
          · by_contra hne
            exact g1 (Or.inr (Or.inr (by omega)))
          · intro hz
            by_contra hne
            exact g2 ⟨hz, hne⟩
          · by_contra hne
            exact g3 ⟨fun h0 => hne (Or.inl h0), fun h1 => hne (Or.inr h1)⟩

/-- The parameters of a scan header that `processSOS` accepts have passed the
checks of `scanProgression`. -/
theorem scanHeader_progOK (d dh : decoder) (n : Nat) (hd : ScanHeader)
    (h : scanHeader d n = .ok (dh, hd)) :
    ∃ tmp, scanProgression d.progressive tmp hd.nComp =
      .ok (hd.zigStart, hd.zigEnd, hd.ah, hd.al) := by
  unfold scanHeader at h
  simp only [] at h
  repeat' split at h
  all_goals first
    | (simp only [Except.ok.injEq, Prod.mk.injEq] at h
       obtain ⟨h1, h2⟩ := h
       subst h1 h2
       exact ⟨_, by assumption⟩)
    | simp at h

theorem scanAlloc_params (d1 : decoder) (hd : ScanHeader) (d3 : decoder) (p : ScanParams)
    (ms0 : McuState) (h : scanAlloc d1 hd = .ok (d3, p, ms0)) :
    p.nComp = hd.nComp ∧ p.scan = hd.scan ∧ p.zigStart = hd.zigStart ∧ p.zigEnd = hd.zigEnd ∧
      p.ah = hd.ah ∧ p.al = hd.al ∧ ms0.st.blockCount = 0 := by
  unfold scanAlloc at h
  simp only [] at h
  split at h
  · cases h
  split at h
  · cases h
  · injection h with h
    simp only [Prod.mk.injEq] at h
    obtain ⟨-, rfl, rfl⟩ := h
    exact ⟨rfl, rfl, rfl, rfl, rfl, rfl, rfl⟩

/-- The parameters with which the block loops of `processSOS` run. -/
theorem scanSetup_progOK (d d3 : decoder) (n : Nat) (p : ScanParams) (ms0 : McuState)
    (h : scanSetup d n = .ok (d3, p, ms0)) :
    (d.progressive = false → p.zigStart = 0 ∧ p.zigEnd = 63 ∧ p.ah = 0 ∧ p.al = 0) ∧
    (d.progressive = true → (p.zigStart = 0 → p.zigEnd = 0) ∧ p.zigStart ≤ p.zigEnd ∧
      p.zigEnd < 64 ∧ (p.zigStart ≠ 0 → p.nComp = 1) ∧ (p.ah = 0 ∨ p.ah = p.al + 1)) := by
  unfold scanSetup at h
  rcases hh : scanHeader d n with e | ⟨d1, hd⟩
  · rw [hh] at h; simp at h
  · rw [hh] at h
    simp only [] at h
    obtain ⟨tmp, ht⟩ := scanHeader_progOK d d1 n hd hh
    obtain ⟨a1, a2, a3, a4, a5, a6, -⟩ := scanAlloc_params d1 hd d3 p ms0 h
    rw [a1, a3, a4, a5, a6]
    exact scanProgression_ok _ _ _ _ _ _ _ ht

theorem sosComponent_reached (d : decoder) (tmp : List Nat) (i : Nat) (st : List scanComp × Nat)
    (e : Err) (he : sosComponent d tmp i st = .error e) : e ≠ .panic "unreachable" := by
  unfold sosComponent at he
  simp only [] at he
  repeat' split at he
  all_goals first
    | (simp at he; done)
    | (simp only [Except.error.injEq] at he; rw [← he]; decide)

theorem scanProgression_reached (pr : Bool) (tmp : List Nat) (nc : Nat) (e : Err)
    (he : scanProgression pr tmp nc = .error e) : e ≠ .panic "unreachable" := by
  unfold scanProgression at he
  simp only [] at he
  repeat' split at he
  all_goals first
    | (simp at he; done)
    | (simp only [Except.error.injEq] at he; rw [← he]; decide)

theorem scanHeader_reached (d : decoder) (n : Nat) (e : Err)
    (he : scanHeader d n = .error e) : e ≠ .panic "unreachable" := by
  unfold scanHeader at he
  simp only [] at he
  repeat' split at he
  all_goals first
    | (simp at he; done)
    | (simp only [Except.error.injEq] at he
       rw [← he]
       first
         | decide
         | exact readFull_reached _ _ _ (by assumption)
         | exact scanProgression_reached _ _ _ _ (by assumption)
         | (rename_i hfor
            obtain ⟨j, st1, -, -, hj⟩ := forRange_error _ _ _ _ _ hfor
            exact sosComponent_reached _ _ _ _ _ hj))

/-- Method `processSOS` reaches a `panic("unreachable")` only in `makeImg`. -/
theorem processSOS_reached (d : decoder) (n : Nat)
    (hm : ∀ d1 hd, scanHeader d n = .ok (d1, hd) →
      ∀ mxx myy, makeImg d1 mxx myy ≠ .error (.panic "unreachable")) :
    processSOS d n ≠ .error (.panic "unreachable") := by
  intro he
  unfold processSOS at he
  rcases hs : scanSetup d n with e1 | ⟨d3, p, ms0⟩
  · rw [hs] at he
    simp only [Except.error.injEq] at he
    subst he
    unfold scanSetup at hs
    rcases hh : scanHeader d n with e2 | ⟨d1, hd⟩
    · rw [hh] at hs
      simp only [Except.error.injEq] at hs
      exact scanHeader_reached d n e2 hh hs
    · rw [hh] at hs
      simp only [] at hs
      unfold scanAlloc at hs
      simp only [] at hs
      split at hs
      · exact absurd hs (by simp)
      · split at hs
        · rename_i e3 hmade
          simp only [Except.error.injEq] at hs
          subst hs
          split at hmade
          · exact hm d1 hd hh _ _ hmade
          · simp at hmade
        · simp at hs
  · rw [hs] at he
    simp only [] at he
    have hg := scanSetup_progOK d d3 n p ms0 hs
    have hp : p.ah ≠ 0 → p.zigStart = 0 → p.zigEnd = 0 := by
      intro ha
      cases hpr : d.progressive with
      | false => exact absurd (hg.1 hpr).2.2.1 ha
      | true => exact (hg.2 hpr).1
    rcases hl : scanLoop d3 p ms0 with e1 | ms
    · rw [hl] at he
      simp only [Except.error.injEq] at he
      rw [he] at hl
      exact scanLoop_reached d3 p ms0 hp hl
    · rw [hl] at he; simp at he

/-- C33: `refine` is called with `zigStart == 0` only when `zigEnd == 0`. For
every decoder state and every scan header that `processSOS` accepts, a
refinement scan (`ah != 0`, the only case in which the block loops call
`refine`) occurs in a progressive frame only, and its parameters have passed
the check that rejects `Ss = 0` with `Se != 0`; `refine` ends in its
`panic("unreachable")` exactly when it is called with `zigStart == 0` and
`zigEnd != 0`; so neither the decoding of a block nor the block loops of the
scan reach it. For every input stream, at every segment that the loop of
`decode` meets, `processSOS` does not end in a `panic("unreachable")`. -/
theorem C33_refine_unreachable (d d3 : decoder) (n : Nat) (p : ScanParams) (ms0 : McuState)
    (h : scanSetup d n = .ok (d3, p, ms0)) :
    (p.ah ≠ 0 → d.progressive = true ∧ (p.zigStart = 0 → p.zigEnd = 0)) ∧
    (d.progressive = false → p.ah = 0) ∧
    (∀ (s : Stream) (eobRun : Nat) (b : block) (hf : huffman) (zs ze delta : Int),
      refine s eobRun b hf zs ze delta = .error (.panic "unreachable") ↔ (zs = 0 ∧ ze ≠ 0)) ∧
    (∀ (sc : scanComp) (st : ScanState) (b : block),
      decodeBlock d3 p sc st b ≠ .error (.panic "unreachable")) ∧
    scanLoop d3 p ms0 ≠ .error (.panic "unreachable") ∧
    (∀ (r : List Nat) (e : decoder × Nat × Nat), e ∈ segmentsOf false r →
      processSOS e.1 e.2.2 ≠ .error (.panic "unreachable")) := by
  have hg := scanSetup_progOK d d3 n p ms0 h
  have hp : p.ah ≠ 0 → d.progressive = true ∧ (p.zigStart = 0 → p.zigEnd = 0) := by
    intro ha
    cases hpr : d.progressive with
    | false => exact absurd (hg.1 hpr).2.2.1 ha
    | true => exact ⟨rfl, (hg.2 hpr).1⟩
  refine ⟨hp, fun hpr => (hg.1 hpr).2.2.1, ?_, ?_, ?_, ?_⟩
  · intro s eobRun b hf zs ze delta
    constructor
    · intro he
      by_contra hne
      refine refine_reached s eobRun b hf zs ze delta ?_ he
      intro hz
      by_contra hze
      exact hne ⟨hz, hze⟩
    · rintro ⟨hz, hze⟩
      unfold refine
      rw [if_pos hz, if_pos hze]
  · intro sc st b
    exact decodeBlock_reached d3 p sc st b (fun ha => (hp ha).2)
  · exact scanLoop_reached d3 p ms0 (fun ha => (hp ha).2)
  · intro r e he
    have hok : e.1.FrameOK := by
      unfold segmentsOf at he
      split at he
      · simp at he
      · split at he
        · simp at he
        · refine decodeTrace_frameOK _ _ ?_ e he
          exact ⟨List.length_replicate _ _, Or.inl rfl⟩
    apply processSOS_reached
    intro d1 hd hs mxx myy
    have hfr := scanHeader_frame e.1 d1 e.2.2 hd hs
    have hok2 := frameOK_of_frame e.1 d1 hfr hok
    have hn0 : d1.nComp ≠ 0 := by
      rw [hfr.2.2.2.1]
      intro h0
      unfold scanHeader at hs
      rw [if_pos h0] at hs
      simp at hs
    apply makeImg_reachable
    rcases hok2.2 with h0 | h1 | ⟨-, r⟩
    · exact absurd h0 hn0
    · exact Or.inl h1
    · exact Or.inr r

set_option maxRecDepth 1000000 in
set_option maxHeartbeats 4000000 in
theorem C33_refine_unreachable_witness :
    scanSetup refineScan 6 = .ok refineScanSetup ∧
    (refineScanSetup.2.1.ah, refineScanSetup.2.1.zigStart, refineScanSetup.2.1.zigEnd) =
      (1, 0, 0) ∧
    (refineScanSetup.2.1.ah ≠ 0 → refineScan.progressive = true ∧
      (refineScanSetup.2.1.zigStart = 0 → refineScanSetup.2.1.zigEnd = 0)) ∧
    scanLoop refineScanSetup.1 refineScanSetup.2.1 refineScanSetup.2.2 ≠
      .error (.panic "unreachable") :=
  ⟨by decide!, by decide!,
    (C33_refine_unreachable refineScan refineScanSetup.1 6 refineScanSetup.2.1
      refineScanSetup.2.2 (by decide!)).1,
    (C33_refine_unreachable refineScan refineScanSetup.1 6 refineScanSetup.2.1
      refineScanSetup.2.2 (by decide!)).2.2.2.2.1⟩

end Jpeg

namespace Jpeg

/-! ## The index of the bit-by-bit walk -/

/-- The bit-by-bit walk is the walk up to its `return`, followed by the
`return`. -/
theorem slowPath_eq_hit (h : huffman) : ∀ (k i : Nat) (code : Int) (s : Stream),
    slowPath h k i code s =
      match slowPathHit h k i code s with
      | .error e => .error e
      | .ok (i1, c1, s1) => slowPathReturn h i1 c1 s1 := by
  intro k
  induction k with
  | zero =>
    intro i code s
    rw [slowPath, slowPathHit]
  | succ k ih =>
    intro i code s
    rw [slowPath, slowPathHit]
    simp only []
    rcases hr : (if s.bits.n = 0 then ensureNBits s 1 else (s, none)) with ⟨s1, _ | e1⟩
    · simp only []
      generalize (if s1.bits.a &&& s1.bits.m ≠ 0 then Int.lor code 1 else code) = code1
      by_cases hc : code1 ≤ h.maxCodes.getD i 0
      · rw [if_pos hc, if_pos hc]
        rfl
      · rw [if_neg hc, if_neg hc]
        exact ih _ _ _
    · rfl

theorem firstCode_le (counts : List Nat) (i : Nat) :
    firstCode counts i ≤ 2 ^ i * cumCount counts i := by
  induction i with
  | zero => simp [firstCode]
  | succ i ih =>
    rw [firstCode, cumCount, Nat.pow_succ]
    have h1 : counts.getD i 0 ≤ 2 ^ i * counts.getD i 0 :=
      Nat.le_mul_of_pos_left _ (Nat.two_pow_pos i)
    have h2 : 2 ^ i * 2 * (cumCount counts i + counts.getD i 0) =
        2 * (2 ^ i * cumCount counts i + 2 ^ i * counts.getD i 0) := by ring
    rw [h2]
    omega

/-- The codes of a table of at most 256 symbols stay far below the range of
`int32`, whether or not the counts form a prefix code. -/
theorem firstCode_bound (counts : List Nat) (hl : counts.length = 16) (hs : counts.sum ≤ 256)
    (i : Nat) (hi : i < 16) : firstCode counts i + counts.getD i 0 ≤ 8388608 := by
  have h1 := firstCode_le counts i
  have h2 := cumCount_le_sum counts hl (i + 1) (by omega)
  rw [cumCount] at h2
  have h3 : (2 : Nat) ^ i ≤ 2 ^ 15 := Nat.pow_le_pow_right (by omega) (by omega)
  have h4 : 2 ^ i * cumCount counts i ≤ 2 ^ 15 * cumCount counts i :=
    Nat.mul_le_mul_right _ h3
  have h5 : (2 : Nat) ^ 15 = 32768 := by norm_num
  rw [h5] at h4
  omega

/-- What the derivation of `minCodes`, `maxCodes` and `valsIndices` has
computed after `i` rounds, for any 16 counts with a sum of at most 256. -/
theorem codeFold_any (counts : List Nat) (hl : counts.length = 16) (hs : counts.sum ≤ 256)
    (st0 : CodeState)
    (h0 : st0.minCodes.length = 16 ∧ st0.maxCodes.length = 16 ∧ st0.valsIndices.length = 16)
    (hc0 : st0.c = 0 ∧ st0.index = 0) (i : Nat) (hi : i ≤ 16) :
    let st := (List.range i).foldl
      (codeLength ((List.range maxCodeLength).map (fun i => (counts.getD i 0 : Int)))) st0
    st.c = (firstCode counts i : Int) ∧ st.index = (cumCount counts i : Int) ∧
      st.minCodes.length = 16 ∧ st.maxCodes.length = 16 ∧ st.valsIndices.length = 16 ∧
      ∀ t, t < i →
        st.maxCodes.getD t 0 =
          (if counts.getD t 0 = 0 then -1
            else ((firstCode counts t + counts.getD t 0 : Nat) : Int) - 1) ∧
        st.minCodes.getD t 0 =
          (if counts.getD t 0 = 0 then -1 else (firstCode counts t : Int)) ∧
        st.valsIndices.getD t 0 =
          (if counts.getD t 0 = 0 then -1 else (cumCount counts t : Int)) := by
  induction i with
  | zero =>
    simp only [List.range_zero, List.foldl_nil, firstCode, cumCount]
    exact ⟨hc0.1, hc0.2, h0.1, h0.2.1, h0.2.2, fun t ht => absurd ht (by omega)⟩
  | succ i ih =>
    have hi16 : i < 16 := by omega
    obtain ⟨a1, a2, a3, a4, a5, a6⟩ := ih (by omega)
    simp only [List.range_succ, List.foldl_append, List.foldl_cons, List.foldl_nil]
    generalize (List.range i).foldl
      (codeLength ((List.range maxCodeLength).map (fun i => (counts.getD i 0 : Int)))) st0 = st
      at a1 a2 a3 a4 a5 a6 ⊢
    have hkb := firstCode_bound counts hl hs i hi16
    have hcum := cumCount_le_sum counts hl (i + 1) (by omega)
    rw [cumCount] at hcum
    unfold codeLength
    simp only [nCodes_getD counts i hi16]
    have set3 : ∀ (x y z : Int) (t : Nat), t < i + 1 →
        (t < i → (st.maxCodes.set i x).getD t 0 = st.maxCodes.getD t 0 ∧
          (st.minCodes.set i y).getD t 0 = st.minCodes.getD t 0 ∧
          (st.valsIndices.set i z).getD t 0 = st.valsIndices.getD t 0) ∧
        (t = i → (st.maxCodes.set i x).getD t 0 = x ∧ (st.minCodes.set i y).getD t 0 = y ∧
          (st.valsIndices.set i z).getD t 0 = z) := by
      intro x y z t _
      constructor
      · intro h1
        exact ⟨getD_set_ne _ _ _ _ _ (by omega), getD_set_ne _ _ _ _ _ (by omega),
          getD_set_ne _ _ _ _ _ (by omega)⟩
      · intro h1
        subst h1
        exact ⟨getD_set_eq _ _ _ _ (by omega), getD_set_eq _ _ _ _ (by omega),
          getD_set_eq _ _ _ _ (by omega)⟩
    by_cases hn : counts.getD i 0 = 0
    · have hn' : ((counts.getD i 0 : Nat) : Int) = 0 := by rw [hn]; rfl
      simp only [hn', ↓reduceIte]
      refine ⟨?_, ?_, by simp [a3], by simp [a4], by simp [a5], ?_⟩
      · rw [a1, firstCode, hn, shl32, wrap32_id _ (by omega) (by omega)]
        push_cast; ring
      · rw [a2, cumCount, hn]; simp
      · intro t ht
        obtain ⟨s1, s2⟩ := set3 (-1) (-1) (-1) t ht
        rcases Nat.lt_or_ge t i with h1 | h1
        · obtain ⟨b1, b2, b3⟩ := s1 h1
          rw [b1, b2, b3]
          exact a6 t h1
        · have hti : t = i := by omega
          obtain ⟨b1, b2, b3⟩ := s2 hti
          rw [b1, b2, b3, hti, if_pos hn, if_pos hn, if_pos hn]
          exact ⟨rfl, rfl, rfl⟩
    · have hn' : ¬ ((counts.getD i 0 : Nat) : Int) = 0 := by omega
      simp only [hn', ↓reduceIte]
      have hw1 : wrap32 (st.c + (counts.getD i 0 : Nat)) =
          ((firstCode counts i + counts.getD i 0 : Nat) : Int) := by
        rw [a1, wrap32_id _ (by omega) (by omega)]; push_cast; rfl
      refine ⟨?_, ?_, by simp [a3], by simp [a4], by simp [a5], ?_⟩
      · rw [hw1, firstCode, shl32, wrap32_id _ (by omega) (by omega)]
        push_cast; ring
      · rw [a2, cumCount, wrap32_id _ (by omega) (by omega)]; push_cast; rfl
      · intro t ht
        obtain ⟨s1, s2⟩ := set3
          (wrap32 (wrap32 (st.c + (counts.getD i 0 : Nat)) - 1)) st.c st.index t ht
        rcases Nat.lt_or_ge t i with h1 | h1
        · obtain ⟨b1, b2, b3⟩ := s1 h1
          rw [b1, b2, b3]
          exact a6 t h1
        · have hti : t = i := by omega
          obtain ⟨b1, b2, b3⟩ := s2 hti
          rw [b1, b2, b3, hti, hw1, wrap32_id _ (by omega) (by omega),
            if_neg hn, if_neg hn, if_neg hn]
          exact ⟨rfl, a1, a2⟩

theorem total_any (counts : List Nat) (hl : counts.length = 16) (hs : counts.sum ≤ 256)
    (i : Nat) (hi : i ≤ 16) :
    (List.range i).foldl (fun t i =>
        wrap32 (t + ((List.range maxCodeLength).map
          (fun i => (counts.getD i 0 : Int))).getD i 0)) 0 = (cumCount counts i : Int) := by
  induction i with
  | zero => simp only [List.range_zero, List.foldl_nil, cumCount]; rfl
  | succ i ih =>
    have hcum := cumCount_le_sum counts hl (i + 1) (by omega)
    rw [cumCount] at hcum
    rw [List.range_succ, List.foldl_append, ih (by omega)]
    simp only [List.foldl_cons, List.foldl_nil]
    rw [nCodes_getD counts i (by omega)]
    have hw := wrap32_id ((cumCount counts i : Int) + (counts.getD i 0 : Int))
      (by omega) (by omega)
    rw [hw, cumCount, Nat.cast_add]

/-- The tables that `processDHT` derives from 16 counts with a sum of at most
256. -/
theorem buildHuffman_tables (h0 : huffman) (counts syms : List Nat)
    (h16 : h0.minCodes.length = 16 ∧ h0.maxCodes.length = 16 ∧ h0.valsIndices.length = 16)
    (hl : counts.length = 16) (hs : counts.sum ≤ 256) :
    (buildHuffman h0 counts syms).nCodes = (counts.sum : Int) ∧
    ∀ t, t < 16 →
      (buildHuffman h0 counts syms).maxCodes.getD t 0 =
          (if counts.getD t 0 = 0 then -1
            else ((firstCode counts t + counts.getD t 0 : Nat) : Int) - 1) ∧
        (buildHuffman h0 counts syms).minCodes.getD t 0 =
          (if counts.getD t 0 = 0 then -1 else (firstCode counts t : Int)) ∧
        (buildHuffman h0 counts syms).valsIndices.getD t 0 =
          (if counts.getD t 0 = 0 then -1 else (cumCount counts t : Int)) := by
  refine ⟨?_, ?_⟩
  · have h := total_any counts hl hs 16 (Nat.le_refl _)
    rw [cumCount_eq_sum_take counts 16, List.take_of_length_le (by rw [hl])] at h
    exact h
  · intro t ht
    have h := codeFold_any counts hl hs
      { minCodes := h0.minCodes, maxCodes := h0.maxCodes, valsIndices := h0.valsIndices,
        c := 0, index := 0 } h16 ⟨rfl, rfl⟩ 16 (Nat.le_refl _)
    exact h.2.2.2.2.2 t ht

/-- The walk returns at a length that has codes, with a code of that length
that the table holds: the code that enters round `i` is not below the first
code of length `i + 1`. -/
theorem slowPathHit_range (h : huffman) (counts : List Nat)
    (ht : ∀ t, t < 16 →
      h.maxCodes.getD t 0 =
          (if counts.getD t 0 = 0 then -1
            else ((firstCode counts t + counts.getD t 0 : Nat) : Int) - 1)) :
    ∀ (k i c : Nat) (s : Stream) (i1 : Nat) (c1 : Int) (s1 : Stream),
      i + k ≤ 16 → c % 2 = 0 → firstCode counts i ≤ c → c < 2 ^ (i + 1) →
      slowPathHit h k i (c : Int) s = .ok (i1, c1, s1) →
      i ≤ i1 ∧ i1 < 16 ∧ counts.getD i1 0 ≠ 0 ∧
        ∃ m : Nat, c1 = (m : Int) ∧ firstCode counts i1 ≤ m ∧
          m < firstCode counts i1 + counts.getD i1 0 := by
  intro k
  induction k with
  | zero =>
    intro i c s i1 c1 s1 _ _ _ _ he
    rw [slowPathHit] at he
    simp at he
  | succ k ih =>
    intro i c s i1 c1 s1 hik hev hfc hlt he
    rw [slowPathHit] at he
    simp only [] at he
    rcases hr : (if s.bits.n = 0 then ensureNBits s 1 else (s, none)) with ⟨s2, _ | e1⟩
    · rw [hr] at he
      simp only [] at he
      have hcode : ∃ m : Nat,
          (if s2.bits.a &&& s2.bits.m ≠ 0 then Int.lor (c : Int) 1 else (c : Int)) = (m : Int) ∧
            c ≤ m ∧ m ≤ c + 1 := by
        split
        · refine ⟨c + 1, ?_, by omega, by omega⟩
          have hc2 : c = 2 * (c / 2) := by omega
          rw [hc2, lor_one]
        · exact ⟨c, rfl, by omega, by omega⟩
      obtain ⟨m, hm, hm1, hm2⟩ := hcode
      rw [hm] at he
      have hpow : (2 : Nat) ^ (i + 1) = 2 * 2 ^ i := by rw [Nat.pow_succ]; ring
      have hp16 : (2 : Nat) ^ (i + 1) ≤ 2 ^ 16 := Nat.pow_le_pow_right (by omega) (by omega)
      have h16 : (2 : Nat) ^ 16 = 65536 := by norm_num
      have hmax := ht i (by omega)
      by_cases hc : (m : Int) ≤ h.maxCodes.getD i 0
      · rw [if_pos hc] at he
        simp only [Except.ok.injEq, Prod.mk.injEq] at he
        obtain ⟨rfl, rfl, -⟩ := he
        by_cases hn : counts.getD i 0 = 0
        · rw [hmax, if_pos hn] at hc
          omega
        · rw [hmax, if_neg hn] at hc
          exact ⟨Nat.le_refl _, by omega, hn, m, rfl, by omega, by omega⟩
      · rw [if_neg hc] at he
        rw [shl1_eq m (by omega)] at he
        have hnext : firstCode counts (i + 1) ≤ 2 * m := by
          rw [firstCode]
          by_cases hn : counts.getD i 0 = 0
          · rw [hn]; omega
          · rw [hmax, if_neg hn] at hc
            omega
        obtain ⟨b1, b2, b3, b4⟩ := ih (i + 1) (2 * m) _ i1 c1 s1 (by omega) (by omega) hnext
          (by rw [Nat.pow_succ]; omega) he
        exact ⟨by omega, b2, b3, b4⟩
    · rw [hr] at he
      simp at he

/-- C31: for every table that `processDHT` builds (`buildHuffman`, from 16
count bytes with a sum of at most 256 and as many symbol bytes as the sum, in a
slot whose arrays have 16 entries), whether or not the counts form a prefix
code: whenever the bit-by-bit walk of `decodeHuffman` returns at the length
index `i` with the code `code`, the length `i + 1` has codes, so none of
`minCodes[i]`, `maxCodes[i]` and `valsIndices[i]` is the sentinel -1, the code
lies between `minCodes[i]` and `maxCodes[i]`, and the index
`valsIndices[i] + code - minCodes[i]` lies in `[0, nCodes)`; the walk returns
the symbol of the segment at that index, and an error of the walk is never
one of the index. -/
theorem C31_slowPath_index (h0 : huffman) (counts syms : List Nat)
    (h16 : h0.minCodes.length = 16 ∧ h0.maxCodes.length = 16 ∧ h0.valsIndices.length = 16)
    (hl : counts.length = 16) (hs : counts.sum ≤ 256) (hsyms : syms.length = counts.sum) :
    (buildHuffman h0 counts syms).nCodes = (counts.sum : Int) ∧
    (∀ s : Stream, slowPath (buildHuffman h0 counts syms) maxCodeLength 0 0 s =
      match slowPathHit (buildHuffman h0 counts syms) maxCodeLength 0 0 s with
      | .error e => .error e
      | .ok (i, code, s1) => slowPathReturn (buildHuffman h0 counts syms) i code s1) ∧
    (∀ (s : Stream) (i : Nat) (code : Int) (s1 : Stream),
      slowPathHit (buildHuffman h0 counts syms) maxCodeLength 0 0 s = .ok (i, code, s1) →
      i < 16 ∧ counts.getD i 0 ≠ 0 ∧
        (buildHuffman h0 counts syms).minCodes.getD i 0 ≠ -1 ∧
        (buildHuffman h0 counts syms).maxCodes.getD i 0 ≠ -1 ∧
        (buildHuffman h0 counts syms).valsIndices.getD i 0 ≠ -1 ∧
        (buildHuffman h0 counts syms).minCodes.getD i 0 ≤ code ∧
        code ≤ (buildHuffman h0 counts syms).maxCodes.getD i 0 ∧
        0 ≤ (buildHuffman h0 counts syms).valsIndices.getD i 0 + code -
          (buildHuffman h0 counts syms).minCodes.getD i 0 ∧
        (buildHuffman h0 counts syms).valsIndices.getD i 0 + code -
          (buildHuffman h0 counts syms).minCodes.getD i 0 <
            (buildHuffman h0 counts syms).nCodes ∧
        slowPath (buildHuffman h0 counts syms) maxCodeLength 0 0 s =
          .ok (syms.getD ((buildHuffman h0 counts syms).valsIndices.getD i 0 + code -
            (buildHuffman h0 counts syms).minCodes.getD i 0).toNat 0, s1)) ∧
    (∀ (s : Stream) (e : Err),
      slowPath (buildHuffman h0 counts syms) maxCodeLength 0 0 s = .error e →
      slowPathHit (buildHuffman h0 counts syms) maxCodeLength 0 0 s = .error e) := by
  obtain ⟨hn, htab⟩ := buildHuffman_tables h0 counts syms h16 hl hs
  have hit : ∀ (s : Stream) (i : Nat) (code : Int) (s1 : Stream),
      slowPathHit (buildHuffman h0 counts syms) maxCodeLength 0 0 s = .ok (i, code, s1) →
      i < 16 ∧ counts.getD i 0 ≠ 0 ∧
        ∃ m : Nat, code = (m : Int) ∧ firstCode counts i ≤ m ∧
          m < firstCode counts i + counts.getD i 0 := by
    intro s i code s1 he
    obtain ⟨-, a2, a3, a4⟩ := slowPathHit_range (buildHuffman h0 counts syms) counts
      (fun t ht => (htab t ht).1) maxCodeLength 0 0 s i code s1 (by decide) (by decide)
      (by simp [firstCode]) (by decide) he
    exact ⟨a2, a3, a4⟩
  have ret : ∀ (i : Nat) (code : Int) (s1 : Stream), i < 16 → counts.getD i 0 ≠ 0 →
      (∃ m : Nat, code = (m : Int) ∧ firstCode counts i ≤ m ∧
        m < firstCode counts i + counts.getD i 0) →
      0 ≤ (buildHuffman h0 counts syms).valsIndices.getD i 0 + code -
          (buildHuffman h0 counts syms).minCodes.getD i 0 ∧
        (buildHuffman h0 counts syms).valsIndices.getD i 0 + code -
          (buildHuffman h0 counts syms).minCodes.getD i 0 < (counts.sum : Int) ∧
        slowPathReturn (buildHuffman h0 counts syms) i code s1 =
          .ok (syms.getD ((buildHuffman h0 counts syms).valsIndices.getD i 0 + code -
            (buildHuffman h0 counts syms).minCodes.getD i 0).toNat 0, s1) := by
    intro i code s1 hi hne ⟨m, hm, m1, m2⟩
    obtain ⟨-, t2, t3⟩ := htab i hi
    rw [if_neg hne] at t2 t3
    have hkb := firstCode_bound counts hl hs i hi
    have hcum := cumCount_le_sum counts hl (i + 1) (by omega)
    rw [cumCount] at hcum
    have hidx : (buildHuffman h0 counts syms).valsIndices.getD i 0 + code -
        (buildHuffman h0 counts syms).minCodes.getD i 0 =
          ((cumCount counts i + (m - firstCode counts i) : Nat) : Int) := by
      rw [t2, t3, hm]
      omega
    refine ⟨by rw [hidx]; omega, by rw [hidx]; omega, ?_⟩
    unfold slowPathReturn
    simp only []
    have hw1 : wrap32 ((buildHuffman h0 counts syms).valsIndices.getD i 0 + code) =
        (buildHuffman h0 counts syms).valsIndices.getD i 0 + code := by
      rw [t3, hm]
      exact wrap32_id _ (by omega) (by omega)
    rw [hw1, wrap32_id _ (by rw [hidx]; omega) (by rw [hidx]; omega), hidx]
    rw [if_neg (by omega)]
    simp only [Int.toNat_ofNat]
    rw [buildHuffman_vals, List.getD_eq_getElem?_getD, List.getD_eq_getElem?_getD,
      List.getElem?_append_left (by omega)]
  refine ⟨hn, fun s => slowPath_eq_hit _ _ _ _ s, ?_, ?_⟩
  · intro s i code s1 he
    obtain ⟨hi, hne, hm⟩ := hit s i code s1 he
    obtain ⟨r1, r2, r3⟩ := ret i code s1 hi hne hm
    obtain ⟨t1, t2, t3⟩ := htab i hi
    rw [if_neg hne] at t1 t2 t3
    obtain ⟨m, hm0, m1, m2⟩ := hm
    refine ⟨hi, hne, by rw [t2]; omega, by rw [t1]; omega, by rw [t3]; omega,
      by rw [t2, hm0]; omega, by rw [t1, hm0]; omega, r1, by rw [hn]; exact r2, ?_⟩
    rw [slowPath_eq_hit, he]
    exact r3
  · intro s e he
    rw [slowPath_eq_hit] at he
    rcases hh : slowPathHit (buildHuffman h0 counts syms) maxCodeLength 0 0 s with
      e1 | ⟨i, code, s1⟩
    · rw [hh] at he
      simp only [Except.error.injEq] at he
      rw [he]
    · rw [hh] at he
      simp only [] at he
      obtain ⟨hi, hne, hm⟩ := hit s i code s1 hh
      rw [(ret i code s1 hi hne hm).2.2] at he
      simp at he

set_option maxRecDepth 1000000 in
theorem C31_slowPath_index_witness :
    crowdedTable.nCodes = 3 ∧
    (slowPathHit crowdedTable maxCodeLength 0 0 bitStream).toOption.map
      (fun x => (x.1, x.2.1)) = some (0, 1) ∧
    (slowPath crowdedTable maxCodeLength 0 0 bitStream).toOption.map (fun x => x.1) =
      some 20 ∧
    ∀ (s : Stream) (e : Err), slowPath crowdedTable maxCodeLength 0 0 s = .error e →
      slowPathHit crowdedTable maxCodeLength 0 0 s = .error e :=
  ⟨(C31_slowPath_index huffman.zero crowdedCounts [10, 20, 30] (by decide) (by decide)
      (by decide) (by decide)).1,
    by decide!, by decide!,
    (C31_slowPath_index huffman.zero crowdedCounts [10, 20, 30] (by decide) (by decide)
      (by decide) (by decide)).2.2.2⟩

end Jpeg

namespace Jpeg

/-! ## The positions of the blocks of a scan -/

/-- The block loops of `processSOS` are the loops around `scanBlock`. -/
theorem scanLoop_eq_with (d : decoder) (p : ScanParams) (ms : McuState) :
    scanLoopWith (scanBlock d p) d p ms = scanLoop d p ms := rfl

/-- Two loops whose bodies agree on the states that an invariant admits run
alike from such a state. -/
theorem forRange_congr {σ : Type} (P : Nat → σ → Prop) (f g : Nat → σ → Except Err σ) :
    ∀ (k i0 : Nat), (∀ i st, i0 ≤ i → i < i0 + k → P i st → f i st = g i st) →
      (∀ i st st1, i0 ≤ i → i < i0 + k → P i st → g i st = .ok st1 → P (i + 1) st1) →
      ∀ st, P i0 st →
        forRange f k i0 st = forRange g k i0 st ∧
          ∀ st1, forRange g k i0 st = .ok st1 → P (i0 + k) st1 := by
  intro k
  induction k with
  | zero =>
    intro i0 _ _ st hP
    refine ⟨rfl, ?_⟩
    intro st1 h
    rw [forRange] at h
    simp only [Except.ok.injEq] at h
    subst h
    exact hP
  | succ k ih =>
    intro i0 hfg hstep st hP
    rw [forRange, forRange, hfg i0 st (Nat.le_refl _) (by omega) hP]
    rcases hg : g i0 st with e | st2
    · exact ⟨rfl, by intro st1 h; simp at h⟩
    · simp only []
      have hP2 := hstep i0 st st2 (Nat.le_refl _) (by omega) hP hg
      obtain ⟨r1, r2⟩ := ih (i0 + 1) (fun i a h1 h2 => hfg i a (by omega) (by omega))
        (fun i a b h1 h2 => hstep i a b (by omega) (by omega)) st2 hP2
      refine ⟨r1, ?_⟩
      intro st1 h
      have := r2 st1 h
      rw [show i0 + (k + 1) = i0 + 1 + k by omega]
      exact this

theorem decodeBlock_count (d : decoder) (p : ScanParams) (sc : scanComp) (st0 st1 : ScanState)
    (b b1 : block) (h : decodeBlock d p sc st0 b = .ok (b1, st1)) :
    st1.blockCount = st0.blockCount := by
  unfold decodeBlock at h
  repeat' split at h
  all_goals first
    | (simp only [Except.ok.injEq, Prod.mk.injEq] at h
       obtain ⟨_, h2⟩ := h
       subst h2
       rfl)
    | simp at h

theorem finishBlock_count (d : decoder) (p : ScanParams) (ci bx by_ idx : Nat) (b1 : block)
    (st st1 : ScanState) (h : finishBlock d p ci bx by_ idx b1 st = .ok st1) :
    st1.blockCount = st.blockCount := by
  unfold finishBlock reconstructBlock at h
  simp only [] at h
  repeat' split at h
  all_goals first
    | (simp only [Except.ok.injEq] at h
       subst h
       rfl)
    | simp at h

/-- The body of the loop over `j` counts the blocks of a scan of one
component. -/
theorem scanBlock_count (d : decoder) (p : ScanParams) (mx my i j : Nat) (st st1 : ScanState)
    (h : scanBlock d p mx my i j st = .ok st1) :
    st1.blockCount = if p.nComp ≠ 1 then st.blockCount else st.blockCount + 1 := by
  unfold scanBlock at h
  simp only [] at h
  generalize hst0 : (if p.nComp ≠ 1 then st
    else ({ st with blockCount := st.blockCount + 1 } : ScanState)) = st0 at h
  have h0 : st0.blockCount = if p.nComp ≠ 1 then st.blockCount else st.blockCount + 1 := by
    rw [← hst0]
    split <;> rfl
  repeat' split at h
  all_goals first
    | (simp only [Except.ok.injEq] at h
       subst h
       exact h0)
    | (rename_i hdec
       rw [finishBlock_count _ _ _ _ _ _ _ _ _ h, decodeBlock_count _ _ _ _ _ _ _ hdec]
       exact h0)
    | simp at h

theorem scanRestart_count (d : decoder) (p : ScanParams) (ms ms1 : McuState)
    (h : scanRestart d p ms = .ok ms1) : ms1.st.blockCount = ms.st.blockCount := by
  unfold scanRestart at h
  simp only [] at h
  repeat' split at h
  all_goals first
    | (simp only [Except.ok.injEq] at h
       subst h
       rfl)
    | simp at h

theorem index_arith (bx by_ q R : Nat) (hbx : bx < q) (hby : by_ < R) :
    by_ * q + bx < R * q := by
  have h1 : (by_ + 1) * q ≤ R * q := Nat.mul_le_mul_right q hby
  have h2 : (by_ + 1) * q = by_ * q + q := by ring
  omega

/-- The block positions of the interleaved traversal lie in the component. -/
theorem interleaved_arith (hi vi mx my j mxx myy : Nat) (hmx : mx < mxx) (hmy : my < myy)
    (hj : j < hi * vi) :
    hi * mx + j % hi < mxx * hi ∧ vi * my + j / hi < myy * vi ∧
      (vi * my + j / hi) * mxx * hi + (hi * mx + j % hi) < mxx * myy * hi * vi := by
  have hpos : 0 < hi := by
    rcases Nat.eq_zero_or_pos hi with h0 | h0
    · rw [h0] at hj; simp at hj
    · exact h0
  have h1 : j % hi < hi := Nat.mod_lt _ hpos
  have h2 : j / hi < vi := Nat.div_lt_of_lt_mul hj
  have h3 : hi * (mx + 1) ≤ hi * mxx := Nat.mul_le_mul_left hi hmx
  have h4 : vi * (my + 1) ≤ vi * myy := Nat.mul_le_mul_left vi hmy
  have e3 : hi * (mx + 1) = hi * mx + hi := by ring
  have e4 : vi * (my + 1) = vi * my + vi := by ring
  have e5 : hi * mxx = mxx * hi := Nat.mul_comm _ _
  have e6 : vi * myy = myy * vi := Nat.mul_comm _ _
  have a1 : hi * mx + j % hi < mxx * hi := by omega
  have a2 : vi * my + j / hi < myy * vi := by omega
  refine ⟨a1, a2, ?_⟩
  have := index_arith _ _ _ _ a1 a2
  have e7 : (vi * my + j / hi) * mxx * hi = (vi * my + j / hi) * (mxx * hi) := by ring
  have e8 : mxx * myy * hi * vi = myy * vi * (mxx * hi) := by ring
  rw [e7, e8]
  exact this

/-- The block positions of the traversal of a scan of one component lie in the
component. -/
theorem counted_arith (hi vi mx my j mxx myy bc : Nat) (hmx : mx < mxx) (hmy : my < myy)
    (hj : j < hi * vi) (hbc : bc = (my * mxx + mx) * (hi * vi) + j) :
    bc % (mxx * hi) < mxx * hi ∧ bc / (mxx * hi) < myy * vi ∧
      bc / (mxx * hi) * mxx * hi + bc % (mxx * hi) < mxx * myy * hi * vi := by
  have hpos : 0 < hi := by
    rcases Nat.eq_zero_or_pos hi with h0 | h0
    · rw [h0] at hj; simp at hj
    · exact h0
  have hq : 0 < mxx * hi := Nat.mul_pos (by omega) hpos
  have h1 : (my * mxx + mx + 1) * (hi * vi) ≤ (myy * mxx) * (hi * vi) := by
    apply Nat.mul_le_mul_right
    have : (my + 1) * mxx ≤ myy * mxx := Nat.mul_le_mul_right mxx hmy
    have e : (my + 1) * mxx = my * mxx + mxx := by ring
    omega
  have e1 : (my * mxx + mx + 1) * (hi * vi) = (my * mxx + mx) * (hi * vi) + hi * vi := by ring
  have hlt : bc < mxx * hi * (myy * vi) := by
    have e2 : mxx * hi * (myy * vi) = (myy * mxx) * (hi * vi) := by ring
    rw [e2]
    omega
  have a1 : bc % (mxx * hi) < mxx * hi := Nat.mod_lt _ hq
  have a2 : bc / (mxx * hi) < myy * vi := Nat.div_lt_of_lt_mul hlt
  refine ⟨a1, a2, ?_⟩
  have := index_arith _ _ _ _ a1 a2
  have e7 : bc / (mxx * hi) * mxx * hi = bc / (mxx * hi) * (mxx * hi) := by ring
  have e8 : mxx * myy * hi * vi = myy * vi * (mxx * hi) := by ring
  rw [e7, e8]
  exact this

/-- The assertion holds at every block of the loops, given the count of the
blocks in a scan of one component. -/
theorem blockInRange_of_count (d : decoder) (p : ScanParams) (mx my i j : Nat) (st : ScanState)
    (hmx : mx < p.mxx) (hmy : my < p.myy)
    (hj : j < (d.comp.getD (p.scan.getD i scanComp.zero).compIndex component.zero).h *
      (d.comp.getD (p.scan.getD i scanComp.zero).compIndex component.zero).v)
    (hc : p.nComp = 1 → st.blockCount = (my * p.mxx + mx) *
      ((d.comp.getD (p.scan.getD i scanComp.zero).compIndex component.zero).h *
        (d.comp.getD (p.scan.getD i scanComp.zero).compIndex component.zero).v) + j) :
    BlockInRange d p mx my i j st := by
  unfold BlockInRange blockPos
  simp only []
  by_cases h1 : p.nComp ≠ 1
  · rw [if_pos h1, if_pos h1]
    exact interleaved_arith _ _ _ _ _ _ _ hmx hmy hj
  · rw [if_neg h1, if_neg h1]
    exact counted_arith _ _ _ _ _ _ _ _ hmx hmy hj (hc (by omega))

/-- The loop over `j` with the assertion runs as the loop without it, and
counts the blocks. -/
theorem blockLoop_checked (d : decoder) (p : ScanParams) (mx my i : Nat) (st : ScanState)
    (hmx : mx < p.mxx) (hmy : my < p.myy)
    (hc : p.nComp = 1 → st.blockCount = (my * p.mxx + mx) * blocksPerMCU d p i) :
    forRange (scanBlockChecked d p mx my i) (blocksPerMCU d p i) 0 st =
        forRange (scanBlock d p mx my i) (blocksPerMCU d p i) 0 st ∧
      ∀ st1, forRange (scanBlock d p mx my i) (blocksPerMCU d p i) 0 st = .ok st1 →
        (p.nComp = 1 →
          st1.blockCount = (my * p.mxx + mx) * blocksPerMCU d p i + blocksPerMCU d p i) := by
  have key := forRange_congr
    (fun j (s : ScanState) =>
      p.nComp = 1 → s.blockCount = (my * p.mxx + mx) * blocksPerMCU d p i + j)
    (scanBlockChecked d p mx my i) (scanBlock d p mx my i) (blocksPerMCU d p i) 0 ?_ ?_ st
    (by intro h1; rw [hc h1]; rfl)
  · obtain ⟨k1, k2⟩ := key
    refine ⟨k1, ?_⟩
    intro st1 h1 hn
    have := k2 st1 h1 hn
    rw [this]
    omega
  · intro j s _ hj hP
    unfold scanBlockChecked
    rw [if_pos]
    exact blockInRange_of_count d p mx my i j s hmx hmy (by simpa [blocksPerMCU] using hj) hP
  · intro j s s1 _ _ hP hs hn
    rw [scanBlock_count d p mx my i j s s1 hs, if_neg (by omega), hP hn]
    omega

/-- The loop over `i` with the assertion runs as the loop without it. -/
theorem mcuLoop_checked (d : decoder) (p : ScanParams) (mx my : Nat) (st : ScanState)
    (hmx : mx < p.mxx) (hmy : my < p.myy)
    (hc : p.nComp = 1 → st.blockCount = (my * p.mxx + mx) * blocksPerMCU d p 0) :
    forRange (fun i st =>
        forRange (scanBlockChecked d p mx my i) (blocksPerMCU d p i) 0 st) p.nComp 0 st =
      forRange (fun i st =>
        forRange (scanBlock d p mx my i) (blocksPerMCU d p i) 0 st) p.nComp 0 st ∧
    ∀ st1, forRange (fun i st =>
        forRange (scanBlock d p mx my i) (blocksPerMCU d p i) 0 st) p.nComp 0 st = .ok st1 →
      (p.nComp = 1 → st1.blockCount = (my * p.mxx + mx + 1) * blocksPerMCU d p 0) := by
  have key := forRange_congr
    (fun i (s : ScanState) =>
      p.nComp = 1 →
        s.blockCount = (my * p.mxx + mx) * blocksPerMCU d p 0 + i * blocksPerMCU d p 0)
    (fun i st => forRange (scanBlockChecked d p mx my i) (blocksPerMCU d p i) 0 st)
    (fun i st => forRange (scanBlock d p mx my i) (blocksPerMCU d p i) 0 st) p.nComp 0 ?_ ?_ st
    (by intro h1; rw [hc h1]; omega)
  · obtain ⟨k1, k2⟩ := key
    refine ⟨k1, ?_⟩
    intro st1 h1 hn
    have := k2 st1 h1 hn
    rw [this, hn]
    ring
  · intro i s _ hi hP
    simp only []
    refine (blockLoop_checked d p mx my i s hmx hmy ?_).1
    intro hn
    have hi0 : i = 0 := by omega
    subst hi0
    rw [hP hn]
    omega
  · intro i s s1 _ hi hP hs hn
    have hi0 : i = 0 := by omega
    subst hi0
    simp only [] at hs
    have := (blockLoop_checked d p mx my 0 s hmx hmy
      (by intro _; rw [hP hn]; omega)).2 s1 hs hn
    rw [this]
    omega

/-- The block loops with the assertion at every block run as the block loops
of `processSOS`, when the count of the blocks starts at zero. -/
theorem scanLoop_checked (d : decoder) (p : ScanParams) (ms : McuState)
    (h0 : ms.st.blockCount = 0) :
    scanLoopWith (scanBlockChecked d p) d p ms = scanLoop d p ms := by
  rw [← scanLoop_eq_with]
  unfold scanLoopWith
  refine (forRange_congr
    (fun my (m : McuState) =>
      p.nComp = 1 → m.st.blockCount = my * p.mxx * blocksPerMCU d p 0)
    _ _ p.myy 0 ?_ ?_ ms (by intro _; rw [h0]; simp)).1
  · intro my m _ hmy hP
    simp only []
    refine (forRange_congr
      (fun mx (m : McuState) =>
        p.nComp = 1 → m.st.blockCount = (my * p.mxx + mx) * blocksPerMCU d p 0)
      _ _ p.mxx 0 ?_ ?_ m (by intro hn; rw [hP hn]; ring)).1
    · intro mx m2 _ hmx hP2
      have := (mcuLoop_checked d p mx my m2.st (by omega) (by omega) hP2).1
      unfold blocksPerMCU at this
      rw [this]
    · intro mx m2 m3 _ hmx hP2 hs hn
      simp only [] at hs
      rcases hm : forRange (fun i st =>
          forRange (scanBlock d p mx my i) (blocksPerMCU d p i) 0 st) p.nComp 0 m2.st
        with e | st1
      · unfold blocksPerMCU at hm
        rw [hm] at hs
        simp at hs
      · have hcnt := (mcuLoop_checked d p mx my m2.st (by omega) (by omega) hP2).2 st1 hm hn
        unfold blocksPerMCU at hm
        rw [hm] at hs
        simp only [] at hs
        rw [scanRestart_count d p _ m3 hs]
        exact hcnt
  · intro my m m1 _ hmy hP hs hn
    simp only [] at hs
    have key := (forRange_congr
      (fun mx (m : McuState) =>
        p.nComp = 1 → m.st.blockCount = (my * p.mxx + mx) * blocksPerMCU d p 0)
      (fun mx ms =>
        match forRange (fun i st =>
            forRange (scanBlock d p mx my i)
              ((d.comp.getD (p.scan.getD i scanComp.zero).compIndex component.zero).h *
                (d.comp.getD (p.scan.getD i scanComp.zero).compIndex component.zero).v) 0 st)
            p.nComp 0 ms.st with
        | .error e => .error e
        | .ok st1 => scanRestart d p { ms with st := st1 })
      (fun mx ms =>
        match forRange (fun i st =>
            forRange (scanBlock d p mx my i)
              ((d.comp.getD (p.scan.getD i scanComp.zero).compIndex component.zero).h *
                (d.comp.getD (p.scan.getD i scanComp.zero).compIndex component.zero).v) 0 st)
            p.nComp 0 ms.st with
        | .error e => .error e
        | .ok st1 => scanRestart d p { ms with st := st1 })
      p.mxx 0 (fun _ _ _ _ _ => rfl) ?_ m (by intro hn; rw [hP hn]; ring)).2 m1 hs hn
    · rw [key]
      ring
    · intro mx m2 m3 _ hmx hP2 hs2 hn2
      simp only [] at hs2
      rcases hm : forRange (fun i st =>
          forRange (scanBlock d p mx my i) (blocksPerMCU d p i) 0 st) p.nComp 0 m2.st
        with e | st1
      · unfold blocksPerMCU at hm
        rw [hm] at hs2
        simp at hs2
      · have hcnt := (mcuLoop_checked d p mx my m2.st (by omega) (by omega) hP2).2 st1 hm hn2
        unfold blocksPerMCU at hm
        rw [hm] at hs2
        simp only [] at hs2
        rw [scanRestart_count d p _ m3 hs2]
        exact hcnt

/-- The coefficient buffer that the set-up of a progressive scan allocates for
a component of the scan that has none yet holds `mxx*myy*h*v` blocks. -/
theorem allocProgCoeffs_size (d : decoder) (hd : ScanHeader) (mxx myy : Nat)
    (hp : d.progressive = true) (i : Nat) (hi : i < hd.nComp)
    (hc : (hd.scan.getD i scanComp.zero).compIndex < d.progCoeffs.length)
    (hn : d.progCoeffs.getD (hd.scan.getD i scanComp.zero).compIndex none = none) :
    (allocProgCoeffs d hd mxx myy).getD (hd.scan.getD i scanComp.zero).compIndex none =
      some (List.replicate
        (mxx * myy * (d.comp.getD (hd.scan.getD i scanComp.zero).compIndex component.zero).h *
          (d.comp.getD (hd.scan.getD i scanComp.zero).compIndex component.zero).v)
        block.zero) := by
  unfold allocProgCoeffs
  rw [if_pos hp]
  have key : ∀ k, k ≤ hd.nComp →
      ((List.range k).foldl
        (fun pc j =>
          let compIndex := (hd.scan.getD j scanComp.zero).compIndex
          if pc.getD compIndex none = none then
            pc.set compIndex
              (some (List.replicate
                (mxx * myy * (d.comp.getD compIndex component.zero).h *
                  (d.comp.getD compIndex component.zero).v) block.zero))
          else pc) d.progCoeffs).length = d.progCoeffs.length ∧
      ∀ c, c < d.progCoeffs.length → d.progCoeffs.getD c none = none →
        (((List.range k).foldl
          (fun pc j =>
            let compIndex := (hd.scan.getD j scanComp.zero).compIndex
            if pc.getD compIndex none = none then
              pc.set compIndex
                (some (List.replicate
                  (mxx * myy * (d.comp.getD compIndex component.zero).h *
                    (d.comp.getD compIndex component.zero).v) block.zero))
            else pc) d.progCoeffs).getD c none = none ∧
          ∀ j < k, (hd.scan.getD j scanComp.zero).compIndex ≠ c) ∨
        ((List.range k).foldl
          (fun pc j =>
            let compIndex := (hd.scan.getD j scanComp.zero).compIndex
            if pc.getD compIndex none = none then
              pc.set compIndex
                (some (List.replicate
                  (mxx * myy * (d.comp.getD compIndex component.zero).h *
                    (d.comp.getD compIndex component.zero).v) block.zero))
            else pc) d.progCoeffs).getD c none =
          some (List.replicate
            (mxx * myy * (d.comp.getD c component.zero).h *
              (d.comp.getD c component.zero).v) block.zero) := by
    intro k
    induction k with
    | zero =>
      intro _
      exact ⟨rfl, fun c _ h0 => Or.inl ⟨h0, fun j hj => absurd hj (by omega)⟩⟩
    | succ k ih =>
      intro hk
      obtain ⟨l, r⟩ := ih (by omega)
      rw [List.range_succ, List.foldl_append]
      simp only [List.foldl_cons, List.foldl_nil]
      generalize (List.range k).foldl
        (fun pc j =>
          let compIndex := (hd.scan.getD j scanComp.zero).compIndex
          if pc.getD compIndex none = none then
            pc.set compIndex
              (some (List.replicate
                (mxx * myy * (d.comp.getD compIndex component.zero).h *
                  (d.comp.getD compIndex component.zero).v) block.zero))
          else pc) d.progCoeffs = pc at l r ⊢
      by_cases hnone : pc.getD (hd.scan.getD k scanComp.zero).compIndex none = none
      · rw [if_pos hnone]
        refine ⟨by rw [List.length_set]; exact l, ?_⟩
        intro c hcl h0
        by_cases hck : (hd.scan.getD k scanComp.zero).compIndex = c
        · right
          rw [hck, getD_set_eq _ _ _ _ (by rw [l]; exact hcl)]
        · rw [getD_set_ne _ _ _ _ _ hck]
          rcases r c hcl h0 with ⟨r1, r2⟩ | r1
          · left
            refine ⟨r1, ?_⟩
            intro j hj
            rcases Nat.lt_or_ge j k with h1 | h1
            · exact r2 j h1
            · have : j = k := by omega
              rw [this]
              exact hck
          · exact Or.inr r1
      · rw [if_neg hnone]
        refine ⟨l, ?_⟩
        intro c hcl h0
        rcases r c hcl h0 with ⟨r1, r2⟩ | r1
        · left
          refine ⟨r1, ?_⟩
          intro j hj
          rcases Nat.lt_or_ge j k with h1 | h1
          · exact r2 j h1
          · have : j = k := by omega
            rw [this]
            intro hck
            rw [hck] at hnone
            exact hnone r1
        · exact Or.inr r1
  rcases (key hd.nComp (Nat.le_refl _)).2 _ hc hn with ⟨-, r2⟩ | r1
  · exact absurd rfl (r2 i hi)
  · exact r1

theorem scanAlloc_progCoeffs (d1 : decoder) (hd : ScanHeader) (d3 : decoder) (p : ScanParams)
    (ms0 : McuState) (h : scanAlloc d1 hd = .ok (d3, p, ms0)) :
    ∃ d2 : decoder, ms0.st.progCoeffs = allocProgCoeffs d2 hd p.mxx p.myy ∧
      d2.progCoeffs = d1.progCoeffs ∧ d2.progressive = d1.progressive ∧ d3.comp = d2.comp := by
  unfold scanAlloc at h
  simp only [] at h
  split at h
  · cases h
  split at h
  · cases h
  · rename_i d2 hmade
    injection h with h
    simp only [Prod.mk.injEq] at h
    obtain ⟨rfl, rfl, rfl⟩ := h
    refine ⟨d2, rfl, ?_, ?_, rfl⟩
    · split at hmade
      · exact (makeImg_fields _ _ _ _ hmade).1
      · simp only [Except.ok.injEq] at hmade
        rw [hmade]
    · split at hmade
      · exact (makeImg_fields _ _ _ _ hmade).2
      · simp only [Except.ok.injEq] at hmade
        rw [hmade]

/-- C32: for every decoder state (so for every frame that `processSOF` has
accepted) and every scan header that `processSOS` accepts, every block position
`(bx, by)` that the block loops compute, in the interleaved traversal
(`bx = hi*mx + j%hi`, `by = vi*my + j/hi`) and in the traversal of a scan of
one component (`bx = blockCount % (mxx*hi)`, `by = blockCount / (mxx*hi)`),
satisfies `bx < mxx*hi` and `by < myy*vi`, and the index `by*mxx*hi + bx` is
less than `mxx*myy*hi*vi`: the block loops with this assertion in front of
every block run exactly as the block loops of `processSOS`. The buffer that
the set-up of a progressive scan allocates for a component has
`mxx*myy*hi*vi` blocks. -/
theorem C32_block_positions (d d3 : decoder) (n : Nat) (p : ScanParams) (ms0 : McuState)
    (h : scanSetup d n = .ok (d3, p, ms0)) :
    scanLoopWith (scanBlock d3 p) d3 p ms0 = scanLoop d3 p ms0 ∧
    scanLoopWith (scanBlockChecked d3 p) d3 p ms0 = scanLoop d3 p ms0 ∧
    (∀ mx my i j bc : Nat, mx < p.mxx → my < p.myy → j < blocksPerMCU d3 p i →
      (p.nComp ≠ 1 ∨ bc = (my * p.mxx + mx) * blocksPerMCU d3 p i + j) →
      (blockPos d3 p mx my i j bc).1 <
          p.mxx * (d3.comp.getD (p.scan.getD i scanComp.zero).compIndex component.zero).h ∧
        (blockPos d3 p mx my i j bc).2 <
          p.myy * (d3.comp.getD (p.scan.getD i scanComp.zero).compIndex component.zero).v ∧
        (blockPos d3 p mx my i j bc).2 * p.mxx *
            (d3.comp.getD (p.scan.getD i scanComp.zero).compIndex component.zero).h +
          (blockPos d3 p mx my i j bc).1 < p.mxx * p.myy *
            (d3.comp.getD (p.scan.getD i scanComp.zero).compIndex component.zero).h *
            (d3.comp.getD (p.scan.getD i scanComp.zero).compIndex component.zero).v) ∧
    (∀ (mx my i j : Nat) (st : ScanState),
      scanBlock d3 p mx my i j st =
        (if p.nComp ≠ 1 ∧
            (d3.comp.getD (p.scan.getD i scanComp.zero).compIndex component.zero).h = 0 then
          .error (.panic "integer divide by zero")
        else if p.nComp = 1 ∧ p.mxx *
            (d3.comp.getD (p.scan.getD i scanComp.zero).compIndex component.zero).h = 0 then
          .error (.panic "integer divide by zero")
        else if p.nComp = 1 ∧ ((blockPos d3 p mx my i j st.blockCount).1 * 8 ≥ d3.width ∨
            (blockPos d3 p mx my i j st.blockCount).2 * 8 ≥ d3.height) then
          .ok (if p.nComp ≠ 1 then st else { st with blockCount := st.blockCount + 1 })
        else
          match loadBlock d3 (if p.nComp ≠ 1 then st
              else { st with blockCount := st.blockCount + 1 })
              (p.scan.getD i scanComp.zero).compIndex
              ((blockPos d3 p mx my i j st.blockCount).2 * p.mxx *
                  (d3.comp.getD (p.scan.getD i scanComp.zero).compIndex component.zero).h +
                (blockPos d3 p mx my i j st.blockCount).1) with
          | .error e => .error e
          | .ok b =>
            match decodeBlock d3 p (p.scan.getD i scanComp.zero)
                (if p.nComp ≠ 1 then st else { st with blockCount := st.blockCount + 1 }) b with
            | .error e => .error e
            | .ok (b1, st1) =>
              finishBlock d3 p (p.scan.getD i scanComp.zero).compIndex
                (blockPos d3 p mx my i j st.blockCount).1
                (blockPos d3 p mx my i j st.blockCount).2
                ((blockPos d3 p mx my i j st.blockCount).2 * p.mxx *
                    (d3.comp.getD (p.scan.getD i scanComp.zero).compIndex component.zero).h +
                  (blockPos d3 p mx my i j st.blockCount).1) b1 st1)) ∧
    (d.progressive = true → ∀ i, i < p.nComp →
      (p.scan.getD i scanComp.zero).compIndex < d.progCoeffs.length →
      d.progCoeffs.getD (p.scan.getD i scanComp.zero).compIndex none = none →
      ms0.st.progCoeffs.getD (p.scan.getD i scanComp.zero).compIndex none =
        some (List.replicate (p.mxx * p.myy *
          (d3.comp.getD (p.scan.getD i scanComp.zero).compIndex component.zero).h *
          (d3.comp.getD (p.scan.getD i scanComp.zero).compIndex component.zero).v)
          block.zero)) := by
  have h1 := h
  unfold scanSetup at h1
  rcases hh : scanHeader d n with e | ⟨d1, hd⟩
  · rw [hh] at h1; simp at h1
  rw [hh] at h1
  simp only [] at h1
  obtain ⟨a1, a2, -, -, -, -, a7⟩ := scanAlloc_params d1 hd d3 p ms0 h1
  refine ⟨rfl, scanLoop_checked d3 p ms0 a7, ?_, fun _ _ _ _ _ => rfl, ?_⟩
  · intro mx my i j bc hmx hmy hj hc
    have hin := blockInRange_of_count d3 p mx my i j
      { s := ms0.st.s, eobRun := 0, progCoeffs := [], img1 := none, img3 := none,
        blackPix := none, dc := [], blockCount := bc } hmx hmy hj
      (by
        intro hn
        rcases hc with hc | hc
        · exact absurd hn hc
        · exact hc)
    exact hin
  · intro hp i hi hc hn
    obtain ⟨d2, b1, b2, b3, b4⟩ := scanAlloc_progCoeffs d1 hd d3 p ms0 h1
    obtain ⟨-, -, -, f4, f5⟩ := scanHeader_fields d d1 n hd hh
    rw [b1, b4, a2]
    rw [a1] at hi
    rw [a2, ← f4, ← b2] at hc hn
    exact allocProgCoeffs_size d2 hd p.mxx p.myy (by rw [b3, f5, hp]) i hi hc hn

set_option maxRecDepth 1000000 in
set_option maxHeartbeats 4000000 in
theorem C32_block_positions_witness :
    scanSetup eobSecondScan 6 = .ok eobSecondSetup ∧
    (eobSecondSetup.2.1.nComp, eobSecondSetup.2.1.mxx, eobSecondSetup.2.1.myy) = (1, 1, 1) ∧
    scanLoopWith (scanBlockChecked eobSecondSetup.1 eobSecondSetup.2.1) eobSecondSetup.1
      eobSecondSetup.2.1 eobSecondSetup.2.2 =
        scanLoop eobSecondSetup.1 eobSecondSetup.2.1 eobSecondSetup.2.2 :=
  ⟨by decide!, by decide!,
    (C32_block_positions eobSecondScan eobSecondSetup.1 6 eobSecondSetup.2.1
      eobSecondSetup.2.2 (by decide!)).2.1⟩

end Jpeg

namespace Jpeg

/-! ## The config-only walk on two streams -/

theorem take_agree_split : ∀ (a b : Nat) (l1 l2 : List Nat),
    l1.take (a + b) = l2.take (a + b) →
      l1.take a = l2.take a ∧ (l1.drop a).take b = (l2.drop a).take b := by
  intro a
  induction a with
  | zero =>
    intro b l1 l2 h
    simpa using h
  | succ a ih =>
    intro b l1 l2 h
    rw [show a + 1 + b = (a + b) + 1 by omega] at h
    cases l1 with
    | nil =>
      cases l2 with
      | nil => simp
      | cons y t2 => simp at h
    | cons x t1 =>
      cases l2 with
      | nil => simp at h
      | cons y t2 =>
        simp only [List.take_succ_cons, List.cons.injEq] at h
        obtain ⟨r1, r2⟩ := ih b t1 t2 h.2
        simp only [List.take_succ_cons, List.drop_succ_cons, List.cons.injEq]
        exact ⟨⟨h.1, r1⟩, r2⟩

theorem take_agree_le (a k : Nat) (l1 l2 : List Nat) (h : a ≤ k)
    (hk : l1.take k = l2.take k) : l1.take a = l2.take a := by
  have := take_agree_split a (k - a) l1 l2 (by rw [show a + (k - a) = k by omega]; exact hk)
  exact this.1

/-- Method `readFull` reads the next `k` bytes, and reads them from any other
reader that holds the same `k` bytes next. -/
theorem readFull_uses (s : Stream) (k : Nat) (w : s.bytes.WF) (n0 : s.bytes.nUnreadable = 0)
    (tmp : List Nat) (t : Stream) (h : readFull s k = .ok (tmp, t)) :
    k ≤ s.bytes.pending.length ∧ tmp = s.bytes.pending.take k ∧
      t.bytes.pending = s.bytes.pending.drop k ∧ t.bytes.WF ∧ t.bytes.nUnreadable = 0 ∧
      t.bits = s.bits ∧
      ∀ s1 : Stream, s1.bytes.WF → s1.bytes.nUnreadable = 0 →
        s1.bytes.pending.take k = s.bytes.pending.take k → k ≤ s1.bytes.pending.length →
        ∃ t1, readFull s1 k = .ok (tmp, t1) ∧ t1.bytes.WF ∧ t1.bytes.nUnreadable = 0 ∧
          t1.bytes.pending = s1.bytes.pending.drop k ∧ t1.bits = s1.bits := by
  obtain ⟨g1, g2⟩ := readFull_spec s k w n0
  rcases Nat.lt_or_ge s.bytes.pending.length k with hs | hl
  · rw [g2 hs] at h
    simp at h
  · obtain ⟨t0, e1, e2, e3, e4, e5⟩ := g1 hl
    rw [e1] at h
    simp only [Except.ok.injEq, Prod.mk.injEq] at h
    obtain ⟨rfl, rfl⟩ := h
    refine ⟨hl, rfl, e4, e2, e3, e5, ?_⟩
    intro s1 w1 n1 ha hk
    obtain ⟨f1, -⟩ := readFull_spec s1 k w1 n1
    obtain ⟨t1, c1, c2, c3, c4, c5⟩ := f1 hk
    rw [ha] at c1
    exact ⟨t1, c1, c2, c3, c4, c5⟩

/-- The error of `readFull` depends on the number of bytes that are left. -/
theorem readFull_fails (s s1 : Stream) (k : Nat) (w : s.bytes.WF)
    (n0 : s.bytes.nUnreadable = 0) (w1 : s1.bytes.WF) (n1 : s1.bytes.nUnreadable = 0)
    (hl : s1.bytes.pending.length = s.bytes.pending.length) (e : Err)
    (h : readFull s k = .error e) : readFull s1 k = .error e := by
  obtain ⟨g1, g2⟩ := readFull_spec s k w n0
  obtain ⟨-, f2⟩ := readFull_spec s1 k w1 n1
  rcases Nat.lt_or_ge s.bytes.pending.length k with hs | hl2
  · rw [g2 hs] at h
    rw [f2 (by omega)]
    exact h
  · obtain ⟨t0, e1, -⟩ := g1 hl2
    rw [e1] at h
    simp at h

/-- Method `ignore` skips the next `n` bytes whatever they are. -/
theorem ignore_twin (s s1 : Stream) (n : Nat) (w : s.bytes.WF) (n0 : s.bytes.nUnreadable = 0)
    (w1 : s1.bytes.WF) (n1 : s1.bytes.nUnreadable = 0)
    (hl : s1.bytes.pending.length = s.bytes.pending.length) :
    (∀ e, ignore s n = .error e → ignore s1 n = .error e) ∧
    (∀ t, ignore s n = .ok t →
      n ≤ s.bytes.pending.length ∧ t.bytes.pending = s.bytes.pending.drop n ∧ t.bytes.WF ∧
        t.bytes.nUnreadable = 0 ∧ t.bits = s.bits ∧
        ∃ t1, ignore s1 n = .ok t1 ∧ t1.bytes.WF ∧ t1.bytes.nUnreadable = 0 ∧
          t1.bytes.pending = s1.bytes.pending.drop n ∧ t1.bits = s1.bits) := by
  obtain ⟨g1, g2⟩ := ignore_spec s n w n0
  obtain ⟨f1, f2⟩ := ignore_spec s1 n w1 n1
  rcases Nat.lt_or_ge s.bytes.pending.length n with hs | hl2
  · rw [g2 hs, f2 (by omega)]
    exact ⟨fun e h => h, by intro t h; simp at h⟩
  · obtain ⟨t0, e1, e2, e3, e4, e5⟩ := g1 hl2
    obtain ⟨t1, c1, c2, c3, c4, c5⟩ := f1 (by omega)
    rw [e1]
    refine ⟨by intro e h; simp at h, ?_⟩
    intro t h
    simp only [Except.ok.injEq] at h
    subst h
    exact ⟨hl2, e4, e2, e3, e5, t1, c1, c2, c3, c4, c5⟩

/-- A reader that holds the same `k + 1` bytes next as a reader with the bytes
`x :: rest` holds `x` and then the same `k` bytes as `rest`. -/
theorem take_agree_cons (l : List Nat) (x : Nat) (rest : List Nat) (k : Nat)
    (h : l.take (k + 1) = (x :: rest).take (k + 1)) :
    ∃ rest1, l = x :: rest1 ∧ rest1.take k = rest.take k := by
  cases l with
  | nil => simp at h
  | cons y t =>
    simp only [List.take_succ_cons, List.cons.injEq] at h
    exact ⟨t, by rw [h.1], h.2⟩

/-- The loop `for d.tmp[0] != 0xff` reads the same bytes from any reader that
holds next the bytes that the loop consumes. -/
theorem syncMarker_uses : ∀ (fuel : Nat) (b : bytes) (t0 t1 m : Nat) (b' : bytes),
    b.WF → b.nUnreadable = 0 → syncMarker fuel b t0 t1 = .ok (m, b') →
    ∃ k, k ≤ b.pending.length ∧ b'.pending = b.pending.drop k ∧ b'.WF ∧
      b'.nUnreadable = 0 ∧
      ∀ b1 : bytes, b1.WF → b1.nUnreadable = 0 → b1.pending.take k = b.pending.take k →
        k ≤ b1.pending.length →
        ∃ b1', syncMarker fuel b1 t0 t1 = .ok (m, b1') ∧ b1'.WF ∧ b1'.nUnreadable = 0 ∧
          b1'.pending = b1.pending.drop k := by
  intro fuel
  induction fuel with
  | zero =>
    intro b t0 t1 m b' w n0 h
    rw [syncMarker] at h
    by_cases ht : t0 ≠ 0xff
    · rw [if_pos ht] at h
      rcases hr : readByte b with ⟨ba, e | x⟩
      · rw [hr] at h; simp at h
      · rw [hr] at h; simp at h
    · rw [if_neg ht] at h
      simp only [Except.ok.injEq, Prod.mk.injEq] at h
      obtain ⟨rfl, rfl⟩ := h
      refine ⟨0, Nat.zero_le _, rfl, w, n0, ?_⟩
      intro b1 w1 n1 _ _
      refine ⟨b1, ?_, w1, n1, rfl⟩
      rw [syncMarker, if_neg ht]
  | succ fuel ih =>
    intro b t0 t1 m b' w n0 h
    rw [syncMarker] at h
    by_cases ht : t0 ≠ 0xff
    · rw [if_pos ht] at h
      obtain ⟨rb1, rb2⟩ := readByte_pending b w
      cases hp : b.pending with
      | nil =>
        obtain ⟨ba, hr⟩ := rb2 hp
        rw [hr] at h
        simp at h
      | cons x rest =>
        obtain ⟨ba, hr, wa, na, pa⟩ := rb1 x rest hp
        rw [hr] at h
        simp only [] at h
        obtain ⟨k, k1, k2, k3, k4, k5⟩ := ih ba t1 x m b' wa na h
        rw [pa] at k1 k2 k5
        refine ⟨k + 1, by simp only [List.length_cons]; omega, by rw [k2]; rfl, k3, k4, ?_⟩
        intro b1 w1 n1 ha hk
        obtain ⟨rest1, hp1, ha1⟩ := take_agree_cons _ x rest k ha
        obtain ⟨bb, hrb, wb, nb, pb⟩ := (readByte_pending b1 w1).1 x rest1 hp1
        rw [hp1] at hk
        simp only [List.length_cons] at hk
        obtain ⟨b1', c1, c2, c3, c4⟩ := k5 bb wb nb (by rw [pb]; exact ha1)
          (by rw [pb]; omega)
        refine ⟨b1', ?_, c2, c3, ?_⟩
        · rw [syncMarker, if_pos ht, hrb]
          exact c1
        · rw [c4, pb, hp1]
          rfl
    · rw [if_neg ht] at h
      simp only [Except.ok.injEq, Prod.mk.injEq] at h
      obtain ⟨rfl, rfl⟩ := h
      refine ⟨0, Nat.zero_le _, rfl, w, n0, ?_⟩
      intro b1 w1 n1 _ _
      refine ⟨b1, ?_, w1, n1, rfl⟩
      rw [syncMarker, if_neg ht]

/-- The loop `for marker == 0xff` reads the same bytes from any reader that
holds next the bytes that the loop consumes. -/
theorem skipFill_uses : ∀ (fuel : Nat) (b : bytes) (marker m : Nat) (b' : bytes),
    b.WF → b.nUnreadable = 0 → skipFill fuel b marker = .ok (m, b') →
    ∃ k, k ≤ b.pending.length ∧ b'.pending = b.pending.drop k ∧ b'.WF ∧
      b'.nUnreadable = 0 ∧
      ∀ b1 : bytes, b1.WF → b1.nUnreadable = 0 → b1.pending.take k = b.pending.take k →
        k ≤ b1.pending.length →
        ∃ b1', skipFill fuel b1 marker = .ok (m, b1') ∧ b1'.WF ∧ b1'.nUnreadable = 0 ∧
          b1'.pending = b1.pending.drop k := by
  intro fuel
  induction fuel with
  | zero =>
    intro b marker m b' w n0 h
    rw [skipFill] at h
    by_cases ht : marker = 0xff
    · rw [if_pos ht] at h
      rcases hr : readByte b with ⟨ba, e | x⟩
      · rw [hr] at h; simp at h
      · rw [hr] at h; simp at h
    · rw [if_neg ht] at h
      simp only [Except.ok.injEq, Prod.mk.injEq] at h
      obtain ⟨rfl, rfl⟩ := h
      refine ⟨0, Nat.zero_le _, rfl, w, n0, ?_⟩
      intro b1 w1 n1 _ _
      refine ⟨b1, ?_, w1, n1, rfl⟩
      rw [skipFill, if_neg ht]
  | succ fuel ih =>
    intro b marker m b' w n0 h
    rw [skipFill] at h
    by_cases ht : marker = 0xff
    · rw [if_pos ht] at h
      obtain ⟨rb1, rb2⟩ := readByte_pending b w
      cases hp : b.pending with
      | nil =>
        obtain ⟨ba, hr⟩ := rb2 hp
        rw [hr] at h
        simp at h
      | cons x rest =>
        obtain ⟨ba, hr, wa, na, pa⟩ := rb1 x rest hp
        rw [hr] at h
        simp only [] at h
        obtain ⟨k, k1, k2, k3, k4, k5⟩ := ih ba x m b' wa na h
        rw [pa] at k1 k2 k5
        refine ⟨k + 1, by simp only [List.length_cons]; omega, by rw [k2]; rfl, k3, k4, ?_⟩
        intro b1 w1 n1 ha hk
        obtain ⟨rest1, hp1, ha1⟩ := take_agree_cons _ x rest k ha
        obtain ⟨bb, hrb, wb, nb, pb⟩ := (readByte_pending b1 w1).1 x rest1 hp1
        rw [hp1] at hk
        simp only [List.length_cons] at hk
        obtain ⟨b1', c1, c2, c3, c4⟩ := k5 bb wb nb (by rw [pb]; exact ha1)
          (by rw [pb]; omega)
        refine ⟨b1', ?_, c2, c3, ?_⟩
        · rw [skipFill, if_pos ht, hrb]
          exact c1
        · rw [c4, pb, hp1]
          rfl
    · rw [if_neg ht] at h
      simp only [Except.ok.injEq, Prod.mk.injEq] at h
      obtain ⟨rfl, rfl⟩ := h
      refine ⟨0, Nat.zero_le _, rfl, w, n0, ?_⟩
      intro b1 w1 n1 _ _
      refine ⟨b1, ?_, w1, n1, rfl⟩
      rw [skipFill, if_neg ht]

/-- The first part of a round of the segment loop finds the same marker and
segment length on any other reader that holds next the bytes that it
consumes (and as many bytes in all). -/
theorem segmentHeader_uses (d : decoder) (hdr : Header) (w : d.bytes.WF)
    (n0 : d.bytes.nUnreadable = 0) (h : segmentHeader d = .ok hdr) :
    ∃ k, k ≤ d.bytes.pending.length ∧ hdr.dec.bytes.pending = d.bytes.pending.drop k ∧
      hdr.dec.bytes.WF ∧ hdr.dec.bytes.nUnreadable = 0 ∧
      hdr.dec = { d with bytes := hdr.dec.bytes } ∧
      ∀ bx : bytes, bx.WF → bx.nUnreadable = 0 →
        bx.pending.length = d.bytes.pending.length →
        bx.pending.take k = d.bytes.pending.take k →
        ∃ bx', segmentHeader { d with bytes := bx } = .ok (hdr.withBytes bx') ∧ bx'.WF ∧
          bx'.nUnreadable = 0 ∧ bx'.pending = bx.pending.drop k := by
  unfold segmentHeader at h
  rcases hrf : readFull d.stream 2 with e | ⟨tmp, s⟩
  · rw [hrf] at h; simp at h
  rw [hrf] at h
  simp only [] at h
  obtain ⟨a0, -, a3, a4, a5, a6, a7⟩ := readFull_uses d.stream 2 w n0 tmp s hrf
  have a1 : 2 ≤ d.bytes.pending.length := a0
  clear a0
  have a3' : s.bytes.pending = d.bytes.pending.drop 2 := a3
  have a6' : s.bits = d.bits := a6
  rcases hsy : syncMarker s.bytes.remaining s.bytes (tmp.getD 0 0) (tmp.getD 1 0) with
    e | ⟨marker0, b1⟩
  · rw [hsy] at h; simp at h
  rw [hsy] at h
  simp only [] at h
  obtain ⟨ks, s1, s2, s3, s4, s5⟩ := syncMarker_uses _ _ _ _ _ _ a4 a5 hsy
  rw [a3'] at s1 s2
  rw [List.length_drop] at s1
  rw [List.drop_drop] at s2
  -- the run on another reader, up to the marker
  have run1 : ∀ bx : bytes, bx.WF → bx.nUnreadable = 0 →
      bx.pending.length = d.bytes.pending.length →
      bx.pending.take (2 + ks) = d.bytes.pending.take (2 + ks) →
      ∃ t1 bx1, readFull (decoder.stream { d with bytes := bx }) 2 = .ok (tmp, t1) ∧
        t1.bits = d.bits ∧
        syncMarker t1.bytes.remaining t1.bytes (tmp.getD 0 0) (tmp.getD 1 0) =
          .ok (marker0, bx1) ∧
        bx1.WF ∧ bx1.nUnreadable = 0 ∧ bx1.pending = bx.pending.drop (2 + ks) := by
    intro bx wx nx hl ha
    obtain ⟨g1, g2⟩ := take_agree_split 2 ks _ _ ha
    obtain ⟨t1, c1, c2, c3, c4, c5⟩ := a7 (decoder.stream { d with bytes := bx }) wx nx g1
      (by
        show 2 ≤ bx.pending.length
        omega)
    have c4' : t1.bytes.pending = bx.pending.drop 2 := c4
    have hfuel : t1.bytes.remaining = s.bytes.remaining := by
      rw [remaining_eq _ c2, remaining_eq _ a4, c4', a3', List.length_drop, List.length_drop, hl]
    obtain ⟨bx1, q1, q2, q3, q4⟩ := s5 t1.bytes c2 c3 (by rw [c4', a3']; exact g2)
      (by rw [c4', List.length_drop]; omega)
    refine ⟨t1, bx1, c1, c5, by rw [hfuel]; exact q1, q2, q3, ?_⟩
    rw [q4, c4', List.drop_drop]
  by_cases hm0 : marker0 = 0
  · rw [if_pos hm0] at h
    simp only [Except.ok.injEq] at h
    subst h
    refine ⟨2 + ks, by omega, s2, s3, s4, by simp only [Header.dec]; rw [a6'], ?_⟩
    intro bx wx nx hl ha
    obtain ⟨t1, bx1, r1, r2, r3, r4, r5, r6⟩ := run1 bx wx nx hl ha
    refine ⟨bx1, ?_, r4, r5, r6⟩
    unfold segmentHeader
    rw [r1]
    simp only []
    rw [r3]
    simp only []
    rw [if_pos hm0, r2, a6']
    rfl
  rw [if_neg hm0] at h
  rcases hsf : skipFill b1.remaining b1 marker0 with e | ⟨marker, b2⟩
  · rw [hsf] at h; simp at h
  rw [hsf] at h
  simp only [] at h
  obtain ⟨kf, f1, f2, f3, f4, f5⟩ := skipFill_uses _ _ _ _ _ s3 s4 hsf
  rw [s2] at f1 f2
  rw [List.length_drop] at f1
  rw [List.drop_drop] at f2
  have run2 : ∀ bx : bytes, bx.WF → bx.nUnreadable = 0 →
      bx.pending.length = d.bytes.pending.length →
      bx.pending.take (2 + ks + kf) = d.bytes.pending.take (2 + ks + kf) →
      ∃ t1 bx1 bx2, readFull (decoder.stream { d with bytes := bx }) 2 = .ok (tmp, t1) ∧
        t1.bits = d.bits ∧
        syncMarker t1.bytes.remaining t1.bytes (tmp.getD 0 0) (tmp.getD 1 0) =
          .ok (marker0, bx1) ∧
        skipFill bx1.remaining bx1 marker0 = .ok (marker, bx2) ∧
        bx2.WF ∧ bx2.nUnreadable = 0 ∧ bx2.pending = bx.pending.drop (2 + ks + kf) := by
    intro bx wx nx hl ha
    obtain ⟨g1, g2⟩ := take_agree_split (2 + ks) kf _ _ ha
    obtain ⟨t1, bx1, r1, r2, r3, r4, r5, r6⟩ := run1 bx wx nx hl g1
    have hfuel : bx1.remaining = b1.remaining := by
      rw [remaining_eq _ r4, remaining_eq _ s3, r6, s2, List.length_drop, List.length_drop, hl]
    obtain ⟨bx2, q1, q2, q3, q4⟩ := f5 bx1 r4 r5 (by rw [r6, s2]; exact g2)
      (by rw [r6, List.length_drop]; omega)
    refine ⟨t1, bx1, bx2, r1, r2, r3, by rw [hfuel]; exact q1, q2, q3, ?_⟩
    rw [q4, r6, List.drop_drop]
  by_cases heoi : marker = eoiMarker
  · rw [if_pos heoi] at h
    simp only [Except.ok.injEq] at h
    subst h
    refine ⟨2 + ks + kf, by omega, f2, f3, f4, by simp only [Header.dec]; rw [a6'], ?_⟩
    intro bx wx nx hl ha
    obtain ⟨t1, bx1, bx2, r1, r2, r3, r4, r5, r6, r7⟩ := run2 bx wx nx hl ha
    refine ⟨bx2, ?_, r5, r6, r7⟩
    unfold segmentHeader
    rw [r1]
    simp only []
    rw [r3]
    simp only []
    rw [if_neg hm0, r4]
    simp only []
    rw [if_pos heoi, r2, a6']
    rfl
  rw [if_neg heoi] at h
  by_cases hrst : rst0Marker ≤ marker ∧ marker ≤ rst7Marker
  · rw [if_pos hrst] at h
    simp only [Except.ok.injEq] at h
    subst h
    refine ⟨2 + ks + kf, by omega, f2, f3, f4, by simp only [Header.dec]; rw [a6'], ?_⟩
    intro bx wx nx hl ha
    obtain ⟨t1, bx1, bx2, r1, r2, r3, r4, r5, r6, r7⟩ := run2 bx wx nx hl ha
    refine ⟨bx2, ?_, r5, r6, r7⟩
    unfold segmentHeader
    rw [r1]
    simp only []
    rw [r3]
    simp only []
    rw [if_neg hm0, r4]
    simp only []
    rw [if_neg heoi, if_pos hrst, r2, a6']
    rfl
  rw [if_neg hrst] at h
  rcases hlen : readFull (decoder.stream { d with bytes := b2, bits := s.bits }) 2 with
    e | ⟨len, s3'⟩
  · rw [hlen] at h; simp at h
  rw [hlen] at h
  simp only [] at h
  obtain ⟨l1, -, l3, l4, l5, l6, l7⟩ := readFull_uses _ 2 f3 f4 len s3' hlen
  have l3' : s3'.bytes.pending = b2.pending.drop 2 := l3
  have l6' : s3'.bits = s.bits := l6
  have l1' : 2 ≤ b2.pending.length := l1
  rw [f2] at l3' l1'
  rw [List.length_drop] at l1'
  rw [List.drop_drop] at l3'
  by_cases hneg : ((((len.getD 0 0) <<< 8 + len.getD 1 0 : Nat) : Int) - 2) < 0
  · rw [if_pos hneg] at h; simp at h
  rw [if_neg hneg] at h
  simp only [Except.ok.injEq] at h
  subst h
  refine ⟨2 + ks + kf + 2, by omega, l3', l4, l5,
    by simp only [Header.dec, decoder.withStream]; rw [l6', a6'], ?_⟩
  intro bx wx nx hl ha
  obtain ⟨g1, g2⟩ := take_agree_split (2 + ks + kf) 2 _ _ ha
  obtain ⟨t1, bx1, bx2, r1, r2, r3, r4, r5, r6, r7⟩ := run2 bx wx nx hl g1
  obtain ⟨t3, c1, c2, c3, c4, c5⟩ := l7
    (decoder.stream { d with bytes := bx2, bits := s.bits }) r5 r6
    (by
      show bx2.pending.take 2 = b2.pending.take 2
      rw [r7, f2]
      exact g2)
    (by
      show 2 ≤ bx2.pending.length
      rw [r7, List.length_drop]
      omega)
  have c4' : t3.bytes.pending = bx2.pending.drop 2 := c4
  have c5' : t3.bits = s.bits := c5
  refine ⟨t3.bytes, ?_, c2, c3, by rw [c4', r7, List.drop_drop]⟩
  unfold segmentHeader
  rw [r1]
  simp only []
  rw [r3]
  simp only []
  rw [if_neg hm0, r4]
  simp only []
  rw [if_neg heoi, if_neg hrst, r2, ← a6', c1]
  simp only []
  rw [if_neg hneg]
  simp only [Header.withBytes, decoder.withStream, c5', l6']

/-- A `readFull` of `k` bytes by two decoders that agree but for the bytes,
on readers that hold the same `k` bytes next and as many bytes in all. -/
theorem readFull_pair (d : decoder) (bx : bytes) (k : Nat) (w : d.bytes.WF)
    (n0 : d.bytes.nUnreadable = 0) (wx : bx.WF) (nx : bx.nUnreadable = 0)
    (hl : bx.pending.length = d.bytes.pending.length)
    (ha : bx.pending.take k = d.bytes.pending.take k) :
    (∀ e, readFull d.stream k = .error e →
      readFull (decoder.stream { d with bytes := bx }) k = .error e) ∧
    (∀ tmp s, readFull d.stream k = .ok (tmp, s) →
      ∃ t, readFull (decoder.stream { d with bytes := bx }) k = .ok (tmp, t) ∧
        s.bytes.WF ∧ t.bytes.WF ∧ s.bytes.nUnreadable = 0 ∧ t.bytes.nUnreadable = 0 ∧
        s.bits = d.bits ∧ t.bits = d.bits ∧ s.bytes.pending = d.bytes.pending.drop k ∧
        t.bytes.pending = bx.pending.drop k ∧ k ≤ d.bytes.pending.length) := by
  constructor
  · intro e he
    exact readFull_fails d.stream (decoder.stream { d with bytes := bx }) k w n0 wx nx hl e he
  · intro tmp s hs
    obtain ⟨a1, -, a3, a4, a5, a6, a7⟩ := readFull_uses d.stream k w n0 tmp s hs
    have a1' : k ≤ d.bytes.pending.length := a1
    obtain ⟨t, c1, c2, c3, c4, c5⟩ := a7 (decoder.stream { d with bytes := bx }) wx nx ha
      (by
        show k ≤ bx.pending.length
        omega)
    exact ⟨t, c1, a4, c2, a5, c3, a6, c5, a3, c4, a1'⟩

/-- The decoder after `d.ignore(n)` on two readers with as many bytes. -/
theorem decoder_ignore_pair (d : decoder) (bx : bytes) (n : Nat) (w : d.bytes.WF)
    (n0 : d.bytes.nUnreadable = 0) (wx : bx.WF) (nx : bx.nUnreadable = 0)
    (hl : bx.pending.length = d.bytes.pending.length) :
    Rel (decoder.TwinAt n d.bytes.pending bx.pending) (d.ignore n)
      (decoder.ignore { d with bytes := bx } n) := by
  obtain ⟨g1, g2⟩ := ignore_twin d.stream (decoder.stream { d with bytes := bx }) n w n0 wx nx hl
  unfold decoder.ignore
  rcases hi : Jpeg.ignore d.stream n with e | t
  · rw [g1 e hi]
    exact rel_error _ _
  · obtain ⟨b1, b2, b3, b4, b5, t1, c1, c2, c3, c4, c5⟩ := g2 t hi
    rw [c1]
    apply rel_ok
    have b5' : t.bits = d.bits := b5
    have c5' : t1.bits = d.bits := c5
    refine ⟨?_, b3, c2, b4, c3, b2, c4, b1⟩
    simp only [decoder.withStream, b5', c5']

theorem withStream_bytes (d : decoder) (bx : bytes) (s t : Stream) (hs : s.bits = d.bits)
    (ht : t.bits = d.bits) :
    decoder.withStream { d with bytes := bx } t = { d.withStream s with bytes := t.bytes } := by
  unfold decoder.withStream
  rw [hs, ht]

/-- A handler that reads `k` bytes of a payload of `n` bytes, stores what it
has found in fields other than the bytes and skips the rest of the payload
(`processApp0Marker`, `processApp14Marker`), on two readers that hold the same
`n` bytes next. -/
theorem readThenIgnore_pair (d : decoder) (bx : bytes) (k n : Nat) (hk : k ≤ n)
    (f : List Nat → decoder → decoder)
    (hf : ∀ (tmp : List Nat) (x : decoder) (b : bytes),
      f tmp { x with bytes := b } = { f tmp x with bytes := b })
    (hfb : ∀ (tmp : List Nat) (x : decoder), (f tmp x).bytes = x.bytes)
    (w : d.bytes.WF) (n0 : d.bytes.nUnreadable = 0) (wx : bx.WF) (nx : bx.nUnreadable = 0)
    (hl : bx.pending.length = d.bytes.pending.length)
    (ha : bx.pending.take n = d.bytes.pending.take n) :
    Rel (decoder.TwinAt n d.bytes.pending bx.pending)
      (match readFull d.stream k with
        | .error e => .error e
        | .ok (tmp, s) =>
          if n - k > 0 then (f tmp (d.withStream s)).ignore (n - k)
          else .ok (f tmp (d.withStream s)))
      (match readFull (decoder.stream { d with bytes := bx }) k with
        | .error e => .error e
        | .ok (tmp, s) =>
          if n - k > 0 then
            (f tmp (decoder.withStream { d with bytes := bx } s)).ignore (n - k)
          else .ok (f tmp (decoder.withStream { d with bytes := bx } s))) := by
  obtain ⟨g1, g2⟩ := readFull_pair d bx k w n0 wx nx hl (take_agree_le k n _ _ hk ha)
  rcases hr : readFull d.stream k with e | ⟨tmp, s⟩
  · rw [g1 e hr]
    exact rel_error _ _
  · obtain ⟨t, c1, c2, c3, c4, c5, c6, c7, c8, c9, c10⟩ := g2 tmp s hr
    rw [c1]
    simp only []
    have e2 : f tmp (decoder.withStream { d with bytes := bx } t) =
        { f tmp (d.withStream s) with bytes := t.bytes } := by
      rw [withStream_bytes d bx s t c6 c7]
      exact hf _ _ _
    rw [e2]
    have wf1 : (f tmp (d.withStream s)).bytes.WF := by rw [hfb]; exact c2
    have nu1 : (f tmp (d.withStream s)).bytes.nUnreadable = 0 := by rw [hfb]; exact c4
    have pe1 : (f tmp (d.withStream s)).bytes.pending = d.bytes.pending.drop k := by
      rw [hfb]; exact c8
    generalize f tmp (d.withStream s) = X at wf1 nu1 pe1 ⊢
    apply rel_ite
    · intro hpos
      have hi := decoder_ignore_pair X t.bytes (n - k) wf1 nu1 c3 c5
        (by rw [pe1, c9, List.length_drop, List.length_drop, hl])
      refine rel_mono _ _ _ _ ?_ hi
      intro a a1 ⟨q1, q2, q3, q4, q5, q6, q7, q8⟩
      rw [pe1] at q6 q8
      rw [c9] at q7
      rw [List.length_drop] at q8
      rw [List.drop_drop] at q6 q7
      rw [show k + (n - k) = n by omega] at q6 q7
      exact ⟨q1, q2, q3, q4, q5, q6, q7, by omega⟩
    · intro hpos
      apply rel_ok
      have hnk : n = k := by omega
      subst hnk
      exact ⟨rfl, wf1, c3, nu1, c5, pe1, c9, c10⟩

theorem processApp0Marker_pair (d : decoder) (bx : bytes) (n : Nat) (w : d.bytes.WF)
    (n0 : d.bytes.nUnreadable = 0) (wx : bx.WF) (nx : bx.nUnreadable = 0)
    (hl : bx.pending.length = d.bytes.pending.length)
    (ha : bx.pending.take n = d.bytes.pending.take n) :
    Rel (decoder.TwinAt n d.bytes.pending bx.pending) (processApp0Marker d n)
      (processApp0Marker { d with bytes := bx } n) := by
  unfold processApp0Marker
  apply rel_ite
  · intro _
    exact decoder_ignore_pair d bx n w n0 wx nx hl
  · intro h5
    exact readThenIgnore_pair d bx 5 n (by omega)
      (fun tmp x => { x with
        jfif := tmp.getD 0 0 = 0x4a ∧ tmp.getD 1 0 = 0x46 ∧ tmp.getD 2 0 = 0x49 ∧
          tmp.getD 3 0 = 0x46 ∧ tmp.getD 4 0 = 0x00 })
      (fun _ _ _ => rfl) (fun _ _ => rfl) w n0 wx nx hl ha

theorem processApp14Marker_pair (d : decoder) (bx : bytes) (n : Nat) (w : d.bytes.WF)
    (n0 : d.bytes.nUnreadable = 0) (wx : bx.WF) (nx : bx.nUnreadable = 0)
    (hl : bx.pending.length = d.bytes.pending.length)
    (ha : bx.pending.take n = d.bytes.pending.take n) :
    Rel (decoder.TwinAt n d.bytes.pending bx.pending) (processApp14Marker d n)
      (processApp14Marker { d with bytes := bx } n) := by
  unfold processApp14Marker
  apply rel_ite
  · intro _
    exact decoder_ignore_pair d bx n w n0 wx nx hl
  · intro h12
    exact readThenIgnore_pair d bx 12 n (by omega)
      (fun tmp x =>
        if tmp.getD 0 0 = 0x41 ∧ tmp.getD 1 0 = 0x64 ∧ tmp.getD 2 0 = 0x6f ∧
            tmp.getD 3 0 = 0x62 ∧ tmp.getD 4 0 = 0x65 then
          { x with adobeTransformValid := true, adobeTransform := tmp.getD 11 0 }
        else x)
      (fun _ _ _ => by dsimp only; split <;> rfl) (fun _ _ => by dsimp only; split <;> rfl)
      w n0 wx nx hl ha

theorem processSOF_pair (d : decoder) (bx : bytes) (n : Nat) (w : d.bytes.WF)
    (n0 : d.bytes.nUnreadable = 0) (wx : bx.WF) (nx : bx.nUnreadable = 0)
    (hl : bx.pending.length = d.bytes.pending.length)
    (ha : bx.pending.take n = d.bytes.pending.take n) :
    Rel (decoder.TwinAt n d.bytes.pending bx.pending) (processSOF d n)
      (processSOF { d with bytes := bx } n) := by
  unfold processSOF
  apply rel_ite
  · intro _; exact rel_error _ _
  · intro _
    simp only []
    generalize (if n = 6 + 3 * 1 then 1 else if n = 6 + 3 * 3 then 3
      else if n = 6 + 3 * 4 then 4 else 0) = nc
    apply rel_ite
    · intro _; exact rel_error _ _
    · intro _
      obtain ⟨g1, g2⟩ := readFull_pair { d with nComp := nc } bx n w n0 wx nx hl ha
      rcases hr : readFull (decoder.stream { d with nComp := nc }) n with e | ⟨tmp, s⟩
      · have := g1 e hr
        rw [show (decoder.stream { d with bytes := bx, nComp := nc }) =
          (decoder.stream { ({ d with nComp := nc } : decoder) with bytes := bx }) from rfl, this]
        exact rel_error _ _
      · obtain ⟨t, c1, c2, c3, c4, c5, c6, c7, c8, c9, c10⟩ := g2 tmp s hr
        rw [show (decoder.stream { d with bytes := bx, nComp := nc }) =
          (decoder.stream { ({ d with nComp := nc } : decoder) with bytes := bx }) from rfl, c1]
        have c6' : s.bits = d.bits := c6
        have c7' : t.bits = d.bits := c7
        simp only [decoder.withStream, c6', c7']
        apply rel_ite
        · intro _; exact rel_error _ _
        · intro _
          apply rel_ite
          · intro _; exact rel_error _ _
          · intro _
            rcases sofComponents _ _ _ _ _ with e | comp
            · exact rel_error _ _
            · exact rel_ok _ _ _ ⟨rfl, c2, c3, c4, c5, c8, c9, c10⟩

theorem wrap_pair (n : Nat) (p1 p2 : List Nat) (r r1 : Except Err decoder) :
    Rel (decoder.TwinAt n p1 p2) r r1 →
    Rel (Outcome.TwinAt n p1 p2)
      (match r with
        | .error e => .error e
        | .ok d1 => .ok (.next d1))
      (match r1 with
        | .error e => .error e
        | .ok d1 => .ok (.next d1)) := by
  intro h
  rcases rel_cases _ _ _ h with ⟨e, h1, h2⟩ | ⟨a, a1, h1, h2, hq⟩
  · rw [h1, h2]; exact rel_error _ _
  · rw [h1, h2]; exact rel_ok _ _ _ hq

/-- The `switch marker` of the config-only mode on two readers with as many
bytes: a DHT, DQT or DRI segment is skipped whatever its payload is, and
every other segment is handled alike when the readers hold the same `n`
payload bytes next. -/
theorem decodeMarker_pair (d : decoder) (bx : bytes) (marker n : Nat) (w : d.bytes.WF)
    (n0 : d.bytes.nUnreadable = 0) (wx : bx.WF) (nx : bx.nUnreadable = 0)
    (hl : bx.pending.length = d.bytes.pending.length)
    (ha : isTable marker ∨ bx.pending.take n = d.bytes.pending.take n) :
    Rel (Outcome.TwinAt n d.bytes.pending bx.pending) (decodeMarker true d marker n)
      (decodeMarker true { d with bytes := bx } marker n) := by
  have hign := decoder_ignore_pair d bx n w n0 wx nx hl
  unfold decodeMarker
  simp only []
  apply rel_ite
  · intro hsof
    have ha1 : bx.pending.take n = d.bytes.pending.take n := by
      rcases ha with ht | ha
      · exfalso
        unfold isTable at ht
        rcases hsof with h | h | h <;> rcases ht with g | g | g <;> rw [h] at g <;>
          exact absurd g (by decide)
      · exact ha
    have hp := processSOF_pair { d with progressive := marker = sof2Marker } bx n w n0 wx nx hl ha1
    rcases rel_cases _ _ _ hp with ⟨e, h1, h2⟩ | ⟨a, a1, h1, h2, hq⟩
    · rw [h1]
      rw [show ({ d with bytes := bx, progressive := decide (marker = sof2Marker) } : decoder) =
        { ({ d with progressive := decide (marker = sof2Marker) } : decoder) with bytes := bx }
        from rfl, h2]
      exact rel_error _ _
    · rw [h1]
      rw [show ({ d with bytes := bx, progressive := decide (marker = sof2Marker) } : decoder) =
        { ({ d with progressive := decide (marker = sof2Marker) } : decoder) with bytes := bx }
        from rfl, h2]
      simp only []
      have hj : a1.jfif = a.jfif := by rw [hq.1]
      rw [hj]
      apply rel_ite
      · intro _; exact rel_ok _ _ _ hq.1
      · intro _; exact rel_ok _ _ _ hq
  · intro _
    apply rel_ite
    · intro _
      apply rel_ite
      · intro _; exact wrap_pair _ _ _ _ _ hign
      · intro hc; exact absurd trivial hc
    · intro hdht
      apply rel_ite
      · intro _
        apply rel_ite
        · intro _; exact wrap_pair _ _ _ _ _ hign
        · intro hc; exact absurd trivial hc
      · intro hdqt
        apply rel_ite
        · intro _
          apply rel_ite
          · intro _; exact rel_ok _ _ _ rfl
          · intro hc; exact absurd trivial hc
        · intro _
          apply rel_ite
          · intro _
            apply rel_ite
            · intro _; exact wrap_pair _ _ _ _ _ hign
            · intro hc; exact absurd trivial hc
          · intro hdri
            have ha1 : bx.pending.take n = d.bytes.pending.take n := by
              rcases ha with ht | ha
              · exfalso
                unfold isTable at ht
                rcases ht with g | g | g
                · exact hdht g
                · exact hdqt g
                · exact hdri g
              · exact ha
            apply rel_ite
            · intro _
              exact wrap_pair _ _ _ _ _ (processApp0Marker_pair d bx n w n0 wx nx hl ha1)
            · intro _
              apply rel_ite
              · intro _
                exact wrap_pair _ _ _ _ _ (processApp14Marker_pair d bx n w n0 wx nx hl ha1)
              · intro _
                apply rel_ite
                · intro _; exact wrap_pair _ _ _ _ _ hign
                · intro _
                  apply rel_ite
                  · intro _; exact rel_error _ _
                  · intro _; exact rel_error _ _

end Jpeg

namespace Jpeg

/-! ## Streams that differ in skipped bytes -/

theorem skipped_masked (tr : List (decoder × Nat × Nat)) (len i : Nat) (hi : i < len)
    (h : Skipped tr len i) : Masked tr (len - i) := by
  rcases h with ⟨e, he, h1, h2, h3⟩ | h
  · exact Or.inl ⟨e, he, h1, by omega, by omega⟩
  · exact Or.inr (by omega)

theorem take_eq_of_getD : ∀ (k : Nat) (p1 p2 : List Nat), p1.length = p2.length →
    (∀ i, i < k → i < p1.length → p1.getD i 0 = p2.getD i 0) → p2.take k = p1.take k := by
  intro k
  induction k with
  | zero => intro p1 p2 _ _; rfl
  | succ k ih =>
    intro p1 p2 hl h
    cases p1 with
    | nil =>
      cases p2 with
      | nil => rfl
      | cons y t2 => simp at hl
    | cons x t1 =>
      cases p2 with
      | nil => simp at hl
      | cons y t2 =>
        simp only [List.length_cons, Nat.add_right_cancel_iff] at hl
        have h0 := h 0 (by omega) (by simp)
        simp only [List.getD_cons_zero] at h0
        simp only [List.take_succ_cons, List.cons.injEq]
        refine ⟨h0.symm, ih t1 t2 hl ?_⟩
        intro i hi hi2
        have := h (i + 1) (by omega) (by simp only [List.length_cons]; omega)
        simpa using this

/-- Lists that differ in masked bytes only agree on the first `k` bytes, when
no masked byte is among them. -/
theorem agree_of_differ (tr : List (decoder × Nat × Nat)) (p1 p2 : List Nat) (k : Nat)
    (hl : p1.length = p2.length) (hd : Differ tr p1 p2)
    (hb : ∀ rho, 1 ≤ rho → Masked tr rho → rho + k ≤ p1.length) :
    p2.take k = p1.take k := by
  apply take_eq_of_getD k p1 p2 hl
  intro i hik hi
  by_contra hne
  have := hb _ (by omega) (hd i hi hne)
  omega

theorem getD_drop (l : List Nat) (k i : Nat) : (l.drop k).getD i 0 = l.getD (k + i) 0 := by
  simp [List.getD_eq_getElem?_getD, List.getElem?_drop]

/-- What is left of two lists that differ in masked bytes only, behind the
first `k` bytes. -/
theorem differ_drop (tr tr1 : List (decoder × Nat × Nat)) (p1 p2 : List Nat) (k : Nat)
    (hd : Differ tr p1 p2)
    (hm : ∀ rho, 1 ≤ rho → rho + k ≤ p1.length → Masked tr rho → Masked tr1 rho) :
    Differ tr1 (p1.drop k) (p2.drop k) := by
  intro i hi hne
  rw [List.length_drop] at hi
  rw [getD_drop, getD_drop] at hne
  have h1 := hd (k + i) (by omega) hne
  rw [List.length_drop]
  have e : p1.length - k - i = p1.length - (k + i) := by omega
  rw [e]
  exact hm _ (by omega) (by omega) h1

theorem unreadTail_nil : unreadTail [] = 0 := rfl

theorem unreadTail_cons (e : decoder × Nat × Nat) (rest : List (decoder × Nat × Nat))
    (h : rest ≠ []) : unreadTail (e :: rest) = unreadTail rest := by
  cases rest with
  | nil => exact absurd rfl h
  | cons b l =>
    unfold unreadTail
    rw [List.getLast?_cons_cons]

theorem masked_nil (rho : Nat) (h1 : 1 ≤ rho) : ¬ Masked [] rho := by
  rintro (⟨e, he, -⟩ | h)
  · simp at he
  · rw [unreadTail_nil] at h
    omega

/-- A masked byte of a trace that starts with the segment `(d1, marker, n)`:
it lies in the payload of this segment, which is a DHT, DQT or DRI segment;
or it is masked in the rest of the trace; or the walk ends at this segment
and the byte lies behind the payload. -/
theorem masked_cons (d1 : decoder) (marker n : Nat) (rest : List (decoder × Nat × Nat))
    (rho : Nat) (h1 : 1 ≤ rho) (h : Masked ((d1, marker, n) :: rest) rho) :
    (isTable marker ∧ rho ≤ d1.bytes.pending.length ∧ d1.bytes.pending.length < rho + n) ∨
    Masked rest rho ∨
    (rest = [] ∧ (∀ d2, decodeMarker true d1 marker n ≠ .ok (.next d2)) ∧
      rho + n ≤ d1.bytes.pending.length) := by
  rcases h with ⟨e, he, a1, a2, a3⟩ | h
  · simp only [List.mem_cons] at he
    rcases he with rfl | he
    · exact Or.inl ⟨a1, a2, a3⟩
    · exact Or.inr (Or.inl (Or.inl ⟨e, he, a1, a2, a3⟩))
  · by_cases hr : rest = []
    · subst hr
      right; right
      unfold unreadTail at h
      simp only [List.getLast?_singleton] at h
      rcases hm : decodeMarker true d1 marker n with er | out
      · rw [hm] at h
        simp only [] at h
        exact ⟨rfl, by intro d2 hc; simp at hc, by omega⟩
      · rw [hm] at h
        cases out with
        | next d2 =>
          simp only [] at h
          omega
        | eoi d2 =>
          simp only [] at h
          exact ⟨rfl, by intro d3 hc; simp at hc, by omega⟩
        | ret d2 =>
          simp only [] at h
          exact ⟨rfl, by intro d3 hc; simp at hc, by omega⟩
    · rw [unreadTail_cons _ _ hr] at h
      exact Or.inr (Or.inl (Or.inr h))

theorem trace_none (fuel : Nat) (d : decoder)
    (h : (∃ e, segmentHeader d = .error e) ∨ (∃ d1, segmentHeader d = .ok (.eoi d1))) :
    decodeTrace true fuel d = [] := by
  rw [decodeTrace]
  rcases h with ⟨e, h⟩ | ⟨d1, h⟩ <;> rw [h]

theorem trace_skip (fuel : Nat) (d d1 : decoder) (h : segmentHeader d = .ok (.skip d1)) :
    decodeTrace true 0 d = [] ∧ decodeTrace true (fuel + 1) d = decodeTrace true fuel d1 := by
  constructor
  · rw [decodeTrace, h]
  · rw [decodeTrace, h]

theorem trace_seg (fuel : Nat) (d d1 : decoder) (marker n : Nat)
    (h : segmentHeader d = .ok (.seg d1 marker n)) :
    decodeTrace true fuel d =
      (d1, marker, n) ::
        match decodeMarker true d1 marker n with
        | .ok (.next d2) =>
          match fuel with
          | 0 => []
          | fuel + 1 => decodeTrace true fuel d2
        | _ => [] := by
  rw [decodeTrace, h]

/-- A handler of the config-only mode after which the loop goes on has
consumed the payload. -/
theorem marker_next (d d2 : decoder) (marker n : Nat) (w : d.bytes.WF)
    (n0 : d.bytes.nUnreadable = 0) (h : decodeMarker true d marker n = .ok (.next d2)) :
    d2.bytes.WF ∧ d2.bytes.nUnreadable = 0 ∧ d2.bytes.pending = d.bytes.pending.drop n ∧
      n ≤ d.bytes.pending.length := by
  have hp := decodeMarker_pair d d.bytes marker n w n0 w n0 rfl (Or.inr rfl)
  obtain ⟨-, hok⟩ := hp
  obtain ⟨o, -, ho⟩ := hok _ h
  cases o with
  | next b =>
    obtain ⟨-, q2, -, q4, -, q6, -, q8⟩ := ho
    exact ⟨q2, q4, q6, q8⟩
  | eoi b => exact absurd ho (by simp [Outcome.TwinAt])
  | ret b => exact absurd ho (by simp [Outcome.TwinAt])

/-- A masked byte of the trace from the decoder `d` on lies behind the header
of the first segment: the first part of the round succeeds, and the byte is
among the bytes that it leaves. -/
theorem masked_behind : ∀ (fuel : Nat) (d : decoder), d.bytes.WF → d.bytes.nUnreadable = 0 →
    ∀ rho, 1 ≤ rho → Masked (decodeTrace true fuel d) rho →
      ∃ hdr, segmentHeader d = .ok hdr ∧ rho ≤ hdr.dec.bytes.pending.length ∧
        rho ≤ d.bytes.pending.length := by
  intro fuel
  induction fuel with
  | zero =>
    intro d w n0 rho h1 hm
    rcases hh : segmentHeader d with e | hdr
    · rw [trace_none 0 d (Or.inl ⟨e, hh⟩)] at hm
      exact absurd hm (masked_nil rho h1)
    · obtain ⟨k, k1, k2, k3, k4, -, -⟩ := segmentHeader_uses d hdr w n0 hh
      cases hdr with
      | skip d1 =>
        rw [(trace_skip 0 d d1 hh).1] at hm
        exact absurd hm (masked_nil rho h1)
      | eoi d1 =>
        rw [trace_none 0 d (Or.inr ⟨d1, hh⟩)] at hm
        exact absurd hm (masked_nil rho h1)
      | seg d1 marker n =>
        rw [trace_seg 0 d d1 marker n hh] at hm
        have hrest : (match decodeMarker true d1 marker n with
            | .ok (.next _) => ([] : List (decoder × Nat × Nat))
            | _ => []) = [] := by
          split <;> rfl
        have hm2 : Masked [(d1, marker, n)] rho := by
          have e : (match decodeMarker true d1 marker n with
              | .ok (.next d2) =>
                match (0 : Nat) with
                | 0 => ([] : List (decoder × Nat × Nat))
                | fuel + 1 => decodeTrace true fuel d2
              | _ => []) = [] := by
            split <;> rfl
          rw [e] at hm
          exact hm
        simp only [Header.dec] at k2
        rcases masked_cons d1 marker n [] rho h1 hm2 with ⟨-, a2, -⟩ | a | ⟨-, -, a3⟩
        · refine ⟨_, rfl, a2, ?_⟩
          rw [k2, List.length_drop] at a2
          omega
        · exact absurd a (masked_nil rho h1)
        · refine ⟨_, rfl, by simp only [Header.dec]; omega, ?_⟩
          rw [k2, List.length_drop] at a3
          omega
  | succ fuel ih =>
    intro d w n0 rho h1 hm
    rcases hh : segmentHeader d with e | hdr
    · rw [trace_none _ d (Or.inl ⟨e, hh⟩)] at hm
      exact absurd hm (masked_nil rho h1)
    · obtain ⟨k, k1, k2, k3, k4, -, -⟩ := segmentHeader_uses d hdr w n0 hh
      cases hdr with
      | skip d1 =>
        rw [(trace_skip fuel d d1 hh).2] at hm
        simp only [Header.dec] at k2 k3 k4
        obtain ⟨hdr1, -, -, b3⟩ := ih d1 k3 k4 rho h1 hm
        refine ⟨_, rfl, b3, ?_⟩
        rw [k2, List.length_drop] at b3
        omega
      | eoi d1 =>
        rw [trace_none _ d (Or.inr ⟨d1, hh⟩)] at hm
        exact absurd hm (masked_nil rho h1)
      | seg d1 marker n =>
        rw [trace_seg _ d d1 marker n hh] at hm
        simp only [Header.dec] at k2 k3 k4
        have hlen : d1.bytes.pending.length ≤ d.bytes.pending.length := by
          rw [k2, List.length_drop]
          omega
        rcases masked_cons d1 marker n _ rho h1 hm with ⟨-, a2, -⟩ | a | ⟨-, -, a3⟩
        · exact ⟨_, rfl, a2, by omega⟩
        · rcases hmk : decodeMarker true d1 marker n with er | out
          · rw [hmk] at a
            exact absurd a (masked_nil rho h1)
          · rw [hmk] at a
            cases out with
            | next d2 =>
              simp only [] at a
              obtain ⟨m1, m2, m3, m4⟩ := marker_next d1 d2 marker n k3 k4 hmk
              obtain ⟨hdr2, -, -, b3⟩ := ih d2 m1 m2 rho h1 a
              rw [m3, List.length_drop] at b3
              exact ⟨_, rfl, by simp only [Header.dec]; omega, by omega⟩
            | eoi d2 => exact absurd a (masked_nil rho h1)
            | ret d2 => exact absurd a (masked_nil rho h1)
        · exact ⟨_, rfl, by simp only [Header.dec]; omega, by omega⟩

/-- The segment loop on two readers that hold the same bytes. -/
theorem loop_equal (fuel : Nat) (d : decoder) (bx : bytes) (w : d.bytes.WF)
    (n0 : d.bytes.nUnreadable = 0) (wx : bx.WF) (nx : bx.nUnreadable = 0)
    (hp : bx.pending = d.bytes.pending) :
    Rel LoopTwin (decodeLoop true fuel d) (decodeLoop true fuel { d with bytes := bx }) := by
  have hs : d.Same { d with bytes := bx } :=
    ⟨rfl, same_of_pending d.bytes bx w wx n0 nx hp.symm⟩
  exact rel_mono _ _ _ _ (fun a a1 h => ⟨h.1.1, h.2⟩)
    (decodeLoop_rel true fuel d _ (same_start _ _ hs))

theorem differ_nil (p1 p2 : List Nat) (hl : p1.length = p2.length) (hd : Differ [] p1 p2) :
    p2 = p1 := by
  have h := agree_of_differ [] p1 p2 p1.length hl hd
    (fun rho h1 hm => absurd hm (masked_nil rho h1))
  rw [List.take_length] at h
  rw [hl, List.take_length] at h
  exact h

/-- One round of the segment loop of the config-only mode on two readers whose
bytes differ in masked bytes only, given the same for the rounds behind it. -/
theorem configStep_pair (fuel : Nat) (d : decoder) (bx : bytes) (w : d.bytes.WF)
    (n0 : d.bytes.nUnreadable = 0) (wx : bx.WF) (nx : bx.nUnreadable = 0)
    (hl : bx.pending.length = d.bytes.pending.length)
    (hd : Differ (decodeTrace true fuel d) d.bytes.pending bx.pending)
    (ih : ∀ f, fuel = f + 1 → ∀ (d2 : decoder) (b2 : bytes), d2.bytes.WF →
      d2.bytes.nUnreadable = 0 → b2.WF → b2.nUnreadable = 0 →
      b2.pending.length = d2.bytes.pending.length →
      Differ (decodeTrace true f d2) d2.bytes.pending b2.pending →
      Rel LoopTwin (decodeLoop true f d2) (decodeLoop true f { d2 with bytes := b2 })) :
    Rel LoopTwin (decodeLoop true fuel d) (decodeLoop true fuel { d with bytes := bx }) := by
  have hnil : decodeTrace true fuel d = [] →
      Rel LoopTwin (decodeLoop true fuel d) (decodeLoop true fuel { d with bytes := bx }) := by
    intro ht
    rw [ht] at hd
    exact loop_equal fuel d bx w n0 wx nx (differ_nil _ _ hl.symm hd)
  rcases hh : segmentHeader d with e | hdr
  · exact hnil (trace_none fuel d (Or.inl ⟨e, hh⟩))
  · obtain ⟨k, k1, k2, k3, k4, k5, k6⟩ := segmentHeader_uses d hdr w n0 hh
    have hag : bx.pending.take k = d.bytes.pending.take k := by
      apply agree_of_differ _ _ _ k hl.symm hd
      intro rho h1 hm
      obtain ⟨hdr1, e1, b2, b3⟩ := masked_behind fuel d w n0 rho h1 hm
      rw [hh] at e1
      simp only [Except.ok.injEq] at e1
      subst e1
      rw [k2, List.length_drop] at b2
      omega
    obtain ⟨bx', x1, x2, x3, x4⟩ := k6 bx wx nx hl hag
    have hd1 : Differ (decodeTrace true fuel d) hdr.dec.bytes.pending bx'.pending := by
      rw [k2, x4]
      exact differ_drop _ _ _ _ k hd (fun _ _ _ h => h)
    have hl1 : bx'.pending.length = hdr.dec.bytes.pending.length := by
      rw [k2, x4, List.length_drop, List.length_drop, hl]
    cases hdr with
    | eoi d1 => exact hnil (trace_none fuel d (Or.inr ⟨d1, hh⟩))
    | skip d1 =>
      cases fuel with
      | zero => exact hnil (trace_skip 0 d d1 hh).1
      | succ f =>
        rw [(trace_skip f d d1 hh).2] at hd1
        simp only [Header.dec] at k3 k4 hl1 hd1
        have hr := ih f rfl d1 bx' k3 k4 x2 x3 hl1 hd1
        rw [decodeLoop, decodeLoop, decodeSegment, decodeSegment, hh, x1]
        simp only [Header.withBytes]
        exact hr
    | seg d1 marker n =>
      rw [trace_seg fuel d d1 marker n hh] at hd1
      simp only [Header.dec] at k3 k4 hl1 hd1
      have ha : isTable marker ∨ bx'.pending.take n = d1.bytes.pending.take n := by
        by_cases ht : isTable marker
        · exact Or.inl ht
        · right
          apply agree_of_differ _ _ _ n hl1.symm hd1
          intro rho h1 hm
          rcases masked_cons d1 marker n _ rho h1 hm with ⟨a1, -, -⟩ | a | ⟨-, -, a3⟩
          · exact absurd a1 ht
          · rcases hmk : decodeMarker true d1 marker n with er | out
            · rw [hmk] at a
              exact absurd a (masked_nil rho h1)
            · rw [hmk] at a
              cases out with
              | next d2 =>
                cases fuel with
                | zero => exact absurd a (masked_nil rho h1)
                | succ f =>
                  simp only [] at a
                  obtain ⟨m1, m2, m3, m4⟩ := marker_next d1 d2 marker n k3 k4 hmk
                  obtain ⟨hdr2, -, -, b3⟩ := masked_behind f d2 m1 m2 rho h1 a
                  rw [m3, List.length_drop] at b3
                  omega
              | eoi d2 => exact absurd a (masked_nil rho h1)
              | ret d2 => exact absurd a (masked_nil rho h1)
          · exact a3
      have hp := decodeMarker_pair d1 bx' marker n k3 k4 x2 x3 hl1 ha
      rw [decodeLoop, decodeLoop, decodeSegment, decodeSegment, hh, x1]
      simp only [Header.withBytes]
      rcases rel_cases _ _ _ hp with ⟨e, h1, h2⟩ | ⟨a, a1, h1, h2, hq⟩
      · rw [h1, h2]
        exact rel_error _ _
      · rw [h1, h2]
        rw [h1] at hd1
        cases a with
        | next d2 =>
          cases a1 with
          | next d2x =>
            obtain ⟨q1, q2, q3, q4, q5, q6, q7, q8⟩ := hq
            cases fuel with
            | zero => exact rel_error _ _
            | succ f =>
              simp only [] at hd1 ⊢
              rw [q1]
              apply ih f rfl d2 d2x.bytes q2 q4 q3 q5
              · rw [q6, q7, List.length_drop, List.length_drop, hl1]
              · rw [q6, q7]
                apply differ_drop _ _ _ _ n hd1
                intro rho r1 r2 hm
                rcases masked_cons d1 marker n _ rho r1 hm with ⟨-, -, a3⟩ | a | ⟨-, a2, -⟩
                · omega
                · exact a
                · exact absurd h1 (a2 d2)
          | eoi d2x => exact absurd hq (by simp [Outcome.TwinAt])
          | ret d2x => exact absurd hq (by simp [Outcome.TwinAt])
        | eoi d2 =>
          cases a1 with
          | next d2x => exact absurd hq (by simp [Outcome.TwinAt])
          | eoi d2x => exact rel_ok _ _ _ ⟨hq, rfl⟩
          | ret d2x => exact absurd hq (by simp [Outcome.TwinAt])
        | ret d2 =>
          cases a1 with
          | next d2x => exact absurd hq (by simp [Outcome.TwinAt])
          | eoi d2x => exact absurd hq (by simp [Outcome.TwinAt])
          | ret d2x => exact rel_ok _ _ _ ⟨hq, rfl⟩

/-- The segment loop of the config-only mode on two readers whose bytes differ
in masked bytes only: the same error, or decoders that agree but for the bytes
and the same way out of the loop. -/
theorem configLoop_pair : ∀ (fuel : Nat) (d : decoder) (bx : bytes), d.bytes.WF →
    d.bytes.nUnreadable = 0 → bx.WF → bx.nUnreadable = 0 →
    bx.pending.length = d.bytes.pending.length →
    Differ (decodeTrace true fuel d) d.bytes.pending bx.pending →
    Rel LoopTwin (decodeLoop true fuel d) (decodeLoop true fuel { d with bytes := bx }) := by
  intro fuel
  induction fuel with
  | zero =>
    intro d bx w n0 wx nx hl hd
    exact configStep_pair 0 d bx w n0 wx nx hl hd (fun f hf => by omega)
  | succ fuel ih =>
    intro d bx w n0 wx nx hl hd
    apply configStep_pair (fuel + 1) d bx w n0 wx nx hl hd
    intro f hf
    have e : fuel = f := by omega
    subst e
    exact ih

end Jpeg

namespace Jpeg

theorem configOf_bytes (d : decoder) (b : bytes) : configOf { d with bytes := b } = configOf d :=
  rfl

theorem init_bytes (r1 r2 : List Nat) :
    decoder.init r2 = { decoder.init r1 with bytes := (decoder.init r2).bytes } := rfl

/-- The end of `decode` and of `DecodeConfig` behind the segment loop, for two
runs that leave the loop alike. -/
theorem configOf_loop (r1 r2 : List Nat) (tmp : List Nat) (s t : Stream)
    (h1 : readFull (decoder.init r1).stream 2 = .ok (tmp, s))
    (h2 : readFull (decoder.init r2).stream 2 = .ok (tmp, t))
    (hsoi : ¬ (tmp.getD 0 0 ≠ 0xff ∨ tmp.getD 1 0 ≠ soiMarker))
    (hr : Rel LoopTwin
      (decodeLoop true ((decoder.init r1).withStream s).bytes.remaining
        ((decoder.init r1).withStream s))
      (decodeLoop true ((decoder.init r2).withStream t).bytes.remaining
        ((decoder.init r2).withStream t))) :
    DecodeConfig r1 = DecodeConfig r2 := by
  obtain ⟨a1, a2, a3, a4, -⟩ := decode_cases true r1 tmp s h1 hsoi
  obtain ⟨b1, b2, b3, b4, -⟩ := decode_cases true r2 tmp t h2 hsoi
  unfold DecodeConfig
  rcases rel_cases _ _ _ hr with ⟨e, x, y⟩ | ⟨⟨d2, c⟩, ⟨d2x, cx⟩, x, y, hq1, hq2⟩
  · rw [a1 e x, b1 e y]
  · simp only [] at hq1 hq2
    subst hq2
    cases c with
    | false =>
      rw [a2 d2 x, b2 d2x y]
      simp only []
      rw [hq1]
      exact (configOf_bytes d2 d2x.bytes).symm
    | true =>
      have hres : decodeResult d2x = decodeResult d2 := by
        rw [hq1]
        exact decodeResult_bytes d2 d2x.bytes
      rcases hd : decodeResult d2 with e | img
      · rw [a3 d2 e x hd, b3 d2x e y (by rw [hres, hd])]
      · rw [a4 d2 img x hd, b4 d2x img y (by rw [hres, hd])]
        simp only []
        rw [hq1]
        exact (configOf_bytes d2 d2x.bytes).symm

/-- Two streams of the same length that differ in masked bytes only, given the
segments that the config-only walk meets in the first one: `DecodeConfig`
returns the same on both. -/
theorem decodeConfig_differ (r1 r2 : List Nat) (hl : r1.length = r2.length)
    (hd : Differ (segmentsOf true r1) r1 r2) : DecodeConfig r1 = DecodeConfig r2 := by
  have hnil : segmentsOf true r1 = [] → DecodeConfig r1 = DecodeConfig r2 := by
    intro ht
    rw [ht] at hd
    rw [differ_nil r1 r2 hl hd]
  obtain ⟨w1, n1, p1, -⟩ := init_ok r1
  obtain ⟨w2, n2, p2, -⟩ := init_ok r2
  rcases hrf : readFull (decoder.init r1).stream 2 with e | ⟨tmp, s⟩
  · exact hnil ((decode_bad_start true r1).1 e hrf).2
  · by_cases hsoi : tmp.getD 0 0 ≠ 0xff ∨ tmp.getD 1 0 ≠ soiMarker
    · exact hnil ((decode_bad_start true r1).2 tmp s hrf hsoi).2
    · obtain ⟨u1, u2, u3, u4, u5, u6, u7⟩ :=
        readFull_uses (decoder.init r1).stream 2 w1 n1 tmp s hrf
      have p1s : (decoder.init r1).stream.bytes.pending = r1 := p1
      have p2s : (decoder.init r2).stream.bytes.pending = r2 := p2
      rw [p1s] at u1 u3
      have hseg := (decode_cases true r1 tmp s hrf hsoi).2.2.2.2
      have wd : ((decoder.init r1).withStream s).bytes.WF := u4
      have nd : ((decoder.init r1).withStream s).bytes.nUnreadable = 0 := u5
      have pd : ((decoder.init r1).withStream s).bytes.pending = r1.drop 2 := u3
      rw [hseg] at hd
      have hag : r2.take 2 = r1.take 2 := by
        apply agree_of_differ _ _ _ 2 hl hd
        intro rho h1 hm
        obtain ⟨hdr, -, -, b3⟩ := masked_behind _ _ wd nd rho h1 hm
        rw [pd, List.length_drop] at b3
        omega
      obtain ⟨t, t1, t2, t3, t4, t5⟩ := u7 (decoder.init r2).stream w2 n2
        (by rw [p1s, p2s]; exact hag) (by rw [p2s, ← hl]; exact u1)
      rw [p2s] at t4
      have hw : (decoder.init r2).withStream t =
          { (decoder.init r1).withStream s with bytes := t.bytes } := by
        rw [init_bytes r1 r2]
        exact withStream_bytes (decoder.init r1) _ s t u6 t5
      have hfuel : ((decoder.init r2).withStream t).bytes.remaining =
          ((decoder.init r1).withStream s).bytes.remaining := by
        rw [remaining_eq _ wd, pd, hw, remaining_eq _ t2, t4, List.length_drop,
          List.length_drop, hl]
      apply configOf_loop r1 r2 tmp s t hrf t1 hsoi
      rw [hfuel, hw]
      apply configLoop_pair _ _ t.bytes wd nd t2 t3
      · rw [pd, t4, List.length_drop, List.length_drop, hl]
      · rw [pd, t4]
        exact differ_drop _ _ _ _ 2 hd (fun _ _ _ h => h)

/-- C34: two input streams of the same length that differ only in payload
bytes of DHT, DQT and DRI segments that the config-only walk meets (or in bytes
that it never reads, behind the segment at which it stops) give the same
result of `DecodeConfig`, the same configuration or the same error; the switch
of the config-only mode skips a DHT, DQT or DRI segment with `ignore` by its
length, whatever the payload holds, and returns at a Start Of Scan marker
without reading what follows. -/
theorem C34_config_skips_tables (r1 r2 : List Nat) (hl : r1.length = r2.length)
    (hd : ∀ i, i < r1.length → r1.getD i 0 ≠ r2.getD i 0 →
      Skipped (segmentsOf true r1) r1.length i) :
    DecodeConfig r1 = DecodeConfig r2 ∧
    (∀ (d : decoder) (marker n : Nat), isTable marker →
      decodeMarker true d marker n =
        match d.ignore n with
        | .error e => .error e
        | .ok d1 => .ok (.next d1)) ∧
    (∀ (d : decoder) (n : Nat), decodeMarker true d sosMarker n = .ok (.ret d)) := by
  refine ⟨?_, ?_, ?_⟩
  · apply decodeConfig_differ r1 r2 hl
    intro i hi hne
    exact skipped_masked _ _ _ hi (hd i hi hne)
  · intro d marker n ht
    rcases ht with rfl | rfl | rfl <;> rfl
  · intro d n
    rfl

set_option maxRecDepth 1000000 in
set_option maxHeartbeats 4000000 in
theorem C34_config_skips_tables_witness :
    tablesStreamA ≠ tablesStreamB ∧ DecodeConfig tablesStreamA = DecodeConfig tablesStreamB ∧
      DecodeConfig tablesStreamA = .ok { ColorModel := .GrayModel, Width := 8, Height := 8 } :=
  ⟨by decide,
    (C34_config_skips_tables tablesStreamA tablesStreamB (by decide) (by decide!)).1,
    by decide!⟩

end Jpeg
